import Mathlib

/-! # Mutation++: embedding and verification

Three parts: the class template `Numerics::SVD` (src/numerics/SVD.h), the
command-line parsers of `mppequil` (src/general/mppequil.cpp) and the formula
scanner `Reaction::parseSpecies` (src/kinetics/Reaction.cpp).  The definitions
of the three parts come first, the theorems after them.

The class `Numerics::SVD`.  The class template `SVD<Real>` is embedded over an
arbitrary linearly ordered field `R` ("exact real arithmetic").  The two things
the template takes from headers that are not part of the sources at hand are
parameters of the embedding:

* `sqrt : R → R` stands for `std::sqrt`;
* `eps : R` stands for `NumConst<Real>::eps` (machine epsilon).

`Vector<Real>` and `Matrix<Real>` (Matrix.h) are dense containers; they are
embedded as lists (of rows).  `Matrix<Real>(m, n)` and `Vector<Real>(n)` are
taken to allocate zero-filled storage.

Loop counters that range over `-1 .. p-2` in the source (`k` and `ks` in the
classification part of the main loop) are stored shifted by one so that they
are natural numbers; this is said at each such place.

The constructor in double precision.  In an ordered field a sum or a product
never overflows or underflows, every two values compare, and a product of
non-zero values is non-zero; the type `double` has none of these properties.
The constructor is therefore embedded a second time (`F64`, `Double.construct`),
with the IEEE 754 arithmetic of `double` (round to nearest, ties to even,
infinities, NaN, signed zeros, subnormal numbers), `int` counters and a test of
every index.  Statements that hold of the first embedding only are stated for
exact arithmetic, and the runs on which `double` departs from it are evaluated
in the second.
-/

namespace Numerics

variable {R : Type} [LinearOrderedField R]

set_option linter.unusedSectionVars false

/-! ## Containers -/

/-- Dense vector `Vector<Real>`: the list of its entries. -/
abbrev Vec (R : Type) := List R

/-- Entry `v(i)`. -/
def Vec.get (v : Vec R) (i : ℕ) : R := v.getD i 0

/-- Assignment `v(i) = x`. -/
def Vec.set (v : Vec R) (i : ℕ) (x : R) : Vec R := List.set v i x

/-- Storage of `Vector<Real>(n)`. -/
def Vec.zeros (n : ℕ) : Vec R := List.replicate n 0

/-- Dense matrix `Matrix<Real>`: its dimensions and the list of its rows. -/
structure Mat (R : Type) where
  rows : ℕ
  cols : ℕ
  val : List (List R)
deriving DecidableEq

/-- Entry `A(i,j)`. -/
def Mat.get (A : Mat R) (i j : ℕ) : R := (A.val.getD i []).getD j 0

/-- Assignment `A(i,j) = x`. -/
def Mat.set (A : Mat R) (i j : ℕ) (x : R) : Mat R :=
  { A with val := A.val.set i ((A.val.getD i []).set j x) }

/-- Storage of `Matrix<Real>(m, n)`. -/
def Mat.zeros (m n : ℕ) : Mat R := ⟨m, n, List.replicate m (List.replicate n 0)⟩

/-- A matrix given by its rows, all of length `n`. -/
def Mat.ofRows (n : ℕ) (rs : List (List R)) : Mat R := ⟨rs.length, n, rs⟩

/-- The stored rows agree with the declared dimensions. -/
def Mat.WF (A : Mat R) : Prop :=
  A.val.length = A.rows ∧ ∀ r ∈ A.val, r.length = A.cols

/-! ## Loops -/

/-- Loop `for (i = lo; i < hi; i++) st = body(i, st)`. -/
def forUp {σ : Type} (lo hi : ℕ) (body : ℕ → σ → σ) (st : σ) : σ :=
  (List.range' lo (hi - lo)).foldl (fun s i => body i s) st

/-- Loop `for (i = hi - 1; i >= lo; i--) st = body(i, st)`. -/
def forDown {σ : Type} (lo hi : ℕ) (body : ℕ → σ → σ) (st : σ) : σ :=
  (List.range' lo (hi - lo)).foldr (fun i s => body i s) st

/-! ## `hypot` -/

/-- Function `hypot(a, b)` of SVD.h. -/
def hypot (sqrt : R → R) (a b : R) : R :=
  if a = 0 then |b|
  else if |a| > |b| then
    let c := b / a
    |a| * sqrt (1 + c * c)
  else
    let c := a / b
    |b| * sqrt (1 + c * c)

/-! ## Bidiagonalisation (SVD.h lines 164–261) -/

/-- Variables the bidiagonalisation loop works on: the working copy `m_A`,
`m_s`, `e`, `work`, `m_U`, `m_V`. -/
structure Bidiag (R : Type) where
  A : Mat R
  s : Vec R
  e : Vec R
  work : Vec R
  U : Mat R
  V : Mat R
deriving DecidableEq

/-- Lines 168–184: the transformation for the `k`-th column; the `k`-th
diagonal is placed in `m_s(k)`. -/
def colTransform (sqrt : R → R) (m k : ℕ) (st : Bidiag R) : Bidiag R :=
  let st : Bidiag R := { st with s := st.s.set k 0 }
  let st : Bidiag R := { st with
    s := forUp k m (fun i s => s.set k (hypot sqrt (s.get k) (st.A.get i k))) st.s }
  let st : Bidiag R :=
    if st.s.get k ≠ 0 then
      let st : Bidiag R :=
        if st.A.get k k < 0 then { st with s := st.s.set k (-(st.s.get k)) } else st
      let st : Bidiag R := { st with
        A := forUp k m (fun i A => A.set i k (A.get i k / st.s.get k)) st.A }
      { st with A := st.A.set k k (st.A.get k k + 1) }
    else st
  { st with s := st.s.set k (-(st.s.get k)) }

/-- Lines 187–201: body of the loop over `j`: apply the column transformation
to column `j` and place `A(k,j)` into `e(j)`. -/
def applyCol (m nct k j : ℕ) (st : Bidiag R) : Bidiag R :=
  let st : Bidiag R :=
    if k < nct ∧ st.s.get k ≠ 0 then
      let t := forUp k m (fun i t => t + st.A.get i k * st.A.get i j) 0
      let t := -t / st.A.get k k
      { st with A := forUp k m (fun i A => A.set i j (A.get i j + t * A.get i k)) st.A }
    else st
  { st with e := st.e.set j (st.A.get k j) }

/-- Lines 211–252: the `k`-th row transformation; the `k`-th super-diagonal
is placed in `e(k)`. -/
def rowTransform (sqrt : R → R) (m n k : ℕ) (wantv : Bool) (st : Bidiag R) : Bidiag R :=
  let st : Bidiag R := { st with e := st.e.set k 0 }
  let st : Bidiag R := { st with
    e := forUp (k+1) n (fun i e => e.set k (hypot sqrt (e.get k) (e.get i))) st.e }
  let st : Bidiag R :=
    if st.e.get k ≠ 0 then
      let st : Bidiag R :=
        if st.e.get (k+1) < 0 then { st with e := st.e.set k (-(st.e.get k)) } else st
      let st : Bidiag R := { st with
        e := forUp (k+1) n (fun i e => e.set i (e.get i / e.get k)) st.e }
      { st with e := st.e.set (k+1) (st.e.get (k+1) + 1) }
    else st
  let st : Bidiag R := { st with e := st.e.set k (-(st.e.get k)) }
  let st : Bidiag R :=
    if k + 1 < m ∧ st.e.get k ≠ 0 then
      let st : Bidiag R := { st with work := forUp (k+1) m (fun i w => w.set i 0) st.work }
      let st : Bidiag R := { st with
        work := forUp (k+1) n (fun j w =>
          forUp (k+1) m (fun i w => w.set i (w.get i + st.e.get j * st.A.get i j)) w) st.work }
      { st with
        A := forUp (k+1) n (fun j A =>
          let t := -(st.e.get j) / st.e.get (k+1)
          forUp (k+1) m (fun i A => A.set i j (A.get i j + t * st.work.get i)) A) st.A }
    else st
  if wantv then
    { st with V := forUp (k+1) n (fun i V => V.set i k (st.e.get i)) st.V }
  else st

/-- Lines 167–253: body of the bidiagonalisation loop for one `k`. -/
def bidiagStep (sqrt : R → R) (m n nct nrt : ℕ) (wantu wantv : Bool) (k : ℕ)
    (st : Bidiag R) : Bidiag R :=
  let st : Bidiag R := if k < nct then colTransform sqrt m k st else st
  let st : Bidiag R := forUp (k+1) n (fun j st => applyCol m nct k j st) st
  let st : Bidiag R :=
    if wantu ∧ k < nct then
      { st with U := forUp k m (fun i U => U.set i k (st.A.get i k)) st.U }
    else st
  if k < nrt then rowTransform sqrt m n k wantv st else st

/-- Lines 257–261: set up the final bidiagonal matrix of order `p`. -/
def finalSetup (m n nct nrt : ℕ) (st : Bidiag R) : Bidiag R :=
  let p := min n (m+1)
  let st : Bidiag R := if nct < n then { st with s := st.s.set nct (st.A.get nct nct) } else st
  let st : Bidiag R := if m < p then { st with s := st.s.set (p-1) 0 } else st
  let st : Bidiag R := if nrt + 1 < p then { st with e := st.e.set nrt (st.A.get nrt (p-1)) } else st
  { st with e := st.e.set (p-1) 0 }

/-! ## Generation of U and V (lines 263–319) -/

/-- Lines 265–296: generate `U` from the stored column transformations. -/
def generateU (m nct : ℕ) (s : Vec R) (U : Mat R) : Mat R :=
  let U : Mat R := forUp nct m (fun j U =>
    let U : Mat R := forUp 0 m (fun i U => U.set i j 0) U
    U.set j j 1) U
  forDown 0 nct (fun k U =>
    if s.get k ≠ 0 then
      let U : Mat R := forUp (k+1) m (fun j U =>
        let t := forUp k m (fun i t => t + U.get i k * U.get i j) 0
        let t := -t / U.get k k
        forUp k m (fun i U => U.set i j (U.get i j + t * U.get i k)) U) U
      let U : Mat R := forUp k m (fun i U => U.set i k (-(U.get i k))) U
      let U := U.set k k (1 + U.get k k)
      forUp 0 (k-1) (fun i U => U.set i k 0) U
    else
      let U : Mat R := forUp 0 m (fun i U => U.set i k 0) U
      U.set k k 1) U

/-- Lines 301–318: generate `V` from the stored row transformations. -/
def generateV (n nrt : ℕ) (e : Vec R) (V : Mat R) : Mat R :=
  forDown 0 n (fun k V =>
    let V : Mat R :=
      if k < nrt ∧ e.get k ≠ 0 then
        forUp (k+1) n (fun j V =>
          let t := forUp (k+1) n (fun i t => t + V.get i k * V.get i j) 0
          let t := -t / V.get (k+1) k
          forUp (k+1) n (fun i V => V.set i j (V.get i j + t * V.get i k)) V) V
      else V
    let V : Mat R := forUp 0 n (fun i V => V.set i k 0) V
    V.set k k 1) V

/-! ## Main iteration loop (lines 321–547) -/

/-- Variables of the main loop: `m_s`, `e`, `m_U`, `m_V`, `p`, `iter`. -/
structure Iter (R : Type) where
  s : Vec R
  e : Vec R
  U : Mat R
  V : Mat R
  p : ℕ
  iter : ℕ
deriving DecidableEq

/-- Variables of the rotation loops of cases 1, 2 and 3: the locals `f`, `g`
and `m_s`, `e`, `m_U`, `m_V`. -/
structure Chase (R : Type) where
  f : R
  g : R
  s : Vec R
  e : Vec R
  U : Mat R
  V : Mat R
deriving DecidableEq

/-- Lines 340–348: the scan for a negligible `e(k)`, without the assignment
`e(k) = 0`.  Argument and result are `k + 1` (the source's `k` runs over
`p-2 .. -1`); the result `0` is the exit at `k == -1`. -/
def scanE (eps : R) (s e : Vec R) : ℕ → ℕ
  | 0 => 0
  | k+1 =>
    if |e.get k| ≤ eps * (|s.get k| + |s.get (k+1)|) then k + 1
    else scanE eps s e k

/-- Lines 353–364: the scan for a negligible `s(ks)`, without the assignment
`s(ks) = 0`.  Here `k1` is `k + 1`; argument and result are `ks + 1`.  The
exit `ks == k` is the result `k1`. -/
def scanS (eps : R) (s e : Vec R) (p k1 : ℕ) : ℕ → ℕ
  | 0 => 0
  | ks+1 =>
    if ks + 1 = k1 then ks + 1
    else
      let t := (if ks ≠ p then |e.get ks| else 0) + (if ks ≠ k1 then |e.get (ks-1)| else 0)
      if |s.get ks| ≤ eps * t then ks + 1
      else scanS eps s e p k1 ks

/-- Lines 340–375: inspect for negligible elements.  Returns `kase`, the value
of `k` after `k++`, and the updated `m_s` and `e`. -/
def classify (eps : R) (p : ℕ) (s e : Vec R) : ℕ × ℕ × Vec R × Vec R :=
  let k1 := scanE eps s e (p-1)
  let e := if k1 = 0 then e else e.set (k1-1) 0
  if k1 = p - 1 then (4, k1, s, e)
  else
    let ks1 := scanS eps s e p k1 p
    let s := if ks1 = k1 then s else s.set (ks1-1) 0
    if ks1 = k1 then (3, k1, s, e)
    else if ks1 = p then (1, k1, s, e)
    else (2, ks1, s, e)

/-- The plane rotation of columns `a` and `b` over rows `0 .. cnt-1`:
`t = cs*M(i,a) + sn*M(i,b); M(i,b) = -sn*M(i,a) + cs*M(i,b); M(i,a) = t`
(lines 395–399, 419–423, 472–476, 489–493). -/
def rot (cnt : ℕ) (M : Mat R) (a b : ℕ) (cs sn : R) : Mat R :=
  forUp 0 cnt (fun i M =>
    let t := cs * M.get i a + sn * M.get i b
    let M := M.set i b (-sn * M.get i a + cs * M.get i b)
    M.set i a t) M

/-- Lines 380–402, case 1: deflate negligible `s(p)`. -/
def case1 (sqrt : R → R) (n : ℕ) (wantv : Bool) (p k : ℕ) (st : Iter R) : Iter R :=
  let f := st.e.get (p-2)
  let e := st.e.set (p-2) 0
  let c : Chase R := forDown k (p-1) (fun j c =>
    let t := hypot sqrt (c.s.get j) c.f
    let cs := c.s.get j / t
    let sn := c.f / t
    let c : Chase R := { c with s := c.s.set j t }
    let c : Chase R :=
      if j ≠ k then { c with f := -sn * c.e.get (j-1), e := c.e.set (j-1) (cs * c.e.get (j-1)) }
      else c
    if wantv then { c with V := rot n c.V j (p-1) cs sn } else c)
    ⟨f, 0, st.s, e, st.U, st.V⟩
  { st with s := c.s, e := c.e, V := c.V }

/-- Lines 406–426, case 2: split at negligible `s(k)`. -/
def case2 (sqrt : R → R) (m : ℕ) (wantu : Bool) (p k : ℕ) (st : Iter R) : Iter R :=
  let f := st.e.get (k-1)
  let e := st.e.set (k-1) 0
  let c : Chase R := forUp k p (fun j c =>
    let t := hypot sqrt (c.s.get j) c.f
    let cs := c.s.get j / t
    let sn := c.f / t
    let c : Chase R := { c with s := c.s.set j t }
    let c : Chase R := { c with f := -sn * c.e.get j, e := c.e.set j (cs * c.e.get j) }
    if wantu then { c with U := rot m c.U j (k-1) cs sn } else c)
    ⟨f, 0, st.s, e, st.U, st.V⟩
  { st with s := c.s, e := c.e, U := c.U }

/-- Lines 432–455: the shift of the qr step. -/
def shiftOf (sqrt : R → R) (sp spm1 epm1 : R) : R :=
  let b := ((spm1 + sp) * (spm1 - sp) + epm1 * epm1) / 2
  let c := (sp * epm1) * (sp * epm1)
  if b ≠ 0 ∨ c ≠ 0 then
    let shift := sqrt (b * b + c)
    let shift := if b < 0 then -shift else shift
    c / (b + shift)
  else 0

/-- Lines 458–495: body of the loop that chases zeros, for one `j`. -/
def chaseStep (sqrt : R → R) (m n : ℕ) (wantu wantv : Bool) (k j : ℕ) (c : Chase R) :
    Chase R :=
  let t := hypot sqrt c.f c.g
  let cs := c.f / t
  let sn := c.g / t
  let c : Chase R := if j ≠ k then { c with e := c.e.set (j-1) t } else c
  let c : Chase R := { c with f := cs * c.s.get j + sn * c.e.get j }
  let c : Chase R := { c with e := c.e.set j (cs * c.e.get j - sn * c.s.get j) }
  let c : Chase R := { c with g := sn * c.s.get (j+1) }
  let c : Chase R := { c with s := c.s.set (j+1) (cs * c.s.get (j+1)) }
  let c : Chase R := if wantv then { c with V := rot n c.V j (j+1) cs sn } else c
  let t := hypot sqrt c.f c.g
  let cs := c.f / t
  let sn := c.g / t
  let c : Chase R := { c with s := c.s.set j t }
  let c : Chase R := { c with f := cs * c.e.get j + sn * c.s.get (j+1) }
  let c : Chase R := { c with s := c.s.set (j+1) (-sn * c.e.get j + cs * c.s.get (j+1)) }
  let c : Chase R := { c with g := sn * c.e.get (j+1) }
  let c : Chase R := { c with e := c.e.set (j+1) (cs * c.e.get (j+1)) }
  if wantu ∧ j < m - 1 then { c with U := rot m c.U j (j+1) cs sn } else c

/-- Lines 430–498, case 3: perform one qr step. -/
def case3 (sqrt : R → R) (m n : ℕ) (wantu wantv : Bool) (p k : ℕ) (st : Iter R) : Iter R :=
  let scale := max (max (max (max |st.s.get (p-1)| |st.s.get (p-2)|) |st.e.get (p-2)|)
    |st.s.get k|) |st.e.get k|
  let sp := st.s.get (p-1) / scale
  let spm1 := st.s.get (p-2) / scale
  let epm1 := st.e.get (p-2) / scale
  let sk := st.s.get k / scale
  let ek := st.e.get k / scale
  let shift := shiftOf sqrt sp spm1 epm1
  let f := (sk + sp) * (sk - sp) + shift
  let g := sk * ek
  let c : Chase R := forUp k (p-1) (fun j c => chaseStep sqrt m n wantu wantv k j c)
    ⟨f, g, st.s, st.e, st.U, st.V⟩
  { st with s := c.s, e := c.e.set (p-2) c.f, U := c.U, V := c.V, iter := st.iter + 1 }

/-- Exchange of columns `k` and `k+1` over rows `0 .. cnt-1`
(lines 525–529, 533–537). -/
def swapCols (cnt : ℕ) (M : Mat R) (k : ℕ) : Mat R :=
  forUp 0 cnt (fun i M =>
    let t := M.get i (k+1)
    let M := M.set i (k+1) (M.get i k)
    M.set i k t) M

/-- Lines 520–538: exchange `m_s(k)` and `m_s(k+1)` and the paired columns of
`V` and `U`. -/
def orderSwap (m n : ℕ) (wantu wantv : Bool) (k : ℕ) (st : Iter R) : Iter R :=
  let t := st.s.get k
  let st : Iter R := { st with s := st.s.set k (st.s.get (k+1)) }
  let st : Iter R := { st with s := st.s.set (k+1) t }
  let st : Iter R := if wantv ∧ k < n - 1 then { st with V := swapCols n st.V k } else st
  if wantu ∧ k < m - 1 then { st with U := swapCols m st.U k } else st

/-- Lines 516–541: order the singular values; the first argument bounds the
number of passes of `while (k < pp)` and is `pp - k` at the call. -/
def order (m n : ℕ) (wantu wantv : Bool) : ℕ → ℕ → Iter R → Iter R
  | 0, _, st => st
  | d+1, k, st =>
    if st.s.get k ≥ st.s.get (k+1) then st
    else order m n wantu wantv d (k+1) (orderSwap m n wantu wantv k st)

/-- Lines 502–544, case 4: convergence. -/
def case4 (m n pp : ℕ) (wantu wantv : Bool) (k : ℕ) (st : Iter R) : Iter R :=
  let st : Iter R :=
    if st.s.get k ≤ 0 then
      let st : Iter R := { st with s := st.s.set k (if st.s.get k < 0 then -(st.s.get k) else 0) }
      if wantv then
        { st with V := forUp 0 (pp+1) (fun i V => V.set i k (-(V.get i k))) st.V }
      else st
    else st
  let st := order m n wantu wantv (pp - k) k st
  { st with iter := 0, p := st.p - 1 }

/-- Lines 326–546: one pass of `while (p > 0)`. -/
def iterStep (sqrt : R → R) (eps : R) (m n pp : ℕ) (wantu wantv : Bool) (st : Iter R) :
    Iter R :=
  let cl := classify eps st.p st.s st.e
  let kase := cl.1
  let k := cl.2.1
  let st : Iter R := { st with s := cl.2.2.1, e := cl.2.2.2 }
  if kase = 1 then case1 sqrt n wantv st.p k st
  else if kase = 2 then case2 sqrt m wantu st.p k st
  else if kase = 3 then case3 sqrt m n wantu wantv st.p k st
  else case4 m n pp wantu wantv k st

/-- Lines 325–547: `while (p > 0)`, with a bound on the number of passes;
`none` when the bound is reached with `p > 0`. -/
def mainLoop (sqrt : R → R) (eps : R) (m n pp : ℕ) (wantu wantv : Bool) :
    ℕ → Iter R → Option (Iter R)
  | 0, st => if st.p = 0 then some st else none
  | fuel+1, st =>
    if st.p = 0 then some st
    else mainLoop sqrt eps m n pp wantu wantv fuel (iterStep sqrt eps m n pp wantu wantv st)

/-! ## Rank (lines 549–554) -/

/-- Read `v(i)` of a vector, `none` outside `0 .. size-1`. -/
def Vec.read (v : Vec R) (i : ℕ) : Option R := v[i]?

/-- Lines 553–554: `while (m_s(m_rank-1) < tol) m_rank--`.  The argument is
`m_rank`; at `m_rank = 0` the loop condition reads `m_s(-1)`, which is outside
the vector: `none`. -/
def rankLoop (s : Vec R) (tol : R) : ℕ → Option ℕ
  | 0 => none
  | r+1 =>
    match s.read r with
    | none => none
    | some v => if v < tol then rankLoop s tol r else some (r+1)

/-! ## The class -/

/-- Members of `class SVD`. -/
structure SVD (R : Type) where
  m_rank : ℕ
  m_A : Mat R
  m_s : Vec R
  m_U : Mat R
  m_V : Mat R
deriving DecidableEq

/-- State at line 321, where the main iteration loop starts: the
bidiagonalisation, the final setup and the generation of `U` and `V`
(lines 149–319), for `m, n ≥ 1`. -/
def SVD.init (sqrt : R → R) (A : Mat R) (wantu wantv : Bool) : Bidiag R :=
  let m := A.rows
  let n := A.cols
  let nct := min (m-1) n
  let nrt := max 0 (min (n-2) m)
  let st : Bidiag R :=
    ⟨A, Vec.zeros (min (m+1) n), Vec.zeros n, Vec.zeros m, Mat.zeros m m, Mat.zeros n n⟩
  let st : Bidiag R :=
    forUp 0 (max nct nrt) (fun k st => bidiagStep sqrt m n nct nrt wantu wantv k st) st
  let st := finalSetup m n nct nrt st
  let st : Bidiag R := if wantu then { st with U := generateU m nct st.s st.U } else st
  if wantv then { st with V := generateV n nrt st.e st.V } else st

/-- The constructor `SVD<Real>::SVD(A, wantu, wantv)` (lines 144–555), for
`m, n ≥ 1`; `fuel` bounds the number of passes of the main loop.  `none`: the
main loop did not finish within `fuel` passes, or the rank loop read outside
`m_s`.  The product `tol` of line 550 is the product of the field `R`; in
`double` it can overflow to `∞` or underflow to `0` (see `Double.construct`). -/
def SVD.construct (sqrt : R → R) (eps : R) (fuel : ℕ) (A : Mat R) (wantu wantv : Bool) :
    Option (SVD R) :=
  let m := A.rows
  let n := A.cols
  let b := SVD.init sqrt A wantu wantv
  let p := min n (m+1)
  let pp := p - 1
  match mainLoop sqrt eps m n pp wantu wantv fuel ⟨b.s, b.e, b.U, b.V, p, 0⟩ with
  | none => none
  | some st =>
    let tol := (st.s.length : R) * st.s.get 0 * eps
    match rankLoop st.s tol (min m n) with
    | none => none
    | some r => some ⟨r, b.A, st.s, st.U, st.V⟩

/-- Accessor `singularValues()`. -/
def SVD.singularValues (d : SVD R) : Vec R := d.m_s

/-- Accessor `rank()`. -/
def SVD.rank (d : SVD R) : ℕ := d.m_rank

/-- Member `norm()`: `m_s(0)`. -/
def SVD.norm (d : SVD R) : R := d.m_s.get 0

/-- Member `cond()` (line 105): `m_s(0) / m_s(min(m_A.rows(), m_A.cols()))`;
`none` when one of the two reads is outside `m_s`. -/
def SVD.cond (d : SVD R) : Option R :=
  match d.m_s.read 0, d.m_s.read (min d.m_A.rows d.m_A.cols) with
  | some a, some b => some (a / b)
  | _, _ => none

/-- Member `solve(x, b)` (lines 557–573); returns the final `x` and `b`.
Line 563 assigns to the entries `0 .. m_rank-1` of `x` the product of the row
vector `b(0..m-1)` with the block of `m_U` of rows `0 .. m-1` and columns
`0 .. m_rank-1`.  The division of line 566 is the division of the field `R`,
which gives `0` for a zero divisor; statements about `solve` are made for
divisors `m_s(k) ≠ 0`, and `SVD.solveChecked` tests the divisor. -/
def SVD.solve (d : SVD R) (x b : Vec R) : Vec R × Vec R :=
  let m := d.m_A.rows
  let n := d.m_A.cols
  let x : Vec R := forUp 0 d.m_rank (fun k x' =>
    x'.set k (forUp 0 m (fun j acc => acc + b.get j * d.m_U.get j k) 0)) x
  let xb : Vec R × Vec R := forUp 0 d.m_rank (fun k xb =>
    ((xb.1.set k 0), xb.2.set k (xb.1.get k / d.m_s.get k))) (x, b)
  let x : Vec R := forUp 0 n (fun i x =>
    forUp 0 d.m_rank (fun k x => x.set i (x.get i + d.m_V.get i k * xb.2.get k)) x) xb.1
  (x, xb.2)

/-! ## Notions used in the statements -/

/-- Entry `(i,j)` of `U·diag(S)·V'`: the sum of `U(i,k)·S(k)·V(j,k)` over
`k < min(M,N)`. -/
def SVD.recon (d : SVD R) (i j : ℕ) : R :=
  ∑ k in Finset.range (min d.m_A.rows d.m_A.cols), d.m_U.get i k * d.m_s.get k * d.m_V.get j k

/-- Entry `(i,j)` of `M'M` for a matrix `M` with `cnt` rows. -/
def Mat.gram (M : Mat R) (cnt i j : ℕ) : R :=
  ∑ k in Finset.range cnt, M.get k i * M.get k j

/-- The columns `0 .. cnt-1` of `M` (with `cnt` rows) are orthonormal: `M'M = I`. -/
def Mat.Orthonormal (M : Mat R) (cnt : ℕ) : Prop :=
  ∀ i < cnt, ∀ j < cnt, M.gram cnt i j = if i = j then 1 else 0

/-! ## Running the embedding on rational inputs -/

/-- Newton iteration for the integer square root. -/
def isqrtAux (n : ℕ) : ℕ → ℕ → ℕ
  | 0, x => x
  | f+1, x =>
    let y := (x + n / x) / 2
    if y < x then isqrtAux n f y else x

/-- Integer square root (for `n < 2^200`). -/
def isqrt (n : ℕ) : ℕ := if n = 0 then 0 else isqrtAux n 200 n

/-- Square root on `ℚ`, exact on squares of rationals: it stands for
`std::sqrt` on inputs where every root that is taken is rational. -/
def qsqrt (q : ℚ) : ℚ := (isqrt q.num.toNat : ℚ) / (isqrt q.den : ℚ)

/-- Machine epsilon of `double`. -/
def qeps : ℚ := 1 / 2 ^ 52

/-- The 1×3 matrix `[12, 3, 4]`. -/
def A13 : Mat ℚ := Mat.ofRows 3 [[12, 3, 4]]

/-- A 3×5 matrix of rank 2. -/
def A35 : Mat ℚ := Mat.ofRows 5 [[0, 0, 3, 0, 4], [0, 0, -36/5, 0, -48/5], [0, 15, -16, 0, 12]]

/-- The matrix `diag(3, 1)`. -/
def D31 : Mat ℚ := Mat.ofRows 2 [[3, 0], [0, 1]]

/-- The 1×2 matrix `[1, 0]`. -/
def A12 : Mat ℚ := Mat.ofRows 2 [[1, 0]]

/-- The number of indices `i < k` with `s(i) ≥ tol`. -/
def countAbove (s : Vec R) (tol : R) (k : ℕ) : ℕ :=
  ((List.range k).filter (fun i => tol ≤ s.get i)).length

/-- Two vectors of the same length that agree from index `p` on. -/
def Vec.SameFrom (p : ℕ) (s s' : Vec R) : Prop :=
  s'.length = s.length ∧ ∀ i, p ≤ i → s'.get i = s.get i

/-- The entries `p .. L-1` of a vector of length `L` are non-increasing and
non-negative (invariant of the main loop, with `p` its active size). -/
def Vec.TailSorted (L p : ℕ) (s : Vec R) : Prop :=
  s.length = L ∧ (∀ i j, p ≤ i → i ≤ j → j < L → s.get j ≤ s.get i) ∧
    ∀ i, p ≤ i → i < L → 0 ≤ s.get i

/-- Invariant of the ordering loop of case 4 at position `k`, for the entries
`k0 .. L-1`: they are non-negative, non-increasing apart from the entry at `k`,
and the entries before `k` are at least `s(k)`. -/
def Vec.InsInv (L k0 k : ℕ) (s : Vec R) : Prop :=
  s.length = L ∧ k0 ≤ k ∧ k < L ∧ (∀ i, k0 ≤ i → i < L → 0 ≤ s.get i) ∧
    (∀ i j, k0 ≤ i → i ≤ j → j < L → i ≠ k → j ≠ k → s.get j ≤ s.get i) ∧
    ∀ i, k0 ≤ i → i < k → s.get k ≤ s.get i

/-- What the constructor returns on `A35`. -/
def A35_svd : SVD ℚ :=
  ⟨2, ⟨3, 5, [[0, 0, 3, 0, 4], [0, 2, 0, 0, 0], [0, 0, -25, 0, 0]]⟩, [25, 13, 0, 0],
    ⟨3, 3, [[0, -5/13, -12/13], [0, 12/13, -5/13], [1, 0, 0]]⟩,
    ⟨5, 5, [[0, 0, -1, 0, 0], [3/5, 0, 0, 0, -4/5], [-16/25, -3/5, 0, 0, -12/25],
      [0, 0, 0, -1, 0], [-12/25, -4/5, 0, 0, 9/25]]⟩⟩

/-- A 2×2 matrix of rank 1. -/
def A22 : Mat ℚ := Mat.ofRows 2 [[3, 4], [0, 0]]

/-- What the constructor returns on `A22`. -/
def A22_svd : SVD ℚ :=
  ⟨1, ⟨2, 2, [[2, -4], [0, 0]]⟩, [5, 0], ⟨2, 2, [[-1, 0], [0, 1]]⟩,
    ⟨2, 2, [[-3/5, -4/5], [-4/5, 3/5]]⟩⟩

/-- Invariant of the bidiagonalisation of an `N×N` diagonal matrix with
diagonal `d`, before the pass for `k`: the working copy is still diagonal with
`A(j,j) = d j` for `j ≥ k`, `s(j) = -d j` for `j < k`, and `e` is zero. -/
def DiagInv (N : ℕ) (d : ℕ → R) (k : ℕ) (st : Bidiag R) : Prop :=
  st.A.WF ∧ st.A.rows = N ∧ st.A.cols = N ∧ st.s.length = N ∧ st.e.length = N ∧
    (∀ i j, i ≠ j → st.A.get i j = 0) ∧ (∀ j, k ≤ j → st.A.get j j = d j) ∧
    (∀ j, j < k → st.s.get j = -d j) ∧ ∀ j, st.e.get j = 0

/-- What is assumed of `sqrt` in exact real arithmetic: on non-negative
arguments it returns the non-negative square root. -/
def IsSqrt (sqrt : R → R) : Prop := ∀ x, 0 ≤ x → 0 ≤ sqrt x ∧ sqrt x * sqrt x = x

/-- Column `k` of `U` holds the reflection vector `v` of the `k`-th column
transformation: zero above row `k`, and, when `s(k) ≠ 0`, `v'v = 2·v_k` with
`v_k ≠ 0`. -/
def HouseCol (m : ℕ) (s : Vec R) (U : Mat R) (k : ℕ) : Prop :=
  (∀ i, i < k → U.get i k = 0) ∧
    (s.get k ≠ 0 →
      ∑ i in Finset.Ico k m, U.get i k * U.get i k = 2 * U.get k k ∧ U.get k k ≠ 0)

/-- Invariant of the bidiagonalisation loop for the storage of `U` (when `U` is
wanted), before the pass for `k`: the columns `j < k` with `j < nct` hold
reflection vectors and the columns from `k` on are still zero. -/
def BidiagU (m n k : ℕ) (st : Bidiag R) : Prop :=
  st.A.WF ∧ st.A.rows = m ∧ st.A.cols = n ∧ st.U.WF ∧ st.U.rows = m ∧ st.U.cols = m ∧
    st.s.length = min (m+1) n ∧
    (∀ j, j < k → j < min (m-1) n → HouseCol m st.s st.U j) ∧
    ∀ i j, k ≤ j → st.U.get i j = 0

/-- Invariant of the generation of `U` (lines 271–296) when the columns from
`k` on have been generated: they are orthonormal and zero above row `k`; the
columns `j < k` still hold the reflection vectors. -/
def GenU (m nct : ℕ) (s : Vec R) (k : ℕ) (U : Mat R) : Prop :=
  U.WF ∧ U.rows = m ∧ U.cols = m ∧
    (∀ j, j < k → j < nct → HouseCol m s U j) ∧
    (∀ i j, k ≤ j → j < m → i < k → U.get i j = 0) ∧
    ∀ j1 j2, k ≤ j1 → j1 < m → k ≤ j2 → j2 < m →
      U.gram m j1 j2 = if j1 = j2 then 1 else 0

/-- A well-formed `m × m` matrix with orthonormal columns. -/
def Mat.OrthoSq (m : ℕ) (U : Mat R) : Prop :=
  U.WF ∧ U.rows = m ∧ U.cols = m ∧ U.Orthonormal m

/-- Invariant of the main loop for `U`: the columns are orthonormal, and the
active size `p` is at most `m` or is `m+1` with `s(m) = 0`. -/
def UInv (m : ℕ) (st : Iter R) : Prop :=
  st.U.OrthoSq m ∧ (st.p ≤ m ∨ (st.p = m + 1 ∧ st.s.get m = 0))

/-- Every entry of the vector is zero. -/
def Vec.AllZero (v : Vec R) : Prop := ∀ i, v.get i = 0

/-- State of the bidiagonalisation of a zero matrix: the working copy, `m_s`
and `e` are zero. -/
def ZeroInv (st : Bidiag R) : Prop :=
  (∀ i j, st.A.get i j = 0) ∧ st.s.AllZero ∧ st.e.AllZero

/-! ## `solveATA` (lines 575–581) -/

/-- Modelled from the spec: the product `x * A` of a vector with a matrix of
Matrix.h (not among the sources), the row vector `x` times `A`: entry `k` is
`Σ_j x(j)·A(j,k)` ("rotate b into V-space", `V'b`). -/
def Vec.mulMat (x : Vec R) (A : Mat R) : Vec R :=
  (List.range A.cols).map (fun k => forUp 0 A.rows (fun j acc => acc + x.get j * A.get j k) 0)

/-- Modelled from the spec: the product `A * x` of a matrix with a vector of
Matrix.h (not among the sources): entry `i` is `Σ_k A(i,k)·x(k)` ("rotate
back"). -/
def Mat.mulVec (A : Mat R) (x : Vec R) : Vec R :=
  (List.range A.rows).map (fun i => forUp 0 A.cols (fun k acc => acc + A.get i k * x.get k) 0)

/-- Modelled from the spec: `square(v)` of Matrix.h (not among the sources),
the vector of the squared entries ("the squared singular values"). -/
def Vec.square (v : Vec R) : Vec R := v.map (fun a => a * a)

/-- Modelled from the spec: `x / y` of Matrix.h (not among the sources) for
two vectors of the same length, the entrywise quotient ("divide elementwise"). -/
def Vec.divv (x y : Vec R) : Vec R := List.zipWith (fun a b => a / b) x y

/-- Member `solveATA(x, b)` (lines 575–581); returns the final `x` and `b`. -/
def SVD.solveATA (d : SVD R) (_x b : Vec R) : Vec R × Vec R :=
  let x := b.mulMat d.m_V
  let b := x.divv (Vec.square d.m_s)
  let x := d.m_V.mulVec b
  (x, b)

/-- The factorisation `R·diag(2,1)·R'` of a symmetric 2×2 matrix, `R` the
rotation with cosine `3/5` and sine `4/5`. -/
def R22_svd : SVD ℚ :=
  ⟨2, ⟨2, 2, [[34/25, 12/25], [12/25, 41/25]]⟩, [2, 1],
    ⟨2, 2, [[3/5, -4/5], [4/5, 3/5]]⟩, ⟨2, 2, [[3/5, -4/5], [4/5, 3/5]]⟩⟩

/-- Function `hypot(a, b)` of SVD.h (lines 129–142) with its two divisions
checked: `none` when a divisor is zero. -/
def hypotChecked (sqrt : R → R) (a b : R) : Option R :=
  if a = 0 then some |b|
  else if |a| > |b| then
    if a = 0 then none
    else
      let c := b / a
      some (|a| * sqrt (1 + c * c))
  else
    if b = 0 then none
    else
      let c := a / b
      some (|b| * sqrt (1 + c * c))

/-- Two states of the bidiagonalisation that agree on everything but `U` and
`V`. -/
def Bidiag.Same (a b : Bidiag R) : Prop :=
  a.A = b.A ∧ a.s = b.s ∧ a.e = b.e ∧ a.work = b.work

/-- Two states of a rotation loop that agree on everything but `U` and `V`. -/
def Chase.Same (a b : Chase R) : Prop :=
  a.f = b.f ∧ a.g = b.g ∧ a.s = b.s ∧ a.e = b.e

/-- Two states of the main loop that agree on everything but `U` and `V`. -/
def Iter.Same (a b : Iter R) : Prop :=
  a.s = b.s ∧ a.e = b.e ∧ a.p = b.p ∧ a.iter = b.iter

/-! ## The set-up with `int` sizes and checked indices (lines 144–261) -/

/-- Assignment `v(i) = x` with an `int` index: `none` outside `0 .. size-1`. -/
def Vec.setZ (v : Vec R) (i : ℤ) (x : R) : Option (Vec R) :=
  if 0 ≤ i ∧ i < v.length then some (v.set i.toNat x) else none

/-- Read of `A(i,j)` with `int` indices: `none` outside the matrix. -/
def Mat.getZ (A : Mat R) (i j : ℤ) : Option R :=
  if 0 ≤ i ∧ i < A.rows ∧ 0 ≤ j ∧ j < A.cols then some (A.get i.toNat j.toNat) else none

/-- Lines 257–261 with the sizes as `int`s and every access checked: `none`
when an index is outside its container. -/
def finalSetupChecked (m n nct nrt : ℤ) (st : Bidiag R) : Option (Bidiag R) :=
  let p := min n (m+1)
  (if nct < n then
    (st.A.getZ nct nct).bind fun a =>
      (st.s.setZ nct a).map fun s => ({ st with s := s } : Bidiag R)
  else some st).bind fun st =>
  (if m < p then
    (st.s.setZ (p-1) 0).map fun s => ({ st with s := s } : Bidiag R)
  else some st).bind fun st =>
  (if nrt + 1 < p then
    (st.A.getZ nrt (p-1)).bind fun a =>
      (st.e.setZ nrt a).map fun e => ({ st with e := e } : Bidiag R)
  else some st).bind fun st =>
  (st.e.setZ (p-1) 0).map fun e => ({ st with e := e } : Bidiag R)

/-- Outcomes of the constructor up to line 261: an explicit rejection of the
input, an access outside a container, or the state after the final set-up. -/
inductive Entry (R : Type) where
  | rejected : Entry R
  | outside : Entry R
  | ready (st : Bidiag R) : Entry R
deriving DecidableEq

/-- Lines 144–261 of the constructor with the sizes as `int`s and the accesses
of the final set-up checked.  The source has no test of the shape, so no path
gives `rejected`.  The loop of lines 166–254 makes `max(nct, nrt)` passes, none
when that is not positive; `nct` is negative only for an input without rows,
where the loop makes no pass. -/
def SVD.enter (sqrt : R → R) (A : Mat R) (wantu wantv : Bool) : Entry R :=
  let m : ℤ := A.rows
  let n : ℤ := A.cols
  let nct : ℤ := min (m-1) n
  let nrt : ℤ := max 0 (min (n-2) m)
  let st : Bidiag R :=
    ⟨A, Vec.zeros (min (m+1) n).toNat, Vec.zeros A.cols, Vec.zeros A.rows,
      Mat.zeros A.rows A.rows, Mat.zeros A.cols A.cols⟩
  let st : Bidiag R :=
    forUp 0 (max nct nrt).toNat
      (fun k st => bidiagStep sqrt A.rows A.cols nct.toNat nrt.toNat wantu wantv k st) st
  match finalSetupChecked m n nct nrt st with
  | none => Entry.outside
  | some st => Entry.ready st

/-- Two states of the main loop that agree on everything but the counter
`iter`. -/
def Iter.SameButIter (a b : Iter R) : Prop :=
  a.s = b.s ∧ a.e = b.e ∧ a.U = b.U ∧ a.V = b.V ∧ a.p = b.p


/-- The test of lines 343–344: the super-diagonal entry `e(k)` is negligible. -/
def NegligibleE (eps : R) (s e : Vec R) (k : ℕ) : Prop :=
  |e.get k| ≤ eps * (|s.get k| + |s.get (k+1)|)

/-- The test of lines 357–360 for `ks < p`: the diagonal entry `s(ks)` is
negligible against its neighbours `e(ks)` and `e(ks-1)`, the latter left out at
`ks = k + 1`.  Here `k1` is `k + 1`. -/
def NegligibleS (eps : R) (s e : Vec R) (k1 ks : ℕ) : Prop :=
  |s.get ks| ≤ eps * (|e.get ks| + if ks = k1 then 0 else |e.get (ks-1)|)


/-! ## Householder reflections -/

/-- State at line 166 for the 2×2 matrix with the rows `(3, 1)` and `(4, 2)`. -/
def st22 (R : Type) [LinearOrderedField R] : Bidiag R :=
  ⟨Mat.ofRows 2 [[3, 1], [4, 2]], Vec.zeros 2, Vec.zeros 2, Vec.zeros 2, Mat.zeros 2 2,
    Mat.zeros 2 2⟩

/-! ## The row transformation in three parts -/

/-- Lines 214–227 of the row transformation: the norm of `e(k+1 .. n-1)`, the
normalisation and the shift; the `k`-th super-diagonal is placed in `e(k)`. -/
def rowNorm (sqrt : R → R) (n k : ℕ) (st : Bidiag R) : Bidiag R :=
  let st : Bidiag R := { st with e := st.e.set k 0 }
  let st : Bidiag R := { st with
    e := forUp (k+1) n (fun i e => e.set k (hypot sqrt (e.get k) (e.get i))) st.e }
  let st : Bidiag R :=
    if st.e.get k ≠ 0 then
      let st : Bidiag R :=
        if st.e.get (k+1) < 0 then { st with e := st.e.set k (-(st.e.get k)) } else st
      let st : Bidiag R := { st with
        e := forUp (k+1) n (fun i e => e.set i (e.get i / e.get k)) st.e }
      { st with e := st.e.set (k+1) (st.e.get (k+1) + 1) }
    else st
  { st with e := st.e.set k (-(st.e.get k)) }

/-- Lines 229–245 of the row transformation: apply it to the rows
`k+1 .. m-1`, with the divisor `e(k+1)`. -/
def rowApply (m n k : ℕ) (st : Bidiag R) : Bidiag R :=
  if k + 1 < m ∧ st.e.get k ≠ 0 then
    let st : Bidiag R := { st with work := forUp (k+1) m (fun i w => w.set i 0) st.work }
    let st : Bidiag R := { st with
      work := forUp (k+1) n (fun j w =>
        forUp (k+1) m (fun i w => w.set i (w.get i + st.e.get j * st.A.get i j)) w) st.work }
    { st with
      A := forUp (k+1) n (fun j A =>
        let t := -(st.e.get j) / st.e.get (k+1)
        forUp (k+1) m (fun i A => A.set i j (A.get i j + t * st.work.get i)) A) st.A }
  else st

/-- Lines 246–252 of the row transformation: place it in `V` for the
back-multiplication. -/
def rowStore (n k : ℕ) (wantv : Bool) (st : Bidiag R) : Bidiag R :=
  if wantv then
    { st with V := forUp (k+1) n (fun i V => V.set i k (st.e.get i)) st.V }
  else st
/-- Lines 167–209 of one pass of the bidiagonalisation loop: the column
transformation, its application to the columns `j > k`, and its storage in
`U`. -/
def colPart (sqrt : R → R) (m n nct : ℕ) (wantu : Bool) (k : ℕ) (st : Bidiag R) : Bidiag R :=
  let st : Bidiag R := if k < nct then colTransform sqrt m k st else st
  let st : Bidiag R := forUp (k+1) n (fun j st => applyCol m nct k j st) st
  if wantu ∧ k < nct then
    { st with U := forUp k m (fun i U => U.set i k (st.A.get i k)) st.U }
  else st

/-- The containers have the sizes the constructor gives them: the working
copy is `m × n`, `m_s` has `min(m+1, n)` entries, `e` has `n`, `work` has `m`,
`U` is `m × m` and `V` is `n × n`. -/
def Bidiag.Shape (m n : ℕ) (st : Bidiag R) : Prop :=
  st.A.WF ∧ st.A.rows = m ∧ st.A.cols = n ∧ st.s.length = min (m+1) n ∧ st.e.length = n ∧
    st.work.length = m ∧ st.U.WF ∧ st.U.rows = m ∧ st.U.cols = m ∧
    st.V.WF ∧ st.V.rows = n ∧ st.V.cols = n
/-- Lines 272–295: one pass of the generation of `U`, for column `k`. -/
def genUStep (m : ℕ) (s : Vec R) (k : ℕ) (U : Mat R) : Mat R :=
  if s.get k ≠ 0 then
    let U : Mat R := forUp (k+1) m (fun j U =>
      let t := forUp k m (fun i t => t + U.get i k * U.get i j) 0
      let t := -t / U.get k k
      forUp k m (fun i U => U.set i j (U.get i j + t * U.get i k)) U) U
    let U : Mat R := forUp k m (fun i U => U.set i k (-(U.get i k))) U
    let U := U.set k k (1 + U.get k k)
    forUp 0 (k-1) (fun i U => U.set i k 0) U
  else
    let U : Mat R := forUp 0 m (fun i U => U.set i k 0) U
    U.set k k 1

/-- Lines 302–317: one pass of the generation of `V`, for column `k`. -/
def genVStep (n nrt : ℕ) (e : Vec R) (k : ℕ) (V : Mat R) : Mat R :=
  let V : Mat R :=
    if k < nrt ∧ e.get k ≠ 0 then
      forUp (k+1) n (fun j V =>
        let t := forUp (k+1) n (fun i t => t + V.get i k * V.get i j) 0
        let t := -t / V.get (k+1) k
        forUp (k+1) n (fun i V => V.set i j (V.get i j + t * V.get i k)) V) V
    else V
  let V : Mat R := forUp 0 n (fun i V => V.set i k 0) V
  V.set k k 1
/-! ## The divisions of the bidiagonalisation and of the generation, checked

The checks of this section are evaluated in the ordered field `R` (exact
arithmetic); `Double.init` with `Watch.divisor` makes the same checks in the
arithmetic of `double`. -/

/-- The body of the loop over `j` (lines 187–201) with the division by
`A(k,k)` of line 193 checked: `none` when the transformation is applied with
a divisor below one. -/
def applyColChecked (m nct k j : ℕ) (st : Bidiag R) : Option (Bidiag R) :=
  if (k < nct ∧ st.s.get k ≠ 0) ∧ ¬ 1 ≤ st.A.get k k then none
  else some (applyCol m nct k j st)

/-- Lines 229–245 with the division by `e(k+1)` of line 240 checked: `none`
when the transformation is applied with a divisor below one (these lines do
not write `e`, so the check reads the divisor of every pass over `j`). -/
def rowApplyChecked (m n k : ℕ) (st : Bidiag R) : Option (Bidiag R) :=
  if (k + 1 < m ∧ st.e.get k ≠ 0) ∧ ¬ 1 ≤ st.e.get (k+1) then none
  else some (rowApply m n k st)

/-- Lines 167–253, one pass of the bidiagonalisation loop, with the divisions
by `A(k,k)` and `e(k+1)` checked. -/
def bidiagStepChecked (sqrt : R → R) (m n nct nrt : ℕ) (wantu wantv : Bool) (k : ℕ)
    (st : Bidiag R) : Option (Bidiag R) :=
  let st : Bidiag R := if k < nct then colTransform sqrt m k st else st
  (forUp (k+1) n (fun j o => o.bind (fun st => applyColChecked m nct k j st)) (some st)).bind
    fun st =>
      let st : Bidiag R :=
        if wantu ∧ k < nct then
          { st with U := forUp k m (fun i U => U.set i k (st.A.get i k)) st.U }
        else st
      if k < nrt then
        (rowApplyChecked m n k (rowNorm sqrt n k st)).map (fun st => rowStore n k wantv st)
      else some st

/-- Lines 272–295, one pass of the generation of `U`, with the division by
`U(k,k)` of line 278 checked (the loop over `j` writes the columns `j > k`
only, so the check reads the divisor of every pass over `j`). -/
def genUStepChecked (m : ℕ) (s : Vec R) (k : ℕ) (U : Mat R) : Option (Mat R) :=
  if s.get k ≠ 0 ∧ ¬ 1 ≤ U.get k k then none else some (genUStep m s k U)

/-- Lines 302–317, one pass of the generation of `V`, with the division by
`V(k+1,k)` of line 308 checked (the loop over `j` writes the columns `j > k`
only, so the check reads the divisor of every pass over `j`). -/
def genVStepChecked (n nrt : ℕ) (e : Vec R) (k : ℕ) (V : Mat R) : Option (Mat R) :=
  if (k < nrt ∧ e.get k ≠ 0) ∧ ¬ 1 ≤ V.get (k+1) k then none
  else some (genVStep n nrt e k V)

/-- Lines 265–296, the generation of `U`, with the divisions checked. -/
def generateUChecked (m nct : ℕ) (s : Vec R) (U : Mat R) : Option (Mat R) :=
  forDown 0 nct (fun k o => o.bind (fun U => genUStepChecked m s k U))
    (some (forUp nct m (fun j U => (forUp 0 m (fun i U => U.set i j 0) U).set j j 1) U))

/-- Lines 301–318, the generation of `V`, with the divisions checked. -/
def generateVChecked (n nrt : ℕ) (e : Vec R) (V : Mat R) : Option (Mat R) :=
  forDown 0 n (fun k o => o.bind (fun V => genVStepChecked n nrt e k V)) (some V)

/-- The function `SVD.init` (lines 149–319) with the divisions of the
transformations checked: `none` when a transformation is applied or
back-accumulated with a divisor below one. -/
def SVD.initChecked (sqrt : R → R) (A : Mat R) (wantu wantv : Bool) : Option (Bidiag R) :=
  let m := A.rows
  let n := A.cols
  let nct := min (m-1) n
  let nrt := max 0 (min (n-2) m)
  let st : Bidiag R :=
    ⟨A, Vec.zeros (min (m+1) n), Vec.zeros n, Vec.zeros m, Mat.zeros m m, Mat.zeros n n⟩
  (forUp 0 (max nct nrt)
      (fun k o => o.bind (fun st => bidiagStepChecked sqrt m n nct nrt wantu wantv k st))
      (some st)).bind fun st =>
    let st := finalSetup m n nct nrt st
    (if wantu then (generateUChecked m nct st.s st.U).map (fun U => { st with U := U })
      else some st).bind fun st =>
        if wantv then (generateVChecked n nrt st.e st.V).map (fun V => { st with V := V })
        else some st

/-- The divisors the generation of `U` and `V` will meet: for every column
`j < k` whose transformation was applied, `U(j,j) ≥ 1` (when `U` is wanted) and
`V(j+1,j) ≥ 1` (when `V` is wanted). -/
def Pivots (m n : ℕ) (wantu wantv : Bool) (k : ℕ) (st : Bidiag R) : Prop :=
  (wantu = true → ∀ j, j < k → j < min (m-1) n → st.s.get j ≠ 0 → 1 ≤ st.U.get j j) ∧
    (wantv = true → ∀ j, j < k → j < max 0 (min (n-2) m) → st.e.get j ≠ 0 →
      1 ≤ st.V.get (j+1) j)

/-! ## Products of reflections -/

/-- The product `(I − vv'/β)·X`, for a matrix `X` with `m` rows given by its
entries. -/
def reflL (m : ℕ) (v : ℕ → R) (β : R) (X : ℕ → ℕ → R) : ℕ → ℕ → R :=
  fun i j => X i j - (∑ r in Finset.range m, v r * X r j) / β * v i

/-- The product `X·(I − ww'/γ)`, for a matrix `X` with `n` columns given by
its entries. -/
def reflR (n : ℕ) (w : ℕ → R) (γ : R) (X : ℕ → ℕ → R) : ℕ → ℕ → R :=
  fun i j => X i j - (∑ c in Finset.range n, X i c * w c) / γ * w j

/-- The product `H_0·H_1 ⋯ H_{q-1}·X` for the list of the reflections
`H_t = I − v_t v_t'/β_t`. -/
def applyL (m : ℕ) : List ((ℕ → R) × R) → (ℕ → ℕ → R) → ℕ → ℕ → R
  | [], X => X
  | r :: rs, X => reflL m r.1 r.2 (applyL m rs X)

/-- The product `X·G_{q-1} ⋯ G_1·G_0` for the list of the reflections
`G_t = I − w_t w_t'/γ_t`. -/
def applyR (n : ℕ) : List ((ℕ → R) × R) → (ℕ → ℕ → R) → ℕ → ℕ → R
  | [], X => X
  | r :: rs, X => reflR n r.1 r.2 (applyR n rs X)

/-- The entries of the identity matrix. -/
def idMat : ℕ → ℕ → R := fun i j => if i = j then 1 else 0

/-- Two matrices given by their entries agree on the first `m` rows and `n`
columns. -/
def EqOn (m n : ℕ) (X Y : ℕ → ℕ → R) : Prop := ∀ i j, i < m → j < n → X i j = Y i j

/-- A pair `(v, β)` defines a reflection `I − vv'/β` of order `N`: `v'v = 2β`
with `β ≠ 0`; or `v = 0`, the identity. -/
def IsRefl (N : ℕ) (r : (ℕ → R) × R) : Prop :=
  (∀ i, r.1 i = 0) ∨ (r.2 ≠ 0 ∧ ∑ i in Finset.range N, r.1 i * r.1 i = 2 * r.2)
/-- The reflection of the `k`-th column transformation as the generation of
`U` reads it: the vector in column `k` of `U` with the divisor `U(k,k)` when
`k < nct` and `s(k) ≠ 0`, the identity otherwise. -/
def hop (nct : ℕ) (st : Bidiag R) (k : ℕ) : (ℕ → R) × R :=
  if k < nct ∧ st.s.get k ≠ 0 then (fun i => st.U.get i k, st.U.get k k) else (fun _ => 0, 1)

/-- The reflection of the `k`-th row transformation as the generation of `V`
reads it: the vector in column `k` of `V` with the divisor `V(k+1,k)` when
`k < nrt` and `e(k) ≠ 0`, the identity otherwise. -/
def gop (nrt : ℕ) (st : Bidiag R) (k : ℕ) : (ℕ → R) × R :=
  if k < nrt ∧ st.e.get k ≠ 0 then (fun i => st.V.get i k, st.V.get (k+1) k) else (fun _ => 0, 1)

/-- The reflections of the column transformations `lo .. lo+cnt-1`. -/
def opsU (nct : ℕ) (st : Bidiag R) (lo cnt : ℕ) : List ((ℕ → R) × R) :=
  (List.range' lo cnt).map (fun k => hop nct st k)

/-- The reflections of the row transformations `lo .. lo+cnt-1`. -/
def opsV (nrt : ℕ) (st : Bidiag R) (lo cnt : ℕ) : List ((ℕ → R) × R) :=
  (List.range' lo cnt).map (fun k => gop nrt st k)

/-- The matrix the bidiagonalisation has reached when the rows `0 .. kr-1` and
the columns `0 .. kc-1` are reduced: these hold the diagonal (`s(i)` for
`i < nct`, else the entry of the working copy) and the super-diagonal (`e(i)`
for `i < nrt`, else the entry of the working copy) and zeros; the rest is the
working copy. -/
def Tm (nct nrt : ℕ) (st : Bidiag R) (kr kc : ℕ) : ℕ → ℕ → R := fun i j =>
  if i < kr ∨ j < kc then
    if j = i then (if i < nct then st.s.get i else st.A.get i i)
    else if j = i + 1 then (if i < nrt then st.e.get i else st.A.get i j)
    else 0
  else st.A.get i j

/-- The upper-bidiagonal matrix with the diagonal `s` and the super-diagonal
`e`. -/
def Bmat (s e : Vec R) : ℕ → ℕ → R := fun i j =>
  if j = i then s.get i else if j = i + 1 then e.get i else 0

/-- Column `k` of `V` holds the reflection vector `w` of the `k`-th row
transformation: zero down to row `k`, and, when `e(k) ≠ 0`, `w'w = 2·w_{k+1}`
with `w_{k+1} ≠ 0`. -/
def HouseRow (n : ℕ) (e : Vec R) (V : Mat R) (k : ℕ) : Prop :=
  (∀ i, i ≤ k → V.get i k = 0) ∧
    (e.get k ≠ 0 →
      ∑ i in Finset.Ico (k+1) n, V.get i k * V.get i k = 2 * V.get (k+1) k ∧
        V.get (k+1) k ≠ 0)

/-- Invariant of the bidiagonalisation loop with both factors wanted, before
the pass for `k`: the columns `j < k` of `U` and `V` hold the reflection
vectors of the transformations made, the later columns are zero, and the
input `A0` is the reduced matrix with these reflections applied to it. -/
def BidiagInv (m n : ℕ) (A0 : ℕ → ℕ → R) (k : ℕ) (st : Bidiag R) : Prop :=
  st.Shape m n ∧ BidiagU m n k st ∧
    (∀ j, j < k → j < max 0 (min (n-2) m) → HouseRow n st.e st.V j) ∧
    (∀ i j, k ≤ j → st.V.get i j = 0) ∧
    EqOn m n A0
      (applyL m (opsU (min (m-1) n) st 0 k)
        (applyR n (opsV (max 0 (min (n-2) m)) st 0 k)
          (Tm (min (m-1) n) (max 0 (min (n-2) m)) st k k)))


/-! ## The shift of the qr step with checked divisions (lines 432–455)

The checks of this section are evaluated in the ordered field `R` (exact
arithmetic, `max` in a total order); `Double.shift` with `Watch.shift` makes the
same checks in the arithmetic of `double`, with `std::max`. -/

/-- Lines 432–434: the value `scale` of the qr step. -/
def scaleOf (p k : ℕ) (s e : Vec R) : R :=
  max (max (max (max |s.get (p-1)| |s.get (p-2)|) |e.get (p-2)|) |s.get k|) |e.get k|

/-- Lines 440–452 with the division of line 451 checked: `none` when the
divisor `b + shift` is zero. -/
def shiftOfChecked (sqrt : R → R) (sp spm1 epm1 : R) : Option R :=
  let b := ((spm1 + sp) * (spm1 - sp) + epm1 * epm1) / 2
  let c := (sp * epm1) * (sp * epm1)
  if b ≠ 0 ∨ c ≠ 0 then
    let shift := sqrt (b * b + c)
    let shift := if b < 0 then -shift else shift
    if b + shift = 0 then none else some (c / (b + shift))
  else some 0

/-- Lines 432–455 with every division checked: `none` when `scale` or
`b + shift` is zero, otherwise the values of `f` and `g` at line 455. -/
def shiftChecked (sqrt : R → R) (p k : ℕ) (s e : Vec R) : Option (R × R) :=
  let scale := max (max (max (max |s.get (p-1)| |s.get (p-2)|) |e.get (p-2)|)
    |s.get k|) |e.get k|
  if scale = 0 then none
  else
    let sp := s.get (p-1) / scale
    let spm1 := s.get (p-2) / scale
    let epm1 := e.get (p-2) / scale
    let sk := s.get k / scale
    let ek := e.get k / scale
    (shiftOfChecked sqrt sp spm1 epm1).map fun shift =>
      ((sk + sp) * (sk - sp) + shift, sk * ek)

/-- The values of `f` and `g` at line 455, as `case3` computes them. -/
def shiftStart (sqrt : R → R) (p k : ℕ) (s e : Vec R) : R × R :=
  let scale := scaleOf p k s e
  let sp := s.get (p-1) / scale
  let spm1 := s.get (p-2) / scale
  let epm1 := e.get (p-2) / scale
  let sk := s.get k / scale
  let ek := e.get k / scale
  ((sk + sp) * (sk - sp) + shiftOf sqrt sp spm1 epm1, sk * ek)


/-! ## The factorisation carried by the main loop -/

/-- Entry `(i,j)` of `U·diag(S)·V'` for a state of the main loop: the sum of
`U(i,c)·S(c)·V(j,c)` over `c < cnt`. -/
def Iter.recon (cnt : ℕ) (st : Iter R) (i j : ℕ) : R :=
  ∑ c in Finset.range cnt, st.U.get i c * st.s.get c * st.V.get j c

/-- The sizes of the containers of the main loop for an `m × n` input: `m_s` has
`min(m+1,n)` entries, `e` has `n`, `m_U` is `m × m` and `m_V` is `n × n`. -/
def Iter.Shape (m n : ℕ) (st : Iter R) : Prop :=
  st.s.length = min (m+1) n ∧ st.e.length = n ∧
    (st.U.WF ∧ st.U.rows = m ∧ st.U.cols = m) ∧ (st.V.WF ∧ st.V.rows = n ∧ st.V.cols = n)

/-- A state of the main loop for a 2×2 input: `m_s = (-1, 3)`, `m_U` and `m_V`
the identity. -/
def st31 : Iter ℚ :=
  ⟨[-1, 3], [0, 0], ⟨2, 2, [[1, 0], [0, 1]]⟩, ⟨2, 2, [[1, 0], [0, 1]]⟩, 1, 0⟩


/-! ## The main loop with a test at every plane rotation (lines 380–498)

The tests of this section are evaluated in the ordered field `R` (exact
arithmetic); `Double.iterStep` with `Watch.rotation` tests `t > 0` in the
arithmetic of `double`. -/

/-- The test made on a plane rotation built from `a` and `b` by
`t = hypot(a,b); cs = a/t; sn = b/t`: the value `t` is positive and
`cs² + sn² = 1`. -/
def isRotation (sqrt : R → R) (a b : R) : Bool :=
  decide (0 < hypot sqrt a b ∧
    (a / hypot sqrt a b) * (a / hypot sqrt a b) +
      (b / hypot sqrt a b) * (b / hypot sqrt a b) = 1)

/-- Lines 384–400: body of the loop of case 1, for one `j`. -/
def case1Step (sqrt : R → R) (n : ℕ) (wantv : Bool) (p k j : ℕ) (c : Chase R) : Chase R :=
  let t := hypot sqrt (c.s.get j) c.f
  let cs := c.s.get j / t
  let sn := c.f / t
  let c : Chase R := { c with s := c.s.set j t }
  let c : Chase R :=
    if j ≠ k then { c with f := -sn * c.e.get (j-1), e := c.e.set (j-1) (cs * c.e.get (j-1)) }
    else c
  if wantv then { c with V := rot n c.V j (p-1) cs sn } else c

/-- Lines 411–424: body of the loop of case 2, for one `j`. -/
def case2Step (sqrt : R → R) (m : ℕ) (wantu : Bool) (k j : ℕ) (c : Chase R) : Chase R :=
  let t := hypot sqrt (c.s.get j) c.f
  let cs := c.s.get j / t
  let sn := c.f / t
  let c : Chase R := { c with s := c.s.set j t }
  let c : Chase R := { c with f := -sn * c.e.get j, e := c.e.set j (cs * c.e.get j) }
  if wantu then { c with U := rot m c.U j (k-1) cs sn } else c

/-- Lines 459–477: the first rotation of a pass of the chase, applied to `V`. -/
def chaseV (sqrt : R → R) (n : ℕ) (wantv : Bool) (k j : ℕ) (c : Chase R) : Chase R :=
  let t := hypot sqrt c.f c.g
  let cs := c.f / t
  let sn := c.g / t
  let c : Chase R := if j ≠ k then { c with e := c.e.set (j-1) t } else c
  let c : Chase R := { c with f := cs * c.s.get j + sn * c.e.get j }
  let c : Chase R := { c with e := c.e.set j (cs * c.e.get j - sn * c.s.get j) }
  let c : Chase R := { c with g := sn * c.s.get (j+1) }
  let c : Chase R := { c with s := c.s.set (j+1) (cs * c.s.get (j+1)) }
  if wantv then { c with V := rot n c.V j (j+1) cs sn } else c

/-- Lines 479–494: the second rotation of a pass of the chase, applied to `U`. -/
def chaseU (sqrt : R → R) (m : ℕ) (wantu : Bool) (j : ℕ) (c : Chase R) : Chase R :=
  let t := hypot sqrt c.f c.g
  let cs := c.f / t
  let sn := c.g / t
  let c : Chase R := { c with s := c.s.set j t }
  let c : Chase R := { c with f := cs * c.e.get j + sn * c.s.get (j+1) }
  let c : Chase R := { c with s := c.s.set (j+1) (-sn * c.e.get j + cs * c.s.get (j+1)) }
  let c : Chase R := { c with g := sn * c.e.get (j+1) }
  let c : Chase R := { c with e := c.e.set (j+1) (cs * c.e.get (j+1)) }
  if wantu ∧ j < m - 1 then { c with U := rot m c.U j (j+1) cs sn } else c

/-- Case 1 with the test `isRotation` at its rotation (line 384): `none` when
a rotation fails the test. -/
def case1Checked (sqrt : R → R) (n : ℕ) (wantv : Bool) (p k : ℕ) (st : Iter R) :
    Option (Iter R) :=
  let f := st.e.get (p-2)
  let e := st.e.set (p-2) 0
  (forDown k (p-1) (fun j o => o.bind fun c =>
      if isRotation sqrt (c.s.get j) c.f then some (case1Step sqrt n wantv p k j c) else none)
    (some ⟨f, 0, st.s, e, st.U, st.V⟩)).map
    fun c => { st with s := c.s, e := c.e, V := c.V }

/-- Case 2 with the test `isRotation` at its rotation (line 411). -/
def case2Checked (sqrt : R → R) (m : ℕ) (wantu : Bool) (p k : ℕ) (st : Iter R) :
    Option (Iter R) :=
  let f := st.e.get (k-1)
  let e := st.e.set (k-1) 0
  (forUp k p (fun j o => o.bind fun c =>
      if isRotation sqrt (c.s.get j) c.f then some (case2Step sqrt m wantu k j c) else none)
    (some ⟨f, 0, st.s, e, st.U, st.V⟩)).map
    fun c => { st with s := c.s, e := c.e, U := c.U }

/-- One pass of the chase with the test `isRotation` at its two rotations
(lines 459 and 479). -/
def chaseStepChecked (sqrt : R → R) (m n : ℕ) (wantu wantv : Bool) (k j : ℕ) (c : Chase R) :
    Option (Chase R) :=
  if isRotation sqrt c.f c.g then
    let c1 := chaseV sqrt n wantv k j c
    if isRotation sqrt c1.f c1.g then some (chaseU sqrt m wantu j c1) else none
  else none

/-- Case 3 with the test `isRotation` at every rotation of the chase. -/
def case3Checked (sqrt : R → R) (m n : ℕ) (wantu wantv : Bool) (p k : ℕ) (st : Iter R) :
    Option (Iter R) :=
  let fg := shiftStart sqrt p k st.s st.e
  (forUp k (p-1) (fun j o => o.bind fun c => chaseStepChecked sqrt m n wantu wantv k j c)
    (some ⟨fg.1, fg.2, st.s, st.e, st.U, st.V⟩)).map
    fun c => { st with s := c.s, e := c.e.set (p-2) c.f, U := c.U, V := c.V,
                       iter := st.iter + 1 }

/-- One pass of `while (p > 0)` with the test `isRotation` at every plane
rotation of cases 1, 2 and 3; case 4 makes no rotation. -/
def iterStepChecked (sqrt : R → R) (eps : R) (m n pp : ℕ) (wantu wantv : Bool)
    (st : Iter R) : Option (Iter R) :=
  let cl := classify eps st.p st.s st.e
  let kase := cl.1
  let k := cl.2.1
  let st : Iter R := { st with s := cl.2.2.1, e := cl.2.2.2 }
  if kase = 1 then case1Checked sqrt n wantv st.p k st
  else if kase = 2 then case2Checked sqrt m wantu st.p k st
  else if kase = 3 then case3Checked sqrt m n wantu wantv st.p k st
  else some (case4 m n pp wantu wantv k st)

/-- A state of the main loop for a 2×2 input, classified as case 3:
`m_s = (1, 1)`, `e = (1, 0)`, `m_U` and `m_V` the identity, `p = 2`. -/
def st32 (R : Type) [LinearOrderedField R] : Iter R :=
  ⟨[1, 1], [1, 0], ⟨2, 2, [[1, 0], [0, 1]]⟩, ⟨2, 2, [[1, 0], [0, 1]]⟩, 2, 0⟩


/-! ## The constructor with an index check at every access (lines 148–547)

The comparisons that decide which indices are used (the negligibility tests of
lines 344 and 360) are evaluated in the ordered field `R` (exact arithmetic);
`Double.construct` makes the same index checks in the arithmetic of `double`. -/

/-- An access with the `int` index `i` to a container of `len` entries: the
computation `next` goes on when `0 ≤ i < len`; otherwise the access is outside
the container and the result is `none`. -/
def inRange {α : Type} (len : ℕ) (i : ℤ) (next : Option α) : Option α :=
  if 0 ≤ i ∧ i < len then next else none

/-- An access to `v(i)`, read or written. -/
def Vec.ix {α : Type} (v : Vec R) (i : ℤ) (next : Option α) : Option α :=
  inRange v.length i next

/-- An access to `M(i,j)`, read or written. -/
def Mat.ix {α : Type} (M : Mat R) (i j : ℤ) (next : Option α) : Option α :=
  inRange M.rows i (inRange M.cols j next)

/-- The sizes of the containers of the bidiagonalisation for an `m × n` input,
as allocated in lines 146–160. -/
def Bidiag.Dims (m n : ℕ) (st : Bidiag R) : Prop :=
  (st.A.rows = m ∧ st.A.cols = n) ∧ st.s.length = min (m+1) n ∧ st.e.length = n ∧
    st.work.length = m ∧ (st.U.rows = m ∧ st.U.cols = m) ∧ (st.V.rows = n ∧ st.V.cols = n)

/-! ### The column transformation in three parts (lines 171–184) -/

/-- Lines 171–174: the norm of column `k` of the working copy, in `m_s(k)`. -/
def colNorm (sqrt : R → R) (m k : ℕ) (st : Bidiag R) : Bidiag R :=
  { st with
    s := forUp k m (fun i s => s.set k (hypot sqrt (s.get k) (st.A.get i k))) (st.s.set k 0) }

/-- Lines 175–183: the sign of `m_s(k)`, the normalisation of column `k` and
the shift of `A(k,k)`. -/
def colScale (m k : ℕ) (st : Bidiag R) : Bidiag R :=
  if st.s.get k ≠ 0 then
    let st : Bidiag R :=
      if st.A.get k k < 0 then { st with s := st.s.set k (-(st.s.get k)) } else st
    let st : Bidiag R := { st with
      A := forUp k m (fun i A => A.set i k (A.get i k / st.s.get k)) st.A }
    { st with A := st.A.set k k (st.A.get k k + 1) }
  else st

/-- Line 184: `m_s(k) = -m_s(k)`. -/
def colNeg (k : ℕ) (st : Bidiag R) : Bidiag R :=
  { st with s := st.s.set k (-(st.s.get k)) }

/-- Lines 171–174 with every access checked. -/
def colNormIx (sqrt : R → R) (m k : ℕ) (st : Bidiag R) : Option (Bidiag R) :=
  st.s.ix k <|
  (forUp k m (fun i o => o.bind fun s =>
      s.ix k <| st.A.ix i k <| some (s.set k (hypot sqrt (s.get k) (st.A.get i k))))
    (some (st.s.set k 0))).map fun s => { st with s := s }

/-- Lines 175–183 with every access checked. -/
def colScaleIx (m k : ℕ) (st : Bidiag R) : Option (Bidiag R) :=
  st.s.ix k <|
  if st.s.get k ≠ 0 then
    st.A.ix k k <|
    (if st.A.get k k < 0 then
      st.s.ix k <| some ({ st with s := st.s.set k (-(st.s.get k)) } : Bidiag R)
    else some st).bind fun st =>
    (forUp k m (fun i o => o.bind fun A =>
        A.ix i k <| st.s.ix k <| some (A.set i k (A.get i k / st.s.get k)))
      (some st.A)).bind fun A =>
    A.ix k k <| some { st with A := A.set k k (A.get k k + 1) }
  else some st

/-- Line 184 with its access checked. -/
def colNegIx (k : ℕ) (st : Bidiag R) : Option (Bidiag R) :=
  st.s.ix k <| some { st with s := st.s.set k (-(st.s.get k)) }

/-- Lines 171–184 (`colTransform`) with every access checked. -/
def colTransformIx (sqrt : R → R) (m k : ℕ) (st : Bidiag R) : Option (Bidiag R) :=
  (colNormIx sqrt m k st).bind fun st => (colScaleIx m k st).bind fun st => colNegIx k st

/-! ### The rest of the column part (lines 186–209) -/

/-- Lines 203–209: the transformation is placed in column `k` of `U`. -/
def storeU (m nct : ℕ) (wantu : Bool) (k : ℕ) (st : Bidiag R) : Bidiag R :=
  if wantu ∧ k < nct then
    { st with U := forUp k m (fun i U => U.set i k (st.A.get i k)) st.U }
  else st

/-- Lines 187–201 (`applyCol`) with every access checked; `m_s(k)` is read
only when `k < nct` (the operator `&&` of line 187). -/
def applyColIx (m nct k j : ℕ) (st : Bidiag R) : Option (Bidiag R) :=
  (if k < nct then st.s.ix k (some ()) else some ()).bind fun _ =>
  (if k < nct ∧ st.s.get k ≠ 0 then
    (forUp k m (fun i o => o.bind fun t =>
        st.A.ix i k <| st.A.ix i j <| some (t + st.A.get i k * st.A.get i j)) (some 0)).bind
      fun t =>
    st.A.ix k k <|
    (forUp k m (fun i o => o.bind fun A =>
        A.ix i j <| A.ix i k <|
          some (A.set i j (A.get i j + -t / st.A.get k k * A.get i k))) (some st.A)).map
      fun A => ({ st with A := A } : Bidiag R)
  else some st).bind fun st =>
  st.e.ix j <| st.A.ix k j <| some { st with e := st.e.set j (st.A.get k j) }

/-- Lines 203–209 with every access checked. -/
def storeUIx (m nct : ℕ) (wantu : Bool) (k : ℕ) (st : Bidiag R) : Option (Bidiag R) :=
  if wantu ∧ k < nct then
    (forUp k m (fun i o => o.bind fun U =>
        U.ix i k <| st.A.ix i k <| some (U.set i k (st.A.get i k))) (some st.U)).map
      fun U => { st with U := U }
  else some st

/-- Lines 167–209 (`colPart`) with every access checked. -/
def colPartIx (sqrt : R → R) (m n nct : ℕ) (wantu : Bool) (k : ℕ) (st : Bidiag R) :
    Option (Bidiag R) :=
  (if k < nct then colTransformIx sqrt m k st else some st).bind fun st =>
  (forUp (k+1) n (fun j o => o.bind fun st => applyColIx m nct k j st) (some st)).bind fun st =>
  storeUIx m nct wantu k st

/-! ### The row transformation in parts (lines 214–252) -/

/-- Lines 214–217: the norm of `e(k+1 .. n-1)`, in `e(k)`. -/
def rowNrm (sqrt : R → R) (n k : ℕ) (st : Bidiag R) : Bidiag R :=
  { st with
    e := forUp (k+1) n (fun i e => e.set k (hypot sqrt (e.get k) (e.get i))) (st.e.set k 0) }

/-- Lines 218–226: the sign of `e(k)`, the normalisation of `e(k+1 .. n-1)` and
the shift of `e(k+1)`. -/
def rowScale (n k : ℕ) (st : Bidiag R) : Bidiag R :=
  if st.e.get k ≠ 0 then
    let st : Bidiag R :=
      if st.e.get (k+1) < 0 then { st with e := st.e.set k (-(st.e.get k)) } else st
    let st : Bidiag R := { st with
      e := forUp (k+1) n (fun i e => e.set i (e.get i / e.get k)) st.e }
    { st with e := st.e.set (k+1) (st.e.get (k+1) + 1) }
  else st

/-- Line 227: `e(k) = -e(k)`. -/
def rowNeg (k : ℕ) (st : Bidiag R) : Bidiag R :=
  { st with e := st.e.set k (-(st.e.get k)) }

/-- Lines 231–233: `work(k+1 .. m-1)` is cleared. -/
def workZero (m k : ℕ) (st : Bidiag R) : Bidiag R :=
  { st with work := forUp (k+1) m (fun i w => w.set i 0) st.work }

/-- Lines 234–238: `work(i) += e(j) * A(i,j)`. -/
def workSum (m n k : ℕ) (st : Bidiag R) : Bidiag R :=
  { st with
    work := forUp (k+1) n (fun j w =>
      forUp (k+1) m (fun i w => w.set i (w.get i + st.e.get j * st.A.get i j)) w) st.work }

/-- Lines 239–244: `A(i,j) += (-e(j)/e(k+1)) * work(i)`. -/
def rowUpdate (m n k : ℕ) (st : Bidiag R) : Bidiag R :=
  { st with
    A := forUp (k+1) n (fun j A =>
      let t := -(st.e.get j) / st.e.get (k+1)
      forUp (k+1) m (fun i A => A.set i j (A.get i j + t * st.work.get i)) A) st.A }

/-- Lines 214–217 with every access checked. -/
def rowNrmIx (sqrt : R → R) (n k : ℕ) (st : Bidiag R) : Option (Bidiag R) :=
  st.e.ix k <|
  (forUp (k+1) n (fun i o => o.bind fun e =>
      e.ix k <| e.ix i <| some (e.set k (hypot sqrt (e.get k) (e.get i))))
    (some (st.e.set k 0))).map fun e => { st with e := e }

/-- Lines 218–226 with every access checked. -/
def rowScaleIx (n k : ℕ) (st : Bidiag R) : Option (Bidiag R) :=
  st.e.ix k <|
  if st.e.get k ≠ 0 then
    st.e.ix (k+1) <|
    (if st.e.get (k+1) < 0 then
      st.e.ix k <| some ({ st with e := st.e.set k (-(st.e.get k)) } : Bidiag R)
    else some st).bind fun st =>
    (forUp (k+1) n (fun i o => o.bind fun e =>
        e.ix i <| e.ix k <| some (e.set i (e.get i / e.get k))) (some st.e)).bind fun e =>
    e.ix (k+1) <| some { st with e := e.set (k+1) (e.get (k+1) + 1) }
  else some st

/-- Line 227 with its access checked. -/
def rowNegIx (k : ℕ) (st : Bidiag R) : Option (Bidiag R) :=
  st.e.ix k <| some { st with e := st.e.set k (-(st.e.get k)) }

/-- Lines 231–233 with every access checked. -/
def workZeroIx (m k : ℕ) (st : Bidiag R) : Option (Bidiag R) :=
  (forUp (k+1) m (fun i o => o.bind fun w => w.ix i <| some (w.set i 0))
    (some st.work)).map fun w => { st with work := w }

/-- Lines 234–238 with every access checked. -/
def workSumIx (m n k : ℕ) (st : Bidiag R) : Option (Bidiag R) :=
  (forUp (k+1) n (fun j o => o.bind fun w =>
      forUp (k+1) m (fun i o => o.bind fun w =>
        w.ix i <| st.e.ix j <| st.A.ix i j <|
          some (w.set i (w.get i + st.e.get j * st.A.get i j))) (some w))
    (some st.work)).map fun w => { st with work := w }

/-- Lines 239–244 with every access checked. -/
def rowUpdateIx (m n k : ℕ) (st : Bidiag R) : Option (Bidiag R) :=
  (forUp (k+1) n (fun j o => o.bind fun A =>
      st.e.ix j <| st.e.ix (k+1) <|
      forUp (k+1) m (fun i o => o.bind fun A =>
        A.ix i j <| st.work.ix i <|
          some (A.set i j (A.get i j + -(st.e.get j) / st.e.get (k+1) * st.work.get i)))
        (some A))
    (some st.A)).map fun A => { st with A := A }

/-- Lines 229–245 (`rowApply`) with every access checked; `e(k)` is read in
every case (the operator `&` of line 229). -/
def rowApplyIx (m n k : ℕ) (st : Bidiag R) : Option (Bidiag R) :=
  st.e.ix k <|
  if k + 1 < m ∧ st.e.get k ≠ 0 then
    (workZeroIx m k st).bind fun st => (workSumIx m n k st).bind fun st => rowUpdateIx m n k st
  else some st

/-- Lines 246–252 (`rowStore`) with every access checked. -/
def rowStoreIx (n k : ℕ) (wantv : Bool) (st : Bidiag R) : Option (Bidiag R) :=
  if wantv then
    (forUp (k+1) n (fun i o => o.bind fun V =>
        V.ix i k <| st.e.ix i <| some (V.set i k (st.e.get i))) (some st.V)).map
      fun V => { st with V := V }
  else some st

/-- Lines 211–252 (`rowTransform`) with every access checked. -/
def rowTransformIx (sqrt : R → R) (m n k : ℕ) (wantv : Bool) (st : Bidiag R) :
    Option (Bidiag R) :=
  (rowNrmIx sqrt n k st).bind fun st => (rowScaleIx n k st).bind fun st =>
    (rowNegIx k st).bind fun st => (rowApplyIx m n k st).bind fun st => rowStoreIx n k wantv st

/-- Lines 167–253 (`bidiagStep`) with every access checked. -/
def bidiagStepIx (sqrt : R → R) (m n nct nrt : ℕ) (wantu wantv : Bool) (k : ℕ)
    (st : Bidiag R) : Option (Bidiag R) :=
  (colPartIx sqrt m n nct wantu k st).bind fun st =>
    if k < nrt then rowTransformIx sqrt m n k wantv st else some st

/-! ### The generation of `U` and `V` in parts (lines 264–319) -/

/-- Lines 273–282 (`cnt = m`, `r0 = k`) and 303–312 (`cnt = n`, `r0 = k+1`):
the transformation stored in the rows `r0 .. cnt-1` of column `k` is applied to
the columns `k+1 .. cnt-1`. -/
def backApply (cnt r0 k : ℕ) (M : Mat R) : Mat R :=
  forUp (k+1) cnt (fun j U =>
    let t := forUp r0 cnt (fun i t => t + U.get i k * U.get i j) 0
    let t := -t / U.get r0 k
    forUp r0 cnt (fun i U => U.set i j (U.get i j + t * U.get i k)) U) M

/-- Lines 283–286: column `k` of `U` is negated in the rows `k .. m-1`, and
`U(k,k) = 1 + U(k,k)`. -/
def genUNeg (m k : ℕ) (U : Mat R) : Mat R :=
  let U : Mat R := forUp k m (fun i U => U.set i k (-(U.get i k))) U
  U.set k k (1 + U.get k k)

/-- Lines 287–289: `for (i = 0; i < k-1; i++) U(i,k) = 0`. -/
def genUZero (k : ℕ) (U : Mat R) : Mat R :=
  forUp 0 (k-1) (fun i U => U.set i k 0) U

/-- Lines 291–294 (`cnt = m`) and 314–317 (`cnt = n`): column `k` becomes the
`k`-th identity column. -/
def colId (cnt k : ℕ) (M : Mat R) : Mat R :=
  let M : Mat R := forUp 0 cnt (fun i U => U.set i k 0) M
  M.set k k 1

/-- Lines 273–282 and 303–312 with every access checked. -/
def backApplyIx (cnt r0 k : ℕ) (M : Mat R) : Option (Mat R) :=
  forUp (k+1) cnt (fun j o => o.bind fun U =>
    (forUp r0 cnt (fun i o => o.bind fun t =>
        U.ix i k <| U.ix i j <| some (t + U.get i k * U.get i j)) (some 0)).bind fun t =>
    U.ix r0 k <|
    forUp r0 cnt (fun i o => o.bind fun W =>
        W.ix i j <| W.ix i k <| some (W.set i j (W.get i j + -t / U.get r0 k * W.get i k)))
      (some U)) (some M)

/-- Lines 283–286 with every access checked. -/
def genUNegIx (m k : ℕ) (U : Mat R) : Option (Mat R) :=
  (forUp k m (fun i o => o.bind fun U => U.ix i k <| some (U.set i k (-(U.get i k))))
    (some U)).bind fun U =>
  U.ix k k <| some (U.set k k (1 + U.get k k))

/-- Lines 287–289 with every access checked. -/
def genUZeroIx (k : ℕ) (U : Mat R) : Option (Mat R) :=
  forUp 0 (k-1) (fun i o => o.bind fun U => U.ix i k <| some (U.set i k 0)) (some U)

/-- Lines 291–294 and 314–317 with every access checked. -/
def colIdIx (cnt k : ℕ) (M : Mat R) : Option (Mat R) :=
  (forUp 0 cnt (fun i o => o.bind fun U => U.ix i k <| some (U.set i k 0)) (some M)).bind
    fun M => M.ix k k <| some (M.set k k 1)

/-- Lines 272–295 (`genUStep`) with every access checked. -/
def genUStepIx (m : ℕ) (s : Vec R) (k : ℕ) (U : Mat R) : Option (Mat R) :=
  s.ix k <|
  if s.get k ≠ 0 then
    (backApplyIx m k k U).bind fun U => (genUNegIx m k U).bind fun U => genUZeroIx k U
  else colIdIx m k U

/-- Lines 302–317 (`genVStep`) with every access checked; `e(k)` is read in
every case (the operator `&` of line 302). -/
def genVStepIx (n nrt : ℕ) (e : Vec R) (k : ℕ) (V : Mat R) : Option (Mat R) :=
  e.ix k <|
  (if k < nrt ∧ e.get k ≠ 0 then backApplyIx n (k+1) k V else some V).bind fun V =>
  colIdIx n k V

/-- Lines 265–296 (`generateU`) with every access checked. -/
def generateUIx (m nct : ℕ) (s : Vec R) (U : Mat R) : Option (Mat R) :=
  (forUp nct m (fun j o => o.bind fun U => colIdIx m j U) (some U)).bind fun U =>
  forDown 0 nct (fun k o => o.bind fun U => genUStepIx m s k U) (some U)

/-- Lines 301–318 (`generateV`) with every access checked. -/
def generateVIx (n nrt : ℕ) (e : Vec R) (V : Mat R) : Option (Mat R) :=
  forDown 0 n (fun k o => o.bind fun V => genVStepIx n nrt e k V) (some V)

/-- Lines 149–319 (`SVD.init`) with every access checked: `none` when an index
is outside its container. -/
def SVD.initIx (sqrt : R → R) (A : Mat R) (wantu wantv : Bool) : Option (Bidiag R) :=
  let m := A.rows
  let n := A.cols
  let nct := min (m-1) n
  let nrt := max 0 (min (n-2) m)
  let st : Bidiag R :=
    ⟨A, Vec.zeros (min (m+1) n), Vec.zeros n, Vec.zeros m, Mat.zeros m m, Mat.zeros n n⟩
  (forUp 0 (max nct nrt)
      (fun k o => o.bind fun st => bidiagStepIx sqrt m n nct nrt wantu wantv k st)
      (some st)).bind fun st =>
  (finalSetupChecked (m : ℤ) (n : ℤ) (nct : ℤ) (nrt : ℤ) st).bind fun st =>
  (if wantu then (generateUIx m nct st.s st.U).map fun U => ({ st with U := U } : Bidiag R)
    else some st).bind fun st =>
  if wantv then (generateVIx n nrt st.e st.V).map fun V => { st with V := V }
  else some st

/-! ### The main loop with an index check at every access (lines 325–547) -/

/-- The sizes of the containers of the main loop for an `m × n` input. -/
def Iter.Dims (m n : ℕ) (st : Iter R) : Prop :=
  st.s.length = min (m+1) n ∧ st.e.length = n ∧ (st.U.rows = m ∧ st.U.cols = m) ∧
    (st.V.rows = n ∧ st.V.cols = n)

/-- The sizes of the containers in the rotation loops of cases 1, 2 and 3. -/
def Chase.Dims (m n : ℕ) (c : Chase R) : Prop :=
  c.s.length = min (m+1) n ∧ c.e.length = n ∧ (c.U.rows = m ∧ c.U.cols = m) ∧
    (c.V.rows = n ∧ c.V.cols = n)

/-- Lines 340–348 (`scanE`) with every access checked. -/
def scanEIx (eps : R) (s e : Vec R) : ℕ → Option ℕ
  | 0 => some 0
  | k+1 =>
    e.ix k <| s.ix k <| s.ix ((k:ℤ) + 1) <|
    if |e.get k| ≤ eps * (|s.get k| + |s.get (k+1)|) then some (k + 1)
    else scanEIx eps s e k

/-- Lines 353–364 (`scanS`) with every access checked: `e(ks)` is read when
`ks != p`, `e(ks-1)` when `ks != k+1`. -/
def scanSIx (eps : R) (s e : Vec R) (p k1 : ℕ) : ℕ → Option ℕ
  | 0 => some 0
  | ks+1 =>
    if ks + 1 = k1 then some (ks + 1)
    else
      (if ks ≠ p then e.ix ks (some ()) else some ()).bind fun _ =>
      (if ks ≠ k1 then e.ix ((ks:ℤ) - 1) (some ()) else some ()).bind fun _ =>
      s.ix ks <|
      if |s.get ks| ≤ eps * ((if ks ≠ p then |e.get ks| else 0) +
          (if ks ≠ k1 then |e.get (ks-1)| else 0)) then some (ks + 1)
      else scanSIx eps s e p k1 ks

/-- Lines 340–375 (`classify`) with every access checked, the assignments
`e(k) = 0` of line 345 and `m_s(ks) = 0` of line 361 included. -/
def classifyIx (eps : R) (p : ℕ) (s e : Vec R) : Option (ℕ × ℕ × Vec R × Vec R) :=
  (scanEIx eps s e (p-1)).bind fun k1 =>
  (if k1 = 0 then some e else e.ix ((k1:ℤ) - 1) (some (e.set (k1-1) 0))).bind fun e =>
  if k1 = p - 1 then some (4, k1, s, e)
  else
    (scanSIx eps s e p k1 p).bind fun ks1 =>
    (if ks1 = k1 then some s else s.ix ((ks1:ℤ) - 1) (some (s.set (ks1-1) 0))).bind fun s =>
    if ks1 = k1 then some (3, k1, s, e)
    else if ks1 = p then some (1, k1, s, e)
    else some (2, ks1, s, e)

/-- The plane rotation of the columns `a` and `b` (`rot`) with every access
checked; the columns are given as the `int` values of the source. -/
def rotIx (cnt : ℕ) (M : Mat R) (a b : ℤ) (cs sn : R) : Option (Mat R) :=
  forUp 0 cnt (fun i o => o.bind fun M =>
    M.ix i a <| M.ix i b <|
    some ((M.set i b.toNat (-sn * M.get i a.toNat + cs * M.get i b.toNat)).set i a.toNat
      (cs * M.get i a.toNat + sn * M.get i b.toNat))) (some M)

/-- The exchange of the columns `k` and `k+1` (`swapCols`) with every access
checked. -/
def swapColsIx (cnt : ℕ) (M : Mat R) (k : ℕ) : Option (Mat R) :=
  forUp 0 cnt (fun i o => o.bind fun M =>
    M.ix i ((k:ℤ) + 1) <| M.ix i k <|
    some ((M.set i (k+1) (M.get i k)).set i k (M.get i (k+1)))) (some M)

/-- Lines 384–400 (`case1Step`) with every access checked. -/
def case1StepIx (sqrt : R → R) (n : ℕ) (wantv : Bool) (p k j : ℕ) (c : Chase R) :
    Option (Chase R) :=
  c.s.ix j <|
  let t := hypot sqrt (c.s.get j) c.f
  let cs := c.s.get j / t
  let sn := c.f / t
  let c : Chase R := { c with s := c.s.set j t }
  (if j ≠ k then
    c.e.ix ((j:ℤ) - 1) <|
      some ({ c with f := -sn * c.e.get (j-1),
                     e := c.e.set (j-1) (cs * c.e.get (j-1)) } : Chase R)
  else some c).bind fun c =>
  if wantv then (rotIx n c.V j ((p:ℤ) - 1) cs sn).map fun V => { c with V := V }
  else some c

/-- Lines 380–402 (`case1`) with every access checked. -/
def case1Ix (sqrt : R → R) (n : ℕ) (wantv : Bool) (p k : ℕ) (st : Iter R) :
    Option (Iter R) :=
  st.e.ix ((p:ℤ) - 2) <|
  (forDown k (p-1) (fun j o => o.bind fun c => case1StepIx sqrt n wantv p k j c)
    (some ⟨st.e.get (p-2), 0, st.s, st.e.set (p-2) 0, st.U, st.V⟩)).map
    fun c => { st with s := c.s, e := c.e, V := c.V }

/-- Lines 411–424 (`case2Step`) with every access checked. -/
def case2StepIx (sqrt : R → R) (m : ℕ) (wantu : Bool) (k j : ℕ) (c : Chase R) :
    Option (Chase R) :=
  c.s.ix j <| c.e.ix j <|
  let t := hypot sqrt (c.s.get j) c.f
  let cs := c.s.get j / t
  let sn := c.f / t
  let c : Chase R := { c with s := c.s.set j t }
  let c : Chase R := { c with f := -sn * c.e.get j, e := c.e.set j (cs * c.e.get j) }
  if wantu then (rotIx m c.U j ((k:ℤ) - 1) cs sn).map fun U => { c with U := U }
  else some c

/-- Lines 406–426 (`case2`) with every access checked. -/
def case2Ix (sqrt : R → R) (m : ℕ) (wantu : Bool) (p k : ℕ) (st : Iter R) :
    Option (Iter R) :=
  st.e.ix ((k:ℤ) - 1) <|
  (forUp k p (fun j o => o.bind fun c => case2StepIx sqrt m wantu k j c)
    (some ⟨st.e.get (k-1), 0, st.s, st.e.set (k-1) 0, st.U, st.V⟩)).map
    fun c => { st with s := c.s, e := c.e, U := c.U }

/-- Lines 459–477 (`chaseV`) with every access checked. -/
def chaseVIx (sqrt : R → R) (n : ℕ) (wantv : Bool) (k j : ℕ) (c : Chase R) :
    Option (Chase R) :=
  let t := hypot sqrt c.f c.g
  let cs := c.f / t
  let sn := c.g / t
  (if j ≠ k then c.e.ix ((j:ℤ) - 1) <| some ({ c with e := c.e.set (j-1) t } : Chase R)
    else some c).bind fun c =>
  c.s.ix j <| c.e.ix j <|
  let c : Chase R := { c with f := cs * c.s.get j + sn * c.e.get j }
  let c : Chase R := { c with e := c.e.set j (cs * c.e.get j - sn * c.s.get j) }
  c.s.ix ((j:ℤ) + 1) <|
  let c : Chase R := { c with g := sn * c.s.get (j+1) }
  let c : Chase R := { c with s := c.s.set (j+1) (cs * c.s.get (j+1)) }
  if wantv then (rotIx n c.V j ((j:ℤ) + 1) cs sn).map fun V => { c with V := V }
  else some c

/-- Lines 479–494 (`chaseU`) with every access checked. -/
def chaseUIx (sqrt : R → R) (m : ℕ) (wantu : Bool) (j : ℕ) (c : Chase R) :
    Option (Chase R) :=
  let t := hypot sqrt c.f c.g
  let cs := c.f / t
  let sn := c.g / t
  c.s.ix j <|
  let c : Chase R := { c with s := c.s.set j t }
  c.e.ix j <| c.s.ix ((j:ℤ) + 1) <|
  let c : Chase R := { c with f := cs * c.e.get j + sn * c.s.get (j+1) }
  let c : Chase R := { c with s := c.s.set (j+1) (-sn * c.e.get j + cs * c.s.get (j+1)) }
  c.e.ix ((j:ℤ) + 1) <|
  let c : Chase R := { c with g := sn * c.e.get (j+1) }
  let c : Chase R := { c with e := c.e.set (j+1) (cs * c.e.get (j+1)) }
  if wantu ∧ j < m - 1 then
    (rotIx m c.U j ((j:ℤ) + 1) cs sn).map fun U => { c with U := U }
  else some c

/-- Lines 430–498 (`case3`) with every access checked: the reads of lines
432–439, the passes of the chase and the assignment `e(p-2) = f`. -/
def case3Ix (sqrt : R → R) (m n : ℕ) (wantu wantv : Bool) (p k : ℕ) (st : Iter R) :
    Option (Iter R) :=
  st.s.ix ((p:ℤ) - 1) <| st.s.ix ((p:ℤ) - 2) <| st.e.ix ((p:ℤ) - 2) <|
  st.s.ix k <| st.e.ix k <|
  (forUp k (p-1) (fun j o => o.bind fun c =>
      (chaseVIx sqrt n wantv k j c).bind fun c => chaseUIx sqrt m wantu j c)
    (some ⟨(shiftStart sqrt p k st.s st.e).1, (shiftStart sqrt p k st.s st.e).2,
      st.s, st.e, st.U, st.V⟩)).bind fun c =>
  c.e.ix ((p:ℤ) - 2) <|
  some { st with s := c.s, e := c.e.set (p-2) c.f, U := c.U, V := c.V, iter := st.iter + 1 }

/-- Lines 520–538 (`orderSwap`) with every access checked. -/
def orderSwapIx (m n : ℕ) (wantu wantv : Bool) (k : ℕ) (st : Iter R) : Option (Iter R) :=
  st.s.ix k <| st.s.ix ((k:ℤ) + 1) <|
  let t := st.s.get k
  let st : Iter R := { st with s := st.s.set k (st.s.get (k+1)) }
  let st : Iter R := { st with s := st.s.set (k+1) t }
  (if wantv ∧ k < n - 1 then (swapColsIx n st.V k).map fun V => ({ st with V := V } : Iter R)
    else some st).bind fun st =>
  if wantu ∧ k < m - 1 then (swapColsIx m st.U k).map fun U => { st with U := U }
  else some st

/-- Lines 516–541 (`order`) with every access checked. -/
def orderIx (m n : ℕ) (wantu wantv : Bool) : ℕ → ℕ → Iter R → Option (Iter R)
  | 0, _, st => some st
  | d+1, k, st =>
    st.s.ix k <| st.s.ix ((k:ℤ) + 1) <|
    if st.s.get k ≥ st.s.get (k+1) then some st
    else (orderSwapIx m n wantu wantv k st).bind fun st => orderIx m n wantu wantv d (k+1) st

/-- Lines 502–544 (`case4`) with every access checked. -/
def case4Ix (m n pp : ℕ) (wantu wantv : Bool) (k : ℕ) (st : Iter R) : Option (Iter R) :=
  st.s.ix k <|
  (if st.s.get k ≤ 0 then
    let st : Iter R :=
      { st with s := st.s.set k (if st.s.get k < 0 then -(st.s.get k) else 0) }
    if wantv then
      (forUp 0 (pp+1) (fun i o => o.bind fun V => V.ix i k <| some (V.set i k (-(V.get i k))))
        (some st.V)).map fun V => ({ st with V := V } : Iter R)
    else some st
  else some st).bind fun st =>
  (orderIx m n wantu wantv (pp - k) k st).map fun st => { st with iter := 0, p := st.p - 1 }

/-- Lines 326–546 (`iterStep`), one pass of `while (p > 0)`, with every access
checked. -/
def iterStepIx (sqrt : R → R) (eps : R) (m n pp : ℕ) (wantu wantv : Bool) (st : Iter R) :
    Option (Iter R) :=
  (classifyIx eps st.p st.s st.e).bind fun cl =>
  let kase := cl.1
  let k := cl.2.1
  let st : Iter R := { st with s := cl.2.2.1, e := cl.2.2.2 }
  if kase = 1 then case1Ix sqrt n wantv st.p k st
  else if kase = 2 then case2Ix sqrt m wantu st.p k st
  else if kase = 3 then case3Ix sqrt m n wantu wantv st.p k st
  else case4Ix m n pp wantu wantv k st

/-- Lines 325–547 (`mainLoop`) with every access checked and a bound on the
number of passes: `none` when an index is outside its container, `some none`
when the bound is reached with `p > 0`. -/
def mainLoopIx (sqrt : R → R) (eps : R) (m n pp : ℕ) (wantu wantv : Bool) :
    ℕ → Iter R → Option (Option (Iter R))
  | 0, st => some (if st.p = 0 then some st else none)
  | fuel+1, st =>
    if st.p = 0 then some (some st)
    else (iterStepIx sqrt eps m n pp wantu wantv st).bind fun st =>
      mainLoopIx sqrt eps m n pp wantu wantv fuel st

/-- Lines 148–547 of the constructor with every access to `m_A`, `m_s`, `e`,
`work`, `m_U` and `m_V` checked: `none` when an index is outside its
container, `some none` when the main loop did not finish within `fuel` passes,
and otherwise the state at line 548. -/
def SVD.runIx (sqrt : R → R) (eps : R) (fuel : ℕ) (A : Mat R) (wantu wantv : Bool) :
    Option (Option (Iter R)) :=
  (SVD.initIx sqrt A wantu wantv).bind fun b =>
    mainLoopIx sqrt eps A.rows A.cols (min A.cols (A.rows+1) - 1) wantu wantv fuel
      ⟨b.s, b.e, b.U, b.V, min A.cols (A.rows+1), 0⟩

/-- The invariant of the main loop behind the index checks: the containers
have their sizes, the active size `p` is at most `min(n, m+1)`, and `p ≤ m` or
`m_s(m) = 0`. -/
def IxInv (m n : ℕ) (st : Iter R) : Prop :=
  st.Dims m n ∧ st.p ≤ min n (m+1) ∧ (st.p ≤ m ∨ st.s.get m = 0)

/-- The state of the main loop after `t` passes of `while (p > 0)`; it is the
state the loop is in when every earlier pass started with `p > 0`. -/
def afterPasses (sqrt : R → R) (eps : R) (m n pp : ℕ) (wantu wantv : Bool) :
    ℕ → Iter R → Iter R
  | 0, st => st
  | t+1, st => iterStep sqrt eps m n pp wantu wantv (afterPasses sqrt eps m n pp wantu wantv t st)

/-- The state in which the main loop starts (lines 257 and 322–323): the
containers left by lines 149–319, `p = min(n, m+1)` and `iter = 0`. -/
def SVD.start (sqrt : R → R) (A : Mat R) (wantu wantv : Bool) : Iter R :=
  ⟨(SVD.init sqrt A wantu wantv).s, (SVD.init sqrt A wantu wantv).e,
    (SVD.init sqrt A wantu wantv).U, (SVD.init sqrt A wantu wantv).V,
    min A.cols (A.rows+1), 0⟩

/-- A state for a 1×2 input with the active size `p = M + 1 = 2` and
`m_s(1) = 1`, which the constructor does not reach. -/
def stTop : Iter ℚ :=
  ⟨[1, 1], [1, 0], ⟨1, 1, [[1]]⟩, ⟨2, 2, [[1, 0], [0, 1]]⟩, 2, 0⟩

/-! ## `solve` with the division tested (line 566) -/

/-- Member `solve(x, b)` (lines 557–573) with the division of line 566 tested:
`none` when a divisor `m_s(k)`, `k < m_rank`, is zero; otherwise the final `x`
and `b`. -/
def SVD.solveChecked (d : SVD R) (x b : Vec R) : Option (Vec R × Vec R) :=
  let m := d.m_A.rows
  let n := d.m_A.cols
  let x : Vec R := forUp 0 d.m_rank (fun k x' =>
    x'.set k (forUp 0 m (fun j acc => acc + b.get j * d.m_U.get j k) 0)) x
  (forUp 0 d.m_rank (fun k o => o.bind fun (xb : Vec R × Vec R) =>
      if d.m_s.get k = 0 then none
      else some ((xb.1.set k 0), xb.2.set k (xb.1.get k / d.m_s.get k))) (some (x, b))).map
    fun xb =>
      ((forUp 0 n (fun i x =>
        forUp 0 d.m_rank (fun k x => x.set i (x.get i + d.m_V.get i k * xb.2.get k)) x) xb.1 :
          Vec R), xb.2)

/-! ## More rational inputs -/

/-- The 2×4 matrix with the rows `(12, 0, 0, 7)` and `(0, 0, 0, 12)`. -/
def A24 : Mat ℚ := Mat.ofRows 4 [[12, 0, 0, 7], [0, 0, 0, 12]]

/-- The 3×5 matrix with the rows `(0, 0, 4, 0, 3)`, `(0, 0, 0, 0, 0)` and
`(0, 20, -9, 0, 12)`. -/
def A35z : Mat ℚ := Mat.ofRows 5 [[0, 0, 4, 0, 3], [0, 0, 0, 0, 0], [0, 20, -9, 0, 12]]

/-- The state of the main loop on `A35z` (`M = 3`, `N = 5`, `pp = 3`) when the
second pass starts. -/
def A35z_pass2 : Iter ℚ :=
  afterPasses qsqrt qeps 3 5 3 true true 1 (SVD.start qsqrt A35z true true)

/-- The matrix `diag(d, 0)`, `d` the rational number that the double `1e-310` is. -/
def D310 : Mat ℚ := Mat.ofRows 2 [[20240225330731 / 2 ^ 1074, 0], [0, 0]]

/-- The matrix `diag(1, 0)`. -/
def D10 : Mat ℚ := Mat.ofRows 2 [[1, 0], [0, 0]]

/-! ## IEEE 754 double precision -/

/-- An IEEE 754 binary64 value (the type `double`). A finite value is
`(-1)^neg · m · 2^(ex - 1074)`, stored normalised: `m < 2^53`, `ex ≤ 2045`, and
`2^52 ≤ m` unless `ex = 0` (the subnormal numbers and the two zeros). -/
inductive F64 where
  | fin (neg : Bool) (m : ℕ) (ex : ℕ)
  | inf (neg : Bool)
  | nan
deriving DecidableEq

namespace F64

/-- A finite value counted in units of `2^-1074`, the spacing of the subnormal
numbers: every finite double is a whole number of units. -/
def units (m ex : ℕ) : ℕ := m * 2 ^ ex

/-- The length of `n` in bits, by halving strides `2^k`, `k` below the first
argument (enough for `n < 2^8192` when started at 13). -/
def bitsFrom : ℕ → ℕ → ℕ → ℕ
  | 0, n, acc => if n = 0 then acc else acc + 1
  | k+1, n, acc =>
    if 2 ^ (2 ^ k) ≤ n then bitsFrom k (n / 2 ^ (2 ^ k)) (acc + 2 ^ k) else bitsFrom k n acc

/-- The number of binary digits of `n` (0 for `n = 0`). -/
def bitLength (n : ℕ) : ℕ := bitsFrom 13 n 0

/-- Rounding to nearest, ties to even, with overflow to infinity: the double
nearest to `(-1)^neg · (n + δ) / 2^sh` units, where `0 ≤ δ < 1` and `δ ≠ 0`
exactly when `sticky` (then `sh ≥ 1`). The low `d` bits of `n` are dropped,
`d` being the larger of `sh` and the excess of the length of `n` over 53 bits. -/
def round (neg : Bool) (n sh : ℕ) (sticky : Bool) : F64 :=
  let bits := bitLength n
  let d := max sh (bits - 53)
  let q := n / 2 ^ d
  let rem := n % 2 ^ d
  let half := 2 ^ (d - 1)
  let up : Bool :=
    decide (0 < d) && (decide (half < rem) || (decide (rem = half) && (sticky || decide (q % 2 = 1))))
  let q := if up then q + 1 else q
  let ex := d - sh
  if q = 2 ^ 53 then (if 2045 < ex + 1 then inf neg else fin neg (2 ^ 52) (ex + 1))
  else if 2045 < ex then inf neg else fin neg q ex

/-- The double nearest to the rational `(-1)^neg · num / den` (`den ≠ 0`). -/
def ofRat (neg : Bool) (num den : ℕ) : F64 :=
  round neg (num * 2 ^ 1075 / den) 1 (decide (num * 2 ^ 1075 % den ≠ 0))

/-- The value of the decimal literal `d · 10^e` with the sign `neg`. -/
def ofDecimal (neg : Bool) (d : ℕ) (e : ℤ) : F64 :=
  if 0 ≤ e then ofRat neg (d * 10 ^ e.toNat) 1 else ofRat neg d (10 ^ (-e).toNat)

/-- The conversion of a non-negative integer. -/
def ofNat (k : ℕ) : F64 := ofRat false k 1

/-- The constant `NumConst<double>::zero`. -/
def zero : F64 := fin false 0 0

/-- The constant `NumConst<double>::one`. -/
def one : F64 := ofNat 1

/-- The constant `NumConst<double>::two`. -/
def two : F64 := ofNat 2

/-- The machine epsilon of `double`, `2^-52`. -/
def eps : F64 := ofRat false 1 (2 ^ 52)

/-- Unary minus. -/
def neg : F64 → F64
  | fin s m ex => fin (!s) m ex
  | inf s => inf (!s)
  | nan => nan

/-- The function `abs`. -/
def abs : F64 → F64
  | fin _ m ex => fin false m ex
  | inf _ => inf false
  | nan => nan

/-- The sum of two finite values given by sign and units; an exact zero sum
of opposite signs is `+0`. -/
def addUnits (sa : Bool) (a : ℕ) (sb : Bool) (b : ℕ) : F64 :=
  if sa = sb then round sa (a + b) 0 false
  else if a = b then fin false 0 0
  else if b < a then round sa (a - b) 0 false
  else round sb (b - a) 0 false

/-- Addition. -/
def add : F64 → F64 → F64
  | nan, _ => nan
  | _, nan => nan
  | inf sa, inf sb => if sa = sb then inf sa else nan
  | inf sa, fin _ _ _ => inf sa
  | fin _ _ _, inf sb => inf sb
  | fin sa ma ea, fin sb mb eb => addUnits sa (units ma ea) sb (units mb eb)

/-- Subtraction. -/
def sub (a b : F64) : F64 := add a (neg b)

/-- Multiplication. -/
def mul : F64 → F64 → F64
  | nan, _ => nan
  | _, nan => nan
  | inf sa, inf sb => inf (xor sa sb)
  | inf sa, fin sb mb _ => if mb = 0 then nan else inf (xor sa sb)
  | fin sa ma _, inf sb => if ma = 0 then nan else inf (xor sa sb)
  | fin sa ma ea, fin sb mb eb => round (xor sa sb) (units ma ea * units mb eb) 1074 false

/-- Division. -/
def div : F64 → F64 → F64
  | nan, _ => nan
  | _, nan => nan
  | inf _, inf _ => nan
  | inf sa, fin sb _ _ => inf (xor sa sb)
  | fin sa _ _, inf sb => fin (xor sa sb) 0 0
  | fin sa ma ea, fin sb mb eb =>
    if mb = 0 then (if ma = 0 then nan else inf (xor sa sb))
    else
      round (xor sa sb) (units ma ea * 2 ^ 1075 / units mb eb) 1
        (decide (units ma ea * 2 ^ 1075 % units mb eb ≠ 0))

/-- Newton iteration for the integer square root, from a start not below it. -/
def sqrtLoop (n : ℕ) : ℕ → ℕ → ℕ
  | 0, x => x
  | fuel+1, x => if (x + n / x) / 2 < x then sqrtLoop n fuel ((x + n / x) / 2) else x

/-- The integer square root (rounded down). -/
def sqrtFloor (n : ℕ) : ℕ :=
  if n = 0 then 0 else sqrtLoop n 64 (2 ^ (bitLength n / 2 + 1))

/-- The function `std::sqrt`, correctly rounded. -/
def sqrt : F64 → F64
  | nan => nan
  | inf s => if s then nan else inf false
  | fin s m ex =>
    if m = 0 then fin s 0 0
    else if s then nan
    else
      round false (sqrtFloor (units m ex * 2 ^ 1076)) 1
        (decide (sqrtFloor (units m ex * 2 ^ 1076) * sqrtFloor (units m ex * 2 ^ 1076)
          ≠ units m ex * 2 ^ 1076))

/-- The comparison `a < b`. -/
def lt : F64 → F64 → Bool
  | nan, _ => false
  | _, nan => false
  | inf sa, inf sb => sa && !sb
  | inf sa, fin _ _ _ => sa
  | fin _ _ _, inf sb => !sb
  | fin sa ma ea, fin sb mb eb =>
    if sa then
      if sb then decide (units mb eb < units ma ea) else decide (0 < ma ∨ 0 < mb)
    else
      if sb then false else decide (units ma ea < units mb eb)

/-- The comparison `a == b` (the two zeros are equal, a NaN equals nothing). -/
def eq : F64 → F64 → Bool
  | nan, _ => false
  | _, nan => false
  | inf sa, inf sb => sa == sb
  | inf _, fin _ _ _ => false
  | fin _ _ _, inf _ => false
  | fin sa ma ea, fin sb mb eb =>
    decide (units ma ea = units mb eb) && (sa == sb || decide (ma = 0))

/-- The comparison `a != b`. -/
def ne (a b : F64) : Bool := !(eq a b)

/-- The comparison `a <= b`. -/
def le (a b : F64) : Bool := lt a b || eq a b

/-- The function `std::max`: `(a < b) ? b : a`. -/
def max (a b : F64) : F64 := if lt a b then b else a

instance : Neg F64 := ⟨neg⟩
instance : Add F64 := ⟨add⟩
instance : Sub F64 := ⟨sub⟩
instance : Mul F64 := ⟨mul⟩
instance : Div F64 := ⟨div⟩

end F64

instance : LT F64 := ⟨fun a b => F64.lt a b = true⟩
instance : LE F64 := ⟨fun a b => F64.le a b = true⟩
instance (a b : F64) : Decidable (a < b) := inferInstanceAs (Decidable (F64.lt a b = true))
instance (a b : F64) : Decidable (a ≤ b) := inferInstanceAs (Decidable (F64.le a b = true))

/-! ## The constructor in double precision, with its tests (SVD.h lines 129–554)

The lines of the constructor are translated a second time, now with the
arithmetic of `double` (`F64`), `int` counters and a test of every index. A run
stops at the first failed test. -/

namespace Double

/-- Why a run stops without a result: `index`, an index outside its container,
with the line of SVD.h and the indices used there; `value`, a watched value
outside the range that a statement about the constructor gives it, with the
line and the value; `passes`, the main loop has not ended within the number of
passes allowed. -/
inductive Stop where
  | index (line : ℕ) (ix : List ℤ)
  | value (line : ℕ) (x : F64)
  | passes
deriving DecidableEq

/-- A computation that returns a value or stops. -/
abbrev Run (α : Type) := Except Stop α

/-- The reason for which a run stopped, if it did. -/
def Run.stop {α : Type} : Run α → Option Stop
  | .error f => some f
  | .ok _ => none

/-- The value of a run, if it returned one. -/
def Run.value {α : Type} : Run α → Option α
  | .error _ => none
  | .ok a => some a

/-- The values a run may watch besides the indices, which are always tested:
`divisor`: the divisors of lines 193, 240, 278 and 308 are `≥ 1`;
`rotation`: the value `t` of lines 384, 411, 459 and 479 is `> 0`;
`shift`: `scale > 0` at line 435 and `b + shift ≠ 0` at line 451. -/
structure Watch where
  divisor : Bool
  rotation : Bool
  shift : Bool

/-- A run that watches the indices only. -/
def Watch.indices : Watch := ⟨false, false, false⟩

/-- A run that watches the indices and the divisors of lines 193, 240, 278 and
308. -/
def Watch.divisors : Watch := ⟨true, false, false⟩

/-- A run that watches the indices and the value `t` of every rotation. -/
def Watch.rotations : Watch := ⟨false, true, false⟩

/-- A run that watches the indices and the two divisors of the shift. -/
def Watch.shifts : Watch := ⟨false, false, true⟩

/-- A watched value: the run stops when the test is on and `ok` is false. -/
def watch (active ok : Bool) (line : ℕ) (x : F64) : Run Unit :=
  if active && !ok then .error (.value line x) else .ok ()

/-- Read of `v(i)`. -/
def rd (line : ℕ) (v : Vec F64) (i : ℤ) : Run F64 :=
  if 0 ≤ i ∧ i < v.length then .ok (v.getD i.toNat F64.zero) else .error (.index line [i])

/-- Assignment `v(i) = x`. -/
def wr (line : ℕ) (v : Vec F64) (i : ℤ) (x : F64) : Run (Vec F64) :=
  if 0 ≤ i ∧ i < v.length then .ok (List.set v i.toNat x) else .error (.index line [i])

/-- Read of `M(i,j)`. -/
def mrd (line : ℕ) (M : Mat F64) (i j : ℤ) : Run F64 :=
  if (0 ≤ i ∧ i < M.rows) ∧ (0 ≤ j ∧ j < M.cols) then
    .ok ((M.val.getD i.toNat []).getD j.toNat F64.zero)
  else .error (.index line [i, j])

/-- Assignment `M(i,j) = x`. -/
def mwr (line : ℕ) (M : Mat F64) (i j : ℤ) (x : F64) : Run (Mat F64) :=
  if (0 ≤ i ∧ i < M.rows) ∧ (0 ≤ j ∧ j < M.cols) then
    .ok { M with val := M.val.set i.toNat ((M.val.getD i.toNat []).set j.toNat x) }
  else .error (.index line [i, j])

/-- Storage of `Vector<double>(n)`. -/
def vzeros (n : ℤ) : Vec F64 := List.replicate n.toNat F64.zero

/-- Storage of `Matrix<double>(m, n)`. -/
def mzeros (m n : ℤ) : Mat F64 :=
  ⟨m.toNat, n.toNat, List.replicate m.toNat (List.replicate n.toNat F64.zero)⟩

/-- The passes `i, i+1, …` of a loop, `cnt` of them. -/
def upFrom {σ : Type} (body : ℤ → σ → Run σ) : ℕ → ℤ → σ → Run σ
  | 0, _, st => pure st
  | cnt+1, i, st => do
    let st ← body i st
    upFrom body cnt (i+1) st

/-- The passes `i, i-1, …` of a loop, `cnt` of them. -/
def downFrom {σ : Type} (body : ℤ → σ → Run σ) : ℕ → ℤ → σ → Run σ
  | 0, _, st => pure st
  | cnt+1, i, st => do
    let st ← body i st
    downFrom body cnt (i-1) st

/-- The loop `for (i = lo; i < hi; i++)`. -/
def forUp {σ : Type} (lo hi : ℤ) (body : ℤ → σ → Run σ) (st : σ) : Run σ :=
  upFrom body (hi - lo).toNat lo st

/-- The loop `for (i = hi; i >= lo; i--)`. -/
def forDown {σ : Type} (hi lo : ℤ) (body : ℤ → σ → Run σ) (st : σ) : Run σ :=
  downFrom body (hi + 1 - lo).toNat hi st

/-- The function `hypot` (lines 129–142). -/
def hypot (a b : F64) : F64 :=
  if F64.eq a F64.zero then F64.abs b
  else if F64.abs a > F64.abs b then
    let c := b / a
    F64.abs a * F64.sqrt (F64.one + c * c)
  else
    let c := a / b
    F64.abs b * F64.sqrt (F64.one + c * c)

/-- Lines 171–184: the transformation for column `k`. -/
def colTransform (m k : ℤ) (st : Bidiag F64) : Run (Bidiag F64) := do
  let s ← wr 171 st.s k F64.zero
  let s ← forUp k m (fun i s => do
    let sk ← rd 173 s k
    let aik ← mrd 173 st.A i k
    wr 173 s k (hypot sk aik)) s
  let sk ← rd 175 s k
  let (s, A) ← (if F64.ne sk F64.zero then do
      let akk ← mrd 176 st.A k k
      let s ← (if akk < F64.zero then do
          let sk ← rd 177 s k
          wr 177 s k (-sk)
        else pure s)
      let A ← forUp k m (fun i A => do
        let aik ← mrd 180 A i k
        let sk ← rd 180 s k
        mwr 180 A i k (aik / sk)) st.A
      let akk ← mrd 182 A k k
      let A ← mwr 182 A k k (akk + F64.one)
      pure (s, A)
    else pure (s, st.A))
  let sk ← rd 184 s k
  let s ← wr 184 s k (-sk)
  pure { st with s := s, A := A }

/-- Lines 187–201: one pass `j` of the loop of line 186; `m_s(k)` is read only
when `k < nct` (the operator `&&`). -/
def applyCol (w : Watch) (m nct k j : ℤ) (st : Bidiag F64) : Run (Bidiag F64) := do
  let go ← (if k < nct then do
      let sk ← rd 187 st.s k
      pure (F64.ne sk F64.zero)
    else pure false)
  let A ← (if go then do
      let t ← forUp k m (fun i t => do
        let aik ← mrd 191 st.A i k
        let aij ← mrd 191 st.A i j
        pure (t + aik * aij)) F64.zero
      let akk ← mrd 193 st.A k k
      watch w.divisor (F64.le F64.one akk) 193 akk
      let t := (-t) / akk
      forUp k m (fun i A => do
        let aij ← mrd 195 A i j
        let aik ← mrd 195 A i k
        mwr 195 A i j (aij + t * aik)) st.A
    else pure st.A)
  let akj ← mrd 201 A k j
  let e ← wr 201 st.e j akj
  pure { st with A := A, e := e }

/-- Lines 203–209: the transformation is placed in column `k` of `U`. -/
def storeU (m nct : ℤ) (wantu : Bool) (k : ℤ) (st : Bidiag F64) : Run (Bidiag F64) :=
  if wantu ∧ k < nct then do
    let U ← forUp k m (fun i U => do
      let aik ← mrd 207 st.A i k
      mwr 207 U i k aik) st.U
    pure { st with U := U }
  else pure st

/-- Lines 214–252: the transformation for row `k`; `e(k)` is read at line 229
in every case (the operator `&`). -/
def rowTransform (w : Watch) (m n k : ℤ) (wantv : Bool) (st : Bidiag F64) :
    Run (Bidiag F64) := do
  let e ← wr 214 st.e k F64.zero
  let e ← forUp (k+1) n (fun i e => do
    let ek ← rd 216 e k
    let ei ← rd 216 e i
    wr 216 e k (hypot ek ei)) e
  let ek ← rd 218 e k
  let e ← (if F64.ne ek F64.zero then do
      let ek1 ← rd 219 e (k+1)
      let e ← (if ek1 < F64.zero then do
          let ek ← rd 220 e k
          wr 220 e k (-ek)
        else pure e)
      let e ← forUp (k+1) n (fun i e => do
        let ei ← rd 223 e i
        let ek ← rd 223 e k
        wr 223 e i (ei / ek)) e
      let ek1 ← rd 225 e (k+1)
      wr 225 e (k+1) (ek1 + F64.one)
    else pure e)
  let ek ← rd 227 e k
  let e ← wr 227 e k (-ek)
  let ek ← rd 229 e k
  let (A, work) ← (if k + 1 < m ∧ F64.ne ek F64.zero then do
      let work ← forUp (k+1) m (fun i wk => wr 232 wk i F64.zero) st.work
      let work ← forUp (k+1) n (fun j wk =>
        forUp (k+1) m (fun i wk => do
          let wi ← rd 236 wk i
          let ej ← rd 236 e j
          let aij ← mrd 236 st.A i j
          wr 236 wk i (wi + ej * aij)) wk) work
      let A ← forUp (k+1) n (fun j A => do
        let ej ← rd 240 e j
        let ek1 ← rd 240 e (k+1)
        watch w.divisor (F64.le F64.one ek1) 240 ek1
        let t := (-ej) / ek1
        forUp (k+1) m (fun i A => do
          let aij ← mrd 242 A i j
          let wi ← rd 242 work i
          mwr 242 A i j (aij + t * wi)) A) st.A
      pure (A, work)
    else pure (st.A, st.work))
  let V ← (if wantv then
      forUp (k+1) n (fun i V => do
        let ei ← rd 250 e i
        mwr 250 V i k ei) st.V
    else pure st.V)
  pure { st with A := A, e := e, work := work, V := V }

/-- Lines 167–253: one pass of the loop of line 166. -/
def bidiagStep (w : Watch) (m n nct nrt : ℤ) (wantu wantv : Bool) (k : ℤ)
    (st : Bidiag F64) : Run (Bidiag F64) := do
  let st ← (if k < nct then colTransform m k st else pure st)
  let st ← forUp (k+1) n (fun j st => applyCol w m nct k j st) st
  let st ← storeU m nct wantu k st
  if k < nrt then rowTransform w m n k wantv st else pure st

/-- Lines 257–261: the final bidiagonal matrix of order `p`. -/
def finalSetup (m n nct nrt : ℤ) (st : Bidiag F64) : Run (Bidiag F64) := do
  let p := min n (m+1)
  let s ← (if nct < n then do
      let a ← mrd 258 st.A nct nct
      wr 258 st.s nct a
    else pure st.s)
  let s ← (if m < p then wr 259 s (p-1) F64.zero else pure s)
  let e ← (if nrt + 1 < p then do
      let a ← mrd 260 st.A nrt (p-1)
      wr 260 st.e nrt a
    else pure st.e)
  let e ← wr 261 e (p-1) F64.zero
  pure { st with s := s, e := e }

/-- Lines 273–282 (`cnt = m`, `r0 = k`, divisor at line 278) and 303–312
(`cnt = n`, `r0 = k+1`, divisor at line 308): the transformation stored in column
`k` is applied to the columns `k+1 .. cnt-1`. -/
def backApply (w : Watch) (line : ℕ) (cnt r0 k : ℤ) (M : Mat F64) : Run (Mat F64) :=
  forUp (k+1) cnt (fun j M => do
    let t ← forUp r0 cnt (fun i t => do
      let mik ← mrd (line - 2) M i k
      let mij ← mrd (line - 2) M i j
      pure (t + mik * mij)) F64.zero
    let d ← mrd line M r0 k
    watch w.divisor (F64.le F64.one d) line d
    let t := (-t) / d
    forUp r0 cnt (fun i M => do
      let mij ← mrd (line + 2) M i j
      let mik ← mrd (line + 2) M i k
      mwr (line + 2) M i j (mij + t * mik)) M) M

/-- Lines 291–294 (`cnt = m`) and 314–317 (`cnt = n`): column `k` becomes the
`k`-th identity column. -/
def colId (line : ℕ) (cnt k : ℤ) (M : Mat F64) : Run (Mat F64) := do
  let M ← forUp 0 cnt (fun i M => mwr line M i k F64.zero) M
  mwr (line + 2) M k k F64.one

/-- Lines 264–297: the generation of `U`. -/
def generateU (w : Watch) (m nct : ℤ) (s : Vec F64) (U : Mat F64) : Run (Mat F64) := do
  let U ← forUp nct m (fun j U => colId 267 m j U) U
  forDown (nct - 1) 0 (fun k U => do
    let sk ← rd 272 s k
    if F64.ne sk F64.zero then do
      let U ← backApply w 278 m k k U
      let U ← forUp k m (fun i U => do
        let uik ← mrd 284 U i k
        mwr 284 U i k (-uik)) U
      let ukk ← mrd 286 U k k
      let U ← mwr 286 U k k (F64.one + ukk)
      forUp 0 (k - 1) (fun i U => mwr 288 U i k F64.zero) U
    else colId 292 m k U) U

/-- Lines 300–319: the generation of `V`; `e(k)` is read in every case (the
operator `&` of line 302). -/
def generateV (w : Watch) (n nrt : ℤ) (e : Vec F64) (V : Mat F64) : Run (Mat F64) :=
  forDown (n - 1) 0 (fun k V => do
    let ek ← rd 302 e k
    let V ← (if k < nrt ∧ F64.ne ek F64.zero then backApply w 308 n (k+1) k V else pure V)
    colId 315 n k V) V

/-- Lines 149–319: the state at line 321, where the main loop starts. -/
def init (w : Watch) (A : Mat F64) (wantu wantv : Bool) : Run (Bidiag F64) := do
  let m : ℤ := A.rows
  let n : ℤ := A.cols
  let nct := min (m-1) n
  let nrt := max 0 (min (n-2) m)
  let st : Bidiag F64 := ⟨A, vzeros (min (m+1) n), vzeros n, vzeros m, mzeros m m, mzeros n n⟩
  let st ← forUp 0 (max nct nrt) (fun k st => bidiagStep w m n nct nrt wantu wantv k st) st
  let st ← finalSetup m n nct nrt st
  let U ← (if wantu then generateU w m nct st.s st.U else pure st.U)
  let V ← (if wantv then generateV w n nrt st.e st.V else pure st.V)
  pure { st with U := U, V := V }

/-- Variables of the main loop: `m_s`, `e`, `m_U`, `m_V`, `p`, `iter`. -/
structure Loop where
  s : Vec F64
  e : Vec F64
  U : Mat F64
  V : Mat F64
  p : ℤ
  iter : ℤ
deriving DecidableEq

/-- Lines 340–348: the scan for a negligible `e(k)`; the first argument is
`k + 1`, and the result is the value of `k` after the loop with the new `e`. -/
def scanE (eps : F64) (s : Vec F64) : ℕ → Vec F64 → Run (ℤ × Vec F64)
  | 0, e => pure (-1, e)
  | c+1, e => do
    let ek ← rd 344 e c
    let sk ← rd 344 s c
    let sk1 ← rd 344 s ((c : ℤ) + 1)
    if F64.abs ek ≤ eps * (F64.abs sk + F64.abs sk1) then do
      let e ← wr 345 e c F64.zero
      pure ((c : ℤ), e)
    else scanE eps s c e

/-- Lines 353–364: the scan for a negligible `m_s(ks)`; the first argument is
`ks - k`, and the result is the value of `ks` after the loop with the new `m_s`. -/
def scanS (eps : F64) (e : Vec F64) (p k : ℤ) : ℕ → Vec F64 → Run (ℤ × Vec F64)
  | 0, s => pure (k, s)
  | c+1, s => do
    let ks : ℤ := k + ((c : ℤ) + 1)
    let t1 ← (if ks ≠ p then do
        let x ← rd 357 e ks
        pure (F64.abs x)
      else pure F64.zero)
    let t2 ← (if ks ≠ k + 1 then do
        let x ← rd 358 e (ks - 1)
        pure (F64.abs x)
      else pure F64.zero)
    let t := t1 + t2
    let sks ← rd 360 s ks
    if F64.abs sks ≤ eps * t then do
      let s ← wr 361 s ks F64.zero
      pure (ks, s)
    else scanS eps e p k c s

/-- Lines 340–375: `kase` and `k` (after `k++`), with the new `m_s` and `e`. -/
def classify (eps : F64) (p : ℤ) (s e : Vec F64) : Run (ℕ × ℤ × Vec F64 × Vec F64) := do
  let (k, e) ← scanE eps s (p - 1).toNat e
  if k = p - 2 then pure (4, k + 1, s, e)
  else do
    let (ks, s) ← scanS eps e p k (p - 1 - k).toNat s
    if ks = k then pure (3, k + 1, s, e)
    else if ks = p - 1 then pure (1, k + 1, s, e)
    else pure (2, ks + 1, s, e)

/-- The rotation of the columns `a` and `b` of `M` by `cs`, `sn`, over the rows
`0 .. cnt-1` (lines 395–399, 419–423, 472–476, 489–493; `line` is the first
line of the body). -/
def rot (line : ℕ) (cnt : ℤ) (M : Mat F64) (a b : ℤ) (cs sn : F64) : Run (Mat F64) :=
  forUp 0 cnt (fun i M => do
    let mia ← mrd line M i a
    let mib ← mrd line M i b
    let t := cs * mia + sn * mib
    let M ← mwr (line + 1) M i b ((-sn) * mia + cs * mib)
    mwr (line + 2) M i a t) M

/-- Lines 381–401: case 1, deflation of a negligible `s(p)`. -/
def case1 (w : Watch) (n : ℤ) (wantv : Bool) (p k : ℤ) (st : Loop) : Run Loop := do
  let f ← rd 381 st.e (p-2)
  let e ← wr 382 st.e (p-2) F64.zero
  let (_, s, e, V) ← forDown (p-2) k (fun j (x : F64 × Vec F64 × Vec F64 × Mat F64) => do
    let (f, s, e, V) := x
    let sj ← rd 384 s j
    let t := hypot sj f
    watch w.rotation (F64.lt F64.zero t) 384 t
    let cs := sj / t
    let sn := f / t
    let s ← wr 387 s j t
    let (f, e) ← (if j ≠ k then do
        let ej ← rd 390 e (j-1)
        let e ← wr 391 e (j-1) (cs * ej)
        pure ((-sn) * ej, e)
      else pure (f, e))
    let V ← (if wantv then rot 396 n V j (p-1) cs sn else pure V)
    pure (f, s, e, V)) (f, st.s, e, st.V)
  pure { st with s := s, e := e, V := V }

/-- Lines 407–425: case 2, split at a negligible `s(k)`. -/
def case2 (w : Watch) (m : ℤ) (wantu : Bool) (p k : ℤ) (st : Loop) : Run Loop := do
  let f ← rd 407 st.e (k-1)
  let e ← wr 408 st.e (k-1) F64.zero
  let (_, s, e, U) ← forUp k p (fun j (x : F64 × Vec F64 × Vec F64 × Mat F64) => do
    let (f, s, e, U) := x
    let sj ← rd 411 s j
    let t := hypot sj f
    watch w.rotation (F64.lt F64.zero t) 411 t
    let cs := sj / t
    let sn := f / t
    let s ← wr 414 s j t
    let ej ← rd 415 e j
    let e ← wr 416 e j (cs * ej)
    let U ← (if wantu then rot 420 m U j (k-1) cs sn else pure U)
    pure ((-sn) * ej, s, e, U)) (f, st.s, e, st.U)
  pure { st with s := s, e := e, U := U }

/-- Lines 432–455: the shift of the qr step; the result is `f` and `g`. -/
def shift (w : Watch) (p k : ℤ) (s e : Vec F64) : Run (F64 × F64) := do
  let sp1 ← rd 433 s (p-1)
  let sp2 ← rd 433 s (p-2)
  let ep2 ← rd 433 e (p-2)
  let sk0 ← rd 434 s k
  let ek0 ← rd 434 e k
  let scale := F64.max (F64.max (F64.max (F64.max (F64.abs sp1) (F64.abs sp2)) (F64.abs ep2))
    (F64.abs sk0)) (F64.abs ek0)
  watch w.shift (F64.lt F64.zero scale) 435 scale
  let sp := sp1 / scale
  let spm1 := sp2 / scale
  let epm1 := ep2 / scale
  let sk := sk0 / scale
  let ek := ek0 / scale
  let b := ((spm1 + sp) * (spm1 - sp) + epm1 * epm1) / F64.two
  let c := (sp * epm1) * (sp * epm1)
  let shift ← (if F64.ne b F64.zero ∨ F64.ne c F64.zero then do
      let sh := F64.sqrt (b * b + c)
      let sh := if b < F64.zero then -sh else sh
      watch w.shift (F64.ne (b + sh) F64.zero) 451 (b + sh)
      pure (c / (b + sh))
    else pure F64.zero)
  pure ((sk + sp) * (sk - sp) + shift, sk * ek)

/-- Lines 459–494: one pass `j` of the chase. -/
def chaseStep (w : Watch) (m n : ℤ) (wantu wantv : Bool) (k j : ℤ)
    (x : F64 × F64 × Vec F64 × Vec F64 × Mat F64 × Mat F64) :
    Run (F64 × F64 × Vec F64 × Vec F64 × Mat F64 × Mat F64) := do
  let (f, g, s, e, U, V) := x
  let t := hypot f g
  watch w.rotation (F64.lt F64.zero t) 459 t
  let cs := f / t
  let sn := g / t
  let e ← (if j ≠ k then wr 464 e (j-1) t else pure e)
  let sj ← rd 466 s j
  let ej ← rd 466 e j
  let f := cs * sj + sn * ej
  let e ← wr 467 e j (cs * ej - sn * sj)
  let sj1 ← rd 468 s (j+1)
  let g := sn * sj1
  let s ← wr 469 s (j+1) (cs * sj1)
  let V ← (if wantv then rot 473 n V j (j+1) cs sn else pure V)
  let t := hypot f g
  watch w.rotation (F64.lt F64.zero t) 479 t
  let cs := f / t
  let sn := g / t
  let s ← wr 482 s j t
  let ej ← rd 483 e j
  let sj1 ← rd 483 s (j+1)
  let f := cs * ej + sn * sj1
  let s ← wr 484 s (j+1) ((-sn) * ej + cs * sj1)
  let ej1 ← rd 485 e (j+1)
  let g := sn * ej1
  let e ← wr 486 e (j+1) (cs * ej1)
  let U ← (if wantu ∧ j < m - 1 then rot 490 m U j (j+1) cs sn else pure U)
  pure (f, g, s, e, U, V)

/-- Lines 431–497: case 3, one qr step. -/
def case3 (w : Watch) (m n : ℤ) (wantu wantv : Bool) (p k : ℤ) (st : Loop) : Run Loop := do
  let (f, g) ← shift w p k st.s st.e
  let (f, _, s, e, U, V) ← forUp k (p-1) (fun j x => chaseStep w m n wantu wantv k j x)
    (f, g, st.s, st.e, st.U, st.V)
  let e ← wr 496 e (p-2) f
  pure { st with s := s, e := e, U := U, V := V, iter := st.iter + 1 }

/-- The exchange of the columns `k` and `k+1` of `M` over the rows
`0 .. cnt-1` (lines 525–529, 533–537). -/
def swapCols (line : ℕ) (cnt : ℤ) (M : Mat F64) (k : ℤ) : Run (Mat F64) :=
  forUp 0 cnt (fun i M => do
    let t ← mrd line M i (k+1)
    let mik ← mrd (line + 1) M i k
    let M ← mwr (line + 1) M i (k+1) mik
    mwr (line + 2) M i k t) M

/-- Lines 516–541: the loop that orders the singular values; the first
argument bounds the number of its passes. -/
def order (m n pp : ℤ) (wantu wantv : Bool) : ℕ → ℤ → Loop → Run Loop
  | 0, _, st => pure st
  | c+1, k, st =>
    if k < pp then do
      let sk ← rd 517 st.s k
      let sk1 ← rd 517 st.s (k+1)
      if sk ≥ sk1 then pure st
      else do
        let s ← wr 521 st.s k sk1
        let s ← wr 522 s (k+1) sk
        let V ← (if wantv ∧ k < n - 1 then swapCols 526 n st.V k else pure st.V)
        let U ← (if wantu ∧ k < m - 1 then swapCols 534 m st.U k else pure st.U)
        order m n pp wantu wantv c (k+1) { st with s := s, U := U, V := V }
    else pure st

/-- Lines 503–543: case 4, convergence. -/
def case4 (m n pp : ℤ) (wantu wantv : Bool) (k : ℤ) (st : Loop) : Run Loop := do
  let sk ← rd 504 st.s k
  let (s, V) ← (if sk ≤ F64.zero then do
      let s ← wr 505 st.s k (if sk < F64.zero then -sk else F64.zero)
      let V ← (if wantv then
          forUp 0 (pp + 1) (fun i V => do
            let vik ← mrd 510 V i k
            mwr 510 V i k (-vik)) st.V
        else pure st.V)
      pure (s, V)
    else pure (st.s, st.V))
  let st ← order m n pp wantu wantv (pp - k).toNat k { st with s := s, V := V }
  pure { st with iter := 0, p := st.p - 1 }

/-- Lines 326–546: one pass of the main loop. -/
def iterStep (w : Watch) (eps : F64) (m n pp : ℤ) (wantu wantv : Bool) (st : Loop) :
    Run Loop := do
  let (kase, k, s, e) ← classify eps st.p st.s st.e
  let st : Loop := { st with s := s, e := e }
  match kase with
  | 1 => case1 w n wantv st.p k st
  | 2 => case2 w m wantu st.p k st
  | 3 => case3 w m n wantu wantv st.p k st
  | _ => case4 m n pp wantu wantv k st

/-- The first `t` passes of the main loop `while (p > 0)` (lines 325–547),
fewer when `p > 0` fails before. -/
def passes (w : Watch) (eps : F64) (m n pp : ℤ) (wantu wantv : Bool) : ℕ → Loop → Run Loop
  | 0, st => pure st
  | t+1, st =>
    if 0 < st.p then do
      let st ← iterStep w eps m n pp wantu wantv st
      passes w eps m n pp wantu wantv t st
    else pure st

/-- The main loop, at most `fuel` passes: the state in which `p > 0` fails. -/
def mainLoop (w : Watch) (eps : F64) (m n pp : ℤ) (wantu wantv : Bool) (fuel : ℕ)
    (st : Loop) : Run Loop := do
  let st ← passes w eps m n pp wantu wantv fuel st
  if 0 < st.p then .error .passes else pure st

/-- Lines 553–554: `while (m_s(m_rank-1) < tol) m_rank--`; the first argument
bounds the number of passes. -/
def rankLoop (s : Vec F64) (tol : F64) : ℕ → ℤ → Run ℤ
  | 0, r => pure r
  | c+1, r => do
    let x ← rd 553 s (r - 1)
    if x < tol then rankLoop s tol c (r - 1) else pure r

/-- The state in which the main loop starts (lines 257 and 322–323). -/
def start (w : Watch) (A : Mat F64) (wantu wantv : Bool) : Run Loop := do
  let b ← init w A wantu wantv
  pure ⟨b.s, b.e, b.U, b.V, min (A.cols : ℤ) ((A.rows : ℤ) + 1), 0⟩

/-- The state of the main loop after `t` passes. -/
def stateAfter (w : Watch) (eps : F64) (t : ℕ) (A : Mat F64) (wantu wantv : Bool) :
    Run Loop := do
  let st ← start w A wantu wantv
  passes w eps A.rows A.cols (min (A.cols : ℤ) ((A.rows : ℤ) + 1) - 1) wantu wantv t st

/-- The state at line 548, after the main loop (at most `fuel` passes). -/
def run (w : Watch) (eps : F64) (fuel : ℕ) (A : Mat F64) (wantu wantv : Bool) : Run Loop := do
  let st ← start w A wantu wantv
  mainLoop w eps A.rows A.cols (min (A.cols : ℤ) ((A.rows : ℤ) + 1) - 1) wantu wantv fuel st

/-- Line 550: `tol = m_s.size() * m_s(0) * eps`. -/
def tolOf (eps : F64) (s : Vec F64) : Run F64 := do
  let s0 ← rd 550 s 0
  pure (F64.ofNat s.length * s0 * eps)

/-- The constructor `SVD<double>::SVD(A, wantu, wantv)` (lines 144–555), with
the machine epsilon `eps` of `NumConst<double>` and at most `fuel` passes of
the main loop. -/
def construct (w : Watch) (eps : F64) (fuel : ℕ) (A : Mat F64) (wantu wantv : Bool) :
    Run (SVD F64) := do
  let m : ℤ := A.rows
  let n : ℤ := A.cols
  let b ← init w A wantu wantv
  let st ← run w eps fuel A wantu wantv
  let tol ← tolOf eps st.s
  let r ← rankLoop st.s tol ((min m n).toNat + 1) (min m n)
  pure ⟨r.toNat, b.A, st.s, st.U, st.V⟩

/-- Entry `(i,j)` of `U·diag(S)·V'` computed in double precision: the terms
`U(i,k)·S(k)·V(j,k)`, `k < min(M,N)`, added in the order of `k`. -/
def recon (d : SVD F64) (i j : ℤ) : Run F64 :=
  forUp 0 (min (d.m_A.rows : ℤ) (d.m_A.cols : ℤ)) (fun k acc => do
    let u ← mrd 0 d.m_U i k
    let s ← rd 0 d.m_s k
    let v ← mrd 0 d.m_V j k
    pure (acc + u * s * v)) F64.zero

/-- `kase` and `k` (after `k++`) of the pass that follows the first `t` passes
of the main loop. -/
def kaseAfter (w : Watch) (eps : F64) (t : ℕ) (A : Mat F64) (wantu wantv : Bool) :
    Run (ℕ × ℤ) := do
  let st ← stateAfter w eps t A wantu wantv
  let (kase, k, _, _) ← classify eps st.p st.s st.e
  pure (kase, k)

/-- The entries `s(k)`, `V(i,k)` and `V(j,k)` after the first `t` passes of the
main loop. -/
def columnAfter (w : Watch) (eps : F64) (t : ℕ) (A : Mat F64) (wantu wantv : Bool)
    (k i j : ℤ) : Run (F64 × F64 × F64) := do
  let st ← stateAfter w eps t A wantu wantv
  let sk ← rd 0 st.s k
  let vik ← mrd 0 st.V i k
  let vjk ← mrd 0 st.V j k
  pure (sk, vik, vjk)

/-- Entry `(i,j)` of `U·diag(S)·V'` for the matrices that the constructor
returns. -/
def reconOf (w : Watch) (eps : F64) (fuel : ℕ) (A : Mat F64) (wantu wantv : Bool)
    (i j : ℤ) : Run F64 := do
  let d ← construct w eps fuel A wantu wantv
  recon d i j

/-! ### Inputs in double precision -/

/-- The 2×4 matrix with the rows `(1, 1.5e308, 0, 0)` and `(0, 0, 0, 0)`. -/
def Huge24 : Mat F64 :=
  ⟨2, 4, [[F64.one, F64.ofDecimal false 15 307, F64.zero, F64.zero],
    [F64.zero, F64.zero, F64.zero, F64.zero]]⟩

/-- The 3×3 matrix with the rows `(0, -1e-310, 1e-310)`, `(1e-310, 1e-300, 1e-310)`
and `(1e-310, 5e-324, 1e-310)`. -/
def Tiny33 : Mat F64 :=
  ⟨3, 3, [[F64.zero, F64.ofDecimal true 1 (-310), F64.ofDecimal false 1 (-310)],
    [F64.ofDecimal false 1 (-310), F64.ofDecimal false 1 (-300), F64.ofDecimal false 1 (-310)],
    [F64.ofDecimal false 1 (-310), F64.ofDecimal false 5 (-324), F64.ofDecimal false 1 (-310)]]⟩

/-- The 3×5 matrix with the rows `(1e-300, 0, 1e154, 3, 1e308)`,
`(1e154, -1e200, 0, 1e154, 0)` and `(-1e-300, 0, 1e308, 1e-300, -1.5e308)`. -/
def Mixed35 : Mat F64 :=
  ⟨3, 5, [[F64.ofDecimal false 1 (-300), F64.zero, F64.ofDecimal false 1 154, F64.ofNat 3,
      F64.ofDecimal false 1 308],
    [F64.ofDecimal false 1 154, F64.ofDecimal true 1 200, F64.zero, F64.ofDecimal false 1 154,
      F64.zero],
    [F64.ofDecimal true 1 (-300), F64.zero, F64.ofDecimal false 1 308,
      F64.ofDecimal false 1 (-300), F64.ofDecimal true 15 307]]⟩

/-- The matrix `diag(1e308, 1)`. -/
def Diag308 : Mat F64 := ⟨2, 2, [[F64.ofDecimal false 1 308, F64.zero], [F64.zero, F64.one]]⟩

/-- The 1×2 matrix `(1e308, 0)`. -/
def Row308 : Mat F64 := ⟨1, 2, [[F64.ofDecimal false 1 308, F64.zero]]⟩

/-- The matrix `diag(1e-310, 0)`. -/
def Diag310 : Mat F64 := ⟨2, 2, [[F64.ofDecimal false 1 (-310), F64.zero], [F64.zero, F64.zero]]⟩

/-- The 2×4 matrix with the rows `(12, 0, 0, 7)` and `(0, 0, 0, 12)`. -/
def A24 : Mat F64 :=
  ⟨2, 4, [[F64.ofNat 12, F64.zero, F64.zero, F64.ofNat 7],
    [F64.zero, F64.zero, F64.zero, F64.ofNat 12]]⟩

/-- The 3×5 matrix with the rows `(0, 0, 4, 0, 3)`, `(0, 0, 0, 0, 0)` and
`(0, 20, -9, 0, 12)`. -/
def A35z : Mat F64 :=
  ⟨3, 5, [[F64.zero, F64.zero, F64.ofNat 4, F64.zero, F64.ofNat 3],
    [F64.zero, F64.zero, F64.zero, F64.zero, F64.zero],
    [F64.zero, F64.ofNat 20, -F64.ofNat 9, F64.zero, F64.ofNat 12]]⟩

end Double

end Numerics

/-! # `mppequil` (src/general/mppequil.cpp): parsing of the command line -/

namespace Mppequil

variable {D : Type} [LinearOrderedField D]

/-- The function `parseRange(range, x1, x2, dx)` (mppequil.cpp lines 163–193).
The result is the returned `bool` with the final values of the reference
arguments `x1`, `x2` and `dx`, which keep their incoming values on the paths that
return before assigning them. `utils::StringUtils::tokenize` and `isNumeric` are not among the
sources and are parameters, like the library function `atof`; `double` values
are taken in an ordered field `D`. -/
def parseRange (tokenize : String → String → List String) (isNumeric : List String → Bool)
    (atof : String → D) (range : String) (x1 x2 dx : D) : Bool × D × D × D :=
  let tokens := tokenize range ":"
  if !isNumeric tokens then (false, x1, x2, dx)
  else
    match tokens with
    | [t0] =>
      let x1 := atof t0
      let x2 := x1
      let dx := (1 : D)
      if dx = 0 then (true, x1, x1, 1) else (true, x1, x2, dx)
    | [t0, t1, t2] =>
      let x1 := atof t0
      let x2 := atof t2
      let dx := atof t1
      if dx = 0 then (true, x1, x1, 1) else (true, x1, x2, dx)
    | _ => (false, x1, x2, dx)

/-- The largest value of `int`. -/
def intMax : ℤ := 2 ^ 31 - 1

/-- The body `indices.push_back(i)` run `k` times from `i` with `++i` in between. -/
def pushFrom : ℤ → ℕ → List ℤ → List ℤ
  | _, 0, indices => indices
  | i, k + 1, indices => pushFrom (i + 1) k (indices ++ [i])

/-- Lines 225–226: `for (int i = i1; i <= i2; ++i) indices.push_back(i);`. The
body runs `i2 + 1 - i1` times; when `i2` is the largest `int` and the loop is
entered, `++i` overflows and there is no result. -/
def pushRange (i1 i2 : ℤ) (indices : List ℤ) : Option (List ℤ) :=
  if i1 ≤ i2 ∧ i2 = intMax then none
  else some (pushFrom i1 (i2 + 1 - i1).toNat indices)

/-- The loop of `parseIndices` over the comma-separated items (lines 204–234),
from the items still to read and the indices pushed so far. The result is the
value returned with the content of `indices` at that point. -/
def parseItems (tokenize : String → String → List String) (isNumeric : List String → Bool)
    (atoi : String → ℤ) (max : ℤ) : List String → List ℤ → Option (Bool × List ℤ)
  | [], indices => some (true, indices)
  | r :: ranges, indices =>
    let bounds := tokenize r "-"
    if !isNumeric bounds then some (false, indices)
    else
      match bounds with
      | [b0] =>
        let i := atoi b0
        if i < 0 ∨ i > max then some (false, indices)
        else parseItems tokenize isNumeric atoi max ranges (indices ++ [atoi b0])
      | [b0, b1] =>
        let i1 := atoi b0
        let i2 := atoi b1
        if i1 ≥ i2 ∨ i1 < 0 ∨ i1 > max ∨ i2 > max then some (false, indices)
        else (pushRange i1 i2 indices).bind (parseItems tokenize isNumeric atoi max ranges)
      | _ => some (false, indices)

/-- The function `parseIndices(list, indices, max)` (mppequil.cpp lines 195–238):
the returned `bool` with the final content of `indices`, or `none` when an `int`
overflows.
`tokenize` and `isNumeric` are parameters as in `parseRange`, and so is the
library function `atoi`; `int` values are integers. -/
def parseIndices (tokenize : String → String → List String) (isNumeric : List String → Bool)
    (atoi : String → ℤ) (list : String) (_indices : List ℤ) (max : ℤ) :
    Option (Bool × List ℤ) :=
  parseItems tokenize isNumeric atoi max (tokenize list ",") []

/-! ## What the usage text says an item stands for -/

/-- The integers `a, a+1, …, b`. -/
def intRange (a b : ℤ) : List ℤ := (List.range (b + 1 - a).toNat).map (fun (d : ℕ) => a + (d : ℤ))

/-- The indices an item with the given bounds stands for: a number `i` with
`0 ≤ i ≤ max` stands for `i`, a range `a-b` with `0 ≤ a < b ≤ max` for
`a, …, b`; anything else stands for nothing. -/
def itemIndices (atoi : String → ℤ) (max : ℤ) : List String → Option (List ℤ)
  | [b0] => if 0 ≤ atoi b0 ∧ atoi b0 ≤ max then some [atoi b0] else none
  | [b0, b1] =>
    if 0 ≤ atoi b0 ∧ atoi b0 < atoi b1 ∧ atoi b1 ≤ max then some (intRange (atoi b0) (atoi b1))
    else none
  | _ => none

/-- The items the second half of the statement on `parseIndices` names: a number
greater than `max`, a range `a-b` with `a ≥ b` or `b > max`, more than two
bounds. -/
def itemRefused (atoi : String → ℤ) (max : ℤ) (bounds : List String) : Prop :=
  (∃ b0, bounds = [b0] ∧ max < atoi b0) ∨
    (∃ b0 b1, bounds = [b0, b1] ∧ (atoi b1 ≤ atoi b0 ∨ max < atoi b1)) ∨ 2 < bounds.length

/-! ## Running the embedding on concrete strings -/

/-- A `tokenize` for evaluation: the non-empty pieces of `s` between characters
of `delims`. -/
def splitTokens (s delims : String) : List String :=
  ((s.data.splitOnP (fun c => delims.data.contains c)).filter (fun t => !t.isEmpty)).map
    String.mk

/-- An `isNumeric` for evaluation: every token is a non-empty string of decimal
digits. -/
def allDigits (tokens : List String) : Bool :=
  tokens.all (fun t => !t.data.isEmpty && t.data.all Char.isDigit)

/-- An `atoi` for evaluation, on strings of decimal digits. -/
def readNat (t : String) : ℤ := (t.data.foldl (fun n c => 10 * n + (c.toNat - 48)) 0 : ℕ)

/-- An `atof` for evaluation, on strings of decimal digits. -/
def readRat (t : String) : ℚ := readNat t

end Mppequil

/-! # `Reaction` (src/kinetics/Reaction.cpp): parsing of a reaction formula -/

namespace Reaction

/-- The states of the scanner in `parseSpecies` (the `enum ParseState` of the
class, whose header is not among the sources). -/
inductive ParseState
  | coefficient
  | name
  | plus
  deriving DecidableEq

/-- The number of values of `size_t`. -/
def sizeMod : ℕ := 2 ^ 64

/-- Subtraction of `size_t` values. -/
def subSize (a b : ℕ) : ℕ := (a + sizeMod - b) % sizeMod

/-- Addition of `size_t` values. -/
def addSize (a b : ℕ) : ℕ := (a + b) % sizeMod

/-- The access `str[c]`: the character at index `c`, the null character at the end. -/
def charAt (str : String) (c : ℕ) : Char := str.data.getD c (Char.ofNat 0)

/-- The call `str.substr(pos, len)`, for `pos` up to the size of the string:
every call in `parseSpecies` has `pos = s ≤ c + 1 ≤ str.size()`, and the calls in
`parseFormula` have `pos` at most one past the first `=`, or two past it when a
`>` follows. -/
def substr (str : String) (pos len : ℕ) : String := String.mk ((str.data.drop pos).take len)

/-- The loop `for (int i = 0; i < nu; ++i) species.insert(x);` run for `k` passes. -/
def insertTimes (x : String) : ℕ → Multiset String → Multiset String
  | 0, species => species
  | k + 1, species => insertTimes x k (x ::ₘ species)

/-- The local variables of `parseSpecies` with the multiset it fills. -/
structure Scan where
  c : ℕ
  s : ℕ
  e : ℕ
  nu : ℤ
  add_species : Bool
  state : ParseState
  species : Multiset String

/-- One pass of the `while` loop of `parseSpecies` (Reaction.cpp lines 105–147).
`isdigit` is `Char.isDigit`, and `atoi` of the one-character string holding a
digit is the value of the digit. -/
def scanStep (str : String) (st : Scan) : Scan :=
  let st1 : Scan :=
    match st.state with
    | ParseState.coefficient =>
      if (charAt str st.c).isDigit then
        { st with nu := ((charAt str st.c).toNat : ℤ) - 48, s := addSize st.c 1,
                  state := ParseState.name }
      else
        { st with nu := 1, s := st.c, state := ParseState.name }
    | ParseState.name =>
      if charAt str st.c = '+' then { st with state := ParseState.plus } else st
    | ParseState.plus =>
      if charAt str st.c ≠ '+' then
        { st with e := subSize st.c 2, c := subSize st.c 1, add_species := true,
                  state := ParseState.coefficient }
      else st
  let st2 : Scan :=
    if st1.c = subSize str.length 1 then { st1 with add_species := true, e := st1.c } else st1
  let st3 : Scan :=
    if st2.add_species then
      { st2 with
          species := insertTimes (substr str st2.s (addSize (subSize st2.e st2.s) 1))
            st2.nu.toNat st2.species,
          add_species := false }
    else st2
  { st3 with c := addSize st3.c 1 }

/-- The `while (c != str.size())` loop, for at most `fuel` passes. -/
def scanLoop (str : String) : ℕ → Scan → Option Scan
  | 0, st => if st.c = str.length then some st else none
  | fuel + 1, st => if st.c = str.length then some st else scanLoop str fuel (scanStep str st)

/-- The method `Reaction::parseSpecies(species, str)` (Reaction.cpp lines 90–149):
the final content of `species` and of `str`, which the function rewrites without
spaces.
`StringUtils::eraseAll` is not among the sources and is a parameter. -/
def parseSpecies (eraseAll : String → String → String) (fuel : ℕ)
    (species : Multiset String) (str : String) : Option (Multiset String × String) :=
  let str := eraseAll str " "
  (scanLoop str fuel ⟨0, 0, 0, 1, false, ParseState.coefficient, species⟩).map
    (fun st => (st.species, str))

/-! ## The formulas of the statement on `parseSpecies` -/

/-- A term `c N` of a formula: an optional one-character coefficient and a name. -/
structure Term where
  coef : Option Char
  name : String

/-- The characters of a term. -/
def Term.text (t : Term) : List Char := t.coef.toList ++ t.name.data

/-- The coefficient is a digit when present, the name is non-empty, does not start
with a digit and contains no `+`. -/
def Term.WF (t : Term) : Prop :=
  (∀ d, t.coef = some d → d.isDigit = true) ∧ (∃ x l, t.name.data = x :: l ∧ x.isDigit = false) ∧
    '+' ∉ t.name.data

/-- The number of copies a term asks for: the value of the digit, one without a
coefficient. -/
def Term.copies (t : Term) : ℕ :=
  match t.coef with
  | none => 1
  | some d => d.toNat - 48

/-- The characters of `c1 N1 + c2 N2 + … + cn Nn` without spaces. -/
def formula : List Term → List Char
  | [] => []
  | [t] => t.text
  | t :: ts => t.text ++ '+' :: formula ts

/-- The species a formula names, with their multiplicities. -/
def named (ts : List Term) : Multiset String :=
  (ts.map (fun t => Multiset.replicate t.copies t.name)).sum

/-- An `eraseAll` for evaluation, for erased strings of one character: the
characters of `s` other than those of `t`. -/
def eraseChars (s t : String) : String := String.mk (s.data.filter (fun c => !t.data.contains c))


/-! ## `parseFormula` (lines 59–88) -/

/-- The call `str.find(ch)` for a one-character string: the index of the first
`ch`, `none` for `std::string::npos`. -/
def find (str : String) (ch : Char) : Option ℕ :=
  if ch ∈ str.data then some (str.data.indexOf ch) else none

/-- Outcomes of `parseFormula`: the call of `node.parseError` (a method of
`XmlElement`, not among the sources, taken to end the call), or the values of
`m_reversible`, `m_thirdbody`, `m_reactants` and `m_products` on return. -/
inductive Parsed
  | parseError
  | ok (m_reversible m_thirdbody : Bool) (m_reactants m_products : Multiset String)

/-- The method `Reaction::parseFormula(node)` (Reaction.cpp lines 59–88) on the
members `m_formula`, `m_reactants` and `m_products`; `fuel` bounds the passes of
each of the two calls of `parseSpecies`, and `none` says that a call did not
finish within `fuel` passes.  The call `set.erase("M")` removes every copy of
`"M"` and returns their number, a `size_t`. -/
def parseFormula (eraseAll : String → String → String) (fuel : ℕ) (m_formula : String)
    (m_reactants m_products : Multiset String) : Option Parsed :=
  match find m_formula '=' with
  | none => some Parsed.parseError
  | some pos =>
    let reactants := substr m_formula 0 pos
    let rp : Bool × String :=
      if charAt m_formula (addSize pos 1) = '>' then
        (false, substr m_formula (addSize pos 2) (subSize (subSize m_formula.length pos) 1))
      else
        (true, substr m_formula (addSize pos 1) (subSize m_formula.length pos))
    (parseSpecies eraseAll fuel m_reactants reactants).bind fun r =>
      (parseSpecies eraseAll fuel m_products rp.2).map fun p =>
        Parsed.ok rp.1 (decide (0 < addSize (r.1.count "M") (p.1.count "M")))
          (r.1.filter (fun x => x ≠ "M")) (p.1.filter (fun x => x ≠ "M"))

/-- A bound on the passes the loop of `parseSpecies` still makes from a state:
twice the number of characters left, and one more in state `plus`. -/
def passesLeft (str : String) (st : Scan) : ℕ :=
  2 * (str.length - st.c) + (if st.state = ParseState.plus then 1 else 0)

end Reaction

/-! # `RrhoDB` (src/thermo/RrhoDB.cpp): the rigid-rotator harmonic-oscillator database -/

namespace Thermo

open Numerics


variable {R : Type} [LinearOrderedField R]

/-- The `struct RotData` (RrhoDB.cpp lines 43–46). -/
structure RotData (R : Type) where
  ln_omega_t : R
  linearity : R

/-- The `struct ElecLevel` (lines 48–51). -/
structure ElecLevel (R : Type) where
  g : R
  theta : R

/-- The data members of `class RrhoDB` (lines 621–637); `double` values are taken
in an ordered field, the arrays are lists, read with 0 outside their range. -/
structure RrhoDB (R : Type) where
  m_ns : ℕ
  m_na : ℕ
  m_nm : ℕ
  m_has_electron : Bool
  mp_lnqtmw : Vec R
  mp_hform : Vec R
  mp_indices : List ℕ
  mp_rot_data : List (RotData R)
  mp_nvib : List ℕ
  mp_vib_temps : Vec R
  mp_nelec : List ℕ
  mp_elec_levels : List (ElecLevel R)

/-- The functors `Equals`, `PlusEquals`, `MinusEquals`, `EqualsYDivAlpha(alpha)` and
`PlusEqualsYDivAlpha(alpha)` of Functors.h, which is not among the sources: they
are parameters.  A call `op(x, y)` assigns to `x`; the field gives the new value
of `x` from its old value and `y` (after `alpha` for the last two). -/
structure Functors (R : Type) where
  Eq : R → R → R
  PlusEq : R → R → R
  MinusEq : R → R → R
  EqDiv : R → R → R → R
  PlusEqDiv : R → R → R → R

/-- The functors do what their names say: `x = y`, `x += y`, `x -= y`,
`x = y / alpha`, `x += y / alpha`. -/
def Functors.Std (F : Functors R) : Prop :=
  (∀ x y, F.Eq x y = y) ∧ (∀ x y, F.PlusEq x y = x + y) ∧ (∀ x y, F.MinusEq x y = x - y) ∧
    (∀ a x y, F.EqDiv a x y = y / a) ∧ ∀ a x y, F.PlusEqDiv a x y = x + y / a

/-- The functors as their names say, for evaluation. -/
def stdFunctors : Functors R :=
  ⟨fun _ y => y, fun x y => x + y, fun x y => x - y, fun a _ y => y / a,
    fun a x y => x + y / a⟩

/-- The index `j` of the macro `LOOP_MOLECULES` (lines 28–32) in pass `i`. -/
def RrhoDB.molecule (db : RrhoDB R) (i : ℕ) : ℕ := db.mp_indices.getD (db.m_na + i) 0

/-- The index `j` of the macro `LOOP_HEAVY` (lines 37–41) in pass `i`. -/
def RrhoDB.heavy (db : RrhoDB R) (i : ℕ) : ℕ := if db.m_has_electron then i + 1 else i

/-- The method `hT(T, Te, h, op)` (lines 499–503). -/
def RrhoDB.hT (db : RrhoDB R) (T Te : R) (h : Vec R) (op : R → R → R) : Vec R :=
  let h : Vec R := if db.m_has_electron then h.set 0 (op (h.get 0) (2.5 * Te)) else h
  forUp 0 (db.m_na + db.m_nm) (fun i h =>
    h.set (db.heavy i) (op (h.get (db.heavy i)) (2.5 * T))) h

/-- The method `hR(T, h, op)` (lines 509–511). -/
def RrhoDB.hR (db : RrhoDB R) (T : R) (h : Vec R) (op : R → R → R) : Vec R :=
  forUp 0 db.m_nm (fun i h =>
    h.set (db.molecule i)
      (op (h.get (db.molecule i)) ((db.mp_rot_data.getD i ⟨0, 0⟩).linearity * T))) h

/-- The method `hV(T, h, op)` (lines 517–527); the state of the loop is `ilevel`
with the array, that of the inner loop `ilevel` with `sum`. -/
def RrhoDB.hV (exp : R → R) (db : RrhoDB R) (T : R) (h : Vec R) (op : R → R → R) : Vec R :=
  (forUp 0 db.m_nm (fun i (st : ℕ × Vec R) =>
    let inner : ℕ × R := forUp 0 (db.mp_nvib.getD i 0) (fun _ (p : ℕ × R) =>
      (p.1 + 1, p.2 + db.mp_vib_temps.get p.1 / (exp (db.mp_vib_temps.get p.1 / T) - 1.0)))
      (st.1, 0.0)
    (inner.1, st.2.set (db.molecule i) (op (st.2.get (db.molecule i)) inner.2))) (0, h)).2

/-- The method `hE(T, h, op)` (lines 534–547); the state of the inner loop is
`ilevel` with `sum1` and `sum2`. -/
def RrhoDB.hE (exp : R → R) (db : RrhoDB R) (T : R) (h : Vec R) (op : R → R → R) : Vec R :=
  (forUp 0 (db.m_na + db.m_nm) (fun i (st : ℕ × Vec R) =>
    let inner : ℕ × R × R := forUp 0 (db.mp_nelec.getD i 0) (fun _ (p : ℕ × R × R) =>
      let fac := (db.mp_elec_levels.getD p.1 ⟨0, 0⟩).g *
        exp (-(db.mp_elec_levels.getD p.1 ⟨0, 0⟩).theta / T)
      (p.1 + 1, p.2.1 + fac, p.2.2 + fac * (db.mp_elec_levels.getD p.1 ⟨0, 0⟩).theta))
      (st.1, 0.0, 0.0)
    (inner.1, st.2.set (db.heavy i) (op (st.2.get (db.heavy i)) (inner.2.2 / inner.2.1))))
    (0, h)).2

/-- The method `hF(h, op)` (lines 553–555). -/
def RrhoDB.hF (db : RrhoDB R) (h : Vec R) (op : R → R → R) : Vec R :=
  forUp 0 db.m_ns (fun i h => h.set i (op (h.get i) (db.mp_hform.get i))) h

/-- The method `sT(Th, Te, P, s, op)` (lines 561–567). -/
def RrhoDB.sT (log : R → R) (db : RrhoDB R) (Th Te P : R) (s : Vec R) (op : R → R → R) :
    Vec R :=
  let fac := 2.5 * (1.0 + log Th) - log P
  let s : Vec R :=
    if db.m_has_electron then
      s.set 0 (op (s.get 0) (2.5 * log (Te / Th) + fac + db.mp_lnqtmw.get 0))
    else s
  forUp (if db.m_has_electron then 1 else 0) db.m_ns (fun i s =>
    s.set i (op (s.get i) (fac + db.mp_lnqtmw.get i))) s

/-- The method `sR(T, s, op)` (lines 573–579). -/
def RrhoDB.sR (log : R → R) (db : RrhoDB R) (T : R) (s : Vec R) (op : R → R → R) : Vec R :=
  let onelnT := 1.0 + log T
  forUp 0 db.m_nm (fun i s =>
    s.set (db.molecule i) (op (s.get (db.molecule i))
      ((db.mp_rot_data.getD i ⟨0, 0⟩).linearity *
        (onelnT - (db.mp_rot_data.getD i ⟨0, 0⟩).ln_omega_t)))) s

/-- The method `sV(T, s, op)` (lines 585–597). -/
def RrhoDB.sV (exp log : R → R) (db : RrhoDB R) (T : R) (s : Vec R) (op : R → R → R) :
    Vec R :=
  (forUp 0 db.m_nm (fun i (st : ℕ × Vec R) =>
    let inner : ℕ × R × R := forUp 0 (db.mp_nvib.getD i 0) (fun _ (p : ℕ × R × R) =>
      let fac := exp (db.mp_vib_temps.get p.1 / T)
      (p.1 + 1, p.2.1 + db.mp_vib_temps.get p.1 / (fac - 1.0), p.2.2 + log (1.0 - 1.0 / fac)))
      (st.1, 0.0, 0.0)
    (inner.1, st.2.set (db.molecule i)
      (op (st.2.get (db.molecule i)) (inner.2.1 / T - inner.2.2)))) (0, s)).2

/-- The method `sE(T, s, op)` (lines 603–617). -/
def RrhoDB.sE (exp log : R → R) (db : RrhoDB R) (T : R) (s : Vec R) (op : R → R → R) :
    Vec R :=
  (forUp 0 (db.m_na + db.m_nm) (fun i (st : ℕ × Vec R) =>
    let inner : ℕ × R × R := forUp 0 (db.mp_nelec.getD i 0) (fun _ (p : ℕ × R × R) =>
      let fac := (db.mp_elec_levels.getD p.1 ⟨0, 0⟩).g *
        exp (-(db.mp_elec_levels.getD p.1 ⟨0, 0⟩).theta / T)
      (p.1 + 1, p.2.1 + fac, p.2.2 + (db.mp_elec_levels.getD p.1 ⟨0, 0⟩).theta * fac))
      (st.1, 0.0, 0.0)
    (inner.1, st.2.set (db.heavy i)
      (op (st.2.get (db.heavy i)) (inner.2.2 / (inner.2.1 * T) + log inner.2.1))))
    (0, s)).2

/-- The arrays a thermodynamic function leaves on return: the total and the
components that were requested (`none` for a `NULL` argument). -/
structure Arrays (R : Type) where
  total : Vec R
  t : Option (Vec R)
  r : Option (Vec R)
  v : Option (Vec R)
  el : Option (Vec R)
  f : Option (Vec R)

/-- The macro `LOOP(a[i] = 0.0)`. -/
def RrhoDB.clear (db : RrhoDB R) (a : Vec R) : Vec R :=
  forUp 0 db.m_ns (fun i a => a.set i 0.0) a

/-- The macro `LOOP(a[i] = b[i])`. -/
def RrhoDB.copy (db : RrhoDB R) (a b : Vec R) : Vec R :=
  forUp 0 db.m_ns (fun i a => a.set i (b.get i)) a

/-- The macro `LOOP(a[i] += b[i])`. -/
def RrhoDB.addAll (db : RrhoDB R) (a b : Vec R) : Vec R :=
  forUp 0 db.m_ns (fun i a => a.set i (a.get i + b.get i)) a

/-- The macro `LOOP_MOLECULES(a[j] += b[j])`. -/
def RrhoDB.addMolecules (db : RrhoDB R) (a b : Vec R) : Vec R :=
  forUp 0 db.m_nm (fun i a => a.set (db.molecule i) (a.get (db.molecule i) + b.get (db.molecule i)))
    a

/-- The macro `LOOP(a[i] /= x)`. -/
def RrhoDB.divAll (db : RrhoDB R) (a : Vec R) (x : R) : Vec R :=
  forUp 0 db.m_ns (fun i a => a.set i (a.get i / x)) a

/-- The macro `LOOP_MOLECULES(a[j] /= x)`. -/
def RrhoDB.divMolecules (db : RrhoDB R) (a : Vec R) (x : R) : Vec R :=
  forUp 0 db.m_nm (fun i a => a.set (db.molecule i) (a.get (db.molecule i) / x)) a

/-- The method `enthalpy(Th, Te, Tr, Tv, Tel, h, ht, hr, hv, hel, hf)` (lines
311–372).  The arrays are passed with the values they hold on entry; the
requested components are distinct arrays. -/
def RrhoDB.enthalpy (F : Functors R) (exp : R → R) (db : RrhoDB R) (Th Te Tr Tv Tel : R)
    (h : Vec R) (ht hr hv hel hf : Option (Vec R)) : Arrays R :=
  if ht = none ∧ hr = none ∧ hv = none ∧ hel = none ∧ hf = none then
    let h := db.hT Th Te h F.Eq
    let h := db.hR Tr h F.PlusEq
    let h := db.hV exp Tv h F.PlusEq
    let h := db.hE exp Tel h F.PlusEq
    let h := db.hF h F.PlusEq
    ⟨db.divAll h Th, none, none, none, none, none⟩
  else
    let st1 : Vec R × Option (Vec R) :=
      match ht with
      | none => (db.hT Th Te h F.Eq, none)
      | some ht =>
        let ht := db.hT Th Te ht (F.EqDiv Th)
        (db.copy h ht, some ht)
    let st2 : Vec R × Option (Vec R) :=
      match hr with
      | none => (db.hR Tr st1.1 (F.PlusEqDiv Th), none)
      | some hr =>
        let hr := db.clear hr
        let hr := db.hR Tr hr (F.EqDiv Th)
        (db.addMolecules st1.1 hr, some hr)
    let st3 : Vec R × Option (Vec R) :=
      match hv with
      | none => (db.hV exp Tv st2.1 (F.PlusEqDiv Th), none)
      | some hv =>
        let hv := db.clear hv
        let hv := db.hV exp Tv hv (F.EqDiv Th)
        (db.addMolecules st2.1 hv, some hv)
    let st4 : Vec R × Option (Vec R) :=
      match hel with
      | none => (db.hE exp Tel st3.1 (F.PlusEqDiv Th), none)
      | some hel =>
        let hel := db.clear hel
        let hel := db.hE exp Tel hel (F.EqDiv Th)
        (db.addAll st3.1 hel, some hel)
    let st5 : Vec R × Option (Vec R) :=
      match hf with
      | none => (db.hF st4.1 (F.PlusEqDiv Th), none)
      | some hf =>
        let hf := db.hF hf (F.EqDiv Th)
        (db.addAll st4.1 hf, some hf)
    ⟨st5.1, st1.2, st2.2, st3.2, st4.2, st5.2⟩

/-- The method `cp(Th, Te, Tr, Tv, Tel, cp, cpt, cpr, cpv, cpel)` (lines
218–292). -/
def RrhoDB.cp (F : Functors R) (exp : R → R) (db : RrhoDB R) (Th Te Tr Tv Tel : R)
    (cp : Vec R) (cpt cpr cpv cpel : Option (Vec R)) : Arrays R :=
  let deltaT := Th * 1.0E-6
  if cpt = none ∧ cpr = none ∧ cpv = none ∧ cpel = none then
    let cp := db.hT (Th + deltaT) (Te + deltaT) cp F.Eq
    let cp := db.hT Th Te cp F.MinusEq
    let cp := db.hR (Tr + deltaT) cp F.PlusEq
    let cp := db.hR Tr cp F.MinusEq
    let cp := db.hV exp (Tv + deltaT) cp F.PlusEq
    let cp := db.hV exp Tv cp F.MinusEq
    let cp := db.hE exp (Tv + deltaT) cp F.PlusEq
    let cp := db.hE exp Tv cp F.MinusEq
    ⟨db.divAll cp deltaT, none, none, none, none, none⟩
  else
    let st1 : Vec R × Option (Vec R) :=
      match cpt with
      | none =>
        let cp := db.hT (Th + deltaT) (Te + deltaT) cp F.Eq
        (db.hT Th Te cp F.MinusEq, none)
      | some cpt =>
        let cpt := db.hT (Th + deltaT) (Te + deltaT) cpt F.Eq
        let cpt := db.hT Th Te cpt F.MinusEq
        let cp := db.addAll cp cpt
        (cp, some (db.divAll cpt deltaT))
    let st2 : Vec R × Option (Vec R) :=
      match cpr with
      | none =>
        let cp := db.hR (Tr + deltaT) st1.1 F.PlusEq
        (db.hR Tr cp F.MinusEq, none)
      | some cpr =>
        let cpr := db.clear cpr
        let cpr := db.hR (Tr + deltaT) cpr F.Eq
        let cpr := db.hR Tr cpr F.MinusEq
        let cp := db.addMolecules st1.1 cpr
        (cp, some (db.divMolecules cpr deltaT))
    let st3 : Vec R × Option (Vec R) :=
      match cpv with
      | none =>
        let cp := db.hV exp (Tv + deltaT) st2.1 F.PlusEq
        (db.hV exp Tv cp F.MinusEq, none)
      | some cpv =>
        let cpv := db.clear cpv
        let cpv := db.hV exp (Tv + deltaT) cpv F.Eq
        let cpv := db.hV exp Tv cpv F.MinusEq
        let cp := db.addMolecules st2.1 cpv
        (cp, some (db.divMolecules cpv deltaT))
    let st4 : Vec R × Option (Vec R) :=
      match cpel with
      | none =>
        let cp := db.hE exp (Tel + deltaT) st3.1 F.PlusEq
        (db.hE exp Tel cp F.MinusEq, none)
      | some cpel =>
        let cpel := db.clear cpel
        let cpel := db.hE exp (Tr + deltaT) cpel F.Eq
        let cpel := db.hE exp Tr cpel F.MinusEq
        let cp := db.addAll st3.1 cpel
        (cp, some (db.divAll cpel deltaT))
    ⟨db.divAll st4.1 deltaT, st1.2, st2.2, st3.2, st4.2, none⟩

/-- The method `entropy(Th, Te, Tr, Tv, Tel, P, s, st, sr, sv, sel)` (lines
389–447). -/
def RrhoDB.entropy (F : Functors R) (exp log : R → R) (db : RrhoDB R)
    (Th Te Tr Tv Tel P : R) (s : Vec R) (st sr sv sel : Option (Vec R)) : Arrays R :=
  if st = none ∧ sr = none ∧ sv = none ∧ sel = none then
    let s := db.sT log Th Te P s F.Eq
    let s := db.sR log Tr s F.PlusEq
    let s := db.sV exp log Tv s F.PlusEq
    let s := db.sE exp log Tel s F.PlusEq
    let s : Vec R := if db.m_has_electron then s.set 0 (s.get 0 + log 2.0) else s
    ⟨s, none, none, none, none, none⟩
  else
    let st1 : Vec R × Option (Vec R) :=
      match st with
      | none => (db.sT log Th Te P s F.Eq, none)
      | some st =>
        let st := db.sT log Th Te P st F.Eq
        (db.copy s st, some st)
    let st2 : Vec R × Option (Vec R) :=
      match sr with
      | none => (db.sR log Tr st1.1 F.PlusEq, none)
      | some sr =>
        let sr := db.clear sr
        let sr := db.sR log Tr sr F.Eq
        (db.addMolecules st1.1 sr, some sr)
    let st3 : Vec R × Option (Vec R) :=
      match sv with
      | none => (db.sV exp log Tv st2.1 F.PlusEq, none)
      | some sv =>
        let sv := db.clear sv
        let sv := db.sV exp log Tv sv F.Eq
        (db.addMolecules st2.1 sv, some sv)
    let st4 : Vec R × Option (Vec R) :=
      match sel with
      | none => (db.sE exp log Tel st3.1 F.PlusEq, none)
      | some sel =>
        let sel := db.clear sel
        let sel := db.sE exp log Tel sel F.Eq
        (db.addAll st3.1 sel, some sel)
    let s : Vec R := if db.m_has_electron then st4.1.set 0 (st4.1.get 0 + log 2.0) else st4.1
    ⟨s, st1.2, st2.2, st3.2, st4.2, none⟩

/-- The method `gibbs(Th, Te, Tr, Tv, Tel, P, g, gt, gr, gv, gel)` (lines
457–485); the arguments `gt`, `gr`, `gv` and `gel` are not used. -/
def RrhoDB.gibbs (F : Functors R) (exp log : R → R) (db : RrhoDB R)
    (Th Te Tr Tv Tel P : R) (g : Vec R) : Vec R :=
  let g := (db.enthalpy F exp Th Te Tr Tv Tel g none none none none none).total
  let g := db.sT log Th Te P g F.MinusEq
  let g := db.sR log Tr g F.MinusEq
  let g := db.sV exp log Tv g F.MinusEq
  let g := db.sE exp log Tel g F.MinusEq
  if db.m_has_electron then g.set 0 (g.get 0 - log 2.0) else g


/-- A database of one atom (atomic nitrogen: formation enthalpy `56850 K`, one
electronic level of degeneracy 4 at `0 K`). -/
def atomN : RrhoDB ℚ :=
  ⟨1, 1, 0, false, [0], [56850], [0], [], [], [], [1], [⟨4, 0⟩]⟩


/-- A database of one atom with two electronic levels of degeneracy 1, at `0 K`
and at `6 K`. -/
def twoLevel (R : Type) [LinearOrderedField R] : RrhoDB R :=
  ⟨1, 1, 0, false, [0], [0], [0], [], [], [], [2], [⟨1, 0⟩, ⟨1, 6⟩]⟩

/-- The specific heat of species `i` with each mode differenced at its own
temperature: `[hT_i(Th+δ,Te+δ) − hT_i(Th,Te) + hR_i(Tr+δ) − hR_i(Tr) +
hV_i(Tv+δ) − hV_i(Tv) + hE_i(Tel+δ) − hE_i(Tel)]/δ` with `δ = 1e-6·Th`, where the
enthalpy of a mode for species `i` is what the method of the mode assigns to
entry `i` of an array of zeros. -/
def RrhoDB.cpOwn (exp : R → R) (db : RrhoDB R) (Th Te Tr Tv Tel : R) (i : ℕ) : R :=
  let z : Vec R := Vec.zeros db.m_ns
  let asg : R → R → R := fun _ y => y
  let deltaT := Th * 1.0E-6
  ((db.hT (Th + deltaT) (Te + deltaT) z asg).get i - (db.hT Th Te z asg).get i +
    (db.hR (Tr + deltaT) z asg).get i - (db.hR Tr z asg).get i +
    (db.hV exp (Tv + deltaT) z asg).get i - (db.hV exp Tv z asg).get i +
    (db.hE exp (Tel + deltaT) z asg).get i - (db.hE exp Tel z asg).get i) / deltaT


/-- A database of an electron, an atom and a molecule, with one vibrational
temperature and with one and two electronic levels. -/
def eNN2 (R : Type) [LinearOrderedField R] : RrhoDB R :=
  ⟨3, 1, 1, true, [1, 2, 3], [0, 56850, 0], [1, 2], [⟨1, 1⟩], [1], [3395], [1, 2],
    [⟨4, 0⟩, ⟨1, 0⟩, ⟨3, 72000⟩]⟩

/-- The array `g` holds, at every species `i < ns`, the entry of `h` less the
entry of `s`; `g` and `s` have the same length. -/
def Diff (ns : ℕ) (h g s : Vec R) : Prop :=
  g.length = s.length ∧ ∀ i, i < ns → g.get i = h.get i - s.get i

end Thermo

/-! ## Theorems -/

namespace Numerics

variable {R : Type} [LinearOrderedField R]

set_option linter.unusedSectionVars false


/-- C1 (code at the failing input): on the 2×4 matrix `A24` with the rows
`(12, 0, 0, 7)` and `(0, 0, 0, 12)` the constructor finishes after four passes
of the main loop (case 4, case 3, case 4, case 4) with `S = (16, 9, 0)`.  In exact
arithmetic no negligibility test changes an entry (each pass leaves `m_s` and
`e` as they are in its classification), and yet entry `(0,3)` of `U·diag(S)·V'`
is `337/25` while `A(0,3) = 7`.  In double precision the same passes are run
and the entry is `13.479999999999999`. -/
theorem recon_fails_A24 :
    (∀ t < 4,
      (classify qeps (afterPasses qsqrt qeps 2 4 2 true true t (SVD.start qsqrt A24 true true)).p
          (afterPasses qsqrt qeps 2 4 2 true true t (SVD.start qsqrt A24 true true)).s
          (afterPasses qsqrt qeps 2 4 2 true true t (SVD.start qsqrt A24 true true)).e).2.2 =
        ((afterPasses qsqrt qeps 2 4 2 true true t (SVD.start qsqrt A24 true true)).s,
          (afterPasses qsqrt qeps 2 4 2 true true t (SVD.start qsqrt A24 true true)).e)) ∧
    (SVD.construct qsqrt qeps 4 A24 true true).map SVD.singularValues = some [16, 9, 0] ∧
    (SVD.construct qsqrt qeps 4 A24 true true).map (fun d => d.recon 0 3) = some (337/25) ∧
    A24.get 0 3 = 7 ∧
    (List.range 4).map (fun t =>
        (Double.kaseAfter Double.Watch.indices F64.eps t Double.A24 true true).value) =
      [some (4, 2), some (3, 0), some (4, 1), some (4, 0)] ∧
    (Double.reconOf Double.Watch.indices F64.eps 4 Double.A24 true true 0 3).value =
      some (F64.fin false 7588565372119285 1025) ∧
    F64.ofNat 13 < F64.fin false 7588565372119285 1025 := by
  refine ⟨?_, ?_, ?_, ?_, ?_, ?_, ?_⟩ <;> decide!

/-- C4 (code at the failing input): on the 1×3 matrix `[12, 3, 4]` the
constructor finishes with a `V` whose columns 0 and 1 are not orthogonal:
entry `(0,1)` of `V'V` is `-384/845`. -/
theorem V_not_orthonormal_A13 :
    (SVD.construct qsqrt qeps 3 A13 true true).map (fun d => d.m_V.val) =
      some [[12/13, -5/13, 0], [3/13, 36/65, -4/5], [4/13, -48/65, 3/5]] ∧
    (SVD.construct qsqrt qeps 3 A13 true true).map (fun d => d.m_V.gram 3 0 1) =
      some (-384/845) := by
  refine ⟨?_, ?_⟩ <;> decide!

/-- C5 (code at the failing input): for the 1×2 matrix `[1, 0]` (rank 1),
`solve` called with `x = (0, 7)` and `b = (2)` returns `x = (2, 7)`: the entry
`x(1)`, at an index `≥ rank`, keeps what it held on entry, where the
pseudo-inverse solution is `(2, 0)`. -/
theorem solve_keeps_x_A12 :
    (SVD.construct qsqrt qeps 3 A12 true true).map SVD.rank = some 1 ∧
    (SVD.construct qsqrt qeps 3 A12 true true).map (fun d => (d.solve [0, 7] [2]).1) =
      some [2, 7] ∧
    (SVD.construct qsqrt qeps 3 A12 true true).map (fun d => (d.solve [0, 0] [2]).1) =
      some [2, 0] := by
  refine ⟨?_, ?_, ?_⟩ <;> decide!

/-- C8 (code at the failing input): for `diag(3, 1)` the singular values are
`[3, 1]` and `cond()` reads `m_s(2)`, outside the vector; for `[[5]]` it reads
`m_s(1)`, outside the vector. -/
theorem cond_reads_outside :
    (SVD.construct qsqrt qeps 3 D31 true true).map SVD.singularValues = some [3, 1] ∧
    (SVD.construct qsqrt qeps 3 D31 true true).map SVD.cond = some none ∧
    (SVD.construct qsqrt qeps 3 (Mat.ofRows 1 [[5]]) true true).map SVD.cond = some none := by
  refine ⟨?_, ?_, ?_⟩ <;> decide!

/-! ### Containers and loops -/

theorem Vec.length_set (v : Vec R) (i : ℕ) (x : R) : (v.set i x).length = v.length := by
  simp [Vec.set]

theorem Vec.get_set (v : Vec R) (i j : ℕ) (x : R) :
    (v.set i x).get j = if i = j ∧ i < v.length then x else v.get j := by
  unfold Vec.get Vec.set
  rw [List.getD_eq_getElem?_getD, List.getD_eq_getElem?_getD, List.getElem?_set]
  by_cases h : i = j
  · subst h
    by_cases h2 : i < v.length
    · simp [h2]
    · have : v[i]? = none := by simp [List.getElem?_eq_none_iff]; omega
      simp [h2, this]
  · simp [h]

theorem Vec.get_set_self (v : Vec R) (i : ℕ) (x : R) (h : i < v.length) :
    (v.set i x).get i = x := by
  simp [Vec.get_set, h]

theorem Vec.get_set_ne (v : Vec R) (i j : ℕ) (x : R) (h : i ≠ j) :
    (v.set i x).get j = v.get j := by
  simp [Vec.get_set, h]

theorem Vec.read_eq (v : Vec R) (i : ℕ) (h : i < v.length) : v.read i = some (v.get i) := by
  unfold Vec.read Vec.get
  rw [List.getD_eq_getElem?_getD, List.getElem?_eq_getElem h]
  rfl

theorem Vec.length_zeros (n : ℕ) : (Vec.zeros n : Vec R).length = n := by
  simp [Vec.zeros]

theorem Vec.get_zeros (n i : ℕ) : (Vec.zeros n : Vec R).get i = 0 := by
  unfold Vec.get Vec.zeros
  rw [List.getD_eq_getElem?_getD, List.getElem?_replicate]
  split <;> rfl

theorem forUp_eq_self {σ : Type} (lo hi : ℕ) (body : ℕ → σ → σ) (st : σ) (h : hi ≤ lo) :
    forUp lo hi body st = st := by
  unfold forUp
  have : hi - lo = 0 := by omega
  simp [this]

theorem forUp_succ {σ : Type} (lo hi : ℕ) (body : ℕ → σ → σ) (st : σ) (h : lo ≤ hi) :
    forUp lo (hi+1) body st = body hi (forUp lo hi body st) := by
  unfold forUp
  have : hi + 1 - lo = (hi - lo) + 1 := by omega
  rw [this, List.range'_concat, List.foldl_append]
  simp only [List.foldl_cons, List.foldl_nil, one_mul]
  congr 1
  omega

theorem forUp_first {σ : Type} (lo hi : ℕ) (body : ℕ → σ → σ) (st : σ) (h : lo < hi) :
    forUp lo hi body st = forUp (lo+1) hi body (body lo st) := by
  unfold forUp
  have : hi - lo = (hi - (lo+1)) + 1 := by omega
  rw [this, List.range'_succ]
  simp

/-- Invariant rule for `forUp`: a property indexed by the loop counter. -/
theorem forUp_inv {σ : Type} (P : ℕ → σ → Prop) (lo hi : ℕ) (body : ℕ → σ → σ) (st : σ)
    (hle : lo ≤ hi) (h0 : P lo st)
    (hstep : ∀ i s, lo ≤ i → i < hi → P i s → P (i+1) (body i s)) :
    P hi (forUp lo hi body st) := by
  induction hi with
  | zero =>
    have : lo = 0 := by omega
    subst this
    simpa [forUp] using h0
  | succ n ih =>
    rcases Nat.eq_or_lt_of_le hle with h | h
    · subst h
      rw [forUp_eq_self _ _ _ _ (le_refl _)]
      exact h0
    · have hle2 : lo ≤ n := by omega
      rw [forUp_succ _ _ _ _ hle2]
      exact hstep n _ hle2 (by omega) (ih hle2 (fun i s h1 h2 => hstep i s h1 (by omega)))

/-- Invariant rule for `forUp`: a property that every pass preserves. -/
theorem forUp_pres {σ : Type} (P : σ → Prop) (lo hi : ℕ) (body : ℕ → σ → σ) (st : σ)
    (h0 : P st) (hstep : ∀ i s, lo ≤ i → i < hi → P s → P (body i s)) :
    P (forUp lo hi body st) := by
  rcases Nat.lt_or_ge hi lo with h | h
  · rw [forUp_eq_self _ _ _ _ (by omega)]
    exact h0
  · exact forUp_inv (fun _ s => P s) lo hi body st h h0 hstep

theorem forDown_eq_self {σ : Type} (lo hi : ℕ) (body : ℕ → σ → σ) (st : σ) (h : hi ≤ lo) :
    forDown lo hi body st = st := by
  unfold forDown
  have : hi - lo = 0 := by omega
  simp [this]

theorem forDown_succ {σ : Type} (lo hi : ℕ) (body : ℕ → σ → σ) (st : σ) (h : lo ≤ hi) :
    forDown lo (hi+1) body st = forDown lo hi body (body hi st) := by
  unfold forDown
  have : hi + 1 - lo = (hi - lo) + 1 := by omega
  rw [this, List.range'_concat, List.foldr_append]
  simp only [List.foldr_cons, List.foldr_nil, one_mul]
  congr 2
  omega

theorem forDown_last {σ : Type} (lo hi : ℕ) (body : ℕ → σ → σ) (st : σ) (h : lo < hi) :
    forDown lo hi body st = body lo (forDown (lo+1) hi body st) := by
  unfold forDown
  have : hi - lo = (hi - (lo+1)) + 1 := by omega
  rw [this, List.range'_succ]
  simp

/-- Invariant rule for `forDown`: a property that every pass preserves. -/
theorem forDown_pres {σ : Type} (P : σ → Prop) (lo hi : ℕ) (body : ℕ → σ → σ) (st : σ)
    (h0 : P st) (hstep : ∀ i s, lo ≤ i → i < hi → P s → P (body i s)) :
    P (forDown lo hi body st) := by
  induction hi generalizing st with
  | zero => simpa [forDown] using h0
  | succ n ih =>
    rcases Nat.lt_or_ge n lo with h | h
    · rw [forDown_eq_self _ _ _ _ (by omega)]
      exact h0
    · rw [forDown_succ _ _ _ _ h]
      exact ih _ (hstep n st h (by omega) h0) (fun i s h1 h2 => hstep i s h1 (by omega))

/-! ### The rank loop -/

theorem countAbove_succ (s : Vec R) (tol : R) (k : ℕ) :
    countAbove s tol (k+1) = countAbove s tol k + (if tol ≤ s.get k then 1 else 0) := by
  unfold countAbove
  rw [List.range_succ, List.filter_append]
  by_cases h : tol ≤ s.get k <;> simp [h]

theorem countAbove_le (s : Vec R) (tol : R) (k : ℕ) : countAbove s tol k ≤ k := by
  unfold countAbove
  calc ((List.range k).filter (fun i => tol ≤ s.get i)).length
      ≤ (List.range k).length := List.length_filter_le _ _
    _ = k := List.length_range k

theorem countAbove_eq_self (s : Vec R) (tol : R) (k : ℕ) (h : ∀ i < k, tol ≤ s.get i) :
    countAbove s tol k = k := by
  induction k with
  | zero => simp [countAbove]
  | succ n ih =>
    rw [countAbove_succ, ih (fun i hi => h i (by omega))]
    simp [h n (by omega)]

/-- The rank loop on a non-increasing vector whose first entry reaches the
tolerance: it returns the number of entries that reach the tolerance. -/
theorem rankLoop_eq_countAbove (s : Vec R) (tol : R) (k : ℕ) (hk : k ≤ s.length) (hk1 : 1 ≤ k)
    (hsorted : ∀ i j, i ≤ j → j < s.length → s.get j ≤ s.get i) (h0 : tol ≤ s.get 0) :
    rankLoop s tol k = some (countAbove s tol k) := by
  induction k with
  | zero => omega
  | succ n ih =>
    rw [rankLoop, Vec.read_eq s n (by omega)]
    simp only []
    by_cases hlt : s.get n < tol
    · have hn : 1 ≤ n := by
        rcases Nat.eq_zero_or_pos n with h | h
        · subst h
          exact absurd h0 (not_le.mpr hlt)
        · exact h
      rw [if_pos hlt, ih (by omega) hn, countAbove_succ, if_neg (not_le.mpr hlt)]
      simp
    · rw [if_neg hlt]
      have hall : ∀ i < n + 1, tol ≤ s.get i := fun i hi =>
        le_trans (not_lt.mp hlt) (hsorted i n (by omega) (by omega))
      rw [countAbove_eq_self s tol (n+1) hall]

/-- C7 (amended): in exact arithmetic, for a vector `S` that is non-increasing
and non-negative, with `len(S)·eps ≤ 1` (so that `S(0) ≥ tol`), the rank loop
started at `min(M,N)` returns the number of indices `i < min(M,N)` with `S(i) ≥ tol`,
`tol = len(S)·S(0)·eps`, and this number lies in `1 .. min(M,N)`. -/
theorem rank_rule (S : Vec R) (eps : R) (m n : ℕ) (hm : 1 ≤ m) (hn : 1 ≤ n)
    (hlen : min m n ≤ S.length)
    (hsorted : ∀ i j, i ≤ j → j < S.length → S.get j ≤ S.get i)
    (hnonneg : ∀ i < S.length, 0 ≤ S.get i)
    (hsmall : (S.length : R) * eps ≤ 1) :
    rankLoop S ((S.length : R) * S.get 0 * eps) (min m n)
        = some (countAbove S ((S.length : R) * S.get 0 * eps) (min m n)) ∧
      1 ≤ countAbove S ((S.length : R) * S.get 0 * eps) (min m n) ∧
      countAbove S ((S.length : R) * S.get 0 * eps) (min m n) ≤ min m n := by
  have hk1 : 1 ≤ min m n := le_min hm hn
  have hS0 : 0 ≤ S.get 0 := hnonneg 0 (by omega)
  have htol : (S.length : R) * S.get 0 * eps ≤ S.get 0 := by
    have : (S.length : R) * S.get 0 * eps = S.get 0 * ((S.length : R) * eps) := by ring
    rw [this]
    exact mul_le_of_le_one_right hS0 hsmall
  refine ⟨rankLoop_eq_countAbove S _ _ hlen hk1 hsorted htol, ?_, countAbove_le _ _ _⟩
  have h1 : countAbove S ((S.length : R) * S.get 0 * eps) 1 = 1 :=
    countAbove_eq_self S _ 1 (fun i hi => by
      have : i = 0 := by omega
      subst this
      exact htol)
  have hmono : ∀ k, 1 ≤ k → 1 ≤ countAbove S ((S.length : R) * S.get 0 * eps) k := by
    intro k hk
    induction k with
    | zero => omega
    | succ j ih =>
      rcases Nat.eq_zero_or_pos j with h | h
      · subst h
        rw [h1]
      · rw [countAbove_succ]
        have := ih h
        omega
  exact hmono _ hk1

/-- Witness for `rank_rule`: `S = [3, 1]` for a 2×2 matrix, `eps = 2^-52`. -/
theorem rank_rule_witness :
    rankLoop ([3, 1] : Vec ℚ) ((([3, 1] : Vec ℚ).length : ℚ) * Vec.get [3, 1] 0 * qeps) (min 2 2)
        = some (countAbove ([3, 1] : Vec ℚ) ((([3, 1] : Vec ℚ).length : ℚ) * Vec.get [3, 1] 0 * qeps)
            (min 2 2)) ∧
      1 ≤ countAbove ([3, 1] : Vec ℚ) ((([3, 1] : Vec ℚ).length : ℚ) * Vec.get [3, 1] 0 * qeps)
            (min 2 2) ∧
      countAbove ([3, 1] : Vec ℚ) ((([3, 1] : Vec ℚ).length : ℚ) * Vec.get [3, 1] 0 * qeps)
            (min 2 2) ≤ min 2 2 :=
  rank_rule [3, 1] qeps 2 2 (by decide) (by decide) (by decide)
    (by
      intro i j hij hj
      have hj2 : j < 2 := hj
      interval_cases j <;> interval_cases i <;> decide!)
    (by
      intro i hi
      have hi2 : i < 2 := hi
      interval_cases i <;> decide!)
    (by decide!)

/-- C7 (counterexample, double precision): on the 1×2 matrix `(1e308, 0)` the
main loop ends with `S = (1e308, 0)`; `tol = 2 · 1e308 · eps` overflows to `∞`,
no index `i < min(M,N) = 1` has `S(i) ≥ tol`, so the claim gives rank 0; the
loop decrements `m_rank` to 0 and then reads `m_s(-1)`. -/
theorem rank_rule_overflow :
    (Double.run Double.Watch.indices F64.eps 2 Double.Row308 true true).value.map
        (fun st => st.s) = some [F64.ofDecimal false 1 308, F64.zero] ∧
    (Double.tolOf F64.eps [F64.ofDecimal false 1 308, F64.zero]).value = some (F64.inf false) ∧
    (([F64.ofDecimal false 1 308, F64.zero].take 1).filter
        (fun x => decide (F64.inf false ≤ x))).length = 0 ∧
    (Double.rankLoop [F64.ofDecimal false 1 308, F64.zero] (F64.inf false) 2 1).stop =
      some (Double.Stop.index 553 [-1]) ∧
    (Double.construct Double.Watch.indices F64.eps 2 Double.Row308 true true).stop =
      some (Double.Stop.index 553 [-1]) := by
  refine ⟨?_, ?_, ?_, ?_, ?_⟩ <;> decide!

/-! ### 1×1 input -/

theorem mainLoop_p_zero (sqrt : R → R) (eps : R) (m n pp : ℕ) (wantu wantv : Bool) (fuel : ℕ)
    (st : Iter R) (h : st.p = 0) : mainLoop sqrt eps m n pp wantu wantv fuel st = some st := by
  cases fuel <;> simp [mainLoop, h]

theorem mainLoop_succ (sqrt : R → R) (eps : R) (m n pp : ℕ) (wantu wantv : Bool) (fuel : ℕ)
    (st : Iter R) (h : st.p ≠ 0) :
    mainLoop sqrt eps m n pp wantu wantv (fuel+1) st =
      mainLoop sqrt eps m n pp wantu wantv fuel (iterStep sqrt eps m n pp wantu wantv st) := by
  simp [mainLoop, h]

/-- The constructor on `[[a]]` with `a ≤ 0` (and `eps ≤ 1`): one pass of the
main loop, case 4 with the sign fix. -/
theorem construct_1x1_nonpos (sqrt : R → R) (eps : R) (heps : eps ≤ 1) (a : R) (ha : a ≤ 0)
    (fuel : ℕ) :
    SVD.construct sqrt eps (fuel+1) (Mat.ofRows 1 [[a]]) true true =
      some ⟨1, Mat.ofRows 1 [[a]], [|a|], ⟨1, 1, [[1]]⟩, ⟨1, 1, [[-1]]⟩⟩ := by
  have hinit : SVD.init sqrt (Mat.ofRows 1 [[a]]) true true =
      ⟨Mat.ofRows 1 [[a]], [a], [0], [0], ⟨1, 1, [[1]]⟩, ⟨1, 1, [[1]]⟩⟩ := by
    simp [SVD.init, Mat.ofRows, forUp, forDown, finalSetup, generateU, generateV, Vec.zeros,
      Mat.zeros, Vec.set, Vec.get, Mat.get, Mat.set]
  have hle : |a| * eps ≤ |a| := mul_le_of_le_one_right (abs_nonneg a) heps
  have hrank : rankLoop ([|a|] : Vec R) (((1:ℕ) : R) * |a| * eps) 1 = some 1 := by
    simp [rankLoop, Vec.read, hle]
  have hdims : (Mat.ofRows 1 [[a]]).rows = 1 ∧ (Mat.ofRows 1 [[a]]).cols = 1 := ⟨rfl, rfl⟩
  have hstep : iterStep sqrt eps 1 1 0 true true ⟨[a], [0], ⟨1, 1, [[1]]⟩, ⟨1, 1, [[1]]⟩, 1, 0⟩
      = ⟨[|a|], [0], ⟨1, 1, [[1]]⟩, ⟨1, 1, [[-1]]⟩, 0, 0⟩ := by
    have h2 : (if a < 0 then -a else 0) = |a| := by
      rcases lt_or_eq_of_le ha with h | h
      · rw [if_pos h, abs_of_neg h]
      · subst h; simp
    simp [iterStep, classify, scanE, case4, order, forUp, Vec.get, Vec.set, Mat.get, Mat.set,
      ha, h2]
  unfold SVD.construct
  simp only [hinit, hdims.1, hdims.2]
  rw [show min 1 (1+1) = 1 from rfl, show (1:ℕ) - 1 = 0 from rfl,
    mainLoop_succ _ _ _ _ _ _ _ _ _ (by simp), hstep, mainLoop_p_zero _ _ _ _ _ _ _ _ _ rfl]
  simp only [List.length_singleton, Vec.get, List.getD_cons_zero]
  rw [show min 1 1 = 1 from rfl, hrank]

/-- The constructor on `[[a]]` with `a > 0` (and `eps ≤ 1`): one pass of the
main loop, case 4 without the sign fix. -/
theorem construct_1x1_pos (sqrt : R → R) (eps : R) (heps : eps ≤ 1) (a : R) (ha : 0 < a)
    (fuel : ℕ) :
    SVD.construct sqrt eps (fuel+1) (Mat.ofRows 1 [[a]]) true true =
      some ⟨1, Mat.ofRows 1 [[a]], [|a|], ⟨1, 1, [[1]]⟩, ⟨1, 1, [[1]]⟩⟩ := by
  have hinit : SVD.init sqrt (Mat.ofRows 1 [[a]]) true true =
      ⟨Mat.ofRows 1 [[a]], [a], [0], [0], ⟨1, 1, [[1]]⟩, ⟨1, 1, [[1]]⟩⟩ := by
    simp [SVD.init, Mat.ofRows, forUp, forDown, finalSetup, generateU, generateV, Vec.zeros,
      Mat.zeros, Vec.set, Vec.get, Mat.get, Mat.set]
  have hle : |a| * eps ≤ |a| := mul_le_of_le_one_right (abs_nonneg a) heps
  have hrank : rankLoop ([|a|] : Vec R) (((1:ℕ) : R) * |a| * eps) 1 = some 1 := by
    simp [rankLoop, Vec.read, hle]
  have hdims : (Mat.ofRows 1 [[a]]).rows = 1 ∧ (Mat.ofRows 1 [[a]]).cols = 1 := ⟨rfl, rfl⟩
  have hstep : iterStep sqrt eps 1 1 0 true true ⟨[a], [0], ⟨1, 1, [[1]]⟩, ⟨1, 1, [[1]]⟩, 1, 0⟩
      = ⟨[|a|], [0], ⟨1, 1, [[1]]⟩, ⟨1, 1, [[1]]⟩, 0, 0⟩ := by
    simp [iterStep, classify, scanE, case4, order, forUp, Vec.get, Vec.set, Mat.get, Mat.set,
      not_le.mpr ha, abs_of_pos ha]
  unfold SVD.construct
  simp only [hinit, hdims.1, hdims.2]
  rw [show min 1 (1+1) = 1 from rfl, show (1:ℕ) - 1 = 0 from rfl,
    mainLoop_succ _ _ _ _ _ _ _ _ _ (by simp), hstep, mainLoop_p_zero _ _ _ _ _ _ _ _ _ rfl]
  simp only [List.length_singleton, Vec.get, List.getD_cons_zero]
  rw [show min 1 1 = 1 from rfl, hrank]

/-- C10: for every `a` (and `eps ≤ 1`, as for every machine epsilon), the
constructor on `[[a]]` finishes after one pass of the main loop with
`S = [|a|]`, `U = [[1]]`, `V = [[v]]` where `v` is `1` or `-1` and
`1·|a|·v = a`, and `rank = 1`. -/
theorem svd_1x1 (sqrt : R → R) (eps : R) (heps : eps ≤ 1) (a : R) (fuel : ℕ) :
    ∃ v : R, (v = 1 ∨ v = -1) ∧ 1 * |a| * v = a ∧
      SVD.construct sqrt eps (fuel+1) (Mat.ofRows 1 [[a]]) true true =
        some ⟨1, Mat.ofRows 1 [[a]], [|a|], ⟨1, 1, [[1]]⟩, ⟨1, 1, [[v]]⟩⟩ := by
  rcases le_or_lt a 0 with ha | ha
  · refine ⟨-1, Or.inr rfl, ?_, construct_1x1_nonpos sqrt eps heps a ha fuel⟩
    rw [abs_of_nonpos ha]; ring
  · refine ⟨1, Or.inl rfl, ?_, construct_1x1_pos sqrt eps heps a ha fuel⟩
    rw [abs_of_pos ha]; ring

/-- Witness for `svd_1x1`: the matrix `[[5]]` with `eps = 2^-52`. -/
theorem svd_1x1_witness :
    ∃ v : ℚ, (v = 1 ∨ v = -1) ∧ 1 * |(5:ℚ)| * v = 5 ∧
      SVD.construct qsqrt qeps (0+1) (Mat.ofRows 1 [[5]]) true true =
        some ⟨1, Mat.ofRows 1 [[5]], [|(5:ℚ)|], ⟨1, 1, [[1]]⟩, ⟨1, 1, [[v]]⟩⟩ :=
  svd_1x1 qsqrt qeps (by decide!) 5 0

/-! ### Ordering and sign of the singular values -/

theorem Vec.SameFrom.refl (p : ℕ) (s : Vec R) : Vec.SameFrom p s s := ⟨rfl, fun _ _ => rfl⟩

theorem Vec.SameFrom.trans {p : ℕ} {s s' s'' : Vec R} (h1 : Vec.SameFrom p s s')
    (h2 : Vec.SameFrom p s' s'') : Vec.SameFrom p s s'' :=
  ⟨h2.1.trans h1.1, fun i hi => (h2.2 i hi).trans (h1.2 i hi)⟩

theorem Vec.SameFrom.set {p : ℕ} {s s' : Vec R} (h : Vec.SameFrom p s s') (j : ℕ) (x : R)
    (hj : j < p) : Vec.SameFrom p s (s'.set j x) :=
  ⟨by rw [Vec.length_set]; exact h.1, fun i hi => by
    rw [Vec.get_set_ne _ _ _ _ (by omega)]; exact h.2 i hi⟩

theorem Vec.TailSorted.of_sameFrom {L p : ℕ} {s s' : Vec R} (h : Vec.TailSorted L p s)
    (h2 : Vec.SameFrom p s s') : Vec.TailSorted L p s' :=
  ⟨h2.1.trans h.1, fun i j hi hij hj => by
    rw [h2.2 i hi, h2.2 j (by omega)]; exact h.2.1 i j hi hij hj,
   fun i hi hiL => by rw [h2.2 i hi]; exact h.2.2 i hi hiL⟩

theorem scanS_le (eps : R) (s e : Vec R) (p k1 a : ℕ) : scanS eps s e p k1 a ≤ a := by
  induction a with
  | zero => simp [scanS]
  | succ n ih =>
    rw [scanS]
    by_cases h1 : n + 1 = k1
    · rw [if_pos h1]
    · rw [if_neg h1]
      simp only []
      split_ifs <;> omega

theorem classify_s (eps : R) (p : ℕ) (hp : 1 ≤ p) (s e : Vec R) :
    Vec.SameFrom p s (classify eps p s e).2.2.1 := by
  unfold classify
  simp only []
  split_ifs
  all_goals first
    | exact Vec.SameFrom.refl p s
    | exact (Vec.SameFrom.refl p s).set _ _
        (lt_of_le_of_lt (Nat.sub_le_sub_right (scanS_le _ _ _ _ _ _) 1) (by omega))

theorem classify_kase4 (eps : R) (p : ℕ) (s e : Vec R)
    (h1 : (classify eps p s e).1 ≠ 1) (h2 : (classify eps p s e).1 ≠ 2)
    (h3 : (classify eps p s e).1 ≠ 3) : (classify eps p s e).2.1 = p - 1 := by
  unfold classify at h1 h2 h3 ⊢
  simp only [] at h1 h2 h3 ⊢
  split_ifs at h1 h2 h3 ⊢ <;> simp_all

theorem case1_s (sqrt : R → R) (n : ℕ) (wantv : Bool) (p k : ℕ) (hp : 1 ≤ p) (st : Iter R) :
    Vec.SameFrom p st.s (case1 sqrt n wantv p k st).s ∧ (case1 sqrt n wantv p k st).p = st.p := by
  unfold case1
  refine ⟨?_, rfl⟩
  simp only []
  apply forDown_pres (fun c : Chase R => Vec.SameFrom p st.s c.s)
  · exact Vec.SameFrom.refl p _
  · intro j c hj1 hj2 hc
    dsimp only
    split_ifs <;> exact hc.set _ _ (by omega)

theorem case2_s (sqrt : R → R) (m : ℕ) (wantu : Bool) (p k : ℕ) (st : Iter R) :
    Vec.SameFrom p st.s (case2 sqrt m wantu p k st).s ∧ (case2 sqrt m wantu p k st).p = st.p := by
  unfold case2
  refine ⟨?_, rfl⟩
  simp only []
  apply forUp_pres (fun c : Chase R => Vec.SameFrom p st.s c.s)
  · exact Vec.SameFrom.refl p _
  · intro j c hj1 hj2 hc
    dsimp only
    split_ifs <;> exact hc.set _ _ (by omega)

theorem chaseStep_s (sqrt : R → R) (m n : ℕ) (wantu wantv : Bool) (k j p : ℕ) (hj : j + 1 < p)
    (s0 : Vec R) (c : Chase R) (hc : Vec.SameFrom p s0 c.s) :
    Vec.SameFrom p s0 (chaseStep sqrt m n wantu wantv k j c).s := by
  unfold chaseStep
  simp only []
  split_ifs <;>
    exact ((hc.set _ _ (by omega)).set _ _ (by omega)).set _ _ (by omega)

theorem case3_s (sqrt : R → R) (m n : ℕ) (wantu wantv : Bool) (p k : ℕ) (st : Iter R) :
    Vec.SameFrom p st.s (case3 sqrt m n wantu wantv p k st).s ∧
      (case3 sqrt m n wantu wantv p k st).p = st.p := by
  unfold case3
  refine ⟨?_, rfl⟩
  simp only []
  apply forUp_pres (fun c : Chase R => Vec.SameFrom p st.s c.s)
  · exact Vec.SameFrom.refl p _
  · intro j c hj1 hj2 hc
    exact chaseStep_s sqrt m n wantu wantv k j p (by omega) st.s c hc

theorem orderSwap_fields (m n : ℕ) (wantu wantv : Bool) (k : ℕ) (st : Iter R) :
    (orderSwap m n wantu wantv k st).s = (st.s.set k (st.s.get (k+1))).set (k+1) (st.s.get k) ∧
      (orderSwap m n wantu wantv k st).p = st.p ∧ (orderSwap m n wantu wantv k st).e = st.e := by
  unfold orderSwap
  dsimp only
  split_ifs <;> exact ⟨rfl, rfl, rfl⟩

theorem order_s (m n : ℕ) (wantu wantv : Bool) (L k0 : ℕ) :
    ∀ (d k : ℕ) (st : Iter R), d = L - 1 - k → Vec.InsInv L k0 k st.s →
      Vec.TailSorted L k0 (order m n wantu wantv d k st).s ∧
        (order m n wantu wantv d k st).p = st.p := by
  intro d
  induction d with
  | zero =>
    intro k st hd ⟨hlen, hk0, hkL, hnn, hsort, hbef⟩
    refine ⟨⟨hlen, ?_, hnn⟩, rfl⟩
    intro i j hi hij hj
    by_cases hjk : j = k
    · subst hjk
      rcases Nat.eq_or_lt_of_le hij with h | h
      · subst h; exact le_refl _
      · exact hbef i hi h
    · by_cases hik : i = k
      · omega
      · exact hsort i j hi hij hj hik hjk
  | succ d ih =>
    intro k st hd ⟨hlen, hk0, hkL, hnn, hsort, hbef⟩
    rw [order]
    by_cases hge : st.s.get k ≥ st.s.get (k+1)
    · rw [if_pos hge]
      refine ⟨⟨hlen, ?_, hnn⟩, rfl⟩
      intro i j hi hij hj
      by_cases hjk : j = k
      · subst hjk
        rcases Nat.eq_or_lt_of_le hij with h | h
        · subst h; exact le_refl _
        · exact hbef i hi h
      · by_cases hik : i = k
        · subst hik
          by_cases hj1 : j = i + 1
          · subst hj1; exact hge
          · exact le_trans (hsort (i+1) j (by omega) (by omega) hj (by omega) hjk) hge
        · exact hsort i j hi hij hj hik hjk
    · rw [if_neg hge]
      have hlt : st.s.get k < st.s.get (k+1) := not_le.mp hge
      have hk1 : k + 1 < st.s.length := by omega
      have hkl : k < st.s.length := by omega
      have hget : ∀ i, ((st.s.set k (st.s.get (k+1))).set (k+1) (st.s.get k)).get i =
          if i = k + 1 then st.s.get k else if i = k then st.s.get (k+1) else st.s.get i := by
        intro i
        rw [Vec.get_set, Vec.get_set, Vec.length_set]
        by_cases h1 : i = k + 1
        · subst h1; simp [hk1]
        · by_cases h2 : i = k
          · subst h2; simp [hkl]
          · simp [h1, h2, Ne.symm h1, Ne.symm h2]
      have hinv : Vec.InsInv L k0 (k+1)
          ((st.s.set k (st.s.get (k+1))).set (k+1) (st.s.get k)) := by
        refine ⟨by rw [Vec.length_set, Vec.length_set]; exact hlen, by omega, by omega, ?_, ?_, ?_⟩
        · intro i hi hiL
          rw [hget]
          split_ifs
          · exact hnn k hk0 hkL
          · exact hnn (k+1) (by omega) (by omega)
          · exact hnn i hi hiL
        · intro i j hi hij hj hik hjk
          rw [hget, hget, if_neg hik, if_neg hjk]
          by_cases hjk2 : j = k
          · subst hjk2
            rw [if_pos rfl]
            by_cases hik2 : i = j
            · rw [if_pos hik2]
            · rw [if_neg hik2]
              exact hsort i (j+1) hi (by omega) (by omega) hik2 (by omega)
          · rw [if_neg hjk2]
            by_cases hik2 : i = k
            · subst hik2
              rw [if_pos rfl]
              exact hsort (i+1) j (by omega) (by omega) hj (by omega) hjk2
            · rw [if_neg hik2]
              exact hsort i j hi hij hj hik2 hjk2
        · intro i hi hik
          rw [hget, hget, if_pos rfl]
          have hne : i ≠ k + 1 := by omega
          rw [if_neg hne]
          by_cases hik2 : i = k
          · rw [if_pos hik2]; exact le_of_lt hlt
          · rw [if_neg hik2]; exact hbef i hi (by omega)
      have hsw := orderSwap_fields m n wantu wantv k st
      have := ih (k+1) (orderSwap m n wantu wantv k st) (by omega) (by rw [hsw.1]; exact hinv)
      exact ⟨this.1, this.2.trans hsw.2.1⟩

theorem case4_s (m n : ℕ) (wantu wantv : Bool) (L : ℕ) (st : Iter R) (hp : 1 ≤ st.p)
    (hpL : st.p ≤ L) (h : Vec.TailSorted L st.p st.s) :
    Vec.TailSorted L (st.p - 1) (case4 m n (L-1) wantu wantv (st.p - 1) st).s ∧
      (case4 m n (L-1) wantu wantv (st.p - 1) st).p = st.p - 1 := by
  obtain ⟨hlen, hsort, hnn⟩ := h
  unfold case4
  dsimp only
  -- the state after the sign fix
  have key : ∀ st1 : Iter R, st1.p = st.p → Vec.SameFrom st.p st.s st1.s →
      0 ≤ st1.s.get (st.p - 1) →
      Vec.TailSorted L (st.p - 1) (order m n wantu wantv (L - 1 - (st.p - 1)) (st.p - 1) st1).s ∧
        (order m n wantu wantv (L - 1 - (st.p - 1)) (st.p - 1) st1).p - 1 = st.p - 1 := by
    intro st1 hp1 hsame h0
    have hinv : Vec.InsInv L (st.p - 1) (st.p - 1) st1.s := by
      refine ⟨hsame.1.trans hlen, le_refl _, by omega, ?_, ?_, ?_⟩
      · intro i hi hiL
        rcases Nat.eq_or_lt_of_le hi with h | h
        · rw [← h]; exact h0
        · rw [hsame.2 i (by omega)]; exact hnn i (by omega) hiL
      · intro i j hi hij hj hik hjk
        rw [hsame.2 i (by omega), hsame.2 j (by omega)]
        exact hsort i j (by omega) hij hj
      · intro i hi hik
        omega
    have := order_s m n wantu wantv L (st.p - 1) (L - 1 - (st.p - 1)) (st.p - 1) st1 rfl hinv
    exact ⟨this.1, by rw [this.2, hp1]⟩
  by_cases hle : st.s.get (st.p - 1) ≤ 0
  · rw [if_pos hle]
    have hv : 0 ≤ (if st.s.get (st.p - 1) < 0 then -(st.s.get (st.p - 1)) else 0) := by
      split_ifs with h
      · exact le_of_lt (neg_pos.mpr h)
      · exact le_refl _
    have hsame : Vec.SameFrom st.p st.s (st.s.set (st.p - 1)
        (if st.s.get (st.p - 1) < 0 then -(st.s.get (st.p - 1)) else 0)) :=
      (Vec.SameFrom.refl _ _).set _ _ (by omega)
    have hg : (st.s.set (st.p - 1)
        (if st.s.get (st.p - 1) < 0 then -(st.s.get (st.p - 1)) else 0)).get (st.p - 1) =
        (if st.s.get (st.p - 1) < 0 then -(st.s.get (st.p - 1)) else 0) :=
      Vec.get_set_self _ _ _ (by omega)
    cases wantv
    · refine key _ rfl hsame ?_
      show 0 ≤ Vec.get (Vec.set st.s _ _) _
      rw [hg]; exact hv
    · refine key _ rfl hsame ?_
      show 0 ≤ Vec.get (Vec.set st.s _ _) _
      rw [hg]; exact hv
  · rw [if_neg hle]
    exact key st rfl (Vec.SameFrom.refl _ _) (le_of_lt (not_le.mp hle))

/-- One pass of the main loop keeps the tail invariant and lowers `p` by at
most one. -/
theorem iterStep_tailSorted (sqrt : R → R) (eps : R) (m n L : ℕ) (wantu wantv : Bool)
    (st : Iter R) (hp : st.p ≠ 0) (hpL : st.p ≤ L) (h : Vec.TailSorted L st.p st.s) :
    Vec.TailSorted L (iterStep sqrt eps m n (L-1) wantu wantv st).p
        (iterStep sqrt eps m n (L-1) wantu wantv st).s ∧
      (iterStep sqrt eps m n (L-1) wantu wantv st).p ≤ L := by
  have hp1 : 1 ≤ st.p := Nat.one_le_iff_ne_zero.mpr hp
  have hcl := classify_s eps st.p hp1 st.s st.e
  have h' : Vec.TailSorted L st.p (classify eps st.p st.s st.e).2.2.1 := h.of_sameFrom hcl
  unfold iterStep
  dsimp only
  by_cases h1 : (classify eps st.p st.s st.e).1 = 1
  · rw [if_pos h1]
    have := case1_s sqrt n wantv st.p (classify eps st.p st.s st.e).2.1 hp1
      { st with s := (classify eps st.p st.s st.e).2.2.1, e := (classify eps st.p st.s st.e).2.2.2 }
    rw [this.2]
    exact ⟨h'.of_sameFrom this.1, hpL⟩
  · rw [if_neg h1]
    by_cases h2 : (classify eps st.p st.s st.e).1 = 2
    · rw [if_pos h2]
      have := case2_s sqrt m wantu st.p (classify eps st.p st.s st.e).2.1
        { st with s := (classify eps st.p st.s st.e).2.2.1, e := (classify eps st.p st.s st.e).2.2.2 }
      rw [this.2]
      exact ⟨h'.of_sameFrom this.1, hpL⟩
    · rw [if_neg h2]
      by_cases h3 : (classify eps st.p st.s st.e).1 = 3
      · rw [if_pos h3]
        have := case3_s sqrt m n wantu wantv st.p (classify eps st.p st.s st.e).2.1
          { st with s := (classify eps st.p st.s st.e).2.2.1,
                    e := (classify eps st.p st.s st.e).2.2.2 }
        rw [this.2]
        exact ⟨h'.of_sameFrom this.1, hpL⟩
      · rw [if_neg h3, classify_kase4 eps st.p st.s st.e h1 h2 h3]
        have := case4_s m n wantu wantv L
          { st with s := (classify eps st.p st.s st.e).2.2.1,
                    e := (classify eps st.p st.s st.e).2.2.2 } hp1 hpL h'
        rw [this.2]
        exact ⟨this.1, by show st.p - 1 ≤ L; omega⟩

theorem mainLoop_tailSorted (sqrt : R → R) (eps : R) (m n L : ℕ) (wantu wantv : Bool) :
    ∀ (fuel : ℕ) (st st' : Iter R), st.p ≤ L → Vec.TailSorted L st.p st.s →
      mainLoop sqrt eps m n (L-1) wantu wantv fuel st = some st' →
      Vec.TailSorted L 0 st'.s := by
  intro fuel
  induction fuel with
  | zero =>
    intro st st' hpL h hrun
    unfold mainLoop at hrun
    by_cases hp : st.p = 0
    · rw [if_pos hp] at hrun
      cases hrun
      rw [← hp]; exact h
    · rw [if_neg hp] at hrun
      cases hrun
  | succ f ih =>
    intro st st' hpL h hrun
    unfold mainLoop at hrun
    by_cases hp : st.p = 0
    · rw [if_pos hp] at hrun
      cases hrun
      rw [← hp]; exact h
    · rw [if_neg hp] at hrun
      have := iterStep_tailSorted sqrt eps m n L wantu wantv st hp hpL h
      exact ih _ _ this.2 this.1 hrun

theorem forUp_set_length (lo hi k : ℕ) (f : ℕ → Vec R → R) (s : Vec R) :
    (forUp lo hi (fun i s => s.set k (f i s)) s).length = s.length :=
  forUp_pres (fun v : Vec R => v.length = s.length) lo hi _ s rfl
    (fun i v _ _ hv => by
      show (Vec.set v _ _).length = _
      rw [Vec.length_set]; exact hv)

theorem colTransform_s_length (sqrt : R → R) (m k : ℕ) (st : Bidiag R) :
    (colTransform sqrt m k st).s.length = st.s.length := by
  unfold colTransform
  dsimp only
  split_ifs <;> simp [forUp_set_length, Vec.length_set]

theorem applyCol_s_length (m nct k j : ℕ) (st : Bidiag R) :
    (applyCol m nct k j st).s.length = st.s.length := by
  unfold applyCol
  dsimp only
  split_ifs <;> rfl

theorem rowTransform_s_length (sqrt : R → R) (m n k : ℕ) (wantv : Bool) (st : Bidiag R) :
    (rowTransform sqrt m n k wantv st).s.length = st.s.length := by
  unfold rowTransform
  dsimp only
  split_ifs <;> rfl

theorem forUp_s_length (lo hi : ℕ) (body : ℕ → Bidiag R → Bidiag R) (st : Bidiag R)
    (hbody : ∀ i b, (body i b).s.length = b.s.length) :
    (forUp lo hi body st).s.length = st.s.length :=
  forUp_pres (fun b : Bidiag R => b.s.length = st.s.length) lo hi body st rfl
    (fun i b _ _ hb => (hbody i b).trans hb)

theorem bidiagStep_s_length (sqrt : R → R) (m n nct nrt : ℕ) (wantu wantv : Bool) (k : ℕ)
    (st : Bidiag R) :
    (bidiagStep sqrt m n nct nrt wantu wantv k st).s.length = st.s.length := by
  unfold bidiagStep
  dsimp only
  split_ifs <;>
    simp [forUp_s_length, rowTransform_s_length, applyCol_s_length, colTransform_s_length]

theorem finalSetup_s_length (m n nct nrt : ℕ) (st : Bidiag R) :
    (finalSetup m n nct nrt st).s.length = st.s.length := by
  unfold finalSetup
  dsimp only
  split_ifs <;> simp [Vec.length_set]

theorem init_s_length (sqrt : R → R) (A : Mat R) (wantu wantv : Bool) :
    (SVD.init sqrt A wantu wantv).s.length = min (A.rows + 1) A.cols := by
  unfold SVD.init
  dsimp only
  split_ifs <;>
    simp [forUp_s_length, finalSetup_s_length, bidiagStep_s_length, Vec.length_zeros]

/-- C2: whenever the constructor finishes on an `M×N` input (`M, N ≥ 1`), the
vector of singular values has `min(M+1,N)` entries, and they satisfy
`S(0) ≥ S(1) ≥ … ≥ S(last) ≥ 0`. -/
theorem singular_values_sorted (sqrt : R → R) (eps : R) (fuel : ℕ) (A : Mat R)
    (wantu wantv : Bool) (d : SVD R) (_hm : 1 ≤ A.rows) (_hn : 1 ≤ A.cols)
    (h : SVD.construct sqrt eps fuel A wantu wantv = some d) :
    d.singularValues.length = min (A.rows + 1) A.cols ∧
      (∀ i j, i ≤ j → j < d.singularValues.length →
        d.singularValues.get j ≤ d.singularValues.get i) ∧
      ∀ i, i < d.singularValues.length → 0 ≤ d.singularValues.get i := by
  unfold SVD.construct at h
  dsimp only at h
  split at h
  · cases h
  · rename_i st hrun
    split at h
    · cases h
    · rename_i r hr
      cases h
      have hL : min A.cols (A.rows + 1) = min (A.rows + 1) A.cols := min_comm _ _
      have h0 : Vec.TailSorted (min A.cols (A.rows + 1)) (min A.cols (A.rows + 1))
          (SVD.init sqrt A wantu wantv).s :=
        ⟨by rw [init_s_length, hL], fun i j hi hij hj => by omega, fun i hi hiL => by omega⟩
      have := mainLoop_tailSorted sqrt eps A.rows A.cols (min A.cols (A.rows + 1)) wantu wantv fuel
        _ st (le_refl _) h0 hrun
      obtain ⟨hlen, hsort, hnn⟩ := this
      show st.s.length = _ ∧ (∀ i j, i ≤ j → j < st.s.length → st.s.get j ≤ st.s.get i) ∧
        ∀ i, i < st.s.length → 0 ≤ st.s.get i
      rw [hlen]
      exact ⟨hL, fun i j hij hj => hsort i j (Nat.zero_le _) hij hj,
        fun i hi => hnn i (Nat.zero_le _) hi⟩

/-- Witness for `singular_values_sorted`: the 3×5 matrix `A35`, on which the
constructor finishes with `A35_svd`. -/
theorem singular_values_sorted_witness :
    SVD.construct qsqrt qeps 6 A35 true true = some A35_svd ∧
      A35_svd.singularValues.length = min (A35.rows + 1) A35.cols ∧
      (∀ i j, i ≤ j → j < A35_svd.singularValues.length →
        A35_svd.singularValues.get j ≤ A35_svd.singularValues.get i) ∧
      ∀ i, i < A35_svd.singularValues.length → 0 ≤ A35_svd.singularValues.get i :=
  ⟨by decide!,
    singular_values_sorted qsqrt qeps 6 A35 true true A35_svd (by decide) (by decide)
      (by decide!)⟩

/-! ### `solve` -/

theorem forUp_sum (m : ℕ) (f : ℕ → R) (a : R) :
    forUp 0 m (fun j acc => acc + f j) a = a + ∑ j in Finset.range m, f j := by
  induction m with
  | zero => simp [forUp]
  | succ k ih =>
    rw [forUp_succ _ _ _ _ (Nat.zero_le _), ih, Finset.sum_range_succ]
    ring

/-- First loop of `solve` (line 563): `x(k)` becomes `g k` for `k < r`. -/
theorem forUp_set_const (r : ℕ) (g : ℕ → R) (x : Vec R) (hr : r ≤ x.length) :
    (forUp 0 r (fun k x' => x'.set k (g k)) x).length = x.length ∧
      ∀ i, (forUp 0 r (fun k x' => x'.set k (g k)) x).get i = if i < r then g i else x.get i := by
  apply forUp_inv (fun k (y : Vec R) => y.length = x.length ∧
    ∀ i, y.get i = if i < k then g i else x.get i) 0 r _ x (Nat.zero_le _)
  · exact ⟨rfl, fun i => by simp⟩
  · intro k y _ hk ⟨hlen, hy⟩
    refine ⟨by rw [Vec.length_set]; exact hlen, fun i => ?_⟩
    rw [Vec.get_set]
    by_cases hik : k = i
    · subst hik
      have : k < y.length := by omega
      simp [this]
    · rw [if_neg (fun h => hik h.1), hy i]
      by_cases h1 : i < k
      · rw [if_pos h1, if_pos (by omega)]
      · rw [if_neg h1, if_neg (by omega)]

/-- Second loop of `solve` (lines 565–568). -/
theorem solve_loop2 (r : ℕ) (s x b : Vec R) (hx : r ≤ x.length) (hb : r ≤ b.length) :
    ∀ i, (forUp 0 r (fun k (xb : Vec R × Vec R) =>
          ((xb.1.set k 0), xb.2.set k (xb.1.get k / s.get k))) (x, b)).1.get i =
        (if i < r then 0 else x.get i) ∧
      (forUp 0 r (fun k (xb : Vec R × Vec R) =>
          ((xb.1.set k 0), xb.2.set k (xb.1.get k / s.get k))) (x, b)).2.get i =
        (if i < r then x.get i / s.get i else b.get i) := by
  have := forUp_inv (fun k (xb : Vec R × Vec R) => xb.1.length = x.length ∧
      xb.2.length = b.length ∧
      ∀ i, xb.1.get i = (if i < k then 0 else x.get i) ∧
        xb.2.get i = (if i < k then x.get i / s.get i else b.get i)) 0 r
    (fun k (xb : Vec R × Vec R) => ((xb.1.set k 0), xb.2.set k (xb.1.get k / s.get k))) (x, b)
    (Nat.zero_le _) ⟨rfl, rfl, fun i => by simp⟩
    (by
      intro k xb _ hk ⟨h1, h2, h3⟩
      refine ⟨by rw [Vec.length_set]; exact h1, by rw [Vec.length_set]; exact h2,
        fun i => ⟨?_, ?_⟩⟩
      · show (Vec.set xb.1 k 0).get i = _
        rw [Vec.get_set]
        by_cases hik : k = i
        · subst hik
          have hk1 : k < xb.1.length := by omega
          simp [hk1]
        · rw [if_neg (fun h => hik h.1), (h3 i).1]
          by_cases hlt : i < k
          · rw [if_pos hlt, if_pos (by omega)]
          · rw [if_neg hlt, if_neg (by omega)]
      · show (Vec.set xb.2 k (xb.1.get k / s.get k)).get i = _
        rw [Vec.get_set]
        by_cases hik : k = i
        · subst hik
          have hk2 : k < xb.2.length := by omega
          have := (h3 k).1
          simp only [lt_irrefl, if_false] at this
          simp [hk2, this]
        · rw [if_neg (fun h => hik h.1), (h3 i).2]
          by_cases hlt : i < k
          · rw [if_pos hlt, if_pos (by omega)]
          · rw [if_neg hlt, if_neg (by omega)])
  exact this.2.2

/-- Inner loop of the third loop of `solve` (lines 571–572). -/
theorem solve_loop3_inner (r i : ℕ) (f : ℕ → R) (x : Vec R) (hi : i < x.length) :
    (forUp 0 r (fun k (x : Vec R) => x.set i (x.get i + f k)) x).length = x.length ∧
      ∀ l, (forUp 0 r (fun k (x : Vec R) => x.set i (x.get i + f k)) x).get l =
        if l = i then x.get i + ∑ k in Finset.range r, f k else x.get l := by
  apply forUp_inv (fun k (y : Vec R) => y.length = x.length ∧
    ∀ l, y.get l = if l = i then x.get i + ∑ k' in Finset.range k, f k' else x.get l) 0 r _ x
    (Nat.zero_le _)
  · exact ⟨rfl, fun l => by split_ifs with h <;> simp [h]⟩
  · intro k y _ hk ⟨hlen, hy⟩
    refine ⟨by rw [Vec.length_set]; exact hlen, fun l => ?_⟩
    rw [Vec.get_set]
    by_cases hl : l = i
    · subst hl
      have : l < y.length := by omega
      rw [if_pos ⟨rfl, this⟩, if_pos rfl, hy l, if_pos rfl, Finset.sum_range_succ]
      ring
    · rw [if_neg (fun h => hl h.1.symm), hy l, if_neg hl, if_neg hl]

/-- Third loop of `solve` (lines 570–572). -/
theorem solve_loop3 (n r : ℕ) (f : ℕ → ℕ → R) (x : Vec R) (hn : n ≤ x.length) :
    ∀ l, (forUp 0 n (fun i (x : Vec R) =>
        forUp 0 r (fun k (x : Vec R) => x.set i (x.get i + f i k)) x) x).get l =
      if l < n then x.get l + ∑ k in Finset.range r, f l k else x.get l := by
  have := forUp_inv (fun i (y : Vec R) => y.length = x.length ∧
      ∀ l, y.get l = if l < i then x.get l + ∑ k in Finset.range r, f l k else x.get l) 0 n
    (fun i (x : Vec R) => forUp 0 r (fun k (x : Vec R) => x.set i (x.get i + f i k)) x) x
    (Nat.zero_le _) ⟨rfl, fun l => by simp⟩
    (by
      intro i y _ hi ⟨hlen, hy⟩
      have hin := solve_loop3_inner r i (f i) y (by omega)
      refine ⟨hin.1.trans hlen, fun l => ?_⟩
      rw [hin.2 l]
      by_cases hl : l = i
      · subst hl
        rw [if_pos rfl, if_pos (by omega), hy l, if_neg (lt_irrefl _)]
      · rw [if_neg hl, hy l]
        by_cases hlt : l < i
        · rw [if_pos hlt, if_pos (by omega)]
        · rw [if_neg hlt, if_neg (by omega)])
  exact this.2

/-- What `solve` returns in `x`, for `x` of length `n` on entry:
`x(i) = x_in(i)·[i ≥ rank] + Σ_{k<rank} V(i,k)·(Σ_{j<m} b(j)·U(j,k)) / S(k)`. -/
theorem solve_x (d : SVD R) (x b : Vec R) (hx : x.length = d.m_A.cols)
    (hb : b.length = d.m_A.rows) (hr : d.m_rank ≤ min d.m_A.rows d.m_A.cols) (i : ℕ)
    (hi : i < d.m_A.cols) :
    (d.solve x b).1.get i = (if i < d.m_rank then 0 else x.get i) +
      ∑ k in Finset.range d.m_rank, d.m_V.get i k *
        ((∑ j in Finset.range d.m_A.rows, b.get j * d.m_U.get j k) / d.m_s.get k) := by
  have hrn : d.m_rank ≤ d.m_A.cols := le_trans hr (min_le_right _ _)
  have hrm : d.m_rank ≤ d.m_A.rows := le_trans hr (min_le_left _ _)
  unfold SVD.solve
  dsimp only
  have h1 := forUp_set_const d.m_rank
    (fun k => forUp 0 d.m_A.rows (fun j acc => acc + b.get j * d.m_U.get j k) 0) x (by omega)
  have h2 := solve_loop2 d.m_rank d.m_s _ b (by rw [h1.1]; omega) (by omega)
  have hlen2 : d.m_A.cols ≤ (forUp 0 d.m_rank (fun k (xb : Vec R × Vec R) =>
      ((xb.1.set k 0), xb.2.set k (xb.1.get k / d.m_s.get k)))
      (forUp 0 d.m_rank (fun k x' => x'.set k
        (forUp 0 d.m_A.rows (fun j acc => acc + b.get j * d.m_U.get j k) 0)) x, b)).1.length := by
    have : ∀ (r : ℕ) (xb : Vec R × Vec R), (forUp 0 r (fun k (xb : Vec R × Vec R) =>
        ((xb.1.set k 0), xb.2.set k (xb.1.get k / d.m_s.get k))) xb).1.length = xb.1.length := by
      intro r xb
      apply forUp_pres (fun y : Vec R × Vec R => y.1.length = xb.1.length)
      · rfl
      · intro k y _ _ hy
        show (Vec.set y.1 _ _).length = _
        rw [Vec.length_set]; exact hy
    rw [this, h1.1, hx]
  rw [solve_loop3 d.m_A.cols d.m_rank _ _ hlen2 i, if_pos hi, (h2 i).1, h1.2 i]
  congr 1
  · split_ifs <;> rfl
  · apply Finset.sum_congr rfl
    intro k hk
    have hk' : k < d.m_rank := Finset.mem_range.mp hk
    rw [(h2 k).2, if_pos hk', h1.2 k, if_pos hk']
    dsimp only
    rw [forUp_sum _ (fun j => b.get j * d.m_U.get j k) 0, zero_add]

/-- Contraction with an orthonormal family: for `k' < n`,
`Σ_{i<n'} M(i,k') · Σ_{k<r} M(i,k)·c(k)` is `c(k')` if `k' < r` and `0` otherwise. -/
theorem gram_contract (M : Mat R) (cnt r : ℕ) (hr : r ≤ cnt) (hM : M.Orthonormal cnt)
    (c : ℕ → R) (k' : ℕ) (hk' : k' < cnt) :
    ∑ i in Finset.range cnt, M.get i k' * ∑ k in Finset.range r, M.get i k * c k =
      if k' < r then c k' else 0 := by
  calc ∑ i in Finset.range cnt, M.get i k' * ∑ k in Finset.range r, M.get i k * c k
      = ∑ i in Finset.range cnt, ∑ k in Finset.range r, c k * (M.get i k' * M.get i k) := by
        apply Finset.sum_congr rfl
        intro i _
        rw [Finset.mul_sum]
        apply Finset.sum_congr rfl
        intro k _
        ring
    _ = ∑ k in Finset.range r, c k * ∑ i in Finset.range cnt, M.get i k' * M.get i k := by
        rw [Finset.sum_comm]
        apply Finset.sum_congr rfl
        intro k _
        rw [Finset.mul_sum]
    _ = ∑ k in Finset.range r, c k * (if k' = k then 1 else 0) := by
        apply Finset.sum_congr rfl
        intro k hk
        have hk2 : k < cnt := lt_of_lt_of_le (Finset.mem_range.mp hk) hr
        have := hM k' hk' k hk2
        unfold Mat.gram at this
        rw [this]
    _ = if k' < r then c k' else 0 := by
        simp only [mul_ite, mul_one, mul_zero]
        rw [Finset.sum_ite_eq]
        simp only [Finset.mem_range]

/-- C6: assume the stored factorisation satisfies `U'U = I`, `V'V = I`,
`A = U·diag(S)·V'`, `S(k) > 0` for `k < rank` and `S(k) = 0` for
`rank ≤ k < min(M,N)`.  Then for every `b` of length `M`, `solve` called with
`x = 0` returns `x` with `A'·(A·x − b) = 0`, and `x` is a combination of the
first `rank` columns of `V`. -/
theorem solve_least_squares (d : SVD R) (A : Mat R) (b : Vec R)
    (hb : b.length = d.m_A.rows) (hr : d.m_rank ≤ min d.m_A.rows d.m_A.cols)
    (hU : d.m_U.Orthonormal d.m_A.rows) (hV : d.m_V.Orthonormal d.m_A.cols)
    (hA : ∀ i < d.m_A.rows, ∀ j < d.m_A.cols, A.get i j = d.recon i j)
    (hpos : ∀ k < d.m_rank, 0 < d.m_s.get k)
    (hzero : ∀ k, d.m_rank ≤ k → k < min d.m_A.rows d.m_A.cols → d.m_s.get k = 0) :
    (∀ j < d.m_A.cols, ∑ i in Finset.range d.m_A.rows, A.get i j *
        (∑ l in Finset.range d.m_A.cols,
          A.get i l * (d.solve (Vec.zeros d.m_A.cols) b).1.get l - b.get i) = 0) ∧
      ∃ c : ℕ → R, ∀ i < d.m_A.cols,
        (d.solve (Vec.zeros d.m_A.cols) b).1.get i =
          ∑ k in Finset.range d.m_rank, c k * d.m_V.get i k := by
  have hrn : d.m_rank ≤ d.m_A.cols := le_trans hr (min_le_right _ _)
  have hrm : d.m_rank ≤ d.m_A.rows := le_trans hr (min_le_left _ _)
  -- the coefficients
  have hx : ∀ i < d.m_A.cols, (d.solve (Vec.zeros d.m_A.cols) b).1.get i =
      ∑ k in Finset.range d.m_rank, d.m_V.get i k *
        ((∑ j in Finset.range d.m_A.rows, b.get j * d.m_U.get j k) / d.m_s.get k) := by
    intro i hi
    rw [solve_x d _ b (Vec.length_zeros _) hb hr i hi, Vec.get_zeros]
    simp
  refine ⟨?_, ⟨fun k => (∑ j in Finset.range d.m_A.rows, b.get j * d.m_U.get j k) / d.m_s.get k,
    fun i hi => by
      rw [hx i hi]
      apply Finset.sum_congr rfl
      intro k _
      ring⟩⟩
  -- A·x = Σ_{k<rank} U(:,k)·β(k)
  have hAx : ∀ i < d.m_A.rows, ∑ l in Finset.range d.m_A.cols,
      A.get i l * (d.solve (Vec.zeros d.m_A.cols) b).1.get l =
      ∑ k in Finset.range d.m_rank, d.m_U.get i k *
        (∑ j in Finset.range d.m_A.rows, b.get j * d.m_U.get j k) := by
    intro i hi
    calc ∑ l in Finset.range d.m_A.cols, A.get i l * (d.solve (Vec.zeros d.m_A.cols) b).1.get l
        = ∑ l in Finset.range d.m_A.cols,
            ∑ k in Finset.range (min d.m_A.rows d.m_A.cols), (d.m_U.get i k * d.m_s.get k) *
              (d.m_V.get l k * ∑ k' in Finset.range d.m_rank, d.m_V.get l k' *
                ((∑ j in Finset.range d.m_A.rows, b.get j * d.m_U.get j k') / d.m_s.get k')) := by
          apply Finset.sum_congr rfl
          intro l hl
          have hl' : l < d.m_A.cols := Finset.mem_range.mp hl
          rw [hA i hi l hl', hx l hl']
          unfold SVD.recon
          rw [Finset.sum_mul]
          apply Finset.sum_congr rfl
          intro k _
          ring
      _ = ∑ k in Finset.range (min d.m_A.rows d.m_A.cols), (d.m_U.get i k * d.m_s.get k) *
            ∑ l in Finset.range d.m_A.cols,
              d.m_V.get l k * ∑ k' in Finset.range d.m_rank, d.m_V.get l k' *
                ((∑ j in Finset.range d.m_A.rows, b.get j * d.m_U.get j k') / d.m_s.get k') := by
          rw [Finset.sum_comm]
          apply Finset.sum_congr rfl
          intro k _
          rw [Finset.mul_sum]
      _ = ∑ k in Finset.range (min d.m_A.rows d.m_A.cols), (d.m_U.get i k * d.m_s.get k) *
            (if k < d.m_rank then
              (∑ j in Finset.range d.m_A.rows, b.get j * d.m_U.get j k) / d.m_s.get k else 0) := by
          apply Finset.sum_congr rfl
          intro k hk
          have hk' : k < d.m_A.cols :=
            lt_of_lt_of_le (Finset.mem_range.mp hk) (min_le_right _ _)
          rw [gram_contract d.m_V d.m_A.cols d.m_rank hrn hV _ k hk']
      _ = ∑ k in Finset.range d.m_rank, d.m_U.get i k *
            (∑ j in Finset.range d.m_A.rows, b.get j * d.m_U.get j k) := by
          simp only [mul_ite, mul_zero]
          rw [← Finset.sum_filter]
          have : (Finset.range (min d.m_A.rows d.m_A.cols)).filter (fun k => k < d.m_rank) =
              Finset.range d.m_rank := by
            ext k
            simp only [Finset.mem_filter, Finset.mem_range]
            omega
          rw [this]
          apply Finset.sum_congr rfl
          intro k hk
          have := hpos k (Finset.mem_range.mp hk)
          field_simp
          ring
  intro j hj
  calc ∑ i in Finset.range d.m_A.rows, A.get i j *
        (∑ l in Finset.range d.m_A.cols,
          A.get i l * (d.solve (Vec.zeros d.m_A.cols) b).1.get l - b.get i)
      = ∑ i in Finset.range d.m_A.rows,
          ∑ k' in Finset.range (min d.m_A.rows d.m_A.cols), (d.m_s.get k' * d.m_V.get j k') *
            (d.m_U.get i k' * (∑ k in Finset.range d.m_rank, d.m_U.get i k *
              (∑ j' in Finset.range d.m_A.rows, b.get j' * d.m_U.get j' k))
              - b.get i * d.m_U.get i k') := by
        apply Finset.sum_congr rfl
        intro i hi
        have hi' : i < d.m_A.rows := Finset.mem_range.mp hi
        rw [hAx i hi', hA i hi' j hj]
        unfold SVD.recon
        rw [Finset.sum_mul]
        apply Finset.sum_congr rfl
        intro k _
        ring
    _ = ∑ k' in Finset.range (min d.m_A.rows d.m_A.cols), (d.m_s.get k' * d.m_V.get j k') *
          ((∑ i in Finset.range d.m_A.rows, d.m_U.get i k' *
              (∑ k in Finset.range d.m_rank, d.m_U.get i k *
                (∑ j' in Finset.range d.m_A.rows, b.get j' * d.m_U.get j' k)))
            - ∑ i in Finset.range d.m_A.rows, b.get i * d.m_U.get i k') := by
        rw [Finset.sum_comm]
        apply Finset.sum_congr rfl
        intro k _
        rw [← Finset.sum_sub_distrib, Finset.mul_sum]
    _ = ∑ k' in Finset.range (min d.m_A.rows d.m_A.cols), 0 := by
        apply Finset.sum_congr rfl
        intro k hk
        have hkq : k < min d.m_A.rows d.m_A.cols := Finset.mem_range.mp hk
        have hk' : k < d.m_A.rows := lt_of_lt_of_le hkq (min_le_left _ _)
        rw [gram_contract d.m_U d.m_A.rows d.m_rank hrm hU _ k hk']
        by_cases hkr : k < d.m_rank
        · rw [if_pos hkr, sub_self, mul_zero]
        · rw [hzero k (not_lt.mp hkr) hkq, zero_mul, zero_mul]
    _ = 0 := Finset.sum_const_zero

/-- Witness for `solve_least_squares`: the rank-1 system `A22·x = (5, 1)`. -/
theorem solve_least_squares_witness :
    SVD.construct qsqrt qeps 4 A22 true true = some A22_svd ∧
    ((∀ j < A22_svd.m_A.cols, ∑ i in Finset.range A22_svd.m_A.rows, A22.get i j *
        (∑ l in Finset.range A22_svd.m_A.cols,
          A22.get i l * (A22_svd.solve (Vec.zeros A22_svd.m_A.cols) [5, 1]).1.get l
            - Vec.get [5, 1] i) = 0) ∧
      ∃ c : ℕ → ℚ, ∀ i < A22_svd.m_A.cols,
        (A22_svd.solve (Vec.zeros A22_svd.m_A.cols) [5, 1]).1.get i =
          ∑ k in Finset.range A22_svd.m_rank, c k * A22_svd.m_V.get i k) :=
  ⟨by decide!,
    solve_least_squares A22_svd A22 [5, 1] (by decide!) (by decide!)
      (by
        intro i hi j hj
        have hi2 : i < 2 := hi
        have hj2 : j < 2 := hj
        interval_cases i <;> interval_cases j <;> decide!)
      (by
        intro i hi j hj
        have hi2 : i < 2 := hi
        have hj2 : j < 2 := hj
        interval_cases i <;> interval_cases j <;> decide!)
      (by
        intro i hi j hj
        have hi2 : i < 2 := hi
        have hj2 : j < 2 := hj
        interval_cases i <;> interval_cases j <;> decide!)
      (by
        intro k hk
        have hk2 : k < 1 := hk
        interval_cases k
        decide!)
      (by
        intro k hk1 hk2
        have h1 : 1 ≤ k := hk1
        have h2 : k < 2 := hk2
        interval_cases k
        decide!)⟩

/-! ### Matrices -/

theorem Mat.rows_set (A : Mat R) (i j : ℕ) (x : R) : (A.set i j x).rows = A.rows := rfl

theorem Mat.cols_set (A : Mat R) (i j : ℕ) (x : R) : (A.set i j x).cols = A.cols := rfl

theorem Mat.WF.set_entry {A : Mat R} (h : A.WF) (i j : ℕ) (x : R) : (A.set i j x).WF := by
  obtain ⟨h1, h2⟩ := h
  refine ⟨by simp [Mat.set, h1], ?_⟩
  intro r hr
  simp only [Mat.set] at hr ⊢
  by_cases hi : i < A.val.length
  · rcases List.mem_or_eq_of_mem_set hr with h | h
    · exact h2 r h
    · subst h
      rw [List.length_set, List.getD_eq_getElem _ _ hi]
      exact h2 _ (List.getElem_mem _)
  · rw [List.set_eq_of_length_le (by omega)] at hr
    exact h2 r hr

theorem Mat.entry_set (A : Mat R) (h : A.WF) (i j i' j' : ℕ) (x : R) :
    (A.set i j x).get i' j' =
      if i = i' ∧ j = j' ∧ i < A.rows ∧ j < A.cols then x else A.get i' j' := by
  obtain ⟨h1, h2⟩ := h
  unfold Mat.get Mat.set
  simp only
  by_cases hi : i = i'
  · subst hi
    by_cases hil : i < A.val.length
    · have hrow : (A.val.set i ((A.val.getD i []).set j x)).getD i [] =
          (A.val.getD i []).set j x := by
        rw [List.getD_eq_getElem?_getD, List.getElem?_set_self hil]; rfl
      rw [hrow]
      have hlen : (A.val.getD i []).length = A.cols := by
        rw [List.getD_eq_getElem _ _ hil]
        exact h2 _ (List.getElem_mem _)
      have := Vec.get_set (A.val.getD i []) j j' x
      unfold Vec.get Vec.set at this
      rw [this, hlen, ← h1]
      by_cases hj : j = j' <;> simp [hj, hil]
    · rw [List.set_eq_of_length_le (by omega)]
      rw [if_neg (by omega)]
  · rw [if_neg (fun h => hi h.1)]
    have : (A.val.set i ((A.val.getD i []).set j x)).getD i' [] = A.val.getD i' [] := by
      rw [List.getD_eq_getElem?_getD, List.getElem?_set_ne hi, ← List.getD_eq_getElem?_getD]
    rw [this]

theorem Mat.entry_set_self (A : Mat R) (h : A.WF) (i j : ℕ) (x : R) (hi : i < A.rows)
    (hj : j < A.cols) : (A.set i j x).get i j = x := by
  rw [Mat.entry_set A h, if_pos ⟨rfl, rfl, hi, hj⟩]

theorem Mat.entry_set_ne (A : Mat R) (h : A.WF) (i j i' j' : ℕ) (x : R)
    (hne : i ≠ i' ∨ j ≠ j') : (A.set i j x).get i' j' = A.get i' j' := by
  rw [Mat.entry_set A h, if_neg]
  rintro ⟨h1, h2, -⟩
  rcases hne with h | h
  · exact h h1
  · exact h h2

theorem Mat.entry_zeros (m n i j : ℕ) : (Mat.zeros m n : Mat R).get i j = 0 := by
  unfold Mat.get Mat.zeros
  simp only
  by_cases hi : i < m
  · have : (List.replicate m (List.replicate n (0:R))).getD i [] = List.replicate n 0 := by
      rw [List.getD_eq_getElem?_getD, List.getElem?_replicate, if_pos hi]; rfl
    rw [this, List.getD_eq_getElem?_getD, List.getElem?_replicate]
    split <;> rfl
  · have : (List.replicate m (List.replicate n (0:R))).getD i [] = [] := by
      rw [List.getD_eq_getElem?_getD, List.getElem?_replicate, if_neg hi]; rfl
    rw [this]; rfl

theorem Mat.WF_zeros (m n : ℕ) : (Mat.zeros m n : Mat R).WF := by
  refine ⟨by simp [Mat.zeros], ?_⟩
  intro r hr
  simp only [Mat.zeros] at hr
  rw [List.eq_of_mem_replicate hr]
  simp [Mat.zeros]

theorem Mat.get_of_rows_le (A : Mat R) (h : A.WF) (i j : ℕ) (hi : A.rows ≤ i) :
    A.get i j = 0 := by
  unfold Mat.get
  have : A.val.getD i [] = [] := by
    rw [List.getD_eq_getElem?_getD, List.getElem?_eq_none (by rw [h.1]; exact hi)]; rfl
  rw [this]; rfl

theorem Mat.get_of_cols_le (A : Mat R) (h : A.WF) (i j : ℕ) (hj : A.cols ≤ j) :
    A.get i j = 0 := by
  by_cases hi : i < A.rows
  · unfold Mat.get
    have hil : i < A.val.length := by rw [h.1]; exact hi
    have hlen : (A.val.getD i []).length = A.cols := by
      rw [List.getD_eq_getElem _ _ hil]
      exact h.2 _ (List.getElem_mem _)
    rw [List.getD_eq_getElem?_getD, List.getElem?_eq_none (by rw [hlen]; exact hj)]; rfl
  · exact Mat.get_of_rows_le A h i j (by omega)

/-! ### Diagonal input -/

theorem hypot_zero_left (sqrt : R → R) (b : R) : hypot sqrt 0 b = |b| := by
  simp [hypot]

theorem hypot_zero_right (sqrt : R → R) (hs1 : sqrt 1 = 1) (a : R) : hypot sqrt a 0 = |a| := by
  unfold hypot
  by_cases ha : a = 0
  · simp [ha]
  · have : |a| > |(0:R)| := by simpa using ha
    rw [if_neg ha, if_pos this]
    simp [hs1]

/-- The norm loop of `colTransform` on a column whose entries below the
diagonal are zero. -/
theorem colNorm_diag (sqrt : R → R) (hs1 : sqrt 1 = 1) (A : Mat R) (s : Vec R) (k m : ℕ)
    (hk : k < s.length) (hm : k < m) (h0 : s.get k = 0) (hcol : ∀ i, k < i → A.get i k = 0) :
    (forUp k m (fun i s => s.set k (hypot sqrt (s.get k) (A.get i k))) s).length = s.length ∧
      (∀ j, j ≠ k →
        (forUp k m (fun i s => s.set k (hypot sqrt (s.get k) (A.get i k))) s).get j = s.get j) ∧
      (forUp k m (fun i s => s.set k (hypot sqrt (s.get k) (A.get i k))) s).get k
        = |A.get k k| := by
  have := forUp_inv (fun i (v : Vec R) => v.length = s.length ∧
      (∀ j, j ≠ k → v.get j = s.get j) ∧ v.get k = if i = k then 0 else |A.get k k|) k m
    (fun i s => s.set k (hypot sqrt (s.get k) (A.get i k))) s (le_of_lt hm)
    ⟨rfl, fun _ _ => rfl, by rw [if_pos rfl, h0]⟩
    (by
      intro i v hki him ⟨h1, h2, h3⟩
      refine ⟨by rw [Vec.length_set]; exact h1, fun j hj => ?_, ?_⟩
      · rw [Vec.get_set_ne _ _ _ _ (Ne.symm hj)]; exact h2 j hj
      · rw [Vec.get_set_self _ _ _ (by omega), if_neg (by omega), h3]
        by_cases hik : i = k
        · subst hik
          rw [if_pos rfl, hypot_zero_left]
        · rw [if_neg hik, hcol i (by omega), hypot_zero_right sqrt hs1, abs_abs])
  refine ⟨this.1, this.2.1, ?_⟩
  rw [this.2.2, if_neg (by omega)]

/-- Writing into column `c` over the rows `lo .. hi-1` values that may depend
on the overwritten entry and on the entry of another column `c2` of the same
row. -/
theorem forUp_col2 (A : Mat R) (hA : A.WF) (lo hi c c2 : ℕ) (f : ℕ → R → R → R)
    (hhi : hi ≤ A.rows) (hc : c < A.cols) (hcc : c2 ≠ c) :
    (forUp lo hi (fun i A => A.set i c (f i (A.get i c) (A.get i c2))) A).WF ∧
      (forUp lo hi (fun i A => A.set i c (f i (A.get i c) (A.get i c2))) A).rows = A.rows ∧
      (forUp lo hi (fun i A => A.set i c (f i (A.get i c) (A.get i c2))) A).cols = A.cols ∧
      ∀ i j, (forUp lo hi (fun i A => A.set i c (f i (A.get i c) (A.get i c2))) A).get i j =
        if j = c ∧ lo ≤ i ∧ i < hi then f i (A.get i c) (A.get i c2) else A.get i j := by
  rcases Nat.lt_or_ge hi lo with hlt | hge
  · rw [forUp_eq_self _ _ _ _ (le_of_lt hlt)]
    refine ⟨hA, rfl, rfl, fun i j => ?_⟩
    rw [if_neg (by omega)]
  · have := forUp_inv (fun t (B : Mat R) => B.WF ∧ B.rows = A.rows ∧ B.cols = A.cols ∧
        ∀ i j, B.get i j =
          if j = c ∧ lo ≤ i ∧ i < t then f i (A.get i c) (A.get i c2) else A.get i j) lo hi
      (fun i A => A.set i c (f i (A.get i c) (A.get i c2))) A hge
      ⟨hA, rfl, rfl, fun i j => by rw [if_neg (by omega)]⟩
      (by
        intro t B hlo hthi ⟨h1, h2, h3, h4⟩
        refine ⟨h1.set_entry _ _ _, h2, h3, fun i j => ?_⟩
        rw [Mat.entry_set B h1]
        by_cases hij : t = i ∧ c = j
        · obtain ⟨rfl, rfl⟩ := hij
          rw [if_pos ⟨rfl, rfl, by omega, by omega⟩, if_pos ⟨rfl, hlo, by omega⟩, h4, h4,
            if_neg (by omega), if_neg (fun h => hcc h.1)]
        · rw [if_neg (fun h => hij ⟨h.1, h.2.1⟩), h4]
          by_cases hc1 : j = c ∧ lo ≤ i ∧ i < t
          · rw [if_pos hc1, if_pos ⟨hc1.1, hc1.2.1, by omega⟩]
          · rw [if_neg hc1, if_neg]
            rintro ⟨h5, h6, h7⟩
            apply hc1
            refine ⟨h5, h6, ?_⟩
            rcases Nat.lt_or_ge i t with h | h
            · exact h
            · exfalso; apply hij; constructor <;> omega)
    exact this

/-- Writing into column `c` over the rows `lo .. hi-1` values that may depend
on the overwritten entry. -/
theorem forUp_col (A : Mat R) (hA : A.WF) (lo hi c : ℕ) (f : ℕ → R → R)
    (hhi : hi ≤ A.rows) (hc : c < A.cols) :
    (forUp lo hi (fun i A => A.set i c (f i (A.get i c))) A).WF ∧
      (forUp lo hi (fun i A => A.set i c (f i (A.get i c))) A).rows = A.rows ∧
      (forUp lo hi (fun i A => A.set i c (f i (A.get i c))) A).cols = A.cols ∧
      ∀ i j, (forUp lo hi (fun i A => A.set i c (f i (A.get i c))) A).get i j =
        if j = c ∧ lo ≤ i ∧ i < hi then f i (A.get i c) else A.get i j :=
  forUp_col2 A hA lo hi c (c+1) (fun i x _ => f i x) hhi hc (by omega)

/-- Second half of the column transformation on a diagonal working copy, for a
non-zero diagonal value held in `sv(k)`. -/
theorem colTransform_diag_aux (N : ℕ) (d : ℕ → R) (k : ℕ) (hk : k < N) (st : Bidiag R)
    (h : DiagInv N d k st) (sv : Vec R) (hlen : sv.length = N) (hsvk : sv.get k = d k)
    (hsv : ∀ j, j < k → sv.get j = -d j) (hd : d k ≠ 0) :
    DiagInv N d (k+1)
      { st with
        A := (forUp k N (fun i A => A.set i k (A.get i k / sv.get k)) st.A).set k k
          ((forUp k N (fun i A => A.set i k (A.get i k / sv.get k)) st.A).get k k + 1),
        s := sv.set k (-(sv.get k)) } := by
  obtain ⟨hWF, hrows, hcols, hsl, hel, hoff, hdiag, hs, he⟩ := h
  have hcol := forUp_col st.A hWF k N k (fun _ x => x / sv.get k) (by omega) (by omega)
  obtain ⟨hW, hr, hc, hg⟩ := hcol
  refine ⟨hW.set_entry _ _ _, by rw [Mat.rows_set, hr, hrows], by rw [Mat.cols_set, hc, hcols],
    by rw [Vec.length_set, hlen], hel, ?_, ?_, ?_, he⟩
  · intro i j hij
    rw [Mat.entry_set_ne _ hW _ _ _ _ _ (by omega), hg]
    split_ifs with h1
    · show st.A.get i k / sv.get k = 0
      rw [hoff i k (by omega), zero_div]
    · exact hoff i j hij
  · intro j hj
    rw [Mat.entry_set_ne _ hW _ _ _ _ _ (by omega), hg, if_neg (by omega)]
    exact hdiag j (by omega)
  · intro j hj
    by_cases hjk : j = k
    · subst hjk
      rw [Vec.get_set_self _ _ _ (by omega), hsvk]
    · rw [Vec.get_set_ne _ _ _ _ (Ne.symm hjk)]
      exact hsv j (by omega)

/-- The column transformation on a diagonal working copy (`DiagInv`): the
diagonal value goes to `s(k)` with the sign changed, the copy stays diagonal. -/
theorem colTransform_diag (sqrt : R → R) (hs1 : sqrt 1 = 1) (N : ℕ) (d : ℕ → R) (k : ℕ)
    (hk : k < N) (st : Bidiag R) (h : DiagInv N d k st) :
    DiagInv N d (k+1) (colTransform sqrt N k st) := by
  obtain ⟨hWF, hrows, hcols, hsl, hel, hoff, hdiag, hs, he⟩ := h
  have hchain := colNorm_diag sqrt hs1 st.A (st.s.set k 0) k N
    (by rw [Vec.length_set]; omega) hk (Vec.get_set_self _ _ _ (by omega))
    (fun i hi => hoff i k (by omega))
  rw [Vec.length_set] at hchain
  obtain ⟨hc1, hc2, hc3⟩ := hchain
  rw [hdiag k (le_refl _)] at hc3
  unfold colTransform
  dsimp only
  by_cases hd : d k = 0
  · -- zero column: no transformation
    have hz : (forUp k N (fun i s => s.set k (hypot sqrt (s.get k) (st.A.get i k)))
        (st.s.set k 0)).get k = 0 := by rw [hc3, hd, abs_zero]
    rw [if_neg (by rw [hz]; simp)]
    refine ⟨hWF, hrows, hcols, by rw [Vec.length_set, hc1, hsl], hel, hoff,
      fun j hj => hdiag j (by omega), fun j hj => ?_, he⟩
    by_cases hjk : j = k
    · subst hjk
      rw [Vec.get_set_self _ _ _ (by rw [hc1]; omega), hz, hd, neg_zero]
    · rw [Vec.get_set_ne _ _ _ _ (Ne.symm hjk), hc2 j hjk, Vec.get_set_ne _ _ _ _ (Ne.symm hjk)]
      exact hs j (by omega)
  · have hnz : (forUp k N (fun i s => s.set k (hypot sqrt (s.get k) (st.A.get i k)))
        (st.s.set k 0)).get k ≠ 0 := by rw [hc3]; exact abs_ne_zero.mpr hd
    rw [if_pos hnz]
    generalize forUp k N (fun i s => s.set k (hypot sqrt (s.get k) (st.A.get i k)))
        (st.s.set k 0) = ch at hc1 hc2 hc3 hnz ⊢
    have hst : DiagInv N d k st := ⟨hWF, hrows, hcols, hsl, hel, hoff, hdiag, hs, he⟩
    by_cases hneg : st.A.get k k < 0
    · rw [if_pos hneg]
      have hdk : d k < 0 := by rw [← hdiag k (le_refl _)]; exact hneg
      exact colTransform_diag_aux N d k hk st hst (ch.set k (-(ch.get k)))
        (by rw [Vec.length_set, hc1, hsl])
        (by rw [Vec.get_set_self _ _ _ (by rw [hc1]; omega), hc3, abs_of_neg hdk, neg_neg])
        (fun j hj => by
          rw [Vec.get_set_ne _ _ _ _ (by omega), hc2 j (by omega),
            Vec.get_set_ne _ _ _ _ (by omega)]
          exact hs j hj) hd
    · rw [if_neg hneg]
      have hdk : 0 ≤ d k := by rw [← hdiag k (le_refl _)]; exact not_lt.mp hneg
      exact colTransform_diag_aux N d k hk st hst ch (by rw [hc1, hsl])
        (by rw [hc3, abs_of_nonneg hdk])
        (fun j hj => by
          rw [hc2 j (by omega), Vec.get_set_ne _ _ _ _ (by omega)]
          exact hs j hj) hd

theorem forUp_add_zero (lo hi : ℕ) (f : ℕ → R) (a : R)
    (hf : ∀ i, lo ≤ i → i < hi → f i = 0) : forUp lo hi (fun i t => t + f i) a = a :=
  forUp_pres (fun t : R => t = a) lo hi _ a rfl (fun i t h1 h2 ht => by
    show t + f i = a
    rw [ht, hf i h1 h2, add_zero])

/-- Applying the column transformation to a later column of a diagonal working
copy changes no entry; `e(j)` receives `0`. -/
theorem applyCol_diag (N nct : ℕ) (d : ℕ → R) (k j : ℕ) (hkj : k < j) (hj : j < N)
    (st : Bidiag R) (h : DiagInv N d (k+1) st) : DiagInv N d (k+1) (applyCol N nct k j st) := by
  obtain ⟨hWF, hrows, hcols, hsl, hel, hoff, hdiag, hs, he⟩ := h
  have hezero : ∀ (A : Mat R), A.get k j = 0 → ∀ i, (st.e.set j (A.get k j)).get i = 0 := by
    intro A hA i
    rw [hA, Vec.get_set]
    split_ifs
    · rfl
    · exact he i
  unfold applyCol
  dsimp only
  split_ifs with hc
  · have ht : forUp k N (fun i t => t + st.A.get i k * st.A.get i j) 0 = 0 :=
      forUp_add_zero k N _ 0 (fun i h1 h2 => by
        rcases Nat.eq_or_lt_of_le h1 with h | h
        · subst h
          rw [hoff k j (by omega), mul_zero]
        · rw [hoff i k (by omega), zero_mul])
    rw [ht, neg_zero, zero_div]
    have hcol := forUp_col2 st.A hWF k N j k (fun _ x y => x + 0 * y) (by omega) (by omega)
      (by omega)
    obtain ⟨hW, hr, hc2, hg⟩ := hcol
    have hg2 : ∀ i l, (forUp k N (fun i A => A.set i j (A.get i j + 0 * A.get i k)) st.A).get i l
        = st.A.get i l := by
      intro i l
      rw [hg]
      split_ifs with h1
      · show st.A.get i j + 0 * st.A.get i k = _
        rw [zero_mul, add_zero, h1.1]
      · rfl
    refine ⟨hW, by rw [hr, hrows], by rw [hc2, hcols], hsl, by rw [Vec.length_set]; exact hel,
      fun i l hil => by rw [hg2]; exact hoff i l hil,
      fun l hl => by rw [hg2]; exact hdiag l hl, hs, ?_⟩
    intro i
    rw [hg2]
    exact hezero st.A (hoff k j (by omega)) i
  · exact ⟨hWF, hrows, hcols, hsl, by rw [Vec.length_set]; exact hel, hoff, hdiag, hs,
      hezero st.A (hoff k j (by omega))⟩

/-- The row transformation on a diagonal working copy: `e` stays zero and
nothing else of `A`, `s`, `e` changes. -/
theorem rowTransform_diag (sqrt : R → R) (N : ℕ) (d : ℕ → R) (k k2 : ℕ) (wantv : Bool)
    (st : Bidiag R) (h : DiagInv N d k2 st) :
    DiagInv N d k2 (rowTransform sqrt N N k wantv st) := by
  obtain ⟨hWF, hrows, hcols, hsl, hel, hoff, hdiag, hs, he⟩ := h
  have hz0 : ∀ (v : Vec R) (i : ℕ), (∀ j, v.get j = 0) → ∀ j, (v.set i 0).get j = 0 := by
    intro v i hv j
    rw [Vec.get_set]
    split_ifs
    · rfl
    · exact hv j
  have hchain : (forUp (k+1) N (fun i e => e.set k (hypot sqrt (e.get k) (e.get i)))
        (st.e.set k 0)).length = N ∧
      ∀ j, (forUp (k+1) N (fun i e => e.set k (hypot sqrt (e.get k) (e.get i)))
        (st.e.set k 0)).get j = 0 := by
    apply forUp_pres (fun v : Vec R => v.length = N ∧ ∀ j, v.get j = 0)
    · exact ⟨by rw [Vec.length_set]; exact hel, hz0 _ _ he⟩
    · intro i v _ _ ⟨h1, h2⟩
      refine ⟨by show (Vec.set v _ _).length = N; rw [Vec.length_set]; exact h1, ?_⟩
      show ∀ j, (Vec.set v k (hypot sqrt (v.get k) (v.get i))).get j = 0
      rw [h2 k, h2 i, hypot_zero_left, abs_zero]
      exact hz0 v k h2
  unfold rowTransform
  dsimp only
  generalize forUp (k+1) N (fun i e => e.set k (hypot sqrt (e.get k) (e.get i)))
    (st.e.set k 0) = ch at hchain ⊢
  obtain ⟨hl, hzero⟩ := hchain
  rw [if_neg (show ¬ (ch.get k ≠ 0) by rw [hzero k]; simp)]
  have hk0 : (ch.set k (-(ch.get k))).get k = 0 := by
    have := hz0 ch k hzero k
    rw [hzero k, neg_zero]; exact this
  rw [if_neg (show ¬ (k + 1 < N ∧ (ch.set k (-(ch.get k))).get k ≠ 0) by rw [hk0]; simp)]
  have hfin : ∀ j, (ch.set k (-(ch.get k))).get j = 0 := by
    rw [hzero k, neg_zero]; exact hz0 ch k hzero
  have hlen : (ch.set k (-(ch.get k))).length = N := by rw [Vec.length_set]; exact hl
  cases wantv
  · exact ⟨hWF, hrows, hcols, hsl, hlen, hoff, hdiag, hs, hfin⟩
  · exact ⟨hWF, hrows, hcols, hsl, hlen, hoff, hdiag, hs, hfin⟩

theorem bidiagStep_diag (sqrt : R → R) (hs1 : sqrt 1 = 1) (N : ℕ) (d : ℕ → R) (k : ℕ)
    (hk : k + 1 < N) (nrt : ℕ) (wantu wantv : Bool) (st : Bidiag R) (h : DiagInv N d k st) :
    DiagInv N d (k+1) (bidiagStep sqrt N N (N-1) nrt wantu wantv k st) := by
  unfold bidiagStep
  dsimp only
  rw [if_pos (show k < N - 1 by omega)]
  have h1 := colTransform_diag sqrt hs1 N d k (by omega) st h
  have h2 : DiagInv N d (k+1)
      (forUp (k+1) N (fun j st => applyCol N (N-1) k j st) (colTransform sqrt N k st)) := by
    apply forUp_pres (fun b : Bidiag R => DiagInv N d (k+1) b)
    · exact h1
    · intro j b hj1 hj2 hb
      exact applyCol_diag N (N-1) d k j (by omega) hj2 b hb
  generalize forUp (k+1) N (fun j st => applyCol N (N-1) k j st) (colTransform sqrt N k st)
    = b at h2 ⊢
  have h3 : ∀ U : Mat R, DiagInv N d (k+1) { b with U := U } := fun U => h2
  split_ifs <;> first
    | exact rowTransform_diag sqrt N d k (k+1) wantv _ (h3 _)
    | exact h3 _

/-- State at the start of the main loop for a diagonal input: `|s(j)| = |d j|`
and `e` is zero. -/
theorem init_diag (sqrt : R → R) (hs1 : sqrt 1 = 1) (A : Mat R) (N : ℕ) (hN : 1 ≤ N)
    (hWF : A.WF) (hrows : A.rows = N) (hcols : A.cols = N)
    (hdiag : ∀ i j, i ≠ j → A.get i j = 0) (wantu wantv : Bool) :
    (SVD.init sqrt A wantu wantv).s.length = N ∧
      (∀ j, j < N → |(SVD.init sqrt A wantu wantv).s.get j| = |A.get j j|) ∧
      ∀ j, (SVD.init sqrt A wantu wantv).e.get j = 0 := by
  have hnct : min (A.rows - 1) A.cols = N - 1 := by rw [hrows, hcols]; omega
  have hnrt : max 0 (min (A.cols - 2) A.rows) = N - 2 := by rw [hrows, hcols]; omega
  have hmax : max (N - 1) (N - 2) = N - 1 := by omega
  have hlen : min (A.rows + 1) A.cols = N := by rw [hrows, hcols]; omega
  have h0 : DiagInv N (fun j => A.get j j) 0
      ⟨A, Vec.zeros N, Vec.zeros N, Vec.zeros N, Mat.zeros N N, Mat.zeros N N⟩ :=
    ⟨hWF, hrows, hcols, Vec.length_zeros N, Vec.length_zeros N, hdiag, fun _ _ => rfl,
      fun j hj => by omega, fun j => Vec.get_zeros N j⟩
  have h1 : DiagInv N (fun j => A.get j j) (N-1)
      (forUp 0 (N-1) (fun k st => bidiagStep sqrt N N (N-1) (N-2) wantu wantv k st)
        ⟨A, Vec.zeros N, Vec.zeros N, Vec.zeros N, Mat.zeros N N, Mat.zeros N N⟩) :=
    forUp_inv (fun k (b : Bidiag R) => DiagInv N (fun j => A.get j j) k b) 0 (N-1) _ _
      (Nat.zero_le _) h0
      (fun k b _ hk hb => bidiagStep_diag sqrt hs1 N _ k (by omega) (N-2) wantu wantv b hb)
  unfold SVD.init
  dsimp only
  rw [hnct, hnrt, hmax, hlen, hrows, hcols]
  generalize forUp 0 (N-1) (fun k st => bidiagStep sqrt N N (N-1) (N-2) wantu wantv k st)
    ⟨A, Vec.zeros N, Vec.zeros N, Vec.zeros N, Mat.zeros N N, Mat.zeros N N⟩ = b at h1 ⊢
  obtain ⟨hW, hr, hc, hsl, hel, hoff, hdg, hs, he⟩ := h1
  -- the final setup
  have hfs : (finalSetup N N (N-1) (N-2) b).s.length = N ∧
      (∀ j, j < N → |(finalSetup N N (N-1) (N-2) b).s.get j| = |A.get j j|) ∧
      ∀ j, (finalSetup N N (N-1) (N-2) b).e.get j = 0 := by
    unfold finalSetup
    dsimp only
    have hp : min N (N+1) = N := by omega
    rw [hp, if_pos (show N - 1 < N by omega), if_neg (show ¬ N < N by omega)]
    have hez : ∀ (v : Vec R) (i : ℕ) (x : R), x = 0 → (∀ j, v.get j = 0) →
        ∀ j, (v.set i x).get j = 0 := by
      intro v i x hx hv j
      rw [Vec.get_set]
      split_ifs
      · exact hx
      · exact hv j
    refine ⟨?_, ?_, ?_⟩
    · split_ifs <;> (show (Vec.set b.s _ _).length = N) <;> rw [Vec.length_set] <;> exact hsl
    · intro j hj
      have : ∀ j, j < N → |(b.s.set (N-1) (b.A.get (N-1) (N-1))).get j| = |A.get j j| := by
        intro j hj
        by_cases hjn : j = N - 1
        · subst hjn
          rw [Vec.get_set_self _ _ _ (by omega), hdg (N-1) (le_refl _)]
        · rw [Vec.get_set_ne _ _ _ _ (Ne.symm hjn), hs j (by omega), abs_neg]
      split_ifs <;> exact this j hj
    · split_ifs
      · exact hez _ _ _ rfl (hez _ _ _ (hoff _ _ (by omega)) he)
      · exact hez _ _ _ rfl he
  generalize finalSetup N N (N-1) (N-2) b = b2 at hfs ⊢
  cases wantu <;> cases wantv <;> exact hfs

theorem scanE_zero (eps : R) (heps : 0 ≤ eps) (s e : Vec R) (he : ∀ j, e.get j = 0) (a : ℕ) :
    scanE eps s e a = a := by
  cases a with
  | zero => rfl
  | succ k =>
    rw [scanE, he k, abs_zero,
      if_pos (mul_nonneg heps (add_nonneg (abs_nonneg _) (abs_nonneg _)))]

/-- With `e` zero the classification finds convergence (kase 4) at `k = p-1`. -/
theorem classify_zero (eps : R) (heps : 0 ≤ eps) (p : ℕ) (s e : Vec R)
    (he : ∀ j, e.get j = 0) :
    classify eps p s e = (4, p - 1, s, if p - 1 = 0 then e else e.set (p - 1 - 1) 0) := by
  unfold classify
  dsimp only
  rw [scanE_zero eps heps s e he, if_pos rfl]

theorem Vec.swap_perm (l : Vec R) (k : ℕ) (h : k + 1 < l.length) :
    ((l.set k (l.get (k+1))).set (k+1) (l.get k)).Perm l := by
  induction l generalizing k with
  | nil => simp at h
  | cons a t ih =>
    cases k with
    | zero =>
      cases t with
      | nil => simp at h
      | cons b t2 =>
        simp only [Vec.set, Vec.get, List.set_cons_zero, List.set_cons_succ, List.getD_cons_succ,
          List.getD_cons_zero]
        exact List.Perm.swap a b t2
    | succ k2 =>
      have h2 : k2 + 1 < t.length := by simpa using h
      have := ih k2 h2
      simp only [Vec.set, Vec.get, List.set_cons_succ, List.getD_cons_succ] at this ⊢
      exact List.Perm.cons a this

theorem order_perm (m n : ℕ) (wantu wantv : Bool) :
    ∀ (d k : ℕ) (st : Iter R), k + d < st.s.length →
      (order m n wantu wantv d k st).s.Perm st.s ∧ (order m n wantu wantv d k st).e = st.e ∧
        (order m n wantu wantv d k st).p = st.p := by
  intro d
  induction d with
  | zero => intro k st _; exact ⟨List.Perm.refl _, rfl, rfl⟩
  | succ d ih =>
    intro k st h
    rw [order]
    split_ifs
    · exact ⟨List.Perm.refl _, rfl, rfl⟩
    · have hsw := orderSwap_fields m n wantu wantv k st
      have hlen : (orderSwap m n wantu wantv k st).s.length = st.s.length := by
        rw [hsw.1, Vec.length_set, Vec.length_set]
      have := ih (k+1) (orderSwap m n wantu wantv k st) (by rw [hlen]; omega)
      refine ⟨this.1.trans ?_, this.2.1.trans hsw.2.2, this.2.2.trans hsw.2.1⟩
      rw [hsw.1]
      exact Vec.swap_perm st.s k (by omega)

theorem Vec.map_abs_set (s : Vec R) (k : ℕ) (v : R) (hv : |v| = |s.get k|) :
    (s.set k v).map (fun x => |x|) = s.map (fun x => |x|) := by
  apply List.ext_getElem
  · simp [Vec.set]
  · intro i h1 h2
    simp only [List.getElem_map, Vec.set]
    by_cases hik : k = i
    · subst hik
      rw [List.getElem_set_self, hv]
      unfold Vec.get
      rw [List.getD_eq_getElem]
    · rw [List.getElem_set_ne hik]

/-- Case 4 permutes the absolute values of `m_s`; it leaves `e` and lowers `p`. -/
theorem case4_perm (m n pp : ℕ) (wantu wantv : Bool) (k : ℕ) (st : Iter R)
    (hk : k + (pp - k) < st.s.length) :
    ((case4 m n pp wantu wantv k st).s.map (fun x => |x|)).Perm (st.s.map (fun x => |x|)) ∧
      (case4 m n pp wantu wantv k st).e = st.e ∧
      (case4 m n pp wantu wantv k st).p = st.p - 1 := by
  unfold case4
  dsimp only
  have key : ∀ st1 : Iter R, st1.s.map (fun x => |x|) = st.s.map (fun x => |x|) →
      st1.e = st.e → st1.p = st.p → st1.s.length = st.s.length →
      ((order m n wantu wantv (pp - k) k st1).s.map (fun x => |x|)).Perm
          (st.s.map (fun x => |x|)) ∧
        (order m n wantu wantv (pp - k) k st1).e = st.e ∧
        (order m n wantu wantv (pp - k) k st1).p - 1 = st.p - 1 := by
    intro st1 h1 h2 h3 h4
    have := order_perm m n wantu wantv (pp - k) k st1 (by rw [h4]; exact hk)
    refine ⟨?_, this.2.1.trans h2, by rw [this.2.2, h3]⟩
    rw [← h1]
    exact this.1.map _
  by_cases hle : st.s.get k ≤ 0
  · rw [if_pos hle]
    have hv : |(if st.s.get k < 0 then -(st.s.get k) else 0)| = |st.s.get k| := by
      split_ifs with h
      · rw [abs_neg]
      · have : st.s.get k = 0 := le_antisymm hle (not_lt.mp h)
        rw [this]
    cases wantv
    · exact key _ (Vec.map_abs_set _ _ _ hv) rfl rfl (Vec.length_set _ _ _)
    · exact key _ (Vec.map_abs_set _ _ _ hv) rfl rfl (Vec.length_set _ _ _)
  · rw [if_neg hle]
    exact key st rfl rfl rfl rfl

/-- One pass of the main loop on a state with `e` zero. -/
theorem iterStep_zero (sqrt : R → R) (eps : R) (heps : 0 ≤ eps) (m n pp : ℕ)
    (wantu wantv : Bool) (st : Iter R) (he : ∀ j, st.e.get j = 0) (hp : 1 ≤ st.p)
    (hlen : pp < st.s.length) (hpp : st.p ≤ pp + 1) :
    ((iterStep sqrt eps m n pp wantu wantv st).s.map (fun x => |x|)).Perm
        (st.s.map (fun x => |x|)) ∧
      (∀ j, (iterStep sqrt eps m n pp wantu wantv st).e.get j = 0) ∧
      (iterStep sqrt eps m n pp wantu wantv st).p = st.p - 1 := by
  unfold iterStep
  rw [classify_zero eps heps st.p st.s st.e he]
  dsimp only
  rw [if_neg (by decide), if_neg (by decide), if_neg (by decide)]
  have := case4_perm m n pp wantu wantv (st.p - 1)
    { st with e := if st.p - 1 = 0 then st.e else st.e.set (st.p - 1 - 1) 0 }
    (by show st.p - 1 + (pp - (st.p - 1)) < st.s.length; omega)
  refine ⟨this.1, ?_, this.2.2⟩
  rw [this.2.1]
  intro j
  show (if st.p - 1 = 0 then st.e else st.e.set (st.p - 1 - 1) 0).get j = 0
  split_ifs
  · exact he j
  · rw [Vec.get_set]
    split_ifs
    · rfl
    · exact he j

/-- With `e` zero the main loop finishes within `p` passes and permutes the
absolute values of `m_s`. -/
theorem mainLoop_zero (sqrt : R → R) (eps : R) (heps : 0 ≤ eps) (m n pp : ℕ)
    (wantu wantv : Bool) :
    ∀ (fuel : ℕ) (st : Iter R), st.p ≤ fuel → (∀ j, st.e.get j = 0) → pp < st.s.length →
      st.p ≤ pp + 1 →
      ∃ st2, mainLoop sqrt eps m n pp wantu wantv fuel st = some st2 ∧
        (st2.s.map (fun x => |x|)).Perm (st.s.map (fun x => |x|)) := by
  intro fuel
  induction fuel with
  | zero =>
    intro st hp _ _ _
    exact ⟨st, mainLoop_p_zero _ _ _ _ _ _ _ _ st (by omega), List.Perm.refl _⟩
  | succ f ih =>
    intro st hp he hlen hpp
    by_cases hp0 : st.p = 0
    · exact ⟨st, mainLoop_p_zero _ _ _ _ _ _ _ _ st hp0, List.Perm.refl _⟩
    · rw [mainLoop_succ _ _ _ _ _ _ _ _ _ hp0]
      have hstep := iterStep_zero sqrt eps heps m n pp wantu wantv st he (by omega) hlen hpp
      have hl2 : (iterStep sqrt eps m n pp wantu wantv st).s.length = st.s.length := by
        have := hstep.1.length_eq
        simpa using this
      obtain ⟨st2, h1, h2⟩ := ih (iterStep sqrt eps m n pp wantu wantv st)
        (by rw [hstep.2.2]; omega) hstep.2.1 (by rw [hl2]; exact hlen)
        (by rw [hstep.2.2]; omega)
      exact ⟨st2, h1, h2.trans hstep.1⟩

theorem Vec.eq_map_range (l : Vec R) : l = (List.range l.length).map (fun i => l.get i) := by
  apply List.ext_getElem
  · simp
  · intro i h1 h2
    simp only [List.getElem_map, List.getElem_range, Vec.get]
    rw [List.getD_eq_getElem]

theorem countAbove_eq_filter (l : Vec R) (tol : R) :
    countAbove l tol l.length = (l.filter (fun x => decide (tol ≤ x))).length := by
  unfold countAbove
  conv_rhs => rw [Vec.eq_map_range l, List.filter_map, List.length_map]
  rfl

/-- C9 (amended): in exact arithmetic, for every `N×N` diagonal matrix
(`N ≥ 1`), with `0 ≤ eps` and `N·eps ≤ 1`, the constructor finishes within `N`
passes of the main loop; the singular values are a permutation of
`|d_0|, …, |d_{N-1}|` in non-increasing order, so that `S(0)` is the largest
`|d_j|`; and `rank()` is the number of `i` with `|d_i| ≥ N·max_j|d_j|·eps`, so
that a matrix with exactly `r` diagonal entries that reach this tolerance
reports rank `r`. -/
theorem svd_diag (sqrt : R → R) (hs1 : sqrt 1 = 1) (eps : R) (heps : 0 ≤ eps) (A : Mat R)
    (N : ℕ) (hN : 1 ≤ N) (hWF : A.WF) (hrows : A.rows = N) (hcols : A.cols = N)
    (hdiag : ∀ i j, i ≠ j → A.get i j = 0) (hsmall : (N : R) * eps ≤ 1)
    (fuel : ℕ) (hfuel : N ≤ fuel) (wantu wantv : Bool) :
    ∃ d, SVD.construct sqrt eps fuel A wantu wantv = some d ∧
      d.singularValues.Perm ((List.range N).map (fun i => |A.get i i|)) ∧
      (∀ i j, i ≤ j → j < N → d.singularValues.get j ≤ d.singularValues.get i) ∧
      (∃ i, i < N ∧ d.singularValues.get 0 = |A.get i i|) ∧
      (∀ i, i < N → |A.get i i| ≤ d.singularValues.get 0) ∧
      d.rank = ((List.range N).filter
        (fun i => decide ((N : R) * d.singularValues.get 0 * eps ≤ |A.get i i|))).length := by
  obtain ⟨hil, hiabs, hie⟩ := init_diag sqrt hs1 A N hN hWF hrows hcols hdiag wantu wantv
  have hp : min A.cols (A.rows + 1) = N := by rw [hrows, hcols]; omega
  have hmn : min A.rows A.cols = N := by rw [hrows, hcols]; omega
  obtain ⟨st2, hrun, hperm⟩ := mainLoop_zero sqrt eps heps A.rows A.cols (N - 1) wantu wantv fuel
    ⟨(SVD.init sqrt A wantu wantv).s, (SVD.init sqrt A wantu wantv).e,
      (SVD.init sqrt A wantu wantv).U, (SVD.init sqrt A wantu wantv).V, N, 0⟩
    hfuel hie (by show N - 1 < (SVD.init sqrt A wantu wantv).s.length; omega)
    (by show N ≤ N - 1 + 1; omega)
  have htail := mainLoop_tailSorted sqrt eps A.rows A.cols N wantu wantv fuel _ st2
    (le_refl _)
    ⟨hil, fun i j (hi : N ≤ i) hij hj => by omega, fun i (hi : N ≤ i) hiL => by omega⟩ hrun
  obtain ⟨hlen, hsort, hnn⟩ := htail
  -- the singular values are a permutation of the absolute values of the diagonal
  have habs : st2.s.map (fun x => |x|) = st2.s := by
    conv_rhs => rw [← List.map_id st2.s]
    apply List.map_congr_left
    intro x hx
    obtain ⟨i, hi, rfl⟩ := List.mem_iff_getElem.mp hx
    have := hnn i (Nat.zero_le _) (by omega)
    unfold Vec.get at this
    rw [List.getD_eq_getElem _ _ hi] at this
    simp [abs_of_nonneg this]
  have hinit : (SVD.init sqrt A wantu wantv).s.map (fun x => |x|) =
      (List.range N).map (fun i => |A.get i i|) := by
    apply List.ext_getElem
    · simp [hil]
    · intro i h1 h2
      simp only [List.getElem_map, List.getElem_range]
      have hi : i < N := by simpa using h2
      have := hiabs i hi
      unfold Vec.get at this
      rw [List.getD_eq_getElem _ _ (by omega)] at this
      exact this
  have hperm2 : st2.s.Perm ((List.range N).map (fun i => |A.get i i|)) := by
    rw [← habs, ← hinit]; exact hperm
  -- S(0) is the largest
  have h0mem : st2.s.get 0 ∈ (List.range N).map (fun i => |A.get i i|) := by
    apply hperm2.mem_iff.mp
    unfold Vec.get
    rw [List.getD_eq_getElem _ _ (by omega)]
    exact List.getElem_mem _
  have h0max : ∀ i, i < N → |A.get i i| ≤ st2.s.get 0 := by
    intro i hi
    have : |A.get i i| ∈ st2.s := by
      apply hperm2.mem_iff.mpr
      exact List.mem_map.mpr ⟨i, List.mem_range.mpr hi, rfl⟩
    obtain ⟨j, hj, hje⟩ := List.mem_iff_getElem.mp this
    have h2 := hsort 0 j (le_refl _) (Nat.zero_le _) (by omega)
    unfold Vec.get at h2 ⊢
    rw [List.getD_eq_getElem _ _ hj, hje] at h2
    exact h2
  -- the rank
  have hrank := rank_rule st2.s eps N N hN hN (by rw [hlen]; simp)
    (fun i j hij hj => hsort i j (Nat.zero_le _) hij (by omega))
    (fun i hi => hnn i (Nat.zero_le _) (by omega)) (by rw [hlen]; exact hsmall)
  rw [min_self, hlen] at hrank
  have hcount : countAbove st2.s ((N : R) * st2.s.get 0 * eps) N =
      ((List.range N).filter
        (fun i => decide ((N : R) * st2.s.get 0 * eps ≤ |A.get i i|))).length := by
    have h1 := countAbove_eq_filter st2.s ((N : R) * st2.s.get 0 * eps)
    rw [hlen] at h1
    rw [h1, (hperm2.filter _).length_eq, List.filter_map, List.length_map]
    rfl
  refine ⟨⟨countAbove st2.s ((N : R) * st2.s.get 0 * eps) N,
      (SVD.init sqrt A wantu wantv).A, st2.s, st2.U, st2.V⟩, ?_, hperm2,
    fun i j hij hj => hsort i j (Nat.zero_le _) hij hj, ?_, h0max, hcount⟩
  · unfold SVD.construct
    dsimp only
    rw [hp, hrun]
    dsimp only
    rw [hlen, hmn, hrank.1]
  · obtain ⟨i, hi, hie⟩ := List.mem_map.mp h0mem
    exact ⟨i, List.mem_range.mp hi, hie.symm⟩

/-- Witness for `svd_diag`: the matrix `diag(3, 1)` with `eps = 2^-52`. -/
theorem svd_diag_witness :
    ∃ d, SVD.construct qsqrt qeps 2 D31 true true = some d ∧
      d.singularValues.Perm ((List.range 2).map (fun i => |D31.get i i|)) ∧
      (∀ i j, i ≤ j → j < 2 → d.singularValues.get j ≤ d.singularValues.get i) ∧
      (∃ i, i < 2 ∧ d.singularValues.get 0 = |D31.get i i|) ∧
      (∀ i, i < 2 → |D31.get i i| ≤ d.singularValues.get 0) ∧
      d.rank = ((List.range 2).filter
        (fun i => decide (((2 : ℕ) : ℚ) * d.singularValues.get 0 * qeps ≤ |D31.get i i|))).length :=
  svd_diag qsqrt (by decide!) qeps (by decide!) D31 2 (by decide)
    ⟨rfl, by
      intro r hr
      simp only [D31, Mat.ofRows, List.mem_cons, List.mem_singleton, List.not_mem_nil,
        or_false] at hr
      rcases hr with rfl | rfl <;> rfl⟩
    rfl rfl
    (by
      intro i j hij
      rcases i with _ | _ | i <;> rcases j with _ | _ | j <;>
        first
          | exact absurd rfl hij
          | rfl)
    (by decide!) 2 (le_refl _) true true

/-- C9 (counterexample, double precision): on `diag(1e-310, 0)` the constructor
returns `S = (1e-310, 0)` and rank 2: the product `2 · 1e-310 · eps` of line 550
underflows, `tol = 0`, and `S(1) = 0 < tol` is false.  The matrix has one
non-zero diagonal entry, and only this one reaches `N·max_j|d_j|·eps`, which is
positive: the claim gives rank 1, the rank that the constructor returns in
exact arithmetic on the same matrix. -/
theorem svd_diag_underflow :
    (Double.construct Double.Watch.indices F64.eps 2 Double.Diag310 true true).value.map
        (fun d => (d.m_rank, d.m_s)) = some (2, [F64.ofDecimal false 1 (-310), F64.zero]) ∧
    (Double.tolOf F64.eps [F64.ofDecimal false 1 (-310), F64.zero]).value = some F64.zero ∧
    F64.ofDecimal false 1 (-310) = F64.fin false 20240225330731 0 ∧
    ((List.range 2).filter (fun i =>
        decide (((2 : ℕ) : ℚ) * (20240225330731 / 2 ^ 1074) * qeps ≤ |D310.get i i|))).length = 1 ∧
    (SVD.construct qsqrt qeps 2 D310 true true).map SVD.rank = some 1 := by
  refine ⟨?_, ?_, ?_, ?_, ?_⟩ <;> decide!

/-! ### Orthonormality of `U` -/

theorem hypot_nonneg (sqrt : R → R) (hs : IsSqrt sqrt) (a b : R) : 0 ≤ hypot sqrt a b := by
  unfold hypot
  split_ifs
  · exact abs_nonneg b
  · exact mul_nonneg (abs_nonneg a) (hs _ (add_nonneg zero_le_one (mul_self_nonneg _))).1
  · exact mul_nonneg (abs_nonneg b) (hs _ (add_nonneg zero_le_one (mul_self_nonneg _))).1

theorem hypot_sq (sqrt : R → R) (hs : IsSqrt sqrt) (a b : R) :
    hypot sqrt a b * hypot sqrt a b = a * a + b * b := by
  unfold hypot
  split_ifs with h1 h2
  · rw [h1, abs_mul_abs_self]; ring
  · have hsq := (hs (1 + b / a * (b / a)) (add_nonneg zero_le_one (mul_self_nonneg _))).2
    dsimp only
    calc |a| * sqrt (1 + b / a * (b / a)) * (|a| * sqrt (1 + b / a * (b / a)))
        = (|a| * |a|) * (sqrt (1 + b / a * (b / a)) * sqrt (1 + b / a * (b / a))) := by ring
      _ = (a * a) * (1 + b / a * (b / a)) := by rw [abs_mul_abs_self, hsq]
      _ = a * a + b * b := by field_simp
  · have hb : b ≠ 0 := by
      intro hb
      rw [hb, abs_zero] at h2
      exact h1 (abs_eq_zero.mp (le_antisymm (not_lt.mp h2) (abs_nonneg a)))
    have hsq := (hs (1 + a / b * (a / b)) (add_nonneg zero_le_one (mul_self_nonneg _))).2
    dsimp only
    calc |b| * sqrt (1 + a / b * (a / b)) * (|b| * sqrt (1 + a / b * (a / b)))
        = (|b| * |b|) * (sqrt (1 + a / b * (a / b)) * sqrt (1 + a / b * (a / b))) := by ring
      _ = (b * b) * (1 + a / b * (a / b)) := by rw [abs_mul_abs_self, hsq]
      _ = a * a + b * b := by field_simp; ring

theorem hypot_ne_zero (sqrt : R → R) (hs : IsSqrt sqrt) (a b : R) (h : a ≠ 0 ∨ b ≠ 0) :
    hypot sqrt a b ≠ 0 := by
  intro h0
  have := hypot_sq sqrt hs a b
  rw [h0, zero_mul] at this
  have ha : a * a = 0 := by nlinarith [mul_self_nonneg a, mul_self_nonneg b]
  have hb : b * b = 0 := by nlinarith [mul_self_nonneg a, mul_self_nonneg b]
  rcases h with h | h
  · exact h (mul_self_eq_zero.mp ha)
  · exact h (mul_self_eq_zero.mp hb)

/-- A plane rotation built from `hypot`: `cs² + sn² = 1`. -/
theorem rot_coeffs (sqrt : R → R) (hs : IsSqrt sqrt) (a b : R) (h : a ≠ 0 ∨ b ≠ 0) :
    (a / hypot sqrt a b) * (a / hypot sqrt a b) + (b / hypot sqrt a b) * (b / hypot sqrt a b)
      = 1 := by
  have ht := hypot_ne_zero sqrt hs a b h
  have hsq := hypot_sq sqrt hs a b
  field_simp
  linarith

theorem forUp_sum_Ico (lo hi : ℕ) (f : ℕ → R) (a : R) :
    forUp lo hi (fun i t => t + f i) a = a + ∑ i in Finset.Ico lo hi, f i := by
  rcases Nat.lt_or_ge hi lo with h | h
  · rw [forUp_eq_self _ _ _ _ (le_of_lt h), Finset.Ico_eq_empty (by omega)]
    simp
  · have := forUp_inv (fun i (t : R) => t = a + ∑ j in Finset.Ico lo i, f j) lo hi
      (fun i t => t + f i) a h (by simp)
      (fun i t hi1 hi2 ht => by
        show t + f i = _
        rw [ht, Finset.sum_Ico_succ_top hi1]
        ring)
    exact this

/-- The norm loop of `colTransform`: `s(k)` becomes the 2-norm of the entries
`k .. m-1` of column `k`. -/
theorem colNorm_spec (sqrt : R → R) (hs : IsSqrt sqrt) (A : Mat R) (s : Vec R) (k m : ℕ)
    (hk : k < s.length) (h0 : s.get k = 0) :
    (forUp k m (fun i s => s.set k (hypot sqrt (s.get k) (A.get i k))) s).length = s.length ∧
      (∀ j, j ≠ k →
        (forUp k m (fun i s => s.set k (hypot sqrt (s.get k) (A.get i k))) s).get j = s.get j) ∧
      0 ≤ (forUp k m (fun i s => s.set k (hypot sqrt (s.get k) (A.get i k))) s).get k ∧
      (forUp k m (fun i s => s.set k (hypot sqrt (s.get k) (A.get i k))) s).get k *
        (forUp k m (fun i s => s.set k (hypot sqrt (s.get k) (A.get i k))) s).get k
        = ∑ i in Finset.Ico k m, A.get i k * A.get i k := by
  rcases Nat.lt_or_ge m k with h | h
  · rw [forUp_eq_self _ _ _ _ (le_of_lt h), Finset.Ico_eq_empty (by omega), h0]
    simp
  · exact forUp_inv (fun i (v : Vec R) => v.length = s.length ∧
        (∀ j, j ≠ k → v.get j = s.get j) ∧ 0 ≤ v.get k ∧
        v.get k * v.get k = ∑ j in Finset.Ico k i, A.get j k * A.get j k) k m
      (fun i s => s.set k (hypot sqrt (s.get k) (A.get i k))) s h
      ⟨rfl, fun _ _ => rfl, by rw [h0], by rw [h0]; simp⟩
      (by
        intro i v hki him ⟨h1, h2, h3, h4⟩
        refine ⟨by rw [Vec.length_set]; exact h1, fun j hj => ?_, ?_, ?_⟩
        · rw [Vec.get_set_ne _ _ _ _ (Ne.symm hj)]; exact h2 j hj
        · rw [Vec.get_set_self _ _ _ (by omega)]
          exact hypot_nonneg sqrt hs _ _
        · rw [Vec.get_set_self _ _ _ (by omega), hypot_sq sqrt hs, h4,
            Finset.sum_Ico_succ_top hki])

/-- The normalised and shifted column `g = f/σ + e_k` of a column `f` of norm
`|σ|` satisfies `g'g = 2·g_k`. -/
theorem house_norm (f g : ℕ → R) (k m : ℕ) (hk : k < m) (σ : R) (hσ : σ ≠ 0)
    (hσ2 : σ * σ = ∑ i in Finset.Ico k m, f i * f i)
    (hg : ∀ i, k ≤ i → i < m → g i = if i = k then f k / σ + 1 else f i / σ) :
    ∑ i in Finset.Ico k m, g i * g i = 2 * g k := by
  have h1 : ∑ i in Finset.Ico k m, f i / σ * (f i / σ) = 1 := by
    have : ∀ i ∈ Finset.Ico k m, f i / σ * (f i / σ) = (f i * f i) * (1 / (σ * σ)) := by
      intro i _
      field_simp
    rw [Finset.sum_congr rfl this, ← Finset.sum_mul, ← hσ2]
    field_simp
  rw [Finset.sum_eq_sum_Ico_succ_bot hk] at h1 ⊢
  have h2 : ∑ i in Finset.Ico (k+1) m, g i * g i =
      ∑ i in Finset.Ico (k+1) m, f i / σ * (f i / σ) := by
    apply Finset.sum_congr rfl
    intro i hi
    have hi2 := Finset.mem_Ico.mp hi
    rw [hg i (by omega) hi2.2, if_neg (by omega)]
  rw [h2, hg k (le_refl _) hk, if_pos rfl]
  linear_combination h1

/-- The column transformation (lines 168–184): afterwards, if `s(k) ≠ 0`, the
entries `k .. m-1` of column `k` of the working copy are a reflection vector `v`
with `v'v = 2·v_k` and `v_k ≠ 0`. -/
theorem colTransform_house (sqrt : R → R) (hs : IsSqrt sqrt) (m k : ℕ) (st : Bidiag R)
    (hWF : st.A.WF) (hrows : st.A.rows = m) (hk : k < m) (hkc : k < st.A.cols)
    (hks : k < st.s.length) :
    (colTransform sqrt m k st).A.WF ∧ (colTransform sqrt m k st).A.rows = m ∧
      (colTransform sqrt m k st).A.cols = st.A.cols ∧
      (colTransform sqrt m k st).s.length = st.s.length ∧
      (∀ j, j ≠ k → (colTransform sqrt m k st).s.get j = st.s.get j) ∧
      (colTransform sqrt m k st).U = st.U ∧
      ((colTransform sqrt m k st).s.get k ≠ 0 →
        ∑ i in Finset.Ico k m, (colTransform sqrt m k st).A.get i k *
            (colTransform sqrt m k st).A.get i k = 2 * (colTransform sqrt m k st).A.get k k ∧
          (colTransform sqrt m k st).A.get k k ≠ 0) := by
  have hchain := colNorm_spec sqrt hs st.A (st.s.set k 0) k m
    (by rw [Vec.length_set]; exact hks) (Vec.get_set_self _ _ _ hks)
  rw [Vec.length_set] at hchain
  unfold colTransform
  dsimp only
  generalize forUp k m (fun i s => s.set k (hypot sqrt (s.get k) (st.A.get i k)))
    (st.s.set k 0) = ch at hchain ⊢
  obtain ⟨hc1, hc2, hc3, hc4⟩ := hchain
  have hc2' : ∀ j, j ≠ k → ch.get j = st.s.get j := fun j hj => by
    rw [hc2 j hj, Vec.get_set_ne _ _ _ _ (Ne.symm hj)]
  by_cases hz : ch.get k = 0
  · rw [if_neg (by rw [hz]; simp)]
    refine ⟨hWF, hrows, rfl, by rw [Vec.length_set]; exact hc1, fun j hj => ?_, rfl, ?_⟩
    · rw [Vec.get_set_ne _ _ _ _ (Ne.symm hj)]; exact hc2' j hj
    · intro hne
      exfalso
      apply hne
      show (Vec.set ch k (-(ch.get k))).get k = 0
      rw [Vec.get_set_self _ _ _ (by omega), hz, neg_zero]
  · rw [if_pos hz]
    -- the signed norm
    have key : ∀ sv : Vec R, sv.length = st.s.length → (∀ j, j ≠ k → sv.get j = st.s.get j) →
        sv.get k ≠ 0 → sv.get k * sv.get k = ∑ i in Finset.Ico k m, st.A.get i k * st.A.get i k →
        0 ≤ st.A.get k k / sv.get k →
        ((forUp k m (fun i A => A.set i k (A.get i k / sv.get k)) st.A).set k k
            ((forUp k m (fun i A => A.set i k (A.get i k / sv.get k)) st.A).get k k + 1)).WF ∧
          ((forUp k m (fun i A => A.set i k (A.get i k / sv.get k)) st.A).set k k
            ((forUp k m (fun i A => A.set i k (A.get i k / sv.get k)) st.A).get k k + 1)).rows
            = m ∧
          ((forUp k m (fun i A => A.set i k (A.get i k / sv.get k)) st.A).set k k
            ((forUp k m (fun i A => A.set i k (A.get i k / sv.get k)) st.A).get k k + 1)).cols
            = st.A.cols ∧
          (sv.set k (-(sv.get k))).length = st.s.length ∧
          (∀ j, j ≠ k → (sv.set k (-(sv.get k))).get j = st.s.get j) ∧
          ((sv.set k (-(sv.get k))).get k ≠ 0 →
            ∑ i in Finset.Ico k m,
              ((forUp k m (fun i A => A.set i k (A.get i k / sv.get k)) st.A).set k k
                ((forUp k m (fun i A => A.set i k (A.get i k / sv.get k)) st.A).get k k + 1)).get
                  i k *
              ((forUp k m (fun i A => A.set i k (A.get i k / sv.get k)) st.A).set k k
                ((forUp k m (fun i A => A.set i k (A.get i k / sv.get k)) st.A).get k k + 1)).get
                  i k
              = 2 * ((forUp k m (fun i A => A.set i k (A.get i k / sv.get k)) st.A).set k k
                ((forUp k m (fun i A => A.set i k (A.get i k / sv.get k)) st.A).get k k + 1)).get
                  k k ∧
            ((forUp k m (fun i A => A.set i k (A.get i k / sv.get k)) st.A).set k k
                ((forUp k m (fun i A => A.set i k (A.get i k / sv.get k)) st.A).get k k + 1)).get
                  k k ≠ 0) := by
      intro sv hl hsame hne hsq hpos
      obtain ⟨hW, hr, hc, hg⟩ := forUp_col st.A hWF k m k (fun _ x => x / sv.get k)
        (by omega) hkc
      generalize forUp k m (fun i A => A.set i k (A.get i k / sv.get k)) st.A = A4 at hW hr hc hg ⊢
      have hget : ∀ i, k ≤ i → i < m → (A4.set k k (A4.get k k + 1)).get i k =
          if i = k then st.A.get k k / sv.get k + 1 else st.A.get i k / sv.get k := by
        intro i hi1 hi2
        rw [Mat.entry_set A4 hW]
        by_cases hik : i = k
        · subst hik
          rw [if_pos ⟨rfl, rfl, by omega, by omega⟩, if_pos rfl, hg, if_pos ⟨rfl, hi1, hi2⟩]
        · rw [if_neg (fun h => hik h.1.symm), if_neg hik, hg, if_pos ⟨rfl, hi1, hi2⟩]
      refine ⟨hW.set_entry _ _ _, by rw [Mat.rows_set, hr, hrows], by rw [Mat.cols_set, hc],
        by rw [Vec.length_set]; exact hl, fun j hj => ?_, fun _ => ⟨?_, ?_⟩⟩
      · rw [Vec.get_set_ne _ _ _ _ (Ne.symm hj)]; exact hsame j hj
      · exact house_norm (fun i => st.A.get i k) _ k m hk (sv.get k) hne hsq hget
      · rw [hget k (le_refl _) hk, if_pos rfl]
        have : 0 < st.A.get k k / sv.get k + 1 := by linarith
        exact ne_of_gt this
    by_cases hneg : st.A.get k k < 0
    · rw [if_pos hneg]
      dsimp only
      have hv : (ch.set k (-(ch.get k))).get k = -(ch.get k) :=
        Vec.get_set_self _ _ _ (by omega)
      have := key (ch.set k (-(ch.get k))) (by rw [Vec.length_set]; exact hc1)
        (fun j hj => by rw [Vec.get_set_ne _ _ _ _ (Ne.symm hj)]; exact hc2' j hj)
        (by rw [hv]; exact neg_ne_zero.mpr hz)
        (by rw [hv, neg_mul_neg]; exact hc4)
        (by
          rw [hv]
          have hpos : 0 < ch.get k := lt_of_le_of_ne hc3 (Ne.symm hz)
          exact le_of_lt (div_pos_of_neg_of_neg hneg (neg_neg_of_pos hpos)))
      obtain ⟨h1, h2, h3, h4, h5, h6⟩ := this
      exact ⟨h1, h2, h3, h4, h5, rfl, h6⟩
    · rw [if_neg hneg]
      have := key ch hc1 hc2' hz hc4
        (div_nonneg (not_lt.mp hneg) hc3)
      obtain ⟨h1, h2, h3, h4, h5, h6⟩ := this
      exact ⟨h1, h2, h3, h4, h5, rfl, h6⟩

theorem HouseCol.congr {m : ℕ} {s s2 : Vec R} {U U2 : Mat R} {k : ℕ}
    (h : HouseCol m s U k) (hs : s2.get k = s.get k) (hU : ∀ i, U2.get i k = U.get i k) :
    HouseCol m s2 U2 k := by
  refine ⟨fun i hi => by rw [hU]; exact h.1 i hi, fun hne => ?_⟩
  rw [hs] at hne
  have := h.2 hne
  rw [hU k]
  refine ⟨?_, this.2⟩
  rw [← this.1]
  apply Finset.sum_congr rfl
  intro i _
  rw [hU i]

/-- Applying the column transformation to column `j > k` leaves column `k` of
the working copy, `s` and `U`. -/
theorem applyCol_frame (m n nct k j : ℕ) (hkj : k < j) (hj : j < n) (st : Bidiag R)
    (hWF : st.A.WF) (hrows : st.A.rows = m) (hcols : st.A.cols = n) :
    (applyCol m nct k j st).A.WF ∧ (applyCol m nct k j st).A.rows = m ∧
      (applyCol m nct k j st).A.cols = n ∧
      (∀ i, (applyCol m nct k j st).A.get i k = st.A.get i k) ∧
      (applyCol m nct k j st).s = st.s ∧ (applyCol m nct k j st).U = st.U := by
  unfold applyCol
  dsimp only
  split_ifs with hc
  · obtain ⟨hW, hr, hc2, hg⟩ := forUp_col2 st.A hWF k m j k
      (fun _ x y => x + (-(forUp k m (fun i t => t + st.A.get i k * st.A.get i j) 0) /
        st.A.get k k) * y) (by omega) (by omega) (by omega)
    refine ⟨hW, by rw [hr, hrows], by rw [hc2, hcols], fun i => ?_, rfl, rfl⟩
    rw [hg, if_neg (by omega)]
  · exact ⟨hWF, hrows, hcols, fun _ => rfl, rfl, rfl⟩

theorem applyCol_loop_frame (m n nct k : ℕ) (st : Bidiag R)
    (hWF : st.A.WF) (hrows : st.A.rows = m) (hcols : st.A.cols = n) :
    (forUp (k+1) n (fun j st => applyCol m nct k j st) st).A.WF ∧
      (forUp (k+1) n (fun j st => applyCol m nct k j st) st).A.rows = m ∧
      (forUp (k+1) n (fun j st => applyCol m nct k j st) st).A.cols = n ∧
      (∀ i, (forUp (k+1) n (fun j st => applyCol m nct k j st) st).A.get i k = st.A.get i k) ∧
      (forUp (k+1) n (fun j st => applyCol m nct k j st) st).s = st.s ∧
      (forUp (k+1) n (fun j st => applyCol m nct k j st) st).U = st.U := by
  apply forUp_pres (fun b : Bidiag R => b.A.WF ∧ b.A.rows = m ∧ b.A.cols = n ∧
    (∀ i, b.A.get i k = st.A.get i k) ∧ b.s = st.s ∧ b.U = st.U)
  · exact ⟨hWF, hrows, hcols, fun _ => rfl, rfl, rfl⟩
  · intro j b hj1 hj2 ⟨h1, h2, h3, h4, h5, h6⟩
    obtain ⟨g1, g2, g3, g4, g5, g6⟩ := applyCol_frame m n nct k j (by omega) hj2 b h1 h2 h3
    exact ⟨g1, g2, g3, fun i => (g4 i).trans (h4 i), g5.trans h5, g6.trans h6⟩

theorem Mat.forUp_set_WF (lo hi : ℕ) (c : ℕ → ℕ) (f : ℕ → Mat R → R) (r : ℕ → ℕ) (A : Mat R)
    (hWF : A.WF) :
    (forUp lo hi (fun i A => A.set (r i) (c i) (f i A)) A).WF ∧
      (forUp lo hi (fun i A => A.set (r i) (c i) (f i A)) A).rows = A.rows ∧
      (forUp lo hi (fun i A => A.set (r i) (c i) (f i A)) A).cols = A.cols := by
  apply forUp_pres (fun B : Mat R => B.WF ∧ B.rows = A.rows ∧ B.cols = A.cols)
  · exact ⟨hWF, rfl, rfl⟩
  · intro i B _ _ ⟨h1, h2, h3⟩
    exact ⟨h1.set_entry _ _ _, h2, h3⟩

/-- The row transformation keeps the shape of the working copy and leaves `s`
and `U`. -/
theorem rowTransform_frame (sqrt : R → R) (m n k : ℕ) (wantv : Bool) (st : Bidiag R)
    (hWF : st.A.WF) (hrows : st.A.rows = m) (hcols : st.A.cols = n) :
    (rowTransform sqrt m n k wantv st).A.WF ∧ (rowTransform sqrt m n k wantv st).A.rows = m ∧
      (rowTransform sqrt m n k wantv st).A.cols = n ∧
      (rowTransform sqrt m n k wantv st).s = st.s ∧
      (rowTransform sqrt m n k wantv st).U = st.U := by
  have hA : ∀ (e w : Vec R), (forUp (k+1) n (fun j A =>
        forUp (k+1) m (fun i A => A.set i j (A.get i j + (-(e.get j) / e.get (k+1)) * w.get i))
          A) st.A).WF ∧
      (forUp (k+1) n (fun j A =>
        forUp (k+1) m (fun i A => A.set i j (A.get i j + (-(e.get j) / e.get (k+1)) * w.get i))
          A) st.A).rows = m ∧
      (forUp (k+1) n (fun j A =>
        forUp (k+1) m (fun i A => A.set i j (A.get i j + (-(e.get j) / e.get (k+1)) * w.get i))
          A) st.A).cols = n := by
    intro e w
    apply forUp_pres (fun B : Mat R => B.WF ∧ B.rows = m ∧ B.cols = n)
    · exact ⟨hWF, hrows, hcols⟩
    · intro j B _ _ ⟨h1, h2, h3⟩
      have := Mat.forUp_set_WF (k+1) m (fun _ => j)
        (fun i A => A.get i j + (-(e.get j) / e.get (k+1)) * w.get i) (fun i => i) B h1
      exact ⟨this.1, this.2.1.trans h2, this.2.2.trans h3⟩
  unfold rowTransform
  dsimp only
  split_ifs <;> first
    | exact ⟨hWF, hrows, hcols, rfl, rfl⟩
    | exact ⟨(hA _ _).1, (hA _ _).2.1, (hA _ _).2.2, rfl, rfl⟩

/-- One pass of the bidiagonalisation loop keeps `BidiagU`. -/
theorem bidiagStep_U (sqrt : R → R) (hs : IsSqrt sqrt) (m n : ℕ) (nrt : ℕ) (wantv : Bool)
    (k : ℕ) (st : Bidiag R) (h : BidiagU m n k st) :
    BidiagU m n (k+1) (bidiagStep sqrt m n (min (m-1) n) nrt true wantv k st) := by
  obtain ⟨hWF, hrows, hcols, hUW, hUr, hUc, hsl, hH, hZ⟩ := h
  -- the row transformation at the end keeps everything that matters
  have hrow : ∀ b : Bidiag R, BidiagU m n (k+1) b →
      BidiagU m n (k+1) (if k < nrt then rowTransform sqrt m n k wantv b else b) := by
    intro b hb
    split_ifs
    · obtain ⟨h1, h2, h3, h4, h5, h6, h7, h8, h9⟩ := hb
      obtain ⟨g1, g2, g3, g4, g5⟩ := rowTransform_frame sqrt m n k wantv b h1 h2 h3
      refine ⟨g1, g2, g3, by rw [g5]; exact h4, by rw [g5]; exact h5, by rw [g5]; exact h6,
        by rw [g4]; exact h7, ?_, ?_⟩
      · rw [g4, g5]; exact h8
      · rw [g5]; exact h9
    · exact hb
  unfold bidiagStep
  dsimp only
  apply hrow
  by_cases hk : k < min (m-1) n
  · rw [if_pos hk, if_pos ⟨rfl, hk⟩]
    have hkm : k < m := by omega
    have hkn : k < n := by omega
    obtain ⟨c1, c2, c3, c4, c5, c6, c7⟩ := colTransform_house sqrt hs m k st hWF hrows hkm
      (by rw [hcols]; exact hkn) (by rw [hsl]; omega)
    rw [hcols] at c3
    obtain ⟨a1, a2, a3, a4, a5, a6⟩ := applyCol_loop_frame m n (min (m-1) n) k
      (colTransform sqrt m k st) c1 c2 c3
    generalize forUp (k+1) n (fun j st => applyCol m (min (m-1) n) k j st)
      (colTransform sqrt m k st) = b at a1 a2 a3 a4 a5 a6 ⊢
    have hbU : b.U = st.U := a6.trans c6
    obtain ⟨u1, u2, u3, u4⟩ := forUp_col b.U (by rw [hbU]; exact hUW) k m k
      (fun i _ => b.A.get i k) (by rw [hbU, hUr]) (by rw [hbU, hUc]; exact hkm)
    refine ⟨a1, a2, a3, u1, u2.trans (by rw [hbU]; exact hUr),
      u3.trans (by rw [hbU]; exact hUc), by rw [a5, c4, hsl], ?_, ?_⟩
    · intro j hj hjn
      show HouseCol m b.s (forUp k m (fun i U => U.set i k (b.A.get i k)) b.U) j
      by_cases hjk : j = k
      · subst hjk
        refine ⟨fun i hi => ?_, fun hne => ?_⟩
        · rw [u4, if_neg (by omega), hbU]
          exact hZ i j (le_refl _)
        · rw [a5] at hne
          have := c7 hne
          have hcol : ∀ i, j ≤ i → i < m →
              (forUp j m (fun i U => U.set i j (b.A.get i j)) b.U).get i j =
                (colTransform sqrt m j st).A.get i j := by
            intro i hi1 hi2
            rw [u4, if_pos ⟨rfl, hi1, hi2⟩, a4]
          rw [hcol j (le_refl _) hkm]
          refine ⟨?_, this.2⟩
          rw [← this.1]
          apply Finset.sum_congr rfl
          intro i hi
          have hi2 := Finset.mem_Ico.mp hi
          rw [hcol i hi2.1 hi2.2]
      · apply (hH j (by omega) hjn).congr
        · rw [a5]; exact c5 j hjk
        · intro i
          rw [u4, if_neg (fun h => hjk h.1), hbU]
    · intro i j hj
      show (forUp k m (fun i U => U.set i k (b.A.get i k)) b.U).get i j = 0
      rw [u4, if_neg (by omega), hbU]
      exact hZ i j (by omega)
  · rw [if_neg hk, if_neg (fun h => hk h.2)]
    obtain ⟨a1, a2, a3, a4, a5, a6⟩ := applyCol_loop_frame m n (min (m-1) n) k st hWF hrows hcols
    refine ⟨a1, a2, a3, by rw [a6]; exact hUW, by rw [a6]; exact hUr, by rw [a6]; exact hUc,
      by rw [a5]; exact hsl, ?_, ?_⟩
    · intro j hj hjn
      rw [a5, a6]
      exact hH j (by omega) hjn
    · intro i j hj
      rw [a6]
      exact hZ i j (by omega)

/-- Invariant rule for `forDown`: a property indexed by the loop counter. -/
theorem forDown_inv {σ : Type} (P : ℕ → σ → Prop) (lo hi : ℕ) (body : ℕ → σ → σ) (st : σ)
    (hle : lo ≤ hi) (h0 : P hi st)
    (hstep : ∀ i s, lo ≤ i → i < hi → P (i+1) s → P i (body i s)) :
    P lo (forDown lo hi body st) := by
  induction hi generalizing st with
  | zero =>
    have : lo = 0 := by omega
    subst this
    simpa [forDown] using h0
  | succ n ih =>
    rcases Nat.eq_or_lt_of_le hle with h | h
    · subst h
      rw [forDown_eq_self _ _ _ _ (le_refl _)]
      exact h0
    · have hle2 : lo ≤ n := by omega
      rw [forDown_succ _ _ _ _ hle2]
      exact ih _ hle2 (hstep n st hle2 (by omega) h0) (fun i s h1 h2 => hstep i s h1 (by omega))

/-- A reflection `x ↦ x − (v'x / v_k)·v` with `v'v = 2·v_k` preserves inner
products. -/
theorem reflect_dot (S : Finset ℕ) (v x y : ℕ → R) (vk : R) (hvk : vk ≠ 0)
    (hvv : ∑ i in S, v i * v i = 2 * vk) :
    ∑ i in S, (x i + (-(∑ j in S, v j * x j) / vk) * v i) *
        (y i + (-(∑ j in S, v j * y j) / vk) * v i) = ∑ i in S, x i * y i := by
  have expand : ∀ (a b : R), ∑ i in S, (x i + a * v i) * (y i + b * v i) =
      ∑ i in S, x i * y i + b * ∑ i in S, v i * x i + a * ∑ i in S, v i * y i +
        a * b * ∑ i in S, v i * v i := by
    intro a b
    rw [Finset.mul_sum, Finset.mul_sum, Finset.mul_sum, ← Finset.sum_add_distrib,
      ← Finset.sum_add_distrib, ← Finset.sum_add_distrib]
    apply Finset.sum_congr rfl
    intro i _
    ring
  rw [expand, hvv]
  field_simp
  ring

theorem sum_range_eq_Ico (f : ℕ → R) (k m : ℕ) (hk : k ≤ m) (h : ∀ i, i < k → f i = 0) :
    ∑ i in Finset.range m, f i = ∑ i in Finset.Ico k m, f i := by
  rw [← Finset.sum_range_add_sum_Ico f hk, Finset.sum_eq_zero (fun i hi => h i (Finset.mem_range.mp hi)),
    zero_add]

/-- Lines 265–270: the columns `nct .. m-1` of `U` become unit vectors. -/
theorem genU_identity (m nct : ℕ) (U : Mat R) (hWF : U.WF) (hr : U.rows = m) (hc : U.cols = m) :
    (forUp nct m (fun j U => (forUp 0 m (fun i U => U.set i j 0) U).set j j 1) U).WF ∧
      (forUp nct m (fun j U => (forUp 0 m (fun i U => U.set i j 0) U).set j j 1) U).rows = m ∧
      (forUp nct m (fun j U => (forUp 0 m (fun i U => U.set i j 0) U).set j j 1) U).cols = m ∧
      ∀ i l, (forUp nct m (fun j U => (forUp 0 m (fun i U => U.set i j 0) U).set j j 1) U).get i l
        = if nct ≤ l ∧ l < m ∧ i < m then (if i = l then 1 else 0) else U.get i l := by
  rcases Nat.lt_or_ge m nct with h | h
  · rw [forUp_eq_self _ _ _ _ (le_of_lt h)]
    exact ⟨hWF, hr, hc, fun i l => by rw [if_neg (by omega)]⟩
  · exact forUp_inv (fun j (B : Mat R) => B.WF ∧ B.rows = m ∧ B.cols = m ∧
        ∀ i l, B.get i l =
          if nct ≤ l ∧ l < j ∧ i < m then (if i = l then 1 else 0) else U.get i l) nct m
      (fun j U => (forUp 0 m (fun i U => U.set i j 0) U).set j j 1) U h
      ⟨hWF, hr, hc, fun i l => by rw [if_neg (by omega)]⟩
      (by
        intro j B hj1 hj2 ⟨h1, h2, h3, h4⟩
        obtain ⟨g1, g2, g3, g4⟩ := forUp_col B h1 0 m j (fun _ _ => 0) (by omega) (by omega)
        refine ⟨g1.set_entry _ _ _, by rw [Mat.rows_set, g2, h2], by rw [Mat.cols_set, g3, h3],
          fun i l => ?_⟩
        rw [Mat.entry_set _ g1, g2, g3, h2, h3, g4, h4]
        by_cases hl : l = j
        · subst hl
          by_cases hi : i = l
          · subst hi
            rw [if_pos ⟨rfl, rfl, hj2, hj2⟩, if_pos ⟨hj1, by omega, hj2⟩, if_pos rfl]
          · rw [if_neg (fun h => hi h.1.symm)]
            by_cases him : i < m
            · rw [if_pos ⟨rfl, Nat.zero_le _, him⟩, if_pos ⟨hj1, by omega, him⟩, if_neg hi]
            · rw [if_neg (fun h => him h.2.2), if_neg (by omega), if_neg (fun h => him h.2.2)]
        · rw [if_neg (fun h => hl h.2.1.symm), if_neg (fun h => hl h.1)]
          by_cases hc1 : nct ≤ l ∧ l < j ∧ i < m
          · rw [if_pos hc1,
              if_pos (show nct ≤ l ∧ l < j + 1 ∧ i < m from ⟨hc1.1, by omega, hc1.2.2⟩)]
          · rw [if_neg hc1, if_neg]
            rintro ⟨h5, h6, h7⟩
            exact hc1 ⟨h5, by omega, h7⟩)

/-- Lines 273–282: the reflection with the vector in column `k` applied to the
columns `k+1 .. m-1`. -/
theorem genU_apply (m k : ℕ) (U : Mat R) (hWF : U.WF) (hr : U.rows = m) (hc : U.cols = m)
    (hk : k < m) :
    (forUp (k+1) m (fun j U =>
        forUp k m (fun i W => W.set i j (W.get i j +
          (-(forUp k m (fun i t => t + U.get i k * U.get i j) 0) / U.get k k) * W.get i k)) U)
        U).WF ∧
      (forUp (k+1) m (fun j U =>
        forUp k m (fun i W => W.set i j (W.get i j +
          (-(forUp k m (fun i t => t + U.get i k * U.get i j) 0) / U.get k k) * W.get i k)) U)
        U).rows = m ∧
      (forUp (k+1) m (fun j U =>
        forUp k m (fun i W => W.set i j (W.get i j +
          (-(forUp k m (fun i t => t + U.get i k * U.get i j) 0) / U.get k k) * W.get i k)) U)
        U).cols = m ∧
      ∀ i l, (forUp (k+1) m (fun j U =>
        forUp k m (fun i W => W.set i j (W.get i j +
          (-(forUp k m (fun i t => t + U.get i k * U.get i j) 0) / U.get k k) * W.get i k)) U)
        U).get i l =
        if k < l ∧ l < m ∧ k ≤ i ∧ i < m then
          U.get i l + (-(∑ r in Finset.Ico k m, U.get r k * U.get r l) / U.get k k) * U.get i k
        else U.get i l := by
  exact forUp_inv (fun j (B : Mat R) => B.WF ∧ B.rows = m ∧ B.cols = m ∧
      ∀ i l, B.get i l =
        if k < l ∧ l < j ∧ k ≤ i ∧ i < m then
          U.get i l + (-(∑ r in Finset.Ico k m, U.get r k * U.get r l) / U.get k k) * U.get i k
        else U.get i l) (k+1) m _ U (by omega)
    ⟨hWF, hr, hc, fun i l => by rw [if_neg (by omega)]⟩
    (by
      intro j B hj1 hj2 ⟨h1, h2, h3, h4⟩
      have hBk : ∀ i, B.get i k = U.get i k := fun i => by rw [h4, if_neg (by omega)]
      have hBj : ∀ i, B.get i j = U.get i j := fun i => by rw [h4, if_neg (by omega)]
      have ht : forUp k m (fun i t => t + B.get i k * B.get i j) 0 =
          ∑ r in Finset.Ico k m, U.get r k * U.get r j := by
        rw [forUp_sum_Ico k m (fun i => B.get i k * B.get i j) 0, zero_add]
        apply Finset.sum_congr rfl
        intro r _
        rw [hBk, hBj]
      obtain ⟨g1, g2, g3, g4⟩ := forUp_col2 B h1 k m j k
        (fun _ x y => x + (-(forUp k m (fun i t => t + B.get i k * B.get i j) 0) / B.get k k) * y)
        (by omega) (by omega) (by omega)
      refine ⟨g1, g2.trans h2, g3.trans h3, fun i l => ?_⟩
      rw [g4]
      by_cases hl : l = j
      · subst hl
        by_cases hi : k ≤ i ∧ i < m
        · rw [if_pos ⟨rfl, hi⟩, if_pos ⟨by omega, by omega, hi⟩, ht, hBk, hBj, hBk]
        · rw [if_neg (fun h => hi h.2), if_neg (fun h => hi h.2.2), hBj]
      · rw [if_neg (fun h => hl h.1), h4]
        by_cases hc1 : k < l ∧ l < j ∧ k ≤ i ∧ i < m
        · rw [if_pos hc1, if_pos (show k < l ∧ l < j + 1 ∧ k ≤ i ∧ i < m from
            ⟨hc1.1, by omega, hc1.2.2⟩)]
        · rw [if_neg hc1, if_neg]
          rintro ⟨h5, h6, h7⟩
          exact hc1 ⟨h5, by omega, h7⟩)

/-- Lines 272–289: one pass of the generation of `U` for a column `k` with
`s(k) ≠ 0`. -/
theorem genU_step_nonzero (m nct : ℕ) (s : Vec R) (k : ℕ) (U : Mat R) (hk : k < m)
    (hkn : k < nct) (hsk : s.get k ≠ 0) (h : GenU m nct s (k+1) U) :
    GenU m nct s k
      (forUp 0 (k-1) (fun i U => U.set i k 0)
        ((forUp k m (fun i U => U.set i k (-(U.get i k)))
          (forUp (k+1) m (fun j U =>
            forUp k m (fun i W => W.set i j (W.get i j +
              (-(forUp k m (fun i t => t + U.get i k * U.get i j) 0) / U.get k k) * W.get i k)) U)
            U)).set k k
          (1 + (forUp k m (fun i U => U.set i k (-(U.get i k)))
            (forUp (k+1) m (fun j U =>
              forUp k m (fun i W => W.set i j (W.get i j +
                (-(forUp k m (fun i t => t + U.get i k * U.get i j) 0) / U.get k k) * W.get i k))
                U) U)).get k k))) := by
  obtain ⟨hWF, hr, hc, hH, hsup, hgram⟩ := h
  obtain ⟨hzero, hhc⟩ := hH k (by omega) hkn
  obtain ⟨hvv, hvk⟩ := hhc hsk
  obtain ⟨a1, a2, a3, a4⟩ := genU_apply m k U hWF hr hc hk
  generalize forUp (k+1) m (fun j U =>
      forUp k m (fun i W => W.set i j (W.get i j +
        (-(forUp k m (fun i t => t + U.get i k * U.get i j) 0) / U.get k k) * W.get i k)) U)
      U = Ua at a1 a2 a3 a4 ⊢
  obtain ⟨n1, n2, n3, n4⟩ := forUp_col Ua a1 k m k (fun _ x => -x) (by omega) (by omega)
  generalize forUp k m (fun i U => U.set i k (-(U.get i k))) Ua = Un at n1 n2 n3 n4 ⊢
  have s1 : (Un.set k k (1 + Un.get k k)).WF := n1.set_entry _ _ _
  obtain ⟨z1, z2, z3, z4⟩ := forUp_col (Un.set k k (1 + Un.get k k)) s1 0 (k-1) k
    (fun _ _ => 0) (by rw [Mat.rows_set, n2, a2]; omega) (by rw [Mat.cols_set, n3, a3]; omega)
  generalize hUf : forUp 0 (k-1) (fun i U => U.set i k 0) (Un.set k k (1 + Un.get k k)) = Uf
    at z1 z2 z3 z4 ⊢
  -- the entries of the result
  have hcolk : ∀ i, i < m → Uf.get i k =
      (if i = k then 1 else 0) + (-(∑ r in Finset.Ico k m, U.get r k *
        (if r = k then 1 else 0)) / U.get k k) * (if k ≤ i then U.get i k else 0) := by
    intro i hi
    have hsum : ∑ r in Finset.Ico k m, U.get r k * (if r = k then (1:R) else 0) = U.get k k := by
      simp only [mul_ite, mul_one, mul_zero]
      rw [Finset.sum_ite_eq' (Finset.Ico k m) k (fun r => U.get r k),
        if_pos (Finset.mem_Ico.mpr ⟨le_refl _, hk⟩)]
    rw [hsum, neg_div, div_self hvk, z4, Mat.entry_set _ n1, n2, n3, a2, a3, n4, a4,
      if_neg (show ¬ (k < k ∧ k < m ∧ k ≤ k ∧ k < m) by omega), n4, a4,
      if_neg (show ¬ (k < k ∧ k < m ∧ k ≤ i ∧ i < m) by omega)]
    by_cases h1 : i < k - 1
    · rw [if_pos ⟨rfl, Nat.zero_le _, h1⟩, if_neg (by omega), if_neg (by omega)]
      ring
    · rw [if_neg (fun h => h1 h.2.2)]
      by_cases h2 : i = k
      · subst h2
        rw [if_pos ⟨rfl, rfl, hk, hk⟩, if_pos ⟨rfl, le_refl _, hk⟩, if_pos rfl, if_pos (le_refl _)]
        ring
      · rw [if_neg (fun h => h2 h.1.symm), if_neg h2]
        by_cases h3 : k ≤ i
        · rw [if_pos ⟨rfl, h3, hi⟩, if_pos h3]
          ring
        · rw [if_neg (fun h => h3 h.2.1), if_neg h3, hzero i (by omega)]
          ring
  have hcoll : ∀ i l, l ≠ k → Uf.get i l = Ua.get i l := by
    intro i l hl
    rw [z4, if_neg (fun h => hl h.1), Mat.entry_set_ne _ n1 _ _ _ _ _ (Or.inr (Ne.symm hl)), n4,
      if_neg (fun h => hl h.1)]
  refine ⟨z1, by rw [z2, Mat.rows_set, n2, a2], by rw [z3, Mat.cols_set, n3, a3], ?_, ?_, ?_⟩
  · intro j hj hjn
    apply (hH j (by omega) hjn).congr rfl
    intro i
    rw [hcoll i j (by omega), a4, if_neg (by omega)]
  · intro i j hj1 hj2 hi
    by_cases hjk : j = k
    · subst hjk
      rw [hcolk i (by omega), if_neg (by omega), if_neg (by omega)]
      ring
    · rw [hcoll i j hjk, a4, if_neg (by omega)]
      exact hsup i j (by omega) hj2 (by omega)
  · -- orthonormality of the columns k .. m-1
    intro j1 j2 h1 h1m h2 h2m
    -- every new column is the reflection of `x l`
    have hrefl : ∀ l, k ≤ l → l < m → ∀ i, k ≤ i → i < m → Uf.get i l =
        (if l = k then (if i = k then 1 else 0) else U.get i l) +
          (-(∑ r in Finset.Ico k m, U.get r k *
            (if l = k then (if r = k then 1 else 0) else U.get r l)) / U.get k k) * U.get i k := by
      intro l hl1 hl2 i hi1 hi2
      by_cases hlk : l = k
      · subst hlk
        rw [hcolk i hi2, if_pos hi1]
        simp only [if_true]
      · rw [hcoll i l hlk, a4, if_pos ⟨by omega, hl2, hi1, hi2⟩]
        simp only [if_neg hlk]
    unfold Mat.gram
    rw [sum_range_eq_Ico _ k m (le_of_lt hk) (fun i hi => by
      have : Uf.get i j1 = 0 := by
        by_cases hjk : j1 = k
        · subst hjk
          rw [hcolk i (by omega), if_neg (by omega), if_neg (by omega)]
          ring
        · rw [hcoll i j1 hjk, a4, if_neg (by omega)]
          exact hsup i j1 (by omega) h1m (by omega)
      rw [this, zero_mul])]
    have hcongr : ∑ i in Finset.Ico k m, Uf.get i j1 * Uf.get i j2 =
        ∑ i in Finset.Ico k m,
          ((if j1 = k then (if i = k then 1 else 0) else U.get i j1) +
            (-(∑ r in Finset.Ico k m, U.get r k *
              (if j1 = k then (if r = k then 1 else 0) else U.get r j1)) / U.get k k) *
              U.get i k) *
          ((if j2 = k then (if i = k then 1 else 0) else U.get i j2) +
            (-(∑ r in Finset.Ico k m, U.get r k *
              (if j2 = k then (if r = k then 1 else 0) else U.get r j2)) / U.get k k) *
              U.get i k) := by
      apply Finset.sum_congr rfl
      intro i hi
      have hi2 := Finset.mem_Ico.mp hi
      rw [hrefl j1 h1 h1m i hi2.1 hi2.2, hrefl j2 h2 h2m i hi2.1 hi2.2]
    rw [hcongr, reflect_dot (Finset.Ico k m) (fun i => U.get i k)
      (fun i => if j1 = k then (if i = k then 1 else 0) else U.get i j1)
      (fun i => if j2 = k then (if i = k then 1 else 0) else U.get i j2) (U.get k k) hvk hvv]
    -- inner products of the columns before the reflection
    have hold : ∀ l1 l2, k < l1 → l1 < m → k < l2 → l2 < m →
        ∑ i in Finset.Ico k m, U.get i l1 * U.get i l2 = if l1 = l2 then 1 else 0 := by
      intro l1 l2 g1 g2 g3 g4
      rw [← hgram l1 l2 (by omega) g2 (by omega) g4]
      unfold Mat.gram
      rw [sum_range_eq_Ico _ k m (le_of_lt hk) (fun i hi => by
        rw [hsup i l1 (by omega) g2 (by omega), zero_mul])]
    by_cases e1 : j1 = k
    · by_cases e2 : j2 = k
      · simp only [e1, e2, if_true]
        simp only [mul_ite, mul_one, mul_zero]
        rw [Finset.sum_ite_eq' (Finset.Ico k m) k (fun i => if i = k then (1:R) else 0),
          if_pos (Finset.mem_Ico.mpr ⟨le_refl _, hk⟩), if_pos rfl]
      · simp only [e1, if_true, if_neg e2]
        simp only [ite_mul, one_mul, zero_mul]
        rw [Finset.sum_ite_eq' (Finset.Ico k m) k (fun i => U.get i j2),
          if_pos (Finset.mem_Ico.mpr ⟨le_refl _, hk⟩), if_neg (Ne.symm e2)]
        exact hsup k j2 (by omega) h2m (by omega)
    · by_cases e2 : j2 = k
      · simp only [e2, if_true, if_neg e1]
        simp only [mul_ite, mul_one, mul_zero]
        rw [Finset.sum_ite_eq' (Finset.Ico k m) k (fun i => U.get i j1),
          if_pos (Finset.mem_Ico.mpr ⟨le_refl _, hk⟩)]
        exact hsup k j1 (by omega) h1m (by omega)
      · simp only [if_neg e1, if_neg e2]
        exact hold j1 j2 (by omega) h1m (by omega) h2m

/-- Lines 290–295: one pass of the generation of `U` for a column `k` with
`s(k) = 0`. -/
theorem genU_step_zero (m nct : ℕ) (s : Vec R) (k : ℕ) (U : Mat R) (hk : k < m)
    (h : GenU m nct s (k+1) U) :
    GenU m nct s k ((forUp 0 m (fun i U => U.set i k 0) U).set k k 1) := by
  obtain ⟨hWF, hr, hc, hH, hsup, hgram⟩ := h
  obtain ⟨z1, z2, z3, z4⟩ := forUp_col U hWF 0 m k (fun _ _ => 0) (by omega) (by omega)
  generalize forUp 0 m (fun i U => U.set i k 0) U = Uz at z1 z2 z3 z4 ⊢
  have hcolk : ∀ i, i < m → (Uz.set k k 1).get i k = if i = k then 1 else 0 := by
    intro i hi
    rw [Mat.entry_set _ z1, z2, z3, hr, hc, z4]
    by_cases h2 : i = k
    · subst h2
      rw [if_pos ⟨rfl, rfl, hk, hk⟩, if_pos rfl]
    · rw [if_neg (fun h => h2 h.1.symm), if_pos ⟨rfl, Nat.zero_le _, hi⟩, if_neg h2]
  have hcoll : ∀ i l, l ≠ k → (Uz.set k k 1).get i l = U.get i l := by
    intro i l hl
    rw [Mat.entry_set_ne _ z1 _ _ _ _ _ (Or.inr (Ne.symm hl)), z4, if_neg (fun h => hl h.1)]
  refine ⟨z1.set_entry _ _ _, by rw [Mat.rows_set, z2, hr], by rw [Mat.cols_set, z3, hc], ?_, ?_, ?_⟩
  · intro j hj hjn
    apply (hH j (by omega) hjn).congr rfl
    intro i
    rw [hcoll i j (by omega)]
  · intro i j hj1 hj2 hi
    by_cases hjk : j = k
    · subst hjk
      rw [hcolk i (by omega), if_neg (by omega)]
    · rw [hcoll i j hjk]
      exact hsup i j (by omega) hj2 (by omega)
  · intro j1 j2 h1 h1m h2 h2m
    unfold Mat.gram
    have hprod : ∀ i ∈ Finset.range m, (Uz.set k k 1).get i j1 * (Uz.set k k 1).get i j2 =
        (if j1 = k then (if i = k then 1 else 0) else U.get i j1) *
          (if j2 = k then (if i = k then 1 else 0) else U.get i j2) := by
      intro i hi
      have hi2 := Finset.mem_range.mp hi
      by_cases e1 : j1 = k
      · by_cases e2 : j2 = k
        · rw [if_pos e1, if_pos e2, e1, e2, hcolk i hi2]
        · rw [if_pos e1, if_neg e2, e1, hcolk i hi2, hcoll i j2 e2]
      · by_cases e2 : j2 = k
        · rw [if_neg e1, if_pos e2, e2, hcolk i hi2, hcoll i j1 e1]
        · rw [if_neg e1, if_neg e2, hcoll i j1 e1, hcoll i j2 e2]
    rw [Finset.sum_congr rfl hprod]
    by_cases e1 : j1 = k
    · by_cases e2 : j2 = k
      · simp only [if_pos e1, if_pos e2]
        simp only [mul_ite, mul_one, mul_zero]
        rw [Finset.sum_ite_eq' (Finset.range m) k (fun i => if i = k then (1:R) else 0),
          if_pos (Finset.mem_range.mpr hk), if_pos rfl, if_pos (e1.trans e2.symm)]
      · simp only [if_pos e1, if_neg e2]
        simp only [ite_mul, one_mul, zero_mul]
        rw [Finset.sum_ite_eq' (Finset.range m) k (fun i => U.get i j2),
          if_pos (Finset.mem_range.mpr hk), if_neg (fun h => e2 (h.symm.trans e1))]
        exact hsup k j2 (by omega) h2m (by omega)
    · by_cases e2 : j2 = k
      · simp only [if_neg e1, if_pos e2]
        simp only [mul_ite, mul_one, mul_zero]
        rw [Finset.sum_ite_eq' (Finset.range m) k (fun i => U.get i j1),
          if_pos (Finset.mem_range.mpr hk), if_neg (fun h => e1 (h.trans e2))]
        exact hsup k j1 (by omega) h1m (by omega)
      · simp only [if_neg e1, if_neg e2]
        exact hgram j1 j2 (by omega) h1m (by omega) h2m

/-- The generation of `U` (lines 264–297) from reflection vectors yields a
matrix with orthonormal columns. -/
theorem generateU_orthonormal (m nct : ℕ) (s : Vec R) (U : Mat R) (hnct : nct ≤ m)
    (hWF : U.WF) (hr : U.rows = m) (hc : U.cols = m)
    (hH : ∀ j, j < nct → HouseCol m s U j) :
    (generateU m nct s U).WF ∧ (generateU m nct s U).rows = m ∧
      (generateU m nct s U).cols = m ∧ (generateU m nct s U).Orthonormal m := by
  obtain ⟨i1, i2, i3, i4⟩ := genU_identity m nct U hWF hr hc
  have h0 : GenU m nct s nct
      (forUp nct m (fun j U => (forUp 0 m (fun i U => U.set i j 0) U).set j j 1) U) := by
    refine ⟨i1, i2, i3, ?_, ?_, ?_⟩
    · intro j hj _
      apply (hH j hj).congr rfl
      intro i
      rw [i4, if_neg (by omega)]
    · intro i j hj1 hj2 hi
      rw [i4, if_pos ⟨hj1, hj2, by omega⟩, if_neg (by omega)]
    · intro j1 j2 h1 h1m h2 h2m
      unfold Mat.gram
      have : ∀ i ∈ Finset.range m,
          (forUp nct m (fun j U => (forUp 0 m (fun i U => U.set i j 0) U).set j j 1) U).get i j1 *
          (forUp nct m (fun j U => (forUp 0 m (fun i U => U.set i j 0) U).set j j 1) U).get i j2
          = if i = j1 then (if j1 = j2 then 1 else 0) else 0 := by
        intro i hi
        have hi2 := Finset.mem_range.mp hi
        rw [i4, i4, if_pos (show nct ≤ j1 ∧ j1 < m ∧ i < m from ⟨h1, h1m, hi2⟩),
          if_pos (show nct ≤ j2 ∧ j2 < m ∧ i < m from ⟨h2, h2m, hi2⟩)]
        by_cases e1 : i = j1
        · rw [if_pos e1, if_pos e1, e1, one_mul]
        · rw [if_neg e1, if_neg e1, zero_mul]
      rw [Finset.sum_congr rfl this,
        Finset.sum_ite_eq' (Finset.range m) j1 (fun _ => if j1 = j2 then (1:R) else 0),
        if_pos (Finset.mem_range.mpr h1m)]
  have hfin : GenU m nct s 0 (generateU m nct s U) := by
    unfold generateU
    dsimp only
    apply forDown_inv (fun k (B : Mat R) => GenU m nct s k B) 0 nct _ _ (Nat.zero_le _) h0
    intro k B _ hk hB
    dsimp only
    split_ifs with hsk
    · exact genU_step_nonzero m nct s k B (by omega) hk hsk hB
    · exact genU_step_zero m nct s k B (by omega) hB
  obtain ⟨f1, f2, f3, _, _, f6⟩ := hfin
  exact ⟨f1, f2, f3, fun i hi j hj => f6 i j (Nat.zero_le _) hi (Nat.zero_le _) hj⟩

/-- The plane rotation of columns `a ≠ b` over all `cnt` rows. -/
theorem rot_get (M : Mat R) (hWF : M.WF) (cnt a b : ℕ) (cs sn : R) (hcnt : cnt ≤ M.rows)
    (ha : a < M.cols) (hb : b < M.cols) :
    (rot cnt M a b cs sn).WF ∧ (rot cnt M a b cs sn).rows = M.rows ∧
      (rot cnt M a b cs sn).cols = M.cols ∧
      ∀ i j, (rot cnt M a b cs sn).get i j =
        if i < cnt ∧ j = a then cs * M.get i a + sn * M.get i b
        else if i < cnt ∧ j = b then -sn * M.get i a + cs * M.get i b
        else M.get i j := by
  unfold rot
  exact forUp_inv (fun t (B : Mat R) => B.WF ∧ B.rows = M.rows ∧ B.cols = M.cols ∧
      ∀ i j, B.get i j =
        if i < t ∧ j = a then cs * M.get i a + sn * M.get i b
        else if i < t ∧ j = b then -sn * M.get i a + cs * M.get i b
        else M.get i j) 0 cnt _ M (Nat.zero_le _)
    ⟨hWF, rfl, rfl, fun i j => by rw [if_neg (by omega), if_neg (by omega)]⟩
    (by
      intro t B _ ht ⟨h1, h2, h3, h4⟩
      have hBa : B.get t a = M.get t a := by
        rw [h4, if_neg (by omega), if_neg (by omega)]
      have hBb : B.get t b = M.get t b := by
        rw [h4, if_neg (by omega), if_neg (by omega)]
      have hW2 : (B.set t b (-sn * B.get t a + cs * B.get t b)).WF := h1.set_entry _ _ _
      refine ⟨hW2.set_entry _ _ _, h2, h3, fun i j => ?_⟩
      dsimp only
      rw [Mat.entry_set _ hW2, Mat.entry_set _ h1, Mat.rows_set, Mat.cols_set, h2, h3, hBa, hBb, h4]
      by_cases hit : i = t
      · subst hit
        split_ifs <;> first | rfl | (exfalso; omega)
      · split_ifs <;> first | rfl | (exfalso; omega))

/-- A plane rotation of two columns keeps the columns orthonormal. -/
theorem rot_orthonormal (M : Mat R) (m : ℕ) (hWF : M.WF) (hr : M.rows = m) (hc : M.cols = m)
    (hM : M.Orthonormal m) (a b : ℕ) (cs sn : R) (ha : a < m) (hb : b < m) (hab : a ≠ b)
    (hcs : cs * cs + sn * sn = 1) :
    (rot m M a b cs sn).WF ∧ (rot m M a b cs sn).rows = m ∧ (rot m M a b cs sn).cols = m ∧
      (rot m M a b cs sn).Orthonormal m := by
  obtain ⟨r1, r2, r3, r4⟩ := rot_get M hWF m a b cs sn (by omega) (by omega) (by omega)
  refine ⟨r1, r2.trans hr, r3.trans hc, ?_⟩
  -- every column of the result is a combination of columns a, b and itself
  have hcomb : ∀ j, ∀ i ∈ Finset.range m, (rot m M a b cs sn).get i j =
      (if j = a then cs else if j = b then -sn else 0) * M.get i a +
      (if j = a then sn else if j = b then cs else 0) * M.get i b +
      (if j = a then 0 else if j = b then 0 else 1) * M.get i j := by
    intro j i hi
    have hi2 := Finset.mem_range.mp hi
    rw [r4]
    by_cases hja : j = a
    · rw [if_pos ⟨hi2, hja⟩, if_pos hja, if_pos hja, if_pos hja]; ring
    · rw [if_neg (fun h => hja h.2), if_neg hja, if_neg hja, if_neg hja]
      by_cases hjb : j = b
      · rw [if_pos ⟨hi2, hjb⟩, if_pos hjb, if_pos hjb, if_pos hjb]; ring
      · rw [if_neg (fun h => hjb h.2), if_neg hjb, if_neg hjb, if_neg hjb]; ring
  have hg : ∀ x y, x < m → y < m → ∑ i in Finset.range m, M.get i x * M.get i y =
      if x = y then 1 else 0 := fun x y hx hy => hM x hx y hy
  intro j1 h1 j2 h2
  unfold Mat.gram
  have hexp : ∀ (p1 q1 r1 p2 q2 r2 : R),
      ∑ i in Finset.range m, (p1 * M.get i a + q1 * M.get i b + r1 * M.get i j1) *
        (p2 * M.get i a + q2 * M.get i b + r2 * M.get i j2) =
      p1 * p2 * (∑ i in Finset.range m, M.get i a * M.get i a) +
      p1 * q2 * (∑ i in Finset.range m, M.get i a * M.get i b) +
      p1 * r2 * (∑ i in Finset.range m, M.get i a * M.get i j2) +
      q1 * p2 * (∑ i in Finset.range m, M.get i b * M.get i a) +
      q1 * q2 * (∑ i in Finset.range m, M.get i b * M.get i b) +
      q1 * r2 * (∑ i in Finset.range m, M.get i b * M.get i j2) +
      r1 * p2 * (∑ i in Finset.range m, M.get i j1 * M.get i a) +
      r1 * q2 * (∑ i in Finset.range m, M.get i j1 * M.get i b) +
      r1 * r2 * (∑ i in Finset.range m, M.get i j1 * M.get i j2) := by
    intro p1 q1 r1 p2 q2 r2
    simp only [Finset.mul_sum, ← Finset.sum_add_distrib]
    apply Finset.sum_congr rfl
    intro i _
    ring
  rw [Finset.sum_congr rfl (fun i hi => by rw [hcomb j1 i hi, hcomb j2 i hi]), hexp,
    hg a a ha ha, hg a b ha hb, hg a j2 ha h2, hg b a hb ha, hg b b hb hb, hg b j2 hb h2,
    hg j1 a h1 ha, hg j1 b h1 hb, hg j1 j2 h1 h2]
  have hba : b ≠ a := Ne.symm hab
  by_cases e1 : j1 = a
  · by_cases e2 : j2 = a
    · simp only [e1, e2, if_true, if_neg hab, if_neg hba]
      linear_combination hcs
    · by_cases e3 : j2 = b
      · simp only [e1, e3, if_true, if_neg hab, if_neg hba]
        ring
      · simp only [e1, if_true, if_neg e2, if_neg e3, if_neg hab, if_neg hba,
          if_neg (Ne.symm e2), if_neg (Ne.symm e3)]
        ring
  · by_cases e1b : j1 = b
    · by_cases e2 : j2 = a
      · simp only [e1b, e2, if_true, if_neg hab, if_neg hba]
        ring
      · by_cases e3 : j2 = b
        · simp only [e1b, e3, if_true, if_neg hab, if_neg hba]
          linear_combination hcs
        · simp only [e1b, if_true, if_neg e2, if_neg e3, if_neg hab, if_neg hba,
            if_neg (Ne.symm e2), if_neg (Ne.symm e3)]
          ring
    · by_cases e2 : j2 = a
      · simp only [e2, if_true, if_neg e1, if_neg e1b, if_neg hab, if_neg hba]
        ring
      · by_cases e3 : j2 = b
        · simp only [e3, if_true, if_neg e1, if_neg e1b, if_neg hab, if_neg hba]
          ring
        · simp only [if_neg e1, if_neg e1b, if_neg e2, if_neg e3, if_neg hab, if_neg hba,
            if_neg (Ne.symm e1), if_neg (Ne.symm e1b)]
          ring

/-- The exchange of columns `k` and `k+1` over all `cnt` rows. -/
theorem swapCols_get (M : Mat R) (hWF : M.WF) (cnt k : ℕ) (hcnt : cnt ≤ M.rows)
    (hk : k + 1 < M.cols) :
    (swapCols cnt M k).WF ∧ (swapCols cnt M k).rows = M.rows ∧
      (swapCols cnt M k).cols = M.cols ∧
      ∀ i j, (swapCols cnt M k).get i j =
        if i < cnt ∧ j = k then M.get i (k+1)
        else if i < cnt ∧ j = k + 1 then M.get i k
        else M.get i j := by
  unfold swapCols
  exact forUp_inv (fun t (B : Mat R) => B.WF ∧ B.rows = M.rows ∧ B.cols = M.cols ∧
      ∀ i j, B.get i j =
        if i < t ∧ j = k then M.get i (k+1)
        else if i < t ∧ j = k + 1 then M.get i k
        else M.get i j) 0 cnt _ M (Nat.zero_le _)
    ⟨hWF, rfl, rfl, fun i j => by rw [if_neg (by omega), if_neg (by omega)]⟩
    (by
      intro t B _ ht ⟨h1, h2, h3, h4⟩
      have hBa : B.get t k = M.get t k := by
        rw [h4, if_neg (by omega), if_neg (by omega)]
      have hBb : B.get t (k+1) = M.get t (k+1) := by
        rw [h4, if_neg (by omega), if_neg (by omega)]
      have hW2 : (B.set t (k+1) (B.get t k)).WF := h1.set_entry _ _ _
      refine ⟨hW2.set_entry _ _ _, h2, h3, fun i j => ?_⟩
      dsimp only
      rw [Mat.entry_set _ hW2, Mat.entry_set _ h1, Mat.rows_set, Mat.cols_set, h2, h3, hBa, hBb, h4]
      by_cases hit : i = t
      · subst hit
        split_ifs <;> first | rfl | (exfalso; omega)
      · split_ifs <;> first | rfl | (exfalso; omega))

/-- Exchanging two columns keeps the columns orthonormal. -/
theorem swapCols_orthonormal (M : Mat R) (m : ℕ) (hWF : M.WF) (hr : M.rows = m)
    (hc : M.cols = m) (hM : M.Orthonormal m) (k : ℕ) (hk : k + 1 < m) :
    (swapCols m M k).WF ∧ (swapCols m M k).rows = m ∧ (swapCols m M k).cols = m ∧
      (swapCols m M k).Orthonormal m := by
  obtain ⟨r1, r2, r3, r4⟩ := swapCols_get M hWF m k (by omega) (by omega)
  refine ⟨r1, r2.trans hr, r3.trans hc, ?_⟩
  have hcol : ∀ j, ∀ i ∈ Finset.range m, (swapCols m M k).get i j =
      M.get i (if j = k then k + 1 else if j = k + 1 then k else j) := by
    intro j i hi
    have hi2 := Finset.mem_range.mp hi
    rw [r4]
    by_cases hja : j = k
    · rw [if_pos ⟨hi2, hja⟩, if_pos hja]
    · rw [if_neg (fun h => hja h.2), if_neg hja]
      by_cases hjb : j = k + 1
      · rw [if_pos ⟨hi2, hjb⟩, if_pos hjb]
      · rw [if_neg (fun h => hjb h.2), if_neg hjb]
  intro j1 h1 j2 h2
  unfold Mat.gram
  rw [Finset.sum_congr rfl (fun i hi => by rw [hcol j1 i hi, hcol j2 i hi])]
  have := hM (if j1 = k then k + 1 else if j1 = k + 1 then k else j1) (by split_ifs <;> omega)
    (if j2 = k then k + 1 else if j2 = k + 1 then k else j2) (by split_ifs <;> omega)
  unfold Mat.gram at this
  rw [this]
  split_ifs <;> first | rfl | (exfalso; omega)

/-! ### The classification and `U` -/

/-- The scan for a negligible `e(k)` passes only non-zero entries. -/
theorem scanE_spec (eps : R) (heps : 0 ≤ eps) (s e : Vec R) (a : ℕ) :
    scanE eps s e a ≤ a ∧ ∀ j, scanE eps s e a ≤ j → j < a → e.get j ≠ 0 := by
  induction a with
  | zero => exact ⟨le_refl _, fun j _ h => absurd h (Nat.not_lt_zero _)⟩
  | succ k ih =>
    rw [scanE]
    split_ifs with h
    · exact ⟨le_refl _, fun j h1 h2 => by omega⟩
    · refine ⟨by omega, fun j h1 h2 => ?_⟩
      rcases Nat.lt_or_ge j k with h3 | h3
      · exact ih.2 j h1 h3
      · have hjk : j = k := by omega
        rw [hjk]
        intro h0
        apply h
        rw [h0, abs_zero]
        exact mul_nonneg heps (add_nonneg (abs_nonneg _) (abs_nonneg _))

/-- The scan for a negligible `s(ks)` passes only non-zero entries. -/
theorem scanS_spec (eps : R) (heps : 0 ≤ eps) (s e : Vec R) (p k1 a : ℕ) (h : k1 ≤ a) :
    k1 ≤ scanS eps s e p k1 a ∧ ∀ j, scanS eps s e p k1 a ≤ j → j < a → s.get j ≠ 0 := by
  induction a with
  | zero =>
    rw [scanS]
    exact ⟨h, fun j _ h2 => absurd h2 (Nat.not_lt_zero _)⟩
  | succ n ih =>
    rw [scanS]
    by_cases h1 : n + 1 = k1
    · rw [if_pos h1]
      exact ⟨by omega, fun j h2 h3 => by omega⟩
    · rw [if_neg h1]
      dsimp only
      have hT : (0:R) ≤ (if n ≠ p then |e.get n| else 0) +
          (if n ≠ k1 then |e.get (n-1)| else 0) := by
        refine add_nonneg ?_ ?_
        · split_ifs
          · exact abs_nonneg _
          · exact le_refl _
        · split_ifs
          · exact abs_nonneg _
          · exact le_refl _
      generalize (if n ≠ p then |e.get n| else 0) +
          (if n ≠ k1 then |e.get (n-1)| else 0) = t at hT ⊢
      by_cases h2 : |s.get n| ≤ eps * t
      · rw [if_pos h2]
        exact ⟨by omega, fun j h3 h4 => by omega⟩
      · rw [if_neg h2]
        obtain ⟨i1, i2⟩ := ih (by omega)
        refine ⟨i1, fun j h3 h4 => ?_⟩
        rcases Nat.lt_or_ge j n with h5 | h5
        · exact i2 j h3 h5
        · have hjn : j = n := by omega
          rw [hjn]
          intro h0
          apply h2
          rw [h0, abs_zero]
          exact mul_nonneg heps hT

/-- With `s(p-1) = 0` the scan for a negligible `s(ks)` stops at once. -/
theorem scanS_top (eps : R) (heps : 0 ≤ eps) (s e : Vec R) (p k1 : ℕ) (hp : 1 ≤ p)
    (hk : k1 < p) (h0 : s.get (p-1) = 0) : scanS eps s e p k1 p = p := by
  obtain ⟨q, rfl⟩ : ∃ q, p = q + 1 := ⟨p - 1, by omega⟩
  rw [scanS, if_neg (by omega)]
  dsimp only
  rw [Nat.add_sub_cancel] at h0
  rw [if_pos]
  rw [h0, abs_zero]
  refine mul_nonneg heps (add_nonneg ?_ ?_)
  · split_ifs
    · exact abs_nonneg _
    · exact le_refl _
  · split_ifs
    · exact abs_nonneg _
    · exact le_refl _

/-- What the classification returns, for `eps ≥ 0` and `p ≥ 1`: kase 4 with
`k = p-1`; kase 1 with `s(p-1)` set to zero; kase 2 with `1 ≤ k < p`, the
entries `e(k-1 .. p-2)` non-zero and `s(p-1)` non-zero; or kase 3 with
`k + 1 < p` and the entries `e(k .. p-2)` and `s(k .. p-1)` non-zero. -/
theorem classify_spec (eps : R) (heps : 0 ≤ eps) (p : ℕ) (hp : 1 ≤ p) (s e : Vec R) :
    ((classify eps p s e).1 = 4 ∧ (classify eps p s e).2.1 = p - 1 ∧
        (classify eps p s e).2.2.1 = s) ∨
      ((classify eps p s e).1 = 1 ∧ (classify eps p s e).2.2.1 = s.set (p-1) 0) ∨
      ((classify eps p s e).1 = 2 ∧ 1 ≤ (classify eps p s e).2.1 ∧
        (classify eps p s e).2.1 < p ∧ s.get (p-1) ≠ 0 ∧
        ∀ j, (classify eps p s e).2.1 - 1 ≤ j → j + 1 < p →
          (classify eps p s e).2.2.2.get j ≠ 0) ∨
      ((classify eps p s e).1 = 3 ∧ (classify eps p s e).2.1 + 1 < p ∧ s.get (p-1) ≠ 0 ∧
        (∀ j, (classify eps p s e).2.1 ≤ j → j + 1 < p →
          (classify eps p s e).2.2.2.get j ≠ 0) ∧
        ∀ j, (classify eps p s e).2.1 ≤ j → j < p → (classify eps p s e).2.2.1.get j ≠ 0) := by
  obtain ⟨hE1, hE2⟩ := scanE_spec eps heps s e (p-1)
  unfold classify
  dsimp only
  generalize scanE eps s e (p-1) = k1 at hE1 hE2 ⊢
  have he : ∀ j, k1 ≤ j → j + 1 < p → (if k1 = 0 then e else e.set (k1-1) 0).get j ≠ 0 := by
    intro j h1 h2
    split_ifs with h3
    · exact hE2 j h1 (by omega)
    · rw [Vec.get_set_ne _ _ _ _ (by omega)]
      exact hE2 j h1 (by omega)
  generalize (if k1 = 0 then e else e.set (k1-1) 0) = e2 at he ⊢
  by_cases h4 : k1 = p - 1
  · rw [if_pos h4]
    exact Or.inl ⟨rfl, h4, rfl⟩
  · rw [if_neg h4]
    obtain ⟨hS1, hS2⟩ := scanS_spec eps heps s e2 p k1 p (by omega)
    have hS3 := scanS_le eps s e2 p k1 p
    generalize scanS eps s e2 p k1 p = ks1 at hS1 hS2 hS3 ⊢
    by_cases h3 : ks1 = k1
    · rw [if_pos h3, if_pos h3]
      dsimp only
      refine Or.inr (Or.inr (Or.inr ⟨rfl, by omega, hS2 _ (by omega) (by omega), he, ?_⟩))
      intro j h1 h2
      exact hS2 j (by omega) h2
    · rw [if_neg h3, if_neg h3]
      by_cases h1 : ks1 = p
      · rw [if_pos h1, h1]
        exact Or.inr (Or.inl ⟨rfl, rfl⟩)
      · rw [if_neg h1]
        dsimp only
        refine Or.inr (Or.inr (Or.inl ⟨rfl, by omega, by omega,
          hS2 _ (by omega) (by omega), ?_⟩))
        intro j h5 h6
        exact he j (by omega) h6

/-- Case 1 leaves `U`, `p` and the entries `s(p-1 ..)`. -/
theorem case1_frame (sqrt : R → R) (n : ℕ) (wantv : Bool) (p k : ℕ) (st : Iter R) :
    (case1 sqrt n wantv p k st).U = st.U ∧ (case1 sqrt n wantv p k st).p = st.p ∧
      ∀ i, p - 1 ≤ i → (case1 sqrt n wantv p k st).s.get i = st.s.get i := by
  unfold case1
  refine ⟨rfl, rfl, ?_⟩
  dsimp only
  apply forDown_pres (fun c : Chase R => ∀ i, p - 1 ≤ i → c.s.get i = st.s.get i)
  · exact fun i _ => rfl
  · intro j c hj1 hj2 hc i hi
    dsimp only
    split_ifs <;>
      · dsimp only
        rw [Vec.get_set_ne _ _ _ _ (by omega)]
        exact hc i hi

/-- Case 2 keeps the columns of `U` orthonormal: every rotation is built from
`hypot(s(j), f)` with `f ≠ 0`. -/
theorem case2_U (sqrt : R → R) (hs : IsSqrt sqrt) (m p k : ℕ) (st : Iter R) (hk : 1 ≤ k)
    (hkp : k < p) (hpm : p ≤ m) (hU : st.U.OrthoSq m)
    (he : ∀ j, k - 1 ≤ j → j + 1 < p → st.e.get j ≠ 0) :
    (case2 sqrt m true p k st).U.OrthoSq m ∧ (case2 sqrt m true p k st).p = st.p := by
  refine ⟨?_, rfl⟩
  unfold case2
  dsimp only
  refine (forUp_inv (fun j (c : Chase R) => c.U.OrthoSq m ∧ (j < p → c.f ≠ 0) ∧
      ∀ i, j ≤ i → i + 1 < p → c.e.get i ≠ 0) k p _ _ (by omega) ?_ ?_).1
  · refine ⟨hU, fun _ => he (k-1) (le_refl _) (by omega), fun i h1 h2 => ?_⟩
    dsimp only
    rw [Vec.get_set_ne _ _ _ _ (by omega)]
    exact he i (by omega) h2
  · intro j c hj1 hj2 ⟨⟨u1, u2, u3, u4⟩, hf, hec⟩
    have hf2 := hf hj2
    have ht := hypot_ne_zero sqrt hs (c.s.get j) c.f (Or.inr hf2)
    rw [if_pos rfl]
    dsimp only
    refine ⟨rot_orthonormal c.U m u1 u2 u3 u4 j (k-1) _ _ (by omega) (by omega) (by omega)
      (rot_coeffs sqrt hs (c.s.get j) c.f (Or.inr hf2)), fun h1 => ?_, fun i h1 h2 => ?_⟩
    · exact mul_ne_zero (neg_ne_zero.mpr (div_ne_zero hf2 ht)) (hec j (le_refl _) h1)
    · rw [Vec.get_set_ne _ _ _ _ (by omega)]
      exact hec i (by omega) h2

/-- The fields of the state after one pass of the loop that chases zeros. -/
theorem chaseStep_shape (sqrt : R → R) (m n : ℕ) (wantv : Bool) (k j : ℕ) (c : Chase R) :
    ∃ (f1 x1 x2 x3 y1 y2 y3 : R) (e1 : Vec R),
      (e1 = c.e ∨ e1 = c.e.set (j-1) y1) ∧
      (chaseStep sqrt m n true wantv k j c).U =
        (if j < m - 1 then rot m c.U j (j+1)
          (f1 / hypot sqrt f1 (c.g / hypot sqrt c.f c.g * c.s.get (j+1)))
          ((c.g / hypot sqrt c.f c.g * c.s.get (j+1)) /
            hypot sqrt f1 (c.g / hypot sqrt c.f c.g * c.s.get (j+1)))
         else c.U) ∧
      (chaseStep sqrt m n true wantv k j c).g =
        ((c.g / hypot sqrt c.f c.g * c.s.get (j+1)) /
          hypot sqrt f1 (c.g / hypot sqrt c.f c.g * c.s.get (j+1))) *
          (e1.set j y2).get (j+1) ∧
      (chaseStep sqrt m n true wantv k j c).s = ((c.s.set (j+1) x1).set j x2).set (j+1) x3 ∧
      (chaseStep sqrt m n true wantv k j c).e = (e1.set j y2).set (j+1) y3 := by
  unfold chaseStep
  by_cases hjk : j = k
  · subst hjk
    cases wantv <;> by_cases hjm : j < m - 1 <;>
      simp only [hjm, ne_eq, not_true_eq_false, not_false_eq_true, if_false, if_true,
        Bool.false_eq_true, true_and, and_true, and_false] <;>
      first
        | exact ⟨_, _, _, _, 0, _, _, _, Or.inl rfl, rfl, rfl, rfl, rfl⟩
        | exact ⟨_, _, _, _, 0, _, _, _, Or.inl rfl, rfl, rfl, rfl⟩
  · cases wantv <;> by_cases hjm : j < m - 1 <;>
      simp only [hjk, hjm, ne_eq, not_true_eq_false, not_false_eq_true, if_false, if_true,
        Bool.false_eq_true, true_and, and_true, and_false] <;>
      first
        | exact ⟨_, _, _, _, _, _, _, _, Or.inr rfl, rfl, rfl, rfl, rfl⟩
        | exact ⟨_, _, _, _, _, _, _, _, Or.inr rfl, rfl, rfl, rfl⟩

/-- One pass of the loop that chases zeros keeps the columns of `U`
orthonormal and the next `g` non-zero. -/
theorem chaseStep_U (sqrt : R → R) (hs : IsSqrt sqrt) (m n : ℕ) (wantv : Bool) (k j p : ℕ)
    (c : Chase R) (hU : c.U.OrthoSq m) (hg : c.g ≠ 0)
    (hsn : ∀ i, j < i → i < p → c.s.get i ≠ 0)
    (hen : ∀ i, j < i → i + 1 < p → c.e.get i ≠ 0) (hjp : j + 1 < p) :
    (chaseStep sqrt m n true wantv k j c).U.OrthoSq m ∧
      (j + 2 < p → (chaseStep sqrt m n true wantv k j c).g ≠ 0) ∧
      (∀ i, j + 1 < i → i < p → (chaseStep sqrt m n true wantv k j c).s.get i ≠ 0) ∧
      ∀ i, j + 1 < i → i + 1 < p → (chaseStep sqrt m n true wantv k j c).e.get i ≠ 0 := by
  obtain ⟨u1, u2, u3, u4⟩ := hU
  have ht1 := hypot_ne_zero sqrt hs c.f c.g (Or.inr hg)
  have hg1 : c.g / hypot sqrt c.f c.g * c.s.get (j+1) ≠ 0 :=
    mul_ne_zero (div_ne_zero hg ht1) (hsn (j+1) (by omega) hjp)
  obtain ⟨f1, x1, x2, x3, y1, y2, y3, e1, he1, hU2, hg2, hs2, he2⟩ :=
    chaseStep_shape sqrt m n wantv k j c
  have he1g : ∀ i, j < i → e1.get i = c.e.get i := by
    intro i hi
    rcases he1 with h | h
    · rw [h]
    · rw [h, Vec.get_set_ne _ _ _ _ (by omega)]
  rw [hU2, hg2, hs2, he2]
  refine ⟨?_, ?_, ?_, ?_⟩
  · by_cases hjm : j < m - 1
    · rw [if_pos hjm]
      exact rot_orthonormal c.U m u1 u2 u3 u4 j (j+1) _ _ (by omega) (by omega) (by omega)
        (rot_coeffs sqrt hs f1 _ (Or.inr hg1))
    · rw [if_neg hjm]
      exact ⟨u1, u2, u3, u4⟩
  · intro h
    rw [Vec.get_set_ne _ _ _ _ (by omega), he1g _ (by omega)]
    exact mul_ne_zero (div_ne_zero hg1 (hypot_ne_zero sqrt hs f1 _ (Or.inr hg1)))
      (hen (j+1) (by omega) (by omega))
  · intro i h1 h2
    rw [Vec.get_set_ne _ _ _ _ (by omega), Vec.get_set_ne _ _ _ _ (by omega),
      Vec.get_set_ne _ _ _ _ (by omega)]
    exact hsn i (by omega) h2
  · intro i h1 h2
    rw [Vec.get_set_ne _ _ _ _ (by omega), Vec.get_set_ne _ _ _ _ (by omega),
      he1g _ (by omega)]
    exact hen i (by omega) h2

/-- Case 3 keeps the columns of `U` orthonormal: every rotation of the qr step
is built from `hypot(f, g)` with `g ≠ 0`. -/
theorem case3_U (sqrt : R → R) (hs : IsSqrt sqrt) (m n : ℕ) (wantv : Bool) (p k : ℕ)
    (st : Iter R) (hkp : k + 1 < p) (hU : st.U.OrthoSq m)
    (he : ∀ j, k ≤ j → j + 1 < p → st.e.get j ≠ 0)
    (hsn : ∀ j, k ≤ j → j < p → st.s.get j ≠ 0) :
    (case3 sqrt m n true wantv p k st).U.OrthoSq m ∧
      (case3 sqrt m n true wantv p k st).p = st.p := by
  refine ⟨?_, rfl⟩
  unfold case3
  dsimp only
  refine (forUp_inv (fun j (c : Chase R) => c.U.OrthoSq m ∧ (j + 1 < p → c.g ≠ 0) ∧
      (∀ i, j < i → i < p → c.s.get i ≠ 0) ∧ ∀ i, j < i → i + 1 < p → c.e.get i ≠ 0)
      k (p-1) _ _ (by omega) ?_ ?_).1
  · refine ⟨hU, fun _ => ?_, fun i h1 h2 => hsn i (by omega) h2,
      fun i h1 h2 => he i (by omega) h2⟩
    dsimp only
    have hek := he k (le_refl _) hkp
    have hsk := hsn k (le_refl _) (by omega)
    exact mul_ne_zero
      (div_ne_zero hsk (ne_of_gt (lt_of_lt_of_le (abs_pos.mpr hek) (le_max_right _ _))))
      (div_ne_zero hek (ne_of_gt (lt_of_lt_of_le (abs_pos.mpr hek) (le_max_right _ _))))
  · intro j c hj1 hj2 ⟨a1, a2, a3, a4⟩
    obtain ⟨b1, b2, b3, b4⟩ :=
      chaseStep_U sqrt hs m n wantv k j p c a1 (a2 (by omega)) a3 a4 (by omega)
    exact ⟨b1, fun h => b2 (by omega), b3, b4⟩

/-- The ordering loop of case 4 keeps the columns of `U` orthonormal. -/
theorem order_U (m n : ℕ) (wantv : Bool) : ∀ (d k : ℕ) (st : Iter R), st.U.OrthoSq m →
    (order m n true wantv d k st).U.OrthoSq m ∧ (order m n true wantv d k st).p = st.p := by
  intro d
  induction d with
  | zero => exact fun k st h => ⟨h, rfl⟩
  | succ d ih =>
    intro k st h
    rw [order]
    by_cases h1 : st.s.get k ≥ st.s.get (k+1)
    · rw [if_pos h1]
      exact ⟨h, rfl⟩
    · rw [if_neg h1]
      have hsw : (orderSwap m n true wantv k st).U.OrthoSq m := by
        unfold orderSwap
        dsimp only
        simp only [eq_self_iff_true, true_and]
        split_ifs <;>
          first
            | exact h
            | exact swapCols_orthonormal _ m h.1 h.2.1 h.2.2.1 h.2.2.2 k (by omega)
      obtain ⟨a, b⟩ := ih (k+1) _ hsw
      exact ⟨a, b.trans (orderSwap_fields m n true wantv k st).2.1⟩

/-- Case 4 keeps the columns of `U` orthonormal and lowers `p` by one. -/
theorem case4_U (m n pp : ℕ) (wantv : Bool) (k : ℕ) (st : Iter R) (hU : st.U.OrthoSq m) :
    (case4 m n pp true wantv k st).U.OrthoSq m ∧
      (case4 m n pp true wantv k st).p = st.p - 1 := by
  have key : ∀ st2 : Iter R, st2.U = st.U → st2.p = st.p →
      (order m n true wantv (pp-k) k st2).U.OrthoSq m ∧
        (order m n true wantv (pp-k) k st2).p - 1 = st.p - 1 := by
    intro st2 h1 h2
    obtain ⟨a, b⟩ := order_U m n wantv (pp-k) k st2 (by rw [h1]; exact hU)
    exact ⟨a, by rw [b, h2]⟩
  unfold case4
  dsimp only
  apply key
  · split_ifs <;> rfl
  · split_ifs <;> rfl

/-- One pass of the main loop keeps the invariant for `U`. -/
theorem iterStep_U (sqrt : R → R) (hs : IsSqrt sqrt) (eps : R) (heps : 0 ≤ eps)
    (m n pp : ℕ) (wantv : Bool) (st : Iter R) (hp : st.p ≠ 0) (h : UInv m st) :
    UInv m (iterStep sqrt eps m n pp true wantv st) := by
  obtain ⟨hU, hpm⟩ := h
  have hp1 : 1 ≤ st.p := Nat.one_le_iff_ne_zero.mpr hp
  have hcl := classify_spec eps heps st.p hp1 st.s st.e
  unfold iterStep
  dsimp only
  rcases hcl with ⟨c1, c2, c3⟩ | ⟨c1, c2⟩ | ⟨c1, c2, c3, c4, c5⟩ | ⟨c1, c2, c3, c4, c5⟩
  · have n1 : ¬ (classify eps st.p st.s st.e).1 = 1 := by rw [c1]; decide
    have n2 : ¬ (classify eps st.p st.s st.e).1 = 2 := by rw [c1]; decide
    have n3 : ¬ (classify eps st.p st.s st.e).1 = 3 := by rw [c1]; decide
    rw [if_neg n1, if_neg n2, if_neg n3]
    obtain ⟨a, b⟩ := case4_U m n pp wantv (classify eps st.p st.s st.e).2.1
      { st with s := (classify eps st.p st.s st.e).2.2.1,
                e := (classify eps st.p st.s st.e).2.2.2 } hU
    refine ⟨a, Or.inl ?_⟩
    rw [b]
    show st.p - 1 ≤ m
    rcases hpm with h | ⟨h, _⟩ <;> omega
  · rw [if_pos c1]
    obtain ⟨a, b, c⟩ := case1_frame sqrt n wantv st.p (classify eps st.p st.s st.e).2.1
      { st with s := (classify eps st.p st.s st.e).2.2.1,
                e := (classify eps st.p st.s st.e).2.2.2 }
    refine ⟨by rw [a]; exact hU, ?_⟩
    rw [b]
    rcases hpm with h | ⟨h1, h2⟩
    · exact Or.inl h
    · refine Or.inr ⟨h1, ?_⟩
      rw [c m (by omega)]
      show (classify eps st.p st.s st.e).2.2.1.get m = 0
      rw [c2, Vec.get_set]
      split_ifs
      · rfl
      · exact h2
  · have hpm2 : st.p ≤ m := by
      rcases hpm with h | ⟨h1, h2⟩
      · exact h
      · exfalso
        apply c4
        rw [h1, Nat.add_sub_cancel]
        exact h2
    have n1 : ¬ (classify eps st.p st.s st.e).1 = 1 := by rw [c1]; decide
    rw [if_neg n1, if_pos c1]
    obtain ⟨a, b⟩ := case2_U sqrt hs m st.p (classify eps st.p st.s st.e).2.1
      { st with s := (classify eps st.p st.s st.e).2.2.1,
                e := (classify eps st.p st.s st.e).2.2.2 } c2 c3 hpm2 hU c5
    exact ⟨a, Or.inl (by rw [b]; exact hpm2)⟩
  · have hpm2 : st.p ≤ m := by
      rcases hpm with h | ⟨h1, h2⟩
      · exact h
      · exfalso
        apply c3
        rw [h1, Nat.add_sub_cancel]
        exact h2
    have n1 : ¬ (classify eps st.p st.s st.e).1 = 1 := by rw [c1]; decide
    have n2 : ¬ (classify eps st.p st.s st.e).1 = 2 := by rw [c1]; decide
    rw [if_neg n1, if_neg n2, if_pos c1]
    obtain ⟨a, b⟩ := case3_U sqrt hs m n wantv st.p (classify eps st.p st.s st.e).2.1
      { st with s := (classify eps st.p st.s st.e).2.2.1,
                e := (classify eps st.p st.s st.e).2.2.2 } c2 hU c4 c5
    exact ⟨a, Or.inl (by rw [b]; exact hpm2)⟩

/-- The main loop keeps the columns of `U` orthonormal. -/
theorem mainLoop_U (sqrt : R → R) (hs : IsSqrt sqrt) (eps : R) (heps : 0 ≤ eps)
    (m n pp : ℕ) (wantv : Bool) :
    ∀ (fuel : ℕ) (st st2 : Iter R), UInv m st →
      mainLoop sqrt eps m n pp true wantv fuel st = some st2 → st2.U.OrthoSq m := by
  intro fuel
  induction fuel with
  | zero =>
    intro st st2 h hrun
    unfold mainLoop at hrun
    by_cases hp : st.p = 0
    · rw [if_pos hp] at hrun
      cases hrun
      exact h.1
    · rw [if_neg hp] at hrun
      cases hrun
  | succ f ih =>
    intro st st2 h hrun
    unfold mainLoop at hrun
    by_cases hp : st.p = 0
    · rw [if_pos hp] at hrun
      cases hrun
      exact h.1
    · rw [if_neg hp] at hrun
      exact ih _ _ (iterStep_U sqrt hs eps heps m n pp wantv st hp h) hrun

/-- The final setup leaves `U` and the entries `s(j)`, `j < nct`; for `n > m`
it sets `s(m) = 0`. -/
theorem finalSetup_U (m n nct nrt : ℕ) (st : Bidiag R) (hnct : nct ≤ m) :
    (finalSetup m n nct nrt st).U = st.U ∧
      (∀ j, j < nct → (finalSetup m n nct nrt st).s.get j = st.s.get j) ∧
      (m < n → st.s.length = m + 1 → (finalSetup m n nct nrt st).s.get m = 0) := by
  unfold finalSetup
  dsimp only
  split_ifs <;> refine ⟨rfl, fun j hj => ?_, fun hmn hl => ?_⟩ <;> (try dsimp only) <;>
    (try simp only [Vec.get_set, Vec.length_set]) <;>
    first
      | rfl
      | (exfalso; omega)
      | (split_ifs <;> first | rfl | (exfalso; omega))

/-- At the start of the main loop the columns of `U` are orthonormal, and for
`n > m` the entry `s(m)` is zero. -/
theorem init_U (sqrt : R → R) (hs : IsSqrt sqrt) (A : Mat R) (hWF : A.WF) (wantv : Bool) :
    (SVD.init sqrt A true wantv).U.OrthoSq A.rows ∧
      (A.rows < A.cols → (SVD.init sqrt A true wantv).s.get A.rows = 0) := by
  have h0 : BidiagU A.rows A.cols 0 ⟨A, Vec.zeros (min (A.rows+1) A.cols), Vec.zeros A.cols,
      Vec.zeros A.rows, Mat.zeros A.rows A.rows, Mat.zeros A.cols A.cols⟩ :=
    ⟨hWF, rfl, rfl, Mat.WF_zeros _ _, rfl, rfl, Vec.length_zeros _,
      fun j hj => absurd hj (Nat.not_lt_zero _), fun i j _ => Mat.entry_zeros _ _ i j⟩
  have h1 := forUp_inv (fun k st => BidiagU A.rows A.cols k st) 0
    (max (min (A.rows-1) A.cols) (max 0 (min (A.cols-2) A.rows)))
    (fun k st => bidiagStep sqrt A.rows A.cols (min (A.rows-1) A.cols)
      (max 0 (min (A.cols-2) A.rows)) true wantv k st) _ (Nat.zero_le _) h0
    (fun k st _ _ h => bidiagStep_U sqrt hs _ _ _ wantv k st h)
  unfold SVD.init
  dsimp only
  generalize forUp 0 (max (min (A.rows-1) A.cols) (max 0 (min (A.cols-2) A.rows)))
    (fun k st => bidiagStep sqrt A.rows A.cols (min (A.rows-1) A.cols)
      (max 0 (min (A.cols-2) A.rows)) true wantv k st)
    ⟨A, Vec.zeros (min (A.rows+1) A.cols), Vec.zeros A.cols,
      Vec.zeros A.rows, Mat.zeros A.rows A.rows, Mat.zeros A.cols A.cols⟩ = b at h1 ⊢
  obtain ⟨a1, a2, a3, a4, a5, a6, a7, a8, a9⟩ := h1
  obtain ⟨f1, f2, f3⟩ := finalSetup_U A.rows A.cols (min (A.rows-1) A.cols)
    (max 0 (min (A.cols-2) A.rows)) b (by omega)
  have hgen := generateU_orthonormal A.rows (min (A.rows-1) A.cols)
    (finalSetup A.rows A.cols (min (A.rows-1) A.cols) (max 0 (min (A.cols-2) A.rows)) b).s
    (finalSetup A.rows A.cols (min (A.rows-1) A.cols) (max 0 (min (A.cols-2) A.rows)) b).U
    (by omega) (by rw [f1]; exact a4) (by rw [f1]; exact a5) (by rw [f1]; exact a6)
    (fun j hj => (a8 j (by omega) hj).congr (f2 j hj) (fun i => by rw [f1]))
  rw [if_pos rfl]
  have hs0 : A.rows < A.cols →
      (finalSetup A.rows A.cols (min (A.rows-1) A.cols) (max 0 (min (A.cols-2) A.rows)) b).s.get
        A.rows = 0 := fun h => f3 h (by rw [a7]; omega)
  split_ifs
  · exact ⟨hgen, hs0⟩
  · exact ⟨hgen, hs0⟩

/-- The state at the start of the main loop for the 2×1 matrix with column
`(3, 4)`, for every `sqrt` with `sqrt(25/16) = 5/4`. -/
theorem init_A21 (sqrt : R → R) (hq : sqrt (1 + 3 / 4 * (3 / 4)) = 5 / 4) :
    SVD.init sqrt (Mat.ofRows 1 [[(3:R)], [4]]) true true =
      ⟨⟨2, 1, [[8/5], [4/5]]⟩, [-5], [0], [0, 0], ⟨2, 2, [[-3/5, -4/5], [-4/5, 3/5]]⟩,
        ⟨1, 1, [[1]]⟩⟩ := by
  have h34 : ¬ (|(3:R)| > |4|) := by norm_num
  have h3 : (3:R) ≠ 0 := by norm_num
  have hh : hypot sqrt (hypot sqrt 0 3) 4 = 5 := by
    rw [hypot_zero_left, abs_of_pos (by norm_num : (0:R) < 3)]
    unfold hypot
    rw [if_neg h3, if_neg h34]
    dsimp only
    rw [hq]
    norm_num
  simp [SVD.init, Mat.ofRows, forUp, forDown, finalSetup, generateU, generateV, Vec.zeros,
    Mat.zeros, Vec.set, Vec.get, Mat.get, Mat.set, bidiagStep, colTransform, applyCol,
    rowTransform, List.range', hh]
  norm_num

/-- The constructor on the 2×1 matrix with column `(3, 4)`, for every `sqrt`
with `sqrt(25/16) = 5/4` (and `eps ≤ 1`): one column transformation and one
pass of the main loop. -/
theorem construct_A21 (sqrt : R → R) (hq : sqrt (1 + 3 / 4 * (3 / 4)) = 5 / 4) (eps : R)
    (heps : eps ≤ 1) :
    SVD.construct sqrt eps 1 (Mat.ofRows 1 [[(3:R)], [4]]) true true =
      some ⟨1, ⟨2, 1, [[8/5], [4/5]]⟩, [5], ⟨2, 2, [[-3/5, -4/5], [-4/5, 3/5]]⟩,
        ⟨1, 1, [[-1]]⟩⟩ := by
  have hrank : rankLoop ([5] : Vec R) (((1:ℕ) : R) * 5 * eps) 1 = some 1 := by
    simp [rankLoop, Vec.read, heps]
  have hdims : (Mat.ofRows 1 [[(3:R)], [4]]).rows = 2 ∧ (Mat.ofRows 1 [[(3:R)], [4]]).cols = 1 :=
    ⟨rfl, rfl⟩
  have hstep : iterStep sqrt eps 2 1 0 true true
      ⟨[-5], [0], ⟨2, 2, [[-3/5, -4/5], [-4/5, 3/5]]⟩, ⟨1, 1, [[1]]⟩, 1, 0⟩
      = ⟨[5], [0], ⟨2, 2, [[-3/5, -4/5], [-4/5, 3/5]]⟩, ⟨1, 1, [[-1]]⟩, 0, 0⟩ := by
    simp [iterStep, classify, scanE, case4, order, forUp, Vec.get, Vec.set, Mat.get, Mat.set]
  unfold SVD.construct
  simp only [init_A21 sqrt hq, hdims.1, hdims.2]
  rw [show min 1 (2+1) = 1 from rfl, show (1:ℕ) - 1 = 0 from rfl,
    mainLoop_succ _ _ _ _ _ _ _ _ _ (by simp), hstep, mainLoop_p_zero _ _ _ _ _ _ _ _ _ rfl]
  simp only [List.length_singleton, Vec.get, List.getD_cons_zero]
  rw [show min 2 1 = 1 from rfl, hrank]

/-- C3: orthonormality of `U`.  In exact arithmetic (`sqrt` an exact square
root, `eps ≥ 0`), for every `M×N` input (`M, N ≥ 1`) with `U` requested on which
the constructor finishes, `U` is `M×M` and `U'U = I`; `U` starts from the
zero-initialised `M×M` container. -/
theorem U_orthonormal (sqrt : R → R) (hs : IsSqrt sqrt) (eps : R) (heps : 0 ≤ eps)
    (fuel : ℕ) (A : Mat R) (hWF : A.WF) (_hm : 1 ≤ A.rows) (_hn : 1 ≤ A.cols) (wantv : Bool)
    (d : SVD R) (h : SVD.construct sqrt eps fuel A true wantv = some d) :
    d.m_U.WF ∧ d.m_U.rows = A.rows ∧ d.m_U.cols = A.rows ∧ d.m_U.Orthonormal A.rows := by
  unfold SVD.construct at h
  dsimp only at h
  split at h
  · cases h
  · rename_i st hrun
    split at h
    · cases h
    · rename_i r hr
      cases h
      obtain ⟨i1, i2⟩ := init_U sqrt hs A hWF wantv
      have h0 : UInv A.rows ⟨(SVD.init sqrt A true wantv).s, (SVD.init sqrt A true wantv).e,
          (SVD.init sqrt A true wantv).U, (SVD.init sqrt A true wantv).V,
          min A.cols (A.rows + 1), 0⟩ := by
        refine ⟨i1, ?_⟩
        show min A.cols (A.rows + 1) ≤ A.rows ∨ (min A.cols (A.rows + 1) = A.rows + 1 ∧
          (SVD.init sqrt A true wantv).s.get A.rows = 0)
        rcases Nat.lt_or_ge A.rows A.cols with hlt | hge
        · exact Or.inr ⟨by omega, i2 hlt⟩
        · exact Or.inl (by omega)
      exact mainLoop_U sqrt hs eps heps A.rows A.cols _ wantv fuel _ st h0 hrun

/-- Witness for `U_orthonormal`: over the reals with `Real.sqrt` and
`eps = 2^-52`, the constructor finishes on the 2×1 matrix with column `(3, 4)`
with `U = [[-3/5, -4/5], [-4/5, 3/5]]`. -/
theorem U_orthonormal_witness :
    IsSqrt Real.sqrt ∧ (0:ℝ) ≤ 1 / 2 ^ 52 ∧ (Mat.ofRows 1 [[(3:ℝ)], [4]]).WF ∧
      1 ≤ (Mat.ofRows 1 [[(3:ℝ)], [4]]).rows ∧ 1 ≤ (Mat.ofRows 1 [[(3:ℝ)], [4]]).cols ∧
      SVD.construct Real.sqrt (1 / 2 ^ 52) 1 (Mat.ofRows 1 [[(3:ℝ)], [4]]) true true =
        some ⟨1, ⟨2, 1, [[8/5], [4/5]]⟩, [5], ⟨2, 2, [[-3/5, -4/5], [-4/5, 3/5]]⟩,
          ⟨1, 1, [[-1]]⟩⟩ ∧
      (⟨2, 2, [[-3/5, -4/5], [-4/5, 3/5]]⟩ : Mat ℝ).WF ∧
      (⟨2, 2, [[-3/5, -4/5], [-4/5, 3/5]]⟩ : Mat ℝ).rows = 2 ∧
      (⟨2, 2, [[-3/5, -4/5], [-4/5, 3/5]]⟩ : Mat ℝ).cols = 2 ∧
      (⟨2, 2, [[-3/5, -4/5], [-4/5, 3/5]]⟩ : Mat ℝ).Orthonormal 2 :=
  have hq : Real.sqrt (1 + 3 / 4 * (3 / 4)) = 5 / 4 := by
    rw [show (1 + 3 / 4 * (3 / 4) : ℝ) = 5 / 4 * (5 / 4) by norm_num]
    exact Real.sqrt_mul_self (by norm_num)
  ⟨fun x hx => ⟨Real.sqrt_nonneg x, Real.mul_self_sqrt hx⟩, by norm_num,
    by simp [Mat.WF, Mat.ofRows], by decide, le_refl _,
    construct_A21 Real.sqrt hq (1 / 2 ^ 52) (by norm_num),
    U_orthonormal Real.sqrt (fun x hx => ⟨Real.sqrt_nonneg x, Real.mul_self_sqrt hx⟩)
      (1 / 2 ^ 52) (by norm_num) 1 (Mat.ofRows 1 [[(3:ℝ)], [4]]) (by simp [Mat.WF, Mat.ofRows])
      (by decide) (le_refl _) true _ (construct_A21 Real.sqrt hq (1 / 2 ^ 52) (by norm_num))⟩

/-! ### Zero input -/

theorem Vec.AllZero.set_zero {v : Vec R} (h : v.AllZero) (i : ℕ) : (v.set i 0).AllZero := by
  intro j
  rw [Vec.get_set]
  split_ifs
  · rfl
  · exact h j

theorem Vec.eq_zeros_of_allZero (v : Vec R) (L : ℕ) (hL : v.length = L) (h : v.AllZero) :
    v = Vec.zeros L := by
  unfold Vec.zeros
  rw [List.eq_replicate_iff]
  refine ⟨hL, fun b hb => ?_⟩
  obtain ⟨i, hi, rfl⟩ := List.getElem_of_mem hb
  have := h i
  unfold Vec.get at this
  rw [List.getD_eq_getElem _ _ hi] at this
  exact this

theorem hypot_zero_zero (sqrt : R → R) : hypot sqrt 0 0 = 0 := by
  rw [hypot_zero_left, abs_zero]

theorem colTransform_zeroInv (sqrt : R → R) (m k : ℕ) (st : Bidiag R) (h : ZeroInv st) :
    ZeroInv (colTransform sqrt m k st) := by
  obtain ⟨hA, hs, he⟩ := h
  have h1 : Vec.AllZero (forUp k m
      (fun i s => s.set k (hypot sqrt (s.get k) (st.A.get i k))) (st.s.set k 0)) := by
    apply forUp_pres (fun s : Vec R => s.AllZero)
    · exact hs.set_zero k
    · intro i s _ _ hs2
      show Vec.AllZero (s.set k (hypot sqrt (s.get k) (st.A.get i k)))
      rw [hs2 k, hA, hypot_zero_zero]
      exact hs2.set_zero k
  unfold colTransform
  dsimp only
  rw [if_neg (not_not.mpr (h1 k))]
  refine ⟨hA, ?_, he⟩
  dsimp only
  rw [h1 k, neg_zero]
  exact h1.set_zero k

theorem applyCol_zeroInv (m nct k j : ℕ) (st : Bidiag R) (h : ZeroInv st) :
    ZeroInv (applyCol m nct k j st) := by
  obtain ⟨hA, hs, he⟩ := h
  unfold applyCol
  dsimp only
  rw [if_neg (fun hc => hc.2 (hs k))]
  refine ⟨hA, hs, ?_⟩
  dsimp only
  rw [hA]
  exact he.set_zero j

theorem rowTransform_zeroInv (sqrt : R → R) (m n k : ℕ) (wantv : Bool) (st : Bidiag R)
    (h : ZeroInv st) : ZeroInv (rowTransform sqrt m n k wantv st) := by
  obtain ⟨hA, hs, he⟩ := h
  have h1 : Vec.AllZero (forUp (k+1) n
      (fun i e => e.set k (hypot sqrt (e.get k) (e.get i))) (st.e.set k 0)) := by
    apply forUp_pres (fun e : Vec R => e.AllZero)
    · exact he.set_zero k
    · intro i e _ _ he2
      show Vec.AllZero (e.set k (hypot sqrt (e.get k) (e.get i)))
      rw [he2 k, he2 i, hypot_zero_zero]
      exact he2.set_zero k
  unfold rowTransform
  dsimp only
  generalize forUp (k+1) n
      (fun i e => e.set k (hypot sqrt (e.get k) (e.get i))) (st.e.set k 0) = E at h1 ⊢
  have h2 : Vec.AllZero (E.set k (-(E.get k))) := by
    rw [h1 k, neg_zero]
    exact h1.set_zero k
  rw [if_neg (not_not.mpr (h1 k))]
  dsimp only
  rw [if_neg (show ¬ (k + 1 < m ∧ (E.set k (-(E.get k))).get k ≠ 0) from
    fun hc => hc.2 (h2 k))]
  split_ifs
  · exact ⟨hA, hs, h2⟩
  · exact ⟨hA, hs, h2⟩

theorem bidiagStep_zeroInv (sqrt : R → R) (m n nct nrt : ℕ) (wantu wantv : Bool) (k : ℕ)
    (st : Bidiag R) (h : ZeroInv st) :
    ZeroInv (bidiagStep sqrt m n nct nrt wantu wantv k st) := by
  unfold bidiagStep
  dsimp only
  have h1 : ZeroInv (if k < nct then colTransform sqrt m k st else st) := by
    split_ifs
    · exact colTransform_zeroInv sqrt m k st h
    · exact h
  have h2 : ZeroInv (forUp (k+1) n (fun j st => applyCol m nct k j st)
      (if k < nct then colTransform sqrt m k st else st)) :=
    forUp_pres (fun b : Bidiag R => ZeroInv b) _ _ _ _ h1
      (fun j b _ _ hb => applyCol_zeroInv m nct k j b hb)
  generalize forUp (k+1) n (fun j st => applyCol m nct k j st)
      (if k < nct then colTransform sqrt m k st else st) = b at h2 ⊢
  have h3 : ∀ b2 : Bidiag R, ZeroInv b2 →
      ZeroInv (if k < nrt then rowTransform sqrt m n k wantv b2 else b2) := by
    intro b2 hb2
    split_ifs
    · exact rowTransform_zeroInv sqrt m n k wantv b2 hb2
    · exact hb2
  apply h3
  split_ifs
  · exact h2
  · exact h2

theorem finalSetup_zeroInv (m n nct nrt : ℕ) (st : Bidiag R) (h : ZeroInv st) :
    ZeroInv (finalSetup m n nct nrt st) := by
  obtain ⟨hA, hs, he⟩ := h
  unfold finalSetup
  dsimp only
  split_ifs <;> refine ⟨hA, ?_, ?_⟩ <;> (try dsimp only) <;> (try rw [hA]) <;>
    first
      | exact hs
      | exact he
      | exact hs.set_zero _
      | exact he.set_zero _
      | exact (hs.set_zero _).set_zero _
      | exact (he.set_zero _).set_zero _

/-- At the start of the main loop for a zero matrix, `m_s` and `e` are zero. -/
theorem init_zeroInv (sqrt : R → R) (A : Mat R) (hA : ∀ i j, A.get i j = 0)
    (wantu wantv : Bool) : ZeroInv (SVD.init sqrt A wantu wantv) := by
  have h0 : ZeroInv (⟨A, Vec.zeros (min (A.rows+1) A.cols), Vec.zeros A.cols, Vec.zeros A.rows,
      Mat.zeros A.rows A.rows, Mat.zeros A.cols A.cols⟩ : Bidiag R) :=
    ⟨hA, fun i => Vec.get_zeros _ i, fun i => Vec.get_zeros _ i⟩
  have h1 := finalSetup_zeroInv A.rows A.cols (min (A.rows-1) A.cols)
    (max 0 (min (A.cols-2) A.rows)) _
    (forUp_pres (fun b : Bidiag R => ZeroInv b) 0
      (max (min (A.rows-1) A.cols) (max 0 (min (A.cols-2) A.rows)))
      (fun k st => bidiagStep sqrt A.rows A.cols (min (A.rows-1) A.cols)
        (max 0 (min (A.cols-2) A.rows)) wantu wantv k st)
      _ h0 (fun k b _ _ hb => bidiagStep_zeroInv sqrt A.rows A.cols _ _ wantu wantv k b hb))
  unfold SVD.init
  dsimp only
  split_ifs <;> exact h1

theorem Vec.AllZero.set_eq {v : Vec R} (h : v.AllZero) (i : ℕ) (x : R) (hx : x = 0) :
    (v.set i x).AllZero := by
  rw [hx]
  exact h.set_zero i

theorem scanE_allZero (eps : R) (s e : Vec R) (hs : s.AllZero) (he : e.AllZero) (a : ℕ) :
    scanE eps s e a = a := by
  cases a with
  | zero => rfl
  | succ k =>
    rw [scanE, he k, hs k, hs (k+1), abs_zero, add_zero, mul_zero, if_pos (le_refl _)]

theorem classify_allZero (eps : R) (p : ℕ) (s e : Vec R) (hs : s.AllZero) (he : e.AllZero) :
    classify eps p s e = (4, p - 1, s, if p - 1 = 0 then e else e.set (p - 1 - 1) 0) := by
  unfold classify
  dsimp only
  rw [scanE_allZero eps s e hs he, if_pos rfl]

theorem order_allZero (m n : ℕ) (wantu wantv : Bool) (d k : ℕ) (st : Iter R)
    (hs : st.s.AllZero) : order m n wantu wantv d k st = st := by
  cases d with
  | zero => rfl
  | succ d =>
    rw [order, if_pos]
    rw [hs k, hs (k+1)]

/-- One pass of the main loop on a state with `m_s` and `e` zero: case 4. -/
theorem iterStep_allZero (sqrt : R → R) (eps : R) (m n pp : ℕ) (wantu wantv : Bool)
    (st : Iter R) (hs : st.s.AllZero) (he : st.e.AllZero) :
    (iterStep sqrt eps m n pp wantu wantv st).s.AllZero ∧
      (iterStep sqrt eps m n pp wantu wantv st).e.AllZero ∧
      (iterStep sqrt eps m n pp wantu wantv st).p = st.p - 1 := by
  have he2 : Vec.AllZero (if st.p - 1 = 0 then st.e else st.e.set (st.p - 1 - 1) 0) := by
    split_ifs
    · exact he
    · exact he.set_zero _
  have key : ∀ st2 : Iter R, st2.s.AllZero → st2.e.AllZero → st2.p = st.p →
      (order m n wantu wantv (pp - (st.p - 1)) (st.p - 1) st2).s.AllZero ∧
        (order m n wantu wantv (pp - (st.p - 1)) (st.p - 1) st2).e.AllZero ∧
        (order m n wantu wantv (pp - (st.p - 1)) (st.p - 1) st2).p - 1 = st.p - 1 := by
    intro st2 h1 h2 h3
    rw [order_allZero m n wantu wantv _ _ st2 h1, h3]
    exact ⟨h1, h2, rfl⟩
  unfold iterStep
  rw [classify_allZero eps st.p st.s st.e hs he]
  dsimp only
  rw [if_neg (by decide), if_neg (by decide), if_neg (by decide)]
  generalize (if st.p - 1 = 0 then st.e else st.e.set (st.p - 1 - 1) 0) = e2 at he2 ⊢
  unfold case4
  dsimp only
  apply key
  · split_ifs <;> first
      | exact hs
      | exact hs.set_zero _
      | exact hs.set_eq _ _ (by rw [hs]; exact neg_zero)
  · split_ifs <;> exact he2
  · split_ifs <;> rfl

/-- On a state with `m_s` and `e` zero the main loop finishes within `p` passes
and leaves `m_s` zero. -/
theorem mainLoop_allZero (sqrt : R → R) (eps : R) (m n pp : ℕ) (wantu wantv : Bool) :
    ∀ (fuel : ℕ) (st : Iter R), st.p ≤ fuel → st.s.AllZero → st.e.AllZero →
      ∃ st2, mainLoop sqrt eps m n pp wantu wantv fuel st = some st2 ∧ st2.s.AllZero := by
  intro fuel
  induction fuel with
  | zero =>
    intro st hp hs _
    exact ⟨st, mainLoop_p_zero _ _ _ _ _ _ _ _ st (by omega), hs⟩
  | succ f ih =>
    intro st hp hs he
    by_cases hp0 : st.p = 0
    · exact ⟨st, mainLoop_p_zero _ _ _ _ _ _ _ _ st hp0, hs⟩
    · rw [mainLoop_succ _ _ _ _ _ _ _ _ _ hp0]
      obtain ⟨a, b, c⟩ := iterStep_allZero sqrt eps m n pp wantu wantv st hs he
      exact ih _ (by rw [c]; omega) a b

theorem rankLoop_allZero (s : Vec R) (hs : s.AllZero) (k : ℕ) (hk1 : 1 ≤ k)
    (hk : k ≤ s.length) (tol : R) (htol : tol = 0) : rankLoop s tol k = some k := by
  obtain ⟨r, rfl⟩ : ∃ r, k = r + 1 := ⟨k - 1, by omega⟩
  rw [rankLoop, Vec.read_eq s r (by omega)]
  dsimp only
  rw [hs r, htol, if_neg (lt_irrefl 0)]

/-- The constructor on a matrix with all entries zero (`M, N ≥ 1`): it finishes
within `min(N, M+1)` passes of the main loop, with `m_s` zero and
`m_rank = min(M, N)`. -/
theorem construct_zero (sqrt : R → R) (eps : R) (A : Mat R) (hA : ∀ i j, A.get i j = 0)
    (hm : 1 ≤ A.rows) (hn : 1 ≤ A.cols) (wantu wantv : Bool) (fuel : ℕ)
    (hf : min A.cols (A.rows + 1) ≤ fuel) :
    ∃ d, SVD.construct sqrt eps fuel A wantu wantv = some d ∧
      d.m_s = Vec.zeros (min (A.rows + 1) A.cols) ∧ d.m_rank = min A.rows A.cols := by
  obtain ⟨_, hs0, he0⟩ := init_zeroInv sqrt A hA wantu wantv
  have hlen := init_s_length sqrt A wantu wantv
  obtain ⟨st2, hrun, hs2⟩ := mainLoop_allZero sqrt eps A.rows A.cols (min A.cols (A.rows+1) - 1)
    wantu wantv fuel ⟨(SVD.init sqrt A wantu wantv).s, (SVD.init sqrt A wantu wantv).e,
      (SVD.init sqrt A wantu wantv).U, (SVD.init sqrt A wantu wantv).V,
      min A.cols (A.rows+1), 0⟩ hf hs0 he0
  have hL : min A.cols (A.rows + 1) = min (A.rows + 1) A.cols := min_comm _ _
  have h0 : Vec.TailSorted (min A.cols (A.rows + 1)) (min A.cols (A.rows + 1))
      (SVD.init sqrt A wantu wantv).s :=
    ⟨by rw [hlen, hL], fun i j hi hij hj => by omega, fun i hi hiL => by omega⟩
  have hlen2 : st2.s.length = min A.cols (A.rows + 1) :=
    (mainLoop_tailSorted sqrt eps A.rows A.cols (min A.cols (A.rows + 1)) wantu wantv fuel
      _ st2 (le_refl _) h0 hrun).1
  have hrank := rankLoop_allZero st2.s hs2 (min A.rows A.cols) (by omega) (by omega)
    ((st2.s.length : R) * st2.s.get 0 * eps) (by rw [hs2 0]; ring)
  unfold SVD.construct
  dsimp only
  rw [hrun]
  dsimp only
  rw [hrank]
  exact ⟨_, rfl, Vec.eq_zeros_of_allZero st2.s _ (hlen2.trans hL) hs2, rfl⟩

/-- C11: all-zero input.  For every `M, N ≥ 1` (and every `sqrt`, `eps` and
flags) the constructor on the `M×N` zero matrix finishes, within `min(N, M+1)`
passes of the main loop, with every singular value equal to `0` and
`rank = min(M, N)`. -/
theorem svd_zero (sqrt : R → R) (eps : R) (m n : ℕ) (hm : 1 ≤ m) (hn : 1 ≤ n)
    (wantu wantv : Bool) (fuel : ℕ) (hf : min n (m + 1) ≤ fuel) :
    ∃ d, SVD.construct sqrt eps fuel (Mat.zeros m n) wantu wantv = some d ∧
      d.singularValues = Vec.zeros (min (m + 1) n) ∧ d.rank = min m n :=
  construct_zero sqrt eps (Mat.zeros m n) (fun i j => Mat.entry_zeros m n i j) hm hn
    wantu wantv fuel hf

/-- Witness for `svd_zero`: the 2×3 zero matrix with three passes. -/
theorem svd_zero_witness :
    1 ≤ 2 ∧ 1 ≤ 3 ∧ min 3 (2 + 1) ≤ 3 ∧
      ∃ d, SVD.construct qsqrt qeps 3 (Mat.zeros 2 3) true true = some d ∧
        d.singularValues = Vec.zeros (min (2 + 1) 3) ∧ d.rank = min 2 3 :=
  ⟨by decide, by decide, by decide,
    svd_zero qsqrt qeps 2 3 (by decide) (by decide) true true 3 (by decide)⟩

/-! ### `solveATA` -/

theorem Vec.get_map_range (n : ℕ) (f : ℕ → R) (i : ℕ) (hi : i < n) :
    Vec.get ((List.range n).map f) i = f i := by
  unfold Vec.get
  rw [List.getD_eq_getElem _ _ (by simpa using hi)]
  simp

theorem Vec.get_square (v : Vec R) (i : ℕ) : (Vec.square v).get i = v.get i * v.get i := by
  unfold Vec.square Vec.get
  rw [List.getD_eq_getElem?_getD, List.getD_eq_getElem?_getD, List.getElem?_map]
  cases v[i]? <;> simp

theorem Vec.get_divv (x y : Vec R) (i : ℕ) : (Vec.divv x y).get i = x.get i / y.get i ∨
    (x.length ≤ i ∨ y.length ≤ i) := by
  by_cases hx : i < x.length
  · by_cases hy : i < y.length
    · left
      unfold Vec.divv Vec.get
      rw [List.getD_eq_getElem _ _ (by simp [hx, hy]), List.getD_eq_getElem _ _ hx,
        List.getD_eq_getElem _ _ hy]
      simp
    · right; right; omega
  · right; left; omega

theorem Vec.length_mulMat (x : Vec R) (A : Mat R) : (x.mulMat A).length = A.cols := by
  simp [Vec.mulMat]

theorem Vec.length_mulVec (A : Mat R) (x : Vec R) : (A.mulVec x).length = A.rows := by
  simp [Mat.mulVec]

/-- What `solveATA` returns in `x`. -/
theorem solveATA_x (d : SVD R) (x b : Vec R) (n : ℕ) (hr : d.m_V.rows = n) (hc : d.m_V.cols = n)
    (hs : d.m_s.length = n) (i : ℕ) (hi : i < n) :
    (d.solveATA x b).1.length = n ∧
    (d.solveATA x b).1.get i = ∑ k in Finset.range n, d.m_V.get i k *
      ((∑ j in Finset.range n, d.m_V.get j k * b.get j) / (d.m_s.get k * d.m_s.get k)) := by
  unfold SVD.solveATA
  dsimp only
  refine ⟨by rw [Vec.length_mulVec, hr], ?_⟩
  unfold Mat.mulVec
  rw [hr, hc, Vec.get_map_range n _ i hi, forUp_sum, zero_add]
  apply Finset.sum_congr rfl
  intro k hk
  have hk2 := Finset.mem_range.mp hk
  congr 1
  rcases Vec.get_divv (b.mulMat d.m_V) (Vec.square d.m_s) k with h | h | h
  · rw [h, Vec.get_square]
    congr 1
    unfold Vec.mulMat
    rw [hr, hc, Vec.get_map_range n _ k hk2, forUp_sum, zero_add]
    apply Finset.sum_congr rfl
    intro j _
    ring
  · rw [Vec.length_mulMat, hc] at h; omega
  · unfold Vec.square at h
    rw [List.length_map, hs] at h; omega

/-- For a square matrix, orthonormal columns give orthonormal rows:
`M'M = I` implies `MM' = I`. -/
theorem orthonormal_rows (M : Mat R) (n : ℕ) (h : M.Orthonormal n) (i j : ℕ) (hi : i < n)
    (hj : j < n) :
    ∑ k in Finset.range n, M.get i k * M.get j k = if i = j then 1 else 0 := by
  have h1 : (Matrix.of (fun a b : Fin n => M.get a b)).transpose *
      Matrix.of (fun a b : Fin n => M.get a b) = 1 := by
    ext a b
    rw [Matrix.mul_apply, Matrix.one_apply]
    have := h a a.2 b b.2
    unfold Mat.gram at this
    rw [Finset.sum_range] at this
    simp only [Matrix.transpose_apply, Matrix.of_apply]
    rw [this]
    simp only [Fin.ext_iff]
  have h2 := Matrix.mul_eq_one_comm.mp h1
  have h3 := congrFun (congrFun h2 ⟨i, hi⟩) ⟨j, hj⟩
  rw [Matrix.mul_apply, Matrix.one_apply] at h3
  rw [Finset.sum_range]
  simp only [Matrix.transpose_apply, Matrix.of_apply, Fin.ext_iff] at h3
  exact h3

/-- C12: `solveATA`.  For `M ≥ N` (so that `m_s` has `N` entries), `V` of size
`N×N`, `b` of length `N` and all `S(k) ≠ 0`: `solveATA(x, b)` returns `x` of
length `N` with `x(i) = Σ_{k<N} V(i,k)·(Σ_{j<N} V(j,k)·b(j)) / S(k)²`, and when
`V'V = I` this `x` satisfies `V·S²·V'·x = b`. -/
theorem solveATA_spec (d : SVD R) (x b : Vec R) (hMN : d.m_A.cols ≤ d.m_A.rows)
    (hlen : d.m_s.length = min (d.m_A.rows + 1) d.m_A.cols)
    (hr : d.m_V.rows = d.m_A.cols) (hc : d.m_V.cols = d.m_A.cols)
    (_hb : b.length = d.m_A.cols) (hS : ∀ k < d.m_A.cols, d.m_s.get k ≠ 0) :
    (d.solveATA x b).1.length = d.m_A.cols ∧
      (∀ i < d.m_A.cols, (d.solveATA x b).1.get i =
        ∑ k in Finset.range d.m_A.cols, d.m_V.get i k *
          ((∑ j in Finset.range d.m_A.cols, d.m_V.get j k * b.get j) /
            (d.m_s.get k * d.m_s.get k))) ∧
      (d.m_V.Orthonormal d.m_A.cols → ∀ i < d.m_A.cols,
        ∑ k in Finset.range d.m_A.cols, d.m_V.get i k * (d.m_s.get k * d.m_s.get k) *
          (∑ l in Finset.range d.m_A.cols, d.m_V.get l k * (d.solveATA x b).1.get l) =
        b.get i) := by
  have hs : d.m_s.length = d.m_A.cols := by rw [hlen]; omega
  have hx := solveATA_x d x b d.m_A.cols hr hc hs
  have hn : 0 < d.m_A.cols ∨ d.m_A.cols = 0 := by omega
  refine ⟨?_, fun i hi => (hx i hi).2, fun hV i hi => ?_⟩
  · rcases hn with h | h
    · exact (hx 0 h).1
    · unfold SVD.solveATA
      dsimp only
      rw [Vec.length_mulVec, hr]
  · have hinner : ∀ k ∈ Finset.range d.m_A.cols,
        ∑ l in Finset.range d.m_A.cols, d.m_V.get l k * (d.solveATA x b).1.get l =
          (∑ j in Finset.range d.m_A.cols, d.m_V.get j k * b.get j) /
            (d.m_s.get k * d.m_s.get k) := by
      intro k hk
      have hk2 := Finset.mem_range.mp hk
      rw [Finset.sum_congr rfl (fun l hl => by rw [(hx l (Finset.mem_range.mp hl)).2])]
      rw [gram_contract d.m_V d.m_A.cols d.m_A.cols (le_refl _) hV _ k hk2, if_pos hk2]
    rw [Finset.sum_congr rfl (fun k hk => by rw [hinner k hk])]
    have hcancel : ∀ k ∈ Finset.range d.m_A.cols,
        d.m_V.get i k * (d.m_s.get k * d.m_s.get k) *
          ((∑ j in Finset.range d.m_A.cols, d.m_V.get j k * b.get j) /
            (d.m_s.get k * d.m_s.get k)) =
        ∑ j in Finset.range d.m_A.cols, b.get j * (d.m_V.get i k * d.m_V.get j k) := by
      intro k hk
      have hne := hS k (Finset.mem_range.mp hk)
      have hS2 : d.m_s.get k * d.m_s.get k ≠ 0 := mul_ne_zero hne hne
      have hc2 : (d.m_s.get k * d.m_s.get k) *
          ((∑ j in Finset.range d.m_A.cols, d.m_V.get j k * b.get j) /
            (d.m_s.get k * d.m_s.get k)) =
          ∑ j in Finset.range d.m_A.cols, d.m_V.get j k * b.get j := by
        field_simp
      rw [mul_assoc, hc2, Finset.mul_sum]
      apply Finset.sum_congr rfl
      intro j _
      ring
    rw [Finset.sum_congr rfl hcancel, Finset.sum_comm]
    rw [Finset.sum_congr rfl (fun j hj => by
      rw [← Finset.mul_sum, orthonormal_rows d.m_V d.m_A.cols hV i j hi (Finset.mem_range.mp hj)])]
    simp only [mul_ite, mul_one, mul_zero]
    rw [Finset.sum_ite_eq]
    simp only [Finset.mem_range, hi, if_true]

/-- Witness for `solveATA_spec`: the factorisation `R22_svd` and `b = (1, 2)`. -/
theorem solveATA_spec_witness :
    R22_svd.m_A.cols ≤ R22_svd.m_A.rows ∧
      R22_svd.m_s.length = min (R22_svd.m_A.rows + 1) R22_svd.m_A.cols ∧
      R22_svd.m_V.rows = R22_svd.m_A.cols ∧ R22_svd.m_V.cols = R22_svd.m_A.cols ∧
      ([1, 2] : Vec ℚ).length = R22_svd.m_A.cols ∧
      (∀ k < R22_svd.m_A.cols, R22_svd.m_s.get k ≠ 0) ∧
      R22_svd.m_V.Orthonormal R22_svd.m_A.cols ∧
      (R22_svd.solveATA [0, 0] [1, 2]).1.length = R22_svd.m_A.cols ∧
      (∀ i < R22_svd.m_A.cols, (R22_svd.solveATA [0, 0] [1, 2]).1.get i =
        ∑ k in Finset.range R22_svd.m_A.cols, R22_svd.m_V.get i k *
          ((∑ j in Finset.range R22_svd.m_A.cols, R22_svd.m_V.get j k * Vec.get [1, 2] j) /
            (R22_svd.m_s.get k * R22_svd.m_s.get k))) ∧
      (R22_svd.m_V.Orthonormal R22_svd.m_A.cols → ∀ i < R22_svd.m_A.cols,
        ∑ k in Finset.range R22_svd.m_A.cols,
          R22_svd.m_V.get i k * (R22_svd.m_s.get k * R22_svd.m_s.get k) *
          (∑ l in Finset.range R22_svd.m_A.cols,
            R22_svd.m_V.get l k * (R22_svd.solveATA [0, 0] [1, 2]).1.get l) =
        Vec.get [1, 2] i) :=
  ⟨by decide, by decide, by decide, by decide, by decide, by decide!,
    by unfold Mat.Orthonormal Mat.gram; decide!,
    solveATA_spec R22_svd [0, 0] [1, 2] (by decide) (by decide) (by decide) (by decide)
      (by decide) (by decide!)⟩

/-! ### `hypot` -/

/-- C13: `hypot` is the exact Euclidean norm.  With `sqrt` an exact square
root, for all `a` and `b`: `hypot(a,b) = sqrt(a² + b²)`, `hypot(0,b) = |b|`,
`hypot(a,b) ≥ 0`, `hypot(a,b) = 0` only if `a = b = 0`, and no division has a
zero divisor. -/
theorem hypot_exact (sqrt : R → R) (hs : IsSqrt sqrt) (a b : R) :
    hypot sqrt a b = sqrt (a * a + b * b) ∧ hypot sqrt 0 b = |b| ∧ 0 ≤ hypot sqrt a b ∧
      (hypot sqrt a b = 0 → a = 0 ∧ b = 0) ∧
      hypotChecked sqrt a b = some (hypot sqrt a b) := by
  have hnn := hypot_nonneg sqrt hs a b
  have hsq := hypot_sq sqrt hs a b
  have hab : 0 ≤ a * a + b * b := add_nonneg (mul_self_nonneg a) (mul_self_nonneg b)
  obtain ⟨r1, r2⟩ := hs (a * a + b * b) hab
  refine ⟨?_, hypot_zero_left sqrt b, hnn, ?_, ?_⟩
  · exact (mul_self_inj hnn r1).mp (hsq.trans r2.symm)
  · intro h0
    by_contra hne
    have : a ≠ 0 ∨ b ≠ 0 := by
      by_contra hc
      push_neg at hc
      exact hne hc
    exact hypot_ne_zero sqrt hs a b this h0
  · unfold hypotChecked hypot
    by_cases ha : a = 0
    · simp only [if_pos ha]
    · by_cases hgt : |a| > |b|
      · simp only [if_neg ha, if_pos hgt]
      · have hb : b ≠ 0 := by
          intro hb
          rw [hb, abs_zero] at hgt
          exact hgt (abs_pos.mpr ha)
        simp only [if_neg ha, if_neg hgt, if_neg hb]

/-- Witness for `hypot_exact`: over the reals with `Real.sqrt`, at `a = 3`,
`b = 4`. -/
theorem hypot_exact_witness :
    IsSqrt Real.sqrt ∧
      (hypot Real.sqrt 3 4 = Real.sqrt (3 * 3 + 4 * 4) ∧ hypot Real.sqrt 0 4 = |4| ∧
        0 ≤ hypot Real.sqrt 3 4 ∧ (hypot Real.sqrt 3 4 = 0 → (3:ℝ) = 0 ∧ (4:ℝ) = 0) ∧
        hypotChecked Real.sqrt 3 4 = some (hypot Real.sqrt 3 4)) :=
  ⟨fun x hx => ⟨Real.sqrt_nonneg x, Real.mul_self_sqrt hx⟩,
    hypot_exact Real.sqrt (fun x hx => ⟨Real.sqrt_nonneg x, Real.mul_self_sqrt hx⟩) 3 4⟩

/-! ### The flags `wantu` and `wantv` -/

/-- Relational invariant rule for `forUp`. -/
theorem forUp_rel {σ τ : Type} (Rel : σ → τ → Prop) (lo hi : ℕ) (f : ℕ → σ → σ)
    (g : ℕ → τ → τ) (a : σ) (b : τ) (h0 : Rel a b)
    (hstep : ∀ i x y, lo ≤ i → i < hi → Rel x y → Rel (f i x) (g i y)) :
    Rel (forUp lo hi f a) (forUp lo hi g b) := by
  rcases Nat.lt_or_ge hi lo with h | h
  · rw [forUp_eq_self _ _ _ _ (by omega), forUp_eq_self _ _ _ _ (by omega)]
    exact h0
  · induction hi with
    | zero =>
      rw [forUp_eq_self _ _ _ _ (by omega), forUp_eq_self _ _ _ _ (by omega)]
      exact h0
    | succ k ih =>
      rcases Nat.eq_or_lt_of_le h with h2 | h2
      · rw [forUp_eq_self _ _ _ _ (by omega), forUp_eq_self _ _ _ _ (by omega)]
        exact h0
      · rw [forUp_succ _ _ _ _ (by omega), forUp_succ _ _ _ _ (by omega)]
        exact hstep k _ _ (by omega) (by omega)
          (ih (fun i x y h3 h4 => hstep i x y h3 (by omega)) (by omega))

/-- Relational invariant rule for `forDown`. -/
theorem forDown_rel {σ τ : Type} (Rel : σ → τ → Prop) (lo hi : ℕ) (f : ℕ → σ → σ)
    (g : ℕ → τ → τ) (a : σ) (b : τ) (h0 : Rel a b)
    (hstep : ∀ i x y, lo ≤ i → i < hi → Rel x y → Rel (f i x) (g i y)) :
    Rel (forDown lo hi f a) (forDown lo hi g b) := by
  induction hi generalizing a b with
  | zero =>
    rw [forDown_eq_self _ _ _ _ (by omega), forDown_eq_self _ _ _ _ (by omega)]
    exact h0
  | succ k ih =>
    rcases Nat.lt_or_ge k lo with h | h
    · rw [forDown_eq_self _ _ _ _ (by omega), forDown_eq_self _ _ _ _ (by omega)]
      exact h0
    · rw [forDown_succ _ _ _ _ h, forDown_succ _ _ _ _ h]
      exact ih _ _ (hstep k a b h (by omega) h0) (fun i x y h3 h4 => hstep i x y h3 (by omega))

theorem colTransform_same (sqrt : R → R) (m k : ℕ) (a b : Bidiag R) (h : a.Same b) :
    (colTransform sqrt m k a).Same (colTransform sqrt m k b) := by
  obtain ⟨h1, h2, h3, h4⟩ := h
  cases a; cases b
  simp only at h1 h2 h3 h4
  subst h1 h2 h3 h4
  unfold colTransform
  dsimp only
  split_ifs <;> exact ⟨rfl, rfl, rfl, rfl⟩

theorem applyCol_same (m nct k j : ℕ) (a b : Bidiag R) (h : a.Same b) :
    (applyCol m nct k j a).Same (applyCol m nct k j b) := by
  obtain ⟨h1, h2, h3, h4⟩ := h
  cases a; cases b
  simp only at h1 h2 h3 h4
  subst h1 h2 h3 h4
  unfold applyCol
  dsimp only
  split_ifs <;> exact ⟨rfl, rfl, rfl, rfl⟩

set_option maxHeartbeats 4000000 in
theorem rowTransform_same (sqrt : R → R) (m n k : ℕ) (wv wv2 : Bool) (a b : Bidiag R)
    (h : a.Same b) :
    (rowTransform sqrt m n k wv a).Same (rowTransform sqrt m n k wv2 b) := by
  obtain ⟨h1, h2, h3, h4⟩ := h
  cases a; cases b
  simp only at h1 h2 h3 h4
  subst h1 h2 h3 h4
  unfold rowTransform
  dsimp only
  split_ifs <;> exact ⟨rfl, rfl, rfl, rfl⟩

theorem bidiagStep_same (sqrt : R → R) (m n nct nrt : ℕ) (wu wv wu2 wv2 : Bool) (k : ℕ)
    (a b : Bidiag R) (h : a.Same b) :
    (bidiagStep sqrt m n nct nrt wu wv k a).Same (bidiagStep sqrt m n nct nrt wu2 wv2 k b) := by
  unfold bidiagStep
  dsimp only
  have h1 : Bidiag.Same (if k < nct then colTransform sqrt m k a else a)
      (if k < nct then colTransform sqrt m k b else b) := by
    split_ifs
    · exact colTransform_same sqrt m k a b h
    · exact h
  have h2 := forUp_rel (fun x y : Bidiag R => x.Same y) (k+1) n
    (fun j st => applyCol m nct k j st) (fun j st => applyCol m nct k j st) _ _ h1
    (fun j x y _ _ hxy => applyCol_same m nct k j x y hxy)
  generalize forUp (k+1) n (fun j st => applyCol m nct k j st)
    (if k < nct then colTransform sqrt m k a else a) = x at h2 ⊢
  generalize forUp (k+1) n (fun j st => applyCol m nct k j st)
    (if k < nct then colTransform sqrt m k b else b) = y at h2 ⊢
  have h3 : Bidiag.Same (if wu = true ∧ k < nct then
      { x with U := forUp k m (fun i U => U.set i k (x.A.get i k)) x.U } else x)
      (if wu2 = true ∧ k < nct then
      { y with U := forUp k m (fun i U => U.set i k (y.A.get i k)) y.U } else y) := by
    split_ifs <;> exact h2
  by_cases hk : k < nrt
  · simp only [if_pos hk]
    exact rowTransform_same sqrt m n k wv wv2 _ _ h3
  · simp only [if_neg hk]
    exact h3

theorem finalSetup_same (m n nct nrt : ℕ) (a b : Bidiag R) (h : a.Same b) :
    (finalSetup m n nct nrt a).Same (finalSetup m n nct nrt b) := by
  obtain ⟨h1, h2, h3, h4⟩ := h
  cases a; cases b
  simp only at h1 h2 h3 h4
  subst h1 h2 h3 h4
  unfold finalSetup
  dsimp only
  split_ifs <;> exact ⟨rfl, rfl, rfl, rfl⟩

/-- The state at the start of the main loop does not depend on the flags,
`U` and `V` apart. -/
theorem init_same (sqrt : R → R) (A : Mat R) (wu wv wu2 wv2 : Bool) :
    (SVD.init sqrt A wu wv).Same (SVD.init sqrt A wu2 wv2) := by
  have h1 := forUp_rel (fun x y : Bidiag R => x.Same y) 0
    (max (min (A.rows-1) A.cols) (max 0 (min (A.cols-2) A.rows)))
    (fun k st => bidiagStep sqrt A.rows A.cols (min (A.rows-1) A.cols)
      (max 0 (min (A.cols-2) A.rows)) wu wv k st)
    (fun k st => bidiagStep sqrt A.rows A.cols (min (A.rows-1) A.cols)
      (max 0 (min (A.cols-2) A.rows)) wu2 wv2 k st)
    ⟨A, Vec.zeros (min (A.rows+1) A.cols), Vec.zeros A.cols, Vec.zeros A.rows,
      Mat.zeros A.rows A.rows, Mat.zeros A.cols A.cols⟩
    ⟨A, Vec.zeros (min (A.rows+1) A.cols), Vec.zeros A.cols, Vec.zeros A.rows,
      Mat.zeros A.rows A.rows, Mat.zeros A.cols A.cols⟩ ⟨rfl, rfl, rfl, rfl⟩
    (fun k x y _ _ hxy => bidiagStep_same sqrt _ _ _ _ wu wv wu2 wv2 k x y hxy)
  have h2 := finalSetup_same A.rows A.cols (min (A.rows-1) A.cols)
    (max 0 (min (A.cols-2) A.rows)) _ _ h1
  unfold SVD.init
  dsimp only
  split_ifs <;> exact h2

theorem case1_same (sqrt : R → R) (n : ℕ) (wv wv2 : Bool) (p k : ℕ) (a b : Iter R)
    (h : a.Same b) : (case1 sqrt n wv p k a).Same (case1 sqrt n wv2 p k b) := by
  obtain ⟨h1, h2, h3, h4⟩ := h
  cases a; cases b
  simp only at h1 h2 h3 h4
  subst h1 h2 h3 h4
  unfold case1
  dsimp only
  refine ⟨(forDown_rel (fun x y : Chase R => x.Same y) k (p-1) _ _ _ _ ?_ ?_).2.2.1,
    (forDown_rel (fun x y : Chase R => x.Same y) k (p-1) _ _ _ _ ?_ ?_).2.2.2, rfl, rfl⟩
  all_goals first
    | exact ⟨rfl, rfl, rfl, rfl⟩
    | (intro j x y _ _ hxy
       obtain ⟨g1, g2, g3, g4⟩ := hxy
       cases x; cases y
       simp only at g1 g2 g3 g4
       subst g1 g2 g3 g4
       dsimp only
       split_ifs <;> exact ⟨rfl, rfl, rfl, rfl⟩)

theorem case2_same (sqrt : R → R) (m : ℕ) (wu wu2 : Bool) (p k : ℕ) (a b : Iter R)
    (h : a.Same b) : (case2 sqrt m wu p k a).Same (case2 sqrt m wu2 p k b) := by
  obtain ⟨h1, h2, h3, h4⟩ := h
  cases a; cases b
  simp only at h1 h2 h3 h4
  subst h1 h2 h3 h4
  unfold case2
  dsimp only
  refine ⟨(forUp_rel (fun x y : Chase R => x.Same y) k p _ _ _ _ ?_ ?_).2.2.1,
    (forUp_rel (fun x y : Chase R => x.Same y) k p _ _ _ _ ?_ ?_).2.2.2, rfl, rfl⟩
  all_goals first
    | exact ⟨rfl, rfl, rfl, rfl⟩
    | (intro j x y _ _ hxy
       obtain ⟨g1, g2, g3, g4⟩ := hxy
       cases x; cases y
       simp only at g1 g2 g3 g4
       subst g1 g2 g3 g4
       dsimp only
       split_ifs <;> exact ⟨rfl, rfl, rfl, rfl⟩)

set_option maxHeartbeats 4000000 in
theorem chaseStep_same (sqrt : R → R) (m n : ℕ) (wu wv wu2 wv2 : Bool) (k j : ℕ)
    (x y : Chase R) (h : x.Same y) :
    (chaseStep sqrt m n wu wv k j x).Same (chaseStep sqrt m n wu2 wv2 k j y) := by
  obtain ⟨g1, g2, g3, g4⟩ := h
  cases x; cases y
  simp only at g1 g2 g3 g4
  subst g1 g2 g3 g4
  unfold chaseStep
  dsimp only
  split_ifs <;> exact ⟨rfl, rfl, rfl, rfl⟩

theorem case3_same (sqrt : R → R) (m n : ℕ) (wu wv wu2 wv2 : Bool) (p k : ℕ) (a b : Iter R)
    (h : a.Same b) :
    (case3 sqrt m n wu wv p k a).Same (case3 sqrt m n wu2 wv2 p k b) := by
  obtain ⟨h1, h2, h3, h4⟩ := h
  cases a; cases b
  simp only at h1 h2 h3 h4
  subst h1 h2 h3 h4
  unfold case3
  dsimp only
  refine ⟨(forUp_rel (fun x y : Chase R => x.Same y) k (p-1) _ _ _ _ ?_ ?_).2.2.1,
    congrArg₂ (fun (v : Vec R) (x : R) => v.set (p-2) x)
      (forUp_rel (fun x y : Chase R => x.Same y) k (p-1) _ _ _ _ ?_ ?_).2.2.2
      (forUp_rel (fun x y : Chase R => x.Same y) k (p-1) _ _ _ _ ?_ ?_).1, rfl, rfl⟩
  all_goals first
    | exact ⟨rfl, rfl, rfl, rfl⟩
    | exact fun j x y _ _ hxy => chaseStep_same sqrt m n wu wv wu2 wv2 k j x y hxy

theorem orderSwap_same (m n : ℕ) (wu wv wu2 wv2 : Bool) (k : ℕ) (a b : Iter R)
    (h : a.Same b) : (orderSwap m n wu wv k a).Same (orderSwap m n wu2 wv2 k b) := by
  obtain ⟨h1, h2, h3, h4⟩ := h
  cases a; cases b
  simp only at h1 h2 h3 h4
  subst h1 h2 h3 h4
  unfold orderSwap
  dsimp only
  split_ifs <;> exact ⟨rfl, rfl, rfl, rfl⟩

theorem order_same (m n : ℕ) (wu wv wu2 wv2 : Bool) : ∀ (d k : ℕ) (a b : Iter R), a.Same b →
    (order m n wu wv d k a).Same (order m n wu2 wv2 d k b) := by
  intro d
  induction d with
  | zero => exact fun k a b h => h
  | succ d ih =>
    intro k a b h
    rw [order, order, h.1]
    split_ifs
    · exact h
    · exact ih (k+1) _ _ (orderSwap_same m n wu wv wu2 wv2 k a b h)

theorem case4_same (m n pp : ℕ) (wu wv wu2 wv2 : Bool) (k : ℕ) (a b : Iter R)
    (h : a.Same b) : (case4 m n pp wu wv k a).Same (case4 m n pp wu2 wv2 k b) := by
  have key : ∀ x y : Iter R, x.Same y →
      Iter.Same (Iter.mk (order m n wu wv (pp - k) k x).s (order m n wu wv (pp - k) k x).e
          (order m n wu wv (pp - k) k x).U (order m n wu wv (pp - k) k x).V
          ((order m n wu wv (pp - k) k x).p - 1) 0)
        (Iter.mk (order m n wu2 wv2 (pp - k) k y).s (order m n wu2 wv2 (pp - k) k y).e
          (order m n wu2 wv2 (pp - k) k y).U (order m n wu2 wv2 (pp - k) k y).V
          ((order m n wu2 wv2 (pp - k) k y).p - 1) 0) := by
    intro x y hxy
    obtain ⟨o1, o2, o3, o4⟩ := order_same m n wu wv wu2 wv2 (pp - k) k x y hxy
    exact ⟨o1, o2, by show _ - 1 = _ - 1; rw [o3], rfl⟩
  obtain ⟨h1, h2, h3, h4⟩ := h
  cases a; cases b
  simp only at h1 h2 h3 h4
  subst h1 h2 h3 h4
  unfold case4
  dsimp only
  apply key
  split_ifs <;> exact ⟨rfl, rfl, rfl, rfl⟩

/-- One pass of the main loop does not depend on the flags, `U` and `V`
apart. -/
theorem iterStep_same (sqrt : R → R) (eps : R) (m n pp : ℕ) (wu wv wu2 wv2 : Bool)
    (a b : Iter R) (h : a.Same b) :
    (iterStep sqrt eps m n pp wu wv a).Same (iterStep sqrt eps m n pp wu2 wv2 b) := by
  obtain ⟨h1, h2, h3, h4⟩ := h
  cases a; cases b
  simp only at h1 h2 h3 h4
  subst h1 h2 h3 h4
  unfold iterStep
  dsimp only
  split_ifs
  · exact case1_same sqrt n wv wv2 _ _ _ _ ⟨rfl, rfl, rfl, rfl⟩
  · exact case2_same sqrt m wu wu2 _ _ _ _ ⟨rfl, rfl, rfl, rfl⟩
  · exact case3_same sqrt m n wu wv wu2 wv2 _ _ _ _ ⟨rfl, rfl, rfl, rfl⟩
  · exact case4_same m n pp wu wv wu2 wv2 _ _ _ ⟨rfl, rfl, rfl, rfl⟩

/-- The main loop does not depend on the flags, `U` and `V` apart: it
finishes for the same `fuel`, with the same `m_s`. -/
theorem mainLoop_same (sqrt : R → R) (eps : R) (m n pp : ℕ) (wu wv wu2 wv2 : Bool) :
    ∀ (fuel : ℕ) (a b : Iter R), a.Same b →
      (mainLoop sqrt eps m n pp wu wv fuel a = none ∧
        mainLoop sqrt eps m n pp wu2 wv2 fuel b = none) ∨
      ∃ x y, mainLoop sqrt eps m n pp wu wv fuel a = some x ∧
        mainLoop sqrt eps m n pp wu2 wv2 fuel b = some y ∧ x.Same y := by
  intro fuel
  induction fuel with
  | zero =>
    intro a b h
    unfold mainLoop
    rw [← h.2.2.1]
    split_ifs
    · exact Or.inr ⟨a, b, rfl, rfl, h⟩
    · exact Or.inl ⟨rfl, rfl⟩
  | succ f ih =>
    intro a b h
    unfold mainLoop
    rw [← h.2.2.1]
    split_ifs
    · exact Or.inr ⟨a, b, rfl, rfl, h⟩
    · exact ih _ _ (iterStep_same sqrt eps m n pp wu wv wu2 wv2 a b h)

theorem colTransform_keeps (sqrt : R → R) (m k : ℕ) (st : Bidiag R) :
    (colTransform sqrt m k st).U = st.U ∧ (colTransform sqrt m k st).V = st.V := by
  unfold colTransform
  dsimp only
  split_ifs <;> exact ⟨rfl, rfl⟩

theorem applyCol_keeps (m nct k j : ℕ) (st : Bidiag R) :
    (applyCol m nct k j st).U = st.U ∧ (applyCol m nct k j st).V = st.V := by
  unfold applyCol
  dsimp only
  split_ifs <;> exact ⟨rfl, rfl⟩

set_option maxHeartbeats 4000000 in
theorem rowTransform_keeps (sqrt : R → R) (m n k : ℕ) (wv : Bool) (st : Bidiag R) :
    (rowTransform sqrt m n k wv st).U = st.U ∧
      (wv = false → (rowTransform sqrt m n k wv st).V = st.V) := by
  cases wv
  · unfold rowTransform
    dsimp only
    split_ifs <;> first | exact ⟨rfl, fun _ => rfl⟩ | contradiction
  · unfold rowTransform
    dsimp only
    split_ifs <;> exact ⟨rfl, fun h => absurd h (by decide)⟩

theorem bidiagStep_keeps (sqrt : R → R) (m n nct nrt : ℕ) (wu wv : Bool) (k : ℕ)
    (st : Bidiag R) :
    (wu = false → (bidiagStep sqrt m n nct nrt wu wv k st).U = st.U) ∧
      (wv = false → (bidiagStep sqrt m n nct nrt wu wv k st).V = st.V) := by
  unfold bidiagStep
  dsimp only
  have h1 : (if k < nct then colTransform sqrt m k st else st).U = st.U ∧
      (if k < nct then colTransform sqrt m k st else st).V = st.V := by
    split_ifs
    · exact colTransform_keeps sqrt m k st
    · exact ⟨rfl, rfl⟩
  have h2 := forUp_pres (fun b : Bidiag R => b.U = st.U ∧ b.V = st.V) (k+1) n
    (fun j st => applyCol m nct k j st) _ h1
    (fun j b _ _ hb => ⟨(applyCol_keeps m nct k j b).1.trans hb.1,
      (applyCol_keeps m nct k j b).2.trans hb.2⟩)
  generalize forUp (k+1) n (fun j st => applyCol m nct k j st)
    (if k < nct then colTransform sqrt m k st else st) = x at h2 ⊢
  have h3 : (wu = false → (if wu = true ∧ k < nct then
      { x with U := forUp k m (fun i U => U.set i k (x.A.get i k)) x.U } else x).U = st.U) ∧
      (if wu = true ∧ k < nct then
      { x with U := forUp k m (fun i U => U.set i k (x.A.get i k)) x.U } else x).V = st.V := by
    refine ⟨fun hwu => ?_, ?_⟩
    · rw [if_neg (fun hc => by rw [hwu] at hc; exact absurd hc.1 (by decide))]
      exact h2.1
    · split_ifs <;> exact h2.2
  generalize (if wu = true ∧ k < nct then
      { x with U := forUp k m (fun i U => U.set i k (x.A.get i k)) x.U } else x) = y at h3 ⊢
  by_cases hk : k < nrt
  · simp only [if_pos hk]
    obtain ⟨r1, r2⟩ := rowTransform_keeps sqrt m n k wv y
    exact ⟨fun hwu => r1.trans (h3.1 hwu), fun hwv => (r2 hwv).trans h3.2⟩
  · simp only [if_neg hk]
    exact ⟨h3.1, fun _ => h3.2⟩

theorem finalSetup_keeps (m n nct nrt : ℕ) (st : Bidiag R) :
    (finalSetup m n nct nrt st).U = st.U ∧ (finalSetup m n nct nrt st).V = st.V := by
  unfold finalSetup
  dsimp only
  split_ifs <;> exact ⟨rfl, rfl⟩

/-- Without `wantu` (`wantv`) the matrix `U` (`V`) at the start of the main
loop is the one allocated at line 156 (157). -/
theorem init_keeps (sqrt : R → R) (A : Mat R) (wu wv : Bool) :
    (wu = false → (SVD.init sqrt A wu wv).U = Mat.zeros A.rows A.rows) ∧
      (wv = false → (SVD.init sqrt A wu wv).V = Mat.zeros A.cols A.cols) := by
  have h1 := forUp_pres (fun b : Bidiag R => (wu = false → b.U = Mat.zeros A.rows A.rows) ∧
      (wv = false → b.V = Mat.zeros A.cols A.cols)) 0
    (max (min (A.rows-1) A.cols) (max 0 (min (A.cols-2) A.rows)))
    (fun k st => bidiagStep sqrt A.rows A.cols (min (A.rows-1) A.cols)
      (max 0 (min (A.cols-2) A.rows)) wu wv k st)
    ⟨A, Vec.zeros (min (A.rows+1) A.cols), Vec.zeros A.cols, Vec.zeros A.rows,
      Mat.zeros A.rows A.rows, Mat.zeros A.cols A.cols⟩ ⟨fun _ => rfl, fun _ => rfl⟩
    (fun k b _ _ hb => ⟨fun hwu => ((bidiagStep_keeps sqrt _ _ _ _ wu wv k b).1 hwu).trans
        (hb.1 hwu),
      fun hwv => ((bidiagStep_keeps sqrt _ _ _ _ wu wv k b).2 hwv).trans (hb.2 hwv)⟩)
  unfold SVD.init
  dsimp only
  generalize forUp 0 (max (min (A.rows-1) A.cols) (max 0 (min (A.cols-2) A.rows)))
    (fun k st => bidiagStep sqrt A.rows A.cols (min (A.rows-1) A.cols)
      (max 0 (min (A.cols-2) A.rows)) wu wv k st)
    ⟨A, Vec.zeros (min (A.rows+1) A.cols), Vec.zeros A.cols, Vec.zeros A.rows,
      Mat.zeros A.rows A.rows, Mat.zeros A.cols A.cols⟩ = b at h1 ⊢
  obtain ⟨f1, f2⟩ := finalSetup_keeps A.rows A.cols (min (A.rows-1) A.cols)
    (max 0 (min (A.cols-2) A.rows)) b
  cases wu <;> cases wv
  · exact ⟨fun _ => f1.trans (h1.1 rfl), fun _ => f2.trans (h1.2 rfl)⟩
  · exact ⟨fun _ => f1.trans (h1.1 rfl), fun h => absurd h (by decide)⟩
  · exact ⟨fun h => absurd h (by decide), fun _ => f2.trans (h1.2 rfl)⟩
  · exact ⟨fun h => absurd h (by decide), fun h => absurd h (by decide)⟩

theorem case1_keeps (sqrt : R → R) (n : ℕ) (wv : Bool) (p k : ℕ) (st : Iter R) :
    (case1 sqrt n wv p k st).U = st.U ∧ (wv = false → (case1 sqrt n wv p k st).V = st.V) := by
  unfold case1
  dsimp only
  refine ⟨rfl, fun hwv => ?_⟩
  subst hwv
  apply forDown_pres (fun c : Chase R => c.V = st.V)
  · rfl
  · intro j c _ _ hc
    dsimp only
    split_ifs <;> first | exact hc | contradiction

theorem case2_keeps (sqrt : R → R) (m : ℕ) (wu : Bool) (p k : ℕ) (st : Iter R) :
    (case2 sqrt m wu p k st).V = st.V ∧ (wu = false → (case2 sqrt m wu p k st).U = st.U) := by
  unfold case2
  dsimp only
  refine ⟨rfl, fun hwu => ?_⟩
  subst hwu
  apply forUp_pres (fun c : Chase R => c.U = st.U)
  · rfl
  · intro j c _ _ hc
    dsimp only
    split_ifs <;> first | exact hc | contradiction

set_option maxHeartbeats 4000000 in
theorem chaseStep_keeps (sqrt : R → R) (m n : ℕ) (wu wv : Bool) (k j : ℕ) (c : Chase R) :
    (wu = false → (chaseStep sqrt m n wu wv k j c).U = c.U) ∧
      (wv = false → (chaseStep sqrt m n wu wv k j c).V = c.V) := by
  cases wu <;> cases wv <;> unfold chaseStep <;> dsimp only <;> split_ifs <;>
    first
      | exact ⟨fun _ => rfl, fun _ => rfl⟩
      | exact ⟨fun _ => rfl, fun h => absurd h (by decide)⟩
      | exact ⟨fun h => absurd h (by decide), fun _ => rfl⟩
      | exact ⟨fun h => absurd h (by decide), fun h => absurd h (by decide)⟩
      | (exfalso; simp_all)

theorem case3_keeps (sqrt : R → R) (m n : ℕ) (wu wv : Bool) (p k : ℕ) (st : Iter R) :
    (wu = false → (case3 sqrt m n wu wv p k st).U = st.U) ∧
      (wv = false → (case3 sqrt m n wu wv p k st).V = st.V) := by
  unfold case3
  dsimp only
  exact forUp_pres (fun c : Chase R => (wu = false → c.U = st.U) ∧ (wv = false → c.V = st.V))
    k (p-1) (fun j c => chaseStep sqrt m n wu wv k j c) _ ⟨fun _ => rfl, fun _ => rfl⟩
    (fun j c _ _ hc => ⟨fun h => ((chaseStep_keeps sqrt m n wu wv k j c).1 h).trans (hc.1 h),
      fun h => ((chaseStep_keeps sqrt m n wu wv k j c).2 h).trans (hc.2 h)⟩)

theorem orderSwap_keeps (m n : ℕ) (wu wv : Bool) (k : ℕ) (st : Iter R) :
    (wu = false → (orderSwap m n wu wv k st).U = st.U) ∧
      (wv = false → (orderSwap m n wu wv k st).V = st.V) := by
  cases wu <;> cases wv <;> unfold orderSwap <;> dsimp only <;> split_ifs <;>
    first
      | exact ⟨fun _ => rfl, fun _ => rfl⟩
      | exact ⟨fun _ => rfl, fun h => absurd h (by decide)⟩
      | exact ⟨fun h => absurd h (by decide), fun _ => rfl⟩
      | exact ⟨fun h => absurd h (by decide), fun h => absurd h (by decide)⟩
      | (exfalso; simp_all)

theorem order_keeps (m n : ℕ) (wu wv : Bool) : ∀ (d k : ℕ) (st : Iter R),
    (wu = false → (order m n wu wv d k st).U = st.U) ∧
      (wv = false → (order m n wu wv d k st).V = st.V) := by
  intro d
  induction d with
  | zero => exact fun k st => ⟨fun _ => rfl, fun _ => rfl⟩
  | succ d ih =>
    intro k st
    rw [order]
    split_ifs
    · exact ⟨fun _ => rfl, fun _ => rfl⟩
    · obtain ⟨a1, a2⟩ := ih (k+1) (orderSwap m n wu wv k st)
      obtain ⟨b1, b2⟩ := orderSwap_keeps m n wu wv k st
      exact ⟨fun h => (a1 h).trans (b1 h), fun h => (a2 h).trans (b2 h)⟩

theorem case4_keeps (m n pp : ℕ) (wu wv : Bool) (k : ℕ) (st : Iter R) :
    (wu = false → (case4 m n pp wu wv k st).U = st.U) ∧
      (wv = false → (case4 m n pp wu wv k st).V = st.V) := by
  have key : ∀ x : Iter R, x.U = st.U → (wv = false → x.V = st.V) →
      (wu = false → (order m n wu wv (pp - k) k x).U = st.U) ∧
        (wv = false → (order m n wu wv (pp - k) k x).V = st.V) := by
    intro x h1 h2
    obtain ⟨a1, a2⟩ := order_keeps m n wu wv (pp - k) k x
    exact ⟨fun h => (a1 h).trans h1, fun h => (a2 h).trans (h2 h)⟩
  unfold case4
  dsimp only
  apply key
  · split_ifs <;> rfl
  · intro hwv
    subst hwv
    split_ifs <;> first | rfl | (exfalso; simp_all)

/-- One pass of the main loop leaves `U` without `wantu` and `V` without
`wantv`. -/
theorem iterStep_keeps (sqrt : R → R) (eps : R) (m n pp : ℕ) (wu wv : Bool) (st : Iter R) :
    (wu = false → (iterStep sqrt eps m n pp wu wv st).U = st.U) ∧
      (wv = false → (iterStep sqrt eps m n pp wu wv st).V = st.V) := by
  unfold iterStep
  dsimp only
  split_ifs
  · obtain ⟨a, b⟩ := case1_keeps sqrt n wv st.p (classify eps st.p st.s st.e).2.1
      { st with s := (classify eps st.p st.s st.e).2.2.1,
                e := (classify eps st.p st.s st.e).2.2.2 }
    exact ⟨fun _ => a, b⟩
  · obtain ⟨a, b⟩ := case2_keeps sqrt m wu st.p (classify eps st.p st.s st.e).2.1
      { st with s := (classify eps st.p st.s st.e).2.2.1,
                e := (classify eps st.p st.s st.e).2.2.2 }
    exact ⟨b, fun _ => a⟩
  · exact case3_keeps sqrt m n wu wv st.p (classify eps st.p st.s st.e).2.1
      { st with s := (classify eps st.p st.s st.e).2.2.1,
                e := (classify eps st.p st.s st.e).2.2.2 }
  · exact case4_keeps m n pp wu wv (classify eps st.p st.s st.e).2.1
      { st with s := (classify eps st.p st.s st.e).2.2.1,
                e := (classify eps st.p st.s st.e).2.2.2 }

theorem mainLoop_keeps (sqrt : R → R) (eps : R) (m n pp : ℕ) (wu wv : Bool) :
    ∀ (fuel : ℕ) (st st2 : Iter R), mainLoop sqrt eps m n pp wu wv fuel st = some st2 →
      (wu = false → st2.U = st.U) ∧ (wv = false → st2.V = st.V) := by
  intro fuel
  induction fuel with
  | zero =>
    intro st st2 hrun
    unfold mainLoop at hrun
    split_ifs at hrun
    cases hrun
    exact ⟨fun _ => rfl, fun _ => rfl⟩
  | succ f ih =>
    intro st st2 hrun
    unfold mainLoop at hrun
    split_ifs at hrun
    · cases hrun
      exact ⟨fun _ => rfl, fun _ => rfl⟩
    · obtain ⟨a1, a2⟩ := ih _ _ hrun
      obtain ⟨b1, b2⟩ := iterStep_keeps sqrt eps m n pp wu wv st
      exact ⟨fun h => (a1 h).trans (b1 h), fun h => (a2 h).trans (b2 h)⟩

/-- The singular values and the rank do not depend on the flags. -/
theorem construct_same (sqrt : R → R) (eps : R) (fuel : ℕ) (A : Mat R)
    (wu wv wu2 wv2 : Bool) :
    (SVD.construct sqrt eps fuel A wu wv).map (fun d => (d.m_s, d.m_rank)) =
      (SVD.construct sqrt eps fuel A wu2 wv2).map (fun d => (d.m_s, d.m_rank)) := by
  have hi := init_same sqrt A wu wv wu2 wv2
  have hm := mainLoop_same sqrt eps A.rows A.cols (min A.cols (A.rows+1) - 1) wu wv wu2 wv2 fuel
    ⟨(SVD.init sqrt A wu wv).s, (SVD.init sqrt A wu wv).e, (SVD.init sqrt A wu wv).U,
      (SVD.init sqrt A wu wv).V, min A.cols (A.rows+1), 0⟩
    ⟨(SVD.init sqrt A wu2 wv2).s, (SVD.init sqrt A wu2 wv2).e, (SVD.init sqrt A wu2 wv2).U,
      (SVD.init sqrt A wu2 wv2).V, min A.cols (A.rows+1), 0⟩ ⟨hi.2.1, hi.2.2.1, rfl, rfl⟩
  unfold SVD.construct
  dsimp only
  rcases hm with ⟨h1, h2⟩ | ⟨x, y, h1, h2, hxy⟩
  · rw [h1, h2]
  · rw [h1, h2]
    dsimp only
    rw [hxy.1]
    generalize rankLoop y.s ((y.s.length : R) * y.s.get 0 * eps) (min A.rows A.cols) = o
    cases o <;> rfl

/-- Without `wantu` (`wantv`) the constructor leaves `m_U` (`m_V`) as
allocated. -/
theorem construct_keeps (sqrt : R → R) (eps : R) (fuel : ℕ) (A : Mat R) (wu wv : Bool)
    (d : SVD R) (h : SVD.construct sqrt eps fuel A wu wv = some d) :
    (wu = false → d.m_U = Mat.zeros A.rows A.rows) ∧
      (wv = false → d.m_V = Mat.zeros A.cols A.cols) := by
  unfold SVD.construct at h
  dsimp only at h
  split at h
  · cases h
  · rename_i st hrun
    split at h
    · cases h
    · rename_i r hr
      cases h
      obtain ⟨a1, a2⟩ := mainLoop_keeps sqrt eps _ _ _ wu wv fuel _ st hrun
      obtain ⟨b1, b2⟩ := init_keeps sqrt A wu wv
      exact ⟨fun hu => (a1 hu).trans (b1 hu), fun hv => (a2 hv).trans (b2 hv)⟩

/-- C17: the flags affect only `U` and `V`.  For every input and every bound on
the passes of the main loop, the constructor finishes for one combination of
`(wantu, wantv)` exactly when it does for another, with the same singular
values and the same rank; without `wantu` the matrix `U` it returns is the
zero-filled matrix as allocated, and likewise `V` without `wantv`. -/
theorem flags_only_UV (sqrt : R → R) (eps : R) (fuel : ℕ) (A : Mat R)
    (wu wv wu2 wv2 : Bool) :
    (SVD.construct sqrt eps fuel A wu wv).map (fun d => (d.singularValues, d.rank)) =
      (SVD.construct sqrt eps fuel A wu2 wv2).map (fun d => (d.singularValues, d.rank)) ∧
    ∀ d, SVD.construct sqrt eps fuel A wu wv = some d →
      (wu = false → d.m_U = Mat.zeros A.rows A.rows) ∧
        (wv = false → d.m_V = Mat.zeros A.cols A.cols) :=
  ⟨construct_same sqrt eps fuel A wu wv wu2 wv2,
    fun d h => construct_keeps sqrt eps fuel A wu wv d h⟩

/-! ### `solve` on an object built without `U` or `V` -/

theorem Vec.get_of_length_le (v : Vec R) (i : ℕ) (h : v.length ≤ i) : v.get i = 0 := by
  unfold Vec.get
  rw [List.getD_eq_getElem?_getD, List.getElem?_eq_none (by omega)]
  rfl

theorem Vec.get_set_zero (v : Vec R) (i : ℕ) : (v.set i 0).get i = 0 := by
  rw [Vec.get_set]
  split_ifs with h
  · rfl
  · exact Vec.get_of_length_le v i (by
      by_contra hc
      exact h ⟨rfl, by omega⟩)

/-- With `V` zero, `solve` on `x = 0` returns `x = 0`. -/
theorem solve_zero_V (d : SVD R) (hV : ∀ i j, d.m_V.get i j = 0) (x b : Vec R)
    (hx : x.AllZero) : (d.solve x b).1.AllZero := by
  unfold SVD.solve
  dsimp only
  have h1 : ∀ i, d.m_rank ≤ i → (forUp 0 d.m_rank (fun k x' =>
      x'.set k (forUp 0 d.m_A.rows (fun j acc => acc + b.get j * d.m_U.get j k) 0)) x).get i
        = 0 := by
    apply forUp_pres (fun v : Vec R => ∀ i, d.m_rank ≤ i → v.get i = 0)
    · exact fun i _ => hx i
    · intro k v _ hk hv i hi
      dsimp only
      rw [Vec.get_set_ne _ _ _ _ (by omega)]
      exact hv i hi
  generalize forUp 0 d.m_rank (fun k x' =>
      x'.set k (forUp 0 d.m_A.rows (fun j acc => acc + b.get j * d.m_U.get j k) 0)) x = x1
    at h1 ⊢
  have h2 := forUp_inv (fun k (xb : Vec R × Vec R) => ∀ i, (i < k ∨ d.m_rank ≤ i) →
      xb.1.get i = 0) 0 d.m_rank
    (fun k xb => ((xb.1.set k 0), xb.2.set k (xb.1.get k / d.m_s.get k))) (x1, b)
    (Nat.zero_le _) (fun i hi => h1 i (by omega))
    (by
      intro k xb _ hk hxb i hi
      dsimp only
      by_cases hik : i = k
      · rw [hik]
        exact Vec.get_set_zero _ _
      · rw [Vec.get_set_ne _ _ _ _ (Ne.symm hik)]
        exact hxb i (by omega))
  generalize forUp 0 d.m_rank
    (fun k xb => ((xb.1.set k 0), xb.2.set k (xb.1.get k / d.m_s.get k))) (x1, b) = xb at h2 ⊢
  have h3 : xb.1.AllZero := fun i => h2 i (by omega)
  apply forUp_pres (fun v : Vec R => v.AllZero) _ _ _ _ h3
  intro i v _ _ hv
  apply forUp_pres (fun v : Vec R => v.AllZero) _ _ _ _ hv
  intro k w _ _ hw
  exact hw.set_eq _ _ (by rw [hw i, hV]; ring)

/-- With `U` zero, `solve` on `x = 0` returns `x = 0`. -/
theorem solve_zero_U (d : SVD R) (hU : ∀ i j, d.m_U.get i j = 0) (x b : Vec R)
    (hx : x.AllZero) : (d.solve x b).1.AllZero := by
  unfold SVD.solve
  dsimp only
  have h1 : Vec.AllZero (forUp 0 d.m_rank (fun k x' =>
      x'.set k (forUp 0 d.m_A.rows (fun j acc => acc + b.get j * d.m_U.get j k) 0)) x) := by
    apply forUp_pres (fun v : Vec R => v.AllZero) _ _ _ _ hx
    intro k v _ _ hv
    refine hv.set_eq _ _ ?_
    apply forUp_pres (fun acc : R => acc = 0) _ _ _ _ rfl
    intro j acc _ _ hacc
    rw [hacc, hU]
    ring
  generalize forUp 0 d.m_rank (fun k x' =>
      x'.set k (forUp 0 d.m_A.rows (fun j acc => acc + b.get j * d.m_U.get j k) 0)) x = x1
    at h1 ⊢
  have h2 := forUp_inv (fun k (xb : Vec R × Vec R) => xb.1.AllZero ∧
      ∀ i, i < k → xb.2.get i = 0) 0 d.m_rank
    (fun k xb => ((xb.1.set k 0), xb.2.set k (xb.1.get k / d.m_s.get k))) (x1, b)
    (Nat.zero_le _) ⟨h1, fun i hi => absurd hi (Nat.not_lt_zero _)⟩
    (by
      intro k xb _ hk hxb
      dsimp only
      refine ⟨hxb.1.set_zero _, fun i hi => ?_⟩
      rw [hxb.1 k, zero_div]
      by_cases hik : i = k
      · rw [hik]
        exact Vec.get_set_zero _ _
      · rw [Vec.get_set_ne _ _ _ _ (Ne.symm hik)]
        exact hxb.2 i (by omega))
  generalize forUp 0 d.m_rank
    (fun k xb => ((xb.1.set k 0), xb.2.set k (xb.1.get k / d.m_s.get k))) (x1, b) = xb at h2 ⊢
  apply forUp_pres (fun v : Vec R => v.AllZero) _ _ _ _ h2.1
  intro i v _ _ hv
  apply forUp_pres (fun v : Vec R => v.AllZero) _ _ _ _ hv
  intro k w _ hk hw
  exact hw.set_eq _ _ (by rw [hw i, h2.2 k hk]; ring)

/-- Counterexample to C14: built from `[[5]]` without `U`, `solve` signals
nothing and returns `x = (0)` for `b = (10)`, computed from the zero-filled
`U`; built with `U` and `V` it returns `x = (2)`. -/
theorem solve_without_U :
    SVD.construct qsqrt qeps 1 (Mat.ofRows 1 [[(5:ℚ)]]) false true =
        some ⟨1, ⟨1, 1, [[5]]⟩, [5], ⟨1, 1, [[0]]⟩, ⟨1, 1, [[1]]⟩⟩ ∧
      (⟨1, ⟨1, 1, [[5]]⟩, [5], ⟨1, 1, [[0]]⟩, ⟨1, 1, [[1]]⟩⟩ : SVD ℚ).solve [0] [10] =
        ([0], [0]) ∧
      SVD.construct qsqrt qeps 1 (Mat.ofRows 1 [[(5:ℚ)]]) true true =
        some ⟨1, ⟨1, 1, [[5]]⟩, [5], ⟨1, 1, [[1]]⟩, ⟨1, 1, [[1]]⟩⟩ ∧
      (⟨1, ⟨1, 1, [[5]]⟩, [5], ⟨1, 1, [[1]]⟩, ⟨1, 1, [[1]]⟩⟩ : SVD ℚ).solve [0] [10] =
        ([2], [2]) := by
  decide!

/-! ### Shapes of the containers -/

theorem Vec.forUp_set_len (lo hi : ℕ) (c : ℕ → ℕ) (f : ℕ → Vec R → R) (v : Vec R) :
    (forUp lo hi (fun i s => s.set (c i) (f i s)) v).length = v.length :=
  forUp_pres (fun w : Vec R => w.length = v.length) lo hi _ v rfl
    (fun i w _ _ hw => by
      show (Vec.set w _ _).length = _
      rw [Vec.length_set]; exact hw)

theorem Mat.forUp_set_rows (lo hi : ℕ) (r c : ℕ → ℕ) (f : ℕ → Mat R → R) (A : Mat R) :
    (forUp lo hi (fun i A => A.set (r i) (c i) (f i A)) A).rows = A.rows :=
  forUp_pres (fun B : Mat R => B.rows = A.rows) lo hi _ A rfl (fun _ _ _ _ hB => hB)

theorem Mat.forUp_set_cols (lo hi : ℕ) (r c : ℕ → ℕ) (f : ℕ → Mat R → R) (A : Mat R) :
    (forUp lo hi (fun i A => A.set (r i) (c i) (f i A)) A).cols = A.cols :=
  forUp_pres (fun B : Mat R => B.cols = A.cols) lo hi _ A rfl (fun _ _ _ _ hB => hB)

theorem Mat.forUp2_set_rows (lo hi lo2 hi2 : ℕ) (r c : ℕ → ℕ → ℕ) (g : ℕ → ℕ → Mat R → R)
    (A : Mat R) :
    (forUp lo hi (fun j A => forUp lo2 hi2 (fun i A => A.set (r j i) (c j i) (g j i A)) A)
      A).rows = A.rows :=
  forUp_pres (fun B : Mat R => B.rows = A.rows) lo hi _ A rfl
    (fun _ B _ _ hB => (Mat.forUp_set_rows lo2 hi2 _ _ _ B).trans hB)

theorem Mat.forUp2_set_cols (lo hi lo2 hi2 : ℕ) (r c : ℕ → ℕ → ℕ) (g : ℕ → ℕ → Mat R → R)
    (A : Mat R) :
    (forUp lo hi (fun j A => forUp lo2 hi2 (fun i A => A.set (r j i) (c j i) (g j i A)) A)
      A).cols = A.cols :=
  forUp_pres (fun B : Mat R => B.cols = A.cols) lo hi _ A rfl
    (fun _ B _ _ hB => (Mat.forUp_set_cols lo2 hi2 _ _ _ B).trans hB)

theorem colTransform_shape (sqrt : R → R) (m k : ℕ) (st : Bidiag R) :
    (colTransform sqrt m k st).A.rows = st.A.rows ∧
      (colTransform sqrt m k st).A.cols = st.A.cols ∧
      (colTransform sqrt m k st).e.length = st.e.length := by
  unfold colTransform
  dsimp only
  split_ifs <;>
    simp only [Mat.rows_set, Mat.cols_set, Mat.forUp_set_rows, Mat.forUp_set_cols, and_self]

theorem applyCol_shape (m nct k j : ℕ) (st : Bidiag R) :
    (applyCol m nct k j st).A.rows = st.A.rows ∧
      (applyCol m nct k j st).A.cols = st.A.cols ∧
      (applyCol m nct k j st).e.length = st.e.length := by
  unfold applyCol
  dsimp only
  split_ifs <;>
    simp only [Mat.rows_set, Mat.cols_set, Mat.forUp_set_rows, Mat.forUp_set_cols,
      Vec.length_set, and_self]

set_option maxHeartbeats 4000000 in
theorem rowTransform_shape (sqrt : R → R) (m n k : ℕ) (wantv : Bool) (st : Bidiag R) :
    (rowTransform sqrt m n k wantv st).A.rows = st.A.rows ∧
      (rowTransform sqrt m n k wantv st).A.cols = st.A.cols ∧
      (rowTransform sqrt m n k wantv st).e.length = st.e.length := by
  unfold rowTransform
  dsimp only
  split_ifs <;>
    simp only [Mat.rows_set, Mat.cols_set, Mat.forUp2_set_rows, Mat.forUp2_set_cols,
      Vec.length_set, Vec.forUp_set_len, and_self]

theorem bidiagStep_shape (sqrt : R → R) (m n nct nrt : ℕ) (wantu wantv : Bool) (k : ℕ)
    (st : Bidiag R) :
    (bidiagStep sqrt m n nct nrt wantu wantv k st).A.rows = st.A.rows ∧
      (bidiagStep sqrt m n nct nrt wantu wantv k st).A.cols = st.A.cols ∧
      (bidiagStep sqrt m n nct nrt wantu wantv k st).e.length = st.e.length := by
  unfold bidiagStep
  dsimp only
  have h1 : (if k < nct then colTransform sqrt m k st else st).A.rows = st.A.rows ∧
      (if k < nct then colTransform sqrt m k st else st).A.cols = st.A.cols ∧
      (if k < nct then colTransform sqrt m k st else st).e.length = st.e.length := by
    split_ifs
    · exact colTransform_shape sqrt m k st
    · exact ⟨rfl, rfl, rfl⟩
  have h2 := forUp_pres (fun b : Bidiag R => b.A.rows = st.A.rows ∧ b.A.cols = st.A.cols ∧
      b.e.length = st.e.length) (k+1) n (fun j st => applyCol m nct k j st) _ h1
    (fun j b _ _ hb => ⟨(applyCol_shape m nct k j b).1.trans hb.1,
      (applyCol_shape m nct k j b).2.1.trans hb.2.1,
      (applyCol_shape m nct k j b).2.2.trans hb.2.2⟩)
  generalize forUp (k+1) n (fun j st => applyCol m nct k j st)
    (if k < nct then colTransform sqrt m k st else st) = x at h2 ⊢
  have h3 : (if wantu = true ∧ k < nct then
      { x with U := forUp k m (fun i U => U.set i k (x.A.get i k)) x.U } else x).A.rows
        = st.A.rows ∧
      (if wantu = true ∧ k < nct then
      { x with U := forUp k m (fun i U => U.set i k (x.A.get i k)) x.U } else x).A.cols
        = st.A.cols ∧
      (if wantu = true ∧ k < nct then
      { x with U := forUp k m (fun i U => U.set i k (x.A.get i k)) x.U } else x).e.length
        = st.e.length := by
    split_ifs <;> exact h2
  generalize (if wantu = true ∧ k < nct then
      { x with U := forUp k m (fun i U => U.set i k (x.A.get i k)) x.U } else x) = y at h3 ⊢
  by_cases hk : k < nrt
  · simp only [if_pos hk]
    obtain ⟨r1, r2, r3⟩ := rowTransform_shape sqrt m n k wantv y
    exact ⟨r1.trans h3.1, r2.trans h3.2.1, r3.trans h3.2.2⟩
  · simp only [if_neg hk]
    exact h3

theorem Vec.setZ_eq (v : Vec R) (i : ℕ) (x : R) (h : i < v.length) :
    v.setZ (i : ℤ) x = some (v.set i x) := by
  unfold Vec.setZ
  rw [if_pos ⟨by omega, by omega⟩, Int.toNat_ofNat]

theorem Mat.getZ_eq (A : Mat R) (i j : ℕ) (hi : i < A.rows) (hj : j < A.cols) :
    A.getZ (i : ℤ) (j : ℤ) = some (A.get i j) := by
  unfold Mat.getZ
  rw [if_pos ⟨by omega, by omega, by omega, by omega⟩, Int.toNat_ofNat, Int.toNat_ofNat]

/-- For `m, n ≥ 1` and containers of the allocated sizes, every access of the
final set-up is inside its container, and the checked set-up is the set-up. -/
theorem finalSetupChecked_eq (m n nct nrt : ℕ) (hm : 1 ≤ m) (hn : 1 ≤ n)
    (hnct : nct = min (m-1) n) (hnrt : nrt = max 0 (min (n-2) m)) (st : Bidiag R)
    (hr : st.A.rows = m) (hc : st.A.cols = n) (hs : st.s.length = min (m+1) n)
    (he : st.e.length = n) :
    finalSetupChecked (m : ℤ) (n : ℤ) (nct : ℤ) (nrt : ℤ) st =
      some (finalSetup m n nct nrt st) := by
  have hp : min (n:ℤ) ((m:ℤ)+1) = ((min n (m+1) : ℕ) : ℤ) := by
    rw [Nat.cast_min]; push_cast; rfl
  have hp1 : ((min n (m+1) : ℕ) : ℤ) - 1 = ((min n (m+1) - 1 : ℕ) : ℤ) := by
    have : 1 ≤ min n (m+1) := by omega
    omega
  have hz3 : ((nrt : ℤ) + 1 < ((min n (m+1) : ℕ) : ℤ)) ↔ nrt + 1 < min n (m+1) := by omega
  -- the guarded assignments, one by one
  have e1 : ∀ b : Bidiag R, b.A.rows = m → b.A.cols = n → b.s.length = min (m+1) n →
      (if nct < n then
        (b.A.getZ (nct : ℤ) (nct : ℤ)).bind fun a =>
          (b.s.setZ (nct : ℤ) a).map fun s => ({ b with s := s } : Bidiag R)
      else some b) =
      some (if nct < n then { b with s := b.s.set nct (b.A.get nct nct) } else b) := by
    intro b h1 h2 h3
    split_ifs with h
    · rw [Mat.getZ_eq _ _ _ (by omega) (by omega), Option.some_bind,
        Vec.setZ_eq _ _ _ (by omega), Option.map_some']
    · rfl
  have e2 : ∀ b : Bidiag R, b.s.length = min (m+1) n →
      (if m < min n (m+1) then
        (b.s.setZ ((min n (m+1) - 1 : ℕ) : ℤ) 0).map fun s => ({ b with s := s } : Bidiag R)
      else some b) =
      some (if m < min n (m+1) then { b with s := b.s.set (min n (m+1) - 1) 0 } else b) := by
    intro b h3
    split_ifs with h
    · rw [Vec.setZ_eq _ _ _ (by omega), Option.map_some']
    · rfl
  have e3 : ∀ b : Bidiag R, b.A.rows = m → b.A.cols = n → b.e.length = n →
      (if nrt + 1 < min n (m+1) then
        (b.A.getZ (nrt : ℤ) ((min n (m+1) - 1 : ℕ) : ℤ)).bind fun a =>
          (b.e.setZ (nrt : ℤ) a).map fun e => ({ b with e := e } : Bidiag R)
      else some b) =
      some (if nrt + 1 < min n (m+1) then
        { b with e := b.e.set nrt (b.A.get nrt (min n (m+1) - 1)) } else b) := by
    intro b h1 h2 h3
    split_ifs with h
    · rw [Mat.getZ_eq _ _ _ (by omega) (by omega), Option.some_bind,
        Vec.setZ_eq _ _ _ (by omega), Option.map_some']
    · rfl
  have e4 : ∀ b : Bidiag R, b.e.length = n →
      (b.e.setZ ((min n (m+1) - 1 : ℕ) : ℤ) 0).map (fun e => ({ b with e := e } : Bidiag R)) =
      some { b with e := b.e.set (min n (m+1) - 1) 0 } := by
    intro b h3
    rw [Vec.setZ_eq _ _ _ (by omega), Option.map_some']
  -- the shapes of the intermediate states
  have s1 : ∀ b : Bidiag R, b.A.rows = m → b.A.cols = n → b.s.length = min (m+1) n →
      b.e.length = n → ∀ (c : Prop) [Decidable c] (i : ℕ) (x : R),
      (if c then ({ b with s := b.s.set i x } : Bidiag R) else b).A.rows = m ∧
      (if c then ({ b with s := b.s.set i x } : Bidiag R) else b).A.cols = n ∧
      (if c then ({ b with s := b.s.set i x } : Bidiag R) else b).s.length = min (m+1) n ∧
      (if c then ({ b with s := b.s.set i x } : Bidiag R) else b).e.length = n := by
    intro b h1 h2 h3 h4 c _ i x
    split_ifs
    · exact ⟨h1, h2, by show (Vec.set _ _ _).length = _; rw [Vec.length_set]; exact h3, h4⟩
    · exact ⟨h1, h2, h3, h4⟩
  have s2 : ∀ b : Bidiag R, b.A.rows = m → b.A.cols = n → b.s.length = min (m+1) n →
      b.e.length = n → ∀ (c : Prop) [Decidable c] (i : ℕ) (x : R),
      (if c then ({ b with e := b.e.set i x } : Bidiag R) else b).A.rows = m ∧
      (if c then ({ b with e := b.e.set i x } : Bidiag R) else b).A.cols = n ∧
      (if c then ({ b with e := b.e.set i x } : Bidiag R) else b).s.length = min (m+1) n ∧
      (if c then ({ b with e := b.e.set i x } : Bidiag R) else b).e.length = n := by
    intro b h1 h2 h3 h4 c _ i x
    split_ifs
    · exact ⟨h1, h2, h3, by show (Vec.set _ _ _).length = _; rw [Vec.length_set]; exact h4⟩
    · exact ⟨h1, h2, h3, h4⟩
  obtain ⟨q1, q2, q3, q4⟩ := s1 st hr hc hs he (nct < n) nct (st.A.get nct nct)
  obtain ⟨r1, r2, r3, r4⟩ := s1 _ q1 q2 q3 q4 (m < min n (m+1)) (min n (m+1) - 1) 0
  obtain ⟨t1, t2, t3, t4⟩ := s2 _ r1 r2 r3 r4 (nrt + 1 < min n (m+1)) nrt
    ((if m < min n (m+1) then
        ({ (if nct < n then ({ st with s := st.s.set nct (st.A.get nct nct) } : Bidiag R)
            else st) with
          s := (if nct < n then ({ st with s := st.s.set nct (st.A.get nct nct) } : Bidiag R)
            else st).s.set (min n (m+1) - 1) 0 } : Bidiag R)
      else (if nct < n then ({ st with s := st.s.set nct (st.A.get nct nct) } : Bidiag R)
            else st)).A.get nrt (min n (m+1) - 1))
  unfold finalSetupChecked finalSetup
  simp only [hp, hp1, Nat.cast_lt, hz3]
  rw [e1 st hr hc hs, Option.some_bind, e2 _ q3, Option.some_bind, e3 _ r1 r2 r4,
    Option.some_bind, e4 _ t4]

/-- The loop of the bidiagonalisation keeps the shapes of the containers. -/
theorem bidiagLoop_shape (sqrt : R → R) (m n nct nrt : ℕ) (wantu wantv : Bool) (hi : ℕ)
    (st : Bidiag R) :
    (forUp 0 hi (fun k st => bidiagStep sqrt m n nct nrt wantu wantv k st) st).A.rows
        = st.A.rows ∧
      (forUp 0 hi (fun k st => bidiagStep sqrt m n nct nrt wantu wantv k st) st).A.cols
        = st.A.cols ∧
      (forUp 0 hi (fun k st => bidiagStep sqrt m n nct nrt wantu wantv k st) st).s.length
        = st.s.length ∧
      (forUp 0 hi (fun k st => bidiagStep sqrt m n nct nrt wantu wantv k st) st).e.length
        = st.e.length :=
  forUp_pres (fun b : Bidiag R => b.A.rows = st.A.rows ∧ b.A.cols = st.A.cols ∧
      b.s.length = st.s.length ∧ b.e.length = st.e.length) 0 hi _ st ⟨rfl, rfl, rfl, rfl⟩
    (fun k b _ _ hb => by
      obtain ⟨a1, a2, a3⟩ := bidiagStep_shape sqrt m n nct nrt wantu wantv k b
      exact ⟨a1.trans hb.1, a2.trans hb.2.1,
        (bidiagStep_s_length sqrt m n nct nrt wantu wantv k b).trans hb.2.2.1,
        a3.trans hb.2.2.2⟩)

/-- Amended C15: the constructor makes no check of the shape; for an input
with `M ≥ 1` rows and `N ≥ 1` columns every index of the final set-up (lines
257–261) is inside its container, and the constructor reaches the state after
the final set-up. -/
theorem enter_nonempty (sqrt : R → R) (A : Mat R) (hm : 1 ≤ A.rows) (hn : 1 ≤ A.cols)
    (wantu wantv : Bool) :
    SVD.enter sqrt A wantu wantv =
      Entry.ready (finalSetup A.rows A.cols (min (A.rows-1) A.cols)
        (max 0 (min (A.cols-2) A.rows))
        (forUp 0 (max (min (A.rows-1) A.cols) (max 0 (min (A.cols-2) A.rows)))
          (fun k st => bidiagStep sqrt A.rows A.cols (min (A.rows-1) A.cols)
            (max 0 (min (A.cols-2) A.rows)) wantu wantv k st)
          ⟨A, Vec.zeros (min (A.rows+1) A.cols), Vec.zeros A.cols, Vec.zeros A.rows,
            Mat.zeros A.rows A.rows, Mat.zeros A.cols A.cols⟩)) := by
  have hnct : min ((A.rows : ℤ) - 1) (A.cols : ℤ) = ((min (A.rows-1) A.cols : ℕ) : ℤ) := by
    omega
  have hnrt : max 0 (min ((A.cols : ℤ) - 2) (A.rows : ℤ)) =
      ((max 0 (min (A.cols-2) A.rows) : ℕ) : ℤ) := by omega
  have hlen : (min ((A.rows : ℤ) + 1) (A.cols : ℤ)).toNat = min (A.rows+1) A.cols := by omega
  have hmax : (max ((min (A.rows-1) A.cols : ℕ) : ℤ)
      ((max 0 (min (A.cols-2) A.rows) : ℕ) : ℤ)).toNat =
      max (min (A.rows-1) A.cols) (max 0 (min (A.cols-2) A.rows)) := by omega
  obtain ⟨b1, b2, b3, b4⟩ := bidiagLoop_shape sqrt A.rows A.cols (min (A.rows-1) A.cols)
    (max 0 (min (A.cols-2) A.rows)) wantu wantv
    (max (min (A.rows-1) A.cols) (max 0 (min (A.cols-2) A.rows)))
    ⟨A, Vec.zeros (min (A.rows+1) A.cols), Vec.zeros A.cols, Vec.zeros A.rows,
      Mat.zeros A.rows A.rows, Mat.zeros A.cols A.cols⟩
  unfold SVD.enter
  dsimp only
  rw [hnct, hnrt, hlen, hmax, Int.toNat_ofNat, Int.toNat_ofNat,
    finalSetupChecked_eq A.rows A.cols _ _ hm hn rfl rfl _ b1 b2
      (b3.trans (Vec.length_zeros _)) (b4.trans (Vec.length_zeros _))]

/-- Witness for `enter_nonempty`: the 1×1 matrix `[[5]]`, for which the state
after the final set-up has `m_s = (5)` and `e = (0)`. -/
theorem enter_nonempty_witness :
    1 ≤ (Mat.ofRows 1 [[(5:ℚ)]]).rows ∧ 1 ≤ (Mat.ofRows 1 [[(5:ℚ)]]).cols ∧
      SVD.enter qsqrt (Mat.ofRows 1 [[(5:ℚ)]]) true true =
        Entry.ready ⟨⟨1, 1, [[5]]⟩, [5], [0], [0], ⟨1, 1, [[0]]⟩, ⟨1, 1, [[0]]⟩⟩ :=
  ⟨by decide, by decide,
    (enter_nonempty qsqrt (Mat.ofRows 1 [[(5:ℚ)]]) (by decide) (by decide) true true).trans
      (by decide!)⟩

/-- Counterexample to C15: inputs with no column or no row are not rejected.
The constructor reaches the final set-up, where it indexes outside a
container: `e(p-1)` with `p = 0` for the 1×0 matrix, `m_s(nct)` with
`nct = -1` for the 0×1 matrix. -/
theorem empty_not_rejected :
    SVD.enter qsqrt (Mat.zeros 1 0 : Mat ℚ) true true = Entry.outside ∧
      SVD.enter qsqrt (Mat.zeros 0 1 : Mat ℚ) true true = Entry.outside ∧
      SVD.enter qsqrt (Mat.zeros 0 0 : Mat ℚ) true true = Entry.outside := by
  decide!

/-! ### The counter `iter` -/

theorem case1_iter (sqrt : R → R) (n : ℕ) (wv : Bool) (p k : ℕ) (a b : Iter R)
    (h : a.SameButIter b) :
    (case1 sqrt n wv p k a).SameButIter (case1 sqrt n wv p k b) ∧
      (case1 sqrt n wv p k a).iter = a.iter := by
  obtain ⟨h1, h2, h3, h4, h5⟩ := h
  cases a; cases b
  simp only at h1 h2 h3 h4 h5
  subst h1 h2 h3 h4 h5
  exact ⟨⟨rfl, rfl, rfl, rfl, rfl⟩, rfl⟩

theorem case2_iter (sqrt : R → R) (m : ℕ) (wu : Bool) (p k : ℕ) (a b : Iter R)
    (h : a.SameButIter b) :
    (case2 sqrt m wu p k a).SameButIter (case2 sqrt m wu p k b) ∧
      (case2 sqrt m wu p k a).iter = a.iter := by
  obtain ⟨h1, h2, h3, h4, h5⟩ := h
  cases a; cases b
  simp only at h1 h2 h3 h4 h5
  subst h1 h2 h3 h4 h5
  exact ⟨⟨rfl, rfl, rfl, rfl, rfl⟩, rfl⟩

theorem case3_iter (sqrt : R → R) (m n : ℕ) (wu wv : Bool) (p k : ℕ) (a b : Iter R)
    (h : a.SameButIter b) :
    (case3 sqrt m n wu wv p k a).SameButIter (case3 sqrt m n wu wv p k b) ∧
      (case3 sqrt m n wu wv p k a).iter = a.iter + 1 := by
  obtain ⟨h1, h2, h3, h4, h5⟩ := h
  cases a; cases b
  simp only at h1 h2 h3 h4 h5
  subst h1 h2 h3 h4 h5
  exact ⟨⟨rfl, rfl, rfl, rfl, rfl⟩, rfl⟩

theorem orderSwap_iter (m n : ℕ) (wu wv : Bool) (k : ℕ) (a b : Iter R)
    (h : a.SameButIter b) :
    (orderSwap m n wu wv k a).SameButIter (orderSwap m n wu wv k b) := by
  obtain ⟨h1, h2, h3, h4, h5⟩ := h
  cases a; cases b
  simp only at h1 h2 h3 h4 h5
  subst h1 h2 h3 h4 h5
  unfold orderSwap
  dsimp only
  split_ifs <;> exact ⟨rfl, rfl, rfl, rfl, rfl⟩

theorem order_iter (m n : ℕ) (wu wv : Bool) : ∀ (d k : ℕ) (a b : Iter R),
    a.SameButIter b → (order m n wu wv d k a).SameButIter (order m n wu wv d k b) := by
  intro d
  induction d with
  | zero => exact fun k a b h => h
  | succ d ih =>
    intro k a b h
    rw [order, order, h.1]
    split_ifs
    · exact h
    · exact ih (k+1) _ _ (orderSwap_iter m n wu wv k a b h)

theorem case4_iter (m n pp : ℕ) (wu wv : Bool) (k : ℕ) (a b : Iter R)
    (h : a.SameButIter b) :
    (case4 m n pp wu wv k a).SameButIter (case4 m n pp wu wv k b) ∧
      (case4 m n pp wu wv k a).iter = 0 := by
  refine ⟨?_, rfl⟩
  have key : ∀ x y : Iter R, x.SameButIter y →
      Iter.SameButIter (Iter.mk (order m n wu wv (pp - k) k x).s
          (order m n wu wv (pp - k) k x).e (order m n wu wv (pp - k) k x).U
          (order m n wu wv (pp - k) k x).V ((order m n wu wv (pp - k) k x).p - 1) 0)
        (Iter.mk (order m n wu wv (pp - k) k y).s (order m n wu wv (pp - k) k y).e
          (order m n wu wv (pp - k) k y).U (order m n wu wv (pp - k) k y).V
          ((order m n wu wv (pp - k) k y).p - 1) 0) := by
    intro x y hxy
    obtain ⟨o1, o2, o3, o4, o5⟩ := order_iter m n wu wv (pp - k) k x y hxy
    exact ⟨o1, o2, o3, o4, by show _ - 1 = _ - 1; rw [o5]⟩
  obtain ⟨h1, h2, h3, h4, h5⟩ := h
  cases a; cases b
  simp only at h1 h2 h3 h4 h5
  subst h1 h2 h3 h4 h5
  unfold case4
  dsimp only
  apply key
  split_ifs <;> exact ⟨rfl, rfl, rfl, rfl, rfl⟩

/-- One pass of the main loop does not read `iter`: case 3 adds one to it,
case 4 resets it, cases 1 and 2 leave it. -/
theorem iterStep_iter (sqrt : R → R) (eps : R) (m n pp : ℕ) (wu wv : Bool) (a b : Iter R)
    (h : a.SameButIter b) :
    (iterStep sqrt eps m n pp wu wv a).SameButIter (iterStep sqrt eps m n pp wu wv b) ∧
      (iterStep sqrt eps m n pp wu wv a).iter =
        if (classify eps a.p a.s a.e).1 = 1 ∨ (classify eps a.p a.s a.e).1 = 2 then a.iter
        else if (classify eps a.p a.s a.e).1 = 3 then a.iter + 1 else 0 := by
  obtain ⟨h1, h2, h3, h4, h5⟩ := h
  cases a; cases b
  simp only at h1 h2 h3 h4 h5
  subst h1 h2 h3 h4 h5
  unfold iterStep
  dsimp only
  split_ifs with c1 c2 c3 c4 c5 c6 c7
  all_goals first
    | exact case1_iter sqrt n wv _ _ _ _ ⟨rfl, rfl, rfl, rfl, rfl⟩
    | exact case2_iter sqrt m wu _ _ _ _ ⟨rfl, rfl, rfl, rfl, rfl⟩
    | exact case3_iter sqrt m n wu wv _ _ _ _ ⟨rfl, rfl, rfl, rfl, rfl⟩
    | exact case4_iter m n pp wu wv _ _ _ ⟨rfl, rfl, rfl, rfl, rfl⟩
    | (exfalso; simp_all)

/-- The main loop does not read `iter`: whether it finishes within `fuel`
passes, and with which `m_s`, `e`, `U`, `V`, does not depend on the counter. -/
theorem mainLoop_iter (sqrt : R → R) (eps : R) (m n pp : ℕ) (wu wv : Bool) :
    ∀ (fuel : ℕ) (a b : Iter R), a.SameButIter b →
      (mainLoop sqrt eps m n pp wu wv fuel a = none ∧
        mainLoop sqrt eps m n pp wu wv fuel b = none) ∨
      ∃ x y, mainLoop sqrt eps m n pp wu wv fuel a = some x ∧
        mainLoop sqrt eps m n pp wu wv fuel b = some y ∧ x.SameButIter y := by
  intro fuel
  induction fuel with
  | zero =>
    intro a b h
    unfold mainLoop
    rw [← h.2.2.2.2]
    split_ifs
    · exact Or.inr ⟨a, b, rfl, rfl, h⟩
    · exact Or.inl ⟨rfl, rfl⟩
  | succ f ih =>
    intro a b h
    unfold mainLoop
    rw [← h.2.2.2.2]
    split_ifs
    · exact Or.inr ⟨a, b, rfl, rfl, h⟩
    · exact ih _ _ (iterStep_iter sqrt eps m n pp wu wv a b h).1

/-- Amended C16: the counter `iter` of consecutive QR steps is kept (case 3
adds one, case 4 resets it, cases 1 and 2 leave it) but never compared with a
bound: no pass of the main loop reads it, and whether the loop finishes within
a given number of passes, and with which `m_s`, `e`, `U`, `V`, does not depend
on its value. -/
theorem iter_never_read (sqrt : R → R) (eps : R) (m n pp : ℕ) (wu wv : Bool) (st : Iter R)
    (c fuel : ℕ) :
    (iterStep sqrt eps m n pp wu wv st).iter =
        (if (classify eps st.p st.s st.e).1 = 1 ∨ (classify eps st.p st.s st.e).1 = 2
          then st.iter
        else if (classify eps st.p st.s st.e).1 = 3 then st.iter + 1 else 0) ∧
      (iterStep sqrt eps m n pp wu wv { st with iter := c }).SameButIter
        (iterStep sqrt eps m n pp wu wv st) ∧
      (mainLoop sqrt eps m n pp wu wv fuel { st with iter := c }).map
          (fun r => (r.s, r.e, r.U, r.V)) =
        (mainLoop sqrt eps m n pp wu wv fuel st).map (fun r => (r.s, r.e, r.U, r.V)) := by
  refine ⟨(iterStep_iter sqrt eps m n pp wu wv st st ⟨rfl, rfl, rfl, rfl, rfl⟩).2,
    (iterStep_iter sqrt eps m n pp wu wv { st with iter := c } st ⟨rfl, rfl, rfl, rfl, rfl⟩).1,
    ?_⟩
  rcases mainLoop_iter sqrt eps m n pp wu wv fuel { st with iter := c } st
    ⟨rfl, rfl, rfl, rfl, rfl⟩ with ⟨h1, h2⟩ | ⟨x, y, h1, h2, h3⟩
  · rw [h1, h2]
  · rw [h1, h2]
    show some (x.s, x.e, x.U, x.V) = some (y.s, y.e, y.U, y.V)
    rw [h3.1, h3.2.1, h3.2.2.1, h3.2.2.2.1]

/-- Counterexample to C16: for the matrix `[[3,1],[0,4]]` the main loop starts
with `m_s = (-3, 4)`, `e = (-1, 0)`, and on that state, whatever the value `c`
of the counter, the pass is a QR step: it sets the counter to `c + 1` and leaves
`p = 2`; no bound is applied and no error is raised. -/
theorem no_iteration_cap :
    SVD.init qsqrt (Mat.ofRows 2 [[(3:ℚ), 1], [0, 4]]) true true =
        ⟨⟨2, 2, [[2, -1], [0, 4]]⟩, [-3, 4], [-1, 0], [0, 0], ⟨2, 2, [[-1, 0], [0, 1]]⟩,
          ⟨2, 2, [[1, 0], [0, 1]]⟩⟩ ∧
      ∀ c : ℕ,
        (iterStep qsqrt qeps 2 2 1 true true
          ⟨[-3, 4], [-1, 0], ⟨2, 2, [[-1, 0], [0, 1]]⟩, ⟨2, 2, [[1, 0], [0, 1]]⟩, 2, c⟩).iter
            = c + 1 ∧
        (iterStep qsqrt qeps 2 2 1 true true
          ⟨[-3, 4], [-1, 0], ⟨2, 2, [[-1, 0], [0, 1]]⟩, ⟨2, 2, [[1, 0], [0, 1]]⟩, 2, c⟩).p
            = 2 := by
  refine ⟨by decide!, fun c => ?_⟩
  obtain ⟨h1, h2⟩ := iterStep_iter qsqrt qeps 2 2 1 true true
    ⟨[-3, 4], [-1, 0], ⟨2, 2, [[-1, 0], [0, 1]]⟩, ⟨2, 2, [[1, 0], [0, 1]]⟩, 2, c⟩
    ⟨[-3, 4], [-1, 0], ⟨2, 2, [[-1, 0], [0, 1]]⟩, ⟨2, 2, [[1, 0], [0, 1]]⟩, 2, 0⟩
    ⟨rfl, rfl, rfl, rfl, rfl⟩
  have hk : (classify qeps 2 ([-3, 4] : Vec ℚ) [-1, 0]).1 = 3 := by decide!
  refine ⟨?_, ?_⟩
  · rw [h2]
    dsimp only
    rw [hk]
    rfl
  · rw [h1.2.2.2.2]
    decide!


/-! ### The case dispatch -/

theorem scanE_exact (eps : R) (s e : Vec R) (a : ℕ) :
    scanE eps s e a ≤ a ∧
      (scanE eps s e a = 0 ∨ NegligibleE eps s e (scanE eps s e a - 1)) ∧
      ∀ j, scanE eps s e a ≤ j → j < a → ¬ NegligibleE eps s e j := by
  induction a with
  | zero => exact ⟨le_refl _, Or.inl rfl, fun j _ h => absurd h (Nat.not_lt_zero _)⟩
  | succ k ih =>
    rw [scanE]
    split_ifs with h
    · exact ⟨le_refl _, Or.inr h, fun j h1 h2 => by omega⟩
    · refine ⟨by omega, ih.2.1, fun j h1 h2 => ?_⟩
      rcases Nat.lt_or_ge j k with h3 | h3
      · exact ih.2.2 j h1 h3
      · have hjk : j = k := by omega
        rw [hjk]
        exact h

theorem scanS_exact (eps : R) (s e : Vec R) (p k1 a : ℕ) (h : k1 ≤ a) (hap : a ≤ p) :
    k1 ≤ scanS eps s e p k1 a ∧ scanS eps s e p k1 a ≤ a ∧
      (scanS eps s e p k1 a = k1 ∨ NegligibleS eps s e k1 (scanS eps s e p k1 a - 1)) ∧
      ∀ j, scanS eps s e p k1 a ≤ j → j < a → ¬ NegligibleS eps s e k1 j := by
  induction a with
  | zero =>
    rw [scanS]
    exact ⟨h, le_refl _, Or.inl (by omega), fun j _ h2 => absurd h2 (Nat.not_lt_zero _)⟩
  | succ n ih =>
    rw [scanS]
    by_cases h1 : n + 1 = k1
    · rw [if_pos h1]
      exact ⟨by omega, le_refl _, Or.inl h1, fun j h2 h3 => by omega⟩
    · rw [if_neg h1]
      dsimp only
      have hT : (if n ≠ p then |e.get n| else 0) + (if n ≠ k1 then |e.get (n-1)| else 0) =
          |e.get n| + if n = k1 then 0 else |e.get (n-1)| := by
        rw [if_pos (show n ≠ p by omega)]
        by_cases h5 : n = k1
        · rw [if_neg (not_not.mpr h5), if_pos h5]
        · rw [if_pos h5, if_neg h5]
      rw [hT]
      by_cases h2 : |s.get n| ≤ eps * (|e.get n| + if n = k1 then 0 else |e.get (n-1)|)
      · rw [if_pos h2]
        exact ⟨by omega, le_refl _, Or.inr h2, fun j h3 h4 => by omega⟩
      · rw [if_neg h2]
        obtain ⟨i1, i2, i3, i4⟩ := ih (by omega) (by omega)
        refine ⟨i1, by omega, i3, fun j h3 h4 => ?_⟩
        rcases Nat.lt_or_ge j n with h5 | h5
        · exact i4 j h3 h5
        · have hjn : j = n := by omega
          rw [hjn]
          exact h2

theorem negligibleS_congr {eps : R} {s e e2 : Vec R} {k1 ks : ℕ} (hks : k1 ≤ ks)
    (he : ∀ j, k1 ≤ j → e2.get j = e.get j) :
    NegligibleS eps s e2 k1 ks ↔ NegligibleS eps s e k1 ks := by
  unfold NegligibleS
  by_cases h : ks = k1
  · rw [if_pos h, if_pos h, he ks hks]
  · rw [if_neg h, if_neg h, he ks hks, he (ks-1) (by omega)]

/-- C30: for `p ≥ 1` the classification returns one of the four cases.  Case 4 is
returned exactly when `p = 1` or `e(p-2)` is negligible, and then `k = p-1`,
`m_s` is unchanged and `e(p-2)` (for `p ≥ 2`) is set to 0.  Otherwise there is a
`k1 < p-1` (the source's `k0 + 1`) that is 0 or has `e(k1-1)` negligible, with no
`e(j)`, `k1 ≤ j ≤ p-2`, negligible; `e(k1-1)` is set to 0 when `k1 ≥ 1`; case 1 is
returned exactly when `|s(p-1)| ≤ eps·(|e(p-1)| + |e(p-2)|)`, and then `s(p-1)` is
set to 0 and `k = k1`; case 2 exactly when that fails and some `s(ks)`,
`k1 ≤ ks < p-1`, is negligible, and then `k = ks + 1` for the largest such `ks`
and `s(ks)` is set to 0; case 3 exactly when no `s(ks)`, `k1 ≤ ks ≤ p-1`, is
negligible, and then `k = k1` and `m_s` is unchanged. -/
theorem classify_dispatch (eps : R) (p : ℕ) (hp : 1 ≤ p) (s e : Vec R) :
    ((classify eps p s e).1 = 4 ↔ p = 1 ∨ NegligibleE eps s e (p-2)) ∧
      ((classify eps p s e).1 = 4 →
        (classify eps p s e).2.1 = p - 1 ∧ (classify eps p s e).2.2.1 = s ∧
          (classify eps p s e).2.2.2 = if p = 1 then e else e.set (p-2) 0) ∧
      ((classify eps p s e).1 ≠ 4 →
        ∃ k1, k1 + 1 < p ∧ (k1 = 0 ∨ NegligibleE eps s e (k1-1)) ∧
          (∀ j, k1 ≤ j → j + 1 < p → ¬ NegligibleE eps s e j) ∧
          (classify eps p s e).2.2.2 = (if k1 = 0 then e else e.set (k1-1) 0) ∧
          ((classify eps p s e).1 = 1 ↔
            |s.get (p-1)| ≤ eps * (|e.get (p-1)| + |e.get (p-2)|)) ∧
          ((classify eps p s e).1 = 1 →
            (classify eps p s e).2.1 = k1 ∧ (classify eps p s e).2.2.1 = s.set (p-1) 0) ∧
          ((classify eps p s e).1 = 2 ↔
            ¬ |s.get (p-1)| ≤ eps * (|e.get (p-1)| + |e.get (p-2)|) ∧
              ∃ ks, k1 ≤ ks ∧ ks + 1 < p ∧ NegligibleS eps s e k1 ks) ∧
          ((classify eps p s e).1 = 2 →
            ∃ ks, k1 ≤ ks ∧ ks + 1 < p ∧ NegligibleS eps s e k1 ks ∧
              (∀ j, ks < j → j < p → ¬ NegligibleS eps s e k1 j) ∧
              (classify eps p s e).2.1 = ks + 1 ∧
              (classify eps p s e).2.2.1 = s.set ks 0) ∧
          ((classify eps p s e).1 = 3 ↔
            ∀ ks, k1 ≤ ks → ks < p → ¬ NegligibleS eps s e k1 ks) ∧
          ((classify eps p s e).1 = 3 →
            (classify eps p s e).2.1 = k1 ∧ (classify eps p s e).2.2.1 = s)) ∧
      ((classify eps p s e).1 = 1 ∨ (classify eps p s e).1 = 2 ∨
        (classify eps p s e).1 = 3 ∨ (classify eps p s e).1 = 4) := by
  obtain ⟨hE1, hE2, hE3a⟩ := scanE_exact eps s e (p-1)
  have hE3 : ∀ j, scanE eps s e (p-1) ≤ j → j + 1 < p → ¬ NegligibleE eps s e j :=
    fun j h1 h2 => hE3a j h1 (by omega)
  clear hE3a
  unfold classify
  dsimp only
  generalize scanE eps s e (p-1) = k1 at hE1 hE2 hE3 ⊢
  by_cases h4 : k1 = p - 1
  · rw [if_pos h4]
    refine ⟨⟨fun _ => ?_, fun _ => rfl⟩, fun _ => ⟨h4, rfl, ?_⟩,
      fun h => absurd rfl h, Or.inr (Or.inr (Or.inr rfl))⟩
    · rcases hE2 with h0 | h0
      · exact Or.inl (by omega)
      · right
        rwa [h4, show p - 1 - 1 = p - 2 by omega] at h0
    · show (if k1 = 0 then e else e.set (k1-1) 0) = _
      by_cases hp1 : p = 1
      · rw [if_pos hp1, if_pos (by omega)]
      · rw [if_neg hp1, if_neg (by omega), h4, show p - 1 - 1 = p - 2 by omega]
  · have hk1 : k1 + 1 < p := by omega
    have hne4 : ¬ (p = 1 ∨ NegligibleE eps s e (p-2)) := by
      rintro (h | h)
      · omega
      · exact hE3 (p-2) (by omega) (by omega) h
    have hee : ∀ j, k1 ≤ j → (if k1 = 0 then e else e.set (k1-1) 0).get j = e.get j := by
      intro j hj
      split_ifs with h3
      · rfl
      · exact Vec.get_set_ne _ _ _ _ (by omega)
    obtain ⟨hS1, hS2, hS3, hS4⟩ :=
      scanS_exact eps s (if k1 = 0 then e else e.set (k1-1) 0) p k1 p (by omega) le_rfl
    have hcg : ∀ ks, k1 ≤ ks →
        (NegligibleS eps s (if k1 = 0 then e else e.set (k1-1) 0) k1 ks ↔
          NegligibleS eps s e k1 ks) := fun ks hks => negligibleS_congr hks hee
    generalize scanS eps s (if k1 = 0 then e else e.set (k1-1) 0) p k1 p = ks1
      at hS1 hS2 hS3 hS4 ⊢
    have htop : NegligibleS eps s e k1 (p-1) ↔
        |s.get (p-1)| ≤ eps * (|e.get (p-1)| + |e.get (p-2)|) := by
      unfold NegligibleS
      rw [if_neg (by omega), show p - 1 - 1 = p - 2 by omega]
    rw [if_neg h4]
    by_cases h3 : ks1 = k1
    · -- case 3
      rw [if_pos h3, if_pos h3]
      have hnone : ∀ ks, k1 ≤ ks → ks < p → ¬ NegligibleS eps s e k1 ks := fun ks h1 h2 hn =>
        hS4 ks (by omega) h2 ((hcg ks h1).mpr hn)
      refine ⟨⟨fun h => (by simp at h), fun h => absurd h hne4⟩,
        fun h => (by simp at h), fun _ => ⟨k1, hk1, hE2, hE3, rfl, ?_, ?_, ?_, ?_, ?_, ?_⟩,
        Or.inr (Or.inr (Or.inl rfl))⟩
      · exact ⟨fun h => (by simp at h),
          fun h => absurd (htop.mpr h) (hnone (p-1) (by omega) (by omega))⟩
      · exact fun h => (by simp at h)
      · exact ⟨fun h => (by simp at h),
          fun ⟨_, ks, h1, h2, h5⟩ => absurd h5 (hnone ks h1 (by omega))⟩
      · exact fun h => (by simp at h)
      · exact ⟨fun _ => hnone, fun _ => rfl⟩
      · exact fun _ => ⟨rfl, rfl⟩
    · have hneg : NegligibleS eps s e k1 (ks1 - 1) := by
        rcases hS3 with h | h
        · exact absurd h h3
        · exact (hcg _ (by omega)).mp h
      rw [if_neg h3, if_neg h3]
      by_cases h1 : ks1 = p
      · -- case 1
        rw [if_pos h1]
        have htopv : |s.get (p-1)| ≤ eps * (|e.get (p-1)| + |e.get (p-2)|) := by
          rw [h1] at hneg
          exact htop.mp hneg
        refine ⟨⟨fun h => (by simp at h), fun h => absurd h hne4⟩,
          fun h => (by simp at h),
          fun _ => ⟨k1, hk1, hE2, hE3, rfl, ?_, ?_, ?_, ?_, ?_, ?_⟩, Or.inl rfl⟩
        · exact ⟨fun _ => htopv, fun _ => rfl⟩
        · exact fun _ => ⟨rfl, by rw [h1]⟩
        · exact ⟨fun h => (by simp at h), fun ⟨h, _⟩ => absurd htopv h⟩
        · exact fun h => (by simp at h)
        · exact ⟨fun h => (by simp at h),
            fun h => absurd (htop.mpr htopv) (h (p-1) (by omega) (by omega))⟩
        · exact fun h => (by simp at h)
      · -- case 2
        rw [if_neg h1]
        have hntop : ¬ |s.get (p-1)| ≤ eps * (|e.get (p-1)| + |e.get (p-2)|) := fun h =>
          hS4 (p-1) (by omega) (by omega) ((hcg _ (by omega)).mpr (htop.mpr h))
        have hex : ∃ ks, k1 ≤ ks ∧ ks + 1 < p ∧ NegligibleS eps s e k1 ks ∧
            (∀ j, ks < j → j < p → ¬ NegligibleS eps s e k1 j) ∧ ks1 = ks + 1 ∧
            s.set (ks1 - 1) 0 = s.set ks 0 :=
          ⟨ks1 - 1, by omega, by omega, hneg,
            fun j h5 h6 hn => hS4 j (by omega) h6 ((hcg j (by omega)).mpr hn), by omega, rfl⟩
        refine ⟨⟨fun h => (by simp at h), fun h => absurd h hne4⟩,
          fun h => (by simp at h),
          fun _ => ⟨k1, hk1, hE2, hE3, rfl, ?_, ?_, ?_, ?_, ?_, ?_⟩, Or.inr (Or.inl rfl)⟩
        · exact ⟨fun h => (by simp at h), fun h => absurd h hntop⟩
        · exact fun h => (by simp at h)
        · obtain ⟨ks, a1, a2, a3, _⟩ := hex
          exact ⟨fun _ => ⟨hntop, ks, a1, a2, a3⟩, fun _ => rfl⟩
        · exact fun _ => hex
        · obtain ⟨ks, a1, a2, a3, _⟩ := hex
          exact ⟨fun h => (by simp at h), fun h => absurd a3 (h ks a1 (by omega))⟩
        · exact fun h => (by simp at h)

/-- C30 on `p = 3`, `m_s = (1, 0, 1)`, `e = (1, 1, 0)`: case 2 with `k = 2`, the
negligible `s(1)` being the only one. -/
theorem classify_dispatch_witness :
    1 ≤ 3 ∧ classify qeps 3 [1, 0, 1] [1, 1, 0] = (2, 2, [1, 0, 1], [1, 1, 0]) ∧
      ((classify qeps 3 [1, 0, 1] [1, 1, 0]).1 = 4 ↔
        3 = 1 ∨ NegligibleE qeps [1, 0, 1] [1, 1, 0] (3-2)) :=
  ⟨by decide, by decide!, (classify_dispatch qeps 3 (by decide) [1, 0, 1] [1, 1, 0]).1⟩


/-! ### The sign correction of case 4 -/

/-- C29 (code at the failing input): on the 3×5 matrix `A35z` with the rows
`(0, 0, 4, 0, 3)`, `(0, 0, 0, 0, 0)` and `(0, 20, -9, 0, 12)` the second pass of
the main loop is case 4 with `k = 2` and `S(2) = -25 < 0`.  The pass replaces
`S(2)` by `25` and negates the entries of rows `0 .. 3` of column 2 of `V`; the
entry in row 4 keeps the value `-12/25` it had on entry.  In double precision
the pass is the same: `V(1,2)` goes from `-0.8` to `0.8` and `V(4,2) = -0.48`
stays. -/
theorem sign_fix_A35z :
    (classify qeps A35z_pass2.p A35z_pass2.s A35z_pass2.e).1 = 4 ∧
      (classify qeps A35z_pass2.p A35z_pass2.s A35z_pass2.e).2.1 = 2 ∧
      A35z_pass2.s.get 2 = -25 ∧
      (List.range 5).map (fun i => A35z_pass2.V.get i 2) = [0, -4/5, 9/25, 0, -12/25] ∧
      (iterStep qsqrt qeps 3 5 3 true true A35z_pass2).s.get 2 = 25 ∧
      (List.range 5).map (fun i => (iterStep qsqrt qeps 3 5 3 true true A35z_pass2).V.get i 2) =
        [0, 4/5, -9/25, 0, -12/25] ∧
      (Double.kaseAfter Double.Watch.indices F64.eps 1 Double.A35z true true).value =
        some (4, 2) ∧
      (Double.columnAfter Double.Watch.indices F64.eps 1 Double.A35z true true 2 1 4).value =
        some (-F64.ofNat 25, -F64.ofDecimal false 8 (-1), -F64.ofDecimal false 48 (-2)) ∧
      (Double.columnAfter Double.Watch.indices F64.eps 2 Double.A35z true true 2 1 4).value =
        some (F64.ofNat 25, F64.ofDecimal false 8 (-1), -F64.ofDecimal false 48 (-2)) := by
  refine ⟨?_, ?_, ?_, ?_, ?_, ?_, ?_, ?_, ?_⟩ <;> decide!

/-! ### The column transformation entry by entry (lines 167–202) -/

/-- The column transformation (lines 168–184) entry by entry: with `σ` the
norm of the entries `k .. m-1` of column `k`, taken with the sign of `A(k,k)`,
`s(k)` becomes `-σ` and, when `σ ≠ 0`, the entries `k .. m-1` of column `k`
become `A(i,k)/σ`, plus one on the diagonal; nothing else changes. -/
theorem colTransform_entries (sqrt : R → R) (hs : IsSqrt sqrt) (m k : ℕ) (st : Bidiag R)
    (hWF : st.A.WF) (hrows : st.A.rows = m) (hk : k < m) (hkc : k < st.A.cols)
    (hks : k < st.s.length) :
    ∃ σ : R, σ * σ = ∑ i in Finset.Ico k m, st.A.get i k * st.A.get i k ∧
      (σ ≠ 0 → 0 ≤ st.A.get k k / σ) ∧
      (colTransform sqrt m k st).s.get k = -σ ∧
      (∀ i j, (colTransform sqrt m k st).A.get i j =
        if σ ≠ 0 ∧ j = k ∧ k ≤ i ∧ i < m then st.A.get i k / σ + (if i = k then 1 else 0)
        else st.A.get i j) ∧
      (colTransform sqrt m k st).e = st.e ∧ (colTransform sqrt m k st).work = st.work ∧
      (colTransform sqrt m k st).V = st.V := by
  have hchain := colNorm_spec sqrt hs st.A (st.s.set k 0) k m
    (by rw [Vec.length_set]; exact hks) (Vec.get_set_self _ _ _ hks)
  rw [Vec.length_set] at hchain
  unfold colTransform
  dsimp only
  generalize forUp k m (fun i s => s.set k (hypot sqrt (s.get k) (st.A.get i k)))
    (st.s.set k 0) = ch at hchain ⊢
  obtain ⟨hc1, hc2, hc3, hc4⟩ := hchain
  by_cases hz : ch.get k = 0
  · rw [if_neg (by rw [hz]; simp)]
    refine ⟨0, by rw [← hc4, hz], fun h => absurd rfl h, ?_, fun i j => ?_, rfl, rfl, rfl⟩
    · show (Vec.set ch k (-(ch.get k))).get k = -0
      rw [Vec.get_set_self _ _ _ (by omega), hz]
    · rw [if_neg (fun h => h.1 rfl)]
  · rw [if_pos hz]
    have key : ∀ sv : Vec R, sv.length = st.s.length → sv.get k ≠ 0 →
        (sv.set k (-(sv.get k))).get k = -(sv.get k) ∧
        ∀ i j, ((forUp k m (fun i A => A.set i k (A.get i k / sv.get k)) st.A).set k k
            ((forUp k m (fun i A => A.set i k (A.get i k / sv.get k)) st.A).get k k + 1)).get i j
          = if sv.get k ≠ 0 ∧ j = k ∧ k ≤ i ∧ i < m then
              st.A.get i k / sv.get k + (if i = k then 1 else 0)
            else st.A.get i j := by
      intro sv hl hne
      obtain ⟨hW, hr, hc, hg⟩ := forUp_col st.A hWF k m k (fun _ x => x / sv.get k)
        (by omega) hkc
      generalize forUp k m (fun i A => A.set i k (A.get i k / sv.get k)) st.A = A4
        at hW hr hc hg ⊢
      refine ⟨Vec.get_set_self _ _ _ (by omega), fun i j => ?_⟩
      rw [Mat.entry_set A4 hW, hg, hg]
      by_cases hik : k = i ∧ k = j
      · obtain ⟨rfl, rfl⟩ := hik
        rw [if_pos ⟨rfl, rfl, by omega, by omega⟩, if_pos ⟨rfl, le_refl _, hk⟩,
          if_pos ⟨hne, rfl, le_refl _, hk⟩, if_pos rfl]
      · rw [if_neg (fun h => hik ⟨h.1, h.2.1⟩)]
        by_cases hc1 : j = k ∧ k ≤ i ∧ i < m
        · rw [if_pos hc1, if_pos ⟨hne, hc1⟩, if_neg (fun h => hik ⟨h.symm, hc1.1.symm⟩), add_zero]
        · rw [if_neg hc1, if_neg (fun h => hc1 h.2)]
    by_cases hneg : st.A.get k k < 0
    · rw [if_pos hneg]
      dsimp only
      have hv : (ch.set k (-(ch.get k))).get k = -(ch.get k) :=
        Vec.get_set_self _ _ _ (by omega)
      obtain ⟨k1, k2⟩ := key (ch.set k (-(ch.get k))) (by rw [Vec.length_set]; exact hc1)
        (by rw [hv]; exact neg_ne_zero.mpr hz)
      refine ⟨(ch.set k (-(ch.get k))).get k, by rw [hv, neg_mul_neg]; exact hc4, fun _ => ?_,
        k1, k2, rfl, rfl, rfl⟩
      rw [hv]
      have hpos : 0 < ch.get k := lt_of_le_of_ne hc3 (Ne.symm hz)
      exact le_of_lt (div_pos_of_neg_of_neg hneg (neg_neg_of_pos hpos))
    · rw [if_neg hneg]
      obtain ⟨k1, k2⟩ := key ch hc1 hz
      exact ⟨ch.get k, hc4, fun _ => div_nonneg (not_lt.mp hneg) hc3, k1, k2, rfl, rfl, rfl⟩

/-- The loop over `j` of lines 186–202 entry by entry: when the transformation
is applied (`k < nct` and `s(k) ≠ 0`) every column `j > k` gets, in the rows
`k .. m-1`, `A(i,j) + t·A(i,k)` with `t = -(Σ_r A(r,k)·A(r,j))/A(k,k)`; then
`e(j) = A(k,j)`. -/
theorem applyCol_loop_entries (m n nct k : ℕ) (st : Bidiag R)
    (hWF : st.A.WF) (hrows : st.A.rows = m) (hcols : st.A.cols = n) (hel : st.e.length = n) :
    (∀ i j, (forUp (k+1) n (fun j st => applyCol m nct k j st) st).A.get i j =
        if (k < nct ∧ st.s.get k ≠ 0) ∧ k < j ∧ j < n ∧ k ≤ i ∧ i < m then
          st.A.get i j + (-(∑ r in Finset.Ico k m, st.A.get r k * st.A.get r j) /
            st.A.get k k) * st.A.get i k
        else st.A.get i j) ∧
      (forUp (k+1) n (fun j st => applyCol m nct k j st) st).e.length = n ∧
      (∀ j, (forUp (k+1) n (fun j st => applyCol m nct k j st) st).e.get j =
        if k < j ∧ j < n then
          (forUp (k+1) n (fun j st => applyCol m nct k j st) st).A.get k j
        else st.e.get j) ∧
      (forUp (k+1) n (fun j st => applyCol m nct k j st) st).work = st.work ∧
      (forUp (k+1) n (fun j st => applyCol m nct k j st) st).V = st.V := by
  rcases Nat.lt_or_ge n (k+1) with hlt | hge
  · rw [forUp_eq_self _ _ _ _ (le_of_lt hlt)]
    exact ⟨fun i j => by rw [if_neg (by omega)], hel, fun j => by rw [if_neg (by omega)],
      rfl, rfl⟩
  have := forUp_inv (fun t (b : Bidiag R) => b.A.WF ∧ b.A.rows = m ∧ b.A.cols = n ∧
      b.s = st.s ∧
      (∀ i j, b.A.get i j =
        if (k < nct ∧ st.s.get k ≠ 0) ∧ k < j ∧ j < t ∧ k ≤ i ∧ i < m then
          st.A.get i j + (-(∑ r in Finset.Ico k m, st.A.get r k * st.A.get r j) /
            st.A.get k k) * st.A.get i k
        else st.A.get i j) ∧
      b.e.length = n ∧
      (∀ j, b.e.get j = if k < j ∧ j < t then b.A.get k j else st.e.get j) ∧
      b.work = st.work ∧ b.V = st.V) (k+1) n (fun j st => applyCol m nct k j st) st hge
    ⟨hWF, hrows, hcols, rfl, fun i j => by rw [if_neg (by omega)], hel,
      fun j => by rw [if_neg (by omega)], rfl, rfl⟩
    (by
      intro j b hj1 hj2 ⟨h1, h2, h3, h4, h5, h6, h7, h8, h9⟩
      have hBk : ∀ i, b.A.get i k = st.A.get i k := fun i => by rw [h5, if_neg (by omega)]
      have hBj : ∀ i, b.A.get i j = st.A.get i j := fun i => by rw [h5, if_neg (by omega)]
      -- the working copy after the pass
      have hA : (applyCol m nct k j b).A.WF ∧ (applyCol m nct k j b).A.rows = m ∧
          (applyCol m nct k j b).A.cols = n ∧ (applyCol m nct k j b).s = st.s ∧
          (∀ i l, (applyCol m nct k j b).A.get i l =
            if (k < nct ∧ st.s.get k ≠ 0) ∧ k < l ∧ l < j + 1 ∧ k ≤ i ∧ i < m then
              st.A.get i l + (-(∑ r in Finset.Ico k m, st.A.get r k * st.A.get r l) /
                st.A.get k k) * st.A.get i k
            else st.A.get i l) ∧
          (applyCol m nct k j b).e = b.e.set j ((applyCol m nct k j b).A.get k j) ∧
          (applyCol m nct k j b).work = st.work ∧ (applyCol m nct k j b).V = st.V := by
        unfold applyCol
        dsimp only
        by_cases hc : k < nct ∧ b.s.get k ≠ 0
        · rw [if_pos hc]
          have hc2 : k < nct ∧ st.s.get k ≠ 0 := by rw [← h4]; exact hc
          have ht : forUp k m (fun i t => t + b.A.get i k * b.A.get i j) 0 =
              ∑ r in Finset.Ico k m, st.A.get r k * st.A.get r j := by
            rw [forUp_sum_Ico k m (fun i => b.A.get i k * b.A.get i j) 0, zero_add]
            apply Finset.sum_congr rfl
            intro r _
            rw [hBk, hBj]
          obtain ⟨g1, g2, g3, g4⟩ := forUp_col2 b.A h1 k m j k
            (fun _ x y => x + (-(forUp k m (fun i t => t + b.A.get i k * b.A.get i j) 0) /
              b.A.get k k) * y) (by omega) (by omega) (by omega)
          refine ⟨g1, g2.trans h2, g3.trans h3, h4, fun i l => ?_, rfl, h8, h9⟩
          show (forUp k m (fun i A => A.set i j (A.get i j +
            (-(forUp k m (fun i t => t + b.A.get i k * b.A.get i j) 0) / b.A.get k k) *
              A.get i k)) b.A).get i l = _
          rw [g4]
          by_cases hl : l = j
          · subst hl
            by_cases hi : k ≤ i ∧ i < m
            · rw [if_pos ⟨rfl, hi⟩, if_pos ⟨hc2, by omega, by omega, hi⟩, ht, hBk, hBj, hBk]
            · rw [if_neg (fun h => hi h.2), if_neg (fun h => hi h.2.2.2), hBj]
          · rw [if_neg (fun h => hl h.1), h5]
            by_cases hc1 : (k < nct ∧ st.s.get k ≠ 0) ∧ k < l ∧ l < j ∧ k ≤ i ∧ i < m
            · rw [if_pos hc1, if_pos ⟨hc1.1, hc1.2.1, by omega, hc1.2.2.2⟩]
            · rw [if_neg hc1, if_neg]
              rintro ⟨h5, h6, h7, h8⟩
              exact hc1 ⟨h5, h6, by omega, h8⟩
        · rw [if_neg hc]
          have hc2 : ¬ (k < nct ∧ st.s.get k ≠ 0) := by rw [← h4]; exact hc
          refine ⟨h1, h2, h3, h4, fun i l => ?_, rfl, h8, h9⟩
          rw [if_neg (fun h => hc2 h.1), h5, if_neg (fun h => hc2 h.1)]
      obtain ⟨a1, a2, a3, a4, a5, a6, a7, a8⟩ := hA
      refine ⟨a1, a2, a3, a4, a5, by rw [a6, Vec.length_set]; exact h6, fun l => ?_, a7, a8⟩
      rw [a6, Vec.get_set, h6]
      by_cases hl : j = l
      · subst hl
        rw [if_pos ⟨rfl, hj2⟩, if_pos ⟨by omega, by omega⟩]
      · rw [if_neg (fun h => hl h.1), h7]
        have hAl : (applyCol m nct k j b).A.get k l = b.A.get k l := by
          rw [a5, h5]
          by_cases hc1 : (k < nct ∧ st.s.get k ≠ 0) ∧ k < l ∧ l < j ∧ k ≤ k ∧ k < m
          · rw [if_pos hc1, if_pos ⟨hc1.1, hc1.2.1, by omega, hc1.2.2.2⟩]
          · rw [if_neg hc1, if_neg]
            rintro ⟨h5, h6, h7, h8⟩
            exact hc1 ⟨h5, h6, by omega, h8⟩
        by_cases hc1 : k < l ∧ l < j
        · rw [if_pos hc1, if_pos ⟨hc1.1, by omega⟩, hAl]
        · rw [if_neg hc1, if_neg]
          rintro ⟨h5, h6⟩
          exact hc1 ⟨h5, by omega⟩)
  obtain ⟨-, -, -, -, h5, h6, h7, h8, h9⟩ := this
  exact ⟨h5, h6, h7, h8, h9⟩
/-- The row transformation is its three parts in sequence. -/
theorem rowTransform_parts (sqrt : R → R) (m n k : ℕ) (wantv : Bool) (st : Bidiag R) :
    rowTransform sqrt m n k wantv st =
      rowStore n k wantv (rowApply m n k (rowNorm sqrt n k st)) := by
  rfl

/-- Writing into the entries `lo .. hi-1` of a vector values that may depend on
the overwritten entry and on an entry `c` outside of the range. -/
theorem Vec.forUp_map2 (v : Vec R) (lo hi c : ℕ) (f : ℕ → R → R → R) (hhi : hi ≤ v.length)
    (hc : c < lo ∨ hi ≤ c) :
    (forUp lo hi (fun i v => v.set i (f i (v.get i) (v.get c))) v).length = v.length ∧
      ∀ j, (forUp lo hi (fun i v => v.set i (f i (v.get i) (v.get c))) v).get j =
        if lo ≤ j ∧ j < hi then f j (v.get j) (v.get c) else v.get j := by
  rcases Nat.lt_or_ge hi lo with hlt | hge
  · rw [forUp_eq_self _ _ _ _ (le_of_lt hlt)]
    exact ⟨rfl, fun j => by rw [if_neg (by omega)]⟩
  · exact forUp_inv (fun t (w : Vec R) => w.length = v.length ∧
        ∀ j, w.get j = if lo ≤ j ∧ j < t then f j (v.get j) (v.get c) else v.get j) lo hi
      (fun i v => v.set i (f i (v.get i) (v.get c))) v hge
      ⟨rfl, fun j => by rw [if_neg (by omega)]⟩
      (by
        intro t w hlo hthi ⟨h1, h2⟩
        refine ⟨by rw [Vec.length_set]; exact h1, fun j => ?_⟩
        rw [Vec.get_set, h1]
        by_cases hj : t = j
        · subst hj
          rw [if_pos ⟨rfl, by omega⟩, if_pos ⟨hlo, by omega⟩, h2, h2, if_neg (by omega),
            if_neg (by omega)]
        · rw [if_neg (fun h => hj h.1), h2]
          by_cases hc1 : lo ≤ j ∧ j < t
          · rw [if_pos hc1, if_pos ⟨hc1.1, by omega⟩]
          · rw [if_neg hc1, if_neg]
            rintro ⟨h5, h6⟩
            exact hc1 ⟨h5, by omega⟩)

/-- The norm loop of the row transformation: `e(k)` becomes the 2-norm of the
entries `k+1 .. n-1` of `e`. -/
theorem rowNorm_spec (sqrt : R → R) (hs : IsSqrt sqrt) (e : Vec R) (k n : ℕ)
    (hk : k < e.length) (h0 : e.get k = 0) :
    (forUp (k+1) n (fun i e => e.set k (hypot sqrt (e.get k) (e.get i))) e).length = e.length ∧
      (∀ j, j ≠ k →
        (forUp (k+1) n (fun i e => e.set k (hypot sqrt (e.get k) (e.get i))) e).get j = e.get j) ∧
      0 ≤ (forUp (k+1) n (fun i e => e.set k (hypot sqrt (e.get k) (e.get i))) e).get k ∧
      (forUp (k+1) n (fun i e => e.set k (hypot sqrt (e.get k) (e.get i))) e).get k *
        (forUp (k+1) n (fun i e => e.set k (hypot sqrt (e.get k) (e.get i))) e).get k
        = ∑ i in Finset.Ico (k+1) n, e.get i * e.get i := by
  rcases Nat.lt_or_ge n (k+1) with h | h
  · rw [forUp_eq_self _ _ _ _ (le_of_lt h), Finset.Ico_eq_empty (by omega), h0]
    simp
  · exact forUp_inv (fun i (v : Vec R) => v.length = e.length ∧
        (∀ j, j ≠ k → v.get j = e.get j) ∧ 0 ≤ v.get k ∧
        v.get k * v.get k = ∑ j in Finset.Ico (k+1) i, e.get j * e.get j) (k+1) n
      (fun i e => e.set k (hypot sqrt (e.get k) (e.get i))) e h
      ⟨rfl, fun _ _ => rfl, by rw [h0], by rw [h0]; simp⟩
      (by
        intro i v hki him ⟨h1, h2, h3, h4⟩
        refine ⟨by rw [Vec.length_set]; exact h1, fun j hj => ?_, ?_, ?_⟩
        · rw [Vec.get_set_ne _ _ _ _ (Ne.symm hj)]; exact h2 j hj
        · rw [Vec.get_set_self _ _ _ (by omega)]
          exact hypot_nonneg sqrt hs _ _
        · rw [Vec.get_set_self _ _ _ (by omega), hypot_sq sqrt hs, h4,
            Finset.sum_Ico_succ_top hki, h2 i (by omega)])

/-- The first part of the row transformation entry by entry: with `τ` the norm
of `e(k+1 .. n-1)`, taken with the sign of `e(k+1)`, `e(k)` becomes `-τ` and,
when `τ ≠ 0`, the entries `k+1 .. n-1` become `e(j)/τ`, plus one at `k+1`. -/
theorem rowNorm_entries (sqrt : R → R) (hs : IsSqrt sqrt) (n k : ℕ) (st : Bidiag R)
    (hel : st.e.length = n) (hk : k + 1 < n) :
    ∃ τ : R, τ * τ = ∑ j in Finset.Ico (k+1) n, st.e.get j * st.e.get j ∧
      (τ ≠ 0 → 0 ≤ st.e.get (k+1) / τ) ∧
      (rowNorm sqrt n k st).e.length = n ∧
      (∀ j, (rowNorm sqrt n k st).e.get j =
        if j = k then -τ
        else if τ ≠ 0 ∧ k < j ∧ j < n then st.e.get j / τ + (if j = k + 1 then 1 else 0)
        else st.e.get j) ∧
      (rowNorm sqrt n k st).A = st.A ∧ (rowNorm sqrt n k st).s = st.s ∧
      (rowNorm sqrt n k st).work = st.work ∧ (rowNorm sqrt n k st).U = st.U ∧
      (rowNorm sqrt n k st).V = st.V := by
  have hchain := rowNorm_spec sqrt hs (st.e.set k 0) k n
    (by rw [Vec.length_set]; omega) (Vec.get_set_self _ _ _ (by omega))
  rw [Vec.length_set] at hchain
  unfold rowNorm
  dsimp only
  generalize forUp (k+1) n (fun i e => e.set k (hypot sqrt (e.get k) (e.get i)))
    (st.e.set k 0) = ch at hchain ⊢
  obtain ⟨hc1, hc2, hc3, hc4⟩ := hchain
  have hc2b : ∀ j, j ≠ k → ch.get j = st.e.get j := fun j hj => by
    rw [hc2 j hj, Vec.get_set_ne _ _ _ _ (Ne.symm hj)]
  have hc4b : ch.get k * ch.get k = ∑ j in Finset.Ico (k+1) n, st.e.get j * st.e.get j := by
    rw [hc4]
    apply Finset.sum_congr rfl
    intro j hj
    have := Finset.mem_Ico.mp hj
    rw [Vec.get_set_ne _ _ _ _ (by omega)]
  by_cases hz : ch.get k = 0
  · rw [if_neg (by rw [hz]; simp)]
    refine ⟨0, by rw [← hc4b, hz], fun h => absurd rfl h, by rw [Vec.length_set, hc1, hel],
      fun j => ?_, rfl, rfl, rfl, rfl, rfl⟩
    show (Vec.set ch k (-(ch.get k))).get j = _
    rw [Vec.get_set, hz]
    by_cases hj : j = k
    · subst hj
      rw [if_pos ⟨rfl, by omega⟩, if_pos rfl]
    · rw [if_neg (fun h => hj h.1.symm), if_neg hj, if_neg (fun h => h.1 rfl), hc2b j hj]
  · rw [if_pos hz]
    have key : ∀ sv : Vec R, sv.length = n → sv.get k ≠ 0 →
        (∀ j, j ≠ k → sv.get j = st.e.get j) →
        (((forUp (k+1) n (fun i e => e.set i (e.get i / e.get k)) sv).set (k+1)
            ((forUp (k+1) n (fun i e => e.set i (e.get i / e.get k)) sv).get (k+1) + 1)).set k
          (-(((forUp (k+1) n (fun i e => e.set i (e.get i / e.get k)) sv).set (k+1)
            ((forUp (k+1) n (fun i e => e.set i (e.get i / e.get k)) sv).get (k+1) + 1)).get
              k))).length = n ∧
        ∀ j, (((forUp (k+1) n (fun i e => e.set i (e.get i / e.get k)) sv).set (k+1)
            ((forUp (k+1) n (fun i e => e.set i (e.get i / e.get k)) sv).get (k+1) + 1)).set k
          (-(((forUp (k+1) n (fun i e => e.set i (e.get i / e.get k)) sv).set (k+1)
            ((forUp (k+1) n (fun i e => e.set i (e.get i / e.get k)) sv).get (k+1) + 1)).get
              k))).get j =
          if j = k then -(sv.get k)
          else if sv.get k ≠ 0 ∧ k < j ∧ j < n then
            st.e.get j / sv.get k + (if j = k + 1 then 1 else 0)
          else st.e.get j := by
      intro sv hl hne hsame
      obtain ⟨g1, g2⟩ := Vec.forUp_map2 sv (k+1) n k (fun _ x y => x / y) (by omega)
        (Or.inl (by omega))
      generalize forUp (k+1) n (fun i e => e.set i (e.get i / e.get k)) sv = e4 at g1 g2 ⊢
      have hk5 : (e4.set (k+1) (e4.get (k+1) + 1)).get k = sv.get k := by
        rw [Vec.get_set_ne _ _ _ _ (by omega), g2, if_neg (by omega)]
      have hl5 : (e4.set (k+1) (e4.get (k+1) + 1)).length = n := by
        rw [Vec.length_set, g1, hl]
      refine ⟨by rw [Vec.length_set, hl5], fun j => ?_⟩
      rw [hk5, Vec.get_set, hl5]
      by_cases hj : j = k
      · subst hj
        rw [if_pos ⟨rfl, by omega⟩, if_pos rfl]
      · rw [if_neg (fun h => hj h.1.symm), if_neg hj, Vec.get_set, g1, hl]
        by_cases hj1 : j = k + 1
        · subst hj1
          rw [if_pos ⟨rfl, hk⟩, g2, if_pos ⟨le_refl _, hk⟩, if_pos ⟨hne, by omega, hk⟩,
            if_pos rfl, hsame (k+1) (by omega)]
        · rw [if_neg (fun h => hj1 h.1.symm), g2]
          by_cases hc1 : k + 1 ≤ j ∧ j < n
          · rw [if_pos hc1, if_pos ⟨hne, by omega, hc1.2⟩, if_neg hj1, add_zero,
              hsame j hj]
          · rw [if_neg hc1, if_neg (fun h => hc1 ⟨by omega, h.2.2⟩), hsame j hj]
    by_cases hneg : ch.get (k+1) < 0
    · rw [if_pos hneg]
      dsimp only
      have hv : (ch.set k (-(ch.get k))).get k = -(ch.get k) :=
        Vec.get_set_self _ _ _ (by omega)
      obtain ⟨k1, k2⟩ := key (ch.set k (-(ch.get k))) (by rw [Vec.length_set, hc1, hel])
        (by rw [hv]; exact neg_ne_zero.mpr hz)
        (fun j hj => by rw [Vec.get_set_ne _ _ _ _ (Ne.symm hj)]; exact hc2b j hj)
      refine ⟨(ch.set k (-(ch.get k))).get k, by rw [hv, neg_mul_neg]; exact hc4b, fun _ => ?_,
        k1, k2, rfl, rfl, rfl, rfl, rfl⟩
      rw [hv, ← hc2b (k+1) (by omega)]
      have hpos : 0 < ch.get k := lt_of_le_of_ne hc3 (Ne.symm hz)
      exact le_of_lt (div_pos_of_neg_of_neg hneg (neg_neg_of_pos hpos))
    · rw [if_neg hneg]
      obtain ⟨k1, k2⟩ := key ch (by rw [hc1, hel]) hz hc2b
      refine ⟨ch.get k, hc4b, fun _ => ?_, k1, k2, rfl, rfl, rfl, rfl, rfl⟩
      rw [← hc2b (k+1) (by omega)]
      exact div_nonneg (not_lt.mp hneg) hc3
/-- The accumulation loop of lines 234–238: `work(i)` gains
`Σ_j e(j)·A(i,j)` over the columns `k+1 .. n-1`, for the rows `k+1 .. m-1`. -/
theorem work_loop (e : Vec R) (A : Mat R) (k m n : ℕ) (w : Vec R) (hw : w.length = m) :
    (forUp (k+1) n (fun j w =>
        forUp (k+1) m (fun i w => w.set i (w.get i + e.get j * A.get i j)) w) w).length = m ∧
      ∀ i, (forUp (k+1) n (fun j w =>
        forUp (k+1) m (fun i w => w.set i (w.get i + e.get j * A.get i j)) w) w).get i =
        if k + 1 ≤ i ∧ i < m then w.get i + ∑ j in Finset.Ico (k+1) n, e.get j * A.get i j
        else w.get i := by
  rcases Nat.lt_or_ge n (k+1) with hlt | hge
  · rw [forUp_eq_self _ _ _ _ (le_of_lt hlt), Finset.Ico_eq_empty (by omega)]
    exact ⟨hw, fun i => by simp⟩
  · exact forUp_inv (fun t (v : Vec R) => v.length = m ∧
        ∀ i, v.get i =
          if k + 1 ≤ i ∧ i < m then w.get i + ∑ j in Finset.Ico (k+1) t, e.get j * A.get i j
          else w.get i) (k+1) n
      (fun j w => forUp (k+1) m (fun i w => w.set i (w.get i + e.get j * A.get i j)) w) w hge
      ⟨hw, fun i => by simp⟩
      (by
        intro t v hlo hthi ⟨h1, h2⟩
        obtain ⟨g1, g2⟩ := Vec.forUp_map2 v (k+1) m m (fun i x _ => x + e.get t * A.get i t)
          (by omega) (Or.inr (le_refl _))
        refine ⟨g1.trans h1, fun i => ?_⟩
        rw [g2, h2]
        by_cases hi : k + 1 ≤ i ∧ i < m
        · rw [if_pos hi, if_pos hi, if_pos hi, Finset.sum_Ico_succ_top hlo]
          ring
        · rw [if_neg hi, if_neg hi, if_neg hi])

/-- The update loop of lines 239–244: the entry `(i,j)` of the rows
`k+1 .. m-1` and columns `k+1 .. n-1` gains `t(j)·w(i)`. -/
theorem rowUpdate_loop (t w : ℕ → R) (k m n : ℕ) (A : Mat R) (hWF : A.WF)
    (hrows : A.rows = m) (hcols : A.cols = n) :
    (forUp (k+1) n (fun j A =>
        forUp (k+1) m (fun i A => A.set i j (A.get i j + t j * w i)) A) A).WF ∧
      (forUp (k+1) n (fun j A =>
        forUp (k+1) m (fun i A => A.set i j (A.get i j + t j * w i)) A) A).rows = m ∧
      (forUp (k+1) n (fun j A =>
        forUp (k+1) m (fun i A => A.set i j (A.get i j + t j * w i)) A) A).cols = n ∧
      ∀ i j, (forUp (k+1) n (fun j A =>
        forUp (k+1) m (fun i A => A.set i j (A.get i j + t j * w i)) A) A).get i j =
        if k + 1 ≤ i ∧ i < m ∧ k + 1 ≤ j ∧ j < n then A.get i j + t j * w i else A.get i j := by
  rcases Nat.lt_or_ge n (k+1) with hlt | hge
  · rw [forUp_eq_self _ _ _ _ (le_of_lt hlt)]
    exact ⟨hWF, hrows, hcols, fun i j => by rw [if_neg (by omega)]⟩
  · exact forUp_inv (fun c (B : Mat R) => B.WF ∧ B.rows = m ∧ B.cols = n ∧
        ∀ i j, B.get i j =
          if k + 1 ≤ i ∧ i < m ∧ k + 1 ≤ j ∧ j < c then A.get i j + t j * w i
          else A.get i j) (k+1) n
      (fun j A => forUp (k+1) m (fun i A => A.set i j (A.get i j + t j * w i)) A) A hge
      ⟨hWF, hrows, hcols, fun i j => by rw [if_neg (by omega)]⟩
      (by
        intro c B hlo hchi ⟨h1, h2, h3, h4⟩
        obtain ⟨g1, g2, g3, g4⟩ := forUp_col B h1 (k+1) m c (fun i x => x + t c * w i)
          (by omega) (by omega)
        refine ⟨g1, g2.trans h2, g3.trans h3, fun i j => ?_⟩
        rw [g4, h4, h4]
        by_cases hj : j = c
        · subst hj
          by_cases hi : k + 1 ≤ i ∧ i < m
          · rw [if_pos ⟨rfl, hi⟩, if_neg (by omega), if_pos ⟨hi.1, hi.2, hlo, by omega⟩]
          · rw [if_neg (fun h => hi h.2), if_neg (by omega),
              if_neg (fun h => hi ⟨h.1, h.2.1⟩)]
        · rw [if_neg (fun h => hj h.1)]
          by_cases hc1 : k + 1 ≤ i ∧ i < m ∧ k + 1 ≤ j ∧ j < c
          · rw [if_pos hc1, if_pos ⟨hc1.1, hc1.2.1, hc1.2.2.1, by omega⟩]
          · rw [if_neg hc1, if_neg]
            rintro ⟨h5, h6, h7, h8⟩
            exact hc1 ⟨h5, h6, h7, by omega⟩)

/-- The second part of the row transformation entry by entry: when it is
applied (`k+1 < m` and `e(k) ≠ 0`) the entry `(i,j)` of the rows `k+1 .. m-1`
and columns `k+1 .. n-1` becomes `A(i,j) + t·Σ_c e(c)·A(i,c)` with
`t = -e(j)/e(k+1)`. -/
theorem rowApply_entries (m n k : ℕ) (st : Bidiag R) (hWF : st.A.WF) (hrows : st.A.rows = m)
    (hcols : st.A.cols = n) (hwl : st.work.length = m) :
    (rowApply m n k st).A.WF ∧ (rowApply m n k st).A.rows = m ∧
      (rowApply m n k st).A.cols = n ∧
      (∀ i j, (rowApply m n k st).A.get i j =
        if (k + 1 < m ∧ st.e.get k ≠ 0) ∧ k + 1 ≤ i ∧ i < m ∧ k + 1 ≤ j ∧ j < n then
          st.A.get i j + (-(st.e.get j) / st.e.get (k+1)) *
            ∑ c in Finset.Ico (k+1) n, st.e.get c * st.A.get i c
        else st.A.get i j) ∧
      (rowApply m n k st).work.length = m ∧ (rowApply m n k st).e = st.e ∧
      (rowApply m n k st).s = st.s ∧ (rowApply m n k st).U = st.U ∧
      (rowApply m n k st).V = st.V := by
  unfold rowApply
  by_cases hc : k + 1 < m ∧ st.e.get k ≠ 0
  · rw [if_pos hc]
    dsimp only
    obtain ⟨z1, z2⟩ := Vec.forUp_map2 st.work (k+1) m m (fun _ _ _ => 0) (by omega)
      (Or.inr (le_refl _))
    obtain ⟨w1, w2⟩ := work_loop st.e st.A k m n
      (forUp (k+1) m (fun i w => w.set i 0) st.work) (z1.trans hwl)
    generalize forUp (k+1) n (fun j w =>
        forUp (k+1) m (fun i w => w.set i (w.get i + st.e.get j * st.A.get i j)) w)
        (forUp (k+1) m (fun i w => w.set i 0) st.work) = wk at w1 w2 ⊢
    obtain ⟨a1, a2, a3, a4⟩ := rowUpdate_loop (fun j => -(st.e.get j) / st.e.get (k+1))
      (fun i => wk.get i) k m n st.A hWF hrows hcols
    refine ⟨a1, a2, a3, fun i j => ?_, w1, rfl, rfl, rfl, rfl⟩
    rw [a4]
    by_cases hij : k + 1 ≤ i ∧ i < m ∧ k + 1 ≤ j ∧ j < n
    · rw [if_pos hij, if_pos ⟨hc, hij⟩, w2, if_pos ⟨hij.1, hij.2.1⟩, z2,
        if_pos ⟨hij.1, hij.2.1⟩, zero_add]
    · rw [if_neg hij, if_neg (fun h => hij h.2)]
  · rw [if_neg hc]
    exact ⟨hWF, hrows, hcols, fun i j => by rw [if_neg (fun h => hc h.1)], hwl, rfl, rfl, rfl,
      rfl⟩

/-- The third part of the row transformation entry by entry: `e(k+1 .. n-1)`
is copied into column `k` of `V` when `V` is wanted. -/
theorem rowStore_entries (n k : ℕ) (wantv : Bool) (st : Bidiag R) (hWF : st.V.WF)
    (hrows : st.V.rows = n) (hcols : st.V.cols = n) (hk : k < n) :
    (rowStore n k wantv st).V.WF ∧ (rowStore n k wantv st).V.rows = n ∧
      (rowStore n k wantv st).V.cols = n ∧
      (∀ i j, (rowStore n k wantv st).V.get i j =
        if wantv = true ∧ j = k ∧ k + 1 ≤ i ∧ i < n then st.e.get i else st.V.get i j) ∧
      (rowStore n k wantv st).A = st.A ∧ (rowStore n k wantv st).e = st.e ∧
      (rowStore n k wantv st).s = st.s ∧ (rowStore n k wantv st).U = st.U ∧
      (rowStore n k wantv st).work = st.work := by
  unfold rowStore
  by_cases hv : wantv = true
  · rw [if_pos hv]
    obtain ⟨g1, g2, g3, g4⟩ := forUp_col st.V hWF (k+1) n k (fun i _ => st.e.get i)
      (by omega) (by omega)
    refine ⟨g1, g2.trans hrows, g3.trans hcols, fun i j => ?_, rfl, rfl, rfl, rfl, rfl⟩
    show (forUp (k+1) n (fun i V => V.set i k (st.e.get i)) st.V).get i j = _
    rw [g4]
    by_cases hij : j = k ∧ k + 1 ≤ i ∧ i < n
    · rw [if_pos hij, if_pos ⟨hv, hij⟩]
    · rw [if_neg hij, if_neg (fun h => hij h.2)]
  · rw [if_neg hv]
    exact ⟨hWF, hrows, hcols, fun i j => by rw [if_neg (fun h => hv h.1)], rfl, rfl, rfl, rfl,
      rfl⟩
/-! ### One pass of the bidiagonalisation loop entry by entry -/

/-- One pass of the bidiagonalisation loop is the column part followed, for
`k < nrt`, by the row transformation. -/
theorem bidiagStep_parts (sqrt : R → R) (m n nct nrt : ℕ) (wantu wantv : Bool) (k : ℕ)
    (st : Bidiag R) :
    bidiagStep sqrt m n nct nrt wantu wantv k st =
      if k < nrt then rowTransform sqrt m n k wantv (colPart sqrt m n nct wantu k st)
      else colPart sqrt m n nct wantu k st := rfl

/-- The column part of a pass entry by entry.  With `σ` the signed norm of
the column (`σ = 0` when `k ≥ nct`): `s(k) = -σ`; when `σ ≠ 0`, column `k`
holds `v = A(k..m-1,k)/σ + e_k` and every column `j > k` gets
`A(i,j) − (Σ_r v_r·A(r,j))/v_k · v_i` in the rows `k .. m-1`; `e(j) = A(k,j)`
for `j > k`; column `k` of `U` receives `v` or the unchanged column. -/
theorem colPart_spec (sqrt : R → R) (hs : IsSqrt sqrt) (m n : ℕ) (wantu : Bool) (k : ℕ)
    (st : Bidiag R) (hsh : st.Shape m n) (hkm : k < m) (hkn : k < n) :
    ∃ σ : R,
      (k < min (m-1) n → σ * σ = ∑ i in Finset.Ico k m, st.A.get i k * st.A.get i k ∧
        (σ ≠ 0 → 0 ≤ st.A.get k k / σ)) ∧
      (¬ k < min (m-1) n → σ = 0) ∧
      (colPart sqrt m n (min (m-1) n) wantu k st).Shape m n ∧
      (∀ j, (colPart sqrt m n (min (m-1) n) wantu k st).s.get j =
        if j = k ∧ k < min (m-1) n then -σ else st.s.get j) ∧
      (∀ i, (colPart sqrt m n (min (m-1) n) wantu k st).A.get i k =
        if σ ≠ 0 ∧ k ≤ i ∧ i < m then st.A.get i k / σ + (if i = k then 1 else 0)
        else st.A.get i k) ∧
      (∀ i j, j ≠ k → (colPart sqrt m n (min (m-1) n) wantu k st).A.get i j =
        if σ ≠ 0 ∧ k < j ∧ j < n ∧ k ≤ i ∧ i < m then
          st.A.get i j +
            (-(∑ r in Finset.Ico k m,
                (colPart sqrt m n (min (m-1) n) wantu k st).A.get r k * st.A.get r j) /
              (colPart sqrt m n (min (m-1) n) wantu k st).A.get k k) *
            (colPart sqrt m n (min (m-1) n) wantu k st).A.get i k
        else st.A.get i j) ∧
      (∀ j, (colPart sqrt m n (min (m-1) n) wantu k st).e.get j =
        if k < j ∧ j < n then (colPart sqrt m n (min (m-1) n) wantu k st).A.get k j
        else st.e.get j) ∧
      (∀ i j, (colPart sqrt m n (min (m-1) n) wantu k st).U.get i j =
        if (wantu = true ∧ k < min (m-1) n) ∧ j = k ∧ k ≤ i ∧ i < m then
          (colPart sqrt m n (min (m-1) n) wantu k st).A.get i k
        else st.U.get i j) ∧
      (colPart sqrt m n (min (m-1) n) wantu k st).V = st.V := by
  obtain ⟨hWF, hrows, hcols, hsl, hel, hwl, hUW, hUr, hUc, hVW, hVr, hVc⟩ := hsh
  -- the state after the column transformation
  have hc : ∃ σ : R, ∃ c : Bidiag R,
      c = (if k < min (m-1) n then colTransform sqrt m k st else st) ∧
      (k < min (m-1) n → σ * σ = ∑ i in Finset.Ico k m, st.A.get i k * st.A.get i k ∧
        (σ ≠ 0 → 0 ≤ st.A.get k k / σ)) ∧
      (¬ k < min (m-1) n → σ = 0) ∧
      c.A.WF ∧ c.A.rows = m ∧ c.A.cols = n ∧ c.s.length = min (m+1) n ∧
      (∀ j, c.s.get j = if j = k ∧ k < min (m-1) n then -σ else st.s.get j) ∧
      (∀ i j, c.A.get i j =
        if σ ≠ 0 ∧ j = k ∧ k ≤ i ∧ i < m then st.A.get i k / σ + (if i = k then 1 else 0)
        else st.A.get i j) ∧
      c.e = st.e ∧ c.work = st.work ∧ c.U = st.U ∧ c.V = st.V := by
    by_cases hk : k < min (m-1) n
    · obtain ⟨σ, e1, e2, e3, e4, e5, e6, e7⟩ := colTransform_entries sqrt hs m k st hWF hrows
        hkm (by rw [hcols]; exact hkn) (by rw [hsl]; omega)
      obtain ⟨c1, c2, c3, c4, c5, c6, -⟩ := colTransform_house sqrt hs m k st hWF hrows hkm
        (by rw [hcols]; exact hkn) (by rw [hsl]; omega)
      refine ⟨σ, colTransform sqrt m k st, by rw [if_pos hk], fun _ => ⟨e1, e2⟩,
        fun h => absurd hk h, c1, c2, c3.trans hcols, c4.trans hsl, fun j => ?_, e4, e5, e6, c6,
        e7⟩
      by_cases hj : j = k
      · rw [if_pos ⟨hj, hk⟩, hj, e3]
      · rw [if_neg (fun h => hj h.1), c5 j hj]
    · refine ⟨0, st, by rw [if_neg hk], fun h => absurd h hk, fun _ => rfl, hWF, hrows, hcols,
        hsl, fun j => by rw [if_neg (fun h => hk h.2)], fun i j => ?_, rfl, rfl, rfl, rfl⟩
      rw [if_neg (fun h => h.1 rfl)]
  obtain ⟨σ, c, hceq, s1, s2, c1, c2, c3, c4, c5, c6, c7, c8, c9, c10⟩ := hc
  -- the application to the columns j > k
  obtain ⟨a1, a2, a3, a4, a5, a6⟩ := applyCol_loop_frame m n (min (m-1) n) k c c1 c2 c3
  obtain ⟨b1, b2, b3, b4, b5⟩ := applyCol_loop_entries m n (min (m-1) n) k c c1 c2 c3
    (by rw [c7]; exact hel)
  have hact : (k < min (m-1) n ∧ c.s.get k ≠ 0) ↔ σ ≠ 0 := by
    rw [c5]
    constructor
    · rintro ⟨h1, h2⟩
      rw [if_pos ⟨rfl, h1⟩] at h2
      exact fun h => h2 (by rw [h, neg_zero])
    · intro h
      have hk : k < min (m-1) n := by
        by_contra h2
        exact h (s2 h2)
      exact ⟨hk, by rw [if_pos ⟨rfl, hk⟩]; exact neg_ne_zero.mpr h⟩
  unfold colPart
  dsimp only
  rw [← hceq]
  generalize forUp (k+1) n (fun j st => applyCol m (min (m-1) n) k j st) c = b
    at a1 a2 a3 a4 a5 a6 b1 b2 b3 b4 b5 ⊢
  have hbk : ∀ i, b.A.get i k =
      if σ ≠ 0 ∧ k ≤ i ∧ i < m then st.A.get i k / σ + (if i = k then 1 else 0)
      else st.A.get i k := by
    intro i
    rw [a4, c6]
    by_cases h : σ ≠ 0 ∧ k ≤ i ∧ i < m
    · rw [if_pos h, if_pos ⟨h.1, rfl, h.2⟩]
    · rw [if_neg h, if_neg (fun g => h ⟨g.1, g.2.2⟩)]
  have hbj : ∀ i j, j ≠ k → b.A.get i j =
      if σ ≠ 0 ∧ k < j ∧ j < n ∧ k ≤ i ∧ i < m then
        st.A.get i j + (-(∑ r in Finset.Ico k m, b.A.get r k * st.A.get r j) / b.A.get k k) *
          b.A.get i k
      else st.A.get i j := by
    intro i j hj
    have hcj : ∀ r, c.A.get r j = st.A.get r j := fun r => by
      rw [c6, if_neg (fun h => hj h.2.1)]
    rw [b1]
    by_cases h : σ ≠ 0 ∧ k < j ∧ j < n ∧ k ≤ i ∧ i < m
    · rw [if_pos h, if_pos ⟨hact.mpr h.1, h.2⟩, hcj, a4, a4]
      congr 4
      apply Finset.sum_congr rfl
      intro r _
      rw [hcj, a4]
    · rw [if_neg h, if_neg (fun g => h ⟨hact.mp g.1, g.2⟩), hcj]
  have hbs : ∀ j, b.s.get j = if j = k ∧ k < min (m-1) n then -σ else st.s.get j := by
    intro j
    rw [a5, c5]
  by_cases hu : wantu = true ∧ k < min (m-1) n
  · rw [if_pos hu]
    obtain ⟨u1, u2, u3, u4⟩ := forUp_col b.U (by rw [a6, c9]; exact hUW) k m k
      (fun i _ => b.A.get i k) (by rw [a6, c9, hUr]) (by rw [a6, c9, hUc]; exact hkm)
    refine ⟨σ, s1, s2, ⟨a1, a2, a3, by rw [a5]; exact c4, by rw [b2], by rw [b4, c8]; exact hwl,
      u1, u2.trans (by rw [a6, c9]; exact hUr), u3.trans (by rw [a6, c9]; exact hUc),
      by rw [b5, c10]; exact hVW, by rw [b5, c10]; exact hVr, by rw [b5, c10]; exact hVc⟩,
      hbs, hbk, hbj, fun j => by rw [b3, c7], fun i j => ?_, by rw [b5, c10]⟩
    show (forUp k m (fun i U => U.set i k (b.A.get i k)) b.U).get i j = _
    rw [u4, a6, c9]
    by_cases h : j = k ∧ k ≤ i ∧ i < m
    · rw [if_pos h, if_pos ⟨hu, h⟩]
    · rw [if_neg h, if_neg (fun g => h g.2)]
  · rw [if_neg hu]
    refine ⟨σ, s1, s2, ⟨a1, a2, a3, by rw [a5]; exact c4, by rw [b2], by rw [b4, c8]; exact hwl,
      by rw [a6, c9]; exact hUW, by rw [a6, c9]; exact hUr, by rw [a6, c9]; exact hUc,
      by rw [b5, c10]; exact hVW, by rw [b5, c10]; exact hVr, by rw [b5, c10]; exact hVc⟩,
      hbs, hbk, hbj, fun j => by rw [b3, c7], fun i j => ?_, by rw [b5, c10]⟩
    rw [if_neg (fun g => hu g.1), a6, c9]

/-- The row transformation entry by entry.  With `τ` the signed norm of
`e(k+1 .. n-1)`: `e(k) = -τ`; when `τ ≠ 0`, `e(k+1 .. n-1)` holds
`w = e/τ + e_{k+1}` and every row `i > k` gets
`A(i,j) − (Σ_c w_c·A(i,c))/w_{k+1} · w_j` in the columns `k+1 .. n-1`; column `k`
of `V` receives `e(k+1 .. n-1)`. -/
theorem rowTransform_spec (sqrt : R → R) (hs : IsSqrt sqrt) (m n : ℕ) (wantv : Bool) (k : ℕ)
    (st : Bidiag R) (hsh : st.Shape m n) (hk : k + 1 < n) :
    ∃ τ : R, τ * τ = ∑ j in Finset.Ico (k+1) n, st.e.get j * st.e.get j ∧
      (τ ≠ 0 → 0 ≤ st.e.get (k+1) / τ) ∧
      (rowTransform sqrt m n k wantv st).Shape m n ∧
      (∀ j, (rowTransform sqrt m n k wantv st).e.get j =
        if j = k then -τ
        else if τ ≠ 0 ∧ k < j ∧ j < n then st.e.get j / τ + (if j = k + 1 then 1 else 0)
        else st.e.get j) ∧
      (∀ i j, (rowTransform sqrt m n k wantv st).A.get i j =
        if (k + 1 < m ∧ τ ≠ 0) ∧ k + 1 ≤ i ∧ i < m ∧ k + 1 ≤ j ∧ j < n then
          st.A.get i j + (-((rowTransform sqrt m n k wantv st).e.get j) /
              (rowTransform sqrt m n k wantv st).e.get (k+1)) *
            ∑ c in Finset.Ico (k+1) n,
              (rowTransform sqrt m n k wantv st).e.get c * st.A.get i c
        else st.A.get i j) ∧
      (∀ i j, (rowTransform sqrt m n k wantv st).V.get i j =
        if wantv = true ∧ j = k ∧ k + 1 ≤ i ∧ i < n then
          (rowTransform sqrt m n k wantv st).e.get i
        else st.V.get i j) ∧
      (rowTransform sqrt m n k wantv st).s = st.s ∧
      (rowTransform sqrt m n k wantv st).U = st.U := by
  obtain ⟨hWF, hrows, hcols, hsl, hel, hwl, hUW, hUr, hUc, hVW, hVr, hVc⟩ := hsh
  rw [rowTransform_parts]
  obtain ⟨τ, n1, n2, n3, n4, n5, n6, n7, n8, n9⟩ := rowNorm_entries sqrt hs n k st hel hk
  generalize rowNorm sqrt n k st = c at n3 n4 n5 n6 n7 n8 n9 ⊢
  obtain ⟨a1, a2, a3, a4, a5, a6, a7, a8, a9⟩ := rowApply_entries m n k c (by rw [n5]; exact hWF)
    (by rw [n5]; exact hrows) (by rw [n5]; exact hcols) (by rw [n7]; exact hwl)
  generalize rowApply m n k c = b at a1 a2 a3 a4 a5 a6 a7 a8 a9 ⊢
  obtain ⟨v1, v2, v3, v4, v5, v6, v7, v8, v9⟩ := rowStore_entries n k wantv b
    (by rw [a9, n9]; exact hVW) (by rw [a9, n9]; exact hVr) (by rw [a9, n9]; exact hVc)
    (by omega)
  generalize rowStore n k wantv b = d at v1 v2 v3 v4 v5 v6 v7 v8 v9 ⊢
  have hck : c.e.get k ≠ 0 ↔ τ ≠ 0 := by
    rw [n4, if_pos rfl]
    exact neg_ne_zero
  refine ⟨τ, n1, n2, ⟨by rw [v5]; exact a1, by rw [v5]; exact a2, by rw [v5]; exact a3,
    by rw [v7, a7, n6]; exact hsl, by rw [v6, a6]; exact n3, by rw [v9]; exact a5,
    by rw [v8, a8, n8]; exact hUW, by rw [v8, a8, n8]; exact hUr, by rw [v8, a8, n8]; exact hUc,
    v1, v2, v3⟩, fun j => by rw [v6, a6]; exact n4 j, fun i j => ?_, fun i j => ?_,
    by rw [v7, a7, n6], by rw [v8, a8, n8]⟩
  · rw [v5, a4, v6, a6, n5]
    by_cases h : (k + 1 < m ∧ τ ≠ 0) ∧ k + 1 ≤ i ∧ i < m ∧ k + 1 ≤ j ∧ j < n
    · rw [if_pos h, if_pos ⟨⟨h.1.1, hck.mpr h.1.2⟩, h.2⟩]
    · rw [if_neg h, if_neg (fun g => h ⟨⟨g.1.1, hck.mp g.1.2⟩, g.2⟩)]
  · rw [v4, v6, a9, n9]
/-! ### The generation of `U` and `V` entry by entry -/

/-- The generation of `U` is the identity columns followed by the passes for
`k = nct-1 .. 0`. -/
theorem generateU_steps (m nct : ℕ) (s : Vec R) (U : Mat R) :
    generateU m nct s U =
      forDown 0 nct (fun k U => genUStep m s k U)
        (forUp nct m (fun j U => (forUp 0 m (fun i U => U.set i j 0) U).set j j 1) U) := rfl

/-- The generation of `V` is the passes for `k = n-1 .. 0`. -/
theorem generateV_steps (n nrt : ℕ) (e : Vec R) (V : Mat R) :
    generateV n nrt e V = forDown 0 n (fun k V => genVStep n nrt e k V) V := rfl

/-- Lines 303–312: the reflection with the vector in the rows `k+1 .. n-1` of
column `k` applied to the columns `k+1 .. n-1`. -/
theorem genV_apply (n k : ℕ) (V : Mat R) (hWF : V.WF) (hr : V.rows = n) (hc : V.cols = n)
    (hk : k < n) :
    (forUp (k+1) n (fun j V =>
        forUp (k+1) n (fun i W => W.set i j (W.get i j +
          (-(forUp (k+1) n (fun i t => t + V.get i k * V.get i j) 0) / V.get (k+1) k) *
            W.get i k)) V) V).WF ∧
      (forUp (k+1) n (fun j V =>
        forUp (k+1) n (fun i W => W.set i j (W.get i j +
          (-(forUp (k+1) n (fun i t => t + V.get i k * V.get i j) 0) / V.get (k+1) k) *
            W.get i k)) V) V).rows = n ∧
      (forUp (k+1) n (fun j V =>
        forUp (k+1) n (fun i W => W.set i j (W.get i j +
          (-(forUp (k+1) n (fun i t => t + V.get i k * V.get i j) 0) / V.get (k+1) k) *
            W.get i k)) V) V).cols = n ∧
      ∀ i l, (forUp (k+1) n (fun j V =>
        forUp (k+1) n (fun i W => W.set i j (W.get i j +
          (-(forUp (k+1) n (fun i t => t + V.get i k * V.get i j) 0) / V.get (k+1) k) *
            W.get i k)) V) V).get i l =
        if k < l ∧ l < n ∧ k + 1 ≤ i ∧ i < n then
          V.get i l + (-(∑ r in Finset.Ico (k+1) n, V.get r k * V.get r l) / V.get (k+1) k) *
            V.get i k
        else V.get i l := by
  exact forUp_inv (fun j (B : Mat R) => B.WF ∧ B.rows = n ∧ B.cols = n ∧
      ∀ i l, B.get i l =
        if k < l ∧ l < j ∧ k + 1 ≤ i ∧ i < n then
          V.get i l + (-(∑ r in Finset.Ico (k+1) n, V.get r k * V.get r l) / V.get (k+1) k) *
            V.get i k
        else V.get i l) (k+1) n _ V (by omega)
    ⟨hWF, hr, hc, fun i l => by rw [if_neg (by omega)]⟩
    (by
      intro j B hj1 hj2 ⟨h1, h2, h3, h4⟩
      have hBk : ∀ i, B.get i k = V.get i k := fun i => by rw [h4, if_neg (by omega)]
      have hBj : ∀ i, B.get i j = V.get i j := fun i => by rw [h4, if_neg (by omega)]
      have ht : forUp (k+1) n (fun i t => t + B.get i k * B.get i j) 0 =
          ∑ r in Finset.Ico (k+1) n, V.get r k * V.get r j := by
        rw [forUp_sum_Ico (k+1) n (fun i => B.get i k * B.get i j) 0, zero_add]
        apply Finset.sum_congr rfl
        intro r _
        rw [hBk, hBj]
      obtain ⟨g1, g2, g3, g4⟩ := forUp_col2 B h1 (k+1) n j k
        (fun _ x y => x + (-(forUp (k+1) n (fun i t => t + B.get i k * B.get i j) 0) /
          B.get (k+1) k) * y)
        (by omega) (by omega) (by omega)
      refine ⟨g1, g2.trans h2, g3.trans h3, fun i l => ?_⟩
      rw [g4]
      by_cases hl : l = j
      · subst hl
        by_cases hi : k + 1 ≤ i ∧ i < n
        · rw [if_pos ⟨rfl, hi⟩, if_pos ⟨by omega, by omega, hi⟩, ht, hBk, hBj, hBk]
        · rw [if_neg (fun h => hi h.2), if_neg (fun h => hi h.2.2), hBj]
      · rw [if_neg (fun h => hl h.1), h4]
        by_cases hc1 : k < l ∧ l < j ∧ k + 1 ≤ i ∧ i < n
        · rw [if_pos hc1, if_pos (show k < l ∧ l < j + 1 ∧ k + 1 ≤ i ∧ i < n from
            ⟨hc1.1, by omega, hc1.2.2⟩)]
        · rw [if_neg hc1, if_neg]
          rintro ⟨h5, h6, h7⟩
          exact hc1 ⟨h5, by omega, h7⟩)

/-- One pass of the generation of `U` entry by entry.  For `s(k) ≠ 0` the
columns `l > k` get `U(i,l) − (Σ_r U(r,k)·U(r,l))/U(k,k) · U(i,k)` in the rows
`k .. m-1`, and column `k` becomes `e_k − U(·,k)` in the rows `k .. m-1` and
zero in the rows `0 .. k-2`; for `s(k) = 0` column `k` becomes `e_k`. -/
theorem genUStep_entries (m : ℕ) (s : Vec R) (k : ℕ) (U : Mat R) (hWF : U.WF)
    (hr : U.rows = m) (hc : U.cols = m) (hk : k < m) :
    (genUStep m s k U).WF ∧ (genUStep m s k U).rows = m ∧ (genUStep m s k U).cols = m ∧
      ∀ i l, (genUStep m s k U).get i l =
        if s.get k ≠ 0 then
          if l = k then
            if i < k - 1 then 0
            else if i = k then 1 - U.get k k
            else if k < i ∧ i < m then -(U.get i k)
            else U.get i k
          else if k < l ∧ l < m ∧ k ≤ i ∧ i < m then
            U.get i l + (-(∑ r in Finset.Ico k m, U.get r k * U.get r l) / U.get k k) *
              U.get i k
          else U.get i l
        else if l = k ∧ i < m then (if i = k then 1 else 0)
        else U.get i l := by
  unfold genUStep
  by_cases hsk : s.get k ≠ 0
  · rw [if_pos hsk]
    dsimp only
    obtain ⟨a1, a2, a3, a4⟩ := genU_apply m k U hWF hr hc hk
    generalize forUp (k+1) m (fun j U =>
        forUp k m (fun i W => W.set i j (W.get i j +
          (-(forUp k m (fun i t => t + U.get i k * U.get i j) 0) / U.get k k) * W.get i k)) U)
        U = Ua at a1 a2 a3 a4 ⊢
    obtain ⟨n1, n2, n3, n4⟩ := forUp_col Ua a1 k m k (fun _ x => -x) (by omega) (by omega)
    generalize forUp k m (fun i U => U.set i k (-(U.get i k))) Ua = Un at n1 n2 n3 n4 ⊢
    have s1 : (Un.set k k (1 + Un.get k k)).WF := n1.set_entry _ _ _
    obtain ⟨z1, z2, z3, z4⟩ := forUp_col (Un.set k k (1 + Un.get k k)) s1 0 (k-1) k
      (fun _ _ => 0) (by rw [Mat.rows_set, n2, a2]; omega) (by rw [Mat.cols_set, n3, a3]; omega)
    refine ⟨z1, by rw [z2, Mat.rows_set, n2, a2], by rw [z3, Mat.cols_set, n3, a3],
      fun i l => ?_⟩
    have hUak : ∀ i, Ua.get i k = U.get i k := fun i => by rw [a4, if_neg (by omega)]
    rw [if_pos hsk, z4]
    by_cases hl : l = k
    · subst hl
      rw [if_pos rfl]
      by_cases h1 : i < l - 1
      · rw [if_pos ⟨rfl, Nat.zero_le _, h1⟩, if_pos h1]
      · rw [if_neg (fun h => h1 h.2.2), if_neg h1, Mat.entry_set _ n1, n2, n3, a2, a3]
        by_cases h2 : i = l
        · subst h2
          rw [if_pos ⟨rfl, rfl, hk, hk⟩, if_pos rfl, n4, if_pos ⟨rfl, le_refl _, hk⟩, hUak]
          ring
        · rw [if_neg (fun h => h2 h.1.symm), if_neg h2, n4]
          by_cases h3 : l < i ∧ i < m
          · rw [if_pos ⟨rfl, by omega, h3.2⟩, if_pos h3, hUak]
          · rw [if_neg (fun h => h3 ⟨by omega, h.2.2⟩), if_neg h3, hUak]
    · rw [if_neg (fun h => hl h.1), if_neg hl,
        Mat.entry_set_ne _ n1 _ _ _ _ _ (Or.inr (Ne.symm hl)), n4, if_neg (fun h => hl h.1), a4]
  · rw [if_neg hsk]
    dsimp only
    obtain ⟨z1, z2, z3, z4⟩ := forUp_col U hWF 0 m k (fun _ _ => 0) (by omega) (by omega)
    generalize forUp 0 m (fun i U => U.set i k 0) U = Uz at z1 z2 z3 z4 ⊢
    refine ⟨z1.set_entry _ _ _, by rw [Mat.rows_set, z2, hr], by rw [Mat.cols_set, z3, hc],
      fun i l => ?_⟩
    rw [if_neg hsk, Mat.entry_set _ z1, z2, z3, hr, hc, z4]
    split_ifs <;> first | rfl | (exfalso; omega)

/-- One pass of the generation of `V` entry by entry.  When the row
transformation `k` was applied (`k < nrt` and `e(k) ≠ 0`) the columns `l > k`
get `V(i,l) − (Σ_r V(r,k)·V(r,l))/V(k+1,k) · V(i,k)` in the rows `k+1 .. n-1`;
column `k` becomes `e_k` in every case. -/
theorem genVStep_entries (n nrt : ℕ) (e : Vec R) (k : ℕ) (V : Mat R) (hWF : V.WF)
    (hr : V.rows = n) (hc : V.cols = n) (hk : k < n) :
    (genVStep n nrt e k V).WF ∧ (genVStep n nrt e k V).rows = n ∧
      (genVStep n nrt e k V).cols = n ∧
      ∀ i l, (genVStep n nrt e k V).get i l =
        if l = k ∧ i < n then (if i = k then 1 else 0)
        else if (k < nrt ∧ e.get k ≠ 0) ∧ k < l ∧ l < n ∧ k + 1 ≤ i ∧ i < n then
          V.get i l + (-(∑ r in Finset.Ico (k+1) n, V.get r k * V.get r l) / V.get (k+1) k) *
            V.get i k
        else V.get i l := by
  have hfin : ∀ W : Mat R, W.WF → W.rows = n → W.cols = n →
      ((forUp 0 n (fun i V => V.set i k 0) W).set k k 1).WF ∧
      ((forUp 0 n (fun i V => V.set i k 0) W).set k k 1).rows = n ∧
      ((forUp 0 n (fun i V => V.set i k 0) W).set k k 1).cols = n ∧
      ∀ i l, ((forUp 0 n (fun i V => V.set i k 0) W).set k k 1).get i l =
        if l = k ∧ i < n then (if i = k then 1 else 0) else W.get i l := by
    intro W w1 w2 w3
    obtain ⟨z1, z2, z3, z4⟩ := forUp_col W w1 0 n k (fun _ _ => 0) (by omega) (by omega)
    generalize forUp 0 n (fun i V => V.set i k 0) W = Vz at z1 z2 z3 z4 ⊢
    refine ⟨z1.set_entry _ _ _, by rw [Mat.rows_set, z2, w2], by rw [Mat.cols_set, z3, w3],
      fun i l => ?_⟩
    rw [Mat.entry_set _ z1, z2, z3, w2, w3, z4]
    split_ifs <;> first | rfl | (exfalso; omega)
  unfold genVStep
  dsimp only
  by_cases hc1 : k < nrt ∧ e.get k ≠ 0
  · rw [if_pos hc1]
    obtain ⟨a1, a2, a3, a4⟩ := genV_apply n k V hWF hr hc hk
    generalize forUp (k+1) n (fun j V =>
        forUp (k+1) n (fun i W => W.set i j (W.get i j +
          (-(forUp (k+1) n (fun i t => t + V.get i k * V.get i j) 0) / V.get (k+1) k) *
            W.get i k)) V) V = Va at a1 a2 a3 a4 ⊢
    obtain ⟨f1, f2, f3, f4⟩ := hfin Va a1 a2 a3
    refine ⟨f1, f2, f3, fun i l => ?_⟩
    rw [f4, a4]
    by_cases h : l = k ∧ i < n
    · rw [if_pos h, if_pos h]
    · rw [if_neg h, if_neg h]
      by_cases h2 : k < l ∧ l < n ∧ k + 1 ≤ i ∧ i < n
      · rw [if_pos h2, if_pos ⟨hc1, h2⟩]
      · rw [if_neg h2, if_neg (fun g => h2 g.2)]
  · rw [if_neg hc1]
    obtain ⟨f1, f2, f3, f4⟩ := hfin V hWF hr hc
    refine ⟨f1, f2, f3, fun i l => ?_⟩
    rw [f4]
    by_cases h : l = k ∧ i < n
    · rw [if_pos h, if_pos h]
    · rw [if_neg h, if_neg h, if_neg (fun g => hc1 g.1)]
/-! ### The divisors of the transformations -/

/-- A checked loop all of whose passes succeed returns the result of the
unchecked loop. -/
theorem forUp_bind_some {σ : Type} (P : ℕ → σ → Prop) (lo hi : ℕ) (f : ℕ → σ → σ)
    (g : ℕ → σ → Option σ) (st : σ) (hle : lo ≤ hi) (h0 : P lo st)
    (hstep : ∀ i s, lo ≤ i → i < hi → P i s → g i s = some (f i s) ∧ P (i+1) (f i s)) :
    forUp lo hi (fun i o => o.bind (fun s => g i s)) (some st) = some (forUp lo hi f st) ∧
      P hi (forUp lo hi f st) := by
  induction hi with
  | zero =>
    have : lo = 0 := by omega
    subst this
    simpa [forUp] using h0
  | succ n ih =>
    rcases Nat.eq_or_lt_of_le hle with h | h
    · subst h
      rw [forUp_eq_self _ _ _ _ (le_refl _), forUp_eq_self _ _ _ _ (le_refl _)]
      exact ⟨rfl, h0⟩
    · have hle2 : lo ≤ n := by omega
      obtain ⟨i1, i2⟩ := ih hle2 (fun i s h1 h2 => hstep i s h1 (by omega))
      obtain ⟨j1, j2⟩ := hstep n _ hle2 (by omega) i2
      rw [forUp_succ _ _ _ _ hle2, forUp_succ _ _ _ _ hle2, i1]
      exact ⟨j1, j2⟩

theorem forDown_bind_some {σ : Type} (P : ℕ → σ → Prop) (lo hi : ℕ) (f : ℕ → σ → σ)
    (g : ℕ → σ → Option σ) (st : σ) (hle : lo ≤ hi) (h0 : P hi st)
    (hstep : ∀ i s, lo ≤ i → i < hi → P (i+1) s → g i s = some (f i s) ∧ P i (f i s)) :
    forDown lo hi (fun i o => o.bind (fun s => g i s)) (some st) = some (forDown lo hi f st) ∧
      P lo (forDown lo hi f st) := by
  induction hi generalizing st with
  | zero =>
    have : lo = 0 := by omega
    subst this
    simpa [forDown] using h0
  | succ n ih =>
    rcases Nat.eq_or_lt_of_le hle with h | h
    · subst h
      rw [forDown_eq_self _ _ _ _ (le_refl _), forDown_eq_self _ _ _ _ (le_refl _)]
      exact ⟨rfl, h0⟩
    · have hle2 : lo ≤ n := by omega
      obtain ⟨j1, j2⟩ := hstep n st hle2 (by omega) h0
      rw [forDown_succ _ _ _ _ hle2, forDown_succ _ _ _ _ hle2]
      show forDown lo n (fun i o => o.bind (fun s => g i s)) ((some st).bind (fun s => g n s)) = _ ∧ _
      rw [Option.some_bind, j1]
      exact ih _ hle2 j2 (fun i s h1 h2 => hstep i s h1 (by omega))

/-- A number `x/σ + 1` with `x/σ ≥ 0` is at least one. -/
theorem one_le_shift (x σ : R) (h : 0 ≤ x / σ) : 1 ≤ x / σ + 1 := by linarith

/-- One checked pass of the bidiagonalisation loop succeeds, returns the state
of the unchecked pass and keeps the shape and the divisors. -/
theorem bidiagStep_checked (sqrt : R → R) (hs : IsSqrt sqrt) (m n : ℕ) (wantu wantv : Bool)
    (k : ℕ) (st : Bidiag R) (hsh : st.Shape m n) (hp : Pivots m n wantu wantv k st)
    (hk : k < max (min (m-1) n) (max 0 (min (n-2) m))) :
    bidiagStepChecked sqrt m n (min (m-1) n) (max 0 (min (n-2) m)) wantu wantv k st =
        some (bidiagStep sqrt m n (min (m-1) n) (max 0 (min (n-2) m)) wantu wantv k st) ∧
      (bidiagStep sqrt m n (min (m-1) n) (max 0 (min (n-2) m)) wantu wantv k st).Shape m n ∧
      Pivots m n wantu wantv (k+1)
        (bidiagStep sqrt m n (min (m-1) n) (max 0 (min (n-2) m)) wantu wantv k st) := by
  have hkm : k < m := by omega
  have hkn : k < n := by omega
  obtain ⟨σ, p1, p2, p3, p4, p5, p6, p7, p8, p9⟩ := colPart_spec sqrt hs m n wantu k st hsh hkm hkn
  -- the checked loop over j
  have hloop : forUp (k+1) n
      (fun j o => o.bind (fun st => applyColChecked m (min (m-1) n) k j st))
      (some (if k < min (m-1) n then colTransform sqrt m k st else st)) =
      some (forUp (k+1) n (fun j st => applyCol m (min (m-1) n) k j st)
        (if k < min (m-1) n then colTransform sqrt m k st else st)) := by
    obtain ⟨hWF, hrows, hcols, hsl, -⟩ := hsh
    have hc : ∃ c : Bidiag R, c = (if k < min (m-1) n then colTransform sqrt m k st else st) ∧
        c.A.WF ∧ c.A.rows = m ∧ c.A.cols = n ∧
        ((k < min (m-1) n ∧ c.s.get k ≠ 0) → 1 ≤ c.A.get k k) := by
      refine ⟨_, rfl, ?_⟩
      by_cases hk1 : k < min (m-1) n
      · rw [if_pos hk1]
        obtain ⟨τ, e1, e2, e3, e4, -⟩ := colTransform_entries sqrt hs m k st hWF hrows
          hkm (by rw [hcols]; exact hkn) (by rw [hsl]; omega)
        obtain ⟨c1, c2, c3, -⟩ := colTransform_house sqrt hs m k st hWF hrows hkm
          (by rw [hcols]; exact hkn) (by rw [hsl]; omega)
        refine ⟨c1, c2, c3.trans hcols, fun h => ?_⟩
        have hτ : τ ≠ 0 := by
          intro h0
          apply h.2
          rw [e3, h0, neg_zero]
        rw [e4, if_pos ⟨hτ, rfl, le_refl _, hkm⟩, if_pos rfl]
        exact one_le_shift _ _ (e2 hτ)
      · rw [if_neg hk1]
        exact ⟨hWF, hrows, hcols, fun h => absurd h.1 hk1⟩
    obtain ⟨c, hceq, c1, c2, c3, c4⟩ := hc
    rw [← hceq]
    exact (forUp_bind_some (fun _ (b : Bidiag R) => b.A.WF ∧ b.A.rows = m ∧ b.A.cols = n ∧
        b.s = c.s ∧ b.A.get k k = c.A.get k k) (k+1) n
      (fun j st => applyCol m (min (m-1) n) k j st)
      (fun j st => applyColChecked m (min (m-1) n) k j st) c (by omega)
      ⟨c1, c2, c3, rfl, rfl⟩
      (by
        intro j b hj1 hj2 ⟨h1, h2, h3, h4, h5⟩
        obtain ⟨g1, g2, g3, g4, g5, -⟩ := applyCol_frame m n (min (m-1) n) k j (by omega) hj2 b
          h1 h2 h3
        refine ⟨?_, g1, g2, g3, g5.trans h4, (g4 k).trans h5⟩
        unfold applyColChecked
        dsimp only
        rw [if_neg]
        rintro ⟨h6, h7⟩
        rw [h4] at h6
        rw [h5] at h7
        exact h7 (c4 h6))).1
  obtain ⟨hWF, hrows, hcols, hsl, hel, hwl, hUW, hUr, hUc, hVW, hVr, hVc⟩ := hsh
  have hchk : bidiagStepChecked sqrt m n (min (m-1) n) (max 0 (min (n-2) m)) wantu wantv k st =
      if k < max 0 (min (n-2) m) then
        (rowApplyChecked m n k (rowNorm sqrt n k (colPart sqrt m n (min (m-1) n) wantu k st))).map
          (fun st => rowStore n k wantv st)
      else some (colPart sqrt m n (min (m-1) n) wantu k st) := by
    unfold bidiagStepChecked
    dsimp only
    rw [hloop]
    rfl
  rw [hchk, bidiagStep_parts]
  have hpiv : (wantu = true ∧ k < min (m-1) n) →
      (colPart sqrt m n (min (m-1) n) wantu k st).s.get k ≠ 0 →
      1 ≤ (colPart sqrt m n (min (m-1) n) wantu k st).U.get k k := by
    intro hu hne
    rw [p4, if_pos ⟨rfl, hu.2⟩] at hne
    have hσ : σ ≠ 0 := fun h => hne (by rw [h, neg_zero])
    rw [p8, if_pos ⟨hu, rfl, le_refl _, hkm⟩, p5, if_pos ⟨hσ, le_refl _, hkm⟩, if_pos rfl]
    exact one_le_shift _ _ ((p1 hu.2).2 hσ)
  by_cases hk2 : k < max 0 (min (n-2) m)
  · rw [if_pos hk2, if_pos hk2]
    have hkn2 : k + 1 < n := by omega
    obtain ⟨τ, r1, r2, r3, r4, r5, r6, r7, r8⟩ := rowTransform_spec sqrt hs m n wantv k
      (colPart sqrt m n (min (m-1) n) wantu k st) p3 hkn2
    obtain ⟨-, -, -, -, q5, -⟩ := p3
    obtain ⟨τ2, n1, n2, n3, n4, -⟩ := rowNorm_entries sqrt hs n k
      (colPart sqrt m n (min (m-1) n) wantu k st) q5 hkn2
    have hrow : rowApplyChecked m n k
        (rowNorm sqrt n k (colPart sqrt m n (min (m-1) n) wantu k st)) =
        some (rowApply m n k (rowNorm sqrt n k (colPart sqrt m n (min (m-1) n) wantu k st))) := by
      unfold rowApplyChecked
      rw [if_neg]
      rintro ⟨h6, h7⟩
      apply h7
      have hτ : τ2 ≠ 0 := by
        intro h0
        apply h6.2
        rw [n4, if_pos rfl, h0, neg_zero]
      rw [n4, if_neg (by omega), if_pos ⟨hτ, by omega, hkn2⟩, if_pos rfl]
      exact one_le_shift _ _ (n2 hτ)
    rw [hrow, Option.map_some', rowTransform_parts]
    refine ⟨rfl, ?_, ?_, ?_⟩
    · rw [← rowTransform_parts]; exact r3
    · intro hu j hj hjn hne
      rw [← rowTransform_parts] at hne ⊢
      rw [r7] at hne
      rw [r8]
      by_cases hjk : j = k
      · subst hjk
        exact hpiv ⟨hu, hjn⟩ hne
      · rw [p4, if_neg (fun h => hjk h.1)] at hne
        rw [p8, if_neg (fun h => hjk h.2.1)]
        exact hp.1 hu j (by omega) hjn hne
    · intro hv j hj hjn hne
      rw [← rowTransform_parts] at hne ⊢
      by_cases hjk : j = k
      · subst hjk
        rw [r4, if_pos rfl] at hne
        have hτ : τ ≠ 0 := fun h => hne (by rw [h, neg_zero])
        rw [r6, if_pos ⟨hv, rfl, le_refl _, hkn2⟩, r4, if_neg (by omega),
          if_pos ⟨hτ, by omega, hkn2⟩, if_pos rfl]
        exact one_le_shift _ _ (r2 hτ)
      · rw [r4, if_neg hjk, if_neg (fun h => by omega), p7, if_neg (by omega)] at hne
        rw [r6, if_neg (fun h => hjk h.2.1), p9]
        exact hp.2 hv j (by omega) hjn hne
  · rw [if_neg hk2, if_neg hk2]
    refine ⟨rfl, p3, ?_, ?_⟩
    · intro hu j hj hjn hne
      by_cases hjk : j = k
      · subst hjk
        exact hpiv ⟨hu, hjn⟩ hne
      · rw [p4, if_neg (fun h => hjk h.1)] at hne
        rw [p8, if_neg (fun h => hjk h.2.1)]
        exact hp.1 hu j (by omega) hjn hne
    · intro hv j hj hjn hne
      have hjk : j < k := by omega
      rw [p7, if_neg (by omega)] at hne
      rw [p9]
      exact hp.2 hv j hjk hjn hne
/-- The final setup leaves the working copy, `U`, `V` and `work`, the lengths
of `m_s` and `e`, the entries `s(j)` for `j < nct` and `e(j)` for `j < nrt`. -/
theorem finalSetup_frame (m n : ℕ) (st : Bidiag R) :
    (finalSetup m n (min (m-1) n) (max 0 (min (n-2) m)) st).A = st.A ∧
      (finalSetup m n (min (m-1) n) (max 0 (min (n-2) m)) st).U = st.U ∧
      (finalSetup m n (min (m-1) n) (max 0 (min (n-2) m)) st).V = st.V ∧
      (finalSetup m n (min (m-1) n) (max 0 (min (n-2) m)) st).work = st.work ∧
      (finalSetup m n (min (m-1) n) (max 0 (min (n-2) m)) st).s.length = st.s.length ∧
      (finalSetup m n (min (m-1) n) (max 0 (min (n-2) m)) st).e.length = st.e.length ∧
      (∀ j, j < min (m-1) n →
        (finalSetup m n (min (m-1) n) (max 0 (min (n-2) m)) st).s.get j = st.s.get j) ∧
      (∀ j, j < max 0 (min (n-2) m) →
        (finalSetup m n (min (m-1) n) (max 0 (min (n-2) m)) st).e.get j = st.e.get j) := by
  unfold finalSetup
  dsimp only
  split_ifs <;> refine ⟨rfl, rfl, rfl, rfl, ?_, ?_, fun j hj => ?_, fun j hj => ?_⟩ <;>
    (try dsimp only) <;>
    (try simp only [Vec.get_set, Vec.length_set]) <;>
    first
      | rfl
      | (exfalso; omega)
      | (split_ifs <;> first | rfl | (exfalso; omega))

/-- The checked generation of `U` succeeds when the stored divisors are at
least one. -/
theorem generateU_checked (m nct : ℕ) (s : Vec R) (U : Mat R) (hnct : nct ≤ m) (hWF : U.WF)
    (hr : U.rows = m) (hc : U.cols = m)
    (hp : ∀ j, j < nct → s.get j ≠ 0 → 1 ≤ U.get j j) :
    generateUChecked m nct s U = some (generateU m nct s U) := by
  obtain ⟨i1, i2, i3, i4⟩ := genU_identity m nct U hWF hr hc
  unfold generateUChecked
  rw [generateU_steps]
  exact (forDown_bind_some (fun k (W : Mat R) => W.WF ∧ W.rows = m ∧ W.cols = m ∧
      ∀ j, j < k → s.get j ≠ 0 → 1 ≤ W.get j j) 0 nct (fun k U => genUStep m s k U)
    (fun k U => genUStepChecked m s k U) _ (Nat.zero_le _)
    ⟨i1, i2, i3, fun j hj hne => by rw [i4, if_neg (by omega)]; exact hp j hj hne⟩
    (by
      intro k W _ hk ⟨h1, h2, h3, h4⟩
      obtain ⟨g1, g2, g3, g4⟩ := genUStep_entries m s k W h1 h2 h3 (by omega)
      refine ⟨?_, g1, g2, g3, fun j hj hne => ?_⟩
      · show genUStepChecked m s k W = some (genUStep m s k W)
        unfold genUStepChecked
        rw [if_neg]
        rintro ⟨h6, h7⟩
        exact h7 (h4 k (by omega) h6)
      · rw [g4]
        have := h4 j (by omega) hne
        split_ifs <;> first | exact this | (exfalso; omega))).1

/-- The checked generation of `V` succeeds when the stored divisors are at
least one. -/
theorem generateV_checked (n nrt : ℕ) (e : Vec R) (V : Mat R) (hWF : V.WF)
    (hr : V.rows = n) (hc : V.cols = n)
    (hp : ∀ j, j < n → j < nrt → e.get j ≠ 0 → 1 ≤ V.get (j+1) j) :
    generateVChecked n nrt e V = some (generateV n nrt e V) := by
  unfold generateVChecked
  rw [generateV_steps]
  exact (forDown_bind_some (fun k (W : Mat R) => W.WF ∧ W.rows = n ∧ W.cols = n ∧
      ∀ j, j < k → j < nrt → e.get j ≠ 0 → 1 ≤ W.get (j+1) j) 0 n
    (fun k V => genVStep n nrt e k V)
    (fun k V => genVStepChecked n nrt e k V) _ (Nat.zero_le _)
    ⟨hWF, hr, hc, fun j hj hjn hne => hp j hj hjn hne⟩
    (by
      intro k W _ hk ⟨h1, h2, h3, h4⟩
      obtain ⟨g1, g2, g3, g4⟩ := genVStep_entries n nrt e k W h1 h2 h3 hk
      refine ⟨?_, g1, g2, g3, fun j hj hjn hne => ?_⟩
      · show genVStepChecked n nrt e k W = some (genVStep n nrt e k W)
        unfold genVStepChecked
        rw [if_neg]
        rintro ⟨h6, h7⟩
        exact h7 (h4 k (by omega) h6.1 h6.2)
      · rw [g4]
        have := h4 j (by omega) hjn hne
        split_ifs <;> first | exact this | (exfalso; omega))).1

/-- C28 (amended): the divisors of the transformations are at least one.  In
exact arithmetic, for every input and every choice of the flags, the lines
149–319 with a check `divisor ≥ 1` at each of the four divisions (by `A(k,k)` and
`e(k+1)` in the bidiagonalisation, by `U(k,k)` and `V(k+1,k)` in the
generation) pass every check and give the state of the unchecked code.  When
the norm stored in `s(k)`, resp. `e(k)`, is zero the pass makes no division
(it succeeds whatever the would-be divisor is), and the pass `k` of the
generation sets column `k` of `U`, resp. `V`, to the `k`-th identity column. -/
theorem divisors_ge_one (sqrt : R → R) (hs : IsSqrt sqrt) (A : Mat R) (hWF : A.WF)
    (wantu wantv : Bool) :
    SVD.initChecked sqrt A wantu wantv = some (SVD.init sqrt A wantu wantv) ∧
      (∀ (nct k j : ℕ) (st : Bidiag R), st.s.get k = 0 →
        applyColChecked A.rows nct k j st = some (applyCol A.rows nct k j st)) ∧
      (∀ (k : ℕ) (st : Bidiag R), st.e.get k = 0 →
        rowApplyChecked A.rows A.cols k st = some (rowApply A.rows A.cols k st)) ∧
      (∀ (s : Vec R) (U : Mat R) (k : ℕ), U.WF → U.rows = A.rows → U.cols = A.rows →
        k < A.rows → s.get k = 0 →
        genUStepChecked A.rows s k U = some (genUStep A.rows s k U) ∧
          ∀ i, i < A.rows → (genUStep A.rows s k U).get i k = if i = k then 1 else 0) ∧
      (∀ (nrt : ℕ) (e : Vec R) (V : Mat R) (k : ℕ), V.WF → V.rows = A.cols →
        V.cols = A.cols → k < A.cols →
        (e.get k = 0 → genVStepChecked A.cols nrt e k V = some (genVStep A.cols nrt e k V)) ∧
          ∀ i, i < A.cols → (genVStep A.cols nrt e k V).get i k = if i = k then 1 else 0) := by
  refine ⟨?_, fun nct k j st h => ?_, fun k st h => ?_, fun s U k h1 h2 h3 hk h => ⟨?_, ?_⟩,
    fun nrt e V k h1 h2 h3 hk => ⟨fun h => ?_, ?_⟩⟩
  · have h0 : (⟨A, Vec.zeros (min (A.rows+1) A.cols), Vec.zeros A.cols,
        Vec.zeros A.rows, Mat.zeros A.rows A.rows, Mat.zeros A.cols A.cols⟩ : Bidiag R).Shape
          A.rows A.cols ∧
        Pivots A.rows A.cols wantu wantv 0 ⟨A, Vec.zeros (min (A.rows+1) A.cols),
          Vec.zeros A.cols, Vec.zeros A.rows, Mat.zeros A.rows A.rows,
          Mat.zeros A.cols A.cols⟩ :=
      ⟨⟨hWF, rfl, rfl, Vec.length_zeros _, Vec.length_zeros _, Vec.length_zeros _,
        Mat.WF_zeros _ _, rfl, rfl, Mat.WF_zeros _ _, rfl, rfl⟩,
        fun _ j hj => absurd hj (Nat.not_lt_zero _),
        fun _ j hj => absurd hj (Nat.not_lt_zero _)⟩
    obtain ⟨l1, l2, l3⟩ := forUp_bind_some
      (fun k (st : Bidiag R) => st.Shape A.rows A.cols ∧ Pivots A.rows A.cols wantu wantv k st)
      0 (max (min (A.rows-1) A.cols) (max 0 (min (A.cols-2) A.rows)))
      (fun k st => bidiagStep sqrt A.rows A.cols (min (A.rows-1) A.cols)
        (max 0 (min (A.cols-2) A.rows)) wantu wantv k st)
      (fun k st => bidiagStepChecked sqrt A.rows A.cols (min (A.rows-1) A.cols)
        (max 0 (min (A.cols-2) A.rows)) wantu wantv k st) _ (Nat.zero_le _) h0
      (fun k st _ hk h => bidiagStep_checked sqrt hs _ _ wantu wantv k st h.1 h.2 hk)
    unfold SVD.initChecked SVD.init
    dsimp only
    rw [l1, Option.some_bind]
    generalize forUp 0 (max (min (A.rows-1) A.cols) (max 0 (min (A.cols-2) A.rows)))
      (fun k st => bidiagStep sqrt A.rows A.cols (min (A.rows-1) A.cols)
        (max 0 (min (A.cols-2) A.rows)) wantu wantv k st)
      ⟨A, Vec.zeros (min (A.rows+1) A.cols), Vec.zeros A.cols,
        Vec.zeros A.rows, Mat.zeros A.rows A.rows, Mat.zeros A.cols A.cols⟩ = b at l2 l3 ⊢
    obtain ⟨hAW, hAr, hAc, hsl, hel, hwl, hUW, hUr, hUc, hVW, hVr, hVc⟩ := l2
    obtain ⟨f1, f2, f3, f4, f5, f6, f7, f8⟩ := finalSetup_frame A.rows A.cols b
    generalize finalSetup A.rows A.cols (min (A.rows-1) A.cols)
      (max 0 (min (A.cols-2) A.rows)) b = f at f1 f2 f3 f4 f5 f6 f7 f8 ⊢
    have hU : wantu = true → generateUChecked A.rows (min (A.rows-1) A.cols) f.s f.U =
        some (generateU A.rows (min (A.rows-1) A.cols) f.s f.U) := fun hu =>
      generateU_checked _ _ _ _ (by omega) (by rw [f2]; exact hUW) (by rw [f2]; exact hUr)
        (by rw [f2]; exact hUc) (fun j hj hne => by
          rw [f7 j hj] at hne
          rw [f2]
          exact l3.1 hu j (by omega) hj hne)
    have hV : wantv = true →
        generateVChecked A.cols (max 0 (min (A.cols-2) A.rows)) f.e f.V =
        some (generateV A.cols (max 0 (min (A.cols-2) A.rows)) f.e f.V) := fun hv =>
      generateV_checked _ _ _ _ (by rw [f3]; exact hVW) (by rw [f3]; exact hVr)
        (by rw [f3]; exact hVc) (fun j _ hj hne => by
          rw [f8 j hj] at hne
          rw [f3]
          exact l3.2 hv j (by omega) hj hne)
    clear l1 l3 h0
    cases wantu <;> cases wantv <;>
      simp only [Bool.false_eq_true, if_false, if_true, Option.some_bind, Option.map_some',
        hU, hV, eq_self_iff_true, forall_true_left]
  · unfold applyColChecked
    rw [if_neg (fun g => g.1.2 h)]
  · unfold rowApplyChecked
    rw [if_neg (fun g => g.1.2 h)]
  · unfold genUStepChecked
    rw [if_neg (fun g => g.1 h)]
  · intro i hi
    obtain ⟨-, -, -, g4⟩ := genUStep_entries A.rows s k U h1 h2 h3 hk
    rw [g4, if_neg (fun g => g h), if_pos ⟨rfl, hi⟩]
  · unfold genVStepChecked
    rw [if_neg (fun g => g.1.2 h)]
  · intro i hi
    obtain ⟨-, -, -, g4⟩ := genVStep_entries A.cols nrt e k V h1 h2 h3 hk
    rw [g4, if_pos ⟨rfl, hi⟩]

/-- Witness for `divisors_ge_one`: over the reals with `Real.sqrt`, the 2×2
matrix with the rows `(3, 1)` and `(4, 2)`, both factors requested. -/
theorem divisors_ge_one_witness :
    IsSqrt Real.sqrt ∧ (st22 ℝ).A.WF ∧
      (SVD.initChecked Real.sqrt (st22 ℝ).A true true =
          some (SVD.init Real.sqrt (st22 ℝ).A true true) ∧
        (∀ (nct k j : ℕ) (st : Bidiag ℝ), st.s.get k = 0 →
          applyColChecked (st22 ℝ).A.rows nct k j st =
            some (applyCol (st22 ℝ).A.rows nct k j st)) ∧
        (∀ (k : ℕ) (st : Bidiag ℝ), st.e.get k = 0 →
          rowApplyChecked (st22 ℝ).A.rows (st22 ℝ).A.cols k st =
            some (rowApply (st22 ℝ).A.rows (st22 ℝ).A.cols k st)) ∧
        (∀ (s : Vec ℝ) (U : Mat ℝ) (k : ℕ), U.WF → U.rows = (st22 ℝ).A.rows →
          U.cols = (st22 ℝ).A.rows → k < (st22 ℝ).A.rows → s.get k = 0 →
          genUStepChecked (st22 ℝ).A.rows s k U = some (genUStep (st22 ℝ).A.rows s k U) ∧
            ∀ i, i < (st22 ℝ).A.rows →
              (genUStep (st22 ℝ).A.rows s k U).get i k = if i = k then 1 else 0) ∧
        (∀ (nrt : ℕ) (e : Vec ℝ) (V : Mat ℝ) (k : ℕ), V.WF → V.rows = (st22 ℝ).A.cols →
          V.cols = (st22 ℝ).A.cols → k < (st22 ℝ).A.cols →
          (e.get k = 0 → genVStepChecked (st22 ℝ).A.cols nrt e k V =
              some (genVStep (st22 ℝ).A.cols nrt e k V)) ∧
            ∀ i, i < (st22 ℝ).A.cols →
              (genVStep (st22 ℝ).A.cols nrt e k V).get i k = if i = k then 1 else 0)) :=
  ⟨fun x hx => ⟨Real.sqrt_nonneg x, Real.mul_self_sqrt hx⟩,
    by simp [Mat.WF, Mat.ofRows, st22],
    divisors_ge_one Real.sqrt (fun x hx => ⟨Real.sqrt_nonneg x, Real.mul_self_sqrt hx⟩)
      (st22 ℝ).A (by simp [Mat.WF, Mat.ofRows, st22]) true true⟩

/-! ### Products of reflections -/

theorem reflL_zero (m : ℕ) (v : ℕ → R) (β : R) (X : ℕ → ℕ → R) (hv : ∀ i, v i = 0) :
    reflL m v β X = X := by
  funext i j
  unfold reflL
  rw [hv i, mul_zero, sub_zero]

theorem reflR_zero (n : ℕ) (w : ℕ → R) (γ : R) (X : ℕ → ℕ → R) (hw : ∀ i, w i = 0) :
    reflR n w γ X = X := by
  funext i j
  unfold reflR
  rw [hw j, mul_zero, sub_zero]

/-- A reflection is its own inverse. -/
theorem reflL_invol (m : ℕ) (r : (ℕ → R) × R) (h : IsRefl m r) (X : ℕ → ℕ → R) :
    reflL m r.1 r.2 (reflL m r.1 r.2 X) = X := by
  rcases h with h | ⟨hβ, hvv⟩
  · rw [reflL_zero m _ _ _ h, reflL_zero m _ _ _ h]
  · funext i j
    unfold reflL
    have : ∑ t in Finset.range m, r.1 t *
        (X t j - (∑ r2 in Finset.range m, r.1 r2 * X r2 j) / r.2 * r.1 t) =
        ∑ t in Finset.range m, r.1 t * X t j -
          (∑ r2 in Finset.range m, r.1 r2 * X r2 j) / r.2 *
            ∑ t in Finset.range m, r.1 t * r.1 t := by
      rw [Finset.mul_sum, ← Finset.sum_sub_distrib]
      apply Finset.sum_congr rfl
      intro t _
      ring
    rw [this, hvv]
    field_simp
    ring

theorem reflR_invol (n : ℕ) (r : (ℕ → R) × R) (h : IsRefl n r) (X : ℕ → ℕ → R) :
    reflR n r.1 r.2 (reflR n r.1 r.2 X) = X := by
  rcases h with h | ⟨hβ, hvv⟩
  · rw [reflR_zero n _ _ _ h, reflR_zero n _ _ _ h]
  · funext i j
    unfold reflR
    have : ∑ t in Finset.range n,
        (X i t - (∑ c in Finset.range n, X i c * r.1 c) / r.2 * r.1 t) * r.1 t =
        ∑ t in Finset.range n, X i t * r.1 t -
          (∑ c in Finset.range n, X i c * r.1 c) / r.2 *
            ∑ t in Finset.range n, r.1 t * r.1 t := by
      rw [Finset.mul_sum, ← Finset.sum_sub_distrib]
      apply Finset.sum_congr rfl
      intro t _
      ring
    rw [this, hvv]
    field_simp
    ring

/-- A reflection from the left and one from the right commute. -/
theorem reflL_reflR (m n : ℕ) (v w : ℕ → R) (β γ : R) (X : ℕ → ℕ → R) :
    reflL m v β (reflR n w γ X) = reflR n w γ (reflL m v β X) := by
  funext i j
  unfold reflL reflR
  have h1 : ∑ r in Finset.range m, v r *
      (X r j - (∑ c in Finset.range n, X r c * w c) / γ * w j) =
      ∑ r in Finset.range m, v r * X r j -
        (∑ r in Finset.range m, ∑ c in Finset.range n, v r * X r c * w c) / γ * w j := by
    rw [Finset.sum_div, Finset.sum_mul, ← Finset.sum_sub_distrib]
    apply Finset.sum_congr rfl
    intro r _
    have : ∑ c in Finset.range n, v r * X r c * w c =
        v r * ∑ c in Finset.range n, X r c * w c := by
      rw [Finset.mul_sum]
      apply Finset.sum_congr rfl
      intro c _
      ring
    rw [this]
    ring
  have h2 : ∑ c in Finset.range n,
      (X i c - (∑ r in Finset.range m, v r * X r c) / β * v i) * w c =
      ∑ c in Finset.range n, X i c * w c -
        (∑ r in Finset.range m, ∑ c in Finset.range n, v r * X r c * w c) / β * v i := by
    rw [Finset.sum_comm, Finset.sum_div, Finset.sum_mul, ← Finset.sum_sub_distrib]
    apply Finset.sum_congr rfl
    intro c _
    have : ∑ r in Finset.range m, v r * X r c * w c =
        (∑ r in Finset.range m, v r * X r c) * w c := by
      rw [Finset.sum_mul]
    rw [this]
    ring
  rw [h1, h2]
  ring

theorem eqOn_symm {m n : ℕ} {X Y : ℕ → ℕ → R} (h : EqOn m n X Y) : EqOn m n Y X :=
  fun i j hi hj => (h i j hi hj).symm

theorem eqOn_trans {m n : ℕ} {X Y Z : ℕ → ℕ → R} (h1 : EqOn m n X Y) (h2 : EqOn m n Y Z) :
    EqOn m n X Z :=
  fun i j hi hj => (h1 i j hi hj).trans (h2 i j hi hj)

theorem reflL_congr (m n : ℕ) (v : ℕ → R) (β : R) (X Y : ℕ → ℕ → R) (h : EqOn m n X Y) :
    EqOn m n (reflL m v β X) (reflL m v β Y) := by
  intro i j hi hj
  unfold reflL
  rw [h i j hi hj, Finset.sum_congr rfl (fun r hr => by
    rw [h r j (Finset.mem_range.mp hr) hj])]

theorem reflR_congr (m n : ℕ) (w : ℕ → R) (γ : R) (X Y : ℕ → ℕ → R) (h : EqOn m n X Y) :
    EqOn m n (reflR n w γ X) (reflR n w γ Y) := by
  intro i j hi hj
  unfold reflR
  rw [h i j hi hj, Finset.sum_congr rfl (fun c hc => by
    rw [h i c hi (Finset.mem_range.mp hc)])]

theorem applyL_congr (m n : ℕ) (rs : List ((ℕ → R) × R)) (X Y : ℕ → ℕ → R)
    (h : EqOn m n X Y) : EqOn m n (applyL m rs X) (applyL m rs Y) := by
  induction rs with
  | nil => exact h
  | cons r rs ih => exact reflL_congr m n _ _ _ _ ih

theorem applyR_congr (m n : ℕ) (rs : List ((ℕ → R) × R)) (X Y : ℕ → ℕ → R)
    (h : EqOn m n X Y) : EqOn m n (applyR n rs X) (applyR n rs Y) := by
  induction rs with
  | nil => exact h
  | cons r rs ih => exact reflR_congr m n _ _ _ _ ih

theorem applyL_append (m : ℕ) (l1 l2 : List ((ℕ → R) × R)) (X : ℕ → ℕ → R) :
    applyL m (l1 ++ l2) X = applyL m l1 (applyL m l2 X) := by
  induction l1 with
  | nil => rfl
  | cons r rs ih =>
    show reflL m r.1 r.2 (applyL m (rs ++ l2) X) = reflL m r.1 r.2 (applyL m rs (applyL m l2 X))
    rw [ih]

theorem applyR_append (n : ℕ) (l1 l2 : List ((ℕ → R) × R)) (X : ℕ → ℕ → R) :
    applyR n (l1 ++ l2) X = applyR n l1 (applyR n l2 X) := by
  induction l1 with
  | nil => rfl
  | cons r rs ih =>
    show reflR n r.1 r.2 (applyR n (rs ++ l2) X) = reflR n r.1 r.2 (applyR n rs (applyR n l2 X))
    rw [ih]

/-- A reflection from the left commutes with a product of reflections from
the right. -/
theorem reflL_applyR (m n : ℕ) (v : ℕ → R) (β : R) (rs : List ((ℕ → R) × R))
    (X : ℕ → ℕ → R) :
    applyR n rs (reflL m v β X) = reflL m v β (applyR n rs X) := by
  induction rs with
  | nil => rfl
  | cons r rs ih =>
    show reflR n r.1 r.2 (applyR n rs (reflL m v β X)) =
      reflL m v β (reflR n r.1 r.2 (applyR n rs X))
    rw [ih, reflL_reflR]

/-- A product of reflections whose vectors are zero is the identity. -/
theorem applyL_zero (m : ℕ) (rs : List ((ℕ → R) × R)) (X : ℕ → ℕ → R)
    (h : ∀ r ∈ rs, ∀ i, r.1 i = 0) : applyL m rs X = X := by
  induction rs with
  | nil => rfl
  | cons r rs ih =>
    show reflL m r.1 r.2 (applyL m rs X) = X
    rw [ih (fun r2 hr2 => h r2 (List.mem_cons_of_mem _ hr2)),
      reflL_zero m _ _ _ (h r (List.mem_cons_self _ _))]

theorem applyR_zero (n : ℕ) (rs : List ((ℕ → R) × R)) (X : ℕ → ℕ → R)
    (h : ∀ r ∈ rs, ∀ i, r.1 i = 0) : applyR n rs X = X := by
  induction rs with
  | nil => rfl
  | cons r rs ih =>
    show reflR n r.1 r.2 (applyR n rs X) = X
    rw [ih (fun r2 hr2 => h r2 (List.mem_cons_of_mem _ hr2)),
      reflR_zero n _ _ _ (h r (List.mem_cons_self _ _))]

/-- A product of reflections whose vectors vanish at the index `k` leaves the
`k`-th column of the identity matrix. -/
theorem applyL_unit_col (m : ℕ) (rs : List ((ℕ → R) × R)) (k : ℕ)
    (h : ∀ r ∈ rs, r.1 k = 0) (i : ℕ) : applyL m rs idMat i k = idMat i k := by
  induction rs generalizing i with
  | nil => rfl
  | cons r rs ih =>
    show reflL m r.1 r.2 (applyL m rs idMat) i k = _
    unfold reflL
    have hsum : ∑ t in Finset.range m, r.1 t * applyL m rs idMat t k = 0 := by
      apply Finset.sum_eq_zero
      intro t _
      rw [ih (fun r2 hr2 => h r2 (List.mem_cons_of_mem _ hr2)) t]
      unfold idMat
      by_cases htk : t = k
      · rw [htk, h r (List.mem_cons_self _ _), zero_mul]
      · rw [if_neg htk, mul_zero]
    rw [hsum, zero_div, zero_mul, sub_zero,
      ih (fun r2 hr2 => h r2 (List.mem_cons_of_mem _ hr2)) i]

/-- Multiplying the product of reflections `H_0 ⋯ H_{q-1}` with a matrix `Z`
applies them to `Z`. -/
theorem mulL_apply (m : ℕ) (rs : List ((ℕ → R) × R)) (Z : ℕ → ℕ → R) (i j : ℕ) (hi : i < m) :
    ∑ a in Finset.range m, applyL m rs idMat i a * Z a j = applyL m rs Z i j := by
  induction rs generalizing i with
  | nil =>
    show ∑ a in Finset.range m, idMat i a * Z a j = Z i j
    unfold idMat
    simp only [ite_mul, one_mul, zero_mul]
    rw [Finset.sum_ite_eq (Finset.range m) i (fun a => Z a j),
      if_pos (Finset.mem_range.mpr hi)]
  | cons r rs ih =>
    show ∑ a in Finset.range m, reflL m r.1 r.2 (applyL m rs idMat) i a * Z a j =
      reflL m r.1 r.2 (applyL m rs Z) i j
    unfold reflL
    have h1 : ∑ a in Finset.range m,
        (applyL m rs idMat i a -
          (∑ t in Finset.range m, r.1 t * applyL m rs idMat t a) / r.2 * r.1 i) * Z a j =
        ∑ a in Finset.range m, applyL m rs idMat i a * Z a j -
          (∑ t in Finset.range m, r.1 t *
            ∑ a in Finset.range m, applyL m rs idMat t a * Z a j) / r.2 * r.1 i := by
      have : ∑ t in Finset.range m, r.1 t *
          ∑ a in Finset.range m, applyL m rs idMat t a * Z a j =
          ∑ a in Finset.range m,
            (∑ t in Finset.range m, r.1 t * applyL m rs idMat t a) * Z a j := by
        rw [Finset.sum_congr rfl (fun t _ => Finset.mul_sum _ _ _), Finset.sum_comm]
        apply Finset.sum_congr rfl
        intro a _
        rw [Finset.sum_mul]
        apply Finset.sum_congr rfl
        intro t _
        ring
      rw [this, Finset.sum_div, Finset.sum_mul, ← Finset.sum_sub_distrib]
      apply Finset.sum_congr rfl
      intro a _
      ring
    rw [h1, ih i hi, Finset.sum_congr rfl (fun t ht => by
      rw [ih t (Finset.mem_range.mp ht)])]

/-- Multiplying a matrix `Y` with the transpose of the product of reflections
`G_0 ⋯ G_{q-1}` applies them to `Y` from the right. -/
theorem mulR_apply (n : ℕ) (rs : List ((ℕ → R) × R)) (Y : ℕ → ℕ → R) (i j : ℕ) (hj : j < n) :
    ∑ b in Finset.range n, Y i b * applyL n rs idMat j b = applyR n rs Y i j := by
  induction rs generalizing j with
  | nil =>
    show ∑ b in Finset.range n, Y i b * idMat j b = Y i j
    unfold idMat
    simp only [mul_ite, mul_one, mul_zero]
    rw [Finset.sum_ite_eq (Finset.range n) j (fun b => Y i b),
      if_pos (Finset.mem_range.mpr hj)]
  | cons r rs ih =>
    show ∑ b in Finset.range n, Y i b * reflL n r.1 r.2 (applyL n rs idMat) j b =
      reflR n r.1 r.2 (applyR n rs Y) i j
    unfold reflL reflR
    have h1 : ∑ b in Finset.range n, Y i b *
        (applyL n rs idMat j b -
          (∑ t in Finset.range n, r.1 t * applyL n rs idMat t b) / r.2 * r.1 j) =
        ∑ b in Finset.range n, Y i b * applyL n rs idMat j b -
          (∑ t in Finset.range n,
            (∑ b in Finset.range n, Y i b * applyL n rs idMat t b) * r.1 t) / r.2 * r.1 j := by
      have : ∑ t in Finset.range n,
          (∑ b in Finset.range n, Y i b * applyL n rs idMat t b) * r.1 t =
          ∑ b in Finset.range n,
            Y i b * ∑ t in Finset.range n, r.1 t * applyL n rs idMat t b := by
        rw [Finset.sum_congr rfl (fun t _ => Finset.sum_mul _ _ _), Finset.sum_comm]
        apply Finset.sum_congr rfl
        intro b _
        rw [Finset.mul_sum]
        apply Finset.sum_congr rfl
        intro t _
        ring
      rw [this, Finset.sum_div, Finset.sum_mul, ← Finset.sum_sub_distrib]
      apply Finset.sum_congr rfl
      intro b _
      ring
    rw [h1, ih j hj, Finset.sum_congr rfl (fun t ht => by
      rw [ih t (Finset.mem_range.mp ht)])]
/-! ### The bidiagonalisation as a product of reflections -/

/-- A sum of squares that is zero has zero terms. -/
theorem sq_sum_zero (f : ℕ → R) (S : Finset ℕ) (h : ∑ i in S, f i * f i = 0) (i : ℕ)
    (hi : i ∈ S) : f i = 0 := by
  have := (Finset.sum_eq_zero_iff_of_nonneg (fun i _ => mul_self_nonneg (f i))).mp h i hi
  exact mul_self_eq_zero.mp this

/-- The reflection vector `v = f/σ + e_k` of `f` of signed norm `σ` maps `f`
to `-σ·e_k`, in the form the code computes it. -/
theorem house_image (f v : ℕ → R) (k m : ℕ) (hk : k < m) (σ : R) (hσ : σ ≠ 0)
    (hσ2 : σ * σ = ∑ i in Finset.Ico k m, f i * f i)
    (hv : ∀ i, k ≤ i → i < m → v i = f i / σ + if i = k then 1 else 0)
    (hvk : v k ≠ 0) (i : ℕ) (hi1 : k ≤ i) (hi2 : i < m) :
    f i - (∑ r in Finset.Ico k m, v r * f r) / v k * v i = if i = k then -σ else 0 := by
  have hva : ∑ r in Finset.Ico k m, v r * f r = σ * v k := by
    have h1 : ∀ r ∈ Finset.Ico k m, v r * f r =
        f r * f r * (1 / σ) + (if r = k then f r else 0) := by
      intro r hr
      have hr2 := Finset.mem_Ico.mp hr
      rw [hv r hr2.1 hr2.2]
      by_cases h : r = k
      · rw [if_pos h, if_pos h]; field_simp; ring
      · rw [if_neg h, if_neg h]; field_simp
    rw [Finset.sum_congr rfl h1, Finset.sum_add_distrib, ← Finset.sum_mul, ← hσ2,
      Finset.sum_ite_eq' (Finset.Ico k m) k f, if_pos (Finset.mem_Ico.mpr ⟨le_refl _, hk⟩),
      hv k (le_refl _) hk, if_pos rfl]
    field_simp
    ring
  rw [hva, hv i hi1 hi2]
  by_cases h : i = k
  · rw [if_pos h, if_pos h]
    field_simp
  · rw [if_neg h, if_neg h]
    field_simp

/-- A reflection from the left whose vector vanishes above row `k`. -/
theorem reflL_support (m k : ℕ) (hk : k ≤ m) (v : ℕ → R) (β : R) (X : ℕ → ℕ → R)
    (hv : ∀ r, r < k → v r = 0) (i j : ℕ) :
    reflL m v β X i j = X i j - (∑ r in Finset.Ico k m, v r * X r j) / β * v i := by
  unfold reflL
  rw [sum_range_eq_Ico (fun r => v r * X r j) k m hk (fun r hr => by
    show v r * X r j = 0
    rw [hv r hr, zero_mul])]

/-- A reflection from the right whose vector vanishes left of column `k`. -/
theorem reflR_support (n k : ℕ) (hk : k ≤ n) (w : ℕ → R) (γ : R) (X : ℕ → ℕ → R)
    (hw : ∀ c, c < k → w c = 0) (i j : ℕ) :
    reflR n w γ X i j = X i j - (∑ c in Finset.Ico k n, X i c * w c) / γ * w j := by
  unfold reflR
  rw [sum_range_eq_Ico (fun c => X i c * w c) k n hk (fun c hc => by
    show X i c * w c = 0
    rw [hw c hc, mul_zero])]
/-- The column part of the pass `k` is the multiplication from the left with
the reflection stored in column `k` of `U`: it reduces column `k`. -/
theorem colPart_T (sqrt : R → R) (hs : IsSqrt sqrt) (m n nrt k : ℕ) (st : Bidiag R)
    (hsh : st.Shape m n) (hkm : k < m) (hkn : k < n) (hUz : ∀ i, i < k → st.U.get i k = 0) :
    EqOn m n
      (reflL m (hop (min (m-1) n) (colPart sqrt m n (min (m-1) n) true k st) k).1
        (hop (min (m-1) n) (colPart sqrt m n (min (m-1) n) true k st) k).2
        (Tm (min (m-1) n) nrt st k k))
      (Tm (min (m-1) n) nrt (colPart sqrt m n (min (m-1) n) true k st) k (k+1)) := by
  obtain ⟨σ, p1, p2, p3, p4, p5, p6, p7, p8, p9⟩ := colPart_spec sqrt hs m n true k st hsh hkm hkn
  generalize colPart sqrt m n (min (m-1) n) true k st = c at p3 p4 p5 p6 p7 p8 p9 ⊢
  have fs : ∀ i, i ≠ k → c.s.get i = st.s.get i := fun i hi => by
    rw [p4, if_neg (fun h => hi h.1)]
  have fe : ∀ i, i ≤ k → c.e.get i = st.e.get i := fun i hi => by rw [p7, if_neg (by omega)]
  have fA : ∀ i j, i < k → c.A.get i j = st.A.get i j := by
    intro i j hi
    by_cases hj : j = k
    · rw [hj, p5, if_neg (by omega)]
    · rw [p6 i j hj, if_neg (by omega)]
  have fAc : ∀ i j, j < k → c.A.get i j = st.A.get i j := by
    intro i j hj
    rw [p6 i j (by omega), if_neg (by omega)]
  intro i j hi hj
  by_cases hσ : σ = 0
  · -- no reflection
    have hop0 : hop (min (m-1) n) c k = (fun _ => 0, 1) := by
      unfold hop
      rw [if_neg]
      rintro ⟨h1, h2⟩
      apply h2
      rw [p4, if_pos ⟨rfl, h1⟩, hσ, neg_zero]
    rw [hop0, reflL_zero m _ _ _ (fun _ => rfl)]
    have fA0 : ∀ i j, c.A.get i j = st.A.get i j := by
      intro i j
      by_cases hj : j = k
      · rw [hj, p5, if_neg (fun h => h.1 hσ)]
      · rw [p6 i j hj, if_neg (fun h => h.1 hσ)]
    have hcol0 : k < min (m-1) n → ∀ r, k ≤ r → r < m → st.A.get r k = 0 := by
      intro hk r hr1 hr2
      have := (p1 hk).1
      rw [hσ, mul_zero] at this
      exact sq_sum_zero (fun i => st.A.get i k) _ this.symm r (Finset.mem_Ico.mpr ⟨hr1, hr2⟩)
    have hsk : k < min (m-1) n → c.s.get k = 0 := fun hk => by
      rw [p4, if_pos ⟨rfl, hk⟩, hσ, neg_zero]
    unfold Tm
    simp only [fA0]
    by_cases hik : i < k
    · rw [if_pos (Or.inl hik), if_pos (Or.inl hik), fs i (by omega)]
      by_cases hj1 : j = i + 1
      · rw [hj1, fe i (by omega)]
      · rw [if_neg hj1, if_neg hj1]
    · by_cases hjk : j < k
      · rw [if_pos (Or.inr hjk), if_pos (Or.inr (by omega)), if_neg (by omega),
          if_neg (by omega), if_neg (by omega), if_neg (by omega)]
      · rw [if_neg (by omega)]
        by_cases hj2 : j = k
        · subst hj2
          rw [if_pos (Or.inr (by omega))]
          by_cases hij : i = j
          · subst hij
            rw [if_pos rfl]
            by_cases hk : i < min (m-1) n
            · rw [if_pos hk, hsk hk, hcol0 hk i (le_refl _) hi]
            · rw [if_neg hk]
          · rw [if_neg (fun h => hij h.symm), if_neg (by omega)]
            have hk : j < min (m-1) n := by omega
            exact hcol0 hk i (by omega) hi
        · rw [if_neg (by omega)]
  · -- the reflection with the vector in column k
    have hk : k < min (m-1) n := by
      by_contra h
      exact hσ (p2 h)
    have hsne : c.s.get k ≠ 0 := by
      rw [p4, if_pos ⟨rfl, hk⟩]
      exact neg_ne_zero.mpr hσ
    have hopk : hop (min (m-1) n) c k = (fun i => c.U.get i k, c.U.get k k) := by
      unfold hop
      rw [if_pos ⟨hk, hsne⟩]
    rw [hopk]
    have hv0 : ∀ r, r < k → c.U.get r k = 0 := fun r hr => by
      rw [p8, if_neg (by omega)]
      exact hUz r hr
    have hvU : ∀ r, k ≤ r → r < m → c.U.get r k = c.A.get r k := fun r h1 h2 => by
      rw [p8, if_pos ⟨⟨rfl, hk⟩, rfl, h1, h2⟩]
    have hvA : ∀ r, k ≤ r → r < m →
        c.A.get r k = st.A.get r k / σ + if r = k then 1 else 0 := fun r h1 h2 => by
      rw [p5, if_pos ⟨hσ, h1, h2⟩]
    have hvk : c.A.get k k ≠ 0 := by
      rw [hvA k (le_refl _) hkm, if_pos rfl]
      have := (p1 hk).2 hσ
      linarith
    have hXr : ∀ r, k ≤ r → Tm (min (m-1) n) nrt st k k r j =
        if j < k then 0 else st.A.get r j := by
      intro r hr
      unfold Tm
      split_ifs <;> first | rfl | (exfalso; omega)
    rw [reflL_support m k (le_of_lt hkm) _ _ _ hv0]
    have hsum : ∑ r in Finset.Ico k m, c.U.get r k * Tm (min (m-1) n) nrt st k k r j =
        if j < k then 0 else ∑ r in Finset.Ico k m, c.A.get r k * st.A.get r j := by
      by_cases hjk : j < k
      · rw [if_pos hjk]
        apply Finset.sum_eq_zero
        intro r hr
        have hr2 := Finset.mem_Ico.mp hr
        rw [hXr r hr2.1, if_pos hjk, mul_zero]
      · rw [if_neg hjk]
        apply Finset.sum_congr rfl
        intro r hr
        have hr2 := Finset.mem_Ico.mp hr
        rw [hXr r hr2.1, if_neg hjk, hvU r hr2.1 hr2.2]
    show Tm (min (m-1) n) nrt st k k i j -
      (∑ r in Finset.Ico k m, c.U.get r k * Tm (min (m-1) n) nrt st k k r j) / c.U.get k k *
        c.U.get i k = _
    rw [hsum]
    by_cases hik : i < k
    · rw [hv0 i hik, mul_zero, sub_zero]
      unfold Tm
      rw [if_pos (Or.inl hik), if_pos (Or.inl hik), fs i (by omega), fA i i hik,
        fA i j hik]
      by_cases hj1 : j = i + 1
      · rw [hj1, fe i (by omega)]
      · rw [if_neg hj1, if_neg hj1]
    · by_cases hjk : j < k
      · rw [if_pos hjk, zero_div, zero_mul, sub_zero]
        unfold Tm
        rw [if_pos (Or.inr hjk), if_pos (Or.inr (by omega)), if_neg (by omega),
          if_neg (by omega), if_neg (by omega), if_neg (by omega)]
      · rw [if_neg hjk, hXr i (by omega), if_neg hjk, hvU k (le_refl _) hkm,
          hvU i (by omega) hi]
        by_cases hj2 : j = k
        · subst hj2
          have himg := house_image (fun r => st.A.get r j) (fun r => c.A.get r j) j m hkm σ hσ
            (p1 hk).1 hvA hvk i (by omega) hi
          rw [himg]
          unfold Tm
          rw [if_pos (Or.inr (by omega))]
          by_cases hij : i = j
          · subst hij
            rw [if_pos rfl, if_pos rfl, if_pos hk, p4, if_pos ⟨rfl, hk⟩]
          · rw [if_neg hij, if_neg (fun h => hij h.symm), if_neg (by omega)]
        · unfold Tm
          rw [if_neg (by omega), p6 i j hj2, if_pos ⟨hσ, by omega, hj, by omega, hi⟩]
          ring
/-- The row transformation of the pass `k` is the multiplication from the
right with the reflection stored in column `k` of `V`: it reduces row `k`. -/
theorem rowPart_T (sqrt : R → R) (hs : IsSqrt sqrt) (m n nct k : ℕ) (c : Bidiag R)
    (hsh : c.Shape m n) (hkm : k < m) (hkn : k < n) (hVz : ∀ i, i ≤ k → c.V.get i k = 0)
    (hce : ∀ j, k < j → j < n → c.e.get j = c.A.get k j) :
    EqOn m n
      (reflR n
        (gop (max 0 (min (n-2) m))
          (if k < max 0 (min (n-2) m) then rowTransform sqrt m n k true c else c) k).1
        (gop (max 0 (min (n-2) m))
          (if k < max 0 (min (n-2) m) then rowTransform sqrt m n k true c else c) k).2
        (Tm nct (max 0 (min (n-2) m)) c k (k+1)))
      (Tm nct (max 0 (min (n-2) m))
        (if k < max 0 (min (n-2) m) then rowTransform sqrt m n k true c else c) (k+1) (k+1)) := by
  intro i j hi hj
  by_cases hk : k < max 0 (min (n-2) m)
  · rw [if_pos hk]
    have hkn2 : k + 1 < n := by omega
    obtain ⟨τ, r1, r2, r3, r4, r5, r6, r7, r8⟩ := rowTransform_spec sqrt hs m n true k c hsh hkn2
    generalize rowTransform sqrt m n k true c = d at r3 r4 r5 r6 r7 r8 ⊢
    have fe : ∀ i, i < k → d.e.get i = c.e.get i := fun i hi => by
      rw [r4, if_neg (by omega), if_neg (by omega)]
    have fA : ∀ i j, i ≤ k ∨ j ≤ k → d.A.get i j = c.A.get i j := fun i j h => by
      rw [r5, if_neg (by omega)]
    have hτ2 : τ * τ = ∑ j in Finset.Ico (k+1) n, c.A.get k j * c.A.get k j := by
      rw [r1]
      apply Finset.sum_congr rfl
      intro j hj
      have := Finset.mem_Ico.mp hj
      rw [hce j (by omega) this.2]
    by_cases hτ : τ = 0
    · -- no reflection
      have hek : d.e.get k = 0 := by rw [r4, if_pos rfl, hτ, neg_zero]
      have hop0 : gop (max 0 (min (n-2) m)) d k = (fun _ => 0, 1) := by
        unfold gop
        rw [if_neg (fun h => h.2 hek)]
      rw [hop0, reflR_zero n _ _ _ (fun _ => rfl)]
      have fA0 : ∀ i j, d.A.get i j = c.A.get i j := fun i j => by
        rw [r5, if_neg (fun h => h.1.2 hτ)]
      have hrow0 : ∀ j, k < j → j < n → c.A.get k j = 0 := by
        intro j hj1 hj2
        have := hτ2
        rw [hτ, mul_zero] at this
        exact sq_sum_zero (fun j => c.A.get k j) _ this.symm j (Finset.mem_Ico.mpr ⟨hj1, hj2⟩)
      unfold Tm
      simp only [fA0, r7]
      split_ifs <;> first
        | rfl
        | (exfalso; omega)
        | (rw [fe i (by omega)])
        | (have h1 : i = k := by omega
           subst h1
           rw [hek]
           exact hrow0 j (by omega) hj)
        | (have h1 : i = k := by omega
           subst h1
           exact hrow0 j (by omega) hj)
    · -- the reflection with the vector in column k of V
      have hek : d.e.get k ≠ 0 := by
        rw [r4, if_pos rfl]
        exact neg_ne_zero.mpr hτ
      have hopk : gop (max 0 (min (n-2) m)) d k = (fun i => d.V.get i k, d.V.get (k+1) k) := by
        unfold gop
        rw [if_pos ⟨hk, hek⟩]
      rw [hopk]
      have hw0 : ∀ r, r < k + 1 → d.V.get r k = 0 := fun r hr => by
        rw [r6, if_neg (by omega)]
        exact hVz r (by omega)
      have hwV : ∀ r, k + 1 ≤ r → r < n → d.V.get r k = d.e.get r := fun r h1 h2 => by
        rw [r6, if_pos ⟨rfl, rfl, h1, h2⟩]
      have hwA : ∀ r, k + 1 ≤ r → r < n →
          d.e.get r = c.A.get k r / τ + if r = k + 1 then 1 else 0 := fun r h1 h2 => by
        rw [r4, if_neg (by omega), if_pos ⟨hτ, by omega, h2⟩, hce r (by omega) h2]
      have hwk : d.e.get (k+1) ≠ 0 := by
        rw [hwA (k+1) (le_refl _) hkn2, if_pos rfl]
        have := r2 hτ
        rw [hce (k+1) (by omega) hkn2] at this
        linarith
      have hYc : ∀ cc, k + 1 ≤ cc →
          Tm nct (max 0 (min (n-2) m)) c k (k+1) i cc = if i < k then 0 else c.A.get i cc := by
        intro cc hcc
        unfold Tm
        split_ifs <;> first | rfl | (exfalso; omega)
      rw [reflR_support n (k+1) (by omega) _ _ _ hw0]
      have hsum : ∑ cc in Finset.Ico (k+1) n,
          Tm nct (max 0 (min (n-2) m)) c k (k+1) i cc * d.V.get cc k =
          if i < k then 0 else ∑ cc in Finset.Ico (k+1) n, d.e.get cc * c.A.get i cc := by
        by_cases hik : i < k
        · rw [if_pos hik]
          apply Finset.sum_eq_zero
          intro r hr
          have hr2 := Finset.mem_Ico.mp hr
          rw [hYc r hr2.1, if_pos hik, zero_mul]
        · rw [if_neg hik]
          apply Finset.sum_congr rfl
          intro r hr
          have hr2 := Finset.mem_Ico.mp hr
          rw [hYc r hr2.1, if_neg hik, hwV r hr2.1 hr2.2, mul_comm]
      show Tm nct (max 0 (min (n-2) m)) c k (k+1) i j -
        (∑ cc in Finset.Ico (k+1) n,
          Tm nct (max 0 (min (n-2) m)) c k (k+1) i cc * d.V.get cc k) / d.V.get (k+1) k *
          d.V.get j k = _
      rw [hsum]
      by_cases hik : i < k
      · rw [if_pos hik, zero_div, zero_mul, sub_zero]
        unfold Tm
        rw [r7]
        split_ifs <;> first
          | rfl
          | (exfalso; omega)
          | (rw [fe i (by omega)])
          | (rw [fA i i (by omega)])
      · by_cases hjk : j < k + 1
        · rw [hw0 j hjk, mul_zero, sub_zero]
          unfold Tm
          rw [r7]
          split_ifs <;> first
            | rfl
            | (exfalso; omega)
            | (rw [fA i i (by omega)])
        · rw [if_neg hik, hYc j (by omega), if_neg hik, hwV (k+1) (le_refl _) hkn2,
            hwV j (by omega) hj]
          by_cases hik2 : i = k
          · subst hik2
            have himg := house_image (fun r => c.A.get i r) (fun r => d.e.get r) (i+1) n hkn2 τ
              hτ hτ2 hwA hwk j (by omega) hj
            rw [himg]
            unfold Tm
            rw [if_pos (show i < i + 1 ∨ j < i + 1 from Or.inl (by omega)),
              if_neg (show ¬ j = i by omega)]
            by_cases hj1 : j = i + 1
            · rw [if_pos hj1, if_pos hj1, if_pos hk, r4, if_pos rfl]
            · rw [if_neg hj1, if_neg hj1]
          · unfold Tm
            rw [if_neg (show ¬ (i < k + 1 ∨ j < k + 1) by omega), r5,
              if_pos ⟨⟨by omega, hτ⟩, by omega, hi, by omega, hj⟩]
            ring
  · rw [if_neg hk]
    have hop0 : gop (max 0 (min (n-2) m)) c k = (fun _ => 0, 1) := by
      unfold gop
      rw [if_neg (fun h => hk h.1)]
    rw [hop0, reflR_zero n _ _ _ (fun _ => rfl)]
    unfold Tm
    split_ifs <;> first | rfl | (exfalso; omega)
theorem opsU_succ (nct : ℕ) (st : Bidiag R) (lo cnt : ℕ) :
    opsU nct st lo (cnt+1) = opsU nct st lo cnt ++ [hop nct st (lo+cnt)] := by
  unfold opsU
  rw [List.range'_concat, List.map_append]
  simp

theorem opsU_cons (nct : ℕ) (st : Bidiag R) (lo cnt : ℕ) :
    opsU nct st lo (cnt+1) = hop nct st lo :: opsU nct st (lo+1) cnt := by
  unfold opsU
  rw [List.range'_succ]
  rfl

theorem opsV_succ (nrt : ℕ) (st : Bidiag R) (lo cnt : ℕ) :
    opsV nrt st lo (cnt+1) = opsV nrt st lo cnt ++ [gop nrt st (lo+cnt)] := by
  unfold opsV
  rw [List.range'_concat, List.map_append]
  simp

theorem opsV_cons (nrt : ℕ) (st : Bidiag R) (lo cnt : ℕ) :
    opsV nrt st lo (cnt+1) = gop nrt st lo :: opsV nrt st (lo+1) cnt := by
  unfold opsV
  rw [List.range'_succ]
  rfl

theorem hop_congr (nct : ℕ) (st st2 : Bidiag R) (k : ℕ) (hs : st2.s.get k = st.s.get k)
    (hU : ∀ i, st2.U.get i k = st.U.get i k) : hop nct st2 k = hop nct st k := by
  unfold hop
  rw [hs, hU k, funext hU]

theorem gop_congr (nrt : ℕ) (st st2 : Bidiag R) (k : ℕ) (he : st2.e.get k = st.e.get k)
    (hV : ∀ i, st2.V.get i k = st.V.get i k) : gop nrt st2 k = gop nrt st k := by
  unfold gop
  rw [he, hV (k+1), funext hV]

theorem opsU_congr (nct : ℕ) (st st2 : Bidiag R) (lo cnt : ℕ)
    (h : ∀ j, lo ≤ j → j < lo + cnt → hop nct st2 j = hop nct st j) :
    opsU nct st2 lo cnt = opsU nct st lo cnt :=
  List.map_congr_left (fun j hj => h j (List.mem_range'_1.mp hj).1 (List.mem_range'_1.mp hj).2)

theorem opsV_congr (nrt : ℕ) (st st2 : Bidiag R) (lo cnt : ℕ)
    (h : ∀ j, lo ≤ j → j < lo + cnt → gop nrt st2 j = gop nrt st j) :
    opsV nrt st2 lo cnt = opsV nrt st lo cnt :=
  List.map_congr_left (fun j hj => h j (List.mem_range'_1.mp hj).1 (List.mem_range'_1.mp hj).2)

/-- A stored column transformation is a reflection. -/
theorem hop_isRefl (m nct : ℕ) (st : Bidiag R) (k : ℕ) (hk : k < m)
    (h : k < nct → HouseCol m st.s st.U k) : IsRefl m (hop nct st k) := by
  unfold hop
  by_cases hc : k < nct ∧ st.s.get k ≠ 0
  · rw [if_pos hc]
    obtain ⟨hz, hh⟩ := h hc.1
    obtain ⟨h1, h2⟩ := hh hc.2
    refine Or.inr ⟨h2, ?_⟩
    show ∑ i in Finset.range m, st.U.get i k * st.U.get i k = 2 * st.U.get k k
    rw [sum_range_eq_Ico (fun i => st.U.get i k * st.U.get i k) k m (le_of_lt hk)
      (fun i hi => by
        show st.U.get i k * st.U.get i k = 0
        rw [hz i hi, zero_mul])]
    exact h1
  · rw [if_neg hc]
    exact Or.inl (fun _ => rfl)

/-- A stored row transformation is a reflection. -/
theorem gop_isRefl (n nrt : ℕ) (st : Bidiag R) (k : ℕ) (hk : k + 1 ≤ n)
    (h : k < nrt → HouseRow n st.e st.V k) : IsRefl n (gop nrt st k) := by
  unfold gop
  by_cases hc : k < nrt ∧ st.e.get k ≠ 0
  · rw [if_pos hc]
    obtain ⟨hz, hh⟩ := h hc.1
    obtain ⟨h1, h2⟩ := hh hc.2
    refine Or.inr ⟨h2, ?_⟩
    show ∑ i in Finset.range n, st.V.get i k * st.V.get i k = 2 * st.V.get (k+1) k
    rw [sum_range_eq_Ico (fun i => st.V.get i k * st.V.get i k) (k+1) n hk
      (fun i hi => by
        show st.V.get i k * st.V.get i k = 0
        rw [hz i (by omega), zero_mul])]
    exact h1
  · rw [if_neg hc]
    exact Or.inl (fun _ => rfl)

theorem houseRow_congr {n : ℕ} {e e2 : Vec R} {V V2 : Mat R} {k : ℕ}
    (h : HouseRow n e V k) (he : e2.get k = e.get k) (hV : ∀ i, V2.get i k = V.get i k) :
    HouseRow n e2 V2 k := by
  refine ⟨fun i hi => by rw [hV]; exact h.1 i hi, fun hne => ?_⟩
  rw [he] at hne
  have := h.2 hne
  rw [hV (k+1)]
  refine ⟨?_, this.2⟩
  rw [← this.1]
  apply Finset.sum_congr rfl
  intro i _
  rw [hV i]

/-- One pass of the bidiagonalisation loop keeps `BidiagInv`. -/
theorem bidiagStep_inv (sqrt : R → R) (hs : IsSqrt sqrt) (m n : ℕ) (A0 : ℕ → ℕ → R) (k : ℕ)
    (st : Bidiag R) (h : BidiagInv m n A0 k st)
    (hk : k < max (min (m-1) n) (max 0 (min (n-2) m))) :
    BidiagInv m n A0 (k+1)
      (bidiagStep sqrt m n (min (m-1) n) (max 0 (min (n-2) m)) true true k st) := by
  obtain ⟨hsh, hU, hR, hVz, hEq⟩ := h
  have hkm : k < m := by omega
  have hkn : k < n := by omega
  have hUnew := bidiagStep_U sqrt hs m n (max 0 (min (n-2) m)) true k st hU
  have hUz : ∀ i, i < k → st.U.get i k = 0 := fun i _ => hU.2.2.2.2.2.2.2.2 i k (le_refl _)
  have hS1 := colPart_T sqrt hs m n (max 0 (min (n-2) m)) k st hsh hkm hkn hUz
  obtain ⟨σ, p1, p2, p3, p4, p5, p6, p7, p8, p9⟩ := colPart_spec sqrt hs m n true k st hsh hkm hkn
  have hS2 := rowPart_T sqrt hs m n (min (m-1) n) k (colPart sqrt m n (min (m-1) n) true k st)
    p3 hkm hkn (fun i _ => by rw [p9]; exact hVz i k (le_refl _))
    (fun j h1 h2 => by rw [p7, if_pos ⟨h1, h2⟩])
  rw [bidiagStep_parts] at hUnew ⊢
  generalize colPart sqrt m n (min (m-1) n) true k st = c
    at p3 p4 p5 p6 p7 p8 p9 hS1 hS2 hUnew ⊢
  -- the state after the row part and what it keeps of `c`
  have hrow : ∃ d : Bidiag R,
      d = (if k < max 0 (min (n-2) m) then rowTransform sqrt m n k true c else c) ∧
      d.Shape m n ∧ d.s = c.s ∧ d.U = c.U ∧
      (∀ j, j < k → d.e.get j = c.e.get j) ∧
      (∀ i j, j ≠ k → d.V.get i j = c.V.get i j) ∧
      (k < max 0 (min (n-2) m) → HouseRow n d.e d.V k) := by
    refine ⟨_, rfl, ?_⟩
    by_cases hk2 : k < max 0 (min (n-2) m)
    · rw [if_pos hk2]
      have hkn2 : k + 1 < n := by omega
      obtain ⟨τ, r1, r2, r3, r4, r5, r6, r7, r8⟩ := rowTransform_spec sqrt hs m n true k c p3 hkn2
      refine ⟨r3, r7, r8, fun j hj => by rw [r4, if_neg (by omega), if_neg (by omega)],
        fun i j hj => by rw [r6, if_neg (fun g => hj g.2.1)], fun _ => ⟨fun i hi => ?_, fun hne => ?_⟩⟩
      · rw [r6, if_neg (by omega), p9]
        exact hVz i k (le_refl _)
      · have hτ : τ ≠ 0 := by
          intro h0
          apply hne
          rw [r4, if_pos rfl, h0, neg_zero]
        have hg : ∀ i, k + 1 ≤ i → i < n →
            (rowTransform sqrt m n k true c).V.get i k =
              if i = k + 1 then c.e.get (k+1) / τ + 1 else c.e.get i / τ := by
          intro i h1 h2
          rw [r6, if_pos ⟨rfl, rfl, h1, h2⟩, r4, if_neg (by omega), if_pos ⟨hτ, by omega, h2⟩]
          by_cases hi : i = k + 1
          · rw [if_pos hi, if_pos hi, hi]
          · rw [if_neg hi, if_neg hi, add_zero]
        refine ⟨house_norm (fun i => c.e.get i) _ (k+1) n hkn2 τ hτ r1 hg, ?_⟩
        rw [hg (k+1) (le_refl _) hkn2, if_pos rfl]
        have := r2 hτ
        linarith
    · rw [if_neg hk2]
      exact ⟨p3, rfl, rfl, fun _ _ => rfl, fun _ _ _ => rfl, fun h => absurd h hk2⟩
  obtain ⟨d, hd, d1, d2, d3, d4, d5, d6⟩ := hrow
  rw [← hd] at hS2 hUnew ⊢
  -- what the pass keeps of `st`
  have fs : ∀ j, j ≠ k → d.s.get j = st.s.get j := fun j hj => by
    rw [d2, p4, if_neg (fun g => hj g.1)]
  have fU : ∀ i j, j ≠ k → d.U.get i j = st.U.get i j := fun i j hj => by
    rw [d3, p8, if_neg (fun g => hj g.2.1)]
  have fe : ∀ j, j < k → d.e.get j = st.e.get j := fun j hj => by
    rw [d4 j hj, p7, if_neg (by omega)]
  have fV : ∀ i j, j ≠ k → d.V.get i j = st.V.get i j := fun i j hj => by
    rw [d5 i j hj, p9]
  have hopc : hop (min (m-1) n) c k = hop (min (m-1) n) d k :=
    (hop_congr _ c d k (by rw [d2]) (fun i => by rw [d3])).symm
  rw [hopc] at hS1
  have hRnew : ∀ j, j < k + 1 → j < max 0 (min (n-2) m) → HouseRow n d.e d.V j := by
    intro j hj hjn
    by_cases hjk : j = k
    · rw [hjk] at hjn ⊢
      exact d6 hjn
    · exact houseRow_congr (hR j (by omega) hjn) (fe j (by omega)) (fun i => fV i j hjk)
  refine ⟨d1, hUnew, hRnew, fun i j hj => ?_, ?_⟩
  · rw [fV i j (by omega)]
    exact hVz i j (by omega)
  · have hrL : IsRefl m (hop (min (m-1) n) d k) :=
      hop_isRefl m _ d k hkm (fun hkn => hUnew.2.2.2.2.2.2.2.1 k (by omega) hkn)
    have hrR : IsRefl n (gop (max 0 (min (n-2) m)) d k) :=
      gop_isRefl n _ d k (by omega) (fun hkn => hRnew k (by omega) hkn)
    have hT : EqOn m n (Tm (min (m-1) n) (max 0 (min (n-2) m)) st k k)
        (reflL m (hop (min (m-1) n) d k).1 (hop (min (m-1) n) d k).2
          (reflR n (gop (max 0 (min (n-2) m)) d k).1 (gop (max 0 (min (n-2) m)) d k).2
            (Tm (min (m-1) n) (max 0 (min (n-2) m)) d (k+1) (k+1)))) := by
      have e1 := reflR_congr m n (gop (max 0 (min (n-2) m)) d k).1
        (gop (max 0 (min (n-2) m)) d k).2 _ _ hS2
      rw [reflR_invol n _ hrR] at e1
      have e2 := reflL_congr m n (hop (min (m-1) n) d k).1 (hop (min (m-1) n) d k).2 _ _
        (eqOn_trans hS1 e1)
      rw [reflL_invol m _ hrL] at e2
      exact e2
    have hoU : opsU (min (m-1) n) d 0 k = opsU (min (m-1) n) st 0 k :=
      opsU_congr _ st d 0 k (fun j _ hj =>
        hop_congr _ st d j (fs j (by omega)) (fun i => fU i j (by omega)))
    have hoV : opsV (max 0 (min (n-2) m)) d 0 k = opsV (max 0 (min (n-2) m)) st 0 k :=
      opsV_congr _ st d 0 k (fun j _ hj =>
        gop_congr _ st d j (fe j (by omega)) (fun i => fV i j (by omega)))
    rw [opsU_succ, opsV_succ, applyL_append, applyR_append, hoU, hoV, Nat.zero_add]
    show EqOn m n A0 (applyL m (opsU (min (m-1) n) st 0 k)
      (reflL m (hop (min (m-1) n) d k).1 (hop (min (m-1) n) d k).2
        (applyR n (opsV (max 0 (min (n-2) m)) st 0 k)
          (reflR n (gop (max 0 (min (n-2) m)) d k).1 (gop (max 0 (min (n-2) m)) d k).2
            (Tm (min (m-1) n) (max 0 (min (n-2) m)) d (k+1) (k+1))))))
    rw [← reflL_applyR]
    exact eqOn_trans hEq (applyL_congr m n _ _ _ (applyR_congr m n _ _ _ hT))
/-- The diagonal after the final setup: `s(i)` of the loop for `i < nct`, the
entry `A(i,i)` of the working copy for the last row. -/
theorem finalSetup_s (m n nct nrt : ℕ) (hnct : nct = min (m-1) n)
    (st : Bidiag R) (hsl : st.s.length = min (m+1) n) (i : ℕ) (hi : i < m) (hin : i < n) :
    (finalSetup m n nct nrt st).s.get i = if i < nct then st.s.get i else st.A.get i i := by
  unfold finalSetup
  dsimp only
  split_ifs <;> (try dsimp only) <;> (try simp only [Vec.get_set, Vec.length_set]) <;>
    (try split_ifs) <;>
    first
      | rfl
      | (exfalso; omega)
      | (congr 1 <;> omega)

/-- The super-diagonal after the final setup: `e(i)` of the loop for
`i < nrt`, the entry `A(i,i+1)` of the working copy for the row `nrt`. -/
theorem finalSetup_e (m n nct nrt : ℕ) (hnrt : nrt = max 0 (min (n-2) m))
    (st : Bidiag R) (hel : st.e.length = n) (i : ℕ) (hi : i < m) (hin : i + 1 < n) :
    (finalSetup m n nct nrt st).e.get i =
      if i < nrt then st.e.get i else st.A.get i (i+1) := by
  unfold finalSetup
  dsimp only
  split_ifs <;> (try dsimp only) <;> (try simp only [Vec.get_set, Vec.length_set]) <;>
    (try split_ifs) <;>
    first
      | rfl
      | (exfalso; omega)
      | (congr 1 <;> omega)

/-- After the final setup `m_s` and `e` hold the reduced matrix. -/
theorem finalSetup_B (m n : ℕ) (st : Bidiag R) (hsh : st.Shape m n) :
    EqOn m n
      (Bmat (finalSetup m n (min (m-1) n) (max 0 (min (n-2) m)) st).s
        (finalSetup m n (min (m-1) n) (max 0 (min (n-2) m)) st).e)
      (Tm (min (m-1) n) (max 0 (min (n-2) m)) st
        (max (min (m-1) n) (max 0 (min (n-2) m))) (max (min (m-1) n) (max 0 (min (n-2) m)))) := by
  obtain ⟨-, -, -, hsl, hel, -⟩ := hsh
  intro i j hi hj
  unfold Bmat Tm
  by_cases hji : j = i
  · subst hji
    rw [if_pos rfl, if_pos rfl, finalSetup_s m n _ _ rfl st hsl j hi hj]
    split_ifs <;> first | rfl | (exfalso; omega)
  · rw [if_neg hji, if_neg hji]
    by_cases hj1 : j = i + 1
    · subst hj1
      rw [if_pos rfl, if_pos rfl, finalSetup_e m n _ _ rfl st hel i hi hj]
      split_ifs <;> first | rfl | (exfalso; omega)
    · rw [if_neg hj1, if_neg hj1]
      split_ifs <;> first | rfl | (exfalso; omega)

/-- The bidiagonalisation loop establishes `BidiagInv`. -/
theorem bidiagLoop_inv (sqrt : R → R) (hs : IsSqrt sqrt) (A : Mat R) (hWF : A.WF) :
    BidiagInv A.rows A.cols (fun i j => A.get i j)
      (max (min (A.rows-1) A.cols) (max 0 (min (A.cols-2) A.rows)))
      (forUp 0 (max (min (A.rows-1) A.cols) (max 0 (min (A.cols-2) A.rows)))
        (fun k st => bidiagStep sqrt A.rows A.cols (min (A.rows-1) A.cols)
          (max 0 (min (A.cols-2) A.rows)) true true k st)
        ⟨A, Vec.zeros (min (A.rows+1) A.cols), Vec.zeros A.cols,
          Vec.zeros A.rows, Mat.zeros A.rows A.rows, Mat.zeros A.cols A.cols⟩) := by
  apply forUp_inv (fun k st => BidiagInv A.rows A.cols (fun i j => A.get i j) k st) 0 _ _ _
    (Nat.zero_le _)
  · refine ⟨⟨hWF, rfl, rfl, Vec.length_zeros _, Vec.length_zeros _, Vec.length_zeros _,
      Mat.WF_zeros _ _, rfl, rfl, Mat.WF_zeros _ _, rfl, rfl⟩,
      ⟨hWF, rfl, rfl, Mat.WF_zeros _ _, rfl, rfl, Vec.length_zeros _,
        fun j hj => absurd hj (Nat.not_lt_zero _), fun i j _ => Mat.entry_zeros _ _ i j⟩,
      fun j hj => absurd hj (Nat.not_lt_zero _), fun i j _ => Mat.entry_zeros _ _ i j, ?_⟩
    intro i j _ _
    simp only [opsU, opsV, List.range'_zero, List.map_nil, applyL, applyR, Tm]
    rw [if_neg (show ¬ (i < 0 ∨ j < 0) by omega)]
  · intro k st _ hk h
    exact bidiagStep_inv sqrt hs _ _ _ k st h hk
/-! ### The generated factors as products of reflections -/

/-- The generation of `U` builds the product of the stored column
reflections: `U = H_0·H_1 ⋯ H_{nct-1}`. -/
theorem generateU_apply (m nct : ℕ) (st : Bidiag R) (hnct : nct ≤ m) (hWF : st.U.WF)
    (hr : st.U.rows = m) (hc : st.U.cols = m) (hH : ∀ j, j < nct → HouseCol m st.s st.U j)
    (i l : ℕ) (hi : i < m) (hl : l < m) :
    (generateU m nct st.s st.U).get i l = applyL m (opsU nct st 0 nct) idMat i l := by
  obtain ⟨i1, i2, i3, i4⟩ := genU_identity m nct st.U hWF hr hc
  rw [generateU_steps]
  have := forDown_inv (fun k (W : Mat R) => W.WF ∧ W.rows = m ∧ W.cols = m ∧
      (∀ i l, l < k → W.get i l = st.U.get i l) ∧
      (∀ i l, i < m → k ≤ l → l < m →
        W.get i l = applyL m (opsU nct st k (nct - k)) idMat i l)) 0 nct
    (fun k U => genUStep m st.s k U) _ (Nat.zero_le _)
    ⟨i1, i2, i3, fun i l hl => by rw [i4, if_neg (by omega)], fun i l hi h1 h2 => by
      rw [i4, if_pos ⟨h1, h2, hi⟩, Nat.sub_self]
      rfl⟩
    (by
      intro k W _ hk ⟨h1, h2, h3, h4, h5⟩
      obtain ⟨g1, g2, g3, g4⟩ := genUStep_entries m st.s k W h1 h2 h3 (by omega)
      have hkm : k < m := by omega
      refine ⟨g1, g2, g3, fun i l hl => ?_, fun i l hi hl1 hl2 => ?_⟩
      · rw [g4]
        split_ifs <;> first | exact h4 i l (by omega) | (exfalso; omega)
      · have hcnt : nct - k = (nct - (k+1)) + 1 := by omega
        rw [hcnt, opsU_cons]
        show _ = reflL m (hop nct st k).1 (hop nct st k).2
          (applyL m (opsU nct st (k+1) (nct - (k+1))) idMat) i l
        have hX1k : ∀ r, applyL m (opsU nct st (k+1) (nct - (k+1))) idMat r k = idMat r k := by
          intro r
          apply applyL_unit_col
          intro op hmem
          obtain ⟨j, hj, rfl⟩ := List.mem_map.mp hmem
          have hj2 := List.mem_range'_1.mp hj
          unfold hop
          by_cases hact : j < nct ∧ st.s.get j ≠ 0
          · rw [if_pos hact]
            exact (hH j hact.1).1 k (by omega)
          · rw [if_neg hact]
        have hWk : ∀ r, W.get r k = st.U.get r k := fun r => h4 r k (by omega)
        obtain ⟨hz, hh⟩ := hH k hk
        by_cases hsk : st.s.get k ≠ 0
        · obtain ⟨hvv, hvk⟩ := hh hsk
          have hopk : hop nct st k = (fun i => st.U.get i k, st.U.get k k) := by
            unfold hop
            rw [if_pos ⟨hk, hsk⟩]
          rw [hopk, reflL_support m k (le_of_lt hkm) _ _ _ hz, g4, if_pos hsk]
          by_cases hlk : l = k
          · subst hlk
            have hsum : ∑ r in Finset.Ico l m, st.U.get r l *
                applyL m (opsU nct st (l+1) (nct - (l+1))) idMat r l = st.U.get l l := by
              have : ∀ r ∈ Finset.Ico l m, st.U.get r l *
                  applyL m (opsU nct st (l+1) (nct - (l+1))) idMat r l =
                  if r = l then st.U.get r l else 0 := by
                intro r _
                rw [hX1k r]
                unfold idMat
                by_cases hrl : r = l
                · rw [if_pos hrl, if_pos hrl, mul_one]
                · rw [if_neg hrl, if_neg hrl, mul_zero]
              rw [Finset.sum_congr rfl this,
                Finset.sum_ite_eq' (Finset.Ico l m) l (fun r => st.U.get r l),
                if_pos (Finset.mem_Ico.mpr ⟨le_refl _, hkm⟩)]
            rw [if_pos rfl, hsum, div_self hvk, one_mul, hX1k i, hWk, hWk]
            unfold idMat
            by_cases h1 : i < l - 1
            · rw [if_pos h1, if_neg (by omega), hz i (by omega), sub_zero]
            · rw [if_neg h1]
              by_cases h2 : i = l
              · rw [if_pos h2, if_pos h2, h2]
              · rw [if_neg h2, if_neg h2]
                by_cases h3 : l < i ∧ i < m
                · rw [if_pos h3, zero_sub]
                · rw [if_neg h3, hz i (by omega), sub_zero]
          · rw [if_neg hlk]
            by_cases hik : k ≤ i
            · rw [if_pos ⟨by omega, hl2, hik, hi⟩, h5 i l hi (by omega) hl2, hWk, hWk,
                Finset.sum_congr rfl (fun r hr => by
                  rw [hWk r, h5 r l (Finset.mem_Ico.mp hr).2 (by omega) hl2])]
              ring
            · rw [if_neg (fun g => hik g.2.2.1), h5 i l hi (by omega) hl2, hz i (by omega),
                mul_zero, sub_zero]
        · have hsk0 : st.s.get k = 0 := not_not.mp hsk
          have hopk : hop nct st k = (fun _ => 0, 1) := by
            unfold hop
            rw [if_neg (fun g => g.2 hsk0)]
          rw [hopk, reflL_zero m _ _ _ (fun _ => rfl), g4, if_neg hsk]
          by_cases hlk : l = k
          · subst hlk
            rw [if_pos ⟨rfl, hi⟩, hX1k i]
            rfl
          · rw [if_neg (fun g => hlk g.1), h5 i l hi (by omega) hl2])
  exact this.2.2.2.2 i l hi (Nat.zero_le _) hl

/-- The generation of `V` builds the product of the stored row reflections:
`V = G_0·G_1 ⋯ G_{nrt-1}`. -/
theorem generateV_apply (n nrt : ℕ) (st : Bidiag R) (hWF : st.V.WF)
    (hr : st.V.rows = n) (hc : st.V.cols = n) (hH : ∀ j, j < nrt → HouseRow n st.e st.V j)
    (i l : ℕ) (hi : i < n) (hl : l < n) :
    (generateV n nrt st.e st.V).get i l = applyL n (opsV nrt st 0 n) idMat i l := by
  rw [generateV_steps]
  have := forDown_inv (fun k (W : Mat R) => W.WF ∧ W.rows = n ∧ W.cols = n ∧
      (∀ i l, l < k → W.get i l = st.V.get i l) ∧
      (∀ i l, i < n → k ≤ l → l < n →
        W.get i l = applyL n (opsV nrt st k (n - k)) idMat i l)) 0 n
    (fun k V => genVStep n nrt st.e k V) st.V (Nat.zero_le _)
    ⟨hWF, hr, hc, fun i l _ => rfl, fun i l _ h1 h2 => absurd h2 (not_lt.mpr h1)⟩
    (by
      intro k W _ hk ⟨h1, h2, h3, h4, h5⟩
      obtain ⟨g1, g2, g3, g4⟩ := genVStep_entries n nrt st.e k W h1 h2 h3 hk
      refine ⟨g1, g2, g3, fun i l hl => ?_, fun i l hi hl1 hl2 => ?_⟩
      · rw [g4]
        split_ifs <;> first | exact h4 i l (by omega) | (exfalso; omega)
      · have hcnt : n - k = (n - (k+1)) + 1 := by omega
        rw [hcnt, opsV_cons]
        show _ = reflL n (gop nrt st k).1 (gop nrt st k).2
          (applyL n (opsV nrt st (k+1) (n - (k+1))) idMat) i l
        have hX1k : ∀ r, applyL n (opsV nrt st (k+1) (n - (k+1))) idMat r k = idMat r k := by
          intro r
          apply applyL_unit_col
          intro op hmem
          obtain ⟨j, hj, rfl⟩ := List.mem_map.mp hmem
          have hj2 := List.mem_range'_1.mp hj
          unfold gop
          by_cases hact : j < nrt ∧ st.e.get j ≠ 0
          · rw [if_pos hact]
            exact (hH j hact.1).1 k (by omega)
          · rw [if_neg hact]
        have hWk : ∀ r, W.get r k = st.V.get r k := fun r => h4 r k (by omega)
        by_cases hact : k < nrt ∧ st.e.get k ≠ 0
        · obtain ⟨hz, hh⟩ := hH k hact.1
          obtain ⟨hvv, hvk⟩ := hh hact.2
          have hopk : gop nrt st k = (fun i => st.V.get i k, st.V.get (k+1) k) := by
            unfold gop
            rw [if_pos hact]
          rw [hopk, reflL_support n (k+1) (by omega) _ _ _ (fun r hr => hz r (by omega)), g4]
          by_cases hlk : l = k
          · subst hlk
            have hsum : ∑ r in Finset.Ico (l+1) n, st.V.get r l *
                applyL n (opsV nrt st (l+1) (n - (l+1))) idMat r l = 0 := by
              apply Finset.sum_eq_zero
              intro r hr
              have hr2 := Finset.mem_Ico.mp hr
              rw [hX1k r]
              unfold idMat
              rw [if_neg (by omega), mul_zero]
            rw [if_pos ⟨rfl, hi⟩, hsum, zero_div, zero_mul, sub_zero, hX1k i]
            rfl
          · rw [if_neg (fun g => hlk g.1)]
            by_cases hik : k + 1 ≤ i
            · rw [if_pos ⟨hact, by omega, hl2, hik, hi⟩, h5 i l hi (by omega) hl2, hWk, hWk,
                Finset.sum_congr rfl (fun r hr => by
                  rw [hWk r, h5 r l (Finset.mem_Ico.mp hr).2 (by omega) hl2])]
              ring
            · rw [if_neg (fun g => hik g.2.2.2.1), h5 i l hi (by omega) hl2, hz i (by omega),
                mul_zero, sub_zero]
        · have hopk : gop nrt st k = (fun _ => 0, 1) := by
            unfold gop
            rw [if_neg hact]
          rw [hopk, reflL_zero n _ _ _ (fun _ => rfl), g4]
          by_cases hlk : l = k
          · subst hlk
            rw [if_pos ⟨rfl, hi⟩, hX1k i]
            rfl
          · rw [if_neg (fun g => hlk g.1), if_neg (fun g => hact g.1),
              h5 i l hi (by omega) hl2])
  exact this.2.2.2.2 i l hi (Nat.zero_le _) hl
/-- The reflections with an index from `nct` on are the identity. -/
theorem applyL_opsU_ge (m nct : ℕ) (st : Bidiag R) (X : ℕ → ℕ → R) (cnt : ℕ)
    (h : nct ≤ cnt) :
    applyL m (opsU nct st 0 cnt) X = applyL m (opsU nct st 0 nct) X := by
  induction cnt with
  | zero =>
    have : nct = 0 := by omega
    rw [this]
  | succ d ih =>
    rcases Nat.eq_or_lt_of_le h with h1 | h1
    · rw [h1]
    · have hop0 : hop nct st (0 + d) = (fun _ => 0, 1) := by
        unfold hop
        rw [if_neg (fun g => by omega)]
      have hX : applyL m [hop nct st (0 + d)] X = X := by
        show reflL m (hop nct st (0 + d)).1 (hop nct st (0 + d)).2 X = X
        rw [hop0, reflL_zero m _ _ _ (fun _ => rfl)]
      rw [opsU_succ, applyL_append, hX, ih (by omega)]

/-- The reflections with an index from `nrt` on are the identity. -/
theorem applyR_opsV_ge (n nrt : ℕ) (st : Bidiag R) (X : ℕ → ℕ → R) (cnt : ℕ)
    (h : nrt ≤ cnt) :
    applyR n (opsV nrt st 0 cnt) X = applyR n (opsV nrt st 0 nrt) X := by
  induction cnt with
  | zero =>
    have : nrt = 0 := by omega
    rw [this]
  | succ d ih =>
    rcases Nat.eq_or_lt_of_le h with h1 | h1
    · rw [h1]
    · have hop0 : gop nrt st (0 + d) = (fun _ => 0, 1) := by
        unfold gop
        rw [if_neg (fun g => by omega)]
      have hX : applyR n [gop nrt st (0 + d)] X = X := by
        show reflR n (gop nrt st (0 + d)).1 (gop nrt st (0 + d)).2 X = X
        rw [hop0, reflR_zero n _ _ _ (fun _ => rfl)]
      rw [opsV_succ, applyR_append, hX, ih (by omega)]

/-- C26: the bidiagonalisation is exact.  In exact arithmetic, for every
`M×N` input `A` with both factors requested, at the point where the main
loop starts every entry of `A` is the entry of `U·B·V'`,
`A(i,j) = Σ_a Σ_b U(i,a)·B(a,b)·V(j,b)`, where `B` is the `M×N`
upper-bidiagonal matrix with `B(k,k) = s(k)` and `B(k,k+1) = e(k)` and `U`, `V`
are the generated matrices. -/
theorem bidiagonalization_exact (sqrt : R → R) (hs : IsSqrt sqrt) (A : Mat R) (hWF : A.WF)
    (i j : ℕ) (hi : i < A.rows) (hj : j < A.cols) :
    A.get i j =
      ∑ a in Finset.range A.rows, ∑ b in Finset.range A.cols,
        (SVD.init sqrt A true true).U.get i a *
          Bmat (SVD.init sqrt A true true).s (SVD.init sqrt A true true).e a b *
          (SVD.init sqrt A true true).V.get j b := by
  have hinv := bidiagLoop_inv sqrt hs A hWF
  unfold SVD.init
  dsimp only
  rw [if_pos rfl, if_pos rfl]
  generalize forUp 0 (max (min (A.rows-1) A.cols) (max 0 (min (A.cols-2) A.rows)))
    (fun k st => bidiagStep sqrt A.rows A.cols (min (A.rows-1) A.cols)
      (max 0 (min (A.cols-2) A.rows)) true true k st)
    ⟨A, Vec.zeros (min (A.rows+1) A.cols), Vec.zeros A.cols,
      Vec.zeros A.rows, Mat.zeros A.rows A.rows, Mat.zeros A.cols A.cols⟩ = F at hinv ⊢
  obtain ⟨hsh, hU, hR, hVz, hEq⟩ := hinv
  have hB := finalSetup_B A.rows A.cols F hsh
  obtain ⟨f1, f2, f3, f4, f5, f6, f7, f8⟩ := finalSetup_frame A.rows A.cols F
  generalize finalSetup A.rows A.cols (min (A.rows-1) A.cols)
    (max 0 (min (A.cols-2) A.rows)) F = f at hB f1 f2 f3 f4 f5 f6 f7 f8 ⊢
  obtain ⟨-, -, -, -, -, -, hUW, hUr, hUc, hVW, hVr, hVc⟩ := hsh
  -- the generated factors
  have hGU : ∀ a, a < A.rows →
      (generateU A.rows (min (A.rows-1) A.cols) f.s f.U).get i a =
        applyL A.rows (opsU (min (A.rows-1) A.cols) f 0 (min (A.rows-1) A.cols)) idMat i a :=
    fun a ha => generateU_apply A.rows _ f (by omega) (by rw [f2]; exact hUW)
      (by rw [f2]; exact hUr) (by rw [f2]; exact hUc)
      (fun l hl => (hU.2.2.2.2.2.2.2.1 l (by omega) hl).congr (f7 l hl) (fun r => by rw [f2]))
      i a hi ha
  have hGV : ∀ b, b < A.cols →
      (generateV A.cols (max 0 (min (A.cols-2) A.rows)) f.e f.V).get j b =
        applyL A.cols (opsV (max 0 (min (A.cols-2) A.rows)) f 0 A.cols) idMat j b :=
    fun b hb => generateV_apply A.cols _ f (by rw [f3]; exact hVW)
      (by rw [f3]; exact hVr) (by rw [f3]; exact hVc)
      (fun l hl => houseRow_congr (hR l (by omega) hl) (f8 l hl) (fun r => by rw [f3]))
      j b hj hb
  -- the reflections read from the state after the final setup are those of the loop
  have hoU : opsU (min (A.rows-1) A.cols) f 0 (min (A.rows-1) A.cols) =
      opsU (min (A.rows-1) A.cols) F 0 (min (A.rows-1) A.cols) :=
    opsU_congr _ F f 0 _ (fun l _ hl =>
      hop_congr _ F f l (f7 l (by omega)) (fun r => by rw [f2]))
  have hoV : opsV (max 0 (min (A.cols-2) A.rows)) f 0 (max 0 (min (A.cols-2) A.rows)) =
      opsV (max 0 (min (A.cols-2) A.rows)) F 0 (max 0 (min (A.cols-2) A.rows)) :=
    opsV_congr _ F f 0 _ (fun l _ hl =>
      gop_congr _ F f l (f8 l (by omega)) (fun r => by rw [f3]))
  have hA := hEq i j hi hj
  rw [applyL_opsU_ge _ _ _ _ _ (le_max_left _ _), applyR_opsV_ge _ _ _ _ _ (le_max_right _ _),
    ← hoU, ← hoV] at hA
  have hprod : ∑ a in Finset.range A.rows, ∑ b in Finset.range A.cols,
      (generateU A.rows (min (A.rows-1) A.cols) f.s f.U).get i a * Bmat f.s f.e a b *
        (generateV A.cols (max 0 (min (A.cols-2) A.rows)) f.e f.V).get j b =
      applyL A.rows (opsU (min (A.rows-1) A.cols) f 0 (min (A.rows-1) A.cols))
        (applyR A.cols (opsV (max 0 (min (A.cols-2) A.rows)) f 0 A.cols) (Bmat f.s f.e))
        i j := by
    rw [← mulL_apply A.rows _ _ i j hi]
    apply Finset.sum_congr rfl
    intro a ha
    rw [← mulR_apply A.cols _ _ a j hj, Finset.mul_sum, hGU a (Finset.mem_range.mp ha)]
    apply Finset.sum_congr rfl
    intro b hb
    rw [hGV b (Finset.mem_range.mp hb)]
    ring
  rw [hprod, applyR_opsV_ge _ _ _ _ A.cols (by omega)]
  exact hA.trans
    ((applyL_congr A.rows A.cols _ _ _ (applyR_congr A.rows A.cols _ _ _ (eqOn_symm hB))) i j hi hj)

/-- Witness for `bidiagonalization_exact`: over the reals with `Real.sqrt`,
the entry `(0, 1)` of the 2×2 matrix with the rows `(3, 1)` and `(4, 2)`. -/
theorem bidiagonalization_exact_witness :
    IsSqrt Real.sqrt ∧ (st22 ℝ).A.WF ∧ 0 < (st22 ℝ).A.rows ∧ 1 < (st22 ℝ).A.cols ∧
      (st22 ℝ).A.get 0 1 =
        ∑ a in Finset.range (st22 ℝ).A.rows, ∑ b in Finset.range (st22 ℝ).A.cols,
          (SVD.init Real.sqrt (st22 ℝ).A true true).U.get 0 a *
            Bmat (SVD.init Real.sqrt (st22 ℝ).A true true).s
              (SVD.init Real.sqrt (st22 ℝ).A true true).e a b *
            (SVD.init Real.sqrt (st22 ℝ).A true true).V.get 1 b :=
  ⟨fun x hx => ⟨Real.sqrt_nonneg x, Real.mul_self_sqrt hx⟩,
    by simp [Mat.WF, Mat.ofRows, st22], by decide, by decide,
    bidiagonalization_exact Real.sqrt (fun x hx => ⟨Real.sqrt_nonneg x, Real.mul_self_sqrt hx⟩)
      (st22 ℝ).A (by simp [Mat.WF, Mat.ofRows, st22]) 0 1 (by decide) (by decide)⟩


/-! ### The shift of the qr step -/

/-- Case 3 starts its chase from the values of `shiftStart`. -/
theorem case3_start (sqrt : R → R) (m n : ℕ) (wantu wantv : Bool) (p k : ℕ) (st : Iter R) :
    case3 sqrt m n wantu wantv p k st =
      (let c : Chase R := forUp k (p-1) (fun j c => chaseStep sqrt m n wantu wantv k j c)
        ⟨(shiftStart sqrt p k st.s st.e).1, (shiftStart sqrt p k st.s st.e).2,
          st.s, st.e, st.U, st.V⟩
      { st with s := c.s, e := c.e.set (p-2) c.f, U := c.U, V := c.V, iter := st.iter + 1 }) :=
  rfl

/-- The top entry bounds `scale` from below. -/
theorem scaleOf_pos (p k : ℕ) (s e : Vec R) (h : s.get (p-1) ≠ 0) : 0 < scaleOf p k s e := by
  unfold scaleOf
  have h1 : 0 < |s.get (p-1)| := abs_pos.mpr h
  exact lt_of_lt_of_le h1
    (le_trans (le_trans (le_trans (le_max_left _ _) (le_max_left _ _)) (le_max_left _ _))
      (le_max_left _ _))

/-- The divisor `b + shift` of line 451, with `shift = ±sqrt(b² + c)` carrying
the sign of `b` and `c ≥ 0`, is zero only for `b = 0` and `c = 0`. -/
theorem shift_divisor (sqrt : R → R) (hs : IsSqrt sqrt) (b c : R) (hc : 0 ≤ c)
    (h : b ≠ 0 ∨ c ≠ 0) :
    b + (if b < 0 then -sqrt (b * b + c) else sqrt (b * b + c)) ≠ 0 := by
  obtain ⟨h0, hsq⟩ := hs (b * b + c) (add_nonneg (mul_self_nonneg b) hc)
  split_ifs with hb
  · intro h1
    linarith
  · have hb0 : 0 ≤ b := not_lt.mp hb
    intro h1
    have hb1 : b = 0 := by linarith
    have hs1 : sqrt (b * b + c) = 0 := by linarith
    rw [hs1, hb1] at hsq
    rcases h with h | h
    · exact h hb1
    · apply h
      linarith

theorem shiftOfChecked_eq (sqrt : R → R) (hs : IsSqrt sqrt) (sp spm1 epm1 : R) :
    shiftOfChecked sqrt sp spm1 epm1 = some (shiftOf sqrt sp spm1 epm1) := by
  unfold shiftOfChecked shiftOf
  dsimp only
  split_ifs with h1 h2 h3 h4
  · exact absurd h3 (shift_divisor sqrt hs _ _ (mul_self_nonneg _) h1 |> fun h => by
      rw [if_pos h2] at h; exact h)
  · rfl
  · exact absurd h4 (shift_divisor sqrt hs _ _ (mul_self_nonneg _) h1 |> fun h => by
      rw [if_neg h2] at h; exact h)
  · rfl
  · rfl

/-- The classification of `p = 2`, `m_s = (1, 1)`, `e = (1, 0)` for
`eps < 1/2`: case 3 with `k = 0`. -/
theorem classify_ones (eps : R) (h1 : 2 * eps < 1) :
    classify eps 2 [1, 1] [1, 0] = (3, 0, [1, 1], [1, 0]) := by
  have a1 : ¬ ((1:R) ≤ eps * (1 + 1)) := by intro h; linarith
  have a2 : eps * (1 + 1) < 1 := by linarith
  have a3 : ¬ ((1:R) ≤ eps) := by intro h; linarith
  simp [classify, scanE, scanS, Vec.get, a1, a2, a3]

/-- C33 (amended): the shift computation never divides by zero.  In exact
arithmetic, with an exact square root and `eps ≥ 0`, whenever the
classification selects case 3, the value
`scale` of lines 432–434 is positive, the divisor `b + shift` of line 451 (with
`shift = ±sqrt(b² + c)` carrying the sign of `b`) is non-zero whenever the
shift is computed (`b ≠ 0` or `c ≠ 0`), and so lines 432–455 with both kinds of
division checked return the values of `f` and `g` that case 3 starts from. -/
theorem shift_never_divides_by_zero (sqrt : R → R) (hs : IsSqrt sqrt) (eps : R)
    (heps : 0 ≤ eps) (p : ℕ) (s e : Vec R) (h3 : (classify eps p s e).1 = 3) :
    0 < scaleOf p (classify eps p s e).2.1 (classify eps p s e).2.2.1
        (classify eps p s e).2.2.2 ∧
      (∀ sp spm1 epm1 : R,
        (((spm1 + sp) * (spm1 - sp) + epm1 * epm1) / 2 ≠ 0 ∨ (sp * epm1) * (sp * epm1) ≠ 0) →
        ((spm1 + sp) * (spm1 - sp) + epm1 * epm1) / 2 +
          (if ((spm1 + sp) * (spm1 - sp) + epm1 * epm1) / 2 < 0 then
            -sqrt ((((spm1 + sp) * (spm1 - sp) + epm1 * epm1) / 2) *
              (((spm1 + sp) * (spm1 - sp) + epm1 * epm1) / 2) + (sp * epm1) * (sp * epm1))
          else
            sqrt ((((spm1 + sp) * (spm1 - sp) + epm1 * epm1) / 2) *
              (((spm1 + sp) * (spm1 - sp) + epm1 * epm1) / 2) + (sp * epm1) * (sp * epm1)))
          ≠ 0) ∧
      shiftChecked sqrt p (classify eps p s e).2.1 (classify eps p s e).2.2.1
          (classify eps p s e).2.2.2 =
        some (shiftStart sqrt p (classify eps p s e).2.1 (classify eps p s e).2.2.1
          (classify eps p s e).2.2.2) := by
  have hp : 1 ≤ p := by
    rcases Nat.eq_zero_or_pos p with h | h
    · subst h
      simp [classify, scanE] at h3
    · exact h
  have hcl := classify_spec eps heps p hp s e
  have htop : (classify eps p s e).2.2.1.get (p-1) ≠ 0 := by
    rcases hcl with ⟨c1, _⟩ | ⟨c1, _⟩ | ⟨c1, _⟩ | ⟨_, c2, _, _, c5⟩
    · rw [c1] at h3; exact absurd h3 (by decide)
    · rw [c1] at h3; exact absurd h3 (by decide)
    · rw [c1] at h3; exact absurd h3 (by decide)
    · exact c5 (p-1) (by omega) (by omega)
  have hsc := scaleOf_pos p (classify eps p s e).2.1 (classify eps p s e).2.2.1
    (classify eps p s e).2.2.2 htop
  refine ⟨hsc, fun sp spm1 epm1 h => shift_divisor sqrt hs _ _ (mul_self_nonneg _) h, ?_⟩
  unfold shiftChecked shiftStart
  dsimp only
  have hne : ¬ scaleOf p (classify eps p s e).2.1 (classify eps p s e).2.2.1
      (classify eps p s e).2.2.2 = 0 := ne_of_gt hsc
  unfold scaleOf at hne ⊢
  rw [if_neg hne, shiftOfChecked_eq sqrt hs]
  rfl

/-- Witness for `shift_never_divides_by_zero`: over the reals with `eps = 2^-52`
the state `p = 2`, `m_s = (1, 1)`, `e = (1, 0)` is classified as case 3. -/
theorem shift_never_divides_by_zero_witness :
    IsSqrt Real.sqrt ∧ (0:ℝ) ≤ 1 / 2 ^ 52 ∧
      (classify (1 / 2 ^ 52 : ℝ) 2 [1, 1] [1, 0]).1 = 3 ∧
      0 < scaleOf 2 (classify (1 / 2 ^ 52 : ℝ) 2 [1, 1] [1, 0]).2.1
        (classify (1 / 2 ^ 52 : ℝ) 2 [1, 1] [1, 0]).2.2.1
        (classify (1 / 2 ^ 52 : ℝ) 2 [1, 1] [1, 0]).2.2.2 :=
  have hc : (classify (1 / 2 ^ 52 : ℝ) 2 [1, 1] [1, 0]).1 = 3 := by
    rw [classify_ones (1 / 2 ^ 52 : ℝ) (by norm_num)]
  ⟨fun x hx => ⟨Real.sqrt_nonneg x, Real.mul_self_sqrt hx⟩, by norm_num, hc,
    (shift_never_divides_by_zero Real.sqrt
      (fun x hx => ⟨Real.sqrt_nonneg x, Real.mul_self_sqrt hx⟩) (1 / 2 ^ 52) (by norm_num)
      2 [1, 1] [1, 0] hc).1⟩


/-! ### The rank loop after a finished main loop -/

/-- The rank loop started at `k ≥ 1` on a vector whose first entry reaches the
tolerance: it stops at some `r` with `1 ≤ r ≤ k` and reads only `s(r-1 .. k-1)`. -/
theorem rankLoop_pos (s : Vec R) (tol : R) (h0 : tol ≤ s.get 0) :
    ∀ k, 1 ≤ k → k ≤ s.length → ∃ r, rankLoop s tol k = some r ∧ 1 ≤ r ∧ r ≤ k := by
  intro k
  induction k with
  | zero => intro h; omega
  | succ n ih =>
    intro _ hk
    rw [rankLoop, Vec.read_eq s n (by omega)]
    dsimp only
    by_cases hlt : s.get n < tol
    · rw [if_pos hlt]
      have hn : 1 ≤ n := by
        rcases Nat.eq_zero_or_pos n with h | h
        · subst h
          exact absurd h0 (not_le.mpr hlt)
        · exact h
      obtain ⟨r, h1, h2, h3⟩ := ih hn (by omega)
      exact ⟨r, h1, h2, by omega⟩
    · rw [if_neg hlt]
      exact ⟨n+1, rfl, by omega, le_refl _⟩

/-- After a finished main loop the rank loop reads inside `m_s`: for an `M×N`
input (`M, N ≥ 1`) with `len(S)·eps ≤ 1`, the constructor returns,
`tol = len(S)·S(0)·eps ≤ S(0)` and `1 ≤ rank ≤ min(M,N)`. -/
theorem construct_finishes (sqrt : R → R) (eps : R) (fuel : ℕ) (A : Mat R)
    (wantu wantv : Bool) (hm : 1 ≤ A.rows) (hn : 1 ≤ A.cols)
    (hsmall : ((min (A.rows + 1) A.cols : ℕ) : R) * eps ≤ 1)
    (hterm : (mainLoop sqrt eps A.rows A.cols (min A.cols (A.rows + 1) - 1) wantu wantv fuel
      ⟨(SVD.init sqrt A wantu wantv).s, (SVD.init sqrt A wantu wantv).e,
        (SVD.init sqrt A wantu wantv).U, (SVD.init sqrt A wantu wantv).V,
        min A.cols (A.rows + 1), 0⟩).isSome = true) :
    ∃ d, SVD.construct sqrt eps fuel A wantu wantv = some d ∧
      (d.m_s.length : R) * d.m_s.get 0 * eps ≤ d.m_s.get 0 ∧
      1 ≤ d.rank ∧ d.rank ≤ min A.rows A.cols := by
  obtain ⟨st, hrun⟩ := Option.isSome_iff_exists.mp hterm
  have hlen := init_s_length sqrt A wantu wantv
  have hL : min A.cols (A.rows + 1) = min (A.rows + 1) A.cols := min_comm _ _
  have h0 : Vec.TailSorted (min A.cols (A.rows + 1)) (min A.cols (A.rows + 1))
      (SVD.init sqrt A wantu wantv).s :=
    ⟨by rw [hlen, hL], fun i j hi hij hj => by omega, fun i hi hiL => by omega⟩
  obtain ⟨hlen2, _, hnn⟩ := mainLoop_tailSorted sqrt eps A.rows A.cols
    (min A.cols (A.rows + 1)) wantu wantv fuel _ st (le_refl _) h0 hrun
  have hS0 : 0 ≤ st.s.get 0 := hnn 0 (Nat.zero_le _) (by omega)
  have hsm : (st.s.length : R) * eps ≤ 1 := by
    rw [hlen2, hL]
    exact hsmall
  have htol : (st.s.length : R) * st.s.get 0 * eps ≤ st.s.get 0 := by
    have : (st.s.length : R) * st.s.get 0 * eps = st.s.get 0 * ((st.s.length : R) * eps) := by
      ring
    rw [this]
    exact mul_le_of_le_one_right hS0 hsm
  obtain ⟨r, hr, hr1, hr2⟩ := rankLoop_pos st.s _ htol (min A.rows A.cols) (by omega)
    (by rw [hlen2]; omega)
  unfold SVD.construct
  dsimp only
  rw [hrun]
  dsimp only
  rw [hr]
  exact ⟨_, rfl, htol, hr1, hr2⟩

/-- C35 (amended): the rank loop is safe and never yields 0.  In exact
arithmetic, for every `M×N` input (`M, N ≥ 1`) on which the main loop of the
constructor terminates, with
`0 < eps` and `len(S)·eps < 1` (`len(S) = min(M+1,N)`), the constructor returns:
`tol = len(S)·S(0)·eps ≤ S(0)`, so the unguarded loop
`while (m_s(m_rank-1) < tol) m_rank--` reads only entries of `m_s` and stops with
`1 ≤ rank ≤ min(M,N)`. -/
theorem rank_loop_safe (sqrt : R → R) (eps : R) (fuel : ℕ) (A : Mat R) (wantu wantv : Bool)
    (hm : 1 ≤ A.rows) (hn : 1 ≤ A.cols) (_heps : 0 < eps)
    (hsmall : ((min (A.rows + 1) A.cols : ℕ) : R) * eps < 1)
    (hterm : (mainLoop sqrt eps A.rows A.cols (min A.cols (A.rows + 1) - 1) wantu wantv fuel
      ⟨(SVD.init sqrt A wantu wantv).s, (SVD.init sqrt A wantu wantv).e,
        (SVD.init sqrt A wantu wantv).U, (SVD.init sqrt A wantu wantv).V,
        min A.cols (A.rows + 1), 0⟩).isSome = true) :
    ∃ d, SVD.construct sqrt eps fuel A wantu wantv = some d ∧
      (d.m_s.length : R) * d.m_s.get 0 * eps ≤ d.m_s.get 0 ∧
      1 ≤ d.rank ∧ d.rank ≤ min A.rows A.cols := by
  have hle : ((min (A.rows + 1) A.cols : ℕ) : R) * eps ≤ 1 := le_of_lt hsmall
  obtain ⟨d, hd, htol, hr1, hr2⟩ := construct_finishes sqrt eps fuel A wantu wantv hm hn hle hterm
  exact ⟨d, hd, htol, hr1, hr2⟩

/-- Witness for `rank_loop_safe`: the matrix `diag(1, 0)`, on which the main
loop finishes within two passes with `S = (1, 0)`; `tol = 2·eps`, the rank loop
reads `m_s(1) = 0 < tol`, decrements once and stops at `m_s(0) = 1` with rank 1. -/
theorem rank_loop_safe_witness :
    1 ≤ D10.rows ∧ 1 ≤ D10.cols ∧ 0 < qeps ∧
      ((min (D10.rows + 1) D10.cols : ℕ) : ℚ) * qeps < 1 ∧
      (SVD.construct qsqrt qeps 2 D10 true true).map (fun d => (d.m_s, d.rank)) =
        some ([1, 0], 1) ∧
      ∃ d, SVD.construct qsqrt qeps 2 D10 true true = some d ∧
        (d.m_s.length : ℚ) * d.m_s.get 0 * qeps ≤ d.m_s.get 0 ∧
        1 ≤ d.rank ∧ d.rank ≤ min D10.rows D10.cols :=
  ⟨by decide, by decide, by decide!, by decide!, by decide!,
    rank_loop_safe qsqrt qeps 2 D10 true true (by decide) (by decide)
      (by decide!) (by decide!) (by decide!)⟩


/-! ### Case 4 and the factorisation -/

/-- The negation of column `k` over the rows `0 .. cnt-1` (lines 509–511). -/
theorem negCol_get (M : Mat R) (hWF : M.WF) (cnt k : ℕ) (hcnt : cnt ≤ M.rows)
    (hk : k < M.cols) :
    (forUp 0 cnt (fun i V => V.set i k (-(V.get i k))) M).WF ∧
      (forUp 0 cnt (fun i V => V.set i k (-(V.get i k))) M).rows = M.rows ∧
      (forUp 0 cnt (fun i V => V.set i k (-(V.get i k))) M).cols = M.cols ∧
      ∀ i j, (forUp 0 cnt (fun i V => V.set i k (-(V.get i k))) M).get i j =
        if i < cnt ∧ j = k then -(M.get i k) else M.get i j := by
  refine forUp_inv (fun t (B : Mat R) => B.WF ∧ B.rows = M.rows ∧ B.cols = M.cols ∧
      ∀ i j, B.get i j = if i < t ∧ j = k then -(M.get i k) else M.get i j) 0 cnt _ M
    (Nat.zero_le _) ⟨hWF, rfl, rfl, fun i j => by rw [if_neg (by omega)]⟩ ?_
  intro t B _ ht ⟨b1, b2, b3, b4⟩
  refine ⟨b1.set_entry _ _ _, b2, b3, fun i j => ?_⟩
  rw [Mat.entry_set B b1, b4 t k, b4 i j, if_neg (show ¬ (t < t ∧ k = k) by omega)]
  by_cases h1 : t = i ∧ k = j
  · obtain ⟨rfl, rfl⟩ := h1
    rw [if_pos (show t = t ∧ k = k ∧ t < B.rows ∧ k < B.cols from
      ⟨rfl, rfl, by omega, by omega⟩), if_pos (show t < t + 1 ∧ k = k from ⟨by omega, rfl⟩)]
  · rw [if_neg (show ¬ (t = i ∧ k = j ∧ t < B.rows ∧ k < B.cols) from
      fun h => h1 ⟨h.1, h.2.1⟩)]
    split_ifs <;> first | rfl | (exfalso; omega)

/-- A sum over `c < n` is unchanged when the terms `k` and `k+1` are exchanged. -/
theorem sum_swap_adjacent (n k : ℕ) (hk : k + 1 < n) (g : ℕ → R) :
    ∑ c in Finset.range n, g (if c = k then k + 1 else if c = k + 1 then k else c) =
      ∑ c in Finset.range n, g c := by
  refine Finset.sum_bij (fun c _ => if c = k then k + 1 else if c = k + 1 then k else c)
    ?_ ?_ ?_ ?_
  · intro c hc
    rw [Finset.mem_range] at hc ⊢
    dsimp only
    split_ifs <;> omega
  · intro a _ b _ hab
    dsimp only at hab
    split_ifs at hab <;> omega
  · intro b hb
    rw [Finset.mem_range] at hb
    refine ⟨if b = k then k + 1 else if b = k + 1 then k else b, ?_, ?_⟩
    · rw [Finset.mem_range]
      split_ifs <;> omega
    · dsimp only
      split_ifs <;> omega
  · intro c _
    rfl

/-- The exchange of lines 520–538 with both factors, for `k + 1 < n ≤ m`: the
sizes and the sum `Σ U(i,c)·S(c)·V(j,c)` are unchanged. -/
theorem orderSwap_recon (m n : ℕ) (hmn : n ≤ m) (k : ℕ) (hk : k + 1 < n) (st : Iter R)
    (h : Iter.Shape m n st) :
    Iter.Shape m n (orderSwap m n true true k st) ∧
      ∀ i j, (orderSwap m n true true k st).recon n i j = st.recon n i j := by
  obtain ⟨hs, he, ⟨u1, u2, u3⟩, ⟨v1, v2, v3⟩⟩ := h
  have hsl : st.s.length = n := by rw [hs]; omega
  obtain ⟨a1, a2, a3, a4⟩ := swapCols_get st.V v1 n k (by omega) (by omega)
  obtain ⟨b1, b2, b3, b4⟩ := swapCols_get st.U u1 m k (by omega) (by omega)
  unfold orderSwap
  dsimp only
  rw [if_pos (show (true = true) ∧ k < n - 1 from ⟨rfl, by omega⟩),
    if_pos (show (true = true) ∧ k < m - 1 from ⟨rfl, by omega⟩)]
  refine ⟨⟨by simp [Vec.length_set, hs], he, ⟨b1, b2.trans u2, b3.trans u3⟩,
    ⟨a1, a2.trans v2, a3.trans v3⟩⟩, fun i j => ?_⟩
  unfold Iter.recon
  dsimp only
  rw [← sum_swap_adjacent n k hk (fun c => st.U.get i c * st.s.get c * st.V.get j c)]
  apply Finset.sum_congr rfl
  intro c _
  have hVc : (swapCols n st.V k).get j c =
      st.V.get j (if c = k then k + 1 else if c = k + 1 then k else c) := by
    rw [a4]
    by_cases hj : j < n
    · split_ifs <;> first | rfl | (exfalso; omega)
    · have z : ∀ c2, st.V.get j c2 = 0 := fun c2 =>
        Mat.get_of_rows_le st.V v1 j c2 (by omega)
      rw [z, z, z, z]
      split_ifs <;> rfl
  have hUc : (swapCols m st.U k).get i c =
      st.U.get i (if c = k then k + 1 else if c = k + 1 then k else c) := by
    rw [b4]
    by_cases hi : i < m
    · split_ifs <;> first | rfl | (exfalso; omega)
    · have z : ∀ c2, st.U.get i c2 = 0 := fun c2 =>
        Mat.get_of_rows_le st.U u1 i c2 (by omega)
      rw [z, z, z, z]
      split_ifs <;> rfl
  have hSc : ((st.s.set k (st.s.get (k+1))).set (k+1) (st.s.get k)).get c =
      st.s.get (if c = k then k + 1 else if c = k + 1 then k else c) := by
    rw [Vec.get_set, Vec.get_set, Vec.length_set]
    split_ifs <;> first | rfl | (exfalso; omega)
  rw [hVc, hUc, hSc]

/-- The ordering loop of case 4 with both factors, for `n ≤ m`, started at `k`
with at most `n - 1 - k` passes: the sizes and the sum are unchanged. -/
theorem order_recon (m n : ℕ) (hmn : n ≤ m) :
    ∀ (d k : ℕ) (st : Iter R), k + d < n → Iter.Shape m n st →
      Iter.Shape m n (order m n true true d k st) ∧
        ∀ i j, (order m n true true d k st).recon n i j = st.recon n i j := by
  intro d
  induction d with
  | zero => exact fun k st _ h => ⟨h, fun _ _ => rfl⟩
  | succ d ih =>
    intro k st hk h
    rw [order]
    by_cases h1 : st.s.get k ≥ st.s.get (k+1)
    · rw [if_pos h1]
      exact ⟨h, fun _ _ => rfl⟩
    · rw [if_neg h1]
      obtain ⟨a, b⟩ := orderSwap_recon m n hmn k (by omega) st h
      obtain ⟨c, e⟩ := ih (k+1) _ (by omega) a
      exact ⟨c, fun i j => (e i j).trans (b i j)⟩

/-- C31: the convergence step preserves the factorization.  For `M ≥ N` with
both factors requested, on a state with `m_s` of `N` entries, `m_U` of size
`M×M` and `m_V` of size `N×N`, one execution of case 4 at `k < N` (the sign
correction of lines 504–513 followed by the ordering swaps of lines 516–541)
leaves `Σ_c U(i,c)·S(c)·V(j,c)`, `c < N`, unchanged for all `i, j`. -/
theorem case4_preserves_factorization (m n : ℕ) (hmn : n ≤ m) (k : ℕ) (hk : k < n)
    (st : Iter R) (h : Iter.Shape m n st) (i j : ℕ) :
    (case4 m n (min n (m+1) - 1) true true k st).recon n i j = st.recon n i j := by
  have hpp : min n (m+1) - 1 = n - 1 := by omega
  rw [hpp]
  obtain ⟨hs, he, hu, ⟨v1, v2, v3⟩⟩ := h
  have hsl : st.s.length = n := by rw [hs]; omega
  obtain ⟨a1, a2, a3, a4⟩ := negCol_get st.V v1 (n - 1 + 1) k (by omega) (by omega)
  have key : ∀ st1 : Iter R, Iter.Shape m n st1 →
      (∀ i j, st1.recon n i j = st.recon n i j) →
      ({ order m n true true (n - 1 - k) k st1 with
          iter := 0, p := (order m n true true (n - 1 - k) k st1).p - 1 } : Iter R).recon n i j
        = st.recon n i j := by
    intro st1 hsh hre
    obtain ⟨_, b⟩ := order_recon m n hmn (n - 1 - k) k st1 (by omega) hsh
    exact (b i j).trans (hre i j)
  unfold case4
  dsimp only
  by_cases h0 : st.s.get k ≤ 0
  · rw [if_pos h0, if_pos rfl]
    apply key
    · exact ⟨by simp [Vec.length_set, hs], he, hu, ⟨a1, a2.trans v2, a3.trans v3⟩⟩
    · intro i j
      unfold Iter.recon
      dsimp only
      apply Finset.sum_congr rfl
      intro c hc
      rw [Finset.mem_range] at hc
      have hV : (forUp 0 (n - 1 + 1) (fun i V => V.set i k (-(V.get i k))) st.V).get j c =
          if c = k then -(st.V.get j c) else st.V.get j c := by
        rw [a4]
        by_cases hj : j < n
        · split_ifs with e1 e2 e3 <;> first | rfl | (exfalso; omega) | (rw [e1.2])
        · have z : ∀ c2, st.V.get j c2 = 0 := fun c2 =>
            Mat.get_of_rows_le st.V v1 j c2 (by omega)
          rw [z, z]
          split_ifs <;> simp
      have hS : (st.s.set k (if st.s.get k < 0 then -(st.s.get k) else 0)).get c =
          if c = k then (if st.s.get k < 0 then -(st.s.get k) else 0) else st.s.get c := by
        rw [Vec.get_set]
        by_cases hck : c = k
        · rw [if_pos hck, if_pos ⟨hck.symm, by omega⟩]
        · rw [if_neg hck, if_neg (fun hh => hck hh.1.symm)]
      rw [hV, hS]
      by_cases hck : c = k
      · subst hck
        rw [if_pos rfl, if_pos rfl]
        by_cases hneg : st.s.get c < 0
        · rw [if_pos hneg]; ring
        · have : st.s.get c = 0 := le_antisymm h0 (not_lt.mp hneg)
          rw [if_neg hneg, this]; ring
      · rw [if_neg hck, if_neg hck]
  · rw [if_neg h0]
    exact key st ⟨hs, he, hu, ⟨v1, v2, v3⟩⟩ (fun _ _ => rfl)

/-- Witness for `case4_preserves_factorization`: case 4 at `k = 0` on `st31`
replaces `S(0) = -1` by `1`, negates column 0 of `V` and exchanges the entries
and columns 0 and 1. -/
theorem case4_preserves_factorization_witness :
    2 ≤ 2 ∧ 0 < 2 ∧ Iter.Shape 2 2 st31 ∧
      (case4 2 2 (min 2 (2+1) - 1) true true 0 st31).s = [3, 1] ∧
      (case4 2 2 (min 2 (2+1) - 1) true true 0 st31).V = ⟨2, 2, [[0, -1], [1, 0]]⟩ ∧
      (case4 2 2 (min 2 (2+1) - 1) true true 0 st31).U = ⟨2, 2, [[0, 1], [1, 0]]⟩ ∧
      (case4 2 2 (min 2 (2+1) - 1) true true 0 st31).recon 2 0 0 = st31.recon 2 0 0 :=
  have hsh : Iter.Shape 2 2 st31 :=
    ⟨rfl, rfl, ⟨by simp [Mat.WF, st31], rfl, rfl⟩, ⟨by simp [Mat.WF, st31], rfl, rfl⟩⟩
  ⟨le_refl _, by decide, hsh, by decide!, by decide!, by decide!,
    case4_preserves_factorization 2 2 (le_refl _) 0 (by decide) st31 hsh 0 0⟩


/-! ### The plane rotations of cases 1, 2 and 3 -/

theorem case1_steps (sqrt : R → R) (n : ℕ) (wantv : Bool) (p k : ℕ) (st : Iter R) :
    case1 sqrt n wantv p k st =
      (let c : Chase R := forDown k (p-1) (fun j c => case1Step sqrt n wantv p k j c)
        ⟨st.e.get (p-2), 0, st.s, st.e.set (p-2) 0, st.U, st.V⟩
      { st with s := c.s, e := c.e, V := c.V }) :=
  rfl

theorem case2_steps (sqrt : R → R) (m : ℕ) (wantu : Bool) (p k : ℕ) (st : Iter R) :
    case2 sqrt m wantu p k st =
      (let c : Chase R := forUp k p (fun j c => case2Step sqrt m wantu k j c)
        ⟨st.e.get (k-1), 0, st.s, st.e.set (k-1) 0, st.U, st.V⟩
      { st with s := c.s, e := c.e, U := c.U }) :=
  rfl

theorem chaseStep_parts (sqrt : R → R) (m n : ℕ) (wantu wantv : Bool) (k j : ℕ) (c : Chase R) :
    chaseStep sqrt m n wantu wantv k j c =
      chaseU sqrt m wantu j (chaseV sqrt n wantv k j c) :=
  rfl

/-- A rotation built from two values that are not both zero passes the test. -/
theorem isRotation_of_ne (sqrt : R → R) (hs : IsSqrt sqrt) (a b : R) (h : a ≠ 0 ∨ b ≠ 0) :
    isRotation sqrt a b = true := by
  unfold isRotation
  rw [decide_eq_true_eq]
  exact ⟨lt_of_le_of_ne (hypot_nonneg sqrt hs a b) (Ne.symm (hypot_ne_zero sqrt hs a b h)),
    rot_coeffs sqrt hs a b h⟩

/-- With `eps ≥ 0` and `p ≥ 1`, what the classification guarantees about the
entries that cases 1 and 2 rotate in: in case 1 `k + 1 < p` and the entries
`e(k .. p-2)` are non-zero; in case 2 the entries `s(k .. p-1)` are non-zero. -/
theorem classify_rotated (eps : R) (heps : 0 ≤ eps) (p : ℕ) (hp : 1 ≤ p) (s e : Vec R) :
    ((classify eps p s e).1 = 1 → (classify eps p s e).2.1 + 1 < p ∧
        ∀ j, (classify eps p s e).2.1 ≤ j → j + 1 < p →
          (classify eps p s e).2.2.2.get j ≠ 0) ∧
      ((classify eps p s e).1 = 2 →
        ∀ j, (classify eps p s e).2.1 ≤ j → j < p → (classify eps p s e).2.2.1.get j ≠ 0) := by
  obtain ⟨hE1, hE2⟩ := scanE_spec eps heps s e (p-1)
  unfold classify
  dsimp only
  generalize scanE eps s e (p-1) = k1 at hE1 hE2 ⊢
  have he : ∀ j, k1 ≤ j → j + 1 < p → (if k1 = 0 then e else e.set (k1-1) 0).get j ≠ 0 := by
    intro j h1 h2
    split_ifs with h3
    · exact hE2 j h1 (by omega)
    · rw [Vec.get_set_ne _ _ _ _ (by omega)]
      exact hE2 j h1 (by omega)
  generalize (if k1 = 0 then e else e.set (k1-1) 0) = e2 at he ⊢
  by_cases h4 : k1 = p - 1
  · rw [if_pos h4]
    dsimp only
    exact ⟨fun h => absurd h (by decide), fun h => absurd h (by decide)⟩
  · rw [if_neg h4]
    obtain ⟨hS1, hS2⟩ := scanS_spec eps heps s e2 p k1 p (by omega)
    have hS3 := scanS_le eps s e2 p k1 p
    generalize scanS eps s e2 p k1 p = ks1 at hS1 hS2 hS3 ⊢
    by_cases h3 : ks1 = k1
    · rw [if_pos h3, if_pos h3]
      dsimp only
      exact ⟨fun h => absurd h (by decide), fun h => absurd h (by decide)⟩
    · rw [if_neg h3, if_neg h3]
      by_cases h1 : ks1 = p
      · rw [if_pos h1]
        dsimp only
        exact ⟨fun _ => ⟨by omega, he⟩, fun h => absurd h (by decide)⟩
      · rw [if_neg h1]
        dsimp only
        refine ⟨fun h => absurd h (by decide), fun _ j h5 h6 => ?_⟩
        rw [Vec.get_set_ne _ _ _ _ (by omega)]
        exact hS2 j h5 h6

/-- Case 1 from a state with `k + 1 < p` and `e(k .. p-2)` non-zero: every
rotation passes the test. -/
theorem case1_checked (sqrt : R → R) (hs : IsSqrt sqrt) (n : ℕ) (wantv : Bool) (p k : ℕ)
    (st : Iter R) (hk : k + 1 < p) (he : ∀ j, k ≤ j → j + 1 < p → st.e.get j ≠ 0) :
    case1Checked sqrt n wantv p k st = some (case1 sqrt n wantv p k st) := by
  have key := forDown_bind_some
    (fun t (c : Chase R) => c.f ≠ 0 ∧ ∀ i, i + 1 < t → c.e.get i = (st.e.set (p-2) 0).get i)
    k (p-1) (fun j c => case1Step sqrt n wantv p k j c)
    (fun j c => if isRotation sqrt (c.s.get j) c.f then
      some (case1Step sqrt n wantv p k j c) else none)
    ⟨st.e.get (p-2), 0, st.s, st.e.set (p-2) 0, st.U, st.V⟩ (by omega)
    ⟨he (p-2) (by omega) (by omega), fun _ _ => rfl⟩
    (by
      intro j c hj1 hj2 ⟨hf, hc⟩
      dsimp only
      rw [isRotation_of_ne sqrt hs _ _ (Or.inr hf), if_pos rfl]
      refine ⟨rfl, ?_⟩
      have ht := hypot_ne_zero sqrt hs (c.s.get j) c.f (Or.inr hf)
      unfold case1Step
      dsimp only
      by_cases hjk : j = k
      · rw [if_neg (not_not.mpr hjk)]
        split_ifs <;> exact ⟨hf, fun i hi => hc i (by omega)⟩
      · rw [if_pos hjk]
        have hnew : -(c.f / hypot sqrt (c.s.get j) c.f) * c.e.get (j-1) ≠ 0 := by
          rw [hc (j-1) (by omega), Vec.get_set_ne _ _ _ _ (by omega)]
          exact mul_ne_zero (neg_ne_zero.mpr (div_ne_zero hf ht)) (he (j-1) (by omega) (by omega))
        split_ifs <;>
          · refine ⟨hnew, fun i hi => ?_⟩
            dsimp only
            rw [Vec.get_set_ne _ _ _ _ (by omega)]
            exact hc i (by omega))
  unfold case1Checked
  dsimp only
  rw [key.1, case1_steps]
  rfl

/-- Case 2 from a state with `s(k .. p-1)` non-zero: every rotation passes the
test. -/
theorem case2_checked (sqrt : R → R) (hs : IsSqrt sqrt) (m : ℕ) (wantu : Bool) (p k : ℕ)
    (st : Iter R) (hsn : ∀ j, k ≤ j → j < p → st.s.get j ≠ 0) :
    case2Checked sqrt m wantu p k st = some (case2 sqrt m wantu p k st) := by
  unfold case2Checked
  dsimp only
  rw [case2_steps]
  rcases Nat.lt_or_ge p k with hlt | hge
  · rw [forUp_eq_self _ _ _ _ (le_of_lt hlt), forUp_eq_self _ _ _ _ (le_of_lt hlt)]
    rfl
  · have key := forUp_bind_some
      (fun t (c : Chase R) => ∀ i, t ≤ i → c.s.get i = st.s.get i)
      k p (fun j c => case2Step sqrt m wantu k j c)
      (fun j c => if isRotation sqrt (c.s.get j) c.f then
        some (case2Step sqrt m wantu k j c) else none)
      ⟨st.e.get (k-1), 0, st.s, st.e.set (k-1) 0, st.U, st.V⟩ hge
      (fun _ _ => rfl)
      (by
        intro j c hj1 hj2 hc
        dsimp only
        have hsj : c.s.get j ≠ 0 := by rw [hc j (le_refl _)]; exact hsn j hj1 hj2
        rw [isRotation_of_ne sqrt hs _ _ (Or.inl hsj), if_pos rfl]
        refine ⟨rfl, fun i hi => ?_⟩
        unfold case2Step
        dsimp only
        split_ifs <;>
          · dsimp only
            rw [Vec.get_set_ne _ _ _ _ (by omega)]
            exact hc i (by omega))
    rw [key.1]
    rfl

/-- The fields of the state after the first rotation of a pass of the chase. -/
theorem chaseV_fields (sqrt : R → R) (n : ℕ) (wantv : Bool) (k j : ℕ) (c : Chase R) :
    (chaseV sqrt n wantv k j c).g = c.g / hypot sqrt c.f c.g * c.s.get (j+1) ∧
      (∀ i, j + 1 < i → (chaseV sqrt n wantv k j c).s.get i = c.s.get i) ∧
      ∀ i, j < i → (chaseV sqrt n wantv k j c).e.get i = c.e.get i := by
  unfold chaseV
  dsimp only
  refine ⟨?_, ?_, ?_⟩
  · split_ifs <;> rfl
  · intro i hi
    split_ifs <;>
      · dsimp only
        rw [Vec.get_set_ne _ _ _ _ (by omega)]
  · intro i hi
    split_ifs <;>
      · dsimp only
        first
          | rw [Vec.get_set_ne _ _ _ _ (by omega), Vec.get_set_ne _ _ _ _ (by omega)]
          | rw [Vec.get_set_ne _ _ _ _ (by omega)]

/-- The fields of the state after the second rotation of a pass of the chase. -/
theorem chaseU_fields (sqrt : R → R) (m : ℕ) (wantu : Bool) (j : ℕ) (c : Chase R) :
    (chaseU sqrt m wantu j c).g = c.g / hypot sqrt c.f c.g * c.e.get (j+1) ∧
      (∀ i, j + 1 < i → (chaseU sqrt m wantu j c).s.get i = c.s.get i) ∧
      ∀ i, j + 1 < i → (chaseU sqrt m wantu j c).e.get i = c.e.get i := by
  unfold chaseU
  dsimp only
  refine ⟨?_, ?_, ?_⟩
  · split_ifs <;> rfl
  · intro i hi
    split_ifs <;>
      · dsimp only
        rw [Vec.get_set_ne _ _ _ _ (by omega), Vec.get_set_ne _ _ _ _ (by omega)]
  · intro i hi
    split_ifs <;>
      · dsimp only
        rw [Vec.get_set_ne _ _ _ _ (by omega)]

/-- Case 3 from a state with `k + 1 < p` and the entries `s(k .. p-1)` and
`e(k .. p-2)` non-zero: every rotation of the chase passes the test. -/
theorem case3_checked (sqrt : R → R) (hs : IsSqrt sqrt) (m n : ℕ) (wantu wantv : Bool)
    (p k : ℕ) (st : Iter R) (hk : k + 1 < p)
    (hsn : ∀ j, k ≤ j → j < p → st.s.get j ≠ 0)
    (hen : ∀ j, k ≤ j → j + 1 < p → st.e.get j ≠ 0) :
    case3Checked sqrt m n wantu wantv p k st = some (case3 sqrt m n wantu wantv p k st) := by
  have hsc : scaleOf p k st.s st.e ≠ 0 :=
    ne_of_gt (scaleOf_pos p k st.s st.e (hsn (p-1) (by omega) (by omega)))
  have hg0 : (shiftStart sqrt p k st.s st.e).2 ≠ 0 := by
    unfold shiftStart
    dsimp only
    exact mul_ne_zero (div_ne_zero (hsn k (le_refl _) (by omega)) hsc)
      (div_ne_zero (hen k (le_refl _) hk) hsc)
  have key := forUp_bind_some
    (fun t (c : Chase R) => (t + 1 < p → c.g ≠ 0) ∧ (∀ i, t < i → c.s.get i = st.s.get i) ∧
      ∀ i, t < i → c.e.get i = st.e.get i)
    k (p-1) (fun j c => chaseStep sqrt m n wantu wantv k j c)
    (fun j c => chaseStepChecked sqrt m n wantu wantv k j c)
    ⟨(shiftStart sqrt p k st.s st.e).1, (shiftStart sqrt p k st.s st.e).2,
      st.s, st.e, st.U, st.V⟩ (by omega)
    ⟨fun _ => hg0, fun _ _ => rfl, fun _ _ => rfl⟩
    (by
      intro j c hj1 hj2 ⟨hg, hcs, hce⟩
      have hg1 : c.g ≠ 0 := hg (by omega)
      have ht1 := hypot_ne_zero sqrt hs c.f c.g (Or.inr hg1)
      obtain ⟨v1, v2, v3⟩ := chaseV_fields sqrt n wantv k j c
      have hg2 : (chaseV sqrt n wantv k j c).g ≠ 0 := by
        rw [v1, hcs (j+1) (by omega)]
        exact mul_ne_zero (div_ne_zero hg1 ht1) (hsn (j+1) (by omega) (by omega))
      have ht2 := hypot_ne_zero sqrt hs (chaseV sqrt n wantv k j c).f
        (chaseV sqrt n wantv k j c).g (Or.inr hg2)
      obtain ⟨u1, u2, u3⟩ := chaseU_fields sqrt m wantu j (chaseV sqrt n wantv k j c)
      unfold chaseStepChecked
      dsimp only
      rw [isRotation_of_ne sqrt hs _ _ (Or.inr hg1), if_pos rfl,
        isRotation_of_ne sqrt hs _ _ (Or.inr hg2), if_pos rfl, chaseStep_parts]
      refine ⟨rfl, fun h => ?_, fun i hi => ?_, fun i hi => ?_⟩
      · rw [u1, v3 (j+1) (by omega), hce (j+1) (by omega)]
        exact mul_ne_zero (div_ne_zero hg2 ht2) (hen (j+1) (by omega) (by omega))
      · rw [u2 i (by omega), v2 i (by omega)]
        exact hcs i (by omega)
      · rw [u3 i (by omega), v3 i (by omega)]
        exact hce i (by omega))
  unfold case3Checked
  dsimp only
  rw [key.1, case3_start]
  rfl

/-- C32 (amended): plane rotations are genuine rotations.  In exact arithmetic,
with an exact square root and `eps ≥ 0`, one pass of the main loop from any
state, with the test
"`t = hypot(·,·) > 0` and `cs² + sn² = 1`" made at every rotation of cases 1, 2
and 3 (lines 384, 411, 459, 479), passes every test and gives the state of the
pass without the tests. -/
theorem rotations_genuine (sqrt : R → R) (hs : IsSqrt sqrt) (eps : R) (heps : 0 ≤ eps)
    (m n pp : ℕ) (wantu wantv : Bool) (st : Iter R) :
    iterStepChecked sqrt eps m n pp wantu wantv st =
      some (iterStep sqrt eps m n pp wantu wantv st) := by
  unfold iterStepChecked iterStep
  dsimp only
  by_cases h1 : (classify eps st.p st.s st.e).1 = 1
  · have hp : 1 ≤ st.p := by
      rcases Nat.eq_zero_or_pos st.p with h | h
      · rw [h] at h1
        simp [classify, scanE] at h1
      · exact h
    obtain ⟨a, b⟩ := (classify_rotated eps heps st.p hp st.s st.e).1 h1
    rw [if_pos h1, if_pos h1]
    exact case1_checked sqrt hs n wantv st.p _ _ a b
  · rw [if_neg h1, if_neg h1]
    by_cases h2 : (classify eps st.p st.s st.e).1 = 2
    · have hp : 1 ≤ st.p := by
        rcases Nat.eq_zero_or_pos st.p with h | h
        · rw [h] at h2
          simp [classify, scanE] at h2
        · exact h
      rw [if_pos h2, if_pos h2]
      exact case2_checked sqrt hs m wantu st.p _ _
        ((classify_rotated eps heps st.p hp st.s st.e).2 h2)
    · rw [if_neg h2, if_neg h2]
      by_cases h3 : (classify eps st.p st.s st.e).1 = 3
      · have hp : 1 ≤ st.p := by
          rcases Nat.eq_zero_or_pos st.p with h | h
          · rw [h] at h3
            simp [classify, scanE] at h3
          · exact h
        rw [if_pos h3, if_pos h3]
        rcases classify_spec eps heps st.p hp st.s st.e with
          ⟨c1, _⟩ | ⟨c1, _⟩ | ⟨c1, _⟩ | ⟨_, c2, _, c4, c5⟩
        · rw [c1] at h3; exact absurd h3 (by decide)
        · rw [c1] at h3; exact absurd h3 (by decide)
        · rw [c1] at h3; exact absurd h3 (by decide)
        · exact case3_checked sqrt hs m n wantu wantv st.p _ _ c2 c5 c4
      · rw [if_neg h3, if_neg h3]

/-- Witness for `rotations_genuine`: over the reals with `eps = 2^-52`, the
pass from the state `st32`, which is a qr step (case 3) with two rotations. -/
theorem rotations_genuine_witness :
    IsSqrt Real.sqrt ∧ (0:ℝ) ≤ 1 / 2 ^ 52 ∧
      (classify (1 / 2 ^ 52 : ℝ) (st32 ℝ).p (st32 ℝ).s (st32 ℝ).e).1 = 3 ∧
      iterStepChecked Real.sqrt (1 / 2 ^ 52) 2 2 1 true true (st32 ℝ) =
        some (iterStep Real.sqrt (1 / 2 ^ 52) 2 2 1 true true (st32 ℝ)) :=
  ⟨fun x hx => ⟨Real.sqrt_nonneg x, Real.mul_self_sqrt hx⟩, by norm_num,
    by
      show (classify (1 / 2 ^ 52 : ℝ) 2 [1, 1] [1, 0]).1 = 3
      rw [classify_ones (1 / 2 ^ 52 : ℝ) (by norm_num)],
    rotations_genuine Real.sqrt (fun x hx => ⟨Real.sqrt_nonneg x, Real.mul_self_sqrt hx⟩)
      (1 / 2 ^ 52) (by norm_num) 2 2 1 true true (st32 ℝ)⟩


/-! ### Index safety of the constructor -/

theorem inRange_ok {α : Type} (len : ℕ) (i : ℤ) (next : Option α) (h0 : 0 ≤ i)
    (h1 : i < len) : inRange len i next = next := by
  unfold inRange
  rw [if_pos ⟨h0, h1⟩]

/-- A loop whose checked body succeeds with the value of the unchecked body,
under an invariant of the state. -/
theorem forUp_ix {σ : Type} (Inv : σ → Prop) (lo hi : ℕ) (f : ℕ → σ → σ)
    (g : ℕ → σ → Option σ) (st : σ) (h0 : Inv st)
    (hstep : ∀ i s, lo ≤ i → i < hi → Inv s → g i s = some (f i s) ∧ Inv (f i s)) :
    forUp lo hi (fun i o => o.bind (fun s => g i s)) (some st) = some (forUp lo hi f st) ∧
      Inv (forUp lo hi f st) := by
  rcases Nat.lt_or_ge hi lo with h | h
  · rw [forUp_eq_self _ _ _ _ (le_of_lt h), forUp_eq_self _ _ _ _ (le_of_lt h)]
    exact ⟨rfl, h0⟩
  · exact forUp_bind_some (fun _ s => Inv s) lo hi f g st h h0 hstep

theorem forDown_ix {σ : Type} (Inv : σ → Prop) (lo hi : ℕ) (f : ℕ → σ → σ)
    (g : ℕ → σ → Option σ) (st : σ) (h0 : Inv st)
    (hstep : ∀ i s, lo ≤ i → i < hi → Inv s → g i s = some (f i s) ∧ Inv (f i s)) :
    forDown lo hi (fun i o => o.bind (fun s => g i s)) (some st) = some (forDown lo hi f st) ∧
      Inv (forDown lo hi f st) := by
  rcases Nat.lt_or_ge hi lo with h | h
  · rw [forDown_eq_self _ _ _ _ (le_of_lt h), forDown_eq_self _ _ _ _ (le_of_lt h)]
    exact ⟨rfl, h0⟩
  · exact forDown_bind_some (fun _ s => Inv s) lo hi f g st h h0 hstep

theorem colTransform_cut (sqrt : R → R) (m k : ℕ) (st : Bidiag R) :
    colTransform sqrt m k st = colNeg k (colScale m k (colNorm sqrt m k st)) := rfl

theorem colNorm_ix (sqrt : R → R) (m n k : ℕ) (st : Bidiag R) (hd : st.Dims m n)
    (hk : k < min (m-1) n) :
    colNormIx sqrt m k st = some (colNorm sqrt m k st) ∧ (colNorm sqrt m k st).Dims m n := by
  obtain ⟨⟨a1, a2⟩, hs, he, hw, hu, hv⟩ := hd
  have l1 := forUp_ix (fun s : Vec R => s.length = min (m+1) n) k m
    (fun i s => s.set k (hypot sqrt (s.get k) (st.A.get i k)))
    (fun i s => s.ix k <| st.A.ix i k <|
      some (s.set k (hypot sqrt (s.get k) (st.A.get i k)))) (st.s.set k 0)
    (by simpa only [Vec.length_set] using hs)
    (by
      intro i s hi1 hi2 hsl
      refine ⟨?_, by simpa only [Vec.length_set] using hsl⟩
      simp (disch := omega) only [Vec.ix, Mat.ix, inRange_ok])
  dsimp only at l1
  unfold colNormIx colNorm
  rw [Vec.ix, inRange_ok _ _ _ (by omega) (by omega), l1.1]
  exact ⟨rfl, ⟨a1, a2⟩, l1.2, he, hw, hu, hv⟩

theorem colScale_ix (m n k : ℕ) (st : Bidiag R) (hd : st.Dims m n) (hk : k < min (m-1) n) :
    colScaleIx m k st = some (colScale m k st) ∧ (colScale m k st).Dims m n := by
  obtain ⟨⟨a1, a2⟩, hs, he, hw, hu, hv⟩ := hd
  have l2 : ∀ (s2 : Vec R), s2.length = min (m+1) n →
      forUp k m (fun i o => o.bind fun A =>
        A.ix i k <| s2.ix k <| some (A.set i k (A.get i k / s2.get k))) (some st.A) =
        some (forUp k m (fun i A => A.set i k (A.get i k / s2.get k)) st.A) ∧
      (forUp k m (fun i A => A.set i k (A.get i k / s2.get k)) st.A).rows = m ∧
      (forUp k m (fun i A => A.set i k (A.get i k / s2.get k)) st.A).cols = n := by
    intro s2 hs2
    exact forUp_ix (fun A : Mat R => A.rows = m ∧ A.cols = n) k m
      (fun i A => A.set i k (A.get i k / s2.get k))
      (fun i A => A.ix i k <| s2.ix k <| some (A.set i k (A.get i k / s2.get k))) st.A
      ⟨a1, a2⟩
      (by
        intro i A hi1 hi2 ⟨b1, b2⟩
        refine ⟨?_, b1, b2⟩
        simp (disch := omega) only [Vec.ix, Mat.ix, inRange_ok])
  unfold colScaleIx colScale
  rw [Vec.ix, inRange_ok _ _ _ (by omega) (by omega)]
  by_cases h1 : st.s.get k ≠ 0
  · rw [if_pos h1, if_pos h1, Mat.ix, inRange_ok _ _ _ (by omega) (by omega),
      inRange_ok _ _ _ (by omega) (by omega)]
    by_cases h2 : st.A.get k k < 0
    · rw [if_pos h2, if_pos h2, Vec.ix, inRange_ok _ _ _ (by omega) (by omega)]
      obtain ⟨c1, c2, c3⟩ := l2 (st.s.set k (-(st.s.get k)))
        (by simpa only [Vec.length_set] using hs)
      dsimp only [Option.some_bind]
      rw [c1]
      dsimp only [Option.some_bind]
      rw [Mat.ix, inRange_ok _ _ _ (by omega) (by omega), inRange_ok _ _ _ (by omega) (by omega)]
      exact ⟨rfl, ⟨c2, c3⟩, by simpa only [Vec.length_set] using hs, he, hw, hu, hv⟩
    · rw [if_neg h2, if_neg h2]
      obtain ⟨c1, c2, c3⟩ := l2 st.s hs
      dsimp only [Option.some_bind]
      rw [c1]
      dsimp only [Option.some_bind]
      rw [Mat.ix, inRange_ok _ _ _ (by omega) (by omega), inRange_ok _ _ _ (by omega) (by omega)]
      exact ⟨rfl, ⟨c2, c3⟩, hs, he, hw, hu, hv⟩
  · rw [if_neg h1, if_neg h1]
    exact ⟨rfl, ⟨a1, a2⟩, hs, he, hw, hu, hv⟩

theorem colNeg_ix (m n k : ℕ) (st : Bidiag R) (hd : st.Dims m n) (hk : k < min (m-1) n) :
    colNegIx k st = some (colNeg k st) ∧ (colNeg k st).Dims m n := by
  obtain ⟨⟨a1, a2⟩, hs, he, hw, hu, hv⟩ := hd
  unfold colNegIx colNeg
  rw [Vec.ix, inRange_ok _ _ _ (by omega) (by omega)]
  exact ⟨rfl, ⟨a1, a2⟩, by simpa only [Vec.length_set] using hs, he, hw, hu, hv⟩

theorem colTransform_ix (sqrt : R → R) (m n k : ℕ) (st : Bidiag R) (hd : st.Dims m n)
    (hk : k < min (m-1) n) :
    colTransformIx sqrt m k st = some (colTransform sqrt m k st) ∧
      (colTransform sqrt m k st).Dims m n := by
  obtain ⟨b1, b2⟩ := colNorm_ix sqrt m n k st hd hk
  obtain ⟨c1, c2⟩ := colScale_ix m n k _ b2 hk
  obtain ⟨d1, d2⟩ := colNeg_ix m n k _ c2 hk
  unfold colTransformIx
  rw [b1, Option.some_bind, c1, Option.some_bind, d1, colTransform_cut]
  exact ⟨rfl, d2⟩

theorem colPart_cut (sqrt : R → R) (m n nct : ℕ) (wantu : Bool) (k : ℕ) (st : Bidiag R) :
    colPart sqrt m n nct wantu k st =
      storeU m nct wantu k (forUp (k+1) n (fun j st => applyCol m nct k j st)
        (if k < nct then colTransform sqrt m k st else st)) := rfl

theorem applyCol_ix (m n k j : ℕ) (st : Bidiag R) (hd : st.Dims m n) (hk : k < m)
    (hj : j < n) (hkn : k < n) :
    applyColIx m (min (m-1) n) k j st = some (applyCol m (min (m-1) n) k j st) ∧
      (applyCol m (min (m-1) n) k j st).Dims m n := by
  obtain ⟨⟨a1, a2⟩, hs, he, hw, hu, hv⟩ := hd
  have l1 := (forUp_ix (fun _ : R => True) k m
    (fun i t => t + st.A.get i k * st.A.get i j)
    (fun i t => st.A.ix i k <| st.A.ix i j <| some (t + st.A.get i k * st.A.get i j)) 0
    trivial
    (by
      intro i t hi1 hi2 _
      refine ⟨?_, trivial⟩
      simp (disch := omega) only [Vec.ix, Mat.ix, inRange_ok])).1
  have l2 : ∀ t : R, forUp k m (fun i o => o.bind fun A =>
        A.ix i j <| A.ix i k <| some (A.set i j (A.get i j + t * A.get i k))) (some st.A) =
        some (forUp k m (fun i A => A.set i j (A.get i j + t * A.get i k)) st.A) ∧
      (forUp k m (fun i A => A.set i j (A.get i j + t * A.get i k)) st.A).rows = m ∧
      (forUp k m (fun i A => A.set i j (A.get i j + t * A.get i k)) st.A).cols = n := by
    intro t
    exact forUp_ix (fun A : Mat R => A.rows = m ∧ A.cols = n) k m
      (fun i A => A.set i j (A.get i j + t * A.get i k))
      (fun i A => A.ix i j <| A.ix i k <| some (A.set i j (A.get i j + t * A.get i k))) st.A
      ⟨a1, a2⟩
      (by
        intro i A hi1 hi2 ⟨b1, b2⟩
        refine ⟨?_, b1, b2⟩
        simp (disch := omega) only [Vec.ix, Mat.ix, inRange_ok])
  have g0 : (if k < min (m-1) n then st.s.ix k (some ()) else some ()) = some () := by
    split_ifs with h
    · rw [Vec.ix, inRange_ok _ _ _ (by omega) (by omega)]
    · rfl
  unfold applyColIx applyCol
  rw [g0, Option.some_bind]
  by_cases h1 : k < min (m-1) n ∧ st.s.get k ≠ 0
  · obtain ⟨c1, c2, c3⟩ := l2 (-(forUp k m (fun i t => t + st.A.get i k * st.A.get i j) 0) /
      st.A.get k k)
    rw [if_pos h1, if_pos h1, l1, Option.some_bind, Mat.ix,
      inRange_ok _ _ _ (by omega) (by omega), inRange_ok _ _ _ (by omega) (by omega), c1]
    dsimp only [Option.map_some', Option.some_bind]
    rw [Vec.ix, inRange_ok _ _ _ (by omega) (by omega), Mat.ix,
      inRange_ok _ _ _ (by omega) (by omega), inRange_ok _ _ _ (by omega) (by omega)]
    exact ⟨rfl, ⟨c2, c3⟩, hs, by simpa only [Vec.length_set] using he, hw, hu, hv⟩
  · rw [if_neg h1, if_neg h1, Option.some_bind, Vec.ix,
      inRange_ok _ _ _ (by omega) (by omega), Mat.ix,
      inRange_ok _ _ _ (by omega) (by omega), inRange_ok _ _ _ (by omega) (by omega)]
    exact ⟨rfl, ⟨a1, a2⟩, hs, by simpa only [Vec.length_set] using he, hw, hu, hv⟩

theorem storeU_ix (m n : ℕ) (wantu : Bool) (k : ℕ) (st : Bidiag R) (hd : st.Dims m n) :
    storeUIx m (min (m-1) n) wantu k st = some (storeU m (min (m-1) n) wantu k st) ∧
      (storeU m (min (m-1) n) wantu k st).Dims m n := by
  obtain ⟨⟨a1, a2⟩, hs, he, hw, ⟨u1, u2⟩, hv⟩ := hd
  unfold storeUIx storeU
  by_cases h1 : wantu = true ∧ k < min (m-1) n
  · have l1 := forUp_ix (fun U : Mat R => U.rows = m ∧ U.cols = m) k m
      (fun i U => U.set i k (st.A.get i k))
      (fun i U => U.ix i k <| st.A.ix i k <| some (U.set i k (st.A.get i k))) st.U
      ⟨u1, u2⟩
      (by
        intro i U hi1 hi2 ⟨b1, b2⟩
        refine ⟨?_, b1, b2⟩
        simp (disch := omega) only [Vec.ix, Mat.ix, inRange_ok])
    dsimp only at l1
    rw [if_pos h1, if_pos h1, l1.1]
    exact ⟨rfl, ⟨a1, a2⟩, hs, he, hw, l1.2, hv⟩
  · rw [if_neg h1, if_neg h1]
    exact ⟨rfl, ⟨a1, a2⟩, hs, he, hw, ⟨u1, u2⟩, hv⟩

theorem colPart_ix (sqrt : R → R) (m n : ℕ) (wantu : Bool) (k : ℕ) (st : Bidiag R)
    (hd : st.Dims m n) (hk : k < m) (hkn : k < n) :
    colPartIx sqrt m n (min (m-1) n) wantu k st =
        some (colPart sqrt m n (min (m-1) n) wantu k st) ∧
      (colPart sqrt m n (min (m-1) n) wantu k st).Dims m n := by
  have b : (if k < min (m-1) n then colTransformIx sqrt m k st else some st) =
        some (if k < min (m-1) n then colTransform sqrt m k st else st) ∧
      (if k < min (m-1) n then colTransform sqrt m k st else st).Dims m n := by
    split_ifs with h
    · exact colTransform_ix sqrt m n k st hd h
    · exact ⟨rfl, hd⟩
  have c := forUp_ix (fun b : Bidiag R => b.Dims m n) (k+1) n
    (fun j st => applyCol m (min (m-1) n) k j st)
    (fun j st => applyColIx m (min (m-1) n) k j st) _ b.2
    (fun j b _ hj hb => applyCol_ix m n k j b hb hk hj hkn)
  obtain ⟨d1, d2⟩ := storeU_ix m n wantu k _ c.2
  unfold colPartIx
  rw [b.1, Option.some_bind, c.1, Option.some_bind, d1, colPart_cut]
  exact ⟨rfl, d2⟩

theorem rowNorm_cut (sqrt : R → R) (n k : ℕ) (st : Bidiag R) :
    rowNorm sqrt n k st = rowNeg k (rowScale n k (rowNrm sqrt n k st)) := rfl

theorem rowApply_cut (m n k : ℕ) (st : Bidiag R) :
    rowApply m n k st =
      if k + 1 < m ∧ st.e.get k ≠ 0 then rowUpdate m n k (workSum m n k (workZero m k st))
      else st := rfl

theorem rowNrm_ix (sqrt : R → R) (m n k : ℕ) (st : Bidiag R) (hd : st.Dims m n)
    (hk : k + 1 < n) :
    rowNrmIx sqrt n k st = some (rowNrm sqrt n k st) ∧ (rowNrm sqrt n k st).Dims m n := by
  obtain ⟨ha, hs, he, hw, hu, hv⟩ := hd
  have l1 := forUp_ix (fun e : Vec R => e.length = n) (k+1) n
    (fun i e => e.set k (hypot sqrt (e.get k) (e.get i)))
    (fun i e => e.ix k <| e.ix i <| some (e.set k (hypot sqrt (e.get k) (e.get i))))
    (st.e.set k 0) (by simpa only [Vec.length_set] using he)
    (by
      intro i e hi1 hi2 hel
      refine ⟨?_, by simpa only [Vec.length_set] using hel⟩
      simp (disch := omega) only [Vec.ix, Mat.ix, inRange_ok])
  dsimp only at l1
  unfold rowNrmIx rowNrm
  rw [Vec.ix, inRange_ok _ _ _ (by omega) (by omega), l1.1]
  exact ⟨rfl, ha, hs, l1.2, hw, hu, hv⟩

theorem rowScale_ix (m n k : ℕ) (st : Bidiag R) (hd : st.Dims m n) (hk : k + 1 < n) :
    rowScaleIx n k st = some (rowScale n k st) ∧ (rowScale n k st).Dims m n := by
  obtain ⟨ha, hs, he, hw, hu, hv⟩ := hd
  have l2 : ∀ (e2 : Vec R), e2.length = n →
      forUp (k+1) n (fun i o => o.bind fun e =>
        e.ix i <| e.ix k <| some (e.set i (e.get i / e.get k))) (some e2) =
        some (forUp (k+1) n (fun i e => e.set i (e.get i / e.get k)) e2) ∧
      (forUp (k+1) n (fun i e => e.set i (e.get i / e.get k)) e2).length = n := by
    intro e2 he2
    exact forUp_ix (fun e : Vec R => e.length = n) (k+1) n
      (fun i e => e.set i (e.get i / e.get k))
      (fun i e => e.ix i <| e.ix k <| some (e.set i (e.get i / e.get k))) e2 he2
      (by
        intro i e hi1 hi2 hel
        refine ⟨?_, by simpa only [Vec.length_set] using hel⟩
        simp (disch := omega) only [Vec.ix, Mat.ix, inRange_ok])
  unfold rowScaleIx rowScale
  rw [Vec.ix, inRange_ok _ _ _ (by omega) (by omega)]
  by_cases h1 : st.e.get k ≠ 0
  · rw [if_pos h1, if_pos h1, Vec.ix, inRange_ok _ _ _ (by omega) (by omega)]
    by_cases h2 : st.e.get (k+1) < 0
    · rw [if_pos h2, if_pos h2, Vec.ix, inRange_ok _ _ _ (by omega) (by omega)]
      obtain ⟨c1, c2⟩ := l2 (st.e.set k (-(st.e.get k)))
        (by simpa only [Vec.length_set] using he)
      dsimp only [Option.some_bind]
      rw [c1]
      dsimp only [Option.some_bind]
      rw [Vec.ix, inRange_ok _ _ _ (by omega) (by omega)]
      exact ⟨rfl, ha, hs, by simpa only [Vec.length_set] using c2, hw, hu, hv⟩
    · rw [if_neg h2, if_neg h2]
      obtain ⟨c1, c2⟩ := l2 st.e he
      dsimp only [Option.some_bind]
      rw [c1]
      dsimp only [Option.some_bind]
      rw [Vec.ix, inRange_ok _ _ _ (by omega) (by omega)]
      exact ⟨rfl, ha, hs, by simpa only [Vec.length_set] using c2, hw, hu, hv⟩
  · rw [if_neg h1, if_neg h1]
    exact ⟨rfl, ha, hs, he, hw, hu, hv⟩

theorem rowNeg_ix (m n k : ℕ) (st : Bidiag R) (hd : st.Dims m n) (hk : k + 1 < n) :
    rowNegIx k st = some (rowNeg k st) ∧ (rowNeg k st).Dims m n := by
  obtain ⟨ha, hs, he, hw, hu, hv⟩ := hd
  unfold rowNegIx rowNeg
  rw [Vec.ix, inRange_ok _ _ _ (by omega) (by omega)]
  exact ⟨rfl, ha, hs, by simpa only [Vec.length_set] using he, hw, hu, hv⟩

theorem workZero_ix (m n k : ℕ) (st : Bidiag R) (hd : st.Dims m n) :
    workZeroIx m k st = some (workZero m k st) ∧ (workZero m k st).Dims m n := by
  obtain ⟨ha, hs, he, hw, hu, hv⟩ := hd
  have l1 := forUp_ix (fun w : Vec R => w.length = m) (k+1) m
    (fun i w => w.set i 0) (fun i w => w.ix i <| some (w.set i 0)) st.work hw
    (by
      intro i w hi1 hi2 hwl
      refine ⟨?_, by simpa only [Vec.length_set] using hwl⟩
      simp (disch := omega) only [Vec.ix, Mat.ix, inRange_ok])
  dsimp only at l1
  unfold workZeroIx workZero
  rw [l1.1]
  exact ⟨rfl, ha, hs, he, l1.2, hu, hv⟩

theorem workSum_ix (m n k : ℕ) (st : Bidiag R) (hd : st.Dims m n) :
    workSumIx m n k st = some (workSum m n k st) ∧ (workSum m n k st).Dims m n := by
  obtain ⟨⟨a1, a2⟩, hs, he, hw, hu, hv⟩ := hd
  have l1 := forUp_ix (fun w : Vec R => w.length = m) (k+1) n
    (fun j w => forUp (k+1) m (fun i w => w.set i (w.get i + st.e.get j * st.A.get i j)) w)
    (fun j w => forUp (k+1) m (fun i o => o.bind fun w =>
        w.ix i <| st.e.ix j <| st.A.ix i j <|
          some (w.set i (w.get i + st.e.get j * st.A.get i j))) (some w)) st.work hw
    (by
      intro j w hj1 hj2 hwl
      exact forUp_ix (fun w : Vec R => w.length = m) (k+1) m
        (fun i w => w.set i (w.get i + st.e.get j * st.A.get i j))
        (fun i w => w.ix i <| st.e.ix j <| st.A.ix i j <|
          some (w.set i (w.get i + st.e.get j * st.A.get i j))) w hwl
        (by
          intro i w2 hi1 hi2 hwl2
          refine ⟨?_, by simpa only [Vec.length_set] using hwl2⟩
          simp (disch := omega) only [Vec.ix, Mat.ix, inRange_ok]))
  dsimp only at l1
  unfold workSumIx workSum
  rw [l1.1]
  exact ⟨rfl, ⟨a1, a2⟩, hs, he, l1.2, hu, hv⟩

theorem rowUpdate_ix (m n k : ℕ) (st : Bidiag R) (hd : st.Dims m n) (hk : k + 1 < n) :
    rowUpdateIx m n k st = some (rowUpdate m n k st) ∧ (rowUpdate m n k st).Dims m n := by
  obtain ⟨⟨a1, a2⟩, hs, he, hw, hu, hv⟩ := hd
  have l1 := forUp_ix (fun A : Mat R => A.rows = m ∧ A.cols = n) (k+1) n
    (fun j A => forUp (k+1) m (fun i A =>
      A.set i j (A.get i j + -(st.e.get j) / st.e.get (k+1) * st.work.get i)) A)
    (fun j A => st.e.ix j <| st.e.ix (k+1) <|
      forUp (k+1) m (fun i o => o.bind fun A =>
        A.ix i j <| st.work.ix i <|
          some (A.set i j (A.get i j + -(st.e.get j) / st.e.get (k+1) * st.work.get i)))
        (some A)) st.A ⟨a1, a2⟩
    (by
      intro j A hj1 hj2 ⟨b1, b2⟩
      dsimp only
      rw [Vec.ix, inRange_ok _ _ _ (by omega) (by omega), Vec.ix,
        inRange_ok _ _ _ (by omega) (by omega)]
      exact forUp_ix (fun A : Mat R => A.rows = m ∧ A.cols = n) (k+1) m
        (fun i A => A.set i j (A.get i j + -(st.e.get j) / st.e.get (k+1) * st.work.get i))
        (fun i A => A.ix i j <| st.work.ix i <|
          some (A.set i j (A.get i j + -(st.e.get j) / st.e.get (k+1) * st.work.get i)))
        A ⟨b1, b2⟩
        (by
          intro i A2 hi1 hi2 ⟨c1, c2⟩
          refine ⟨?_, c1, c2⟩
          simp (disch := omega) only [Vec.ix, Mat.ix, inRange_ok]))
  dsimp only at l1
  unfold rowUpdateIx rowUpdate
  rw [l1.1]
  exact ⟨rfl, l1.2, hs, he, hw, hu, hv⟩

theorem rowApply_ix (m n k : ℕ) (st : Bidiag R) (hd : st.Dims m n) (hk : k + 1 < n) :
    rowApplyIx m n k st = some (rowApply m n k st) ∧ (rowApply m n k st).Dims m n := by
  have he := hd.2.2.1
  unfold rowApplyIx
  rw [rowApply_cut, Vec.ix, inRange_ok _ _ _ (by omega) (by omega)]
  by_cases h1 : k + 1 < m ∧ st.e.get k ≠ 0
  · obtain ⟨b1, b2⟩ := workZero_ix m n k st hd
    obtain ⟨c1, c2⟩ := workSum_ix m n k _ b2
    obtain ⟨d1, d2⟩ := rowUpdate_ix m n k _ c2 hk
    rw [if_pos h1, if_pos h1, b1, Option.some_bind, c1, Option.some_bind, d1]
    exact ⟨rfl, d2⟩
  · rw [if_neg h1, if_neg h1]
    exact ⟨rfl, hd⟩

theorem rowStore_ix (m n k : ℕ) (wantv : Bool) (st : Bidiag R) (hd : st.Dims m n)
    (hk : k + 1 < n) :
    rowStoreIx n k wantv st = some (rowStore n k wantv st) ∧
      (rowStore n k wantv st).Dims m n := by
  obtain ⟨ha, hs, he, hw, hu, ⟨v1, v2⟩⟩ := hd
  unfold rowStoreIx rowStore
  by_cases h1 : wantv = true
  · have l1 := forUp_ix (fun V : Mat R => V.rows = n ∧ V.cols = n) (k+1) n
      (fun i V => V.set i k (st.e.get i))
      (fun i V => V.ix i k <| st.e.ix i <| some (V.set i k (st.e.get i))) st.V
      ⟨v1, v2⟩
      (by
        intro i V hi1 hi2 ⟨b1, b2⟩
        refine ⟨?_, b1, b2⟩
        simp (disch := omega) only [Vec.ix, Mat.ix, inRange_ok])
    dsimp only at l1
    rw [if_pos h1, if_pos h1, l1.1]
    exact ⟨rfl, ha, hs, he, hw, hu, l1.2⟩
  · rw [if_neg h1, if_neg h1]
    exact ⟨rfl, ha, hs, he, hw, hu, ⟨v1, v2⟩⟩

theorem rowTransform_ix (sqrt : R → R) (m n k : ℕ) (wantv : Bool) (st : Bidiag R)
    (hd : st.Dims m n) (hk : k + 1 < n) :
    rowTransformIx sqrt m n k wantv st = some (rowTransform sqrt m n k wantv st) ∧
      (rowTransform sqrt m n k wantv st).Dims m n := by
  obtain ⟨b1, b2⟩ := rowNrm_ix sqrt m n k st hd hk
  obtain ⟨c1, c2⟩ := rowScale_ix m n k _ b2 hk
  obtain ⟨d1, d2⟩ := rowNeg_ix m n k _ c2 hk
  obtain ⟨e1, e2⟩ := rowApply_ix m n k _ d2 hk
  obtain ⟨f1, f2⟩ := rowStore_ix m n k wantv _ e2 hk
  unfold rowTransformIx
  rw [b1, Option.some_bind, c1, Option.some_bind, d1, Option.some_bind, e1, Option.some_bind,
    f1, rowTransform_parts, rowNorm_cut]
  exact ⟨rfl, f2⟩

theorem bidiagStep_ix (sqrt : R → R) (m n : ℕ) (wantu wantv : Bool) (k : ℕ) (st : Bidiag R)
    (hd : st.Dims m n) (hk : k < max (min (m-1) n) (max 0 (min (n-2) m))) :
    bidiagStepIx sqrt m n (min (m-1) n) (max 0 (min (n-2) m)) wantu wantv k st =
        some (bidiagStep sqrt m n (min (m-1) n) (max 0 (min (n-2) m)) wantu wantv k st) ∧
      (bidiagStep sqrt m n (min (m-1) n) (max 0 (min (n-2) m)) wantu wantv k st).Dims m n := by
  obtain ⟨b1, b2⟩ := colPart_ix sqrt m n wantu k st hd (by omega) (by omega)
  unfold bidiagStepIx
  rw [b1, Option.some_bind, bidiagStep_parts]
  by_cases h1 : k < max 0 (min (n-2) m)
  · rw [if_pos h1, if_pos h1]
    exact rowTransform_ix sqrt m n k wantv _ b2 (by omega)
  · rw [if_neg h1, if_neg h1]
    exact ⟨rfl, b2⟩

theorem genUStep_cut (m : ℕ) (s : Vec R) (k : ℕ) (U : Mat R) :
    genUStep m s k U =
      if s.get k ≠ 0 then genUZero k (genUNeg m k (backApply m k k U)) else colId m k U := rfl

theorem genVStep_cut (n nrt : ℕ) (e : Vec R) (k : ℕ) (V : Mat R) :
    genVStep n nrt e k V =
      colId n k (if k < nrt ∧ e.get k ≠ 0 then backApply n (k+1) k V else V) := rfl

theorem generateU_cut (m nct : ℕ) (s : Vec R) (U : Mat R) :
    generateU m nct s U =
      forDown 0 nct (fun k U => genUStep m s k U)
        (forUp nct m (fun j U => colId m j U) U) := rfl

theorem backApply_ix (cnt r0 k : ℕ) (M : Mat R) (hr : M.rows = cnt) (hc : M.cols = cnt)
    (hk : k < cnt) (hr0 : r0 < cnt) :
    backApplyIx cnt r0 k M = some (backApply cnt r0 k M) ∧
      (backApply cnt r0 k M).rows = cnt ∧ (backApply cnt r0 k M).cols = cnt := by
  unfold backApplyIx backApply
  exact forUp_ix (fun U : Mat R => U.rows = cnt ∧ U.cols = cnt) (k+1) cnt
    (fun j U => forUp r0 cnt (fun i W => W.set i j (W.get i j +
      -(forUp r0 cnt (fun i t => t + U.get i k * U.get i j) 0) / U.get r0 k * W.get i k)) U)
    (fun j U =>
      (forUp r0 cnt (fun i o => o.bind fun t =>
          U.ix i k <| U.ix i j <| some (t + U.get i k * U.get i j)) (some 0)).bind fun t =>
      U.ix r0 k <|
      forUp r0 cnt (fun i o => o.bind fun W =>
          W.ix i j <| W.ix i k <| some (W.set i j (W.get i j + -t / U.get r0 k * W.get i k)))
        (some U)) M ⟨hr, hc⟩
    (by
      intro j U hj1 hj2 ⟨b1, b2⟩
      have l1 := (forUp_ix (fun _ : R => True) r0 cnt
        (fun i t => t + U.get i k * U.get i j)
        (fun i t => U.ix i k <| U.ix i j <| some (t + U.get i k * U.get i j)) 0 trivial
        (by
          intro i t hi1 hi2 _
          refine ⟨?_, trivial⟩
          simp (disch := omega) only [Vec.ix, Mat.ix, inRange_ok])).1
      dsimp only
      rw [l1, Option.some_bind, Mat.ix, inRange_ok _ _ _ (by omega) (by omega),
        inRange_ok _ _ _ (by omega) (by omega)]
      exact forUp_ix (fun W : Mat R => W.rows = cnt ∧ W.cols = cnt) r0 cnt
        (fun i W => W.set i j (W.get i j +
          -(forUp r0 cnt (fun i t => t + U.get i k * U.get i j) 0) / U.get r0 k * W.get i k))
        (fun i W => W.ix i j <| W.ix i k <| some (W.set i j (W.get i j +
          -(forUp r0 cnt (fun i t => t + U.get i k * U.get i j) 0) / U.get r0 k * W.get i k)))
        U ⟨b1, b2⟩
        (by
          intro i W hi1 hi2 ⟨c1, c2⟩
          refine ⟨?_, c1, c2⟩
          simp (disch := omega) only [Vec.ix, Mat.ix, inRange_ok]))

theorem zeroCol_ix (lo hi cnt k : ℕ) (M : Mat R) (hr : M.rows = cnt) (hc : M.cols = cnt)
    (hk : k < cnt) (hhi : hi ≤ cnt) :
    forUp lo hi (fun i o => o.bind fun U => U.ix i k <| some (U.set i k 0)) (some M) =
        some (forUp lo hi (fun i U => U.set i k 0) M) ∧
      (forUp lo hi (fun i U => U.set i k 0) M).rows = cnt ∧
      (forUp lo hi (fun i U => U.set i k 0) M).cols = cnt :=
  forUp_ix (fun U : Mat R => U.rows = cnt ∧ U.cols = cnt) lo hi
    (fun i U => U.set i k 0) (fun i U => U.ix i k <| some (U.set i k 0)) M ⟨hr, hc⟩
    (by
      intro i U hi1 hi2 ⟨c1, c2⟩
      refine ⟨?_, c1, c2⟩
      simp (disch := omega) only [Vec.ix, Mat.ix, inRange_ok])

theorem genUNeg_ix (m k : ℕ) (U : Mat R) (hr : U.rows = m) (hc : U.cols = m) (hk : k < m) :
    genUNegIx m k U = some (genUNeg m k U) ∧
      (genUNeg m k U).rows = m ∧ (genUNeg m k U).cols = m := by
  have l1 := forUp_ix (fun U : Mat R => U.rows = m ∧ U.cols = m) k m
    (fun i U => U.set i k (-(U.get i k)))
    (fun i U => U.ix i k <| some (U.set i k (-(U.get i k)))) U ⟨hr, hc⟩
    (by
      intro i U hi1 hi2 ⟨c1, c2⟩
      refine ⟨?_, c1, c2⟩
      simp (disch := omega) only [Vec.ix, Mat.ix, inRange_ok])
  dsimp only at l1
  obtain ⟨l2, l3, l4⟩ := l1
  unfold genUNegIx genUNeg
  rw [l2, Option.some_bind, Mat.ix, inRange_ok _ _ _ (by omega) (by omega),
    inRange_ok _ _ _ (by omega) (by omega)]
  exact ⟨rfl, l3, l4⟩

theorem genUZero_ix (m k : ℕ) (U : Mat R) (hr : U.rows = m) (hc : U.cols = m) (hk : k < m) :
    genUZeroIx k U = some (genUZero k U) ∧
      (genUZero k U).rows = m ∧ (genUZero k U).cols = m := by
  unfold genUZeroIx genUZero
  exact zeroCol_ix 0 (k-1) m k U hr hc hk (by omega)

theorem colId_ix (cnt k : ℕ) (M : Mat R) (hr : M.rows = cnt) (hc : M.cols = cnt)
    (hk : k < cnt) :
    colIdIx cnt k M = some (colId cnt k M) ∧
      (colId cnt k M).rows = cnt ∧ (colId cnt k M).cols = cnt := by
  obtain ⟨l2, l3, l4⟩ := zeroCol_ix 0 cnt cnt k M hr hc hk (le_refl _)
  unfold colIdIx colId
  rw [l2, Option.some_bind, Mat.ix, inRange_ok _ _ _ (by omega) (by omega),
    inRange_ok _ _ _ (by omega) (by omega)]
  exact ⟨rfl, l3, l4⟩

theorem genUStep_ix (m : ℕ) (s : Vec R) (k : ℕ) (U : Mat R) (hr : U.rows = m)
    (hc : U.cols = m) (hk : k < m) (hs : k < s.length) :
    genUStepIx m s k U = some (genUStep m s k U) ∧
      (genUStep m s k U).rows = m ∧ (genUStep m s k U).cols = m := by
  unfold genUStepIx
  rw [genUStep_cut, Vec.ix, inRange_ok _ _ _ (by omega) (by omega)]
  by_cases h1 : s.get k ≠ 0
  · obtain ⟨b1, b2, b3⟩ := backApply_ix m k k U hr hc hk hk
    obtain ⟨c1, c2, c3⟩ := genUNeg_ix m k _ b2 b3 hk
    obtain ⟨d1, d2, d3⟩ := genUZero_ix m k _ c2 c3 hk
    rw [if_pos h1, if_pos h1, b1, Option.some_bind, c1, Option.some_bind, d1]
    exact ⟨rfl, d2, d3⟩
  · rw [if_neg h1, if_neg h1]
    exact colId_ix m k U hr hc hk

theorem genVStep_ix (n nrt : ℕ) (e : Vec R) (k : ℕ) (V : Mat R) (hr : V.rows = n)
    (hc : V.cols = n) (hk : k < n) (he : e.length = n) (hnrt : nrt + 2 ≤ n ∨ nrt = 0) :
    genVStepIx n nrt e k V = some (genVStep n nrt e k V) ∧
      (genVStep n nrt e k V).rows = n ∧ (genVStep n nrt e k V).cols = n := by
  have b : (if k < nrt ∧ e.get k ≠ 0 then backApplyIx n (k+1) k V else some V) =
        some (if k < nrt ∧ e.get k ≠ 0 then backApply n (k+1) k V else V) ∧
      (if k < nrt ∧ e.get k ≠ 0 then backApply n (k+1) k V else V).rows = n ∧
      (if k < nrt ∧ e.get k ≠ 0 then backApply n (k+1) k V else V).cols = n := by
    split_ifs with h
    · exact backApply_ix n (k+1) k V hr hc hk (by omega)
    · exact ⟨rfl, hr, hc⟩
  unfold genVStepIx
  rw [genVStep_cut, Vec.ix, inRange_ok _ _ _ (by omega) (by omega), b.1, Option.some_bind]
  exact colId_ix n k _ b.2.1 b.2.2 hk

theorem generateU_ix (m nct : ℕ) (s : Vec R) (U : Mat R) (hr : U.rows = m) (hc : U.cols = m)
    (hnct : nct < m) (hs : nct ≤ s.length) :
    generateUIx m nct s U = some (generateU m nct s U) ∧
      (generateU m nct s U).rows = m ∧ (generateU m nct s U).cols = m := by
  have b := forUp_ix (fun U : Mat R => U.rows = m ∧ U.cols = m) nct m
    (fun j U => colId m j U) (fun j U => colIdIx m j U) U ⟨hr, hc⟩
    (fun j W _ hj hW => colId_ix m j W hW.1 hW.2 hj)
  have c := forDown_ix (fun U : Mat R => U.rows = m ∧ U.cols = m) 0 nct
    (fun k U => genUStep m s k U) (fun k U => genUStepIx m s k U) _ b.2
    (fun k W _ hk hW => genUStep_ix m s k W hW.1 hW.2 (by omega) (by omega))
  unfold generateUIx
  rw [b.1, Option.some_bind, c.1, generateU_cut]
  exact ⟨rfl, c.2⟩

theorem generateV_ix (n nrt : ℕ) (e : Vec R) (V : Mat R) (hr : V.rows = n) (hc : V.cols = n)
    (he : e.length = n) (hnrt : nrt + 2 ≤ n ∨ nrt = 0) :
    generateVIx n nrt e V = some (generateV n nrt e V) ∧
      (generateV n nrt e V).rows = n ∧ (generateV n nrt e V).cols = n := by
  have c := forDown_ix (fun V : Mat R => V.rows = n ∧ V.cols = n) 0 n
    (fun k V => genVStep n nrt e k V) (fun k V => genVStepIx n nrt e k V) V ⟨hr, hc⟩
    (fun k W _ hk hW => genVStep_ix n nrt e k W hW.1 hW.2 hk he hnrt)
  unfold generateVIx
  rw [c.1, generateV_steps]
  exact ⟨rfl, c.2⟩

theorem init_ix (sqrt : R → R) (A : Mat R) (hm : 1 ≤ A.rows) (hn : 1 ≤ A.cols)
    (wantu wantv : Bool) :
    SVD.initIx sqrt A wantu wantv = some (SVD.init sqrt A wantu wantv) ∧
      (SVD.init sqrt A wantu wantv).Dims A.rows A.cols := by
  have n1 : min (A.rows-1) A.cols < A.rows := by omega
  have n2 : min (A.rows-1) A.cols ≤ min (A.rows+1) A.cols := by omega
  have n3 : max 0 (min (A.cols-2) A.rows) + 2 ≤ A.cols ∨
      max 0 (min (A.cols-2) A.rows) = 0 := by omega
  have h0 : Bidiag.Dims A.rows A.cols (⟨A, Vec.zeros (min (A.rows+1) A.cols),
      Vec.zeros A.cols, Vec.zeros A.rows, Mat.zeros A.rows A.rows,
      Mat.zeros A.cols A.cols⟩ : Bidiag R) :=
    ⟨⟨rfl, rfl⟩, Vec.length_zeros _, Vec.length_zeros _, Vec.length_zeros _, ⟨rfl, rfl⟩,
      ⟨rfl, rfl⟩⟩
  have b := forUp_ix (fun b : Bidiag R => b.Dims A.rows A.cols) 0
    (max (min (A.rows-1) A.cols) (max 0 (min (A.cols-2) A.rows)))
    (fun k st => bidiagStep sqrt A.rows A.cols (min (A.rows-1) A.cols)
      (max 0 (min (A.cols-2) A.rows)) wantu wantv k st)
    (fun k st => bidiagStepIx sqrt A.rows A.cols (min (A.rows-1) A.cols)
      (max 0 (min (A.cols-2) A.rows)) wantu wantv k st) _ h0
    (fun k st _ hk hst => bidiagStep_ix sqrt A.rows A.cols wantu wantv k st hst hk)
  unfold SVD.initIx SVD.init
  dsimp only
  rw [b.1, Option.some_bind]
  generalize forUp 0 (max (min (A.rows-1) A.cols) (max 0 (min (A.cols-2) A.rows)))
    (fun k st => bidiagStep sqrt A.rows A.cols (min (A.rows-1) A.cols)
      (max 0 (min (A.cols-2) A.rows)) wantu wantv k st)
    (⟨A, Vec.zeros (min (A.rows+1) A.cols), Vec.zeros A.cols, Vec.zeros A.rows,
      Mat.zeros A.rows A.rows, Mat.zeros A.cols A.cols⟩ : Bidiag R) = st1 at b ⊢
  obtain ⟨⟨a1, a2⟩, hs, he, hw, hu, hv⟩ := b.2
  rw [finalSetupChecked_eq A.rows A.cols _ _ hm hn rfl rfl st1 a1 a2 hs he, Option.some_bind]
  obtain ⟨f1, f2, f3, f4, f5, f6, _, _⟩ := finalSetup_frame A.rows A.cols st1
  generalize finalSetup A.rows A.cols (min (A.rows-1) A.cols)
    (max 0 (min (A.cols-2) A.rows)) st1 = st2 at f1 f2 f3 f4 f5 f6 ⊢
  have hd2 : st2.Dims A.rows A.cols :=
    ⟨by rw [f1]; exact ⟨a1, a2⟩, f5.trans hs, f6.trans he, by rw [f4]; exact hw,
      by rw [f2]; exact hu, by rw [f3]; exact hv⟩
  obtain ⟨ha2, hs2, he2, hw2, ⟨u1, u2⟩, ⟨v1, v2⟩⟩ := hd2
  have hU : (if wantu = true then
        (generateUIx A.rows (min (A.rows-1) A.cols) st2.s st2.U).map
          fun U => ({ st2 with U := U } : Bidiag R)
      else some st2) =
        some (if wantu = true then
          { st2 with U := generateU A.rows (min (A.rows-1) A.cols) st2.s st2.U } else st2) ∧
      (if wantu = true then
          { st2 with U := generateU A.rows (min (A.rows-1) A.cols) st2.s st2.U }
        else st2).Dims A.rows A.cols := by
    split_ifs
    · obtain ⟨g1, g2, g3⟩ := generateU_ix A.rows (min (A.rows-1) A.cols) st2.s st2.U u1 u2
        (by omega) (by omega)
      rw [g1]
      exact ⟨rfl, ha2, hs2, he2, hw2, ⟨g2, g3⟩, ⟨v1, v2⟩⟩
    · exact ⟨rfl, ha2, hs2, he2, hw2, ⟨u1, u2⟩, ⟨v1, v2⟩⟩
  rw [hU.1, Option.some_bind]
  generalize (if wantu = true then
      ({ st2 with U := generateU A.rows (min (A.rows-1) A.cols) st2.s st2.U } : Bidiag R)
    else st2) = st3 at hU ⊢
  obtain ⟨ha3, hs3, he3, hw3, hu3, ⟨w1, w2⟩⟩ := hU.2
  split_ifs
  · obtain ⟨g1, g2, g3⟩ := generateV_ix A.cols (max 0 (min (A.cols-2) A.rows)) st3.e st3.V
      w1 w2 he3 n3
    rw [g1]
    exact ⟨rfl, ha3, hs3, he3, hw3, hu3, ⟨g2, g3⟩⟩
  · exact ⟨rfl, ha3, hs3, he3, hw3, hu3, ⟨w1, w2⟩⟩

theorem scanE_ix (eps : R) (s e : Vec R) :
    ∀ a, a = 0 ∨ (a + 1 ≤ s.length ∧ a ≤ e.length) →
      scanEIx eps s e a = some (scanE eps s e a) := by
  intro a
  induction a with
  | zero => intro _; rfl
  | succ k ih =>
    intro h
    rw [scanEIx, scanE, Vec.ix, inRange_ok _ _ _ (by omega) (by omega), Vec.ix,
      inRange_ok _ _ _ (by omega) (by omega), Vec.ix, inRange_ok _ _ _ (by omega) (by omega)]
    split_ifs
    · rfl
    · exact ih (by omega)

theorem scanS_ix (eps : R) (s e : Vec R) (p k1 : ℕ) (hs : p ≤ s.length) (he : p ≤ e.length) :
    ∀ a, k1 ≤ a → a ≤ p → scanSIx eps s e p k1 a = some (scanS eps s e p k1 a) := by
  intro a
  induction a with
  | zero => intro _ _; rfl
  | succ ks ih =>
    intro h1 h2
    rw [scanSIx, scanS]
    by_cases h3 : ks + 1 = k1
    · rw [if_pos h3, if_pos h3]
    · rw [if_neg h3, if_neg h3]
      have g1 : (if ks ≠ p then e.ix ks (some ()) else some ()) = some () := by
        split_ifs
        · rw [Vec.ix, inRange_ok _ _ _ (by omega) (by omega)]
        · rfl
      have g2 : (if ks ≠ k1 then e.ix ((ks:ℤ) - 1) (some ()) else some ()) = some () := by
        split_ifs
        · rw [Vec.ix, inRange_ok _ _ _ (by omega) (by omega)]
        · rfl
      rw [g1, Option.some_bind, g2, Option.some_bind, Vec.ix,
        inRange_ok _ _ _ (by omega) (by omega)]
      dsimp only
      split_ifs <;> first | rfl | exact ih (by omega) (by omega)

theorem scanS_ge (eps : R) (s e : Vec R) (p k1 : ℕ) :
    ∀ a, k1 ≤ a → k1 ≤ scanS eps s e p k1 a := by
  intro a
  induction a with
  | zero => intro h; rw [scanS]; exact h
  | succ ks ih =>
    intro h
    rw [scanS]
    dsimp only
    split_ifs <;> omega

theorem classify_ix (eps : R) (p : ℕ) (hp : 1 ≤ p) (s e : Vec R) (hs : p ≤ s.length)
    (he : p ≤ e.length) :
    classifyIx eps p s e = some (classify eps p s e) ∧
      (classify eps p s e).2.2.1.length = s.length ∧
      (classify eps p s e).2.2.2.length = e.length := by
  have hE := scanE_ix eps s e (p-1) (by omega)
  have hk1 : scanE eps s e (p-1) ≤ p - 1 := by
    have : ∀ a, scanE eps s e a ≤ a := by
      intro a
      induction a with
      | zero => exact le_refl _
      | succ k ih =>
        rw [scanE]
        split_ifs
        · exact le_refl _
        · omega
    exact this _
  unfold classifyIx classify
  rw [hE, Option.some_bind]
  dsimp only
  generalize scanE eps s e (p-1) = k1 at hk1 ⊢
  have g1 : (if k1 = 0 then some e else e.ix ((k1:ℤ) - 1) (some (e.set (k1-1) 0))) =
      some (if k1 = 0 then e else e.set (k1-1) 0) := by
    split_ifs
    · rfl
    · rw [Vec.ix, inRange_ok _ _ _ (by omega) (by omega)]
  have hel : (if k1 = 0 then e else e.set (k1-1) 0).length = e.length := by
    split_ifs
    · rfl
    · exact Vec.length_set _ _ _
  rw [g1, Option.some_bind]
  generalize (if k1 = 0 then e else e.set (k1-1) 0) = e2 at hel ⊢
  by_cases h4 : k1 = p - 1
  · rw [if_pos h4, if_pos h4]
    exact ⟨rfl, rfl, hel⟩
  · rw [if_neg h4, if_neg h4, scanS_ix eps s e2 p k1 hs (by omega) p (by omega) (le_refl _),
      Option.some_bind]
    have hS3 := scanS_le eps s e2 p k1 p
    have hS1 := scanS_ge eps s e2 p k1 p (by omega)
    generalize scanS eps s e2 p k1 p = ks1 at hS1 hS3 ⊢
    have g2 : (if ks1 = k1 then some s else s.ix ((ks1:ℤ) - 1) (some (s.set (ks1-1) 0))) =
        some (if ks1 = k1 then s else s.set (ks1-1) 0) := by
      split_ifs
      · rfl
      · rw [Vec.ix, inRange_ok _ _ _ (by omega) (by omega)]
    have hsl : (if ks1 = k1 then s else s.set (ks1-1) 0).length = s.length := by
      split_ifs
      · rfl
      · exact Vec.length_set _ _ _
    rw [g2, Option.some_bind]
    generalize (if ks1 = k1 then s else s.set (ks1-1) 0) = s2 at hsl ⊢
    split_ifs <;> exact ⟨rfl, hsl, hel⟩

theorem rot_ix (cnt : ℕ) (M : Mat R) (a b : ℕ) (cs sn : R) (hcnt : cnt ≤ M.rows)
    (ha : a < M.cols) (hb : b < M.cols) :
    rotIx cnt M (a:ℤ) (b:ℤ) cs sn = some (rot cnt M a b cs sn) ∧
      (rot cnt M a b cs sn).rows = M.rows ∧ (rot cnt M a b cs sn).cols = M.cols := by
  unfold rotIx rot
  exact forUp_ix (fun B : Mat R => B.rows = M.rows ∧ B.cols = M.cols) 0 cnt
    (fun i M => (M.set i b (-sn * M.get i a + cs * M.get i b)).set i a
      (cs * M.get i a + sn * M.get i b))
    (fun i M => M.ix i (a:ℤ) <| M.ix i (b:ℤ) <|
      some ((M.set i (b:ℤ).toNat (-sn * M.get i (a:ℤ).toNat + cs * M.get i (b:ℤ).toNat)).set i
        (a:ℤ).toNat (cs * M.get i (a:ℤ).toNat + sn * M.get i (b:ℤ).toNat))) M ⟨rfl, rfl⟩
    (by
      intro i B hi1 hi2 ⟨b1, b2⟩
      refine ⟨?_, b1, b2⟩
      simp (disch := omega) only [Vec.ix, Mat.ix, inRange_ok, Int.toNat_ofNat])

theorem swapCols_ix (cnt : ℕ) (M : Mat R) (k : ℕ) (hcnt : cnt ≤ M.rows)
    (hk : k + 1 < M.cols) :
    swapColsIx cnt M k = some (swapCols cnt M k) ∧
      (swapCols cnt M k).rows = M.rows ∧ (swapCols cnt M k).cols = M.cols := by
  unfold swapColsIx swapCols
  exact forUp_ix (fun B : Mat R => B.rows = M.rows ∧ B.cols = M.cols) 0 cnt
    (fun i M => (M.set i (k+1) (M.get i k)).set i k (M.get i (k+1)))
    (fun i M => M.ix i ((k:ℤ) + 1) <| M.ix i k <|
      some ((M.set i (k+1) (M.get i k)).set i k (M.get i (k+1)))) M ⟨rfl, rfl⟩
    (by
      intro i B hi1 hi2 ⟨b1, b2⟩
      refine ⟨?_, b1, b2⟩
      simp (disch := omega) only [Vec.ix, Mat.ix, inRange_ok])

theorem case1Step_ix (sqrt : R → R) (m n : ℕ) (wantv : Bool) (p k j : ℕ) (c : Chase R)
    (hd : c.Dims m n) (hp : p ≤ min n (m+1)) (hk : k ≤ j) (hj : j + 1 < p) :
    case1StepIx sqrt n wantv p k j c = some (case1Step sqrt n wantv p k j c) ∧
      (case1Step sqrt n wantv p k j c).Dims m n := by
  obtain ⟨hs, he, hu, ⟨v1, v2⟩⟩ := hd
  have hpz : ((p:ℤ) - 1) = ((p - 1 : ℕ) : ℤ) := by omega
  have hr := fun cs sn => rot_ix n c.V j (p-1) cs sn (by omega) (by omega) (by omega)
  have hs2 : ∀ x, (c.s.set j x).length = min (m+1) n := fun x => by
    rw [Vec.length_set]; exact hs
  have he2 : ∀ i x, (c.e.set i x).length = n := fun i x => by
    rw [Vec.length_set]; exact he
  unfold case1StepIx case1Step
  dsimp only
  rw [Vec.ix, inRange_ok _ _ _ (by omega) (by omega), hpz]
  by_cases hjk : j = k
  · rw [if_neg (not_not.mpr hjk), if_neg (not_not.mpr hjk), Option.some_bind]
    by_cases hw : wantv = true
    · rw [if_pos hw, if_pos hw, (hr _ _).1]
      exact ⟨rfl, hs2 _, he, hu, ⟨(hr _ _).2.1.trans v1, (hr _ _).2.2.trans v2⟩⟩
    · rw [if_neg hw, if_neg hw]
      exact ⟨rfl, hs2 _, he, hu, ⟨v1, v2⟩⟩
  · rw [if_pos hjk, if_pos hjk, Vec.ix, inRange_ok _ _ _ (by omega) (by omega),
      Option.some_bind]
    by_cases hw : wantv = true
    · rw [if_pos hw, if_pos hw, (hr _ _).1]
      exact ⟨rfl, hs2 _, he2 _ _, hu, ⟨(hr _ _).2.1.trans v1, (hr _ _).2.2.trans v2⟩⟩
    · rw [if_neg hw, if_neg hw]
      exact ⟨rfl, hs2 _, he2 _ _, hu, ⟨v1, v2⟩⟩

theorem case1_ix (sqrt : R → R) (m n : ℕ) (wantv : Bool) (p k : ℕ) (st : Iter R)
    (hd : st.Dims m n) (hp : p ≤ min n (m+1)) (hk : k + 1 < p) :
    case1Ix sqrt n wantv p k st = some (case1 sqrt n wantv p k st) ∧
      (case1 sqrt n wantv p k st).Dims m n := by
  obtain ⟨hs, he, hu, hv⟩ := hd
  have l1 := forDown_ix (fun c : Chase R => c.Dims m n) k (p-1)
    (fun j c => case1Step sqrt n wantv p k j c)
    (fun j c => case1StepIx sqrt n wantv p k j c)
    ⟨st.e.get (p-2), 0, st.s, st.e.set (p-2) 0, st.U, st.V⟩
    ⟨hs, by simpa only [Vec.length_set] using he, hu, hv⟩
    (fun j c hj1 hj2 hc => case1Step_ix sqrt m n wantv p k j c hc hp hj1 (by omega))
  unfold case1Ix
  rw [Vec.ix, inRange_ok _ _ _ (by omega) (by omega), l1.1, case1_steps]
  exact ⟨rfl, l1.2.1, l1.2.2.1, hu, l1.2.2.2.2⟩

theorem case2Step_ix (sqrt : R → R) (m n : ℕ) (wantu : Bool) (p k j : ℕ) (c : Chase R)
    (hd : c.Dims m n) (hp : p ≤ min n m) (hk1 : 1 ≤ k) (hk : k ≤ j) (hj : j < p) :
    case2StepIx sqrt m wantu k j c = some (case2Step sqrt m wantu k j c) ∧
      (case2Step sqrt m wantu k j c).Dims m n := by
  obtain ⟨hs, he, ⟨u1, u2⟩, hv⟩ := hd
  have hkz : ((k:ℤ) - 1) = ((k - 1 : ℕ) : ℤ) := by omega
  have hr := fun cs sn => rot_ix m c.U j (k-1) cs sn (by omega) (by omega) (by omega)
  have hs2 : ∀ x, (c.s.set j x).length = min (m+1) n := fun x => by
    rw [Vec.length_set]; exact hs
  have he2 : ∀ i x, (c.e.set i x).length = n := fun i x => by
    rw [Vec.length_set]; exact he
  unfold case2StepIx case2Step
  dsimp only
  rw [Vec.ix, inRange_ok _ _ _ (by omega) (by omega), Vec.ix,
    inRange_ok _ _ _ (by omega) (by omega), hkz]
  by_cases hw : wantu = true
  · rw [if_pos hw, if_pos hw, (hr _ _).1]
    exact ⟨rfl, hs2 _, he2 _ _, ⟨(hr _ _).2.1.trans u1, (hr _ _).2.2.trans u2⟩, hv⟩
  · rw [if_neg hw, if_neg hw]
    exact ⟨rfl, hs2 _, he2 _ _, ⟨u1, u2⟩, hv⟩

theorem case2_ix (sqrt : R → R) (m n : ℕ) (wantu : Bool) (p k : ℕ) (st : Iter R)
    (hd : st.Dims m n) (hp : p ≤ min n m) (hk1 : 1 ≤ k) (hk : k < p) :
    case2Ix sqrt m wantu p k st = some (case2 sqrt m wantu p k st) ∧
      (case2 sqrt m wantu p k st).Dims m n := by
  obtain ⟨hs, he, hu, hv⟩ := hd
  have l1 := forUp_ix (fun c : Chase R => c.Dims m n) k p
    (fun j c => case2Step sqrt m wantu k j c)
    (fun j c => case2StepIx sqrt m wantu k j c)
    ⟨st.e.get (k-1), 0, st.s, st.e.set (k-1) 0, st.U, st.V⟩
    ⟨hs, by simpa only [Vec.length_set] using he, hu, hv⟩
    (fun j c hj1 hj2 hc => case2Step_ix sqrt m n wantu p k j c hc hp hk1 hj1 hj2)
  unfold case2Ix
  rw [Vec.ix, inRange_ok _ _ _ (by omega) (by omega), l1.1, case2_steps]
  exact ⟨rfl, l1.2.1, l1.2.2.1, l1.2.2.2.1, hv⟩

theorem chaseV_ix (sqrt : R → R) (m n : ℕ) (wantv : Bool) (p k j : ℕ) (c : Chase R)
    (hd : c.Dims m n) (hp : p ≤ min n (m+1)) (hk : k ≤ j) (hj : j + 1 < p) :
    chaseVIx sqrt n wantv k j c = some (chaseV sqrt n wantv k j c) ∧
      (chaseV sqrt n wantv k j c).Dims m n := by
  obtain ⟨hs, he, hu, ⟨v1, v2⟩⟩ := hd
  have hjz : ((j:ℤ) + 1) = ((j + 1 : ℕ) : ℤ) := by omega
  have hr := fun cs sn => rot_ix n c.V j (j+1) cs sn (by omega) (by omega) (by omega)
  have hs2 : ∀ i x, (c.s.set i x).length = min (m+1) n := fun i x => by
    rw [Vec.length_set]; exact hs
  have he2 : ∀ i x, (c.e.set i x).length = n := fun i x => by
    rw [Vec.length_set]; exact he
  have he3 : ∀ i x i2 x2, ((c.e.set i x).set i2 x2).length = n := fun i x i2 x2 => by
    rw [Vec.length_set]; exact he2 _ _
  unfold chaseVIx chaseV
  dsimp only
  by_cases hjk : j = k
  · rw [if_neg (not_not.mpr hjk), if_neg (not_not.mpr hjk), Option.some_bind]
    rw [Vec.ix, inRange_ok _ _ _ (by omega) (by omega), Vec.ix,
      inRange_ok _ _ _ (by omega) (by omega), Vec.ix,
      inRange_ok _ _ _ (by omega) (by omega), hjz]
    by_cases hw : wantv = true
    · rw [if_pos hw, if_pos hw, (hr _ _).1]
      exact ⟨rfl, hs2 _ _, he2 _ _, hu, ⟨(hr _ _).2.1.trans v1, (hr _ _).2.2.trans v2⟩⟩
    · rw [if_neg hw, if_neg hw]
      exact ⟨rfl, hs2 _ _, he2 _ _, hu, ⟨v1, v2⟩⟩
  · have hl := he2 (j-1) (hypot sqrt c.f c.g)
    rw [if_pos hjk, if_pos hjk, Vec.ix, inRange_ok _ _ _ (by omega) (by omega),
      Option.some_bind]
    dsimp only
    rw [Vec.ix, inRange_ok _ _ _ (by omega) (by omega), Vec.ix,
      inRange_ok _ _ _ (by omega) (by omega), Vec.ix,
      inRange_ok _ _ _ (by omega) (by omega), hjz]
    by_cases hw : wantv = true
    · rw [if_pos hw, if_pos hw, (hr _ _).1]
      exact ⟨rfl, hs2 _ _, he3 _ _ _ _, hu, ⟨(hr _ _).2.1.trans v1, (hr _ _).2.2.trans v2⟩⟩
    · rw [if_neg hw, if_neg hw]
      exact ⟨rfl, hs2 _ _, he3 _ _ _ _, hu, ⟨v1, v2⟩⟩

theorem chaseU_ix (sqrt : R → R) (m n : ℕ) (wantu : Bool) (p j : ℕ) (c : Chase R)
    (hd : c.Dims m n) (hp : p ≤ min n (m+1)) (hj : j + 1 < p) :
    chaseUIx sqrt m wantu j c = some (chaseU sqrt m wantu j c) ∧
      (chaseU sqrt m wantu j c).Dims m n := by
  obtain ⟨hs, he, ⟨u1, u2⟩, hv⟩ := hd
  have hjz : ((j:ℤ) + 1) = ((j + 1 : ℕ) : ℤ) := by omega
  have hs2 : ∀ i x, (c.s.set i x).length = min (m+1) n := fun i x => by
    rw [Vec.length_set]; exact hs
  have hs3 : ∀ i x i2 x2, ((c.s.set i x).set i2 x2).length = min (m+1) n :=
    fun i x i2 x2 => by rw [Vec.length_set]; exact hs2 _ _
  have he2 : ∀ i x, (c.e.set i x).length = n := fun i x => by
    rw [Vec.length_set]; exact he
  have hl := hs2 j (hypot sqrt c.f c.g)
  unfold chaseUIx chaseU
  dsimp only
  rw [Vec.ix, inRange_ok _ _ _ (by omega) (by omega), Vec.ix,
    inRange_ok _ _ _ (by omega) (by omega), Vec.ix,
    inRange_ok _ _ _ (by omega) (by omega), Vec.ix,
    inRange_ok _ _ _ (by omega) (by omega), hjz]
  by_cases h1 : wantu = true ∧ j < m - 1
  · have hr := fun cs sn => rot_ix m c.U j (j+1) cs sn (by omega) (by omega) (by omega)
    rw [if_pos h1, if_pos h1, (hr _ _).1]
    exact ⟨rfl, hs3 _ _ _ _, he2 _ _, ⟨(hr _ _).2.1.trans u1, (hr _ _).2.2.trans u2⟩, hv⟩
  · rw [if_neg h1, if_neg h1]
    exact ⟨rfl, hs3 _ _ _ _, he2 _ _, ⟨u1, u2⟩, hv⟩

theorem case3_ix (sqrt : R → R) (m n : ℕ) (wantu wantv : Bool) (p k : ℕ) (st : Iter R)
    (hd : st.Dims m n) (hp : p ≤ min n (m+1)) (hk : k + 1 < p) :
    case3Ix sqrt m n wantu wantv p k st = some (case3 sqrt m n wantu wantv p k st) ∧
      (case3 sqrt m n wantu wantv p k st).Dims m n := by
  obtain ⟨hs, he, hu, hv⟩ := hd
  have l1 := forUp_ix (fun c : Chase R => c.Dims m n) k (p-1)
    (fun j c => chaseStep sqrt m n wantu wantv k j c)
    (fun j c => (chaseVIx sqrt n wantv k j c).bind fun c => chaseUIx sqrt m wantu j c)
    ⟨(shiftStart sqrt p k st.s st.e).1, (shiftStart sqrt p k st.s st.e).2,
      st.s, st.e, st.U, st.V⟩ ⟨hs, he, hu, hv⟩
    (by
      intro j c hj1 hj2 hc
      obtain ⟨a1, a2⟩ := chaseV_ix sqrt m n wantv p k j c hc hp hj1 (by omega)
      obtain ⟨b1, b2⟩ := chaseU_ix sqrt m n wantu p j _ a2 hp (by omega)
      dsimp only
      rw [a1, Option.some_bind, b1, chaseStep_parts]
      exact ⟨rfl, b2⟩)
  obtain ⟨l2, c1, c2, c3, c4⟩ := l1
  unfold case3Ix
  rw [Vec.ix, inRange_ok _ _ _ (by omega) (by omega), Vec.ix,
    inRange_ok _ _ _ (by omega) (by omega), Vec.ix,
    inRange_ok _ _ _ (by omega) (by omega), Vec.ix,
    inRange_ok _ _ _ (by omega) (by omega), Vec.ix,
    inRange_ok _ _ _ (by omega) (by omega), l2, Option.some_bind, Vec.ix,
    inRange_ok _ _ _ (by omega) (by omega), case3_start]
  exact ⟨rfl, c1, by simpa only [Vec.length_set] using c2, c3, c4⟩

theorem orderSwap_ix (m n : ℕ) (wantu wantv : Bool) (k : ℕ) (st : Iter R)
    (hd : st.Dims m n) (hk : k + 1 < min (m+1) n) :
    orderSwapIx m n wantu wantv k st = some (orderSwap m n wantu wantv k st) ∧
      (orderSwap m n wantu wantv k st).Dims m n := by
  obtain ⟨hs, he, ⟨u1, u2⟩, ⟨v1, v2⟩⟩ := hd
  have hs3 : ∀ i x i2 x2, ((st.s.set i x).set i2 x2).length = min (m+1) n :=
    fun i x i2 x2 => by rw [Vec.length_set, Vec.length_set]; exact hs
  unfold orderSwapIx orderSwap
  dsimp only
  rw [Vec.ix, inRange_ok _ _ _ (by omega) (by omega), Vec.ix,
    inRange_ok _ _ _ (by omega) (by omega)]
  by_cases h1 : wantv = true ∧ k < n - 1
  · obtain ⟨a1, a2, a3⟩ := swapCols_ix n st.V k (by omega) (by omega)
    rw [if_pos h1, if_pos h1, a1]
    dsimp only [Option.map_some', Option.some_bind]
    by_cases h2 : wantu = true ∧ k < m - 1
    · obtain ⟨b1, b2, b3⟩ := swapCols_ix m st.U k (by omega) (by omega)
      rw [if_pos h2, if_pos h2, b1]
      exact ⟨rfl, hs3 _ _ _ _, he, ⟨b2.trans u1, b3.trans u2⟩, ⟨a2.trans v1, a3.trans v2⟩⟩
    · rw [if_neg h2, if_neg h2]
      exact ⟨rfl, hs3 _ _ _ _, he, ⟨u1, u2⟩, ⟨a2.trans v1, a3.trans v2⟩⟩
  · rw [if_neg h1, if_neg h1, Option.some_bind]
    by_cases h2 : wantu = true ∧ k < m - 1
    · obtain ⟨b1, b2, b3⟩ := swapCols_ix m st.U k (by omega) (by omega)
      rw [if_pos h2, if_pos h2, b1]
      exact ⟨rfl, hs3 _ _ _ _, he, ⟨b2.trans u1, b3.trans u2⟩, ⟨v1, v2⟩⟩
    · rw [if_neg h2, if_neg h2]
      exact ⟨rfl, hs3 _ _ _ _, he, ⟨u1, u2⟩, ⟨v1, v2⟩⟩

theorem order_ix (m n : ℕ) (wantu wantv : Bool) :
    ∀ (d k : ℕ) (st : Iter R), st.Dims m n → k + d < min (m+1) n →
      orderIx m n wantu wantv d k st = some (order m n wantu wantv d k st) ∧
        (order m n wantu wantv d k st).Dims m n ∧
        (order m n wantu wantv d k st).p = st.p := by
  intro d
  induction d with
  | zero => exact fun k st hd _ => ⟨rfl, hd, rfl⟩
  | succ d ih =>
    intro k st hd hk
    have hs := hd.1
    rw [orderIx, order, Vec.ix, inRange_ok _ _ _ (by omega) (by omega), Vec.ix,
      inRange_ok _ _ _ (by omega) (by omega)]
    by_cases h1 : st.s.get k ≥ st.s.get (k+1)
    · rw [if_pos h1, if_pos h1]
      exact ⟨rfl, hd, rfl⟩
    · obtain ⟨a1, a2⟩ := orderSwap_ix m n wantu wantv k st hd (by omega)
      obtain ⟨b1, b2, b3⟩ := ih (k+1) _ a2 (by omega)
      rw [if_neg h1, if_neg h1, a1, Option.some_bind, b1]
      exact ⟨rfl, b2, b3.trans (orderSwap_fields m n wantu wantv k st).2.1⟩

theorem case4_ix (m n : ℕ) (wantu wantv : Bool) (k : ℕ) (st : Iter R)
    (hd : st.Dims m n) (hk : k < min n (m+1)) :
    case4Ix m n (min n (m+1) - 1) wantu wantv k st =
        some (case4 m n (min n (m+1) - 1) wantu wantv k st) ∧
      (case4 m n (min n (m+1) - 1) wantu wantv k st).Dims m n ∧
      (case4 m n (min n (m+1) - 1) wantu wantv k st).p = st.p - 1 := by
  obtain ⟨hs, he, hu, ⟨v1, v2⟩⟩ := hd
  have key : ∀ st1 : Iter R, st1.Dims m n → st1.p = st.p →
      (orderIx m n wantu wantv (min n (m+1) - 1 - k) k st1).map
          (fun st => ({ st with iter := 0, p := st.p - 1 } : Iter R)) =
        some { order m n wantu wantv (min n (m+1) - 1 - k) k st1 with
          iter := 0, p := (order m n wantu wantv (min n (m+1) - 1 - k) k st1).p - 1 } ∧
      ({ order m n wantu wantv (min n (m+1) - 1 - k) k st1 with
          iter := 0, p := (order m n wantu wantv (min n (m+1) - 1 - k) k st1).p - 1 } :
            Iter R).Dims m n ∧
      (order m n wantu wantv (min n (m+1) - 1 - k) k st1).p - 1 = st.p - 1 := by
    intro st1 hd1 hp1
    obtain ⟨a1, a2, a3⟩ := order_ix m n wantu wantv (min n (m+1) - 1 - k) k st1 hd1 (by omega)
    rw [a1]
    exact ⟨rfl, a2, by rw [a3, hp1]⟩
  have hs2 : ∀ x, (st.s.set k x).length = min (m+1) n := fun x => by
    rw [Vec.length_set]; exact hs
  unfold case4Ix case4
  dsimp only
  rw [Vec.ix, inRange_ok _ _ _ (by omega) (by omega)]
  by_cases h0 : st.s.get k ≤ 0
  · rw [if_pos h0, if_pos h0]
    by_cases hw : wantv = true
    · have l1 := forUp_ix (fun V : Mat R => V.rows = n ∧ V.cols = n) 0 (min n (m+1) - 1 + 1)
        (fun i V => V.set i k (-(V.get i k)))
        (fun i V => V.ix i k <| some (V.set i k (-(V.get i k)))) st.V ⟨v1, v2⟩
        (by
          intro i V hi1 hi2 ⟨c1, c2⟩
          refine ⟨?_, c1, c2⟩
          simp (disch := omega) only [Vec.ix, Mat.ix, inRange_ok])
      dsimp only at l1
      rw [if_pos hw, if_pos hw, l1.1]
      dsimp only [Option.map_some', Option.some_bind]
      exact key _ ⟨hs2 _, he, hu, l1.2⟩ rfl
    · rw [if_neg hw, if_neg hw, Option.some_bind]
      exact key _ ⟨hs2 _, he, hu, ⟨v1, v2⟩⟩ rfl
  · rw [if_neg h0, if_neg h0, Option.some_bind]
    exact key st ⟨hs, he, hu, ⟨v1, v2⟩⟩ rfl

/-- One pass of the main loop from a state with the invariant `IxInv`: every
access is inside its container, the invariant holds again, and a pass at the
active size `p = m + 1` is case 1 or case 4. -/
theorem iterStep_ix (sqrt : R → R) (eps : R) (heps : 0 ≤ eps) (m n : ℕ)
    (wantu wantv : Bool) (st : Iter R) (hp : st.p ≠ 0) (h : IxInv m n st) :
    iterStepIx sqrt eps m n (min n (m+1) - 1) wantu wantv st =
        some (iterStep sqrt eps m n (min n (m+1) - 1) wantu wantv st) ∧
      IxInv m n (iterStep sqrt eps m n (min n (m+1) - 1) wantu wantv st) ∧
      (iterStep sqrt eps m n (min n (m+1) - 1) wantu wantv st).p ≤ st.p ∧
      (st.p = m + 1 → (classify eps st.p st.s st.e).1 = 1 ∨
        (classify eps st.p st.s st.e).1 = 4) := by
  obtain ⟨⟨hs, he, hu, hv⟩, hpp, hpm⟩ := h
  have hp1 : 1 ≤ st.p := Nat.one_le_iff_ne_zero.mpr hp
  obtain ⟨c1, c2, c3⟩ := classify_ix eps st.p hp1 st.s st.e (by omega) (by omega)
  have hcl := classify_spec eps heps st.p hp1 st.s st.e
  have hrot := (classify_rotated eps heps st.p hp1 st.s st.e).1
  have hd1 : Iter.Dims m n ({ st with s := (classify eps st.p st.s st.e).2.2.1, e := (classify eps st.p st.s st.e).2.2.2 } :
        Iter R) :=
    ⟨c2.trans hs, c3.trans he, hu, hv⟩
  unfold iterStepIx iterStep
  rw [c1, Option.some_bind]
  dsimp only
  rcases hcl with ⟨k1, k2, k3⟩ | ⟨k1, k2⟩ | ⟨k1, k2, k3, k4, _⟩ | ⟨k1, k2, k3, _, _⟩
  · have n1 : ¬ (classify eps st.p st.s st.e).1 = 1 := by rw [k1]; decide
    have n2 : ¬ (classify eps st.p st.s st.e).1 = 2 := by rw [k1]; decide
    have n3 : ¬ (classify eps st.p st.s st.e).1 = 3 := by rw [k1]; decide
    rw [if_neg n1, if_neg n2, if_neg n3, if_neg n1, if_neg n2, if_neg n3]
    obtain ⟨a1, a2, a3⟩ := case4_ix m n wantu wantv (classify eps st.p st.s st.e).2.1 _ hd1
      (by rw [k2]; omega)
    have a4 : (case4 m n (min n (m+1) - 1) wantu wantv (classify eps st.p st.s st.e).2.1
        ({ st with s := (classify eps st.p st.s st.e).2.2.1, e := (classify eps st.p st.s st.e).2.2.2 } :
        Iter R)).p = st.p - 1 := a3
    exact ⟨a1, ⟨a2, by rw [a4]; omega, Or.inl (by rw [a4]; omega)⟩, by rw [a4]; omega,
      fun _ => Or.inr k1⟩
  · have hk := (hrot k1).1
    rw [if_pos k1, if_pos k1]
    obtain ⟨a1, a2⟩ := case1_ix sqrt m n wantv st.p (classify eps st.p st.s st.e).2.1
      ({ st with s := (classify eps st.p st.s st.e).2.2.1, e := (classify eps st.p st.s st.e).2.2.2 } :
        Iter R) hd1 hpp hk
    obtain ⟨_, f2, f3⟩ := case1_frame sqrt n wantv st.p (classify eps st.p st.s st.e).2.1
      ({ st with s := (classify eps st.p st.s st.e).2.2.1, e := (classify eps st.p st.s st.e).2.2.2 } :
        Iter R)
    have f2' : (case1 sqrt n wantv st.p (classify eps st.p st.s st.e).2.1
        ({ st with s := (classify eps st.p st.s st.e).2.2.1, e := (classify eps st.p st.s st.e).2.2.2 } :
        Iter R)).p = st.p := f2
    refine ⟨a1, ⟨a2, by rw [f2']; exact hpp, ?_⟩, by rw [f2'], fun _ => Or.inl k1⟩
    rw [f2']
    rcases Nat.lt_or_ge m st.p with hlt | hge
    · right
      have hpeq : st.p - 1 = m := by omega
      rw [f3 m (by omega)]
      show (classify eps st.p st.s st.e).2.2.1.get m = 0
      rw [k2, hpeq]
      exact Vec.get_set_zero _ _
    · exact Or.inl hge
  · have hpm2 : st.p ≤ m := by
      rcases hpm with h1 | h1
      · exact h1
      · rcases Nat.lt_or_ge m st.p with hlt | hge
        · have hpeq : st.p - 1 = m := by omega
          rw [hpeq] at k4
          exact absurd h1 k4
        · exact hge
    have n1 : ¬ (classify eps st.p st.s st.e).1 = 1 := by rw [k1]; decide
    rw [if_neg n1, if_pos k1, if_neg n1, if_pos k1]
    obtain ⟨a1, a2⟩ := case2_ix sqrt m n wantu st.p (classify eps st.p st.s st.e).2.1
      ({ st with s := (classify eps st.p st.s st.e).2.2.1, e := (classify eps st.p st.s st.e).2.2.2 } :
        Iter R) hd1 (by omega) k2 k3
    exact ⟨a1, ⟨a2, hpp, Or.inl hpm2⟩, le_refl _, fun h => by omega⟩
  · have hpm2 : st.p ≤ m := by
      rcases hpm with h1 | h1
      · exact h1
      · rcases Nat.lt_or_ge m st.p with hlt | hge
        · have hpeq : st.p - 1 = m := by omega
          rw [hpeq] at k3
          exact absurd h1 k3
        · exact hge
    have n1 : ¬ (classify eps st.p st.s st.e).1 = 1 := by rw [k1]; decide
    have n2 : ¬ (classify eps st.p st.s st.e).1 = 2 := by rw [k1]; decide
    rw [if_neg n1, if_neg n2, if_pos k1, if_neg n1, if_neg n2, if_pos k1]
    obtain ⟨a1, a2⟩ := case3_ix sqrt m n wantu wantv st.p (classify eps st.p st.s st.e).2.1
      ({ st with s := (classify eps st.p st.s st.e).2.2.1, e := (classify eps st.p st.s st.e).2.2.2 } :
        Iter R) hd1 hpp k2
    exact ⟨a1, ⟨a2, hpp, Or.inl hpm2⟩, le_refl _, fun h => by omega⟩

theorem mainLoop_ix (sqrt : R → R) (eps : R) (heps : 0 ≤ eps) (m n : ℕ)
    (wantu wantv : Bool) :
    ∀ (fuel : ℕ) (st : Iter R), IxInv m n st →
      mainLoopIx sqrt eps m n (min n (m+1) - 1) wantu wantv fuel st =
        some (mainLoop sqrt eps m n (min n (m+1) - 1) wantu wantv fuel st) := by
  intro fuel
  induction fuel with
  | zero => intro st _; rfl
  | succ f ih =>
    intro st h
    rw [mainLoopIx, mainLoop]
    by_cases hp : st.p = 0
    · rw [if_pos hp, if_pos hp]
    · obtain ⟨a1, a2, _⟩ := iterStep_ix sqrt eps heps m n wantu wantv st hp h
      rw [if_neg hp, if_neg hp, a1, Option.some_bind]
      exact ih _ a2

theorem afterPasses_inv (sqrt : R → R) (eps : R) (heps : 0 ≤ eps) (m n : ℕ)
    (wantu wantv : Bool) (st : Iter R) (h : IxInv m n st) :
    ∀ t, (∀ u, u < t → (afterPasses sqrt eps m n (min n (m+1) - 1) wantu wantv u st).p ≠ 0) →
      IxInv m n (afterPasses sqrt eps m n (min n (m+1) - 1) wantu wantv t st) := by
  intro t
  induction t with
  | zero => intro _; exact h
  | succ t ih =>
    intro hu
    rw [afterPasses]
    exact (iterStep_ix sqrt eps heps m n wantu wantv _ (hu t (Nat.lt_succ_self t))
      (ih (fun u hut => hu u (by omega)))).2.1

/-- For `n > m` the final set-up leaves `m_s(m) = 0` (line 259). -/
theorem init_s_top (sqrt : R → R) (A : Mat R) (wantu wantv : Bool) (h : A.rows < A.cols) :
    (SVD.init sqrt A wantu wantv).s.get A.rows = 0 := by
  have hfin : ∀ (nct nrt : ℕ) (st : Bidiag R),
      (finalSetup A.rows A.cols nct nrt st).s.get A.rows = 0 := by
    intro nct nrt st
    have hp : min A.cols (A.rows + 1) - 1 = A.rows := by omega
    have hlt : A.rows < min A.cols (A.rows + 1) := by omega
    unfold finalSetup
    dsimp only
    rw [if_pos hlt, hp]
    split_ifs <;> exact Vec.get_set_zero _ _
  unfold SVD.init
  dsimp only
  split_ifs <;> exact hfin _ _ _

/-- C34 (amended): index safety of the constructor.  In exact arithmetic, for
every `M×N` input with `M, N ≥ 1`, every flag combination and `eps ≥ 0`: the
containers have the sizes
`m_s : min(M+1,N)`, `e : N`, `work : M`, `m_U : M×M`, `m_V : N×N`; the lines
148–547 run with a check of every index (bidiagonalisation, final set-up,
generation of `U` and `V`, and any number of passes of the main loop) never
index outside a container and give the states of the run without checks;
whenever a pass of the main loop starts with the active size `p = M + 1`, the
classification selects case 1 or case 4; and when the main loop has finished,
the rank loop of lines 553–554 reads inside `m_s` provided `len(S)·eps ≤ 1`. -/
theorem constructor_index_safe (sqrt : R → R) (eps : R) (heps : 0 ≤ eps) (A : Mat R)
    (hm : 1 ≤ A.rows) (hn : 1 ≤ A.cols) (wantu wantv : Bool) :
    (SVD.init sqrt A wantu wantv).Dims A.rows A.cols ∧
      (∀ fuel, SVD.runIx sqrt eps fuel A wantu wantv =
        some (mainLoop sqrt eps A.rows A.cols (min A.cols (A.rows+1) - 1) wantu wantv fuel
          (SVD.start sqrt A wantu wantv))) ∧
      (∀ t,
        (∀ u, u < t →
          (afterPasses sqrt eps A.rows A.cols (min A.cols (A.rows+1) - 1) wantu wantv u
            (SVD.start sqrt A wantu wantv)).p ≠ 0) →
        (afterPasses sqrt eps A.rows A.cols (min A.cols (A.rows+1) - 1) wantu wantv t
          (SVD.start sqrt A wantu wantv)).p = A.rows + 1 →
        (classify eps
            (afterPasses sqrt eps A.rows A.cols (min A.cols (A.rows+1) - 1) wantu wantv t
              (SVD.start sqrt A wantu wantv)).p
            (afterPasses sqrt eps A.rows A.cols (min A.cols (A.rows+1) - 1) wantu wantv t
              (SVD.start sqrt A wantu wantv)).s
            (afterPasses sqrt eps A.rows A.cols (min A.cols (A.rows+1) - 1) wantu wantv t
              (SVD.start sqrt A wantu wantv)).e).1 = 1 ∨
          (classify eps
            (afterPasses sqrt eps A.rows A.cols (min A.cols (A.rows+1) - 1) wantu wantv t
              (SVD.start sqrt A wantu wantv)).p
            (afterPasses sqrt eps A.rows A.cols (min A.cols (A.rows+1) - 1) wantu wantv t
              (SVD.start sqrt A wantu wantv)).s
            (afterPasses sqrt eps A.rows A.cols (min A.cols (A.rows+1) - 1) wantu wantv t
              (SVD.start sqrt A wantu wantv)).e).1 = 4) ∧
      ∀ fuel, ((min (A.rows + 1) A.cols : ℕ) : R) * eps ≤ 1 →
        (mainLoop sqrt eps A.rows A.cols (min A.cols (A.rows+1) - 1) wantu wantv fuel
          (SVD.start sqrt A wantu wantv)).isSome = true →
        ∃ d, SVD.construct sqrt eps fuel A wantu wantv = some d ∧ 1 ≤ d.rank := by
  obtain ⟨i1, i2⟩ := init_ix sqrt A hm hn wantu wantv
  have h0 : IxInv A.rows A.cols (SVD.start sqrt A wantu wantv) := by
    refine ⟨⟨i2.2.1, i2.2.2.1, i2.2.2.2.2.1, i2.2.2.2.2.2⟩, le_refl _, ?_⟩
    rcases Nat.lt_or_ge A.rows A.cols with hlt | hge
    · exact Or.inr (init_s_top sqrt A wantu wantv hlt)
    · exact Or.inl (by show min A.cols (A.rows+1) ≤ A.rows; omega)
  refine ⟨i2, fun fuel => ?_, fun t hu hp => ?_, fun fuel hsmall hterm => ?_⟩
  · unfold SVD.runIx
    rw [i1, Option.some_bind]
    show mainLoopIx sqrt eps A.rows A.cols (min A.cols (A.rows+1) - 1) wantu wantv fuel
      (SVD.start sqrt A wantu wantv) = _
    exact mainLoop_ix sqrt eps heps A.rows A.cols wantu wantv fuel _ h0
  · have hinv := afterPasses_inv sqrt eps heps A.rows A.cols wantu wantv _ h0 t hu
    exact (iterStep_ix sqrt eps heps A.rows A.cols wantu wantv _ (by rw [hp]; omega)
      hinv).2.2.2 hp
  · obtain ⟨d, hd, _, hr, _⟩ :=
      construct_finishes sqrt eps fuel A wantu wantv hm hn hsmall hterm
    exact ⟨d, hd, hr⟩

/-- The checks are effective: on the state `stTop` (active size
`p = M + 1 = 2` for `M = 1`, with `m_s(1) ≠ 0`) case 2 with `k = 1` indexes
column 1 of the 1×1 matrix `U`, and the checked case 2 reports it; and on a
matrix without columns the checked run reports the accesses of the final
set-up. -/
theorem checks_report_outside :
    case2Ix qsqrt 1 true 2 1 stTop = none ∧ case2Ix qsqrt 1 false 2 1 stTop ≠ none ∧
      SVD.runIx qsqrt qeps 1 (Mat.zeros 1 0) true true = none := by
  refine ⟨by decide!, by decide!, by decide!⟩

/-- Witness for `constructor_index_safe`: the 3×5 matrix `A35` (`N > M`) with
six passes of the main loop; the first pass starts with `p = M + 1 = 4`. -/
theorem constructor_index_safe_witness :
    (0:ℚ) ≤ qeps ∧ 1 ≤ A35.rows ∧ 1 ≤ A35.cols ∧
      (SVD.start qsqrt A35 true true).p = A35.rows + 1 ∧
      (SVD.init qsqrt A35 true true).Dims A35.rows A35.cols ∧
      SVD.runIx qsqrt qeps 6 A35 true true =
        some (mainLoop qsqrt qeps A35.rows A35.cols (min A35.cols (A35.rows+1) - 1) true true 6
          (SVD.start qsqrt A35 true true)) :=
  ⟨by decide!, by decide, by decide, by decide,
    (constructor_index_safe qsqrt qeps (by decide!) A35 (by decide) (by decide) true true).1,
    (constructor_index_safe qsqrt qeps (by decide!) A35 (by decide) (by decide) true true).2.1 6⟩

/-! ### `solve` with the division tested -/

/-- A loop over `Option` whose pass `k` fails has no result. -/
theorem forUp_bind_none {σ : Type} (lo hi k : ℕ) (g : ℕ → σ → Option σ) (o : Option σ)
    (h1 : lo ≤ k) (h2 : k < hi) (hk : ∀ s, g k s = none) :
    forUp lo hi (fun i o => o.bind (fun s => g i s)) o = none := by
  induction hi with
  | zero => omega
  | succ n ih =>
    rw [forUp_succ _ _ _ _ (by omega)]
    rcases Nat.eq_or_lt_of_le (Nat.lt_succ_iff.mp h2) with h | h
    · subst h
      cases forUp lo k (fun i o => o.bind (fun s => g i s)) o with
      | none => rfl
      | some s => exact hk s
    · rw [ih h]
      rfl

/-- With no zero among `m_s(0 .. m_rank-1)` the tested `solve` returns what
`solve` returns. -/
theorem solveChecked_eq (d : SVD R) (x b : Vec R) (h : ∀ k, k < d.m_rank → d.m_s.get k ≠ 0) :
    d.solveChecked x b = some (d.solve x b) := by
  unfold SVD.solveChecked SVD.solve
  dsimp only
  rw [(forUp_bind_some (fun _ _ => True) 0 d.m_rank
    (fun k (xb : Vec R × Vec R) => ((xb.1.set k 0), xb.2.set k (xb.1.get k / d.m_s.get k)))
    (fun k (xb : Vec R × Vec R) => if d.m_s.get k = 0 then none
      else some ((xb.1.set k 0), xb.2.set k (xb.1.get k / d.m_s.get k))) _ (Nat.zero_le _) trivial
    (fun i s _ hi _ => ⟨if_neg (h i hi), trivial⟩)).1]
  rfl

/-- With a zero among `m_s(0 .. m_rank-1)` the tested `solve` stops at the
division of line 566. -/
theorem solveChecked_none (d : SVD R) (x b : Vec R)
    (h : ∃ k, k < d.m_rank ∧ d.m_s.get k = 0) : d.solveChecked x b = none := by
  obtain ⟨k, hk, h0⟩ := h
  unfold SVD.solveChecked
  dsimp only
  rw [forUp_bind_none 0 d.m_rank k
    (fun k (xb : Vec R × Vec R) => if d.m_s.get k = 0 then none
      else some ((xb.1.set k 0), xb.2.set k (xb.1.get k / d.m_s.get k))) _ (Nat.zero_le _) hk
    (fun s => if_pos h0)]
  rfl

/-- Amended C14: `solve` makes no check of the flags.  If the object was built
without `U` or without `V`, the matrix is the zero-filled one as allocated, and
`solve` runs on it: in exact arithmetic, for `x = 0` on entry and every `b`,
when no `m_s(k)`, `k < m_rank`, is zero it returns `x = 0`, and when one of
them is zero it divides by zero at line 566. -/
theorem solve_unchecked (sqrt : R → R) (eps : R) (fuel : ℕ) (A : Mat R) (wu wv : Bool)
    (d : SVD R) (hflag : wu = false ∨ wv = false)
    (h : SVD.construct sqrt eps fuel A wu wv = some d) (b : Vec R) :
    (wu = false → d.m_U = Mat.zeros A.rows A.rows) ∧
      (wv = false → d.m_V = Mat.zeros A.cols A.cols) ∧
      ((∀ k, k < d.m_rank → d.m_s.get k ≠ 0) →
        d.solveChecked (Vec.zeros d.m_A.cols) b = some (d.solve (Vec.zeros d.m_A.cols) b) ∧
          (d.solve (Vec.zeros d.m_A.cols) b).1.AllZero) ∧
      ((∃ k, k < d.m_rank ∧ d.m_s.get k = 0) →
        d.solveChecked (Vec.zeros d.m_A.cols) b = none) := by
  obtain ⟨k1, k2⟩ := construct_keeps sqrt eps fuel A wu wv d h
  refine ⟨k1, k2, fun hne => ⟨solveChecked_eq d _ b hne, ?_⟩, fun hz => solveChecked_none d _ b hz⟩
  rcases hflag with hu | hv
  · exact solve_zero_U d (fun i j => by rw [k1 hu]; exact Mat.entry_zeros _ _ i j) _ b
      (fun i => Vec.get_zeros _ i)
  · exact solve_zero_V d (fun i j => by rw [k2 hv]; exact Mat.entry_zeros _ _ i j) _ b
      (fun i => Vec.get_zeros _ i)

/-- Witness for `solve_unchecked`: the matrix `[[5]]` without `U`, `b = (10)`:
`m_s = (5)` has no zero, and `solve` returns `x = (0)`. -/
theorem solve_unchecked_witness :
    ((false = false ∨ true = false) ∧
      SVD.construct qsqrt qeps 1 (Mat.ofRows 1 [[(5:ℚ)]]) false true =
        some ⟨1, ⟨1, 1, [[5]]⟩, [5], ⟨1, 1, [[0]]⟩, ⟨1, 1, [[1]]⟩⟩) ∧
      (⟨1, ⟨1, 1, [[5]]⟩, [5], ⟨1, 1, [[0]]⟩, ⟨1, 1, [[1]]⟩⟩ : SVD ℚ).solveChecked
          (Vec.zeros (⟨1, ⟨1, 1, [[5]]⟩, [5], ⟨1, 1, [[0]]⟩, ⟨1, 1, [[1]]⟩⟩ : SVD ℚ).m_A.cols) [10] =
        some ((⟨1, ⟨1, 1, [[5]]⟩, [5], ⟨1, 1, [[0]]⟩, ⟨1, 1, [[1]]⟩⟩ : SVD ℚ).solve
          (Vec.zeros (⟨1, ⟨1, 1, [[5]]⟩, [5], ⟨1, 1, [[0]]⟩, ⟨1, 1, [[1]]⟩⟩ : SVD ℚ).m_A.cols) [10]) ∧
      ((⟨1, ⟨1, 1, [[5]]⟩, [5], ⟨1, 1, [[0]]⟩, ⟨1, 1, [[1]]⟩⟩ : SVD ℚ).solve
        (Vec.zeros (⟨1, ⟨1, 1, [[5]]⟩, [5], ⟨1, 1, [[0]]⟩, ⟨1, 1, [[1]]⟩⟩ : SVD ℚ).m_A.cols)
        [10]).1.AllZero :=
  ⟨⟨Or.inl rfl, by decide!⟩,
    (solve_unchecked qsqrt qeps 1 (Mat.ofRows 1 [[(5:ℚ)]]) false true _ (Or.inl rfl)
      (by decide!) [10]).2.2.1 (by
        intro k hk
        have hk1 : k < 1 := hk
        interval_cases k
        decide!)⟩

/-- The zero matrix `[[0]]` built without `U` has rank 1 and `m_s = (0)`: `solve`
with `x = (0)` and `b = (10)` divides `0` by `0` at line 566. -/
theorem solve_divides_by_zero :
    SVD.construct qsqrt qeps 1 (Mat.ofRows 1 [[(0:ℚ)]]) false true =
        some ⟨1, ⟨1, 1, [[0]]⟩, [0], ⟨1, 1, [[0]]⟩, ⟨1, 1, [[-1]]⟩⟩ ∧
      (⟨1, ⟨1, 1, [[0]]⟩, [0], ⟨1, 1, [[0]]⟩, ⟨1, 1, [[-1]]⟩⟩ : SVD ℚ).solveChecked [0] [10] =
        none := by
  refine ⟨?_, ?_⟩ <;> decide!

/-! ### Runs in double precision -/

/-- C34 (counterexample, double precision): on the 2×4 matrix with the rows
`(1, 1.5e308, 0, 0)` and `(0, 0, 0, 0)`, both flags set, the product of line 191
overflows and lines 195 and 223 produce NaN.  The main loop starts with
`p = 3 = M + 1`, `m_s = (-1, NaN, 0)` and `e = (∞, NaN, 0, NaN)`: the test of
line 360 is false at `ks = 2` and `ks = 1` (its right side is NaN), so
`m_s(M) = 0` is not found negligible, the first pass is case 2 (`k = 1` after
`k++`), and in its pass `j = 2` line 420 addresses `m_U(0,2)` of the 2×2
matrix `m_U`. -/
theorem index_outside_on_overflow :
    (Double.start Double.Watch.indices Double.Huge24 true true).value.map
        (fun st => (st.p, st.s, st.e)) =
      some (3, [-F64.one, F64.nan, F64.zero], [F64.inf false, F64.nan, F64.zero, F64.nan]) ∧
    (Double.kaseAfter Double.Watch.indices F64.eps 0 Double.Huge24 true true).value =
      some (2, 1) ∧
    (Double.construct Double.Watch.indices F64.eps 1 Double.Huge24 true true).stop =
      some (Double.Stop.index 420 [0, 2]) := by
  refine ⟨?_, ?_, ?_⟩ <;> decide!

/-- C28 (counterexample, double precision): on the 2×4 matrix with the rows
`(1, 1.5e308, 0, 0)` and `(0, 0, 0, 0)` the row transformation of step `k = 0`
is applied and the divisor `e(1)` of line 240 is NaN (line 223 has divided
`-∞` by `-∞`), which is not `≥ 1`. -/
theorem divisor_nan_on_overflow :
    (Double.init Double.Watch.divisors Double.Huge24 true true).stop =
      some (Double.Stop.value 240 F64.nan) := by
  decide!

/-- C32 (counterexample, double precision): on the 3×3 matrix `Tiny33`, whose
entries are finite and of size at most `1e-300`, the first pass of the main
loop passes every test `t > 0`; the second pass is case 3 (`k = 0`), and in
its chase the products of lines 483 and 485 underflow: line 459 computes
`t = hypot(0, -0) = 0`, so `cs` and `sn` are `0/0`. -/
theorem rotation_zero_on_underflow :
    (Double.stateAfter Double.Watch.rotations F64.eps 1 Double.Tiny33 true true).stop = none ∧
    (Double.kaseAfter Double.Watch.rotations F64.eps 1 Double.Tiny33 true true).value =
      some (3, 0) ∧
    (Double.construct Double.Watch.rotations F64.eps 2 Double.Tiny33 true true).stop =
      some (Double.Stop.value 459 F64.zero) := by
  refine ⟨?_, ?_, ?_⟩ <;> decide!

/-- C33 (counterexample, double precision): on the 3×5 matrix `Mixed35`, built
without `U`, the fourth pass of the main loop starts with `p = 2`,
`m_s = (NaN, 0, ∞, 0)` and `e(0) = NaN`; the test of line 360 is false for
`m_s(1) = 0` (its right side is NaN), the pass is case 3, and
`scale = max(max(max(max(0, NaN), NaN), NaN), NaN) = 0` with `std::max`: line
435 divides by zero. -/
theorem scale_zero_on_overflow :
    (Double.stateAfter Double.Watch.shifts F64.eps 3 Double.Mixed35 false true).value.map
        (fun st => (st.p, st.s, st.e)) =
      some (2, [F64.nan, F64.zero, F64.inf false, F64.zero],
        [F64.nan, F64.zero, F64.zero, F64.zero, -F64.one]) ∧
    (Double.kaseAfter Double.Watch.shifts F64.eps 3 Double.Mixed35 false true).value =
      some (3, 0) ∧
    (Double.construct Double.Watch.shifts F64.eps 4 Double.Mixed35 false true).stop =
      some (Double.Stop.value 435 F64.zero) := by
  refine ⟨?_, ?_, ?_⟩ <;> decide!

/-- C35 (counterexample, double precision): on `diag(1e308, 1)` the main loop
ends after two passes with `S = (1e308, 1)`; the product `2 · 1e308` of line 550
overflows, `tol = ∞`, both entries are below `tol`, and the rank loop reads
`m_s(-1)` with `m_rank = 0`. -/
theorem rank_loop_on_overflow :
    (Double.run Double.Watch.indices F64.eps 2 Double.Diag308 true true).value.map
        (fun st => st.s) = some [F64.ofDecimal false 1 308, F64.one] ∧
    (Double.tolOf F64.eps [F64.ofDecimal false 1 308, F64.one]).value = some (F64.inf false) ∧
    (Double.construct Double.Watch.indices F64.eps 2 Double.Diag308 true true).stop =
      some (Double.Stop.index 553 [-1]) := by
  refine ⟨?_, ?_, ?_⟩ <;> decide!

end Numerics

namespace Mppequil

variable {D : Type} [LinearOrderedField D]

set_option linter.unusedSectionVars false

/-! ### `parseRange` -/

theorem parseRange_one (tokenize : String → String → List String)
    (isNumeric : List String → Bool) (atof : String → D) (range : String) (x1 x2 dx : D)
    (t : String) (ht : tokenize range ":" = [t]) (hn : isNumeric [t] = true) :
    parseRange tokenize isNumeric atof range x1 x2 dx = (true, atof t, atof t, 1) := by
  simp [parseRange, ht, hn]

theorem parseRange_three (tokenize : String → String → List String)
    (isNumeric : List String → Bool) (atof : String → D) (range : String) (x1 x2 dx : D)
    (a b c : String) (ht : tokenize range ":" = [a, b, c]) (hn : isNumeric [a, b, c] = true) :
    parseRange tokenize isNumeric atof range x1 x2 dx =
      if atof b = 0 then (true, atof a, atof a, 1) else (true, atof a, atof c, atof b) := by
  simp [parseRange, ht, hn]

theorem parseRange_other (tokenize : String → String → List String)
    (isNumeric : List String → Bool) (atof : String → D) (range : String) (x1 x2 dx : D)
    (h1 : (tokenize range ":").length ≠ 1) (h3 : (tokenize range ":").length ≠ 3) :
    parseRange tokenize isNumeric atof range x1 x2 dx = (false, x1, x2, dx) := by
  unfold parseRange
  generalize tokenize range ":" = ts at h1 h3
  rcases ts with _ | ⟨a, _ | ⟨b, _ | ⟨c, _ | ⟨d, l⟩⟩⟩⟩ <;> simp at h1 h3 ⊢

theorem parseRange_step (tokenize : String → String → List String)
    (isNumeric : List String → Bool) (atof : String → D) (range : String) (x1 x2 dx : D)
    (h : (parseRange tokenize isNumeric atof range x1 x2 dx).1 = true) :
    (parseRange tokenize isNumeric atof range x1 x2 dx).2.2.2 ≠ 0 := by
  unfold parseRange at h ⊢
  generalize tokenize range ":" = ts at h
  cases hn : isNumeric ts
  · simp [hn] at h
  · rcases ts with _ | ⟨a, _ | ⟨b, _ | ⟨c, _ | ⟨d, l⟩⟩⟩⟩
    · simp [hn] at h
    · simp [hn]
    · simp [hn] at h
    · by_cases hb : atof b = 0
      · simp [hn, hb]
      · simp [hn, hb]
    · simp [hn] at h

/-- C19: `parseRange` on one numeric token `t` returns true with `x1 = x2 = t` and
`dx = 1`; on three numeric tokens `a:b:c` it returns true with `x1 = a`,
`dx = b`, `x2 = c` when `b ≠ 0` and with `x1 = x2 = a`, `dx = 1` when `b = 0`; on
tokens that are not numeric, or whose number is neither one nor three, it returns
false and leaves `x1`, `x2`, `dx` as they were; whenever it returns true,
`dx ≠ 0`. -/
theorem parseRange_spec (tokenize : String → String → List String)
    (isNumeric : List String → Bool) (atof : String → D) (range : String) (x1 x2 dx : D) :
    (∀ t, tokenize range ":" = [t] → isNumeric [t] = true →
        parseRange tokenize isNumeric atof range x1 x2 dx = (true, atof t, atof t, 1)) ∧
      (∀ a b c, tokenize range ":" = [a, b, c] → isNumeric [a, b, c] = true →
        (atof b ≠ 0 →
          parseRange tokenize isNumeric atof range x1 x2 dx =
            (true, atof a, atof c, atof b)) ∧
        (atof b = 0 →
          parseRange tokenize isNumeric atof range x1 x2 dx = (true, atof a, atof a, 1))) ∧
      ((tokenize range ":").length ≠ 1 → (tokenize range ":").length ≠ 3 →
        parseRange tokenize isNumeric atof range x1 x2 dx = (false, x1, x2, dx)) ∧
      (isNumeric (tokenize range ":") = false →
        parseRange tokenize isNumeric atof range x1 x2 dx = (false, x1, x2, dx)) ∧
      ((parseRange tokenize isNumeric atof range x1 x2 dx).1 = true →
        (parseRange tokenize isNumeric atof range x1 x2 dx).2.2.2 ≠ 0) := by
  refine ⟨fun t ht hn => parseRange_one _ _ _ _ _ _ _ t ht hn, fun a b c ht hn => ⟨fun hb => ?_,
    fun hb => ?_⟩, parseRange_other _ _ _ _ _ _ _, fun hn => ?_, parseRange_step _ _ _ _ _ _ _⟩
  · rw [parseRange_three _ _ _ _ _ _ _ a b c ht hn, if_neg hb]
  · rw [parseRange_three _ _ _ _ _ _ _ a b c ht hn, if_pos hb]
  · simp [parseRange, hn]

/-- C19 at the ranges of the usage text: `300:100:15000` gives `x1 = 300`,
`dx = 100`, `x2 = 15000`; `101325` gives `x1 = x2 = 101325`, `dx = 1`;
`300:0:15000` gives `x1 = x2 = 300`, `dx = 1`; `300:400` is refused. -/
theorem parseRange_spec_witness :
    parseRange splitTokens allDigits readRat "300:100:15000" 0 0 0 = (true, 300, 15000, 100) ∧
      parseRange splitTokens allDigits readRat "101325" 0 0 0 = (true, 101325, 101325, 1) ∧
      parseRange splitTokens allDigits readRat "300:0:15000" 0 0 0 = (true, 300, 300, 1) ∧
      parseRange splitTokens allDigits readRat "300:400" 7 8 9 = (false, 7, 8, 9) :=
  ⟨((parseRange_spec splitTokens allDigits readRat "300:100:15000" 0 0 0).2.1 "300" "100" "15000"
      (by decide) (by decide)).1 (by decide),
    (parseRange_spec splitTokens allDigits readRat "101325" 0 0 0).1 "101325"
      (by decide) (by decide),
    ((parseRange_spec splitTokens allDigits readRat "300:0:15000" 0 0 0).2.1 "300" "0" "15000"
      (by decide) (by decide)).2 (by decide),
    (parseRange_spec splitTokens allDigits readRat "300:400" 7 8 9).2.2.1
      (by decide) (by decide)⟩

/-! ### `parseIndices` -/

theorem pushFrom_eq (k : ℕ) : ∀ (i : ℤ) (indices : List ℤ),
    pushFrom i k indices = indices ++ (List.range k).map (fun (d : ℕ) => i + (d : ℤ)) := by
  induction k with
  | zero => intro i indices; simp [pushFrom]
  | succ k ih =>
    intro i indices
    rw [pushFrom, ih, List.range_succ_eq_map, List.map_cons, List.map_map, List.append_assoc]
    simp only [List.singleton_append, Nat.cast_zero, add_zero]
    congr 2
    apply List.map_congr_left
    intro d _
    simp only [Function.comp, Nat.cast_succ]
    ring

theorem mem_intRange (a b i : ℤ) : i ∈ intRange a b ↔ a ≤ i ∧ i ≤ b := by
  unfold intRange
  simp only [List.mem_map, List.mem_range]
  constructor
  · rintro ⟨d, hd, rfl⟩
    have := Int.lt_toNat.mp hd
    omega
  · rintro ⟨h1, h2⟩
    refine ⟨(i - a).toNat, ?_, ?_⟩
    · apply Int.lt_toNat.mpr
      rw [Int.toNat_of_nonneg (by omega)]
      omega
    · rw [Int.toNat_of_nonneg (by omega)]
      omega

theorem mem_itemIndices (atoi : String → ℤ) (max : ℤ) (bounds : List String) (L : List ℤ)
    (h : itemIndices atoi max bounds = some L) (i : ℤ) (hi : i ∈ L) : 0 ≤ i ∧ i ≤ max := by
  rcases bounds with _ | ⟨b0, _ | ⟨b1, _ | ⟨b2, l⟩⟩⟩
  · simp [itemIndices] at h
  · simp only [itemIndices] at h
    split_ifs at h with hc
    cases h
    simp only [List.mem_singleton] at hi
    subst hi
    exact hc
  · simp only [itemIndices] at h
    split_ifs at h with hc
    cases h
    have := (mem_intRange _ _ _).mp hi
    omega
  · simp [itemIndices] at h

/-- An item that stands for indices is read, and the loop goes on with these
indices pushed. -/
theorem parseItems_cons_some (tokenize : String → String → List String)
    (isNumeric : List String → Bool) (atoi : String → ℤ) (max : ℤ) (hmax : max < intMax)
    (r : String) (ranges : List String) (indices L : List ℤ)
    (hn : isNumeric (tokenize r "-") = true)
    (hL : itemIndices atoi max (tokenize r "-") = some L) :
    parseItems tokenize isNumeric atoi max (r :: ranges) indices =
      parseItems tokenize isNumeric atoi max ranges (indices ++ L) := by
  rw [parseItems]
  generalize tokenize r "-" = bounds at hn hL
  rcases bounds with _ | ⟨b0, _ | ⟨b1, _ | ⟨b2, l⟩⟩⟩
  · simp [itemIndices] at hL
  · simp only [itemIndices] at hL
    split_ifs at hL with hc
    cases hL
    have h1 : ¬ (atoi b0 < 0 ∨ atoi b0 > max) := by omega
    simp only [hn, Bool.not_true, Bool.false_eq_true, if_false, if_neg h1]
  · simp only [itemIndices] at hL
    split_ifs at hL with hc
    cases hL
    have h1 : ¬ (atoi b0 ≥ atoi b1 ∨ atoi b0 < 0 ∨ atoi b0 > max ∨ atoi b1 > max) := by omega
    have h2 : ¬ (atoi b0 ≤ atoi b1 ∧ atoi b1 = intMax) := by omega
    simp only [hn, Bool.not_true, Bool.false_eq_true, if_false, if_neg h1, pushRange, if_neg h2,
      Option.some_bind, pushFrom_eq, intRange]
  · simp [itemIndices] at hL

/-- An item that is not numeric or stands for nothing stops the loop with false. -/
theorem parseItems_cons_none (tokenize : String → String → List String)
    (isNumeric : List String → Bool) (atoi : String → ℤ) (max : ℤ)
    (r : String) (ranges : List String) (indices : List ℤ)
    (h : isNumeric (tokenize r "-") = false ∨ itemIndices atoi max (tokenize r "-") = none) :
    parseItems tokenize isNumeric atoi max (r :: ranges) indices = some (false, indices) := by
  rw [parseItems]
  generalize tokenize r "-" = bounds at h
  cases hn : isNumeric bounds
  · simp
  · rcases h with h | h
    · rw [hn] at h; cases h
    · rcases bounds with _ | ⟨b0, _ | ⟨b1, _ | ⟨b2, l⟩⟩⟩
      · simp
      · simp only [itemIndices] at h
        split_ifs at h with hc
        have h1 : atoi b0 < 0 ∨ atoi b0 > max := by omega
        simp [h1]
      · simp only [itemIndices] at h
        split_ifs at h with hc
        have h1 : atoi b0 ≥ atoi b1 ∨ atoi b0 < 0 ∨ atoi b0 > max ∨ atoi b1 > max := by omega
        simp only [Bool.not_true, Bool.false_eq_true, if_false, if_pos h1]
      · simp

theorem parseItems_all (tokenize : String → String → List String)
    (isNumeric : List String → Bool) (atoi : String → ℤ) (max : ℤ) (hmax : max < intMax) :
    ∀ (ranges : List String) (indices : List ℤ),
      (∀ r ∈ ranges, isNumeric (tokenize r "-") = true ∧
        (itemIndices atoi max (tokenize r "-")).isSome = true) →
      parseItems tokenize isNumeric atoi max ranges indices =
        some (true, indices ++
          (ranges.map (fun r => (itemIndices atoi max (tokenize r "-")).getD [])).flatten) := by
  intro ranges
  induction ranges with
  | nil => intro indices _; simp [parseItems]
  | cons r ranges ih =>
    intro indices h
    obtain ⟨hn, hs⟩ := h r (List.mem_cons_self _ _)
    obtain ⟨L, hL⟩ := Option.isSome_iff_exists.mp hs
    rw [parseItems_cons_some tokenize isNumeric atoi max hmax r ranges indices L hn hL,
      ih _ (fun r2 hr2 => h r2 (List.mem_cons_of_mem _ hr2))]
    simp [hL]

theorem parseItems_some_bad (tokenize : String → String → List String)
    (isNumeric : List String → Bool) (atoi : String → ℤ) (max : ℤ) (hmax : max < intMax) :
    ∀ (ranges : List String) (indices : List ℤ),
      (∃ r ∈ ranges, isNumeric (tokenize r "-") = false ∨
        itemIndices atoi max (tokenize r "-") = none) →
      ∃ L, parseItems tokenize isNumeric atoi max ranges indices = some (false, L) := by
  intro ranges
  induction ranges with
  | nil => intro indices h; obtain ⟨r, hr, _⟩ := h; cases hr
  | cons r ranges ih =>
    intro indices h
    by_cases hr : isNumeric (tokenize r "-") = false ∨
        itemIndices atoi max (tokenize r "-") = none
    · exact ⟨indices, parseItems_cons_none tokenize isNumeric atoi max r ranges indices hr⟩
    · have hn : isNumeric (tokenize r "-") = true := by
        cases hh : isNumeric (tokenize r "-")
        · exact absurd (Or.inl hh) hr
        · rfl
      obtain ⟨L, hL⟩ : ∃ L, itemIndices atoi max (tokenize r "-") = some L := by
        cases hh : itemIndices atoi max (tokenize r "-")
        · exact absurd (Or.inr hh) hr
        · exact ⟨_, rfl⟩
      rw [parseItems_cons_some tokenize isNumeric atoi max hmax r ranges indices L hn hL]
      apply ih
      obtain ⟨r2, hr2, hbad⟩ := h
      rcases List.mem_cons.mp hr2 with rfl | hmem
      · exact absurd hbad hr
      · exact ⟨r2, hmem, hbad⟩

theorem itemIndices_refused (atoi : String → ℤ) (max : ℤ) (bounds : List String)
    (h : itemRefused atoi max bounds) : itemIndices atoi max bounds = none := by
  rcases h with ⟨b0, rfl, h⟩ | ⟨b0, b1, rfl, h⟩ | h
  · have h1 : ¬ (0 ≤ atoi b0 ∧ atoi b0 ≤ max) := by omega
    simp only [itemIndices, if_neg h1]
  · have h1 : ¬ (0 ≤ atoi b0 ∧ atoi b0 < atoi b1 ∧ atoi b1 ≤ max) := by omega
    simp only [itemIndices, if_neg h1]
  · rcases bounds with _ | ⟨b0, _ | ⟨b1, _ | ⟨b2, l⟩⟩⟩
    · simp at h
    · simp at h
    · simp at h
    · simp [itemIndices]

/-- C18: for `max` below the largest `int`: if every comma-separated item of the
list is numeric and is a number `i` with `0 ≤ i ≤ max` or a range `a-b` with
`0 ≤ a < b ≤ max`, `parseIndices` returns true and `indices` holds, in order, the
numbers and the inclusive ranges `a, …, b` of the items, whatever it held on
entry, so that every returned index lies in `[0, max]`; if some item is a number
greater than `max`, a range with `a ≥ b` or `b > max`, or has more than two
bounds, it returns false. -/
theorem parseIndices_spec (tokenize : String → String → List String)
    (isNumeric : List String → Bool) (atoi : String → ℤ) (list : String) (indices : List ℤ)
    (max : ℤ) (hmax : max < intMax) :
    ((∀ r ∈ tokenize list ",", isNumeric (tokenize r "-") = true ∧
          (itemIndices atoi max (tokenize r "-")).isSome = true) →
        parseIndices tokenize isNumeric atoi list indices max =
            some (true, ((tokenize list ",").map
              (fun r => (itemIndices atoi max (tokenize r "-")).getD [])).flatten) ∧
          ∀ L, parseIndices tokenize isNumeric atoi list indices max = some (true, L) →
            ∀ i ∈ L, 0 ≤ i ∧ i ≤ max) ∧
      ((∃ r ∈ tokenize list ",", itemRefused atoi max (tokenize r "-")) →
        ∃ L, parseIndices tokenize isNumeric atoi list indices max = some (false, L)) := by
  refine ⟨fun h => ?_, fun h => ?_⟩
  · have key := parseItems_all tokenize isNumeric atoi max hmax (tokenize list ",") [] h
    rw [List.nil_append] at key
    refine ⟨key, fun L hL i hi => ?_⟩
    unfold parseIndices at hL
    rw [key] at hL
    cases hL
    obtain ⟨l, hl, hil⟩ := List.mem_flatten.mp hi
    obtain ⟨r, hr, rfl⟩ := List.mem_map.mp hl
    obtain ⟨L2, hL2⟩ := Option.isSome_iff_exists.mp (h r hr).2
    rw [hL2] at hil
    exact mem_itemIndices atoi max _ L2 hL2 i hil
  · obtain ⟨r, hr, hbad⟩ := h
    exact parseItems_some_bad tokenize isNumeric atoi max hmax (tokenize list ",") []
      ⟨r, hr, Or.inr (itemIndices_refused atoi max _ hbad)⟩

/-- C18 at the list `1-3,7,9-11` with `max = 12` (thirteen species): the indices
are `1, 2, 3, 7, 9, 10, 11`; `1-3,13`, `3-1` and `1-2-3` are refused. -/
theorem parseIndices_spec_witness :
    (12 : ℤ) < intMax ∧
      parseIndices splitTokens allDigits readNat "1-3,7,9-11" [5] 12 =
        some (true, [1, 2, 3, 7, 9, 10, 11]) ∧
      (∃ L, parseIndices splitTokens allDigits readNat "1-3,13" [] 12 = some (false, L)) ∧
      (∃ L, parseIndices splitTokens allDigits readNat "3-1" [] 12 = some (false, L)) ∧
      (∃ L, parseIndices splitTokens allDigits readNat "1-2-3" [] 12 = some (false, L)) :=
  ⟨by decide,
    ((parseIndices_spec splitTokens allDigits readNat "1-3,7,9-11" [5] 12 (by decide)).1
      (by decide)).1.trans (by decide),
    (parseIndices_spec splitTokens allDigits readNat "1-3,13" [] 12 (by decide)).2
      ⟨"13", by decide, Or.inl ⟨"13", by decide, by decide⟩⟩,
    (parseIndices_spec splitTokens allDigits readNat "3-1" [] 12 (by decide)).2
      ⟨"3-1", by decide, Or.inr (Or.inl ⟨"3", "1", by decide, by decide⟩)⟩,
    (parseIndices_spec splitTokens allDigits readNat "1-2-3" [] 12 (by decide)).2
      ⟨"1-2-3", by decide, Or.inr (Or.inr (by decide))⟩⟩

end Mppequil

namespace Reaction

/-! ### `parseSpecies` -/

theorem subSize_eq (a b : ℕ) (hb : b ≤ a) (ha : a < sizeMod) : subSize a b = a - b := by
  unfold subSize sizeMod at *
  omega

theorem addSize_eq (a b : ℕ) (h : a + b < sizeMod) : addSize a b = a + b := by
  unfold addSize
  exact Nat.mod_eq_of_lt h

theorem insertTimes_eq (x : String) (k : ℕ) : ∀ species : Multiset String,
    insertTimes x k species = species + Multiset.replicate k x := by
  induction k with
  | zero => intro species; simp [insertTimes]
  | succ k ih =>
    intro species
    rw [insertTimes, ih, Multiset.replicate_succ]
    simp

theorem charAt_append (str : String) (pre rest : List Char) (h : str.data = pre ++ rest)
    (j : ℕ) : charAt str (pre.length + j) = rest.getD j (Char.ofNat 0) := by
  unfold charAt
  rw [h, List.getD_append_right _ _ _ _ (Nat.le_add_right _ _), Nat.add_sub_cancel_left]

theorem substr_append (str : String) (pre mid post : List Char)
    (h : str.data = pre ++ (mid ++ post)) :
    substr str pre.length mid.length = String.mk mid := by
  unfold substr
  rw [h, List.drop_left, List.take_left]

theorem scanLoop_succ (str : String) (fuel : ℕ) (st : Scan) (h : st.c ≠ str.length) :
    scanLoop str (fuel + 1) st = scanLoop str fuel (scanStep str st) := by
  rw [scanLoop, if_neg h]

theorem scanLoop_done (str : String) (fuel : ℕ) (st : Scan) (h : st.c = str.length) :
    scanLoop str fuel st = some st := by
  cases fuel <;> simp [scanLoop, h]

/-! ### Single passes -/

theorem step_coef_digit (str : String) (hW : str.length < sizeMod) (c s e : ℕ) (nu : ℤ)
    (sp : Multiset String) (hc : c + 1 < str.length) (hd : (charAt str c).isDigit = true) :
    scanStep str ⟨c, s, e, nu, false, ParseState.coefficient, sp⟩ =
      ⟨c + 1, c + 1, e, ((charAt str c).toNat : ℤ) - 48, false, ParseState.name, sp⟩ := by
  have h1 : addSize c 1 = c + 1 := addSize_eq _ _ (by omega)
  have h2 : subSize str.length 1 = str.length - 1 := subSize_eq _ _ (by omega) hW
  have h3 : ¬ c = str.length - 1 := by omega
  simp [scanStep, h1, h2, h3, hd]

theorem step_coef_name (str : String) (hW : str.length < sizeMod) (c s e : ℕ) (nu : ℤ)
    (sp : Multiset String) (hc : c + 1 < str.length) (hd : (charAt str c).isDigit = false) :
    scanStep str ⟨c, s, e, nu, false, ParseState.coefficient, sp⟩ =
      ⟨c + 1, c, e, 1, false, ParseState.name, sp⟩ := by
  have h1 : addSize c 1 = c + 1 := addSize_eq _ _ (by omega)
  have h2 : subSize str.length 1 = str.length - 1 := subSize_eq _ _ (by omega) hW
  have h3 : ¬ c = str.length - 1 := by omega
  simp [scanStep, h1, h2, h3, hd]

theorem step_coef_last (str : String) (hW : str.length < sizeMod) (c s e : ℕ) (nu : ℤ)
    (sp : Multiset String) (hc : c + 1 = str.length) (hd : (charAt str c).isDigit = false) :
    scanStep str ⟨c, s, e, nu, false, ParseState.coefficient, sp⟩ =
      ⟨c + 1, c, c, 1, false, ParseState.name, insertTimes (substr str c 1) 1 sp⟩ := by
  have h1 : addSize c 1 = c + 1 := addSize_eq _ _ (by omega)
  have h2 : subSize str.length 1 = str.length - 1 := subSize_eq _ _ (by omega) hW
  have h3 : c = str.length - 1 := by omega
  have h4 : subSize c c = 0 := by rw [subSize_eq _ _ le_rfl (by omega)]; simp
  have h5 : addSize 0 1 = 1 := addSize_eq _ _ (by unfold sizeMod; norm_num)
  simp [scanStep, h1, h2, ← h3, hd, h4, h5]

theorem step_name (str : String) (hW : str.length < sizeMod) (c s e : ℕ) (nu : ℤ)
    (sp : Multiset String) (hc : c + 1 < str.length) (hp : charAt str c ≠ '+') :
    scanStep str ⟨c, s, e, nu, false, ParseState.name, sp⟩ =
      ⟨c + 1, s, e, nu, false, ParseState.name, sp⟩ := by
  have h1 : addSize c 1 = c + 1 := addSize_eq _ _ (by omega)
  have h2 : subSize str.length 1 = str.length - 1 := subSize_eq _ _ (by omega) hW
  have h3 : ¬ c = str.length - 1 := by omega
  simp [scanStep, h1, h2, h3, hp]

theorem step_name_plus (str : String) (hW : str.length < sizeMod) (c s e : ℕ) (nu : ℤ)
    (sp : Multiset String) (hc : c + 1 < str.length) (hp : charAt str c = '+') :
    scanStep str ⟨c, s, e, nu, false, ParseState.name, sp⟩ =
      ⟨c + 1, s, e, nu, false, ParseState.plus, sp⟩ := by
  have h1 : addSize c 1 = c + 1 := addSize_eq _ _ (by omega)
  have h2 : subSize str.length 1 = str.length - 1 := subSize_eq _ _ (by omega) hW
  have h3 : ¬ c = str.length - 1 := by omega
  simp [scanStep, h1, h2, h3, hp]

theorem step_name_last (str : String) (hW : str.length < sizeMod) (c s e : ℕ) (nu : ℤ)
    (sp : Multiset String) (hc : c + 1 = str.length) (hs : s ≤ c) (hp : charAt str c ≠ '+') :
    scanStep str ⟨c, s, e, nu, false, ParseState.name, sp⟩ =
      ⟨c + 1, s, c, nu, false, ParseState.name,
        insertTimes (substr str s (c + 1 - s)) nu.toNat sp⟩ := by
  have h1 : addSize c 1 = c + 1 := addSize_eq _ _ (by omega)
  have h2 : subSize str.length 1 = str.length - 1 := subSize_eq _ _ (by omega) hW
  have h3 : c = str.length - 1 := by omega
  have h4 : subSize c s = c - s := subSize_eq _ _ hs (by omega)
  have h5 : addSize (c - s) 1 = c + 1 - s := by rw [addSize_eq _ _ (by omega)]; omega
  simp [scanStep, h1, h2, ← h3, hp, h4, h5]

theorem step_plus (str : String) (hW : str.length < sizeMod) (c s e : ℕ) (nu : ℤ)
    (sp : Multiset String) (hc : c + 1 ≤ str.length) (hs : s + 2 ≤ c)
    (hp : charAt str c ≠ '+') :
    scanStep str ⟨c, s, e, nu, false, ParseState.plus, sp⟩ =
      ⟨c, s, c - 2, nu, false, ParseState.coefficient,
        insertTimes (substr str s (c - 1 - s)) nu.toNat sp⟩ := by
  have h0 : subSize c 1 = c - 1 := subSize_eq _ _ (by omega) (by omega)
  have h0b : subSize c 2 = c - 2 := subSize_eq _ _ (by omega) (by omega)
  have h1 : addSize (c - 1) 1 = c := by rw [addSize_eq _ _ (by omega)]; omega
  have h2 : subSize str.length 1 = str.length - 1 := subSize_eq _ _ (by omega) hW
  have h3 : ¬ c - 1 = str.length - 1 := by omega
  have h4 : subSize (c - 2) s = c - 2 - s := subSize_eq _ _ (by omega) (by omega)
  have h5 : addSize (c - 2 - s) 1 = c - 1 - s := by rw [addSize_eq _ _ (by omega)]; omega
  simp [scanStep, h0, h0b, h1, h2, h3, hp, h4, h5]


/-! ### Runs of passes -/

theorem name_run (str : String) (hW : str.length < sizeMod) (s e : ℕ) (nu : ℤ)
    (sp : Multiset String) (fuel : ℕ) : ∀ (k c : ℕ), c + k < str.length →
    (∀ j < k, charAt str (c + j) ≠ '+') →
    scanLoop str (fuel + k) ⟨c, s, e, nu, false, ParseState.name, sp⟩ =
      scanLoop str fuel ⟨c + k, s, e, nu, false, ParseState.name, sp⟩ := by
  intro k
  induction k with
  | zero => intro c _ _; rfl
  | succ k ih =>
    intro c hc hp
    rw [← Nat.add_assoc, scanLoop_succ str _ _ (show c ≠ str.length by omega),
      step_name str hW c s e nu sp (by omega) (by simpa using hp 0 (Nat.succ_pos k)),
      ih (c + 1) (by omega) (fun j hj => by
        have := hp (j + 1) (Nat.succ_lt_succ hj)
        rwa [show c + (j + 1) = c + 1 + j by omega] at this)]
    rw [show c + 1 + k = c + (k + 1) by omega]

theorem getD_ne_plus (l post : List Char) (hl : '+' ∉ l) (j : ℕ) (hj : j < l.length) :
    (l ++ post).getD j (Char.ofNat 0) ≠ '+' := by
  rw [List.getD_append _ _ _ _ hj, List.getD_eq_getElem _ _ hj]
  intro h
  exact hl (h ▸ List.getElem_mem _)

theorem toNat_digit (d : Char) : ((d.toNat : ℤ) - 48).toNat = d.toNat - 48 := by omega

/-- A term followed by `+` and a character other than `+`: the scanner, entering
the term in state `coefficient`, comes back to this state at the character after
the `+` with the copies of the name inserted. -/
theorem term_run (str : String) (hW : str.length < sizeMod) (t : Term) (ht : t.WF)
    (pre post : List Char) (x : Char) (hx : x ≠ '+')
    (h : str.data = pre ++ (t.text ++ '+' :: x :: post)) (s e : ℕ) (nu : ℤ)
    (sp : Multiset String) (fuel : ℕ) :
    ∃ s2 e2 nu2,
      scanLoop str (fuel + (t.text.length + 2)) ⟨pre.length, s, e, nu, false,
          ParseState.coefficient, sp⟩ =
        scanLoop str fuel ⟨pre.length + t.text.length + 1, s2, e2, nu2, false,
          ParseState.coefficient, sp + Multiset.replicate t.copies t.name⟩ := by
  obtain ⟨hd, ⟨x0, l, hname, hx0⟩, hplus⟩ := ht
  have hlen : str.length = pre.length + (t.text.length + 2 + post.length) := by
    show str.data.length = _
    rw [h]; simp only [List.length_append, List.length_cons]; omega
  rcases hco : t.coef with _ | d
  · -- no coefficient
    have htext : t.text = x0 :: l := by simp [Term.text, hco, hname]
    have hcopies : t.copies = 1 := by simp [Term.copies, hco]
    rw [htext] at h hlen
    simp only [List.length_cons] at hlen
    have hat : ∀ j, charAt str (pre.length + j) =
        (x0 :: (l ++ '+' :: x :: post)).getD j (Char.ofNat 0) := fun j => by
      rw [charAt_append str pre _ h j]; rfl
    have hl : '+' ∉ l := fun hm => hplus (hname ▸ List.mem_cons_of_mem _ hm)
    refine ⟨pre.length, pre.length + 1 + l.length + 1 - 2, 1, ?_⟩
    rw [htext, List.length_cons,
      show fuel + (l.length + 1 + 2) = fuel + 1 + 1 + l.length + 1 by omega,
      scanLoop_succ str _ _ (show pre.length ≠ str.length by omega),
      step_coef_name str hW _ s e nu sp (by omega) (by
        have := hat 0; rw [Nat.add_zero] at this; rw [this]; exact hx0),
      name_run str hW _ _ _ _ _ l.length (pre.length + 1) (by omega) (fun j hj => by
        rw [show pre.length + 1 + j = pre.length + (j + 1) by omega, hat (j + 1)]
        exact getD_ne_plus l _ hl j hj),
      scanLoop_succ str _ _ (show pre.length + 1 + l.length ≠ str.length by omega),
      step_name_plus str hW _ _ _ _ _ (by omega) (by
        rw [show pre.length + 1 + l.length = pre.length + (l.length + 1) by omega,
          hat (l.length + 1)]
        show (l ++ '+' :: x :: post).getD l.length (Char.ofNat 0) = '+'
        rw [List.getD_append_right _ _ _ _ le_rfl]; simp),
      scanLoop_succ str _ _ (show pre.length + 1 + l.length + 1 ≠ str.length by omega),
      step_plus str hW _ _ _ _ _ (by omega) (by omega) (by
        rw [show pre.length + 1 + l.length + 1 = pre.length + (l.length + 2) by omega,
          hat (l.length + 2)]
        show (l ++ '+' :: x :: post).getD (l.length + 1) (Char.ofNat 0) ≠ '+'
        rw [List.getD_append_right _ _ _ _ (Nat.le_succ _)]; simpa using hx),
      insertTimes_eq, hcopies]
    have hsub : substr str pre.length (pre.length + 1 + l.length + 1 - 1 - pre.length) =
        t.name := by
      rw [show pre.length + 1 + l.length + 1 - 1 - pre.length = (x0 :: l).length by
        simp only [List.length_cons]; omega]
      rw [substr_append str pre (x0 :: l) ('+' :: x :: post) h, ← hname]
    rw [hsub, show pre.length + (l.length + 1) + 1 = pre.length + 1 + l.length + 1 by omega]
    rfl
  · -- a digit
    have hdig := hd d hco
    have htext : t.text = d :: (x0 :: l) := by simp [Term.text, hco, hname]
    have hcopies : t.copies = d.toNat - 48 := by simp [Term.copies, hco]
    rw [htext] at h hlen
    simp only [List.length_cons] at hlen
    have hat : ∀ j, charAt str (pre.length + j) =
        (d :: ((x0 :: l) ++ '+' :: x :: post)).getD j (Char.ofNat 0) := fun j => by
      rw [charAt_append str pre _ h j]; rfl
    have hat0 : charAt str pre.length = d := by
      have := hat 0; rw [Nat.add_zero] at this; rw [this]; rfl
    have hl : '+' ∉ x0 :: l := hname ▸ hplus
    refine ⟨pre.length + 1, pre.length + 1 + (l.length + 1) + 1 - 2, (d.toNat : ℤ) - 48, ?_⟩
    rw [htext, List.length_cons, List.length_cons,
      show fuel + (l.length + 1 + 1 + 2) = fuel + 1 + 1 + (l.length + 1) + 1 by omega,
      scanLoop_succ str _ _ (show pre.length ≠ str.length by omega),
      step_coef_digit str hW _ s e nu sp (by omega) (by rw [hat0]; exact hdig),
      name_run str hW _ _ _ _ _ (l.length + 1) (pre.length + 1) (by omega) (fun j hj => by
        rw [show pre.length + 1 + j = pre.length + (j + 1) by omega, hat (j + 1)]
        exact getD_ne_plus (x0 :: l) _ hl j (by simpa using hj)),
      scanLoop_succ str _ _ (show pre.length + 1 + (l.length + 1) ≠ str.length by omega),
      step_name_plus str hW _ _ _ _ _ (by omega) (by
        rw [show pre.length + 1 + (l.length + 1) = pre.length + ((x0 :: l).length + 1) by
          simp only [List.length_cons]; omega, hat ((x0 :: l).length + 1)]
        show ((x0 :: l) ++ '+' :: x :: post).getD (x0 :: l).length (Char.ofNat 0) = '+'
        rw [List.getD_append_right _ _ _ _ le_rfl]; simp),
      scanLoop_succ str _ _ (show pre.length + 1 + (l.length + 1) + 1 ≠ str.length by omega),
      step_plus str hW _ _ _ _ _ (by omega) (by omega) (by
        rw [show pre.length + 1 + (l.length + 1) + 1 = pre.length + ((x0 :: l).length + 2) by
          simp only [List.length_cons]; omega, hat ((x0 :: l).length + 2)]
        show ((x0 :: l) ++ '+' :: x :: post).getD ((x0 :: l).length + 1) (Char.ofNat 0) ≠ '+'
        rw [List.getD_append_right _ _ _ _ (Nat.le_succ _)]; simpa using hx),
      insertTimes_eq, hcopies, hat0, toNat_digit]
    have hsub : substr str (pre.length + 1)
        (pre.length + 1 + (l.length + 1) + 1 - 1 - (pre.length + 1)) = t.name := by
      rw [show pre.length + 1 + (l.length + 1) + 1 - 1 - (pre.length + 1) = (x0 :: l).length by
        simp only [List.length_cons]; omega]
      have := substr_append str (pre ++ [d]) (x0 :: l) ('+' :: x :: post) (by rw [h]; simp)
      rw [List.length_append, List.length_singleton] at this
      rw [this, ← hname]
    rw [hsub, show pre.length + (l.length + 1 + 1) + 1 = pre.length + 1 + (l.length + 1) + 1 by
      omega]


/-- The passes over the name of the last term: from state `name` at the first of
the characters `l` that end the string. -/
theorem name_end (str : String) (hW : str.length < sizeMod) (pre l : List Char)
    (hl : '+' ∉ l) (hne : l ≠ []) (h : str.data = pre ++ l) (s e : ℕ) (nu : ℤ)
    (hs : s ≤ pre.length) (sp : Multiset String) (fuel : ℕ) :
    ∃ st, scanLoop str (fuel + l.length) ⟨pre.length, s, e, nu, false, ParseState.name, sp⟩ =
        some st ∧
      st.species = insertTimes (substr str s (str.length - s)) nu.toNat sp := by
  have hlen : str.length = pre.length + l.length := by
    show str.data.length = _
    rw [h, List.length_append]
  have hpos : 0 < l.length := List.length_pos.mpr hne
  have hat : ∀ j, j < l.length → charAt str (pre.length + j) ≠ '+' := fun j hj => by
    rw [charAt_append str pre l h j]
    have := getD_ne_plus l [] hl j hj
    rwa [List.append_nil] at this
  rw [show fuel + l.length = fuel + 1 + (l.length - 1) by omega,
    name_run str hW _ _ _ _ _ (l.length - 1) pre.length (by omega)
      (fun j hj => hat j (by omega)),
    scanLoop_succ str _ _ (show pre.length + (l.length - 1) ≠ str.length by omega),
    step_name_last str hW _ _ _ _ _ (by omega) (by omega) (hat _ (by omega)),
    scanLoop_done str _ _ (by show pre.length + (l.length - 1) + 1 = str.length; omega),
    show pre.length + (l.length - 1) + 1 - s = str.length - s by omega]
  exact ⟨_, rfl, rfl⟩

/-- The last term: the scanner, entering it in state `coefficient`, leaves the
loop with the copies of the name inserted. -/
theorem term_end (str : String) (hW : str.length < sizeMod) (t : Term) (ht : t.WF)
    (pre : List Char) (h : str.data = pre ++ t.text) (s e : ℕ) (nu : ℤ)
    (sp : Multiset String) (fuel : ℕ) :
    ∃ st, scanLoop str (fuel + t.text.length) ⟨pre.length, s, e, nu, false,
          ParseState.coefficient, sp⟩ = some st ∧
      st.species = sp + Multiset.replicate t.copies t.name := by
  obtain ⟨hd, ⟨x0, l, hname, hx0⟩, hplus⟩ := ht
  rcases hco : t.coef with _ | d
  · -- no coefficient
    have htext : t.text = x0 :: l := by simp [Term.text, hco, hname]
    have hcopies : t.copies = 1 := by simp [Term.copies, hco]
    rw [htext] at h
    have hlen : str.length = pre.length + (l.length + 1) := by
      show str.data.length = _
      rw [h]; simp only [List.length_append, List.length_cons]
    have hat0 : charAt str pre.length = x0 := by
      have := charAt_append str pre _ h 0
      rw [Nat.add_zero] at this; rw [this]; rfl
    have hsub : substr str pre.length (str.length - pre.length) = t.name := by
      rw [show str.length - pre.length = (x0 :: l).length by
        simp only [List.length_cons]; omega]
      have := substr_append str pre (x0 :: l) [] (by rw [h, List.append_nil])
      rw [this, ← hname]
    rcases List.eq_nil_or_concat l with hl | ⟨init, last, hl⟩
    · subst hl
      have h1 : substr str pre.length 1 = t.name := by
        rw [← hsub, hlen]; simp
      rw [htext, List.length_singleton,
        scanLoop_succ str _ _ (show pre.length ≠ str.length by rw [hlen]; simp),
        step_coef_last str hW _ s e nu sp (by rw [hlen]; rfl) (by rw [hat0]; exact hx0),
        scanLoop_done str _ _ (by rw [hlen]; rfl), insertTimes_eq, hcopies, h1]
      exact ⟨_, rfl, rfl⟩
    · have hl2 : '+' ∉ l := fun hm => hplus (hname ▸ List.mem_cons_of_mem _ hm)
      have hne : l ≠ [] := by rw [hl]; simp
      obtain ⟨st, hst, hsp⟩ := name_end str hW (pre ++ [x0]) l hl2 hne (by rw [h]; simp)
        pre.length e 1 (by simp) sp fuel
      rw [List.length_append, List.length_singleton] at hst
      refine ⟨st, ?_, ?_⟩
      · rw [htext, List.length_cons, ← Nat.add_assoc,
          scanLoop_succ str _ _ (show pre.length ≠ str.length by omega),
          step_coef_name str hW _ s e nu sp (by
            have := List.length_pos.mpr hne
            omega) (by rw [hat0]; exact hx0), hst]
      · rw [hsp, hsub, insertTimes_eq, hcopies]; rfl
  · -- a digit
    have hdig := hd d hco
    have htext : t.text = d :: (x0 :: l) := by simp [Term.text, hco, hname]
    have hcopies : t.copies = d.toNat - 48 := by simp [Term.copies, hco]
    rw [htext] at h
    have hlen : str.length = pre.length + (l.length + 2) := by
      show str.data.length = _
      rw [h]; simp only [List.length_append, List.length_cons]
    have hat0 : charAt str pre.length = d := by
      have := charAt_append str pre _ h 0
      rw [Nat.add_zero] at this; rw [this]; rfl
    have hsub : substr str (pre.length + 1) (str.length - (pre.length + 1)) = t.name := by
      rw [show str.length - (pre.length + 1) = (x0 :: l).length by
        simp only [List.length_cons]; omega]
      have := substr_append str (pre ++ [d]) (x0 :: l) [] (by rw [h]; simp)
      rw [List.length_append, List.length_singleton] at this
      rw [this, ← hname]
    obtain ⟨st, hst, hsp⟩ := name_end str hW (pre ++ [d]) (x0 :: l) (hname ▸ hplus)
      (List.cons_ne_nil _ _) (by rw [h]; simp) (pre.length + 1) e ((d.toNat : ℤ) - 48)
      (by simp) sp fuel
    rw [List.length_append, List.length_singleton] at hst
    refine ⟨st, ?_, ?_⟩
    · rw [htext, List.length_cons, ← Nat.add_assoc,
        scanLoop_succ str _ _ (show pre.length ≠ str.length by omega),
        step_coef_digit str hW _ s e nu sp (by omega) (by rw [hat0]; exact hdig), hat0, hst]
    · rw [hsp, hsub, insertTimes_eq, hcopies, toNat_digit]

theorem text_head (t : Term) (ht : t.WF) : ∃ x l, t.text = x :: l ∧ x ≠ '+' := by
  obtain ⟨hd, ⟨x0, l, hname, _⟩, hplus⟩ := ht
  rcases hco : t.coef with _ | d
  · refine ⟨x0, l, by simp [Term.text, hco, hname], ?_⟩
    rintro rfl
    exact hplus (by rw [hname]; exact List.mem_cons_self _ _)
  · refine ⟨d, x0 :: l, by simp [Term.text, hco, hname], ?_⟩
    rintro rfl
    have := hd _ hco
    revert this
    decide

theorem formula_head (t : Term) (ts : List Term) (ht : t.WF) :
    ∃ x l, formula (t :: ts) = x :: l ∧ x ≠ '+' := by
  obtain ⟨x, l, hxl, hx⟩ := text_head t ht
  cases ts with
  | nil => exact ⟨x, l, by rw [formula, hxl], hx⟩
  | cons t2 ts =>
    refine ⟨x, l ++ '+' :: formula (t2 :: ts), ?_, hx⟩
    show t.text ++ '+' :: formula (t2 :: ts) = _
    rw [hxl]; rfl

/-- The whole formula: the loop ends within twice as many passes as the string
has characters, with the named species added. -/
theorem formula_run (str : String) (hW : str.length < sizeMod) : ∀ (ts : List Term),
    (∀ t ∈ ts, t.WF) → ∀ (pre : List Char), str.data = pre ++ formula ts →
    ∃ N, N ≤ 2 * (formula ts).length ∧ ∀ (s e : ℕ) (nu : ℤ) (sp : Multiset String) (fuel : ℕ),
      ∃ st, scanLoop str (fuel + N) ⟨pre.length, s, e, nu, false,
          ParseState.coefficient, sp⟩ = some st ∧
        st.species = sp + named ts := by
  intro ts
  induction ts with
  | nil =>
    intro _ pre h
    refine ⟨0, Nat.zero_le _, fun s e nu sp fuel => ⟨_, scanLoop_done str _ _ ?_, ?_⟩⟩
    · show pre.length = str.data.length
      rw [h]; simp [formula]
    · simp [named]
  | cons t ts ih =>
    intro hts pre h
    have ht := hts t (List.mem_cons_self _ _)
    cases ts with
    | nil =>
      refine ⟨t.text.length, by simp only [formula]; omega, fun s e nu sp fuel => ?_⟩
      obtain ⟨st, hst, hsp⟩ := term_end str hW t ht pre h s e nu sp fuel
      exact ⟨st, hst, by rw [hsp]; simp [named]⟩
    | cons t2 ts =>
      have hts2 : ∀ u ∈ t2 :: ts, u.WF := fun u hu => hts u (List.mem_cons_of_mem _ hu)
      obtain ⟨x, post, hxp, hx⟩ := formula_head t2 ts (hts2 t2 (List.mem_cons_self _ _))
      obtain ⟨y, l, hyl, _⟩ := text_head t ht
      have hf : formula (t :: t2 :: ts) = t.text ++ '+' :: formula (t2 :: ts) := rfl
      rw [hf] at h
      obtain ⟨N, hN, hrun⟩ := ih hts2 (pre ++ (t.text ++ ['+'])) (by rw [h]; simp)
      refine ⟨N + (t.text.length + 2), ?_, fun s e nu sp fuel => ?_⟩
      · rw [hf, List.length_append, List.length_cons, hyl, List.length_cons]
        omega
      · rw [hxp] at h
        obtain ⟨s2, e2, nu2, hterm⟩ := term_run str hW t ht pre post x hx h s e nu sp (fuel + N)
        obtain ⟨st, hst, hsp⟩ := hrun s2 e2 nu2 (sp + Multiset.replicate t.copies t.name) fuel
        refine ⟨st, ?_, ?_⟩
        · rw [← Nat.add_assoc, hterm, ← hst]
          simp only [List.length_append, List.length_singleton, Nat.add_assoc]
        · rw [hsp]
          simp only [named, List.map_cons, List.sum_cons]
          rw [add_assoc]

/-- C20: for a string that, with its spaces erased, reads `c1 N1 + … + cn Nn`, where
each `ci` is empty or one digit and each name is non-empty, does not start with a
digit and contains no `+`, `parseSpecies` ends (within twice as many passes as the
erased string has characters) and has added to the multiset `ci` copies of each
`Ni`, one copy where `ci` is empty, and nothing else. -/
theorem parseSpecies_spec (eraseAll : String → String → String) (str : String)
    (ts : List Term) (hts : ∀ t ∈ ts, t.WF) (hstr : (eraseAll str " ").data = formula ts)
    (hW : (eraseAll str " ").length < sizeMod) (species : Multiset String) (fuel : ℕ)
    (hf : 2 * (eraseAll str " ").length ≤ fuel) :
    parseSpecies eraseAll fuel species str = some (species + named ts, eraseAll str " ") := by
  obtain ⟨N, hN, hrun⟩ := formula_run (eraseAll str " ") hW ts hts [] (by rw [hstr]; rfl)
  have hN2 : N ≤ fuel := by
    have : (eraseAll str " ").length = (formula ts).length := by
      show (eraseAll str " ").data.length = _
      rw [hstr]
    omega
  obtain ⟨st, hst, hsp⟩ := hrun 0 0 1 species (fuel - N)
  rw [Nat.sub_add_cancel hN2] at hst
  unfold parseSpecies
  dsimp only
  rw [show ([] : List Char).length = 0 from rfl] at hst
  rw [hst, Option.map_some', hsp]

/-- C20 at `2N2 + O`: `N2` is added twice and `O` once to a multiset that
held `M`. -/
theorem parseSpecies_spec_witness :
    (∀ t ∈ [Term.mk (some '2') "N2", Term.mk none "O"], t.WF) ∧
      (eraseChars "2N2 + O" " ").data = formula [Term.mk (some '2') "N2", Term.mk none "O"] ∧
      (eraseChars "2N2 + O" " ").length < sizeMod ∧
      2 * (eraseChars "2N2 + O" " ").length ≤ 10 ∧
      parseSpecies eraseChars 10 {"M"} "2N2 + O" = some ({"M", "N2", "N2", "O"}, "2N2+O") :=
  have hts : ∀ t ∈ [Term.mk (some '2') "N2", Term.mk none "O"], t.WF := by
    intro t ht
    simp only [List.mem_cons, List.mem_singleton, List.not_mem_nil, or_false] at ht
    rcases ht with rfl | rfl
    · exact ⟨fun d hd => (by cases hd; decide), ⟨'N', ['2'], rfl, by decide⟩, by decide⟩
    · exact ⟨fun d hd => (by cases hd), ⟨'O', [], rfl, by decide⟩, by decide⟩
  ⟨hts, by decide, by decide, by decide,
    (parseSpecies_spec eraseChars "2N2 + O" [Term.mk (some '2') "N2", Term.mk none "O"] hts
      (by decide) (by decide) {"M"} 10 (by decide)).trans rfl⟩


/-! ### `parseFormula` -/

theorem isDigit_toNat (ch : Char) (h : ch.isDigit = true) : 48 ≤ ch.toNat ∧ ch.toNat ≤ 57 := by
  unfold Char.isDigit at h
  simp only [Bool.and_eq_true, decide_eq_true_eq] at h
  have h1 : (48 : UInt32) ≤ ch.val := h.1
  have h2 : ch.val ≤ (57 : UInt32) := h.2
  rw [UInt32.le_def] at h1 h2
  exact ⟨h1, h2⟩

theorem card_insertTimes (x : String) (k : ℕ) (species : Multiset String) :
    Multiset.card (insertTimes x k species) = Multiset.card species + k := by
  rw [insertTimes_eq, Multiset.card_add, Multiset.card_replicate]

/-- What is kept from pass to pass of the loop of `parseSpecies`. -/
theorem scanStep_progress (str : String) (hW : str.length < sizeMod) (st : Scan)
    (hc : st.c < str.length) (hp : st.state = ParseState.plus → 1 ≤ st.c)
    (hnu : 0 ≤ st.nu ∧ st.nu ≤ 9) :
    (scanStep str st).c ≤ str.length ∧
      ((scanStep str st).state = ParseState.plus → 1 ≤ (scanStep str st).c) ∧
      (0 ≤ (scanStep str st).nu ∧ (scanStep str st).nu ≤ 9) ∧
      passesLeft str (scanStep str st) + 1 ≤ passesLeft str st ∧
      Multiset.card (scanStep str st).species ≤ Multiset.card st.species + 9 := by
  obtain ⟨c, s, e, nu, add, state, sp⟩ := st
  simp only at hc hp hnu
  have h1 : addSize c 1 = c + 1 := addSize_eq _ _ (by omega)
  have hcard : ∀ (x : String) (ν : ℤ), 0 ≤ ν → ν ≤ 9 →
      Multiset.card (insertTimes x ν.toNat sp) ≤ Multiset.card sp + 9 := by
    intro x ν h0 h9
    rw [card_insertTimes]
    omega
  have hfin : ∀ (c2 s2 e2 : ℕ) (ν : ℤ) (add2 : Bool) (state2 : ParseState),
      c2 + 1 ≤ str.length → 0 ≤ ν → ν ≤ 9 → (state2 = ParseState.plus → c = c2) →
      2 * (str.length - c2) + (if state2 = ParseState.plus then 1 else 0) ≤
        passesLeft str ⟨c, s, e, nu, add, state, sp⟩ + 1 →
      ∀ st3 : Scan, st3 =
        (let st1 : Scan := ⟨c2, s2, e2, ν, add2, state2, sp⟩
        let st2 : Scan :=
          if st1.c = subSize str.length 1 then { st1 with add_species := true, e := st1.c }
          else st1
        let st3 : Scan :=
          if st2.add_species then
            { st2 with
                species := insertTimes (substr str st2.s (addSize (subSize st2.e st2.s) 1))
                  st2.nu.toNat st2.species,
                add_species := false }
          else st2
        { st3 with c := addSize st3.c 1 }) →
      st3.c ≤ str.length ∧ (st3.state = ParseState.plus → 1 ≤ st3.c) ∧
        (0 ≤ st3.nu ∧ st3.nu ≤ 9) ∧
        passesLeft str st3 + 1 ≤ passesLeft str ⟨c, s, e, nu, add, state, sp⟩ ∧
        Multiset.card st3.species ≤ Multiset.card sp + 9 := by
    intro c2 s2 e2 ν add2 state2 hc2 h0 h9 hst hm st3 hst3
    have h12 : addSize c2 1 = c2 + 1 := addSize_eq _ _ (by omega)
    subst hst3
    dsimp only
    split_ifs <;> dsimp only <;> rw [h12] <;>
      refine ⟨by omega, fun _ => by omega, ⟨h0, h9⟩, ?_, ?_⟩ <;>
      first
        | exact hcard _ _ h0 h9
        | (simp only [passesLeft] at hm ⊢; split_ifs at hm ⊢ <;> omega)
  cases state
  · -- coefficient
    by_cases hd : (charAt str c).isDigit = true
    · have hdn := isDigit_toNat _ hd
      refine hfin c (addSize c 1) e (((charAt str c).toNat : ℤ) - 48) add ParseState.name
        (by omega) (by omega) (by omega) (fun h => by cases h) ?_ _ ?_
      · simp only [passesLeft]; simp
      · simp only [scanStep, hd, if_true]
    · refine hfin c c e 1 add ParseState.name
        (by omega) (by norm_num) (by norm_num) (fun h => by cases h) ?_ _ ?_
      · simp only [passesLeft]; simp
      · simp only [scanStep, hd, Bool.false_eq_true, if_false]
  · -- name
    by_cases hpl : charAt str c = '+'
    · refine hfin c s e nu add ParseState.plus
        (by omega) hnu.1 hnu.2 (fun _ => rfl) ?_ _ ?_
      · simp only [passesLeft]; simp
      · simp only [scanStep, hpl, if_true]
    · refine hfin c s e nu add ParseState.name
        (by omega) hnu.1 hnu.2 (fun h => by cases h) ?_ _ ?_
      · simp only [passesLeft]; simp
      · simp only [scanStep, hpl, if_false]
  · -- plus
    have hc1 : 1 ≤ c := hp rfl
    have h2 : subSize c 1 = c - 1 := subSize_eq _ _ hc1 (by omega)
    by_cases hpl : charAt str c = '+'
    · refine hfin c s e nu add ParseState.plus
        (by omega) hnu.1 hnu.2 (fun _ => rfl) ?_ _ ?_
      · simp only [passesLeft]; simp
      · simp only [scanStep, hpl, ne_eq, not_true_eq_false, if_false]
    · refine hfin (c - 1) s (subSize c 2) nu true ParseState.coefficient
        (by omega) hnu.1 hnu.2 (fun h => by cases h) ?_ _ ?_
      · simp only [passesLeft]; simp; omega
      · simp only [scanStep, hpl, ne_eq, not_false_eq_true, if_true, h2]


/-- The loop of `parseSpecies` ends on every string, within `passesLeft` passes,
and inserts at most nine species per pass. -/
theorem scanLoop_total (str : String) (hW : str.length < sizeMod) : ∀ (fuel : ℕ) (st : Scan),
    st.c ≤ str.length → (st.state = ParseState.plus → 1 ≤ st.c) → 0 ≤ st.nu → st.nu ≤ 9 →
    passesLeft str st ≤ fuel →
    ∃ r, scanLoop str fuel st = some r ∧
      Multiset.card r.species ≤ Multiset.card st.species + 9 * passesLeft str st := by
  intro fuel
  induction fuel with
  | zero =>
    intro st hc _ _ _ hf
    have : st.c = str.length := by
      unfold passesLeft at hf
      omega
    exact ⟨st, by rw [scanLoop, if_pos this], by omega⟩
  | succ fuel ih =>
    intro st hc hp h0 h9 hf
    by_cases hcl : st.c = str.length
    · exact ⟨st, by rw [scanLoop, if_pos hcl], by omega⟩
    · obtain ⟨a1, a2, a3, a4, a5⟩ :=
        scanStep_progress str hW st (by omega) hp ⟨h0, h9⟩
      obtain ⟨r, hr, hcard⟩ := ih (scanStep str st) a1 a2 a3.1 a3.2 (by omega)
      exact ⟨r, by rw [scanLoop, if_neg hcl, hr], by omega⟩

/-- The method `parseSpecies` returns on every string, given as many passes as
twice the length of the string without spaces, and inserts at most 18 species
per character. -/
theorem parseSpecies_total (eraseAll : String → String → String) (str : String)
    (hW : (eraseAll str " ").length < sizeMod) (species : Multiset String) (fuel : ℕ)
    (hf : 2 * (eraseAll str " ").length ≤ fuel) :
    ∃ r, parseSpecies eraseAll fuel species str = some (r, eraseAll str " ") ∧
      Multiset.card r ≤ Multiset.card species + 18 * (eraseAll str " ").length := by
  obtain ⟨r, hr, hcard⟩ := scanLoop_total (eraseAll str " ") hW fuel
    ⟨0, 0, 0, 1, false, ParseState.coefficient, species⟩ (Nat.zero_le _)
    (fun h => by cases h) (by norm_num) (by norm_num)
    (by simp only [passesLeft]; simp; omega)
  refine ⟨r.species, ?_, ?_⟩
  · unfold parseSpecies
    dsimp only
    rw [hr]
    rfl
  · simp only [passesLeft] at hcard
    simp at hcard
    omega

theorem find_first (str : String) (ch : Char) (pre post : List Char)
    (h : str.data = pre ++ ch :: post) (hpre : ch ∉ pre) : find str ch = some pre.length := by
  unfold find
  rw [h, if_pos (by simp)]
  congr 1
  clear h
  induction pre with
  | nil => simp
  | cons a l ih =>
    have ha : ch ≠ a := fun hh => hpre (hh ▸ List.mem_cons_self _ _)
    have hl : ch ∉ l := fun hh => hpre (List.mem_cons_of_mem _ hh)
    rw [List.cons_append, List.indexOf_cons_ne _ (Ne.symm ha), ih hl, List.length_cons]

/-- The formula is cut at its first `=`: the text before it goes to the first
call of `parseSpecies`, the text after it, or after the `>` that follows it, to
the second. -/
theorem parseFormula_eq (eraseAll : String → String → String) (fuel : ℕ) (m_formula : String)
    (pre post : List Char) (h : m_formula.data = pre ++ '=' :: post) (hpre : '=' ∉ pre)
    (hW : m_formula.length < sizeMod) (m_reactants m_products : Multiset String) :
    parseFormula eraseAll fuel m_formula m_reactants m_products =
      (parseSpecies eraseAll fuel m_reactants (String.mk pre)).bind fun r =>
        (parseSpecies eraseAll fuel m_products
          (String.mk (if post.head? = some '>' then post.tail else post))).map fun p =>
          Parsed.ok (decide (post.head? ≠ some '>'))
            (decide (0 < addSize (r.1.count "M") (p.1.count "M")))
            (r.1.filter (fun x => x ≠ "M")) (p.1.filter (fun x => x ≠ "M")) := by
  have hlen : m_formula.length = pre.length + (post.length + 1) := by
    show m_formula.data.length = _
    rw [h]; simp
  have h1 : addSize pre.length 1 = pre.length + 1 := addSize_eq _ _ (by omega)
  have h3 : subSize m_formula.length pre.length = post.length + 1 := by
    rw [subSize_eq _ _ (by omega) hW]; omega
  have h4 : subSize (post.length + 1) 1 = post.length := by
    rw [subSize_eq _ _ (by omega) (by omega)]; omega
  have hre : substr m_formula 0 pre.length = String.mk pre := by
    unfold substr
    rw [h, List.drop_zero, List.take_left]
  have hch : charAt m_formula (pre.length + 1) = '>' ↔ post.head? = some '>' := by
    have := charAt_append m_formula (pre ++ ['=']) post (by rw [h]; simp) 0
    rw [List.length_append, List.length_singleton, Nat.add_zero] at this
    rw [this]
    cases post with
    | nil => simp
    | cons a l => simp
  unfold parseFormula
  rw [find_first m_formula '=' pre post h hpre]
  dsimp only
  rw [h1, h3, h4, hre]
  by_cases hgt : post.head? = some '>'
  · rw [if_pos (hch.mpr hgt), if_pos hgt]
    have hpr : substr m_formula (addSize pre.length 2) post.length = String.mk post.tail := by
      unfold substr
      obtain ⟨l, rfl⟩ : ∃ l, post = '>' :: l := by
        cases post with
        | nil => simp at hgt
        | cons a l => simp at hgt; exact ⟨l, by rw [hgt]⟩
      rw [addSize_eq _ _ (by simp only [List.length_cons] at hlen; omega), h,
        show pre ++ '=' :: '>' :: l = (pre ++ ['=', '>']) ++ l by simp,
        show pre.length + 2 = (pre ++ ['=', '>']).length by simp, List.drop_left,
        List.tail_cons, List.take_of_length_le (by simp)]
    rw [hpr]
    simp [hgt]
  · rw [if_neg (fun hh => hgt (hch.mp hh)), if_neg hgt]
    have hpr : substr m_formula (pre.length + 1) (post.length + 1) = String.mk post := by
      unfold substr
      rw [h, show pre ++ '=' :: post = (pre ++ ['=']) ++ post by simp,
        show pre.length + 1 = (pre ++ ['=']).length by simp, List.drop_left,
        List.take_of_length_le (Nat.le_succ _)]
    rw [hpr]
    simp [hgt]


/-- C21: for a formula that contains `=`, cut as `pre = post` at its first `=`
(shorter than `2^64` characters, `eraseAll` not lengthening a string), with as
many passes allowed as twice its length: `parseFormula` returns; `m_reversible`
is false exactly when `post` starts with `>`; `m_reactants` is what
`parseSpecies` makes of `pre`, and `m_products` what it makes of `post`, or of
`post` without its leading `>`, each with the copies of `"M"` erased. -/
theorem parseFormula_split (eraseAll : String → String → String)
    (herase : ∀ s, (eraseAll s " ").length ≤ s.length) (m_formula : String)
    (pre post : List Char) (h : m_formula.data = pre ++ '=' :: post) (hpre : '=' ∉ pre)
    (hW : m_formula.length < sizeMod) (m_reactants m_products : Multiset String) (fuel : ℕ)
    (hf : 2 * m_formula.length ≤ fuel) :
    ∃ r p tb, parseSpecies eraseAll fuel m_reactants (String.mk pre) = some r ∧
      parseSpecies eraseAll fuel m_products
        (String.mk (if post.head? = some '>' then post.tail else post)) = some p ∧
      parseFormula eraseAll fuel m_formula m_reactants m_products =
        some (Parsed.ok (decide (post.head? ≠ some '>')) tb
          (r.1.filter (fun x => x ≠ "M")) (p.1.filter (fun x => x ≠ "M"))) := by
  have hlen : m_formula.length = pre.length + (post.length + 1) := by
    show m_formula.data.length = _
    rw [h]; simp
  have hl1 : (eraseAll (String.mk pre) " ").length ≤ pre.length := herase _
  have hl2 : (eraseAll (String.mk (if post.head? = some '>' then post.tail else post))
      " ").length ≤ post.length := by
    refine le_trans (herase _) ?_
    show (if post.head? = some '>' then post.tail else post).length ≤ _
    split_ifs
    · rw [List.length_tail]; omega
    · exact le_rfl
  obtain ⟨r, hr, _⟩ := parseSpecies_total eraseAll (String.mk pre) (by omega) m_reactants fuel
    (by omega)
  obtain ⟨p, hp, _⟩ := parseSpecies_total eraseAll
    (String.mk (if post.head? = some '>' then post.tail else post)) (by omega) m_products fuel
    (by omega)
  refine ⟨_, _, decide (0 < addSize (r.count "M") (p.count "M")), hr, hp, ?_⟩
  rw [parseFormula_eq eraseAll fuel m_formula pre post h hpre hW, hr, Option.some_bind, hp,
    Option.map_some']

/-- C21 at `N2 + M => 2N + M`: irreversible, reactants from `N2 + M`, products
from ` 2N + M`. -/
theorem parseFormula_split_witness :
    (∀ s, (eraseChars s " ").length ≤ s.length) ∧
      ("N2 + M => 2N + M" : String).data = "N2 + M ".data ++ '=' :: "> 2N + M".data ∧
      '=' ∉ "N2 + M ".data ∧ ("N2 + M => 2N + M" : String).length < sizeMod ∧
      2 * ("N2 + M => 2N + M" : String).length ≤ 40 ∧
      ∃ r p tb, parseSpecies eraseChars 40 0 (String.mk "N2 + M ".data) = some r ∧
        parseSpecies eraseChars 40 0
          (String.mk (if "> 2N + M".data.head? = some '>' then "> 2N + M".data.tail
            else "> 2N + M".data)) = some p ∧
        parseFormula eraseChars 40 "N2 + M => 2N + M" 0 0 =
          some (Parsed.ok (decide ("> 2N + M".data.head? ≠ some '>')) tb
            (r.1.filter (fun x => x ≠ "M")) (p.1.filter (fun x => x ≠ "M"))) :=
  have herase : ∀ s, (eraseChars s " ").length ≤ s.length := fun s =>
    List.length_filter_le _ _
  ⟨herase, by decide, by decide, by decide, by decide,
    parseFormula_split eraseChars herase "N2 + M => 2N + M" "N2 + M ".data "> 2N + M".data
      (by decide) (by decide) (by decide) 0 0 40 (by decide)⟩

/-- C22: under the conditions of C21, and with fewer than `2^64` species possible
(18 per character of the formula on top of those already held): on return
neither `m_reactants` nor `m_products` contains `"M"`, every other species has
the multiplicity `parseSpecies` gave it, and `m_thirdbody` is true exactly when
`"M"` was among the reactants or the products that `parseSpecies` gave. -/
theorem parseFormula_thirdbody (eraseAll : String → String → String)
    (herase : ∀ s, (eraseAll s " ").length ≤ s.length) (m_formula : String)
    (pre post : List Char) (h : m_formula.data = pre ++ '=' :: post) (hpre : '=' ∉ pre)
    (m_reactants m_products : Multiset String)
    (hW : Multiset.card m_reactants + Multiset.card m_products + 18 * m_formula.length <
      sizeMod)
    (fuel : ℕ) (hf : 2 * m_formula.length ≤ fuel) :
    ∃ r p rev tb R P, parseSpecies eraseAll fuel m_reactants (String.mk pre) = some r ∧
      parseSpecies eraseAll fuel m_products
        (String.mk (if post.head? = some '>' then post.tail else post)) = some p ∧
      parseFormula eraseAll fuel m_formula m_reactants m_products =
        some (Parsed.ok rev tb R P) ∧
      "M" ∉ R ∧ "M" ∉ P ∧
      (∀ x, x ≠ "M" → R.count x = r.1.count x ∧ P.count x = p.1.count x) ∧
      (tb = true ↔ "M" ∈ r.1 ∨ "M" ∈ p.1) := by
  have hlen : m_formula.length = pre.length + (post.length + 1) := by
    show m_formula.data.length = _
    rw [h]; simp
  have hl1 : (eraseAll (String.mk pre) " ").length ≤ pre.length := herase _
  have hl2 : (eraseAll (String.mk (if post.head? = some '>' then post.tail else post))
      " ").length ≤ post.length := by
    refine le_trans (herase _) ?_
    show (if post.head? = some '>' then post.tail else post).length ≤ _
    split_ifs
    · rw [List.length_tail]; omega
    · exact le_rfl
  obtain ⟨r, hr, hcr⟩ := parseSpecies_total eraseAll (String.mk pre) (by omega) m_reactants
    fuel (by omega)
  obtain ⟨p, hp, hcp⟩ := parseSpecies_total eraseAll
    (String.mk (if post.head? = some '>' then post.tail else post)) (by omega) m_products fuel
    (by omega)
  have hadd : addSize (r.count "M") (p.count "M") = r.count "M" + p.count "M" := by
    have := Multiset.count_le_card "M" r
    have := Multiset.count_le_card "M" p
    exact addSize_eq _ _ (by omega)
  refine ⟨_, _, decide (post.head? ≠ some '>'),
    decide (0 < addSize (r.count "M") (p.count "M")), r.filter (fun x => x ≠ "M"),
    p.filter (fun x => x ≠ "M"), hr, hp, ?_, ?_, ?_, ?_, ?_⟩
  · rw [parseFormula_eq eraseAll fuel m_formula pre post h hpre (by omega), hr,
      Option.some_bind, hp, Option.map_some']
  · simp [Multiset.mem_filter]
  · simp [Multiset.mem_filter]
  · intro x hx
    exact ⟨Multiset.count_filter_of_pos hx, Multiset.count_filter_of_pos hx⟩
  · dsimp only
    rw [hadd, decide_eq_true_eq, ← Multiset.count_pos, ← Multiset.count_pos]
    omega

/-- C22 at `N2 + M => 2N + M`: the flag is true, the reactants are `N2` and the
products `N`, `N`. -/
theorem parseFormula_thirdbody_witness :
    (∀ s, (eraseChars s " ").length ≤ s.length) ∧
      ("N2 + M => 2N + M" : String).data = "N2 + M ".data ++ '=' :: "> 2N + M".data ∧
      '=' ∉ "N2 + M ".data ∧
      Multiset.card (0 : Multiset String) + Multiset.card (0 : Multiset String) +
        18 * ("N2 + M => 2N + M" : String).length < sizeMod ∧
      2 * ("N2 + M => 2N + M" : String).length ≤ 40 ∧
      parseFormula eraseChars 40 "N2 + M => 2N + M" 0 0 =
        some (Parsed.ok false true {"N2"} {"N", "N"}) ∧
      ∃ r p rev tb R P, parseSpecies eraseChars 40 0 (String.mk "N2 + M ".data) = some r ∧
        parseSpecies eraseChars 40 0
          (String.mk (if "> 2N + M".data.head? = some '>' then "> 2N + M".data.tail
            else "> 2N + M".data)) = some p ∧
        parseFormula eraseChars 40 "N2 + M => 2N + M" 0 0 = some (Parsed.ok rev tb R P) ∧
        "M" ∉ R ∧ "M" ∉ P ∧
        (∀ x, x ≠ "M" → R.count x = r.1.count x ∧ P.count x = p.1.count x) ∧
        (tb = true ↔ "M" ∈ r.1 ∨ "M" ∈ p.1) :=
  have herase : ∀ s, (eraseChars s " ").length ≤ s.length := fun s =>
    List.length_filter_le _ _
  ⟨herase, by decide, by decide, by decide, by decide, rfl,
    parseFormula_thirdbody eraseChars herase "N2 + M => 2N + M" "N2 + M ".data
      "> 2N + M".data (by decide) (by decide) 0 0 (by decide) 40 (by decide)⟩

end Reaction

namespace Thermo

open Numerics

variable {R : Type} [LinearOrderedField R]

set_option linter.unusedSectionVars false


/-! ### `enthalpy` -/

/-- C23 (code at the failing input): for the database `atomN` at
`Th = Te = Tr = Tv = Tel = 300`, whatever `exp` is, `enthalpy` called with all
five component arguments `NULL` returns `h = (192)`, which is
`(2.5·300 + 0 + 56850)/300`, and called with `ht = NULL` and `hr` requested (the
call made for the output `Hr`) returns `h = (939.5)`: the translational part
`2.5·300` enters without the division by `Th`. -/
theorem enthalpy_total_differs (exp : ℚ → ℚ) :
    (atomN.enthalpy stdFunctors exp 300 300 300 300 300 [0] none none none none none).total =
        [192] ∧
      (atomN.enthalpy stdFunctors exp 300 300 300 300 300 [0] none (some [0]) none none
        none).total = [1879/2] ∧
      (atomN.enthalpy stdFunctors exp 300 300 300 300 300 [0] (some [0]) (some [0]) none none
        none).total = [192] := by
  refine ⟨?_, ?_, ?_⟩ <;>
    simp [RrhoDB.enthalpy, RrhoDB.hT, RrhoDB.hR, RrhoDB.hV, RrhoDB.hE, RrhoDB.hF,
      RrhoDB.divAll, RrhoDB.clear, RrhoDB.copy, RrhoDB.addAll, RrhoDB.addMolecules,
      RrhoDB.heavy, RrhoDB.molecule, atomN, stdFunctors, forUp, Vec.get, Vec.set,
      List.range'] <;> norm_num


/-! ### `cp` -/

theorem cp_twoLevel_total :
    ((twoLevel ℝ).cp stdFunctors Real.exp 1000000 1000000 1 1 2 [0] none none none
        none).total.get 0 =
      5 / 2 + Real.exp (-3) * 6 / (1 + Real.exp (-3)) -
        Real.exp (-6) * 6 / (1 + Real.exp (-6)) := by
  simp [RrhoDB.cp, RrhoDB.hT, RrhoDB.hR, RrhoDB.hV, RrhoDB.hE, RrhoDB.hF,
      RrhoDB.divAll, RrhoDB.clear, RrhoDB.copy, RrhoDB.addAll, RrhoDB.addMolecules,
      RrhoDB.heavy, RrhoDB.molecule, twoLevel, stdFunctors, forUp, Vec.get, Vec.set,
      List.range']
  norm_num

theorem cp_twoLevel_cpel :
    ((twoLevel ℝ).cp stdFunctors Real.exp 1000000 1000000 1 1 2 [0] none none none
        (some [0])).total.get 0 =
      5 / 2 + Real.exp (-3) * 6 / (1 + Real.exp (-3)) -
        Real.exp (-6) * 6 / (1 + Real.exp (-6)) := by
  simp [RrhoDB.cp, RrhoDB.hT, RrhoDB.hR, RrhoDB.hV, RrhoDB.hE, RrhoDB.hF,
      RrhoDB.divAll, RrhoDB.clear, RrhoDB.copy, RrhoDB.addAll, RrhoDB.addMolecules,
      RrhoDB.heavy, RrhoDB.molecule, twoLevel, stdFunctors, forUp, Vec.get, Vec.set,
      List.range']
  norm_num
  ring

theorem cpOwn_twoLevel (Tel a b : ℝ) (ha : -6 / (Tel + 1) = a) (hb : -6 / Tel = b) :
    (twoLevel ℝ).cpOwn Real.exp 1000000 1000000 1 1 Tel 0 =
      5 / 2 + Real.exp a * 6 / (1 + Real.exp a) - Real.exp b * 6 / (1 + Real.exp b) := by
  simp [RrhoDB.cpOwn, RrhoDB.hT, RrhoDB.hR, RrhoDB.hV, RrhoDB.hE, RrhoDB.hF,
      RrhoDB.heavy, RrhoDB.molecule, twoLevel, forUp, Vec.get, Vec.set,
      List.range', Vec.zeros]
  norm_num
  rw [ha, hb]

theorem exp_gap (y : ℝ) (h0 : 0 < y) (h1 : y < 2 / 5) :
    5 / 2 + y ^ 3 * 6 / (1 + y ^ 3) - y ^ 6 * 6 / (1 + y ^ 6) <
      5 / 2 + y ^ 2 * 6 / (1 + y ^ 2) - y ^ 3 * 6 / (1 + y ^ 3) := by
  have h3 : 0 < y ^ 3 := pow_pos h0 3
  have h2 : 0 < y ^ 2 := pow_pos h0 2
  have h6 : 0 < y ^ 6 := pow_pos h0 6
  have key : 2 * (y ^ 3 * 6 / (1 + y ^ 3)) < y ^ 2 * 6 / (1 + y ^ 2) := by
    rw [← sub_pos]
    have : y ^ 2 * 6 / (1 + y ^ 2) - 2 * (y ^ 3 * 6 / (1 + y ^ 3)) =
        6 * y ^ 2 * (1 - 2 * y - y ^ 3) / ((1 + y ^ 2) * (1 + y ^ 3)) := by
      field_simp
      ring
    rw [this]
    apply div_pos
    · apply mul_pos (by positivity)
      have : y ^ 3 < (2 / 5) ^ 3 := pow_lt_pow_left₀ h1 h0.le (by norm_num)
      norm_num at this
      linarith
    · positivity
  have hpos : 0 < y ^ 6 * 6 / (1 + y ^ 6) := by positivity
  linarith

/-- C24 (code at the failing input): for the database `twoLevel` (one atom with
electronic levels at `0 K` and `6 K`) at `Th = Te = 10^6` (so `δ = 1`),
`Tr = Tv = 1` and `Tel = 2`, the total `cp` returned, both with no component
requested and with `cpel` requested, is
`5/2 + hE(2) − hE(1)`: the electronic part is differenced at `Tv` (resp. `Tr`),
which is the value with each mode at its own temperature for `Tel = 1`; it is
smaller than the value for `Tel = 2`, `5/2 + hE(3) − hE(2)`. -/
theorem cp_electronic_at_Tv :
    ((twoLevel ℝ).cp stdFunctors Real.exp 1000000 1000000 1 1 2 [0] none none none
        none).total.get 0 = (twoLevel ℝ).cpOwn Real.exp 1000000 1000000 1 1 1 0 ∧
      ((twoLevel ℝ).cp stdFunctors Real.exp 1000000 1000000 1 1 2 [0] none none none
        (some [0])).total.get 0 = (twoLevel ℝ).cpOwn Real.exp 1000000 1000000 1 1 1 0 ∧
      (twoLevel ℝ).cpOwn Real.exp 1000000 1000000 1 1 1 0 <
        (twoLevel ℝ).cpOwn Real.exp 1000000 1000000 1 1 2 0 := by
  have e1 := cpOwn_twoLevel 1 (-3) (-6) (by norm_num) (by norm_num)
  have e2 := cpOwn_twoLevel 2 (-2) (-3) (by norm_num) (by norm_num)
  refine ⟨by rw [cp_twoLevel_total, e1], by rw [cp_twoLevel_cpel, e1], ?_⟩
  rw [e1, e2]
  have hy0 : 0 < Real.exp (-1) := Real.exp_pos _
  have hy1 : Real.exp (-1) < 2 / 5 := by
    rw [Real.exp_neg, inv_lt_comm₀ (Real.exp_pos _) (by norm_num)]
    have := Real.exp_one_gt_d9
    norm_num at this ⊢
    linarith
  have p2 : Real.exp (-2) = Real.exp (-1) ^ 2 := by
    rw [← Real.exp_nat_mul]; norm_num
  have p3 : Real.exp (-3) = Real.exp (-1) ^ 3 := by
    rw [← Real.exp_nat_mul]; norm_num
  have p6 : Real.exp (-6) = Real.exp (-1) ^ 6 := by
    rw [← Real.exp_nat_mul]; norm_num
  rw [p2, p3, p6]
  exact exp_gap _ hy0 hy1


/-! ### `gibbs` -/

theorem Diff.update {ns : ℕ} {h g s : Vec R} (hd : Diff ns h g s) (j : ℕ) (v : R) :
    Diff ns h (g.set j (g.get j - v)) (s.set j (s.get j + v)) := by
  obtain ⟨hl, he⟩ := hd
  refine ⟨by rw [Numerics.Vec.length_set, Numerics.Vec.length_set, hl], fun i hi => ?_⟩
  rw [Numerics.Vec.get_set, Numerics.Vec.get_set, hl]
  split_ifs with h1
  · obtain ⟨rfl, _⟩ := h1
    rw [he j hi]
    ring
  · exact he i hi

theorem Diff.loop {ns : ℕ} {h g s : Vec R} (hd : Diff ns h g s) (F : Functors R)
    (hF : F.Std) (lo hi : ℕ) (J : ℕ → ℕ) (val : ℕ → R) :
    Diff ns h (forUp lo hi (fun i a => a.set (J i) (F.MinusEq (a.get (J i)) (val i))) g)
      (forUp lo hi (fun i a => a.set (J i) (F.PlusEq (a.get (J i)) (val i))) s) := by
  apply forUp_rel (Diff ns h) lo hi _ _ g s hd
  intro i x y _ _ hxy
  dsimp only
  rw [hF.2.2.1, hF.2.1]
  exact hxy.update _ _

/-- The loops with a running level index: the two runs pass through the same
indices. -/
theorem Diff.loop2 {ns : ℕ} {h g s : Vec R} (hd : Diff ns h g s) (F : Functors R)
    (hF : F.Std) (lo hi : ℕ) (J : ℕ → ℕ) (nxt : ℕ → ℕ → ℕ) (val : ℕ → ℕ → R) :
    Diff ns h
      (forUp lo hi (fun i (st : ℕ × Vec R) =>
        (nxt i st.1, st.2.set (J i) (F.MinusEq (st.2.get (J i)) (val i st.1)))) (0, g)).2
      (forUp lo hi (fun i (st : ℕ × Vec R) =>
        (nxt i st.1, st.2.set (J i) (F.PlusEq (st.2.get (J i)) (val i st.1)))) (0, s)).2 := by
  have := forUp_rel (fun (a b : ℕ × Vec R) => a.1 = b.1 ∧ Diff ns h a.2 b.2) lo hi
    (fun i (st : ℕ × Vec R) =>
        (nxt i st.1, st.2.set (J i) (F.MinusEq (st.2.get (J i)) (val i st.1))))
    (fun i (st : ℕ × Vec R) =>
        (nxt i st.1, st.2.set (J i) (F.PlusEq (st.2.get (J i)) (val i st.1))))
    (0, g) (0, s) ⟨rfl, hd⟩
    (fun i x y _ _ hxy => by
      dsimp only
      rw [hxy.1, hF.2.2.1, hF.2.1]
      exact ⟨rfl, hxy.2.update _ _⟩)
  exact this.2

theorem Diff.sR {ns : ℕ} {h g s : Vec R} (hd : Diff ns h g s) (F : Functors R) (hF : F.Std)
    (log : R → R) (db : RrhoDB R) (T : R) :
    Diff ns h (db.sR log T g F.MinusEq) (db.sR log T s F.PlusEq) :=
  hd.loop F hF 0 db.m_nm db.molecule _

theorem Diff.sV {ns : ℕ} {h g s : Vec R} (hd : Diff ns h g s) (F : Functors R) (hF : F.Std)
    (exp log : R → R) (db : RrhoDB R) (T : R) :
    Diff ns h (db.sV exp log T g F.MinusEq) (db.sV exp log T s F.PlusEq) :=
  hd.loop2 F hF 0 db.m_nm db.molecule
    (fun i l => (forUp 0 (db.mp_nvib.getD i 0) (fun _ (p : ℕ × R × R) =>
      (p.1 + 1, p.2.1 + db.mp_vib_temps.get p.1 / (exp (db.mp_vib_temps.get p.1 / T) - 1.0),
        p.2.2 + log (1.0 - 1.0 / exp (db.mp_vib_temps.get p.1 / T)))) (l, 0.0, 0.0)).1)
    (fun i l => (forUp 0 (db.mp_nvib.getD i 0) (fun _ (p : ℕ × R × R) =>
      (p.1 + 1, p.2.1 + db.mp_vib_temps.get p.1 / (exp (db.mp_vib_temps.get p.1 / T) - 1.0),
        p.2.2 + log (1.0 - 1.0 / exp (db.mp_vib_temps.get p.1 / T)))) (l, 0.0, 0.0)).2.1 / T -
      (forUp 0 (db.mp_nvib.getD i 0) (fun _ (p : ℕ × R × R) =>
      (p.1 + 1, p.2.1 + db.mp_vib_temps.get p.1 / (exp (db.mp_vib_temps.get p.1 / T) - 1.0),
        p.2.2 + log (1.0 - 1.0 / exp (db.mp_vib_temps.get p.1 / T)))) (l, 0.0, 0.0)).2.2)

theorem Diff.sE {ns : ℕ} {h g s : Vec R} (hd : Diff ns h g s) (F : Functors R) (hF : F.Std)
    (exp log : R → R) (db : RrhoDB R) (T : R) :
    Diff ns h (db.sE exp log T g F.MinusEq) (db.sE exp log T s F.PlusEq) :=
  hd.loop2 F hF 0 (db.m_na + db.m_nm) db.heavy
    (fun i l => (forUp 0 (db.mp_nelec.getD i 0) (fun _ (p : ℕ × R × R) =>
      (p.1 + 1, p.2.1 + (db.mp_elec_levels.getD p.1 ⟨0, 0⟩).g *
          exp (-(db.mp_elec_levels.getD p.1 ⟨0, 0⟩).theta / T),
        p.2.2 + (db.mp_elec_levels.getD p.1 ⟨0, 0⟩).theta *
          ((db.mp_elec_levels.getD p.1 ⟨0, 0⟩).g *
            exp (-(db.mp_elec_levels.getD p.1 ⟨0, 0⟩).theta / T)))) (l, 0.0, 0.0)).1)
    (fun i l => (forUp 0 (db.mp_nelec.getD i 0) (fun _ (p : ℕ × R × R) =>
      (p.1 + 1, p.2.1 + (db.mp_elec_levels.getD p.1 ⟨0, 0⟩).g *
          exp (-(db.mp_elec_levels.getD p.1 ⟨0, 0⟩).theta / T),
        p.2.2 + (db.mp_elec_levels.getD p.1 ⟨0, 0⟩).theta *
          ((db.mp_elec_levels.getD p.1 ⟨0, 0⟩).g *
            exp (-(db.mp_elec_levels.getD p.1 ⟨0, 0⟩).theta / T)))) (l, 0.0, 0.0)).2.2 /
        ((forUp 0 (db.mp_nelec.getD i 0) (fun _ (p : ℕ × R × R) =>
      (p.1 + 1, p.2.1 + (db.mp_elec_levels.getD p.1 ⟨0, 0⟩).g *
          exp (-(db.mp_elec_levels.getD p.1 ⟨0, 0⟩).theta / T),
        p.2.2 + (db.mp_elec_levels.getD p.1 ⟨0, 0⟩).theta *
          ((db.mp_elec_levels.getD p.1 ⟨0, 0⟩).g *
            exp (-(db.mp_elec_levels.getD p.1 ⟨0, 0⟩).theta / T)))) (l, 0.0, 0.0)).2.1 * T) +
      log (forUp 0 (db.mp_nelec.getD i 0) (fun _ (p : ℕ × R × R) =>
      (p.1 + 1, p.2.1 + (db.mp_elec_levels.getD p.1 ⟨0, 0⟩).g *
          exp (-(db.mp_elec_levels.getD p.1 ⟨0, 0⟩).theta / T),
        p.2.2 + (db.mp_elec_levels.getD p.1 ⟨0, 0⟩).theta *
          ((db.mp_elec_levels.getD p.1 ⟨0, 0⟩).g *
            exp (-(db.mp_elec_levels.getD p.1 ⟨0, 0⟩).theta / T)))) (l, 0.0, 0.0)).2.1)

theorem Vec.forUp_assign (lo hi : ℕ) (f : ℕ → R → R) (a : Vec R) :
    (forUp lo hi (fun i a => a.set i (f i (a.get i))) a).length = a.length ∧
      ∀ j, (forUp lo hi (fun i a => a.set i (f i (a.get i))) a).get j =
        if lo ≤ j ∧ j < hi ∧ j < a.length then f j (a.get j) else a.get j := by
  rcases Nat.lt_or_ge hi lo with hlt | hge
  · rw [forUp_eq_self _ _ _ _ (by omega)]
    exact ⟨rfl, fun j => by rw [if_neg (by omega)]⟩
  · induction hi with
    | zero =>
      rw [forUp_eq_self _ _ _ _ (by omega)]
      exact ⟨rfl, fun j => by rw [if_neg (by omega)]⟩
    | succ n ih =>
      rcases Nat.lt_or_ge n lo with h1 | h1
      · rw [forUp_eq_self _ _ _ _ (by omega)]
        exact ⟨rfl, fun j => by rw [if_neg (by omega)]⟩
      · obtain ⟨i1, i2⟩ := ih h1
        rw [forUp_succ _ _ _ _ h1]
        refine ⟨by rw [Numerics.Vec.length_set, i1], fun j => ?_⟩
        rw [Numerics.Vec.get_set, i1, i2 j, i2 n]
        by_cases hjn : n = j
        · subst hjn
          by_cases hl : n < a.length
          · rw [if_pos ⟨rfl, hl⟩, if_neg (by omega), if_pos ⟨h1, by omega, hl⟩]
          · rw [if_neg (by omega), if_neg (by omega), if_neg (by omega)]
        · rw [if_neg (by omega)]
          by_cases hc : lo ≤ j ∧ j < n ∧ j < a.length
          · rw [if_pos hc, if_pos ⟨hc.1, by omega, hc.2.2⟩]
          · rw [if_neg hc, if_neg (by omega)]

theorem sT_get (log : R → R) (db : RrhoDB R) (Th Te P : R) (a : Vec R) (op : R → R → R) :
    (db.sT log Th Te P a op).length = a.length ∧
      ∀ i, i < db.m_ns → i < a.length → ∃ v, ∀ b : Vec R, ∀ op2 : R → R → R, i < b.length →
        (db.sT log Th Te P b op2).get i = op2 (b.get i) v := by
  refine ⟨?_, fun i hi hia => ?_⟩
  · unfold RrhoDB.sT
    dsimp only
    rw [(Vec.forUp_assign _ _ (fun i x => op x _) _).1]
    split_ifs
    · rw [Numerics.Vec.length_set]
    · rfl
  · by_cases he : db.m_has_electron = true
    · by_cases hi0 : i = 0
      · subst hi0
        refine ⟨2.5 * log (Te / Th) + (2.5 * (1.0 + log Th) - log P) + db.mp_lnqtmw.get 0,
          fun b op2 hb => ?_⟩
        unfold RrhoDB.sT
        dsimp only
        rw [(Vec.forUp_assign _ _ (fun i x => op2 x _) _).2, if_pos he, if_pos he,
          if_neg (by omega), Numerics.Vec.get_set_self _ _ _ hb]
      · refine ⟨(2.5 * (1.0 + log Th) - log P) + db.mp_lnqtmw.get i, fun b op2 hb => ?_⟩
        unfold RrhoDB.sT
        dsimp only
        rw [(Vec.forUp_assign _ _ (fun i x => op2 x _) _).2, if_pos he, if_pos he,
          if_pos ⟨by omega, hi, by rw [Numerics.Vec.length_set]; exact hb⟩,
          Numerics.Vec.get_set_ne _ _ _ _ (Ne.symm hi0)]
    · refine ⟨(2.5 * (1.0 + log Th) - log P) + db.mp_lnqtmw.get i, fun b op2 hb => ?_⟩
      unfold RrhoDB.sT
      dsimp only
      rw [(Vec.forUp_assign _ _ (fun i x => op2 x _) _).2, if_neg he, if_neg he,
        if_pos ⟨Nat.zero_le _, hi, hb⟩]


theorem length_hT (db : RrhoDB R) (T Te : R) (h : Vec R) (op : R → R → R) :
    (db.hT T Te h op).length = h.length := by
  unfold RrhoDB.hT
  dsimp only
  rw [Numerics.Vec.forUp_set_len 0 _ db.heavy (fun i h => op (h.get (db.heavy i)) (2.5 * T))]
  split_ifs
  · rw [Numerics.Vec.length_set]
  · rfl

theorem length_hR (db : RrhoDB R) (T : R) (h : Vec R) (op : R → R → R) :
    (db.hR T h op).length = h.length :=
  Numerics.Vec.forUp_set_len 0 _ db.molecule
    (fun i h => op (h.get (db.molecule i)) ((db.mp_rot_data.getD i ⟨0, 0⟩).linearity * T)) h

theorem length_pairLoop (lo hi : ℕ) (body : ℕ → ℕ × Vec R → ℕ × Vec R) (h : Vec R)
    (hb : ∀ i st, (body i st).2.length = st.2.length) :
    (forUp lo hi body (0, h)).2.length = h.length :=
  forUp_pres (fun st : ℕ × Vec R => st.2.length = h.length) lo hi body (0, h) rfl
    (fun i st _ _ hst => by
      show (body i st).2.length = _
      rw [hb]; exact hst)

theorem length_hV (exp : R → R) (db : RrhoDB R) (T : R) (h : Vec R) (op : R → R → R) :
    (db.hV exp T h op).length = h.length :=
  length_pairLoop _ _ _ h (fun _ _ => Numerics.Vec.length_set _ _ _)

theorem length_hE (exp : R → R) (db : RrhoDB R) (T : R) (h : Vec R) (op : R → R → R) :
    (db.hE exp T h op).length = h.length :=
  length_pairLoop _ _ _ h (fun _ _ => Numerics.Vec.length_set _ _ _)

theorem length_hF (db : RrhoDB R) (h : Vec R) (op : R → R → R) :
    (db.hF h op).length = h.length :=
  Numerics.Vec.forUp_set_len 0 _ (fun i => i) (fun i h => op (h.get i) (db.mp_hform.get i)) h

theorem length_divAll (db : RrhoDB R) (h : Vec R) (x : R) : (db.divAll h x).length = h.length :=
  Numerics.Vec.forUp_set_len 0 _ (fun i => i) (fun i h => h.get i / x) h

theorem length_enthalpy_total (F : Functors R) (exp : R → R) (db : RrhoDB R)
    (Th Te Tr Tv Tel : R) (h : Vec R) :
    (db.enthalpy F exp Th Te Tr Tv Tel h none none none none none).total.length = h.length := by
  unfold RrhoDB.enthalpy
  rw [if_pos ⟨rfl, rfl, rfl, rfl, rfl⟩]
  dsimp only
  rw [length_divAll, length_hF, length_hE, length_hV, length_hR, length_hT]

theorem entropy_total (F : Functors R) (exp log : R → R) (db : RrhoDB R)
    (Th Te Tr Tv Tel P : R) (s : Vec R) :
    (db.entropy F exp log Th Te Tr Tv Tel P s none none none none).total =
      if db.m_has_electron then
        (db.sE exp log Tel (db.sV exp log Tv (db.sR log Tr (db.sT log Th Te P s F.Eq)
          F.PlusEq) F.PlusEq) F.PlusEq).set 0
          ((db.sE exp log Tel (db.sV exp log Tv (db.sR log Tr (db.sT log Th Te P s F.Eq)
            F.PlusEq) F.PlusEq) F.PlusEq).get 0 + log 2.0)
      else db.sE exp log Tel (db.sV exp log Tv (db.sR log Tr (db.sT log Th Te P s F.Eq)
          F.PlusEq) F.PlusEq) F.PlusEq := by
  unfold RrhoDB.entropy
  rw [if_pos (show (none : Option (Vec R)) = none ∧ (none : Option (Vec R)) = none ∧
    (none : Option (Vec R)) = none ∧ (none : Option (Vec R)) = none from ⟨rfl, rfl, rfl, rfl⟩)]

/-- C25: with the functors acting as named, for arrays `g` and `s` of the same
length, at least the number of species: on return from `gibbs` every species `i`
has `g_i = h_i − s_i`, where `h` is the total `enthalpy` returns on the array
`g` and `s` the total `entropy` returns, no component array requested, for the
same temperatures and pressure; the `ln 2` of the electron is in `s_0` and is
subtracted from `g_0`. -/
theorem gibbs_is_h_minus_s (F : Functors R) (hF : F.Std) (exp log : R → R) (db : RrhoDB R)
    (Th Te Tr Tv Tel P : R) (g s : Vec R) (hlen : g.length = s.length)
    (hns : db.m_ns ≤ g.length) (i : ℕ) (hi : i < db.m_ns) :
    (db.gibbs F exp log Th Te Tr Tv Tel P g).get i =
      (db.enthalpy F exp Th Te Tr Tv Tel g none none none none none).total.get i -
        (db.entropy F exp log Th Te Tr Tv Tel P s none none none none).total.get i := by
  have hH := length_enthalpy_total F exp db Th Te Tr Tv Tel g
  rw [entropy_total]
  unfold RrhoDB.gibbs
  dsimp only
  generalize (db.enthalpy F exp Th Te Tr Tv Tel g none none none none none).total = H at hH ⊢
  have h0 : Diff db.m_ns H (db.sT log Th Te P H F.MinusEq) (db.sT log Th Te P s F.Eq) := by
    refine ⟨by rw [(sT_get log db Th Te P H _).1, (sT_get log db Th Te P s _).1, hH, hlen],
      fun j hj => ?_⟩
    obtain ⟨v, hv⟩ := (sT_get log db Th Te P H F.MinusEq).2 j hj (by omega)
    rw [hv H F.MinusEq (by omega), hv s F.Eq (by omega), hF.2.2.1, hF.1]
  have h1 := ((h0.sR F hF log db Tr).sV F hF exp log db Tv).sE F hF exp log db Tel
  have h2 : Diff db.m_ns H
      (if db.m_has_electron then
        (db.sE exp log Tel (db.sV exp log Tv (db.sR log Tr (db.sT log Th Te P H F.MinusEq)
          F.MinusEq) F.MinusEq) F.MinusEq).set 0
          ((db.sE exp log Tel (db.sV exp log Tv (db.sR log Tr (db.sT log Th Te P H F.MinusEq)
            F.MinusEq) F.MinusEq) F.MinusEq).get 0 - log 2.0)
      else db.sE exp log Tel (db.sV exp log Tv (db.sR log Tr (db.sT log Th Te P H F.MinusEq)
          F.MinusEq) F.MinusEq) F.MinusEq)
      (if db.m_has_electron then
        (db.sE exp log Tel (db.sV exp log Tv (db.sR log Tr (db.sT log Th Te P s F.Eq)
          F.PlusEq) F.PlusEq) F.PlusEq).set 0
          ((db.sE exp log Tel (db.sV exp log Tv (db.sR log Tr (db.sT log Th Te P s F.Eq)
            F.PlusEq) F.PlusEq) F.PlusEq).get 0 + log 2.0)
      else db.sE exp log Tel (db.sV exp log Tv (db.sR log Tr (db.sT log Th Te P s F.Eq)
          F.PlusEq) F.PlusEq) F.PlusEq) := by
    split_ifs
    · exact h1.update 0 _
    · exact h1
  exact h2.2 i hi

/-- C25 on the database `eNN2` over the reals, with arrays of three zeros. -/
theorem gibbs_is_h_minus_s_witness :
    (stdFunctors : Functors ℝ).Std ∧ ([0, 0, 0] : Vec ℝ).length = ([0, 0, 0] : Vec ℝ).length ∧
      (eNN2 ℝ).m_ns ≤ ([0, 0, 0] : Vec ℝ).length ∧ 0 < (eNN2 ℝ).m_ns ∧
      ((eNN2 ℝ).gibbs stdFunctors Real.exp Real.log 300 300 300 300 300 101325
          [0, 0, 0]).get 0 =
        ((eNN2 ℝ).enthalpy stdFunctors Real.exp 300 300 300 300 300 [0, 0, 0]
            none none none none none).total.get 0 -
          ((eNN2 ℝ).entropy stdFunctors Real.exp Real.log 300 300 300 300 300 101325
            [0, 0, 0] none none none none).total.get 0 :=
  have hstd : (stdFunctors : Functors ℝ).Std :=
    ⟨fun _ _ => rfl, fun _ _ => rfl, fun _ _ => rfl, fun _ _ _ => rfl, fun _ _ _ => rfl⟩
  ⟨hstd, rfl, by decide, by decide,
    gibbs_is_h_minus_s stdFunctors hstd Real.exp Real.log (eNN2 ℝ) 300 300 300 300 300 101325
      [0, 0, 0] [0, 0, 0] rfl (by decide) 0 (by decide)⟩

end Thermo
